import Mathlib

/-!
# The dynamic series builder of `libtenzir/src/series_builder.cpp`

A shallow embedding of the builder tree (`typed_builder<T>`, `conflict_builder`,
`dynamic_builder`, `series_builder_impl`) and of the handles that write into it
(`record_ref`, `field_ref`, `builder_ref`, `series_builder`), followed by
theorems about lengths, batches and failed writes.

Conventions of the embedding.

* A call that does not return (a failed `TENZIR_ASSERT*`, `TENZIR_TODO`,
  `TENZIR_UNREACHABLE`, `check` on a failed Arrow status, a loop that never
  exits) is a value of `abort`; functions return `Except abort _`.
  `TENZIR_ASSERT_EXPENSIVE` is not evaluated.
* `int64_t` lengths are natural numbers: every length the code stores is a
  container size. The one `int64_t` that can be negative is the argument
  `length_ - 1` of the `resize` calls of a field write, which is -1 at record
  length 0 (a handle used after `remove_last`): the model stops there with
  `abort.negative`.
* Pointers into the tree (`dynamic_builder*`, `typed_builder<record_type>*`)
  are paths from the root builder; the back pointer `root_` is the series that
  the operation is run on.
* The Arrow runtime is a primitive: an Arrow builder is the list of the slots
  appended so far, an Arrow array is the list of its slots.
* Code that the sources at hand do not contain is a parameter: the JSON printer
  (`print`) and `cast_value`.
-/

namespace tenzir

/-- The ways in which a call stops the process instead of returning. A failed
assertion carries the line of the assertion in `series_builder.cpp`.
`negative line` is the call `resize(length_ - 1)` at `line` on a record of
length 0: the code passes -1, which a null builder stores as its length and
with which an atom builder calls `AppendArraySlice(..., 0, -1)`. No builder of
the model has a negative length, so the model follows the code no further. -/
inductive abort where
  | assertion (line : Nat)
  | todo (line : Nat)
  | unreachable (line : Nat)
  | status (line : Nat)
  | narrow (line : Nat)
  | diverges (line : Nat)
  | negative (line : Nat)
  | dangling
deriving DecidableEq, Repr

/-- A statement that returns when the condition holds and stops the process
otherwise: `TENZIR_ASSERT`, `TENZIR_ASSERT_CHEAP`, `check` and `detail::narrow`. -/
def ensure (condition : Prop) [Decidable condition] (otherwise : abort) : Except abort Unit :=
  if condition then .ok () else .error otherwise

/-- The basic types other than `null_type`: the `T` of the atom specialisation
`typed_builder<T>` that `dynamic_builder::prepare<T>` can create. -/
inductive basic_kind where
  | bool | int64 | uint64 | double | duration | time | string | ip | subnet
deriving DecidableEq, Repr

/-- The tag `type_kind` of a type. -/
inductive type_kind where
  | null
  | basic (k : basic_kind)
  | enumeration
  | list
  | map
  | record
deriving DecidableEq, Repr

/-- The type `atom_view`: `caf::none_t` or a scalar. A `double` is carried as its
bit pattern, addresses as numbers: the builder only stores and copies them. -/
inductive atom_view where
  | null
  | bool (v : Bool)
  | int64 (v : Int)
  | uint64 (v : Nat)
  | double (bits : Nat)
  | duration (ns : Int)
  | time (ns : Int)
  | string (v : String)
  | ip (v : Nat)
  | subnet (network : Nat) (length : Nat)
  | enumeration (v : Nat)
deriving DecidableEq, Repr

/-- The result of `atom_view_to_type_t`. -/
inductive atom_view_type where
  | null
  | enumeration
  | basic (k : basic_kind)
deriving DecidableEq, Repr

/-- The trait `atom_view_to_type_t<decltype(value)>`. -/
def atom_view_to_type_t : atom_view → atom_view_type
  | .null => .null
  | .bool _ => .basic .bool
  | .int64 _ => .basic .int64
  | .uint64 _ => .basic .uint64
  | .double _ => .basic .double
  | .duration _ => .basic .duration
  | .time _ => .basic .time
  | .string _ => .basic .string
  | .ip _ => .basic .ip
  | .subnet _ _ => .basic .subnet
  | .enumeration _ => .enumeration

/-- The type `data_view2`: an atom, a list view, a record view, or one of the two
views (`pattern`, `map`) that `try_data` treats as unreachable. -/
inductive data_view2 where
  | atom (v : atom_view)
  | pattern
  | map
  | list (xs : List data_view2)
  | record (fields : List (String × data_view2))

/-- The class `tenzir::type`. `enriched` is a layer of metadata (a name and
attributes) around a type; a default-constructed `type{}` is `null`. -/
inductive type where
  | null
  | basic (k : basic_kind)
  | enumeration (labels : List String)
  | list (value_type : type)
  | map (key_type : type) (value_type : type)
  | record (fields : List (String × type))
  | enriched (name : String) (attributes : List (String × String)) (nested : type)

/-- The concrete type under all layers of metadata. -/
def type.strip : type → type
  | .enriched _ _ t => t.strip
  | t => t

/-- The layers of metadata of a type, outermost first. -/
def type.layers : type → List (String × List (String × String))
  | .enriched n as t => (n, as) :: t.layers
  | _ => []

/-- Puts layers of metadata around a type, the first layer outermost. -/
def type.wrap : List (String × List (String × String)) → type → type
  | [], t => t
  | (n, as) :: ls, t => .enriched n as (type.wrap ls t)

/-- The method `type::assign_metadata`: the metadata of `other` replaces the
metadata of the type. -/
def type.assign_metadata (ty other : type) : type :=
  type.wrap other.layers ty.strip

/-- The method `type::name`: the outermost non-empty name, or the empty string. -/
def type.name (ty : type) : String :=
  ((ty.layers.map Prod.fst).find? (fun n => n != "")).getD ""

/-- The method `type::attribute`: the value of the first attribute with that key. -/
def type.attribute (ty : type) (key : String) : Option String :=
  (ty.layers.flatMap Prod.snd).lookup key

/-- The method `type::kind`. -/
def type.kind : type → type_kind
  | .null => .null
  | .basic k => .basic k
  | .enumeration _ => .enumeration
  | .list _ => .list
  | .map _ _ => .map
  | .record _ => .record
  | .enriched _ _ t => t.kind

/-- An Arrow array. `primitive` is any fixed-kind scalar array (its kind is the
`type` of the `typed_array` around it); `list` has one more offset than lists;
`struct` has no validity bitmap when `null_bitmap` is `none`. -/
inductive arrow_array where
  | null (length : Nat)
  | primitive (values : List (Option atom_view))
  | list (offsets : List Nat) (validity : List Bool) (values : arrow_array)
  | struct (length : Nat) (children : List arrow_array) (null_bitmap : Option (List Bool))

/-- The method `arrow::Array::length`. -/
def arrow_array.length : arrow_array → Nat
  | .null n => n
  | .primitive vs => vs.length
  | .list _ validity _ => validity.length
  | .struct n _ _ => n

/-- The struct `typed_array`. -/
structure typed_array where
  type : type
  array : arrow_array

/-- The method `typed_array::length`. -/
def typed_array.length (a : typed_array) : Nat := a.array.length

mutual
/-- The empty array `ty.make_arrow_builder(pool)->Finish()`, as
`dynamic_builder::finish_and_leave` builds it when nothing is to be emitted. -/
def type.make_empty_array : type → arrow_array
  | .null => .null 0
  | .basic _ => .primitive []
  | .enumeration _ => .primitive []
  | .list t => .list [0] [] t.make_empty_array
  | .map k v => .list [0] [] (.struct 0 [k.make_empty_array, v.make_empty_array] none)
  | .record fs => .struct 0 (make_empty_arrays fs) none
  | .enriched _ _ t => t.make_empty_array
/-- The empty child arrays of a record type. -/
def make_empty_arrays : List (String × type) → List arrow_array
  | [] => []
  | (_, t) :: rest => t.make_empty_array :: make_empty_arrays rest
end

/-- The type stored in an atom builder: a basic type, or the enumeration type a
protected builder was constructed with. -/
inductive atom_type where
  | basic (k : basic_kind)
  | enumeration (labels : List String)
deriving DecidableEq, Repr

/-- The member `type_` of an atom builder as a `tenzir::type`. -/
def atom_type.to_type : atom_type → type
  | .basic k => .basic k
  | .enumeration ls => .enumeration ls

/-- The tag `tag_v<T>` of an atom builder. -/
def atom_type.kind : atom_type → type_kind
  | .basic k => .basic k
  | .enumeration _ => .enumeration

mutual
/-- The class hierarchy under `builder_base`.

* `null`: `typed_builder<null_type>` with its `length_`.
* `atom`: `typed_builder<T>` for a basic `T` or `enumeration_type`; `inner_` is
  the Arrow builder, one slot per row, `none` for a null slot.
* `list`: `typed_builder<list_type>`; a slot of `offsets_` is the stored
  beginning offset and its validity bit.
* `record`: `typed_builder<record_type>`; `fields_` is the insertion-ordered
  `stable_map`, `keep_alive_` names the field that the pointer designates.
* `conflict`: `conflict_builder`. -/
inductive builder_base where
  | null (length_ : Nat)
  | atom (type_ : atom_type) (inner_ : List (Option atom_view))
  | list (offsets_ : List (Nat × Bool)) (elements_ : dynamic_builder)
  | record (fields_ : List (String × dynamic_builder)) (valid_ : List Bool)
      (length_ : Nat) (keep_alive_ : Option String)
  | conflict (discriminants_ : List Nat) (variants_ : List builder_base)
/-- The class `dynamic_builder`: the inner builder, the protection flag and the
metadata. The back pointer `root_` is the series the operations are run on. -/
inductive dynamic_builder where
  | mk (builder_ : builder_base) (protected_ : Bool) (metadata_ : type)
end

/-- The member `builder_`. -/
def dynamic_builder.builder_ : dynamic_builder → builder_base
  | .mk b _ _ => b

/-- The member `metadata_`. -/
def dynamic_builder.metadata_ : dynamic_builder → type
  | .mk _ _ m => m

/-- The method `dynamic_builder::is_protected`. -/
def dynamic_builder.is_protected : dynamic_builder → Bool
  | .mk _ p _ => p

/-- The constructor `dynamic_builder(root)`: an unprotected null builder. -/
def dynamic_builder.new : dynamic_builder :=
  .mk (.null 0) false .null

/-- The overrides of `builder_base::length`. -/
def builder_base.length : builder_base → Nat
  | .null n => n
  | .atom _ vs => vs.length
  | .list offs _ => offs.length
  | .record _ _ n _ => n
  | .conflict ds _ => ds.length

/-- The method `dynamic_builder::length`. -/
def dynamic_builder.length (d : dynamic_builder) : Nat :=
  d.builder_.length

/-- The overrides of `builder_base::kind`; a conflict builder reports `string`. -/
def builder_base.kind : builder_base → type_kind
  | .null _ => .null
  | .atom t _ => t.kind
  | .list _ _ => .list
  | .record _ _ _ _ => .record
  | .conflict _ _ => .basic .string

/-- The method `dynamic_builder::kind`. -/
def dynamic_builder.kind (d : dynamic_builder) : type_kind :=
  d.builder_.kind

mutual
/-- The overrides of `builder_base::type`. -/
def builder_base.type : builder_base → type
  | .null _ => .null
  | .atom t _ => t.to_type
  | .list _ el => .list el.type
  | .record fs _ _ _ => .record (fields_type fs)
  | .conflict _ _ => .basic .string
/-- The method `dynamic_builder::type`: the inner type with the metadata. -/
def dynamic_builder.type : dynamic_builder → type
  | .mk b _ m => b.type.assign_metadata m
/-- The loop of `typed_builder<record_type>::type` over `fields_`. -/
def fields_type : List (String × dynamic_builder) → List (String × type)
  | [] => []
  | (name, b) :: rest => (name, b.type) :: fields_type rest
end

mutual
/-- The overrides of `builder_base::only_null`. -/
def builder_base.only_null : builder_base → Bool
  | .null _ => true
  | .atom _ vs => decide ((vs.filter (fun v => v.isNone)).length = vs.length)
  | .list offs _ => decide ((offs.filter (fun o => !o.2)).length = offs.length)
  | .record _ valid n _ => decide ((valid.filter (fun b => !b)).length = n)
  | .conflict _ vs => variants_only_null vs
/-- The loop of `conflict_builder::only_null` over `variants_`. -/
def variants_only_null : List builder_base → Bool
  | [] => true
  | v :: rest => if !v.only_null then false else variants_only_null rest
end

/-- The call `valid_.Append(nulls->data(), new_length)` of
`typed_builder<record_type>::resize` on the finished bitmap `nulls`: the
overload `TypedBufferBuilder<bool>::Append(const uint8_t*, int64_t)` reads one
byte per appended bit, and a byte of a bitmap packs eight bits. Slot `i` of
the result is true when byte `i` of the bitmap is not zero; the bytes after
the bitmap are the zero padding of the buffer. -/
def append_bytes_as_bits (nulls : List Bool) (new_length : Nat) : List Bool :=
  (List.range new_length).map (fun i => ((nulls.drop (8 * i)).take 8).any id)

mutual
/-- The overrides of `builder_base::resize`. The shrinking branch of
`conflict_builder::resize` runs `while (begin != discriminants_.end())` with a
body that never moves `begin`; it is entered with `begin` before the end, so
it never exits. In the growing branch of the list builder the stored offset
is `elements_.length()`, converted to `int32_t` (the value itself below
`2^31`). -/
def builder_base.resize : builder_base → Nat → Except abort builder_base
  | .null _, new_length => pure (.null new_length)
  | .atom t inner, new_length =>
    if inner.length < new_length then
      pure (.atom t (inner ++ List.replicate (new_length - inner.length) none))
    else if inner.length > new_length then
      pure (.atom t (inner.take new_length))
    else
      pure (.atom t inner)
  | .list offsets elements, new_length =>
    if new_length < offsets.length then do
      let elements1 ← elements.resize (offsets.getD new_length (0, false)).1
      pure (.list (offsets.take new_length) elements1)
    else if new_length > offsets.length then
      pure (.list (offsets ++ List.replicate (new_length - offsets.length)
        (elements.length, false)) elements)
    else
      pure (.list offsets elements)
  | .record fields valid length keep_alive, new_length =>
    if new_length < length then do
      let valid1 := if valid.length > new_length then
        append_bytes_as_bits valid new_length else valid
      let fields1 ← resize_fields fields new_length
      pure (.record fields1 valid1 new_length keep_alive)
    else if new_length > length then
      let true_count := length - valid.length
      let false_count := new_length - length
      pure (.record fields (valid ++ List.replicate true_count true
        ++ List.replicate false_count false) new_length keep_alive)
    else
      pure (.record fields valid new_length keep_alive)
  | .conflict discriminants variants, new_length =>
    if new_length > discriminants.length then
      match variants with
      | [] => .error (.assertion 463)
      | v0 :: rest => do
        let nulls := new_length - discriminants.length
        let v1 ← v0.resize (v0.length + nulls)
        pure (.conflict (discriminants ++ List.replicate nulls 0) (v1 :: rest))
    else if new_length < discriminants.length then
      .error (.diverges 468)
    else
      pure (.conflict discriminants variants)
/-- The method `dynamic_builder::resize`. -/
def dynamic_builder.resize : dynamic_builder → Nat → Except abort dynamic_builder
  | .mk b p m, new_length => do
    let b1 ← b.resize new_length
    pure (.mk b1 p m)
/-- The loop of `typed_builder<record_type>::resize` over `fields_`. -/
def resize_fields : List (String × dynamic_builder) → Nat →
    Except abort (List (String × dynamic_builder))
  | [], _ => pure []
  | (name, builder) :: rest, new_length => do
    let builder1 ← (if builder.length > new_length then builder.resize new_length
      else pure builder)
    let rest1 ← resize_fields rest new_length
    pure ((name, builder1) :: rest1)
end

mutual
/-- Modelled from the spec: the function `value_at` of `arrow_table_slice.hpp`,
which is not part of the sources at hand: the view of row `row` of a typed
array, null for an invalid slot, recursively for lists and structs. -/
def value_at : type → arrow_array → Nat → data_view2
  | _, .null _, _ => .atom .null
  | _, .primitive values, row => .atom ((values.getD row none).getD .null)
  | ty, .list offsets validity values, row =>
    if validity.getD row false then
      .list ((List.range (offsets.getD (row + 1) 0 - offsets.getD row 0)).map
        (fun j => value_at (match ty.strip with | .list t => t | _ => .null) values
          (offsets.getD row 0 + j)))
    else .atom .null
  | ty, .struct _ children null_bitmap, row =>
    if (null_bitmap.getD []).getD row true then
      .record (fields_at (match ty.strip with | .record fs => fs | _ => []) children row)
    else .atom .null
/-- The fields of row `row` of a struct array. -/
def fields_at : List (String × type) → List arrow_array → Nat → List (String × data_view2)
  | _, [], _ => []
  | fs, child :: rest, row =>
    ((fs.headD ("", .null)).1, value_at (fs.headD ("", .null)).2 child row)
      :: fields_at fs.tail rest row
end

/-- The function `arrow::ListArray::FromArrays` on an offsets array with
validity and a values array: it fails when the last offset is null; a null
offset is replaced by the next valid one, and the validity of the lists is
the validity of all offsets but the last. -/
def from_arrays (line : Nat) (offsets : List (Nat × Bool)) (values : arrow_array) :
    Except abort arrow_array :=
  match offsets.getLast? with
  | none => .error (.status line)
  | some last =>
    if !last.2 then .error (.status line)
    else
      pure (.list
        (offsets.foldr (fun o cleaned => (if o.2 then o.1 else cleaned.headD o.1) :: cleaned) [])
        (offsets.dropLast.map Prod.snd) values)

/-- The third loop of `conflict_builder::finish_and_leave`: one string per
finished row, printed by `json_printer` (a parameter: the printer is not part
of the sources at hand) from the next unread slot of the row's variant. -/
def conflict_render (print : data_view2 → Option String) (variant_arrays : List typed_array) :
    List Nat → List Nat → Except abort (List (Option atom_view))
  | [], _ => pure []
  | discriminant :: rest, variant_offsets =>
    match variant_arrays.get? discriminant with
    | none => .error (.assertion 412)
    | some variant =>
      let offset := variant_offsets.getD discriminant 0
      if offset < variant.length then
        match print (value_at variant.type variant.array offset) with
        | none => .error (.assertion 426)
        | some string => do
          let strings ← conflict_render print variant_arrays rest
            (variant_offsets.set discriminant (offset + 1))
          pure (some (.string string) :: strings)
      else .error (.assertion 414)

/-- Lines 759 to 774 of `typed_builder<record_type>::finish_and_leave`: the
validity buffer of the struct array (`valid_` filled up with true and then
finished, or none when `valid_` is empty) and what `valid_` is afterwards. -/
def finish_validity (valid : List Bool) (target_length : Nat) :
    Except abort (Option (List Bool) × List Bool) :=
  if valid.length > 0 then
    if target_length ≥ valid.length then
      .ok (some (valid ++ List.replicate (target_length - valid.length) true), [])
    else .error (.todo 772)
  else .ok (none, valid)

mutual
/-- The overrides of `builder_base::finish_and_leave(count)`, run on the builder
after `grow` null rows were appended to it: `grow` is the effect of the
`resize(target_length)` that `typed_builder<record_type>::finish_and_leave`
performs on a short field right before it finishes the field (lines 729 to
735, see `dynamic_builder_finish_after_resize`); every other caller passes
`grow = 0`. -/
def builder_base.finish_and_leave (print : data_view2 → Option String) :
    builder_base → Nat → Nat → Except abort (typed_array × builder_base)
  | .null length, grow, count =>
    if count > length + grow then .error (.assertion 133)
    else pure (⟨.null, .null (length + grow - count)⟩, .null count)
  | .atom t inner, grow, count =>
    let inner0 := inner ++ List.replicate grow none
    if count > inner0.length then .error (.status 554)
    else pure (⟨t.to_type, .primitive (inner0.take (inner0.length - count))⟩,
      .atom t (inner0.drop (inner0.length - count)))
  | .list offsets elements, grow, count => do
    let offsets0 := offsets ++ List.replicate grow (elements.length, false)
    let finish_count := offsets0.length - count
    ensure (elements.length < 2 ^ 31) (.narrow 639)
    let all := offsets0 ++ [(elements.length, true)]
    ensure (count ≤ offsets0.length) (.status 646)
    let result_offsets := all.take (finish_count + 1)
    let ending_offset := (all.getD finish_count (0, false)).1
    let offsets1 := ((all.drop finish_count).take count).map
      (fun o => (o.1 - ending_offset, true))
    let remaining_elements := elements.length - ending_offset
    let (used_elements, elements1) ← elements.finish_and_leave print 0 remaining_elements
    let result ← from_arrays 668 result_offsets used_elements.array
    pure (⟨.list used_elements.type, result⟩, .list offsets1 elements1)
  | .record fields valid length keep_alive, grow, count => do
    let valid0 := if grow > 0 then
      valid ++ List.replicate (length - valid.length) true ++ List.replicate grow false
      else valid
    let length0 := length + grow
    ensure (count ≤ length0) (.assertion 719)
    let ty := type.record (fields_type fields)
    let target_length := length0 - count
    let (children_arrays, fields1) ←
      finish_fields print fields length0 target_length keep_alive
    let (null_bitmap, valid1) ← finish_validity valid0 target_length
    pure (⟨ty, .struct target_length children_arrays null_bitmap⟩,
      .record fields1 valid1 count keep_alive)
  | .conflict discriminants variants, grow, count => do
    let discriminants0 := discriminants ++ List.replicate grow 0
    ensure (count ≤ discriminants0.length) (.assertion 393)
    let kept := discriminants0.drop (discriminants0.length - count)
    let (variant_arrays, variants1) ← finish_variants print variants 0 grow kept
    let strings ← conflict_render print variant_arrays
      (discriminants0.take (discriminants0.length - count))
      (List.replicate variants.length 0)
    pure (⟨.basic .string, .primitive strings⟩, .conflict kept variants1)
/-- The method `dynamic_builder::finish_and_leave(count)`, with `grow` as in
`builder_base.finish_and_leave`. -/
def dynamic_builder.finish_and_leave (print : data_view2 → Option String) :
    dynamic_builder → Nat → Nat → Except abort (typed_array × dynamic_builder)
  | .mk b p m, grow, count => do
    ensure (count ≤ b.length + grow) (.assertion 220)
    let (result, b1) ←
      (if count = b.length + grow then do
        let b0 ← (if grow > 0 then b.resize (b.length + grow) else pure b)
        pure ((⟨b.type.assign_metadata m, (b.type.assign_metadata m).make_empty_array⟩
          : typed_array), b0)
      else b.finish_and_leave print grow count)
    let result : typed_array := ⟨result.type.assign_metadata m, result.array⟩
    ensure (b1.length = count) (.assertion 232)
    pure (result, if b1.only_null && !p then .mk (.null count) p m else .mk b1 p m)
/-- The loop of `typed_builder<record_type>::finish_and_leave` over `fields_`
(lines 726 to 758): the child arrays and the fields that are not removed. -/
def finish_fields (print : data_view2 → Option String) :
    List (String × dynamic_builder) → Nat → Nat → Option String →
    Except abort (List arrow_array × List (String × dynamic_builder))
  | [], _, _, _ => pure ([], [])
  | (name, builder) :: rest, length_, target_length, keep_alive => do
    ensure (builder.length ≤ length_) (.assertion 728)
    let grow := target_length - builder.length
    let leave := builder.length + grow - target_length
    let (array, builder1) ← builder.finish_and_leave print grow leave
    ensure (builder1.length = leave) (.assertion 736)
    ensure (array.length = target_length) (.assertion 737)
    let remove := builder1.length == 0 && !builder1.is_protected && keep_alive != some name
    let (arrays, rest1) ← finish_fields print rest length_ target_length keep_alive
    pure (array.array :: arrays, if remove then rest1 else (name, builder1) :: rest1)
/-- The first two loops of `conflict_builder::finish_and_leave`: variant `i`
leaves as many rows as the kept discriminants name it. Only the first
variant takes part in a preceding `resize`. -/
def finish_variants (print : data_view2 → Option String) :
    List builder_base → Nat → Nat → List Nat →
    Except abort (List typed_array × List builder_base)
  | [], _, _, _ => pure ([], [])
  | variant :: rest, i, grow, kept => do
    let (array, variant1) ← variant.finish_and_leave print grow (kept.count i)
    let (arrays, rest1) ← finish_variants print rest (i + 1) 0 kept
    pure (array :: arrays, variant1 :: rest1)
end

/-- The Arrow builder or the type a `dynamic_builder::prepare<Type>` asks for:
a basic type other than null, the list type or the record type (the two
`static_assert`s exclude `null_type` and `enumeration_type`). -/
inductive target where
  | basic (k : basic_kind)
  | list
  | record
deriving DecidableEq, Repr

/-- The tag `type_kind::make<Type>()`. -/
def target.kind : target → type_kind
  | .basic k => .basic k
  | .list => .list
  | .record => .record

/-- The fresh builder `std::make_unique<Target>(root_)`. -/
def target.make : target → builder_base
  | .basic k => .atom (.basic k) []
  | .list => .list [] dynamic_builder.new
  | .record => .record [] [] 0 none

/-- Whether `dynamic_cast<Target*>` succeeds on the builder. -/
def builder_base.is : builder_base → target → Bool
  | .atom (.basic k) _, .basic k1 => k == k1
  | .list _ _, .list => true
  | .record _ _ _ _, .record => true
  | _, _ => false

/-- One step from a dynamic builder to a dynamic builder it owns: a field of
its record builder or the elements of its list builder. The record or list
builder is the inner builder (`variant = none`; when the inner builder has
meanwhile been moved into a conflict builder, it is variant 0 there) or the
variant of that index of the inner conflict builder. -/
inductive path_step where
  | field (variant : Option Nat) (name : String)
  | elements (variant : Option Nat)
deriving DecidableEq, Repr

/-- The value of a `dynamic_builder*`: the path from the root builder. -/
abbrev builder_path := List path_step

/-- The typed builder a pointer into a dynamic builder designates. -/
def dynamic_builder.typed (d : dynamic_builder) : Option Nat → Option builder_base
  | none =>
    match d.builder_ with
    | .conflict _ variants => variants.head?
    | b => some b
  | some i =>
    match d.builder_ with
    | .conflict _ variants => variants.get? i
    | _ => none

/-- Writes back the typed builder a pointer designates. -/
def dynamic_builder.set_typed : dynamic_builder → Option Nat → builder_base → dynamic_builder
  | .mk (.conflict ds variants) p m, none, t => .mk (.conflict ds (variants.set 0 t)) p m
  | .mk _ p m, none, t => .mk t p m
  | .mk (.conflict ds variants) p m, some i, t => .mk (.conflict ds (variants.set i t)) p m
  | d, some _, _ => d

/-- The method `typed_builder<record_type>::builder(name)` on `fields_`. -/
def fields_find (fields : List (String × dynamic_builder)) (name : String) :
    Option dynamic_builder :=
  fields.lookup name

/-- Replaces the builder of an existing field, keeping the order of `fields_`. -/
def fields_set (fields : List (String × dynamic_builder)) (name : String)
    (builder : dynamic_builder) : List (String × dynamic_builder) :=
  fields.map (fun f => if f.1 == name then (f.1, builder) else f)

/-- The dynamic builder one step below a typed builder. -/
def builder_base.child : builder_base → path_step → Option dynamic_builder
  | .record fields _ _ _, .field _ name => fields_find fields name
  | .list _ elements, .elements _ => some elements
  | _, _ => none

/-- Writes back the dynamic builder one step below a typed builder. -/
def builder_base.set_child : builder_base → path_step → dynamic_builder → builder_base
  | .record fields valid length keep_alive, .field _ name, c =>
    .record (fields_set fields name c) valid length keep_alive
  | .list offsets _, .elements _, c => .list offsets c
  | b, _, _ => b

/-- The index of the conflict variant or inner builder of a step. -/
def path_step.variant : path_step → Option Nat
  | .field v _ => v
  | .elements v => v

/-- Dereferences a `dynamic_builder*`; `dangling` when no object is there. -/
def dynamic_builder.get : dynamic_builder → builder_path → Except abort dynamic_builder
  | d, [] => pure d
  | d, step :: rest =>
    match d.typed step.variant with
    | none => .error .dangling
    | some t =>
      match t.child step with
      | none => .error .dangling
      | some c => c.get rest

/-- Stores through a `dynamic_builder*`. -/
def dynamic_builder.set : dynamic_builder → builder_path → dynamic_builder →
    Except abort dynamic_builder
  | _, [], new => pure new
  | d, step :: rest, new =>
    match d.typed step.variant with
    | none => .error .dangling
    | some t =>
      match t.child step with
      | none => .error .dangling
      | some c => do
        let c1 ← c.set rest new
        pure (d.set_typed step.variant (t.set_child step c1))

/-- The class `series_builder_impl`. -/
structure series_builder_impl where
  builder_ : dynamic_builder
  finished_ : List typed_array
  has_conflict_ : Bool

/-- The constructor `series_builder_impl()`. -/
def series_builder_impl.new : series_builder_impl :=
  ⟨dynamic_builder.new, [], false⟩

/-- Dereferences a `dynamic_builder*` of the series. -/
def series_builder_impl.get (s : series_builder_impl) (path : builder_path) :
    Except abort dynamic_builder :=
  s.builder_.get path

/-- Stores through a `dynamic_builder*` of the series. -/
def series_builder_impl.set (s : series_builder_impl) (path : builder_path)
    (d : dynamic_builder) : Except abort series_builder_impl := do
  let b ← s.builder_.set path d
  pure { s with builder_ := b }

/-- The method `series_builder_impl::total_length`. -/
def series_builder_impl.total_length (s : series_builder_impl) : Nat :=
  s.finished_.foldl (fun total array => total + array.length) s.builder_.length

/-- The method `series_builder_impl::kind`. -/
def series_builder_impl.kind (s : series_builder_impl) : type_kind :=
  s.builder_.kind

/-- The method `series_builder_impl::type`. -/
def series_builder_impl.type (s : series_builder_impl) : type :=
  s.builder_.type

/-- The method `series_builder_impl::is_protected`. -/
def series_builder_impl.is_protected (s : series_builder_impl) : Bool :=
  s.builder_.is_protected

/-- The method `series_builder_impl::finish_previous_events(requester)`;
`requester_is_root` is the test `requester == &builder_`. -/
def series_builder_impl.finish_previous_events (print : data_view2 → Option String)
    (s : series_builder_impl) (requester_is_root : Bool) : Except abort series_builder_impl :=
  if s.builder_.length = 0 then pure s
  else
    let keep_last := !requester_is_root
    if s.builder_.length = 1 && keep_last then pure s
    else do
      let leave := if keep_last then 1 else 0
      let (slice, b1) ← s.builder_.finish_and_leave print 0 leave
      ensure (b1.length = leave) (.assertion 326)
      ensure (slice.length > 0) (.assertion 327)
      pure { s with builder_ := b1, finished_ := s.finished_ ++ [slice] }

/-- The method `series_builder_impl::set_conflict_flag`. -/
def series_builder_impl.set_conflict_flag (s : series_builder_impl) : series_builder_impl :=
  { s with has_conflict_ := true }

/-- The method `series_builder_impl::finish`: the returned arrays and the series. -/
def series_builder_impl.finish (print : data_view2 → Option String)
    (s : series_builder_impl) : Except abort (List typed_array × series_builder_impl) :=
  if s.builder_.length > 0 then do
    let (array, b1) ← s.builder_.finish_and_leave print 0 0
    ensure (b1.length = 0) (.assertion 340)
    pure (s.finished_ ++ [array], ⟨b1, [], false⟩)
  else pure (s.finished_, ⟨s.builder_, [], false⟩)

/-- The method `series_builder_impl::remove_last`. -/
def series_builder_impl.remove_last (s : series_builder_impl) :
    Except abort series_builder_impl :=
  if s.builder_.length > 0 then do
    let b1 ← s.builder_.resize (s.builder_.length - 1)
    pure ⟨b1, s.finished_, false⟩
  else pure ⟨s.builder_, s.finished_, false⟩

/-- The method `series_builder_impl::finish_if_conflict`. -/
def series_builder_impl.finish_if_conflict (print : data_view2 → Option String)
    (s : series_builder_impl) : Except abort series_builder_impl :=
  if s.has_conflict_ then do
    let (array, b1) ← s.builder_.finish_and_leave print 0 0
    pure ⟨b1, s.finished_ ++ [array], false⟩
  else pure s

/-- The search loop of `conflict_builder::prepare<Type>` over `variants_`. -/
def find_variant (T : target) : List builder_base → Nat → Option Nat
  | [], _ => none
  | variant :: rest, i => if variant.is T then some i else find_variant T rest (i + 1)

/-- The method `conflict_builder::prepare<Type>`: the conflict builder with the
new discriminant, and the index of the variant that is returned. -/
def conflict_builder.prepare (discriminants : List Nat) (variants : List builder_base)
    (T : target) : Except abort (builder_base × Nat) :=
  match find_variant T variants 0 with
  | some i =>
    if i ≥ 256 then .error (.narrow 486)
    else pure (.conflict (discriminants ++ [i]) variants, i)
  | none =>
    if variants.length ≥ 256 then .error (.narrow 492)
    else pure (.conflict (discriminants ++ [variants.length]) (variants ++ [T.make]),
      variants.length)

/-- The first three cases of `dynamic_builder::prepare<Type>` (lines 946 to
962), which need nothing but the builder itself: the builder afterwards and
the variant the returned pointer designates, or `none` when none applies. -/
def dynamic_builder.prepare_cast (T : target) :
    dynamic_builder → Except abort (Option (dynamic_builder × Option Nat))
  | .mk b p m =>
    if b.is T then pure (some (.mk b p m, none))
    else
      match b with
      | .null length => do
        let fresh ← T.make.resize length
        pure (some (.mk fresh p m, none))
      | .conflict discriminants variants => do
        let (c, i) ← conflict_builder.prepare discriminants variants T
        pure (some (.mk c p m, some i))
      | _ => pure none

/-- The constructor `conflict_builder(root, std::move(builder_))` applied to the
inner builder of a dynamic builder (line 1031). -/
def dynamic_builder.wrap_conflict : dynamic_builder → dynamic_builder
  | .mk b p m => .mk (.conflict (List.replicate b.length 0) [b]) p m

/-- The method `dynamic_builder::prepare<Type>` of the dynamic builder at `self`:
the series afterwards and the variant the returned pointer designates. The
call `return prepare<Type>()` of line 1037 finds a null builder or a conflict
builder; on any other builder it would re-enter itself without end. -/
def dynamic_builder.prepare (print : data_view2 → Option String) (s : series_builder_impl)
    (self : builder_path) (T : target) : Except abort (series_builder_impl × Option Nat) := do
  let d ← s.get self
  match ← d.prepare_cast T with
  | some (d1, variant) => pure (← s.set self d1, variant)
  | none =>
    ensure (d.kind ≠ T.kind) (.assertion 975)
    ensure (d.is_protected = false) (.assertion 976)
    let s1 ← s.finish_previous_events print (self == [])
    let d1 ← s1.get self
    let s2 ← (if d1.length > 0 then do
        let s1a ← s1.set self d1.wrap_conflict
        pure s1a.set_conflict_flag
      else if d1.kind ≠ .null then .error (.assertion 1035)
      else pure s1)
    let d2 ← s2.get self
    match ← d2.prepare_cast T with
    | some (d3, variant) => pure (← s2.set self d3, variant)
    | none => .error (.diverges 1037)

/-- The value of a `record_ref`, a `typed_builder<record_type>*`: the dynamic
builder that owns the record builder, and where in it the record builder is. -/
structure record_ref where
  owner : builder_path
  variant : Option Nat
deriving DecidableEq, Repr

/-- The class `field_ref`. -/
structure field_ref where
  origin_ : record_ref
  name_ : String
deriving DecidableEq, Repr

/-- The class `builder_ref`: a reference to the series, to a dynamic builder or
to a field. -/
inductive builder_ref where
  | series
  | dynamic (ref : builder_path)
  | field (ref : field_ref)
deriving DecidableEq, Repr

/-- The method `typed_builder<T>::append(value)` through the pointer that
`prepare` returned. -/
def typed_builder.append_atom (s : series_builder_impl) (self : builder_path)
    (variant : Option Nat) (value : atom_view) : Except abort series_builder_impl := do
  let d ← s.get self
  match d.typed variant with
  | some (.atom t inner) => s.set self (d.set_typed variant (.atom t (inner ++ [some value])))
  | _ => .error .dangling

/-- The method `typed_builder<record_type>::append`. -/
def typed_builder.append_record (s : series_builder_impl) (self : builder_path)
    (variant : Option Nat) : Except abort (series_builder_impl × record_ref) := do
  let d ← s.get self
  match d.typed variant with
  | some (.record fields valid length keep_alive) =>
    let s1 ← s.set self (d.set_typed variant (.record fields valid (length + 1) keep_alive))
    pure (s1, ⟨self, variant⟩)
  | _ => .error .dangling

/-- The method `typed_builder<list_type>::append`. -/
def typed_builder.append_list (s : series_builder_impl) (self : builder_path)
    (variant : Option Nat) : Except abort (series_builder_impl × builder_ref) := do
  let d ← s.get self
  match d.typed variant with
  | some (.list offsets elements) =>
    ensure (elements.length < 2 ^ 31) (.narrow 606)
    let s1 ← s.set self (d.set_typed variant (.list (offsets ++ [(elements.length, true)]) elements))
    pure (s1, .dynamic (self ++ [.elements variant]))
  | _ => .error .dangling

/-- The method `dynamic_builder::atom`. -/
def dynamic_builder.atom (print : data_view2 → Option String) (s : series_builder_impl)
    (self : builder_path) (value : atom_view) : Except abort series_builder_impl :=
  match atom_view_to_type_t value with
  | .null => do
    let d ← s.get self
    let d1 ← d.resize (d.length + 1)
    s.set self d1
  | .enumeration => do
    let d ← s.get self
    match d with
    | .mk (.atom (.enumeration labels) inner) p m =>
      s.set self (.mk (.atom (.enumeration labels) (inner ++ [some value])) p m)
    | _ => .error (.assertion 922)
  | .basic k => do
    let (s1, variant) ← dynamic_builder.prepare print s self (.basic k)
    typed_builder.append_atom s1 self variant value

/-- The method `dynamic_builder::record`. -/
def dynamic_builder.record (print : data_view2 → Option String) (s : series_builder_impl)
    (self : builder_path) : Except abort (series_builder_impl × record_ref) := do
  let (s1, variant) ← dynamic_builder.prepare print s self .record
  typed_builder.append_record s1 self variant

/-- The method `dynamic_builder::list`. -/
def dynamic_builder.list (print : data_view2 → Option String) (s : series_builder_impl)
    (self : builder_path) : Except abort (series_builder_impl × builder_ref) := do
  let (s1, variant) ← dynamic_builder.prepare print s self .list
  typed_builder.append_list s1 self variant

/-- Dereferences a `typed_builder<record_type>*`: the dynamic builder that owns
the record builder and the members of the record builder. -/
def record_ref.get (s : series_builder_impl) (r : record_ref) :
    Except abort (dynamic_builder × List (String × dynamic_builder) × List Bool × Nat
      × Option String) := do
  let d ← s.get r.owner
  match d.typed r.variant with
  | some (.record fields valid length keep_alive) => pure (d, fields, valid, length, keep_alive)
  | _ => .error .dangling

/-- Stores the members of a record builder through a `typed_builder<record_type>*`. -/
def record_ref.set (s : series_builder_impl) (r : record_ref) (d : dynamic_builder)
    (fields : List (String × dynamic_builder)) (valid : List Bool) (length : Nat)
    (keep_alive : Option String) : Except abort series_builder_impl :=
  s.set r.owner (d.set_typed r.variant (.record fields valid length keep_alive))

/-- The method `typed_builder<record_type>::prepare<Type>(name)`: the series
afterwards, the field builder and the variant the returned pointer designates.
`length_ - 1` is an `int64_t`: at `length_ = 0` the code calls `resize(-1)`
(lines 848 and 852), where the model stops. -/
def typed_builder.prepare_field (print : data_view2 → Option String) (s : series_builder_impl)
    (self : record_ref) (name : String) (T : target) :
    Except abort (series_builder_impl × builder_path × Option Nat) := do
  let (d, fields, valid, length, keep_alive) ← record_ref.get s self
  let path := self.owner ++ [.field self.variant name]
  match fields_find fields name with
  | none =>
    ensure (1 ≤ length) (.negative 848)
    let builder ← dynamic_builder.new.resize (length - 1)
    let s1 ← record_ref.set s self d (fields ++ [(name, builder)]) valid length keep_alive
    let (s2, variant) ← dynamic_builder.prepare print s1 path T
    pure (s2, path, variant)
  | some builder =>
    ensure (1 ≤ length) (.negative 852)
    let builder1 ← builder.resize (length - 1)
    ensure (keep_alive = none) (.assertion 859)
    let s1 ← record_ref.set s self d (fields_set fields name builder1) valid length (some name)
    let (s2, variant) ← dynamic_builder.prepare print s1 path T
    let (d2, fields2, valid2, length2, _) ← record_ref.get s2 self
    let s3 ← record_ref.set s2 self d2 fields2 valid2 length2 none
    pure (s3, path, variant)

/-- The method `field_ref::atom`. `origin_->length() - 1` is an `int64_t`: at
record length 0 the code calls `resize(-1)` (lines 1055 and 1070), where the
model stops. -/
def field_ref.atom (print : data_view2 → Option String) (s : series_builder_impl)
    (self : field_ref) (value : atom_view) : Except abort series_builder_impl :=
  match atom_view_to_type_t value with
  | .null => do
    let (d, fields, valid, length, keep_alive) ← record_ref.get s self.origin_
    match fields_find fields self.name_ with
    | some field =>
      ensure (field.length ≤ length) (.assertion 1053)
      if field.length = length then do
        ensure (1 ≤ length) (.negative 1055)
        let field1 ← field.resize (length - 1)
        record_ref.set s self.origin_ d (fields_set fields self.name_ field1) valid length
          keep_alive
      else pure s
    | none => pure s
  | .enumeration => do
    let (d, fields, valid, length, keep_alive) ← record_ref.get s self.origin_
    match fields_find fields self.name_ with
    | none => .error (.assertion 1067)
    | some builder =>
      ensure (1 ≤ length) (.negative 1070)
      let builder1 ← builder.resize (length - 1)
      let s1 ← record_ref.set s self.origin_ d (fields_set fields self.name_ builder1) valid
        length keep_alive
      dynamic_builder.atom print s1
        (self.origin_.owner ++ [.field self.origin_.variant self.name_]) value
  | .basic k => do
    let (s1, path, variant) ← typed_builder.prepare_field print s self.origin_ self.name_
      (.basic k)
    typed_builder.append_atom s1 path variant value

/-- The method `field_ref::record`. -/
def field_ref.record (print : data_view2 → Option String) (s : series_builder_impl)
    (self : field_ref) : Except abort (series_builder_impl × record_ref) := do
  let (s1, path, variant) ← typed_builder.prepare_field print s self.origin_ self.name_ .record
  typed_builder.append_record s1 path variant

/-- The method `field_ref::list`. -/
def field_ref.list (print : data_view2 → Option String) (s : series_builder_impl)
    (self : field_ref) : Except abort (series_builder_impl × builder_ref) := do
  let (s1, path, variant) ← typed_builder.prepare_field print s self.origin_ self.name_ .list
  typed_builder.append_list s1 path variant

/-- The method `field_ref::builder`. -/
def field_ref.builder (s : series_builder_impl) (self : field_ref) :
    Except abort (Option dynamic_builder) := do
  let (_, fields, _, _, _) ← record_ref.get s self.origin_
  pure (fields_find fields self.name_)

/-- The method `field_ref::kind`. -/
def field_ref.kind (s : series_builder_impl) (self : field_ref) : Except abort type_kind := do
  match ← field_ref.builder s self with
  | some b => pure b.kind
  | none => pure .null

/-- The method `field_ref::type`. -/
def field_ref.type (s : series_builder_impl) (self : field_ref) : Except abort type := do
  match ← field_ref.builder s self with
  | some b => pure b.type
  | none => pure .null

/-- The method `field_ref::is_protected`. -/
def field_ref.is_protected (s : series_builder_impl) (self : field_ref) :
    Except abort Bool := do
  match ← field_ref.builder s self with
  | some b => pure b.is_protected
  | none => pure false

/-- The method `series_builder_impl::atom`. -/
def series_builder_impl.atom (print : data_view2 → Option String) (s : series_builder_impl)
    (value : atom_view) : Except abort series_builder_impl := do
  let s1 ← s.finish_if_conflict print
  dynamic_builder.atom print s1 [] value

/-- The method `series_builder_impl::record`. -/
def series_builder_impl.record (print : data_view2 → Option String) (s : series_builder_impl) :
    Except abort (series_builder_impl × record_ref) := do
  let s1 ← s.finish_if_conflict print
  dynamic_builder.record print s1 []

/-- The method `series_builder_impl::list`. -/
def series_builder_impl.list (print : data_view2 → Option String) (s : series_builder_impl) :
    Except abort (series_builder_impl × builder_ref) := do
  let s1 ← s.finish_if_conflict print
  dynamic_builder.list print s1 []

mutual
/-- The inner builder that `dynamic_builder::protect(ty)` installs in a fresh
dynamic builder, by the concrete type under the metadata of `ty`. -/
def protect_builder : type → Except abort builder_base
  | .null => pure (.null 0)
  | .basic k => pure (.atom (.basic k) [])
  | .enumeration labels => pure (.atom (.enumeration labels) [])
  | .list value_type => do
    let elements ← protect_builder value_type
    pure (.list [] (.mk elements true value_type))
  | .map _ _ => .error (.unreachable 1367)
  | .record fields => do
    let fields1 ← protect_fields fields []
    pure (.record fields1 [] 0 none)
  | .enriched _ _ nested => protect_builder nested
/-- The loop of the record case of `dynamic_builder::protect` (lines 1357 to
1360); `insert_new_field` asserts that the name is new. -/
def protect_fields : List (String × type) → List (String × dynamic_builder) →
    Except abort (List (String × dynamic_builder))
  | [], done => pure done
  | (name, field_ty) :: rest, done => do
    ensure ((fields_find done name).isNone = true) (.assertion 870)
    let field ← protect_builder field_ty
    protect_fields rest (done ++ [(name, .mk field true field_ty)])
end

/-- The method `dynamic_builder::protect(ty)` on a dynamic builder directly after
its construction. -/
def dynamic_builder.protect (ty : tenzir.type) : Except abort dynamic_builder := do
  let b ← protect_builder ty
  pure (.mk b true ty)

/-- The constructor `series_builder(ty)`. -/
def series_builder.new (ty : Option tenzir.type) : Except abort series_builder_impl :=
  match ty with
  | none => pure series_builder_impl.new
  | some ty => do
    let b ← dynamic_builder.protect ty
    pure ⟨b, [], false⟩

/-- The method `series_builder::null`. -/
def series_builder.null (print : data_view2 → Option String) (s : series_builder_impl) :
    Except abort series_builder_impl :=
  s.atom print .null

/-- The method `series_builder::atom`. -/
def series_builder.atom (print : data_view2 → Option String) (s : series_builder_impl)
    (value : atom_view) : Except abort series_builder_impl :=
  s.atom print value

/-- The method `series_builder::record`. -/
def series_builder.record (print : data_view2 → Option String) (s : series_builder_impl) :
    Except abort (series_builder_impl × record_ref) :=
  s.record print

/-- The method `series_builder::list`. -/
def series_builder.list (print : data_view2 → Option String) (s : series_builder_impl) :
    Except abort (series_builder_impl × builder_ref) :=
  s.list print

/-- The method `series_builder::finish`. -/
def series_builder.finish (print : data_view2 → Option String) (s : series_builder_impl) :
    Except abort (List typed_array × series_builder_impl) :=
  s.finish print

/-- The method `series_builder::length`. -/
def series_builder.length (s : series_builder_impl) : Nat :=
  s.total_length

/-- The method `series_builder::remove_last`. -/
def series_builder.remove_last (s : series_builder_impl) : Except abort series_builder_impl :=
  s.remove_last

/-- The method `record_ref::field`. -/
def record_ref.field (self : record_ref) (name : String) : builder_ref :=
  .field ⟨self, name⟩

/-- The method `builder_ref::atom`. -/
def builder_ref.atom (print : data_view2 → Option String) (s : series_builder_impl) :
    builder_ref → atom_view → Except abort series_builder_impl
  | .series, value => series_builder.atom print s value
  | .dynamic ref, value => dynamic_builder.atom print s ref value
  | .field ref, value => field_ref.atom print s ref value

/-- The method `builder_ref::record`. -/
def builder_ref.record (print : data_view2 → Option String) (s : series_builder_impl) :
    builder_ref → Except abort (series_builder_impl × record_ref)
  | .series => series_builder.record print s
  | .dynamic ref => dynamic_builder.record print s ref
  | .field ref => field_ref.record print s ref

/-- The method `builder_ref::list`. -/
def builder_ref.list (print : data_view2 → Option String) (s : series_builder_impl) :
    builder_ref → Except abort (series_builder_impl × builder_ref)
  | .series => series_builder.list print s
  | .dynamic ref => dynamic_builder.list print s ref
  | .field ref => field_ref.list print s ref

/-- The method `builder_ref::kind`. -/
def builder_ref.kind (s : series_builder_impl) : builder_ref → Except abort type_kind
  | .series => pure s.kind
  | .dynamic ref => do pure (← s.get ref).kind
  | .field ref => field_ref.kind s ref

/-- The method `builder_ref::type`. -/
def builder_ref.type (s : series_builder_impl) : builder_ref → Except abort type
  | .series => pure s.type
  | .dynamic ref => do pure (← s.get ref).type
  | .field ref => field_ref.type s ref

/-- The method `builder_ref::is_protected`. -/
def builder_ref.is_protected (s : series_builder_impl) : builder_ref → Except abort Bool
  | .series => pure s.is_protected
  | .dynamic ref => do pure (← s.get ref).is_protected
  | .field ref => field_ref.is_protected s ref

/-- The error codes of the `caf::error`s that `try_atom` returns. -/
inductive ec where
  | type_clash
  | convert_error
deriving DecidableEq, Repr

/-- The signature of `cast_value` of `cast.hpp`, which is not part of the
sources at hand: the value, the concrete target type and the optional unit
argument; the result is the value in the target type, or an error. -/
abbrev cast_fn := atom_view → type → Option String → Except ec atom_view

/-- The method `builder_ref::try_atom`: the series afterwards and the returned
`caf::expected<void>`. The concept `detail::atom_type` holds for the null
type, the basic types and the enumeration type. -/
def builder_ref.try_atom (print : data_view2 → Option String) (cast_value : cast_fn)
    (s : series_builder_impl) (self : builder_ref) (value : atom_view) :
    Except abort (series_builder_impl × Except ec Unit) := do
  if !(← builder_ref.is_protected s self) then
    if atom_view_to_type_t value = .enumeration then
      pure (s, .error .type_clash)
    else do
      let s1 ← builder_ref.atom print s self value
      pure (s1, .ok ())
  else
    let to_kind ← builder_ref.kind s self
    match to_kind with
    | .list => pure (s, .error .type_clash)
    | .map => pure (s, .error .type_clash)
    | .record => pure (s, .error .type_clash)
    | _ =>
      let full_ty ← builder_ref.type s self
      let ty := full_ty.strip
      let result :=
        if to_kind = .basic .duration then
          let unit := (full_ty.attribute "unit").getD "s"
          match value with
          | .int64 _ => cast_value value ty (some unit)
          | .uint64 _ => cast_value value ty (some unit)
          | .double _ => cast_value value ty (some unit)
          | .string v =>
            match cast_value value ty none with
            | .ok r => .ok r
            | .error _ => cast_value (.string (v ++ " " ++ unit)) ty none
          | _ => cast_value value ty none
        else cast_value value ty none
      match result with
      | .error e => pure (s, .error e)
      | .ok r => do
        let s1 ← builder_ref.atom print s self r
        pure (s1, .ok ())

/-- The method `builder_ref::try_data`. Both loops leave the function in their
first iteration (`return` at lines 1197 and 1204). -/
def builder_ref.try_data (print : data_view2 → Option String) (cast_value : cast_fn) :
    series_builder_impl → builder_ref → data_view2 →
    Except abort (series_builder_impl × Except ec Unit)
  | s, self, .record [] => do
    let (s1, _) ← builder_ref.record print s self
    pure (s1, .ok ())
  | s, self, .record ((name, data) :: _) => do
    let (s1, r) ← builder_ref.record print s self
    builder_ref.try_data print cast_value s1 (r.field name) data
  | s, self, .list [] => do
    let (s1, _) ← builder_ref.list print s self
    pure (s1, .ok ())
  | s, self, .list (y :: _) => do
    let (s1, l) ← builder_ref.list print s self
    builder_ref.try_data print cast_value s1 l y
  | s, self, .atom x => builder_ref.try_atom print cast_value s self x
  | _, _, .pattern => .error (.unreachable 1212)
  | _, _, .map => .error (.unreachable 1215)

/-- The method `builder_ref::data`. -/
def builder_ref.data (print : data_view2 → Option String) (cast_value : cast_fn)
    (s : series_builder_impl) (self : builder_ref) (value : data_view2) :
    Except abort series_builder_impl := do
  let (s1, result) ← builder_ref.try_data print cast_value s self value
  match result with
  | .ok _ => pure s1
  | .error _ => .error (.assertion 1189)

/-- The method `series_builder::data`. -/
def series_builder.data (print : data_view2 → Option String) (cast_value : cast_fn)
    (s : series_builder_impl) (value : data_view2) : Except abort series_builder_impl :=
  builder_ref.data print cast_value s .series value

/-! ## Callers and readers used to state the properties -/

/-- A caller that writes a sequence of atoms at top level, one `atom(v)` each. -/
def write_atoms (print : data_view2 → Option String) (s : series_builder_impl)
    (values : List atom_view) : Except abort series_builder_impl :=
  values.foldlM (series_builder.atom print) s

/-- The rows of a typed array, read with `value_at`. -/
def typed_array.rows (a : typed_array) : List data_view2 :=
  (List.range a.length).map (value_at a.type a.array)

/-- An array of atoms has a single kind: every non-null value in it has the
kind that is the type of the array, and an array without a non-null value
has the null type. -/
def typed_array.single_kind (a : typed_array) : Prop :=
  (∀ v, data_view2.atom v ∈ a.rows →
    v = .null ∨ ∃ k, atom_view_to_type_t v = .basic k ∧ a.type = .basic k)
  ∧ ((∀ r ∈ a.rows, r = data_view2.atom .null) → a.type = .null)

/-- The slot an atom builder holds for a written value: none for null. -/
def atom_view.slot (v : atom_view) : Option atom_view :=
  if v = .null then none else some v

/-- The current builder of a series that has only received top-level atoms,
in terms of the values `rows` written since the last batch was cut: a null
builder while all of them are null, else an atom builder of the kind of the
non-null values. -/
def holds_atoms (b : builder_base) (rows : List atom_view) : Prop :=
  (b = .null rows.length ∧ ∀ v ∈ rows, v = .null)
  ∨ (∃ k, b = .atom (.basic k) (rows.map atom_view.slot)
      ∧ (∀ v ∈ rows, v = .null ∨ atom_view_to_type_t v = .basic k)
      ∧ ∃ v ∈ rows, v ≠ .null)

/-- A call that a caller makes on the series itself. -/
inductive top_level_call where
  | null
  | atom (value : atom_view)
  | record
  | list
  | remove_last

/-- Runs one call on the series. -/
def top_level_call.run (print : data_view2 → Option String) (s : series_builder_impl) :
    top_level_call → Except abort series_builder_impl
  | .null => series_builder.null print s
  | .atom value => series_builder.atom print s value
  | .record => (series_builder.record print s).map Prod.fst
  | .list => (series_builder.list print s).map Prod.fst
  | .remove_last => series_builder.remove_last s

/-- Runs calls on the series, in order. -/
def run_calls (print : data_view2 → Option String) (s : series_builder_impl)
    (calls : List top_level_call) : Except abort series_builder_impl :=
  calls.foldlM (top_level_call.run print) s

/-- Whether a call writes a top-level row. -/
def top_level_call.is_write : top_level_call → Bool
  | .remove_last => false
  | _ => true

/-- The length a series is said to have after a sequence of calls: the number
of rows written minus the number of `remove_last()` calls, not below zero. -/
def rows_written_minus_removed (calls : List top_level_call) : Nat :=
  (calls.filter top_level_call.is_write).length
    - (calls.filter (fun c => !c.is_write)).length

/-- A caller that writes one record event whose fields are atoms: `record()`,
then `field(name).atom(value)` for every field in order. -/
def write_record (print : data_view2 → Option String) (s : series_builder_impl)
    (fields : List (String × atom_view)) : Except abort series_builder_impl := do
  let (s1, r) ← series_builder.record print s
  fields.foldlM (fun s f => builder_ref.atom print s (r.field f.1) f.2) s1

/-- A caller that writes a sequence of record events. -/
def write_records (print : data_view2 → Option String) (s : series_builder_impl)
    (events : List (List (String × atom_view))) : Except abort series_builder_impl :=
  events.foldlM (write_record print) s

/-- The slots of an atom builder after `resize(n)`: filled up with nulls or cut. -/
def resized (slots : List (Option atom_view)) (n : Nat) : List (Option atom_view) :=
  (slots ++ List.replicate (n - slots.length) none).take n

/-- The field builders of a record whose fields all hold scalars, given the
name, the kind and the slots of every field. -/
def atom_fields (cols : List (String × basic_kind × List (Option atom_view))) :
    List (String × dynamic_builder) :=
  cols.map (fun c => (c.1, .mk (.atom (.basic c.2.1) c.2.2) false .null))

/-- The effect of `field(name).atom(value)` on the fields of a record builder of
length `len` whose fields all hold scalars: an existing field is resized to
`len - 1` and gets the value, a new field starts with `len - 1` nulls. -/
def write_column (cols : List (String × basic_kind × List (Option atom_view))) (len : Nat)
    (name : String) (k : basic_kind) (value : atom_view) :
    List (String × basic_kind × List (Option atom_view)) :=
  if cols.any (fun c => c.1 = name) then
    cols.map (fun c => if c.1 = name then (c.1, c.2.1, resized c.2.2 (len - 1) ++ [some value])
      else c)
  else cols ++ [(name, k, List.replicate (len - 1) none ++ [some value])]

/-- Adds a field name unless it has appeared before. -/
def add_name (names : List String) (name : String) : List String :=
  if name ∈ names then names else names ++ [name]

/-- The field names written in a sequence of record events, in the order of
their first appearance. -/
def field_names (events : List (List (String × atom_view))) : List String :=
  (events.flatten.map Prod.fst).foldl add_name []

/-- The value that a record event writes for a field: the last one when the
field is written more than once, none when it is not written. -/
def last_written (event : List (String × atom_view)) (name : String) : Option atom_view :=
  event.foldl (fun acc w => if w.1 = name then some w.2 else acc) none

/-- The single batch that a sequence of record events with scalar fields is
said to finish as: the fields in order of first appearance, one row per
event with the value written for the field or null, and no validity bitmap
(every row is valid). -/
def expected_batch (kind_of : String → basic_kind) (events : List (List (String × atom_view))) :
    typed_array :=
  ⟨.record ((field_names events).map (fun f => (f, .basic (kind_of f)))),
    .struct events.length
      ((field_names events).map (fun f =>
        .primitive (events.map (fun e => last_written e f)))) none⟩

/-- The fields of a record builder agree with the rows written so far (the
last row may be in progress): the names are those written, in order of first
appearance; every field has the kind of its name, holds no more slots than
there are rows, and its slots, filled up with nulls, are the values written
for the name row by row. -/
def columns_hold (kind_of : String → basic_kind)
    (cols : List (String × basic_kind × List (Option atom_view)))
    (rows : List (List (String × atom_view))) : Prop :=
  cols.map Prod.fst = field_names rows
  ∧ (cols.map Prod.fst).Nodup
  ∧ ∀ c ∈ cols, c.2.1 = kind_of c.1 ∧ c.2.2.length ≤ rows.length
      ∧ c.2.2 ++ List.replicate (rows.length - c.2.2.length) none
          = rows.map (fun e => last_written e c.1)

/-- A caller that writes one record event with a single field that holds a
list of atoms: `record()`, `field(name).list()`, then one `atom(v)` on the
list for every value. -/
def write_list_field (print : data_view2 → Option String) (s : series_builder_impl)
    (name : String) (values : List atom_view) : Except abort series_builder_impl := do
  let (s1, r) ← series_builder.record print s
  let (s2, l) ← builder_ref.list print s1 (r.field name)
  values.foldlM (fun s v => builder_ref.atom print s l v) s2

/-- The number of values in a sequence of top-level atoms whose kind differs
from the kind of the most recent earlier non-null value; `last` is the kind
of the most recent non-null value before the sequence, if there is one. -/
def kind_changes : Option basic_kind → List atom_view → Nat
  | _, [] => 0
  | last, v :: rest =>
    match atom_view_to_type_t v with
    | .basic k =>
      (match last with
        | some k0 => if k0 = k then 0 else 1
        | none => 0) + kind_changes (some k) rest
    | _ => kind_changes last rest

/-- The kind of the scalars that a builder holds, none for a builder that is
not an atom builder of a basic type. -/
def builder_base.scalar_kind : builder_base → Option basic_kind
  | .atom (.basic k) _ => some k
  | _ => none

mutual
/-- An Arrow array is length-uniform when every struct array in it (the array
itself, the values of a list array, the children of a struct array) has
children of the length of the struct and a validity bitmap, if there is one,
of that length too. -/
def arrow_array.uniform : arrow_array → Prop
  | .null _ => True
  | .primitive _ => True
  | .list _ _ values => values.uniform
  | .struct length children null_bitmap =>
    children_uniform length children ∧ ∀ bits, null_bitmap = some bits → bits.length = length
/-- The children of a struct array of length `length` have that length and are
length-uniform themselves. -/
def children_uniform (length : Nat) : List arrow_array → Prop
  | [] => True
  | child :: rest => child.length = length ∧ child.uniform ∧ children_uniform length rest
end

/-- A call that a caller makes on the series or through a handle. -/
inductive call where
  | atom (ref : builder_ref) (value : atom_view)
  | record (ref : builder_ref)
  | list (ref : builder_ref)
  | remove_last
  | finish
deriving DecidableEq

/-- Runs one call; the handle or the arrays that the call returns are dropped. -/
def call.run (print : data_view2 → Option String) (s : series_builder_impl) :
    call → Except abort series_builder_impl
  | .atom ref value => builder_ref.atom print s ref value
  | .record ref => (builder_ref.record print s ref).map Prod.fst
  | .list ref => (builder_ref.list print s ref).map Prod.fst
  | .remove_last => series_builder.remove_last s
  | .finish => (series_builder.finish print s).map Prod.snd

/-- Runs calls in order. -/
def run_all (print : data_view2 → Option String) (s : series_builder_impl)
    (calls : List call) : Except abort series_builder_impl :=
  calls.foldlM (call.run print) s

/-- Every array in the queue `finished_` of the series satisfies `P`. -/
def series_builder_impl.finished_all (P : typed_array → Prop) (s : series_builder_impl) : Prop :=
  ∀ a ∈ s.finished_, P a

/-- The series with the arrays `earlier` put in front of its queue `finished_`. -/
def series_builder_impl.prepend (earlier : List typed_array) (s : series_builder_impl) :
    series_builder_impl :=
  { s with finished_ := earlier ++ s.finished_ }

/-- Whether a call writes a top-level row: `atom`, `record` or `list` on the
series itself. -/
def call.is_top_level_write : call → Bool
  | .atom .series _ => true
  | .record .series => true
  | .list .series => true
  | _ => false

/-- The effect of `field(name).atom(null)` on the fields of a record builder of
length `len` whose fields all hold scalars: a field that already holds a
value for the row in progress is cut back to `len - 1` slots. -/
def null_column (cols : List (String × basic_kind × List (Option atom_view))) (len : Nat)
    (name : String) : List (String × basic_kind × List (Option atom_view)) :=
  cols.map (fun c => if c.1 = name ∧ c.2.2.length = len
    then (c.1, c.2.1, resized c.2.2 (len - 1)) else c)

/-- Adds the name of a written field unless the written value is null or the
name has appeared before. -/
def add_written (names : List String) (w : String × atom_view) : List String :=
  if w.2 = .null then names else add_name names w.1

/-- The names of the fields that a sequence of record events writes with a
value other than null, in the order of the first such write. -/
def written_names (events : List (List (String × atom_view))) : List String :=
  events.flatten.foldl add_written []

mutual
/-- Whether the null type occurs in a type, at any depth. -/
def type.has_null : type → Bool
  | .null => true
  | .basic _ => false
  | .enumeration _ => false
  | .list t => t.has_null
  | .map k v => k.has_null || v.has_null
  | .record fs => fields_have_null fs
  | .enriched _ _ t => t.has_null
/-- Whether the null type occurs in the type of a field. -/
def fields_have_null : List (String × type) → Bool
  | [] => false
  | (_, t) :: rest => t.has_null || fields_have_null rest
end

mutual
/-- The builder has the shape that `protect(ty)` gives it: an atom builder of
the basic or enumeration type, a list builder whose elements conform to the
value type, or a record builder with exactly the fields of the record type,
in its order and without a repeated name, each conforming to its field type. -/
def builder_base.conforms : builder_base → type → Prop
  | .null _, _ => False
  | .atom t _, ty => ty.strip = t.to_type
  | .list _ elements, ty => ∃ t, ty.strip = .list t ∧ elements.conforms t
  | .record fields _ _ _, ty =>
    ∃ fs, ty.strip = .record fs ∧ fields_conform fields fs ∧ (fields.map Prod.fst).Nodup
  | .conflict _ _, _ => False
/-- The dynamic builder is protected, carries `ty` as its metadata and holds a
builder that conforms to `ty`. -/
def dynamic_builder.conforms : dynamic_builder → type → Prop
  | .mk b p m, ty => p = true ∧ m = ty ∧ b.conforms ty
/-- The fields of a record builder are the fields of a record type, in order. -/
def fields_conform : List (String × dynamic_builder) → List (String × type) → Prop
  | [], fs => fs = []
  | (name, d) :: rest, fs =>
    ∃ t fs1, fs = (name, t) :: fs1 ∧ d.conforms t ∧ fields_conform rest fs1
end

/-- The handle of a call, none for `remove_last` and `finish`. -/
def call.ref : call → Option builder_ref
  | .atom ref _ => some ref
  | .record ref => some ref
  | .list ref => some ref
  | _ => none

/-- A call that, when it goes through a field handle, addresses a field for
which `is_protected()` returns true. -/
def call.to_protected_field (s : series_builder_impl) (c : call) : Prop :=
  match c.ref with
  | some (.field f) => field_ref.is_protected s f = .ok true
  | _ => True

/-- Every call of the sequence that goes through a field handle addresses, at
the time of the call, a field for which `is_protected()` returns true. -/
def to_protected_fields (print : data_view2 → Option String) :
    series_builder_impl → List call → Prop
  | _, [] => True
  | s, c :: rest =>
    c.to_protected_field s ∧
      match c.run print s with
      | .ok s1 => to_protected_fields print s1 rest
      | .error _ => True

/-- The state of a series protected with the type `ty` while every builder in
it is protected: the builder tree conforms to `ty`, no batch has been cut and
no conflict is pending. -/
def series_builder_impl.protected_as (s : series_builder_impl) (ty : tenzir.type) : Prop :=
  s.builder_.conforms ty ∧ s.finished_ = [] ∧ s.has_conflict_ = false

/-- A table slice: the record batch (its length and its columns) and the schema.
`arrow::RecordBatch::Make` and `to_arrow_schema` are the Arrow runtime. -/
structure table_slice where
  length : Nat
  columns : List arrow_array
  schema : type

/-- The constructor `type{name, nested}`: a named layer without attributes
around a type. -/
def type.named (name : String) (nested : type) : type :=
  .enriched name [] nested

/-- The body of the loop of `series_builder::finish_as_table_slice` for one
array. -/
def as_table_slice (name : String) (array : typed_array) : Except abort table_slice := do
  ensure (array.type.kind = .record) (.assertion 1296)
  ensure (array.length > 0) (.assertion 1297)
  let ty :=
    if name ≠ "" then
      if name ≠ array.type.name then type.named name array.type else array.type
    else if array.type.name = "" then type.named "tenzir.json" array.type
    else array.type
  match array.array with
  | .struct length children _ => pure ⟨length, children, ty⟩
  | _ => .error (.assertion 1313)

/-- The method `series_builder::finish_as_table_slice`. -/
def series_builder.finish_as_table_slice (print : data_view2 → Option String)
    (s : series_builder_impl) (name : String) :
    Except abort (List table_slice × series_builder_impl) := do
  let (arrays, s1) ← series_builder.finish print s
  let result ← arrays.mapM (as_table_slice name)
  pure (result, s1)

/-- Whether `typed_builder<record_type>::finish_and_leave` keeps a field when the
struct array gets `target_length` rows: the field retains rows (it is longer
than `target_length`), or it is protected, or it is the field that
`keep_alive_` designates. -/
def field_survives (target_length : Nat) (keep_alive : Option String)
    (field : String × dynamic_builder) : Bool :=
  decide (field.2.length > target_length) || field.2.is_protected
    || keep_alive == some field.1

/-- The struct `location` of `location.hpp`: two `size_t` offsets into the
source file (the member `end` is `end_` here). -/
structure location where
  begin : Nat
  end_ : Nat
deriving DecidableEq, Repr

/-- The constant `location::unknown`. -/
def location.unknown : location := ⟨0, 0⟩

/-- The method `location::subloc(pos, count)` with `size_t` arithmetic: sums
and differences are taken modulo `2 ^ 64`. -/
def location.subloc (self : location) (pos count : Nat) : location :=
  if self = location.unknown ∨ pos > self.end_ then self
  else
    let first := (self.begin + pos) % 2 ^ 64
    let last := if count > (self.end_ + 2 ^ 64 - first) % 2 ^ 64 then self.end_
      else (first + count) % 2 ^ 64
    ⟨first, last⟩

mutual
/-- No `conflict_builder` is the builder or lies below it. -/
def builder_base.conflict_free : builder_base → Bool
  | .null _ => true
  | .atom _ _ => true
  | .list _ elements => elements.conflict_free
  | .record fields _ _ _ => fields_conflict_free fields
  | .conflict _ _ => false
/-- No `conflict_builder` is the inner builder or lies below it. -/
def dynamic_builder.conflict_free : dynamic_builder → Bool
  | .mk b _ _ => b.conflict_free
/-- No `conflict_builder` lies in the fields of a record builder. -/
def fields_conflict_free : List (String × dynamic_builder) → Bool
  | [] => true
  | (_, builder) :: rest => builder.conflict_free && fields_conflict_free rest
end

/-- Modelled from the spec: row `i` of a conflict builder whose variants are atom
builders, in the order in which the rows were written: the discriminant of
the row names the variant, and the row is the slot of that variant whose
number is the count of earlier rows with the same discriminant. -/
def conflict_row (discriminants : List Nat) (variants : List builder_base) (i : Nat) :
    data_view2 :=
  match discriminants.get? i with
  | none => .atom .null
  | some d =>
    match variants.get? d with
    | some (.atom _ inner) => .atom ((inner.getD ((discriminants.take i).count d) none).getD .null)
    | _ => .atom .null

/-- A call through a handle other than the series itself is made while an event
is in progress: the handle lies below the root builder, and the root builder
holds a row. -/
def call.in_progress (s : series_builder_impl) (c : call) : Prop :=
  match c.ref with
  | some (.dynamic path) => path ≠ [] ∧ 1 ≤ s.builder_.length
  | some (.field _) => 1 ≤ s.builder_.length
  | _ => True

/-- Every call of the sequence that goes through a handle other than the series
is made, at the time of the call, while an event is in progress. -/
def events_in_progress (print : data_view2 → Option String) :
    series_builder_impl → List call → Prop
  | _, [] => True
  | s, c :: rest =>
    c.in_progress s ∧
      match c.run print s with
      | .ok s1 => events_in_progress print s1 rest
      | .error _ => True

/-- No array in the queue is empty, and a pending conflict flag comes with a row
in the root builder. -/
def series_builder_impl.batches_nonempty (s : series_builder_impl) : Prop :=
  (s.has_conflict_ = true → 1 ≤ s.builder_.length) ∧ ∀ a ∈ s.finished_, 1 ≤ a.length

/-- An event is in progress: the root builder holds a row; and no array in the
queue is empty. -/
def series_builder_impl.event_open (s : series_builder_impl) : Prop :=
  1 ≤ s.builder_.length ∧ ∀ a ∈ s.finished_, 1 ≤ a.length

mutual
/-- Length uniformity below a builder: in every record builder at or below it,
no field builder is longer than the record builder. -/
def builder_base.bounded : builder_base → Prop
  | .null _ => True
  | .atom _ _ => True
  | .list _ elements => elements.bounded
  | .record fields _ length _ => fields_bounded length fields
  | .conflict _ variants => variants_bounded variants
/-- Length uniformity below the inner builder of a dynamic builder. -/
def dynamic_builder.bounded : dynamic_builder → Prop
  | .mk b _ _ => b.bounded
/-- No field builder is longer than `length`, and length uniformity holds below
every field. -/
def fields_bounded (length : Nat) : List (String × dynamic_builder) → Prop
  | [] => True
  | (_, builder) :: rest =>
    builder.length ≤ length ∧ builder.bounded ∧ fields_bounded length rest
/-- Length uniformity below every variant of a conflict builder. -/
def variants_bounded : List builder_base → Prop
  | [] => True
  | variant :: rest => variant.bounded ∧ variants_bounded rest
end

/-- The bound that the owner of the builder at `path` puts on its length: a
field builder may have as many rows as its record builder; the elements of a
list and the root are not bounded. -/
def dynamic_builder.fits : dynamic_builder → builder_path → Nat → Prop
  | _, [], _ => True
  | d, step :: rest, n =>
    match d.typed step.variant with
    | none => True
    | some t =>
      match rest, step, t with
      | [], .field _ _, .record _ _ length _ => n ≤ length
      | [], _, _ => True
      | _ :: _, _, _ =>
        match t.child step with
        | none => True
        | some c => c.fits rest n

/-- The last row of the dynamic builder belongs to the typed builder that a
pointer with this variant designates: the last discriminant of a conflict
builder names the variant. -/
def dynamic_builder.variant_live (d : dynamic_builder) (variant : Option Nat) : Bool :=
  match d.builder_ with
  | .conflict discriminants _ => discriminants.getLast? == some (variant.getD 0)
  | _ => true

/-- The child one step below holds a row of the last row of the typed builder:
a field is as long as its record builder, and every list of a list builder
begins before the end of the elements. -/
def builder_base.child_live (t : builder_base) (step : path_step) (c : dynamic_builder) : Bool :=
  match t, step with
  | .record _ _ length _, .field _ _ => c.length == length
  | .list offsets elements, .elements _ => offsets.all (fun o => decide (o.1 < elements.length))
  | _, _ => false

/-- The record builder that a `typed_builder<record_type>*` designates belongs to
the event in progress: it holds a row, and so does every builder on the way
from the dynamic builder down to it, each for the last row of its owner. -/
def dynamic_builder.live : dynamic_builder → builder_path → Option Nat → Bool
  | d, [], variant =>
    d.variant_live variant &&
      match d.typed variant with
      | some (.record _ _ length _) => decide (1 ≤ length)
      | _ => false
  | d, step :: rest, variant =>
    d.variant_live step.variant &&
      match d.typed step.variant with
      | none => false
      | some t =>
        match t.child step with
        | none => false
        | some c => t.child_live step c && c.live rest variant

/-- Every field of this name in the record builder that the pointer designates
is shorter than the record builder. -/
def dynamic_builder.room (d : dynamic_builder) (owner : builder_path) (variant : Option Nat)
    (name : String) : Prop :=
  ∀ x fields valid length keep_alive f, d.get owner = .ok x →
    x.typed variant = some (.record fields valid length keep_alive) →
    (name, f) ∈ fields → f.length + 1 ≤ length

/-- A call through a handle is made on a handle the interface hands out for the
event in progress: a pointer to a dynamic builder is the root builder or the
elements of a list, and the record builder of a field belongs to the event in
progress. -/
def call.live (s : series_builder_impl) (c : call) : Prop :=
  match c.ref with
  | some (.dynamic path) =>
    match path.getLast? with
    | some (.field _ _) => False
    | _ => True
  | some (.field f) => s.builder_.live f.origin_.owner f.origin_.variant = true
  | _ => True

/-- Every call of the sequence is made, at the time of the call, on a handle of
the event in progress. -/
def handles_live (print : data_view2 → Option String) :
    series_builder_impl → List call → Prop
  | _, [] => True
  | s, c :: rest =>
    c.live s ∧
      match c.run print s with
      | .ok s1 => handles_live print s1 rest
      | .error _ => True

/-- The stored offsets of a list builder, followed by the length of its
elements, are sound: they begin at 0, they do not decrease, and a null offset
is the offset that follows it. -/
def offsets_chain (all : List (Nat × Bool)) : Prop :=
  (∀ o, all.head? = some o → o.1 = 0) ∧
    List.Chain' (fun a b => a.1 ≤ b.1 ∧ (a.2 = false → a.1 = b.1)) all

mutual
/-- Every list builder in the builder tree has sound offsets. -/
def builder_base.lists_sound : builder_base → Prop
  | .null _ => True
  | .atom _ _ => True
  | .list offsets elements =>
    offsets_chain (offsets ++ [(elements.length, true)]) ∧ elements.lists_sound
  | .record fields _ _ _ => fields_lists_sound fields
  | .conflict _ variants => variants_lists_sound variants
/-- Every list builder under the dynamic builder has sound offsets. -/
def dynamic_builder.lists_sound : dynamic_builder → Prop
  | .mk b _ _ => b.lists_sound
/-- Every list builder under the fields has sound offsets. -/
def fields_lists_sound : List (String × dynamic_builder) → Prop
  | [] => True
  | (_, builder) :: rest => builder.lists_sound ∧ fields_lists_sound rest
/-- Every list builder under the variants has sound offsets. -/
def variants_lists_sound : List builder_base → Prop
  | [] => True
  | variant :: rest => variant.lists_sound ∧ variants_lists_sound rest
end

mutual
/-- Every list array in the array (the array itself, the values of a list
array, the children of a struct array) of `n` lists has `n + 1` offsets that
begin at 0, do not decrease and end at the length of the values. -/
def arrow_array.offsets_sound : arrow_array → Prop
  | .null _ => True
  | .primitive _ => True
  | .list offsets validity values =>
    offsets.length = validity.length + 1 ∧ offsets.head? = some 0
      ∧ List.Chain' (fun a b => a ≤ b) offsets ∧ offsets.getLast? = some values.length
      ∧ values.offsets_sound
  | .struct _ children _ => children_offsets_sound children
/-- Every list array in the children of a struct array has sound offsets. -/
def children_offsets_sound : List arrow_array → Prop
  | [] => True
  | child :: rest => child.offsets_sound ∧ children_offsets_sound rest
end

/-- A builder of `n` rows can be stored through the pointer: when the pointer
designates the elements of a list builder, the offsets of the list builder
followed by `n` are sound. -/
def dynamic_builder.fits_list (d : dynamic_builder) (path : builder_path) (n : Nat) : Prop :=
  ∀ q variant x offsets elements, path = q ++ [.elements variant] → d.get q = .ok x →
    x.typed variant = some (.list offsets elements) → offsets_chain (offsets ++ [(n, true)])

/-- The list builder that owns the elements a pointer designates belongs to the
event in progress: its last list is not null, and every builder on the way
from the dynamic builder down to it holds a row of the last row of its owner. -/
def dynamic_builder.list_live : dynamic_builder → builder_path → Option Nat → Bool
  | d, [], variant =>
    d.variant_live variant &&
      match d.typed variant with
      | some (.list offsets _) =>
        match offsets.getLast? with
        | some (_, true) => true
        | _ => false
      | _ => false
  | d, step :: rest, variant =>
    d.variant_live step.variant &&
      match d.typed step.variant with
      | none => false
      | some t =>
        match t.child step with
        | none => false
        | some c => t.child_live step c && c.list_live rest variant

/-- The last list of the list builder that owns the elements a pointer
designates is not null. -/
def dynamic_builder.list_open (d : dynamic_builder) (owner : builder_path)
    (variant : Option Nat) : Prop :=
  ∀ x offsets elements, d.get owner = .ok x →
    x.typed variant = some (.list offsets elements) →
    ∃ o, offsets.getLast? = some (o, true)

/-- A call through a handle is made on a handle of the event in progress: a
pointer to a dynamic builder is the root builder or the elements of a list
builder that belongs to the event in progress, and the record builder of a
field belongs to the event in progress. -/
def call.current (s : series_builder_impl) (c : call) : Prop :=
  match c.ref with
  | some (.dynamic path) =>
    match path.getLast? with
    | none => True
    | some (.elements variant) => s.builder_.list_live path.dropLast variant = true
    | some (.field _ _) => False
  | some (.field f) => s.builder_.live f.origin_.owner f.origin_.variant = true
  | _ => True

/-- Every call of the sequence is made, at the time of the call, on a handle of
the event in progress. -/
def handles_current (print : data_view2 → Option String) :
    series_builder_impl → List call → Prop
  | _, [] => True
  | s, c :: rest =>
    c.current s ∧
      match c.run print s with
      | .ok s1 => handles_current print s1 rest
      | .error _ => True

/-- The builder of the series has sound list offsets, and so has every array in
the queue of finished batches. -/
def series_builder_impl.lists_sound (s : series_builder_impl) : Prop :=
  s.builder_.lists_sound ∧ ∀ a ∈ s.finished_, a.array.offsets_sound

/-- The names of the fields of a record builder that is the inner builder of a
dynamic builder; no names for any other inner builder. -/
def dynamic_builder.field_names (d : dynamic_builder) : List String :=
  match d.builder_ with
  | .record fields _ _ _ => fields.map Prod.fst
  | _ => []

/-- The names of the fields of the record builder at the root of the series. -/
def series_builder_impl.root_fields (s : series_builder_impl) : List String :=
  s.builder_.field_names

/-- The inner builder of a dynamic builder is not a conflict builder. -/
def dynamic_builder.plain (d : dynamic_builder) : Prop :=
  ∀ discriminants variants, d.builder_ ≠ .conflict discriminants variants

/-- The record type under the names and attributes of a type has a field of this
name: the top-level columns of a batch of this type. -/
def type.has_field (ty : type) (name : String) : Bool :=
  match ty.strip with
  | .record fields => decide (name ∈ fields.map Prod.fst)
  | _ => false

/-- The field of the top-level record that a call writes a value into: the name
of the field handle of a `record()`, a `list()` or an `atom(value)` with a
value other than null, when the handle is a field of the record builder at
the root. A call `atom(null)` and a call through any other handle write no
value into a field of the top-level record. -/
def call.written_fields : call → List String
  | .atom (.field ⟨⟨[], _⟩, name⟩) value =>
    if atom_view_to_type_t value = .null then [] else [name]
  | .record (.field ⟨⟨[], _⟩, name⟩) => [name]
  | .list (.field ⟨⟨[], _⟩, name⟩) => [name]
  | _ => []

/-- What a step of the series from `s` to `s1` that writes values into no fields
of the top-level record other than `written` does to the root builder and to
the queue: the root builder stays other than a conflict builder; the new
batches have no top-level fields other than the fields of the root builder
in `s` and `written`; when there is a new batch, each field of the root
builder in `s` is in one of them; the root builder in `s1` has no fields other
than its fields in `s` and `written`; and when there is no new batch, the root
builder keeps its fields and loses no rows. -/
def series_builder_impl.root_step (written : List String) (s s1 : series_builder_impl) :
    Prop :=
  s1.builder_.plain ∧ ∃ news, s1.finished_ = s.finished_ ++ news
    ∧ (∀ n, n ∈ s.root_fields → news ≠ [] → ∃ a ∈ news, a.type.has_field n = true)
    ∧ (∀ a ∈ news, ∀ n, a.type.has_field n = true → n ∈ s.root_fields ∨ n ∈ written)
    ∧ (∀ n, n ∈ s1.root_fields → n ∈ s.root_fields ∨ n ∈ written)
    ∧ (news = [] → (∀ n, n ∈ s.root_fields → n ∈ s1.root_fields)
        ∧ s.builder_.length ≤ s1.builder_.length)

/-- Field `name` of the top-level record is not in any batch of the queue nor in
the root builder, which is not a conflict builder. -/
def series_builder_impl.lacks_field (name : String) (s : series_builder_impl) : Prop :=
  s.builder_.plain ∧ name ∉ s.root_fields ∧ ∀ a ∈ s.finished_, a.type.has_field name = false

/-- Field `name` of the top-level record is on its way into a batch: the root
builder, which is not a conflict builder, has the field and holds a row, or
a batch of the queue has the field. -/
def series_builder_impl.holds_field (name : String) (s : series_builder_impl) : Prop :=
  s.builder_.plain ∧
    ((name ∈ s.root_fields ∧ 1 ≤ s.builder_.length)
      ∨ ∃ a ∈ s.finished_, a.type.has_field name = true)

/-! ## Theorems -/

/-! ## Lengths -/

theorem except_bind_eq_ok {ε α β : Type} {x : Except ε α} {f : α → Except ε β} {b : β} :
    (x >>= f) = .ok b ↔ ∃ a, x = .ok a ∧ f a = .ok b := by
  cases x <;> simp [bind, Except.bind]

theorem except_pure_eq_ok {ε α : Type} {a b : α} :
    (pure a : Except ε α) = .ok b ↔ a = b := by
  simp [pure, Except.pure]

theorem builder_base_resize_length (b b1 : builder_base) (n : Nat)
    (h : b.resize n = .ok b1) : b1.length = n := by
  cases b with
  | null len => simp [builder_base.resize, pure, Except.pure] at h; subst h; rfl
  | atom t inner =>
    simp only [builder_base.resize] at h
    split at h
    · simp [pure, Except.pure] at h; subst h; simp [builder_base.length]; omega
    · split at h
      · simp [pure, Except.pure] at h; subst h; simp [builder_base.length]; omega
      · simp [pure, Except.pure] at h; subst h; simp [builder_base.length]; omega
  | list offs el =>
    simp only [builder_base.resize] at h
    split at h
    · rw [except_bind_eq_ok] at h
      obtain ⟨a, _, h⟩ := h
      simp [pure, Except.pure] at h; subst h; simp [builder_base.length]; omega
    · split at h
      · simp [pure, Except.pure] at h; subst h; simp [builder_base.length]; omega
      · simp [pure, Except.pure] at h; subst h; simp [builder_base.length]; omega
  | record fs valid len k =>
    simp only [builder_base.resize] at h
    split at h
    · rw [except_bind_eq_ok] at h
      obtain ⟨a, _, h⟩ := h
      simp [pure, Except.pure] at h; subst h; simp [builder_base.length]
    · split at h
      · simp [pure, Except.pure] at h; subst h; simp [builder_base.length]
      · simp [pure, Except.pure] at h; subst h; simp [builder_base.length]
  | conflict ds vs =>
    cases vs with
    | nil =>
      simp only [builder_base.resize] at h
      split at h
      · simp [throw, throwThe, MonadExceptOf.throw] at h
      · split at h
        · simp [throw, throwThe, MonadExceptOf.throw] at h
        · simp [pure, Except.pure] at h; subst h; simp [builder_base.length]; omega
    | cons v0 rest =>
      simp only [builder_base.resize] at h
      split at h
      · rw [except_bind_eq_ok] at h
        obtain ⟨a, _, h⟩ := h
        simp [pure, Except.pure] at h; subst h; simp [builder_base.length]; omega
      · split at h
        · simp [throw, throwThe, MonadExceptOf.throw] at h
        · simp [pure, Except.pure] at h; subst h; simp [builder_base.length]; omega

theorem dynamic_builder_resize_length (d d1 : dynamic_builder) (n : Nat)
    (h : d.resize n = .ok d1) : d1.length = n := by
  cases d with
  | mk b p m =>
    simp only [dynamic_builder.resize] at h
    rw [except_bind_eq_ok] at h
    obtain ⟨b1, hb, h⟩ := h
    rw [except_pure_eq_ok] at h
    subst h
    exact builder_base_resize_length b b1 n hb

theorem type_make_empty_array_length : (ty : type) → ty.make_empty_array.length = 0
  | .null => rfl
  | .basic _ => rfl
  | .enumeration _ => rfl
  | .list _ => rfl
  | .map _ _ => rfl
  | .record _ => rfl
  | .enriched _ _ t => by
    simpa [type.make_empty_array] using type_make_empty_array_length t

theorem conflict_render_length (print : data_view2 → Option String)
    (arrays : List typed_array) (rows : List Nat) :
    ∀ (offsets : List Nat) (strings : List (Option atom_view)),
      conflict_render print arrays rows offsets = .ok strings → strings.length = rows.length := by
  induction rows with
  | nil =>
    intro offsets strings h
    simp [conflict_render, pure, Except.pure] at h
    subst h; rfl
  | cons d rest ih =>
    intro offsets strings h
    simp only [conflict_render] at h
    split at h
    · simp [throw, throwThe, MonadExceptOf.throw] at h
    · split at h
      · split at h
        · simp [throw, throwThe, MonadExceptOf.throw] at h
        · rw [except_bind_eq_ok] at h
          obtain ⟨tail, ht, h⟩ := h
          rw [except_pure_eq_ok] at h
          subst h
          simp [ih _ _ ht]
      · simp [throw, throwThe, MonadExceptOf.throw] at h

theorem from_arrays_length (line : Nat) (offsets : List (Nat × Bool)) (values result : arrow_array)
    (h : from_arrays line offsets values = .ok result) : result.length = offsets.length - 1 := by
  simp only [from_arrays] at h
  split at h
  · simp [throw, throwThe, MonadExceptOf.throw] at h
  · split at h
    · simp [throw, throwThe, MonadExceptOf.throw] at h
    · rw [except_pure_eq_ok] at h
      subst h
      simp [arrow_array.length]
theorem ensure_eq_ok {c : Prop} [Decidable c] {e : abort} {u : Unit} :
    ensure c e = .ok u ↔ c := by
  by_cases hc : c <;> simp [ensure, hc]

theorem builder_base_finish_and_leave_length (print : data_view2 → Option String)
    (b b1 : builder_base) (grow count : Nat) (array : typed_array)
    (h : b.finish_and_leave print grow count = .ok (array, b1)) :
    array.length = b.length + grow - count ∧ b1.length = count := by
  cases b with
  | null len =>
    simp only [builder_base.finish_and_leave] at h
    split at h
    · simp at h
    · simp [pure, Except.pure] at h
      obtain ⟨h1, h2⟩ := h
      subst h1 h2
      simp [typed_array.length, arrow_array.length, builder_base.length]
  | atom t inner =>
    simp only [builder_base.finish_and_leave] at h
    split at h
    · simp at h
    · simp [pure, Except.pure] at h
      obtain ⟨h1, h2⟩ := h
      subst h1 h2
      simp [typed_array.length, arrow_array.length, builder_base.length] at *
      omega
  | list offsets elements =>
    simp only [builder_base.finish_and_leave, ensure_eq_ok, except_bind_eq_ok,
      except_pure_eq_ok] at h
    obtain ⟨_, _, _, hc, ⟨used, el1⟩, _, result, hres, h⟩ := h
    have hl := from_arrays_length _ _ _ _ hres
    simp only [Prod.mk.injEq] at h
    obtain ⟨h1, h2⟩ := h
    subst h1 h2
    simp [typed_array.length, builder_base.length] at *
    omega
  | record fields valid len keep_alive =>
    simp only [builder_base.finish_and_leave, ensure_eq_ok, except_bind_eq_ok,
      except_pure_eq_ok] at h
    obtain ⟨_, hc, ⟨children, fields1⟩, _, ⟨bitmap, valid1⟩, _, h⟩ := h
    simp only [Prod.mk.injEq] at h
    obtain ⟨h1, h2⟩ := h
    subst h1 h2
    simp [typed_array.length, arrow_array.length, builder_base.length]
  | conflict ds vs =>
    simp only [builder_base.finish_and_leave, ensure_eq_ok, except_bind_eq_ok,
      except_pure_eq_ok] at h
    obtain ⟨_, hc, ⟨arrays, vs1⟩, _, strings, hs, h⟩ := h
    have hl := conflict_render_length _ _ _ _ _ hs
    simp only [Prod.mk.injEq] at h
    obtain ⟨h1, h2⟩ := h
    subst h1 h2
    simp [typed_array.length, arrow_array.length, builder_base.length] at *
    omega

theorem dynamic_builder_finish_and_leave_length (print : data_view2 → Option String)
    (d d1 : dynamic_builder) (grow count : Nat) (array : typed_array)
    (h : d.finish_and_leave print grow count = .ok (array, d1)) :
    array.length = d.length + grow - count ∧ d1.length = count := by
  cases d with
  | mk b p m =>
    simp only [dynamic_builder.finish_and_leave, ensure_eq_ok, except_bind_eq_ok] at h
    obtain ⟨_, hc, ⟨result, b1⟩, hr, _, hlen, h⟩ := h
    have key : result.length = b.length + grow - count := by
      split at hr
      · rw [except_bind_eq_ok] at hr
        obtain ⟨b0, _, hr⟩ := hr
        simp only [except_pure_eq_ok, Prod.mk.injEq] at hr
        obtain ⟨h1, _⟩ := hr
        subst h1
        simp [typed_array.length, type_make_empty_array_length]
        omega
      · exact (builder_base_finish_and_leave_length print b b1 grow count result hr).1
    simp only [except_pure_eq_ok, Prod.mk.injEq] at h
    obtain ⟨h1, h2⟩ := h
    subst h1 h2
    refine ⟨key, ?_⟩
    split
    · rfl
    · exact hlen
theorem series_builder_impl_total_length_eq (s : series_builder_impl) :
    s.total_length = s.builder_.length + (s.finished_.map typed_array.length).sum := by
  cases s with
  | mk b fin c =>
    simp only [series_builder_impl.total_length]
    generalize b.length = n
    induction fin generalizing n with
    | nil => simp
    | cons a rest ih => simp [List.foldl, ih]; omega

/-- C4: the lengths of the arrays that `finish()` returns add up to `length()`
of the series right before the call. -/
theorem finish_lengths_sum_to_length (print : data_view2 → Option String)
    (s s1 : series_builder_impl) (arrays : List typed_array)
    (h : series_builder.finish print s = .ok (arrays, s1)) :
    (arrays.map typed_array.length).sum = series_builder.length s := by
  simp only [series_builder.finish, series_builder_impl.finish] at h
  simp only [series_builder.length, series_builder_impl_total_length_eq]
  split at h
  · simp only [except_bind_eq_ok, ensure_eq_ok, except_pure_eq_ok, Prod.mk.injEq] at h
    obtain ⟨⟨array, b1⟩, hf, _, _, h, _⟩ := h
    have hl := (dynamic_builder_finish_and_leave_length print _ _ _ _ _ hf).1
    subst h
    simp [hl]
    omega
  · rename_i hlen
    simp only [except_pure_eq_ok, Prod.mk.injEq] at h
    obtain ⟨h, _⟩ := h
    subst h
    omega

theorem finish_lengths_sum_to_length_witness :
    ([(⟨.basic .int64, .primitive [none, none, some (.int64 7)]⟩ : typed_array)].map
      typed_array.length).sum
      = series_builder.length
          ⟨.mk (.atom (.basic .int64) [none, none, some (.int64 7)]) false .null, [], false⟩ :=
  finish_lengths_sum_to_length (fun _ => none)
    ⟨.mk (.atom (.basic .int64) [none, none, some (.int64 7)]) false .null, [], false⟩
    ⟨.mk (.null 0) false .null, [], false⟩ _ rfl

/-- C1: two unprotected write sequences stop at the assertion of line 1035. -/
theorem unprotected_write_hits_assertion (print : data_view2 → Option String) :
    (series_builder.atom print series_builder_impl.new (.int64 1) >>= fun s =>
      series_builder.remove_last s >>= fun s =>
      series_builder.atom print s (.string "s")) = .error (.assertion 1035)
    ∧ (series_builder.record print series_builder_impl.new >>= fun sr =>
      builder_ref.atom print sr.1 (sr.2.field "x") (.int64 1) >>= fun s =>
      builder_ref.atom print s (sr.2.field "x") (.string "s")) = .error (.assertion 1035) :=
  ⟨rfl, rfl⟩
theorem series_builder_impl_get_root (s : series_builder_impl) : s.get [] = .ok s.builder_ := rfl

theorem series_builder_impl_set_root (s : series_builder_impl) (d : dynamic_builder) :
    s.set [] d = .ok { s with builder_ := d } := rfl

theorem target_make_resize_is (T : target) (n : Nat) (fresh : builder_base)
    (h : T.make.resize n = .ok fresh) : fresh.is T = true := by
  cases T with
  | basic k =>
    simp only [target.make, builder_base.resize] at h
    split at h
    · simp [pure, Except.pure] at h; subst h; simp [builder_base.is]
    · split at h
      · simp [pure, Except.pure] at h; subst h; simp [builder_base.is]
      · simp [pure, Except.pure] at h; subst h; simp [builder_base.is]
  | list =>
    simp only [target.make, builder_base.resize] at h
    split at h
    · simp at *
    · split at h
      · simp [pure, Except.pure] at h; subst h; simp [builder_base.is]
      · simp [pure, Except.pure] at h; subst h; simp [builder_base.is]
  | record =>
    simp only [target.make, builder_base.resize] at h
    split at h
    · simp at *
    · split at h
      · simp [pure, Except.pure] at h; subst h; simp [builder_base.is]
      · simp [pure, Except.pure] at h; subst h; simp [builder_base.is]

theorem builder_base_is_not_conflict (T : target) (ds : List Nat) (vs : List builder_base) :
    (builder_base.conflict ds vs).is T = false := by
  cases T <;> rfl

theorem builder_base_is_not_null (T : target) (n : Nat) :
    (builder_base.null n).is T = false := by
  cases T <;> rfl

theorem conflict_builder_prepare_spec (ds : List Nat) (vs : List builder_base) (T : target)
    (c : builder_base) (i : Nat) (h : conflict_builder.prepare ds vs T = .ok (c, i)) :
    ∃ vs1, c = .conflict (ds ++ [i]) vs1 := by
  simp only [conflict_builder.prepare] at h
  split at h
  · split at h
    · simp at h
    · simp only [except_pure_eq_ok, Prod.mk.injEq] at h
      obtain ⟨h1, h2⟩ := h
      subst h2
      exact ⟨_, h1.symm⟩
  · split at h
    · simp at h
    · simp only [except_pure_eq_ok, Prod.mk.injEq] at h
      obtain ⟨h1, h2⟩ := h
      subst h2
      exact ⟨_, h1.symm⟩

/-- What the first three cases of `prepare` do to the length of the builder. -/
theorem dynamic_builder_prepare_cast_spec (T : target) (d d1 : dynamic_builder)
    (variant : Option Nat) (h : d.prepare_cast T = .ok (some (d1, variant))) :
    (variant = none ∧ d1.length = d.length ∧ d1.builder_.is T = true)
    ∨ (∃ i ds vs, variant = some i ∧ d1.length = d.length + 1
        ∧ d1.builder_ = .conflict ds vs) := by
  cases d with
  | mk b p m =>
    simp only [dynamic_builder.prepare_cast] at h
    split at h
    · rename_i hb
      simp only [except_pure_eq_ok, Option.some.injEq, Prod.mk.injEq] at h
      obtain ⟨h1, h2⟩ := h
      subst h1 h2
      exact Or.inl ⟨rfl, rfl, hb⟩
    · split at h
      · simp only [except_bind_eq_ok, except_pure_eq_ok, Option.some.injEq, Prod.mk.injEq] at h
        obtain ⟨fresh, hf, h1, h2⟩ := h
        subst h1 h2
        exact Or.inl ⟨rfl, builder_base_resize_length _ _ _ hf, target_make_resize_is T _ _ hf⟩
      · simp only [except_bind_eq_ok, except_pure_eq_ok, Option.some.injEq, Prod.mk.injEq] at h
        obtain ⟨⟨c, i⟩, hc, h1, h2⟩ := h
        subst h1 h2
        obtain ⟨vs1, hvs⟩ := conflict_builder_prepare_spec _ _ _ _ _ hc
        subst hvs
        exact Or.inr ⟨i, _, vs1, rfl, by simp [dynamic_builder.length, dynamic_builder.builder_,
          builder_base.length], rfl⟩
      · simp [pure, Except.pure] at h

theorem series_builder_impl_finish_previous_events_length (print : data_view2 → Option String)
    (s s1 : series_builder_impl) (root : Bool)
    (h : s.finish_previous_events print root = .ok s1) :
    s1.total_length = s.total_length := by
  simp only [series_builder_impl.finish_previous_events] at h
  split at h
  · simp only [except_pure_eq_ok] at h; subst h; rfl
  · split at h
    · simp only [except_pure_eq_ok] at h; subst h; rfl
    · simp only [except_bind_eq_ok, ensure_eq_ok, except_pure_eq_ok] at h
      obtain ⟨⟨slice, b1⟩, hf, _, hb, _, _, h⟩ := h
      obtain ⟨hl, _⟩ := dynamic_builder_finish_and_leave_length print _ _ _ _ _ hf
      subst h
      simp only [series_builder_impl_total_length_eq, List.map_append, List.sum_append,
        List.map_cons, List.map_nil, List.sum_cons, List.sum_nil]
      simp only at hb
      have : (if (!root) = true then 1 else 0) ≤ s.builder_.length := by
        split <;> omega
      omega

theorem series_builder_impl_finish_if_conflict_length (print : data_view2 → Option String)
    (s s1 : series_builder_impl) (h : s.finish_if_conflict print = .ok s1) :
    s1.total_length = s.total_length := by
  simp only [series_builder_impl.finish_if_conflict] at h
  split at h
  · simp only [except_bind_eq_ok, except_pure_eq_ok] at h
    obtain ⟨⟨array, b1⟩, hf, h⟩ := h
    obtain ⟨hl, hb⟩ := dynamic_builder_finish_and_leave_length print _ _ _ _ _ hf
    subst h
    simp only [series_builder_impl_total_length_eq, List.map_append, List.sum_append,
      List.map_cons, List.map_nil, List.sum_cons, List.sum_nil]
    omega
  · simp only [except_pure_eq_ok] at h; subst h; rfl

theorem dynamic_builder_wrap_conflict_length (d : dynamic_builder) :
    d.wrap_conflict.length = d.length := by
  cases d with
  | mk b p m => simp [dynamic_builder.wrap_conflict, dynamic_builder.length,
      dynamic_builder.builder_, builder_base.length]

theorem dynamic_builder_prepare_cast_root (s : series_builder_impl) (T : target)
    (d1 : dynamic_builder) (variant : Option Nat)
    (hr : s.builder_.prepare_cast T = .ok (some (d1, variant))) :
    (variant = none ∧ ({ s with builder_ := d1 } : series_builder_impl).total_length
        = s.total_length ∧ d1.builder_.is T = true)
    ∨ (∃ i ds vs, variant = some i
        ∧ ({ s with builder_ := d1 } : series_builder_impl).total_length = s.total_length + 1
        ∧ d1.builder_ = .conflict ds vs) := by
  rcases dynamic_builder_prepare_cast_spec _ _ _ _ hr with ⟨hv, hl, hi⟩ | ⟨i, ds, vs, hv, hl, hc⟩
  · refine Or.inl ⟨hv, ?_, hi⟩
    simp only [series_builder_impl_total_length_eq]
    simp only [hl]
  · refine Or.inr ⟨i, ds, vs, hv, ?_, hc⟩
    simp only [series_builder_impl_total_length_eq]
    simp only [hl]; omega

/-- What `prepare` on the root builder does to the length of the series. -/
theorem dynamic_builder_prepare_root_spec (print : data_view2 → Option String)
    (s s1 : series_builder_impl) (T : target) (variant : Option Nat)
    (h : dynamic_builder.prepare print s [] T = .ok (s1, variant)) :
    (variant = none ∧ s1.total_length = s.total_length ∧ s1.builder_.builder_.is T = true)
    ∨ (∃ i ds vs, variant = some i ∧ s1.total_length = s.total_length + 1
        ∧ s1.builder_.builder_ = .conflict ds vs) := by
  simp only [dynamic_builder.prepare, series_builder_impl_get_root, except_bind_eq_ok,
    Except.ok.injEq, exists_eq_left'] at h
  obtain ⟨r, hr, h⟩ := h
  cases r with
  | some dv =>
    obtain ⟨d1, v⟩ := dv
    simp only [series_builder_impl_set_root, except_bind_eq_ok, Except.ok.injEq,
      except_pure_eq_ok, Prod.mk.injEq, exists_eq_left'] at h
    obtain ⟨h1, h2⟩ := h
    subst h1 h2
    exact dynamic_builder_prepare_cast_root s T d1 v hr
  | none =>
    simp only [except_bind_eq_ok, ensure_eq_ok, series_builder_impl_get_root, Except.ok.injEq,
      exists_eq_left'] at h
    obtain ⟨_, _, _, _, s2, hfpe, s3, hwrap, r2, hr2, h⟩ := h
    have h2 : s2.total_length = s.total_length :=
      series_builder_impl_finish_previous_events_length print _ _ _ hfpe
    have h3 : s3.total_length = s2.total_length := by
      split at hwrap
      · simp only [series_builder_impl_set_root, except_bind_eq_ok, Except.ok.injEq,
          except_pure_eq_ok, exists_eq_left'] at hwrap
        subst hwrap
        simp only [series_builder_impl_total_length_eq, series_builder_impl.set_conflict_flag,
          dynamic_builder_wrap_conflict_length]
      · split at hwrap
        · simp at hwrap
        · simp only [except_pure_eq_ok] at hwrap
          subst hwrap; rfl
    cases r2 with
    | none => simp at h
    | some dv =>
      obtain ⟨d3, v⟩ := dv
      simp only [series_builder_impl_set_root, except_bind_eq_ok, Except.ok.injEq,
        except_pure_eq_ok, Prod.mk.injEq, exists_eq_left'] at h
      obtain ⟨h1, hv⟩ := h
      subst h1 hv
      have := dynamic_builder_prepare_cast_root s3 T d3 v hr2
      rw [h3, h2] at this
      exact this
theorem typed_builder_append_atom_root_none (s s2 : series_builder_impl) (T : target)
    (value : atom_view) (hT : s.builder_.builder_.is T = true)
    (h : typed_builder.append_atom s [] none value = .ok s2) :
    s2.total_length = s.total_length + 1 := by
  obtain ⟨d, fin, c⟩ := s
  obtain ⟨b, p, m⟩ := d
  cases b with
  | atom t inner =>
    simp only [typed_builder.append_atom, series_builder_impl_get_root, except_bind_eq_ok,
      Except.ok.injEq, exists_eq_left', dynamic_builder.typed, dynamic_builder.builder_,
      dynamic_builder.set_typed, series_builder_impl_set_root] at h
    subst h
    simp [series_builder_impl_total_length_eq, dynamic_builder.length, dynamic_builder.builder_,
      builder_base.length]
    omega
  | null n => simp [dynamic_builder.builder_, builder_base_is_not_null] at hT
  | conflict ds vs => simp [dynamic_builder.builder_, builder_base_is_not_conflict] at hT
  | list o e =>
    simp [typed_builder.append_atom, series_builder_impl_get_root, except_bind_eq_ok,
      dynamic_builder.typed, dynamic_builder.builder_] at h
  | record f v n k =>
    simp [typed_builder.append_atom, series_builder_impl_get_root, except_bind_eq_ok,
      dynamic_builder.typed, dynamic_builder.builder_] at h

theorem typed_builder_append_atom_root_some (s s2 : series_builder_impl) (i : Nat)
    (ds : List Nat) (vs : List builder_base)
    (value : atom_view) (hc : s.builder_.builder_ = .conflict ds vs)
    (h : typed_builder.append_atom s [] (some i) value = .ok s2) :
    s2.total_length = s.total_length := by
  obtain ⟨d, fin, c⟩ := s
  obtain ⟨b, p, m⟩ := d
  simp only [dynamic_builder.builder_] at hc
  subst hc
  simp only [typed_builder.append_atom, series_builder_impl_get_root, except_bind_eq_ok,
    Except.ok.injEq, exists_eq_left', dynamic_builder.typed, dynamic_builder.builder_] at h
  split at h
  · simp only [dynamic_builder.set_typed, series_builder_impl_set_root, Except.ok.injEq] at h
    subst h
    simp [series_builder_impl_total_length_eq, dynamic_builder.length, dynamic_builder.builder_,
      builder_base.length]
  · simp at h
theorem typed_builder_append_record_root_none (s s2 : series_builder_impl) (r : record_ref)
    (hT : s.builder_.builder_.is .record = true)
    (h : typed_builder.append_record s [] none = .ok (s2, r)) :
    s2.total_length = s.total_length + 1 := by
  obtain ⟨d, fin, c⟩ := s
  obtain ⟨b, p, m⟩ := d
  cases b with
  | record f v n k =>
    simp only [typed_builder.append_record, series_builder_impl_get_root, except_bind_eq_ok,
      Except.ok.injEq, exists_eq_left', dynamic_builder.typed, dynamic_builder.builder_,
      dynamic_builder.set_typed, series_builder_impl_set_root, except_pure_eq_ok,
      Prod.mk.injEq] at h
    obtain ⟨h, _⟩ := h
    subst h
    simp [series_builder_impl_total_length_eq, dynamic_builder.length, dynamic_builder.builder_,
      builder_base.length]
    omega
  | null n => simp [dynamic_builder.builder_, builder_base_is_not_null] at hT
  | conflict ds vs => simp [dynamic_builder.builder_, builder_base_is_not_conflict] at hT
  | list o e => simp [dynamic_builder.builder_, builder_base.is] at hT
  | atom t i => simp [dynamic_builder.builder_, builder_base.is] at hT

theorem typed_builder_append_record_root_some (s s2 : series_builder_impl) (i : Nat)
    (ds : List Nat) (vs : List builder_base) (r : record_ref)
    (hc : s.builder_.builder_ = .conflict ds vs)
    (h : typed_builder.append_record s [] (some i) = .ok (s2, r)) :
    s2.total_length = s.total_length := by
  obtain ⟨d, fin, c⟩ := s
  obtain ⟨b, p, m⟩ := d
  simp only [dynamic_builder.builder_] at hc
  subst hc
  simp only [typed_builder.append_record, series_builder_impl_get_root, except_bind_eq_ok,
    Except.ok.injEq, exists_eq_left', dynamic_builder.typed, dynamic_builder.builder_] at h
  split at h
  · simp only [dynamic_builder.set_typed, series_builder_impl_set_root, Except.ok.injEq,
      except_bind_eq_ok, exists_eq_left', except_pure_eq_ok, Prod.mk.injEq] at h
    obtain ⟨h, _⟩ := h
    subst h
    simp [series_builder_impl_total_length_eq, dynamic_builder.length, dynamic_builder.builder_,
      builder_base.length]
  · simp at h

theorem typed_builder_append_list_root_none (s s2 : series_builder_impl) (r : builder_ref)
    (hT : s.builder_.builder_.is .list = true)
    (h : typed_builder.append_list s [] none = .ok (s2, r)) :
    s2.total_length = s.total_length + 1 := by
  obtain ⟨d, fin, c⟩ := s
  obtain ⟨b, p, m⟩ := d
  cases b with
  | list o e =>
    simp only [typed_builder.append_list, series_builder_impl_get_root, except_bind_eq_ok,
      Except.ok.injEq, exists_eq_left', dynamic_builder.typed, dynamic_builder.builder_,
      dynamic_builder.set_typed, series_builder_impl_set_root, except_pure_eq_ok,
      Prod.mk.injEq, ensure_eq_ok] at h
    obtain ⟨_, _, h, _⟩ := h
    subst h
    simp [series_builder_impl_total_length_eq, dynamic_builder.length, dynamic_builder.builder_,
      builder_base.length]
    omega
  | null n => simp [dynamic_builder.builder_, builder_base_is_not_null] at hT
  | conflict ds vs => simp [dynamic_builder.builder_, builder_base_is_not_conflict] at hT
  | record f v n k => simp [dynamic_builder.builder_, builder_base.is] at hT
  | atom t i => simp [dynamic_builder.builder_, builder_base.is] at hT

theorem typed_builder_append_list_root_some (s s2 : series_builder_impl) (i : Nat)
    (ds : List Nat) (vs : List builder_base) (r : builder_ref)
    (hc : s.builder_.builder_ = .conflict ds vs)
    (h : typed_builder.append_list s [] (some i) = .ok (s2, r)) :
    s2.total_length = s.total_length := by
  obtain ⟨d, fin, c⟩ := s
  obtain ⟨b, p, m⟩ := d
  simp only [dynamic_builder.builder_] at hc
  subst hc
  simp only [typed_builder.append_list, series_builder_impl_get_root, except_bind_eq_ok,
    Except.ok.injEq, exists_eq_left', dynamic_builder.typed, dynamic_builder.builder_] at h
  split at h
  · simp only [dynamic_builder.set_typed, series_builder_impl_set_root, Except.ok.injEq,
      except_bind_eq_ok, exists_eq_left', except_pure_eq_ok, Prod.mk.injEq, ensure_eq_ok] at h
    obtain ⟨_, _, h, _⟩ := h
    subst h
    simp [series_builder_impl_total_length_eq, dynamic_builder.length, dynamic_builder.builder_,
      builder_base.length]
  · simp at h

theorem dynamic_builder_atom_root_length (print : data_view2 → Option String)
    (s s1 : series_builder_impl) (value : atom_view)
    (h : dynamic_builder.atom print s [] value = .ok s1) :
    s1.total_length = s.total_length + 1 := by
  simp only [dynamic_builder.atom] at h
  split at h
  · simp only [series_builder_impl_get_root, except_bind_eq_ok, Except.ok.injEq,
      exists_eq_left', series_builder_impl_set_root] at h
    obtain ⟨d1, hd, h⟩ := h
    subst h
    simp only [series_builder_impl_total_length_eq, dynamic_builder_resize_length _ _ _ hd]
    omega
  · simp only [series_builder_impl_get_root, except_bind_eq_ok, Except.ok.injEq,
      exists_eq_left'] at h
    split at h
    · rename_i hb
      simp only [series_builder_impl_set_root, Except.ok.injEq] at h
      subst h
      simp only [series_builder_impl_total_length_eq, hb]
      simp [dynamic_builder.length, dynamic_builder.builder_, builder_base.length]
      omega
    · simp at h
  · simp only [except_bind_eq_ok] at h
    obtain ⟨⟨s2, variant⟩, hp, h⟩ := h
    rcases dynamic_builder_prepare_root_spec print _ _ _ _ hp with
      ⟨hv, hl, hi⟩ | ⟨i, ds, vs, hv, hl, hc⟩
    · subst hv
      rw [typed_builder_append_atom_root_none s2 s1 _ value hi h, hl]
    · subst hv
      rw [typed_builder_append_atom_root_some s2 s1 i ds vs value hc h, hl]

theorem dynamic_builder_record_root_length (print : data_view2 → Option String)
    (s s1 : series_builder_impl) (r : record_ref)
    (h : dynamic_builder.record print s [] = .ok (s1, r)) :
    s1.total_length = s.total_length + 1 := by
  simp only [dynamic_builder.record, except_bind_eq_ok] at h
  obtain ⟨⟨s2, variant⟩, hp, h⟩ := h
  rcases dynamic_builder_prepare_root_spec print _ _ _ _ hp with
    ⟨hv, hl, hi⟩ | ⟨i, ds, vs, hv, hl, hc⟩
  · subst hv
    rw [typed_builder_append_record_root_none s2 s1 r hi h, hl]
  · subst hv
    rw [typed_builder_append_record_root_some s2 s1 i ds vs r hc h, hl]

theorem dynamic_builder_list_root_length (print : data_view2 → Option String)
    (s s1 : series_builder_impl) (r : builder_ref)
    (h : dynamic_builder.list print s [] = .ok (s1, r)) :
    s1.total_length = s.total_length + 1 := by
  simp only [dynamic_builder.list, except_bind_eq_ok] at h
  obtain ⟨⟨s2, variant⟩, hp, h⟩ := h
  rcases dynamic_builder_prepare_root_spec print _ _ _ _ hp with
    ⟨hv, hl, hi⟩ | ⟨i, ds, vs, hv, hl, hc⟩
  · subst hv
    rw [typed_builder_append_list_root_none s2 s1 r hi h, hl]
  · subst hv
    rw [typed_builder_append_list_root_some s2 s1 i ds vs r hc h, hl]

theorem series_builder_impl_remove_last_length (s s1 : series_builder_impl)
    (h : s.remove_last = .ok s1) :
    s1.total_length = s.total_length - (if s.builder_.length > 0 then 1 else 0) := by
  simp only [series_builder_impl.remove_last] at h
  split at h
  · rename_i hpos
    simp only [except_bind_eq_ok, except_pure_eq_ok] at h
    obtain ⟨b1, hb, h⟩ := h
    subst h
    simp only [series_builder_impl_total_length_eq, dynamic_builder_resize_length _ _ _ hb,
      hpos, if_true]
    omega
  · rename_i hpos
    simp only [except_pure_eq_ok] at h
    subst h
    simp only [series_builder_impl_total_length_eq, hpos, if_false]
    omega
theorem try_atom_error_state (print : data_view2 → Option String) (cast_value : cast_fn)
    (s s1 : series_builder_impl) (self : builder_ref) (value : atom_view) (e : ec)
    (h : builder_ref.try_atom print cast_value s self value = .ok (s1, .error e)) :
    s1 = s := by
  simp only [builder_ref.try_atom, except_bind_eq_ok] at h
  obtain ⟨prot, _, h⟩ := h
  split at h
  · split at h
    · simp only [except_pure_eq_ok, Prod.mk.injEq] at h
      exact h.1.symm
    · simp only [except_bind_eq_ok, except_pure_eq_ok, Prod.mk.injEq] at h
      obtain ⟨_, _, _, h⟩ := h
      simp at h
  · simp only [except_bind_eq_ok] at h
    obtain ⟨k, _, h⟩ := h
    split at h
    · simp only [except_pure_eq_ok, Prod.mk.injEq] at h
      exact h.1.symm
    · simp only [except_pure_eq_ok, Prod.mk.injEq] at h
      exact h.1.symm
    · simp only [except_pure_eq_ok, Prod.mk.injEq] at h
      exact h.1.symm
    · simp only [except_bind_eq_ok] at h
      obtain ⟨ty, _, h⟩ := h
      split at h
      · simp only [except_pure_eq_ok, Prod.mk.injEq] at h
        exact h.1.symm
      · simp only [except_bind_eq_ok, except_pure_eq_ok, Prod.mk.injEq] at h
        obtain ⟨_, _, _, h⟩ := h
        simp at h

/-- C10: when `try_atom` returns an error, the series (every builder, the FIFO
of finished batches and the conflict flag) is the one it was called on. -/
theorem try_atom_error_leaves_series (print : data_view2 → Option String)
    (cast_value : cast_fn) (s s1 : series_builder_impl) (self : builder_ref)
    (value : atom_view) (e : ec)
    (h : builder_ref.try_atom print cast_value s self value = .ok (s1, .error e)) :
    s1 = s :=
  try_atom_error_state print cast_value s s1 self value e h

theorem try_atom_error_leaves_series_witness :
    builder_ref.try_atom (fun _ => none) (fun _ _ _ => .error .convert_error)
        ⟨.mk (.atom (.basic .int64) [some (.int64 3)]) true (.basic .int64), [], false⟩
        .series (.string "x")
      = .ok (⟨.mk (.atom (.basic .int64) [some (.int64 3)]) true (.basic .int64), [], false⟩,
          .error .convert_error)
    ∧ (⟨.mk (.atom (.basic .int64) [some (.int64 3)]) true (.basic .int64), [], false⟩
        : series_builder_impl)
      = ⟨.mk (.atom (.basic .int64) [some (.int64 3)]) true (.basic .int64), [], false⟩ :=
  ⟨rfl, try_atom_error_leaves_series (fun _ => none) (fun _ _ _ => .error .convert_error)
    _ _ .series (.string "x") .convert_error rfl⟩
theorem except_bind_ok {ε α β : Type} (a : α) (f : α → Except ε β) :
    ((Except.ok a : Except ε α) >>= f) = f a := rfl

theorem ensure_true {c : Prop} [Decidable c] {e : abort} (h : c) : ensure c e = .ok () := by
  simp [ensure, h]

theorem dynamic_builder_finish_atoms (print : data_view2 → Option String) (k : basic_kind)
    (slots : List (Option atom_view)) (hne : slots ≠ []) :
    (dynamic_builder.mk (.atom (.basic k) slots) false .null).finish_and_leave print 0 0
      = .ok (⟨.basic k, .primitive slots⟩, .mk (.null 0) false .null) := by
  have hlen : 0 < slots.length := List.length_pos.mpr hne
  have h0 : ¬ (0 = slots.length) := by omega
  simp [dynamic_builder.finish_and_leave, builder_base.finish_and_leave, builder_base.length,
    ensure, h0, except_bind_ok, pure, Except.pure, atom_type.to_type, type.assign_metadata,
    type.layers, type.wrap, type.strip, builder_base.only_null]

theorem atom_cut (print : data_view2 → Option String) (fin : List typed_array)
    (k k1 : basic_kind) (slots : List (Option atom_view)) (v : atom_view)
    (hk : k ≠ k1) (hv : atom_view_to_type_t v = .basic k1) (hne : slots ≠ []) :
    series_builder.atom print ⟨.mk (.atom (.basic k) slots) false .null, fin, false⟩ v
      = .ok ⟨.mk (.atom (.basic k1) [some v]) false .null,
          fin ++ [⟨.basic k, .primitive slots⟩], false⟩ := by
  have hlen : 0 < slots.length := List.length_pos.mpr hne
  have h0 : ¬ (slots.length = 0) := by omega
  simp [series_builder.atom, series_builder_impl.atom, series_builder_impl.finish_if_conflict,
    dynamic_builder.atom, hv, dynamic_builder.prepare, series_builder_impl_get_root,
    dynamic_builder.prepare_cast, builder_base.is, hk, except_bind_ok, pure, Except.pure,
    ensure, dynamic_builder.kind, dynamic_builder.builder_, builder_base.kind, atom_type.kind,
    target.kind, dynamic_builder.is_protected, series_builder_impl.finish_previous_events,
    dynamic_builder.length, builder_base.length, h0, hlen, dynamic_builder_finish_atoms print k slots hne,
    typed_array.length, arrow_array.length, target.make, builder_base.resize,
    series_builder_impl_set_root, typed_builder.append_atom, dynamic_builder.typed,
    dynamic_builder.set_typed]
theorem atom_same (print : data_view2 → Option String) (fin : List typed_array)
    (k : basic_kind) (slots : List (Option atom_view)) (v : atom_view)
    (hv : atom_view_to_type_t v = .basic k) :
    series_builder.atom print ⟨.mk (.atom (.basic k) slots) false .null, fin, false⟩ v
      = .ok ⟨.mk (.atom (.basic k) (slots ++ [some v])) false .null, fin, false⟩ := by
  simp [series_builder.atom, series_builder_impl.atom, series_builder_impl.finish_if_conflict,
    dynamic_builder.atom, hv, dynamic_builder.prepare, series_builder_impl_get_root,
    dynamic_builder.prepare_cast, builder_base.is, except_bind_ok, pure, Except.pure,
    series_builder_impl_set_root, typed_builder.append_atom, dynamic_builder.typed,
    dynamic_builder.set_typed, dynamic_builder.builder_]

theorem atom_upgrade (print : data_view2 → Option String) (fin : List typed_array)
    (k : basic_kind) (n : Nat) (v : atom_view)
    (hv : atom_view_to_type_t v = .basic k) :
    series_builder.atom print ⟨.mk (.null n) false .null, fin, false⟩ v
      = .ok ⟨.mk (.atom (.basic k) (List.replicate n none ++ [some v])) false .null, fin,
          false⟩ := by
  rcases Nat.eq_zero_or_pos n with h | h
  · subst h
    simp [series_builder.atom, series_builder_impl.atom, series_builder_impl.finish_if_conflict,
      dynamic_builder.atom, hv, dynamic_builder.prepare, series_builder_impl_get_root,
      dynamic_builder.prepare_cast, builder_base.is, except_bind_ok, pure, Except.pure,
      series_builder_impl_set_root, typed_builder.append_atom, dynamic_builder.typed,
      dynamic_builder.set_typed, dynamic_builder.builder_, target.make, builder_base.resize]
  · simp [series_builder.atom, series_builder_impl.atom, series_builder_impl.finish_if_conflict,
      dynamic_builder.atom, hv, dynamic_builder.prepare, series_builder_impl_get_root,
      dynamic_builder.prepare_cast, builder_base.is, except_bind_ok, pure, Except.pure,
      series_builder_impl_set_root, typed_builder.append_atom, dynamic_builder.typed,
      dynamic_builder.set_typed, dynamic_builder.builder_, target.make, builder_base.resize, h]

theorem null_on_nulls (print : data_view2 → Option String) (fin : List typed_array) (n : Nat) :
    series_builder.atom print ⟨.mk (.null n) false .null, fin, false⟩ .null
      = .ok ⟨.mk (.null (n + 1)) false .null, fin, false⟩ := by
  simp [series_builder.atom, series_builder_impl.atom, series_builder_impl.finish_if_conflict,
    dynamic_builder.atom, atom_view_to_type_t, series_builder_impl_get_root,
    except_bind_ok, pure, Except.pure, series_builder_impl_set_root, dynamic_builder.resize,
    builder_base.resize, dynamic_builder.length, dynamic_builder.builder_, builder_base.length]

theorem null_on_atoms (print : data_view2 → Option String) (fin : List typed_array)
    (t : atom_type) (slots : List (Option atom_view)) :
    series_builder.atom print ⟨.mk (.atom t slots) false .null, fin, false⟩ .null
      = .ok ⟨.mk (.atom t (slots ++ [none])) false .null, fin, false⟩ := by
  simp [series_builder.atom, series_builder_impl.atom, series_builder_impl.finish_if_conflict,
    dynamic_builder.atom, atom_view_to_type_t, series_builder_impl_get_root,
    except_bind_ok, pure, Except.pure, series_builder_impl_set_root, dynamic_builder.resize,
    builder_base.resize, dynamic_builder.length, dynamic_builder.builder_, builder_base.length]

theorem typed_array_rows_primitive (t : tenzir.type) (slots : List (Option atom_view)) :
    typed_array.rows ⟨t, .primitive slots⟩ = slots.map (fun v => .atom (v.getD .null)) := by
  apply List.ext_getElem
  · simp [typed_array.rows, typed_array.length, arrow_array.length]
  · intro i h1 h2
    simp [typed_array.rows, typed_array.length, arrow_array.length] at h1
    simp [typed_array.rows, value_at, List.getD_eq_getElem?_getD, List.getElem?_eq_getElem h1]

theorem typed_array_rows_null (n : Nat) :
    typed_array.rows ⟨.null, .null n⟩ = List.replicate n (.atom .null) := by
  apply List.ext_getElem
  · simp [typed_array.rows, typed_array.length, arrow_array.length]
  · intro i h1 h2
    simp [typed_array.rows, value_at]
theorem atom_view_slot_getD (v : atom_view) : v.slot.getD .null = v := by
  unfold atom_view.slot
  split
  · rename_i h; simp [h]
  · simp

theorem atom_view_slot_of_basic (v : atom_view) (k : basic_kind)
    (h : atom_view_to_type_t v = .basic k) : v.slot = some v := by
  unfold atom_view.slot
  split
  · rename_i h1; subst h1; simp [atom_view_to_type_t] at h
  · rfl

theorem atom_view_ne_null_of_basic (v : atom_view) (k : basic_kind)
    (h : atom_view_to_type_t v = .basic k) : v ≠ .null := by
  intro h1; subst h1; simp [atom_view_to_type_t] at h

theorem map_slot_of_nulls (rows : List atom_view) (h : ∀ v ∈ rows, v = .null) :
    rows.map atom_view.slot = List.replicate rows.length none := by
  induction rows with
  | nil => rfl
  | cons v rest ih =>
    have hv : v = .null := h v (List.mem_cons_self _ _)
    subst hv
    simp only [List.map_cons, List.length_cons, List.replicate_succ]
    rw [ih (fun w hw => h w (List.mem_cons_of_mem _ hw))]
    rfl

theorem rows_of_slots (t : tenzir.type) (rows : List atom_view) :
    typed_array.rows ⟨t, .primitive (rows.map atom_view.slot)⟩ = rows.map data_view2.atom := by
  rw [typed_array_rows_primitive]
  simp [atom_view_slot_getD]

theorem single_kind_of_atoms (k : basic_kind) (rows : List atom_view)
    (h1 : ∀ v ∈ rows, v = .null ∨ atom_view_to_type_t v = .basic k)
    (h2 : ∃ v ∈ rows, v ≠ .null) :
    typed_array.single_kind ⟨.basic k, .primitive (rows.map atom_view.slot)⟩ := by
  constructor
  · intro v hv
    rw [rows_of_slots] at hv
    simp only [List.mem_map, data_view2.atom.injEq, exists_eq_right] at hv
    rcases h1 v hv with h | h
    · exact Or.inl h
    · exact Or.inr ⟨k, h, rfl⟩
  · intro hall
    exfalso
    obtain ⟨v, hv, hne⟩ := h2
    rw [rows_of_slots] at hall
    have := hall (.atom v) (List.mem_map_of_mem _ hv)
    simp only [data_view2.atom.injEq] at this
    exact hne this

theorem single_kind_of_nulls (n : Nat) : typed_array.single_kind ⟨.null, .null n⟩ := by
  constructor
  · intro v hv
    rw [typed_array_rows_null] at hv
    simp only [List.mem_replicate, data_view2.atom.injEq] at hv
    exact Or.inl hv.2
  · intro _; rfl

/-- One top-level atom on a series that holds atoms: the batch that is cut (if
any), and the current builder afterwards. -/
theorem write_atom_step (print : data_view2 → Option String) (fin : List typed_array)
    (b : builder_base) (cur : List atom_view) (v : atom_view)
    (hb : holds_atoms b cur) (hv : atom_view_to_type_t v ≠ .enumeration) :
    ∃ cut b1 cur1,
      series_builder.atom print ⟨.mk b false .null, fin, false⟩ v
        = .ok ⟨.mk b1 false .null, fin ++ cut, false⟩
      ∧ holds_atoms b1 cur1
      ∧ cut.flatMap typed_array.rows ++ cur1.map data_view2.atom
          = cur.map data_view2.atom ++ [data_view2.atom v]
      ∧ ∀ a ∈ cut, typed_array.single_kind a := by
  cases hvt : atom_view_to_type_t v with
  | enumeration => exact absurd hvt hv
  | null =>
    have hnull : v = .null := by
      cases v <;> simp [atom_view_to_type_t] at hvt
      rfl
    subst hnull
    rcases hb with ⟨hb, hall⟩ | ⟨k, hb, hkind, hex⟩
    · subst hb
      refine ⟨[], .null (cur.length + 1), cur ++ [atom_view.null], ?_, ?_, by simp, by simp⟩
      · simpa using null_on_nulls print fin cur.length
      · left
        refine ⟨by simp, ?_⟩
        intro w hw
        rcases List.mem_append.mp hw with h | h
        · exact hall w h
        · simpa using h
    · subst hb
      refine ⟨[], .atom (.basic k) ((cur ++ [atom_view.null]).map atom_view.slot),
        cur ++ [atom_view.null],
        ?_, ?_, by simp, by simp⟩
      · simpa [atom_view.slot] using null_on_atoms print fin (.basic k) (cur.map atom_view.slot)
      · right
        refine ⟨k, rfl, ?_, ?_⟩
        · intro w hw
          rcases List.mem_append.mp hw with h | h
          · exact hkind w h
          · left; simpa using h
        · obtain ⟨w, hw, hne⟩ := hex
          exact ⟨w, List.mem_append_left _ hw, hne⟩
  | basic k1 =>
    have hslot := atom_view_slot_of_basic v k1 hvt
    have hne := atom_view_ne_null_of_basic v k1 hvt
    rcases hb with ⟨hb, hall⟩ | ⟨k, hb, hkind, hex⟩
    · subst hb
      refine ⟨[], .atom (.basic k1) ((cur ++ [v]).map atom_view.slot), cur ++ [v],
        ?_, ?_, by simp, by simp⟩
      · rw [atom_upgrade print fin k1 cur.length v hvt]
        simp [map_slot_of_nulls cur hall, hslot]
      · right
        refine ⟨k1, rfl, ?_, v, by simp, hne⟩
        intro w hw
        rcases List.mem_append.mp hw with h | h
        · exact Or.inl (hall w h)
        · right
          have : w = v := by simpa using h
          subst this; exact hvt
    · subst hb
      by_cases hk : k = k1
      · subst hk
        refine ⟨[], .atom (.basic k) ((cur ++ [v]).map atom_view.slot), cur ++ [v],
          ?_, ?_, by simp, by simp⟩
        · rw [atom_same print fin k _ v hvt]
          simp [hslot]
        · right
          refine ⟨k, rfl, ?_, v, by simp, hne⟩
          intro w hw
          rcases List.mem_append.mp hw with h | h
          · exact hkind w h
          · right
            have : w = v := by simpa using h
            subst this; exact hvt
      · have hcur : cur.map atom_view.slot ≠ [] := by
          obtain ⟨w, hw, _⟩ := hex
          intro h
          have := List.map_eq_nil_iff.mp h
          subst this
          simp at hw
        refine ⟨[⟨.basic k, .primitive (cur.map atom_view.slot)⟩],
          .atom (.basic k1) ([v].map atom_view.slot), [v], ?_, ?_, ?_, ?_⟩
        · rw [atom_cut print fin k k1 _ v hk hvt hcur]
          simp [hslot]
        · right
          exact ⟨k1, rfl, by simp [hvt], v, by simp, hne⟩
        · simp [rows_of_slots]
        · intro a ha
          have : a = ⟨.basic k, .primitive (cur.map atom_view.slot)⟩ := by simpa using ha
          subst this
          exact single_kind_of_atoms k cur hkind hex

theorem write_atoms_inv (print : data_view2 → Option String) (values : List atom_view) :
    ∀ (fin : List typed_array) (b : builder_base) (cur : List atom_view),
      holds_atoms b cur → (∀ v ∈ values, atom_view_to_type_t v ≠ .enumeration) →
      ∃ cut b1 cur1,
        write_atoms print ⟨.mk b false .null, fin, false⟩ values
          = .ok ⟨.mk b1 false .null, fin ++ cut, false⟩
        ∧ holds_atoms b1 cur1
        ∧ cut.flatMap typed_array.rows ++ cur1.map data_view2.atom
            = cur.map data_view2.atom ++ values.map data_view2.atom
        ∧ ∀ a ∈ cut, typed_array.single_kind a := by
  induction values with
  | nil =>
    intro fin b cur hb _
    exact ⟨[], b, cur, by simp [write_atoms, pure, Except.pure], hb, by simp, by simp⟩
  | cons v rest ih =>
    intro fin b cur hb hvs
    obtain ⟨cut, b1, cur1, hstep, hb1, hrows, hkinds⟩ :=
      write_atom_step print fin b cur v hb (hvs v (List.mem_cons_self _ _))
    obtain ⟨cut2, b2, cur2, hrun, hb2, hrows2, hkinds2⟩ :=
      ih (fin ++ cut) b1 cur1 hb1 (fun w hw => hvs w (List.mem_cons_of_mem _ hw))
    refine ⟨cut ++ cut2, b2, cur2, ?_, hb2, ?_, ?_⟩
    · simp only [write_atoms, List.foldlM_cons, hstep, except_bind_ok]
      simpa [write_atoms, List.append_assoc] using hrun
    · simp only [List.flatMap_append, List.append_assoc, hrows2, List.map_cons]
      rw [← List.append_assoc, hrows]
      simp
    · intro a ha
      rcases List.mem_append.mp ha with h | h
      · exact hkinds a h
      · exact hkinds2 a h
theorem dynamic_builder_finish_nulls (print : data_view2 → Option String) (n : Nat)
    (hn : 0 < n) :
    (dynamic_builder.mk (.null n) false .null).finish_and_leave print 0 0
      = .ok (⟨.null, .null n⟩, .mk (.null 0) false .null) := by
  have h0 : ¬ (0 = n) := by omega
  simp [dynamic_builder.finish_and_leave, builder_base.finish_and_leave, builder_base.length,
    ensure, h0, except_bind_ok, pure, Except.pure, type.assign_metadata,
    type.layers, type.wrap, type.strip, builder_base.only_null]

theorem finish_of_atoms (print : data_view2 → Option String) (fin : List typed_array)
    (b : builder_base) (cur : List atom_view) (hb : holds_atoms b cur) :
    ∃ last,
      series_builder.finish print ⟨.mk b false .null, fin, false⟩
        = .ok (fin ++ last, ⟨.mk (.null 0) false .null, [], false⟩)
      ∧ last.flatMap typed_array.rows = cur.map data_view2.atom
      ∧ ∀ a ∈ last, typed_array.single_kind a := by
  rcases hb with ⟨hb, hall⟩ | ⟨k, hb, hkind, hex⟩
  · subst hb
    rcases Nat.eq_zero_or_pos cur.length with h0 | hpos
    · have hcur : cur = [] := List.length_eq_zero.mp h0
      subst hcur
      refine ⟨[], ?_, by simp, by simp⟩
      simp [series_builder.finish, series_builder_impl.finish, dynamic_builder.length,
        dynamic_builder.builder_, builder_base.length, pure, Except.pure]
    · refine ⟨[⟨.null, .null cur.length⟩], ?_, ?_, ?_⟩
      · simp [series_builder.finish, series_builder_impl.finish, dynamic_builder.length,
          dynamic_builder.builder_, builder_base.length, pure, Except.pure, hpos,
          dynamic_builder_finish_nulls print _ hpos, except_bind_ok, ensure]
      · simp only [List.flatMap_cons, List.flatMap_nil, List.append_nil, typed_array_rows_null]
        apply List.ext_getElem
        · simp
        · intro i h1 h2
          simp only [List.getElem_replicate, List.getElem_map]
          rw [hall _ (List.getElem_mem _)]
      · intro a ha
        have : a = ⟨.null, .null cur.length⟩ := by simpa using ha
        subst this
        exact single_kind_of_nulls _
  · subst hb
    have hcur : cur.map atom_view.slot ≠ [] := by
      obtain ⟨w, hw, _⟩ := hex
      intro h
      have := List.map_eq_nil_iff.mp h
      subst this
      simp at hw
    have hpos : 0 < cur.length := by
      have := List.length_pos.mpr hcur
      simpa using this
    refine ⟨[⟨.basic k, .primitive (cur.map atom_view.slot)⟩], ?_, ?_, ?_⟩
    · simp [series_builder.finish, series_builder_impl.finish, dynamic_builder.length,
        dynamic_builder.builder_, builder_base.length, pure, Except.pure, hpos,
        dynamic_builder_finish_atoms print k _ hcur, except_bind_ok, ensure]
    · simp [rows_of_slots]
    · intro a ha
      have : a = ⟨.basic k, .primitive (cur.map atom_view.slot)⟩ := by simpa using ha
      subst this
      exact single_kind_of_atoms k cur hkind hex

/-- C2: the arrays that `finish()` returns after a sequence of top-level nulls
and scalars hold, in order, exactly the written values, and each array has
a single kind. -/
theorem top_level_atoms_batch_continuity (print : data_view2 → Option String)
    (values : List atom_view) (h : ∀ v ∈ values, atom_view_to_type_t v ≠ .enumeration) :
    ∃ s arrays s1,
      write_atoms print series_builder_impl.new values = .ok s
      ∧ series_builder.finish print s = .ok (arrays, s1)
      ∧ arrays.flatMap typed_array.rows = values.map data_view2.atom
      ∧ ∀ a ∈ arrays, typed_array.single_kind a := by
  obtain ⟨cut, b1, cur1, hrun, hb1, hrows, hkinds⟩ :=
    write_atoms_inv print values [] (.null 0) [] (Or.inl ⟨rfl, by simp⟩) h
  obtain ⟨last, hfin, hlast, hlk⟩ := finish_of_atoms print ([] ++ cut) b1 cur1 hb1
  refine ⟨_, _, _, hrun, hfin, ?_, ?_⟩
  · simp only [List.nil_append, List.flatMap_append, hlast]
    simpa using hrows
  · intro a ha
    simp only [List.nil_append] at ha
    rcases List.mem_append.mp ha with h1 | h1
    · exact hkinds a h1
    · exact hlk a h1

theorem top_level_atoms_batch_continuity_witness :
    (∀ v ∈ [atom_view.int64 1, .null, .string "a"], atom_view_to_type_t v ≠ .enumeration)
    ∧ ∃ s arrays s1,
      write_atoms (fun _ => none) series_builder_impl.new [.int64 1, .null, .string "a"] = .ok s
      ∧ series_builder.finish (fun _ => none) s = .ok (arrays, s1)
      ∧ arrays.flatMap typed_array.rows
          = [atom_view.int64 1, .null, .string "a"].map data_view2.atom
      ∧ ∀ a ∈ arrays, typed_array.single_kind a :=
  ⟨by decide, top_level_atoms_batch_continuity (fun _ => none) _ (by decide)⟩

theorem write_nulls (print : data_view2 → Option String) (fin : List typed_array) (n : Nat) :
    ∀ m, write_atoms print ⟨.mk (.null m) false .null, fin, false⟩ (List.replicate n .null)
      = .ok ⟨.mk (.null (m + n)) false .null, fin, false⟩ := by
  induction n with
  | zero => intro m; rfl
  | succ n ih =>
    intro m
    simp only [write_atoms, List.replicate_succ, List.foldlM_cons, null_on_nulls,
      except_bind_ok]
    have := ih (m + 1)
    simp only [write_atoms] at this
    rw [this]
    have e : m + 1 + n = m + (n + 1) := by omega
    rw [e]

/-- C7: `n` nulls and then a scalar `v` of kind `k` finish as one array of type
`k` with `n` null slots followed by `v`. -/
theorem nulls_then_atom_finish_as_one_array (print : data_view2 → Option String) (n : Nat)
    (v : atom_view) (k : basic_kind) (hv : atom_view_to_type_t v = .basic k) :
    ∃ s s1,
      write_atoms print series_builder_impl.new (List.replicate n .null ++ [v]) = .ok s
      ∧ series_builder.finish print s
          = .ok ([⟨.basic k, .primitive (List.replicate n none ++ [some v])⟩], s1)
      ∧ typed_array.length ⟨.basic k, .primitive (List.replicate n none ++ [some v])⟩ = n + 1 := by
  refine ⟨⟨.mk (.atom (.basic k) (List.replicate n none ++ [some v])) false .null, [], false⟩,
    ⟨.mk (.null 0) false .null, [], false⟩, ?_, ?_, ?_⟩
  · have h1 := write_nulls print [] n 0
    simp only [write_atoms, List.foldlM_append, series_builder_impl.new,
      dynamic_builder.new] at h1 ⊢
    rw [h1]
    simp only [except_bind_ok, List.foldlM_cons, List.foldlM_nil, Nat.zero_add,
      atom_upgrade print [] k n v hv]
    rfl
  · have hne : List.replicate n (none : Option atom_view) ++ [some v] ≠ [] := by simp
    simp [series_builder.finish, series_builder_impl.finish, dynamic_builder.length,
      dynamic_builder.builder_, builder_base.length, pure, Except.pure,
      dynamic_builder_finish_atoms print k _ hne, except_bind_ok, ensure]
  · simp [typed_array.length, arrow_array.length]

theorem nulls_then_atom_finish_as_one_array_witness :
    atom_view_to_type_t (.int64 7) = .basic .int64
    ∧ ∃ s s1,
      write_atoms (fun _ => none) series_builder_impl.new
        (List.replicate 2 .null ++ [.int64 7]) = .ok s
      ∧ series_builder.finish (fun _ => none) s
          = .ok ([⟨.basic .int64, .primitive (List.replicate 2 none ++ [some (.int64 7)])⟩], s1)
      ∧ typed_array.length
          ⟨.basic .int64, .primitive (List.replicate 2 none ++ [some (.int64 7)])⟩ = 2 + 1 :=
  ⟨rfl, nulls_then_atom_finish_as_one_array (fun _ => none) 2 (.int64 7) .int64 rfl⟩
/-- C3, as stated, fails: after a batch was cut, `remove_last()` does not reach
the rows that are already in the FIFO. Two writes of different kinds and two
`remove_last()` calls leave the length at 1, not at 0. -/
theorem length_is_not_rows_written_minus_removed :
    (run_calls (fun _ => none) series_builder_impl.new
        [.atom (.int64 1), .atom (.string "s"), .remove_last, .remove_last]).map
      series_builder.length = .ok 1
    ∧ rows_written_minus_removed
        [.atom (.int64 1), .atom (.string "s"), .remove_last, .remove_last] = 0 :=
  ⟨rfl, rfl⟩

/-- C3, amended: a top-level write that returns makes `length()` one more; a
`remove_last()` that returns makes it one less when the current builder holds
a row and leaves it as it is otherwise. -/
theorem top_level_call_length (print : data_view2 → Option String)
    (s s1 : series_builder_impl) (call : top_level_call)
    (h : call.run print s = .ok s1) :
    series_builder.length s1 =
      if call.is_write then series_builder.length s + 1
      else series_builder.length s - (if s.builder_.length > 0 then 1 else 0) := by
  cases call with
  | null =>
    simp only [top_level_call.run, series_builder.null, series_builder_impl.atom,
      except_bind_eq_ok] at h
    obtain ⟨s2, hc, h⟩ := h
    simp only [series_builder.length, top_level_call.is_write, if_true,
      dynamic_builder_atom_root_length print _ _ _ h,
      series_builder_impl_finish_if_conflict_length print _ _ hc]
  | atom value =>
    simp only [top_level_call.run, series_builder.atom, series_builder_impl.atom,
      except_bind_eq_ok] at h
    obtain ⟨s2, hc, h⟩ := h
    simp only [series_builder.length, top_level_call.is_write, if_true,
      dynamic_builder_atom_root_length print _ _ _ h,
      series_builder_impl_finish_if_conflict_length print _ _ hc]
  | record =>
    simp only [top_level_call.run, series_builder.record, series_builder_impl.record] at h
    cases hr : (s.finish_if_conflict print >>= fun s1 => dynamic_builder.record print s1 []) with
    | error e => simp [hr, Except.map] at h
    | ok sr =>
      obtain ⟨s3, r⟩ := sr
      simp only [hr, Except.map, Except.ok.injEq] at h
      subst h
      simp only [except_bind_eq_ok] at hr
      obtain ⟨s2, hc, hr⟩ := hr
      simp only [series_builder.length, top_level_call.is_write, if_true,
        dynamic_builder_record_root_length print _ _ _ hr,
        series_builder_impl_finish_if_conflict_length print _ _ hc]
  | list =>
    simp only [top_level_call.run, series_builder.list, series_builder_impl.list] at h
    cases hr : (s.finish_if_conflict print >>= fun s1 => dynamic_builder.list print s1 []) with
    | error e => simp [hr, Except.map] at h
    | ok sr =>
      obtain ⟨s3, r⟩ := sr
      simp only [hr, Except.map, Except.ok.injEq] at h
      subst h
      simp only [except_bind_eq_ok] at hr
      obtain ⟨s2, hc, hr⟩ := hr
      simp only [series_builder.length, top_level_call.is_write, if_true,
        dynamic_builder_list_root_length print _ _ _ hr,
        series_builder_impl_finish_if_conflict_length print _ _ hc]
  | remove_last =>
    simp only [top_level_call.run, series_builder.remove_last] at h
    simp only [series_builder.length, top_level_call.is_write, Bool.false_eq_true, if_false,
      series_builder_impl_remove_last_length _ _ h]

theorem top_level_call_length_witness :
    top_level_call.run (fun _ => none)
        ⟨.mk (.atom (.basic .int64) [some (.int64 1)]) false .null, [], false⟩
        (.atom (.string "s"))
      = .ok ⟨.mk (.atom (.basic .string) [some (.string "s")]) false .null,
          [⟨.basic .int64, .primitive [some (.int64 1)]⟩], false⟩
    ∧ series_builder.length
        ⟨.mk (.atom (.basic .string) [some (.string "s")]) false .null,
          [⟨.basic .int64, .primitive [some (.int64 1)]⟩], false⟩
      = if (top_level_call.atom (.string "s")).is_write then
          series_builder.length
            ⟨.mk (.atom (.basic .int64) [some (.int64 1)]) false .null, [], false⟩ + 1
        else
          series_builder.length
              ⟨.mk (.atom (.basic .int64) [some (.int64 1)]) false .null, [], false⟩
            - (if (dynamic_builder.mk (.atom (.basic .int64) [some (.int64 1)]) false
                .null).length > 0 then 1 else 0) :=
  ⟨rfl, top_level_call_length (fun _ => none) _ _ _ rfl⟩

/-- C8: `data(v)` writes only the first field of a record view and only the
first element of a list view. -/
theorem data_writes_only_the_first_child (print : data_view2 → Option String)
    (cast_value : cast_fn) :
    (series_builder.data print cast_value series_builder_impl.new
        (.record [("a", .atom (.int64 1)), ("b", .atom (.int64 2))]) >>= fun s =>
      series_builder.finish print s)
      = .ok ([⟨.record [("a", .basic .int64)],
            .struct 1 [.primitive [some (.int64 1)]] none⟩],
          ⟨.mk (.null 0) false .null, [], false⟩)
    ∧ (series_builder.data print cast_value series_builder_impl.new
        (.list [.atom (.int64 1), .atom (.int64 2)]) >>= fun s =>
      series_builder.finish print s)
      = .ok ([⟨.list (.basic .int64),
            .list [0, 1] [true] (.primitive [some (.int64 1)])⟩],
          ⟨.mk (.null 0) false .null, [], false⟩) :=
  ⟨rfl, rfl⟩
/-! ## Writes into the fields of a record at top level -/

theorem record_on_record (print : data_view2 → Option String)
    (fs : List (String × dynamic_builder)) (valid : List Bool) (len : Nat) (ka : Option String)
    (p : Bool) (m : type) (fin : List typed_array) :
    series_builder.record print ⟨.mk (.record fs valid len ka) p m, fin, false⟩
      = .ok (⟨.mk (.record fs valid (len + 1) ka) p m, fin, false⟩, ⟨[], none⟩) := by
  simp [series_builder.record, series_builder_impl.record,
    series_builder_impl.finish_if_conflict, dynamic_builder.record, dynamic_builder.prepare,
    series_builder_impl_get_root, dynamic_builder.prepare_cast, builder_base.is, except_bind_ok,
    pure, Except.pure, series_builder_impl_set_root, typed_builder.append_record,
    dynamic_builder.typed, dynamic_builder.builder_, dynamic_builder.set_typed]

theorem record_on_nulls (print : data_view2 → Option String) (n : Nat)
    (fin : List typed_array) :
    series_builder.record print ⟨.mk (.null n) false .null, fin, false⟩
      = .ok (⟨.mk (.record [] (List.replicate n false) (n + 1) none) false .null, fin, false⟩,
          ⟨[], none⟩) := by
  rcases Nat.eq_zero_or_pos n with h | h
  · subst h
    simp [series_builder.record, series_builder_impl.record,
      series_builder_impl.finish_if_conflict, dynamic_builder.record, dynamic_builder.prepare,
      series_builder_impl_get_root, dynamic_builder.prepare_cast, builder_base.is,
      except_bind_ok, pure, Except.pure, series_builder_impl_set_root,
      typed_builder.append_record, dynamic_builder.typed, dynamic_builder.builder_,
      dynamic_builder.set_typed, target.make, builder_base.resize]
  · simp [series_builder.record, series_builder_impl.record,
      series_builder_impl.finish_if_conflict, dynamic_builder.record, dynamic_builder.prepare,
      series_builder_impl_get_root, dynamic_builder.prepare_cast, builder_base.is,
      except_bind_ok, pure, Except.pure, series_builder_impl_set_root,
      typed_builder.append_record, dynamic_builder.typed, dynamic_builder.builder_,
      dynamic_builder.set_typed, target.make, builder_base.resize, h]

theorem record_ref_get_root (fs : List (String × dynamic_builder)) (valid : List Bool)
    (len : Nat) (ka : Option String) (p : Bool) (m : type) (fin : List typed_array) (c : Bool) :
    record_ref.get ⟨.mk (.record fs valid len ka) p m, fin, c⟩ ⟨[], none⟩
      = .ok (.mk (.record fs valid len ka) p m, fs, valid, len, ka) := rfl

theorem record_ref_set_root (s : series_builder_impl)
    (fs fs1 : List (String × dynamic_builder)) (valid valid1 : List Bool)
    (len len1 : Nat) (ka ka1 : Option String) (p : Bool) (m : type) :
    record_ref.set s ⟨[], none⟩ (.mk (.record fs valid len ka) p m) fs1 valid1 len1 ka1
      = .ok ⟨.mk (.record fs1 valid1 len1 ka1) p m, s.finished_, s.has_conflict_⟩ := rfl

theorem field_get (fs : List (String × dynamic_builder)) (valid : List Bool)
    (len : Nat) (ka : Option String) (p : Bool) (m : type) (fin : List typed_array) (c : Bool)
    (name : String) (b : dynamic_builder) (h : fields_find fs name = some b) :
    series_builder_impl.get ⟨.mk (.record fs valid len ka) p m, fin, c⟩ [.field none name]
      = .ok b := by
  simp [series_builder_impl.get, dynamic_builder.get, dynamic_builder.typed,
    dynamic_builder.builder_, path_step.variant, builder_base.child, h, pure, Except.pure]

theorem field_set (fs : List (String × dynamic_builder)) (valid : List Bool)
    (len : Nat) (ka : Option String) (p : Bool) (m : type) (fin : List typed_array) (c : Bool)
    (name : String) (b b1 : dynamic_builder) (h : fields_find fs name = some b) :
    series_builder_impl.set ⟨.mk (.record fs valid len ka) p m, fin, c⟩ [.field none name] b1
      = .ok ⟨.mk (.record (fields_set fs name b1) valid len ka) p m, fin, c⟩ := by
  simp [series_builder_impl.set, dynamic_builder.set, dynamic_builder.typed,
    dynamic_builder.builder_, path_step.variant, builder_base.child, h, pure, Except.pure,
    except_bind_ok, builder_base.set_child, dynamic_builder.set_typed]

theorem fields_find_cons (n : String) (d : dynamic_builder)
    (rest : List (String × dynamic_builder)) (name : String) :
    fields_find ((n, d) :: rest) name = if name = n then some d else fields_find rest name := by
  by_cases h : name = n
  · subst h; simp [fields_find, List.lookup]
  · have h1 : (name == n) = false := by simpa using h
    simp [fields_find, List.lookup, h1, h]

theorem fields_set_cons (n : String) (d : dynamic_builder)
    (rest : List (String × dynamic_builder)) (name : String) (b : dynamic_builder) :
    fields_set ((n, d) :: rest) name b
      = (if n = name then (n, b) else (n, d)) :: fields_set rest name b := by
  by_cases h : n = name
  · subst h; simp [fields_set]
  · have h1 : (n == name) = false := by simpa using h
    simp [fields_set, h1, h]

theorem fields_find_nil (name : String) : fields_find [] name = none := rfl

theorem fields_set_nil (name : String) (b : dynamic_builder) : fields_set [] name b = [] := rfl

theorem fields_find_set (fs : List (String × dynamic_builder)) (name : String)
    (b b1 : dynamic_builder) (h : fields_find fs name = some b) :
    fields_find (fields_set fs name b1) name = some b1 := by
  induction fs with
  | nil => simp [fields_find_nil] at h
  | cons f rest ih =>
    obtain ⟨n, d⟩ := f
    rw [fields_find_cons] at h
    rw [fields_set_cons]
    by_cases hn : name = n
    · subst hn
      simp [fields_find_cons]
    · have hn2 : ¬ n = name := fun e => hn e.symm
      simp only [hn, if_false] at h
      simp only [hn2, if_false, fields_find_cons, hn]
      exact ih h

theorem fields_set_set (fs : List (String × dynamic_builder)) (name : String)
    (b1 b2 : dynamic_builder) :
    fields_set (fields_set fs name b1) name b2 = fields_set fs name b2 := by
  induction fs with
  | nil => rfl
  | cons f rest ih =>
    obtain ⟨n, d⟩ := f
    simp only [fields_set_cons]
    by_cases hn : n = name
    · simp [hn, ih, fields_set_cons]
    · simp [hn, ih, fields_set_cons]

theorem fields_set_absent (fs : List (String × dynamic_builder)) (name : String)
    (b1 : dynamic_builder) (h : fields_find fs name = none) :
    fields_set fs name b1 = fs := by
  induction fs with
  | nil => rfl
  | cons f rest ih =>
    obtain ⟨n, d⟩ := f
    rw [fields_find_cons] at h
    by_cases hn : name = n
    · simp [hn] at h
    · have hn2 : ¬ n = name := fun e => hn e.symm
      simp only [hn, if_false] at h
      simp [fields_set_cons, hn2, ih h]

theorem fields_find_append_new (fs : List (String × dynamic_builder)) (name : String)
    (b : dynamic_builder) (h : fields_find fs name = none) :
    fields_find (fs ++ [(name, b)]) name = some b := by
  induction fs with
  | nil => simp [fields_find_cons]
  | cons f rest ih =>
    obtain ⟨n, d⟩ := f
    rw [fields_find_cons] at h
    by_cases hn : name = n
    · simp [hn] at h
    · simp only [hn, if_false] at h
      simp only [List.cons_append, fields_find_cons, hn, if_false]
      exact ih h

theorem fields_set_append_new (fs : List (String × dynamic_builder)) (name : String)
    (b b1 : dynamic_builder) (h : fields_find fs name = none) :
    fields_set (fs ++ [(name, b)]) name b1 = fs ++ [(name, b1)] := by
  induction fs with
  | nil => simp [fields_set_cons, fields_set_nil]
  | cons f rest ih =>
    obtain ⟨n, d⟩ := f
    rw [fields_find_cons] at h
    by_cases hn : name = n
    · simp [hn] at h
    · have hn2 : ¬ n = name := fun e => hn e.symm
      simp only [hn, if_false] at h
      simp only [List.cons_append, fields_set_cons, hn2, if_false, ih h]
theorem resized_length (slots : List (Option atom_view)) (n : Nat) :
    (resized slots n).length = n := by
  simp [resized]; omega

theorem atom_resize (t : atom_type) (slots : List (Option atom_view)) (p : Bool) (m : type)
    (n : Nat) :
    (dynamic_builder.mk (.atom t slots) p m).resize n
      = .ok (.mk (.atom t (resized slots n)) p m) := by
  simp only [dynamic_builder.resize, builder_base.resize, resized]
  split
  · rename_i h
    have : (slots ++ List.replicate (n - slots.length) none).length = n := by simp; omega
    simp [pure, Except.pure, except_bind_ok, List.take_of_length_le (Nat.le_of_eq this)]
  · split
    · rename_i h1 h2
      have : n - slots.length = 0 := by omega
      simp [pure, Except.pure, except_bind_ok, this]
    · rename_i h1 h2
      have h3 : slots.length = n := by omega
      have : n - slots.length = 0 := by omega
      simp [pure, Except.pure, except_bind_ok, this, List.take_of_length_le (Nat.le_of_eq h3)]

theorem null_resize (len : Nat) (p : Bool) (m : type) (n : Nat) :
    (dynamic_builder.mk (.null len) p m).resize n = .ok (.mk (.null n) p m) := rfl

theorem prepare_cast_same_atom (k : basic_kind) (slots : List (Option atom_view)) (p : Bool)
    (m : type) :
    (dynamic_builder.mk (.atom (.basic k) slots) p m).prepare_cast (.basic k)
      = .ok (some (.mk (.atom (.basic k) slots) p m, none)) := by
  simp [dynamic_builder.prepare_cast, builder_base.is, pure, Except.pure]

theorem prepare_cast_null_atom (k : basic_kind) (n : Nat) (p : Bool) (m : type) :
    (dynamic_builder.mk (.null n) p m).prepare_cast (.basic k)
      = .ok (some (.mk (.atom (.basic k) (List.replicate n none)) p m, none)) := by
  rcases Nat.eq_zero_or_pos n with h | h
  · subst h
    simp [dynamic_builder.prepare_cast, builder_base.is, pure, Except.pure, target.make,
      builder_base.resize, except_bind_ok]
  · simp [dynamic_builder.prepare_cast, builder_base.is, pure, Except.pure, target.make,
      builder_base.resize, except_bind_ok, h]

/-- Writing a scalar into an existing field of its kind. -/
theorem field_atom_same (print : data_view2 → Option String)
    (fs : List (String × dynamic_builder)) (valid : List Bool) (len : Nat) (p : Bool)
    (m : type) (fin : List typed_array) (c : Bool) (name : String) (k : basic_kind)
    (slots : List (Option atom_view)) (fp : Bool) (fm : type) (v : atom_view)
    (hf : fields_find fs name = some (.mk (.atom (.basic k) slots) fp fm))
    (hv : atom_view_to_type_t v = .basic k) :
    field_ref.atom print ⟨.mk (.record fs valid (len + 1) none) p m, fin, c⟩
        ⟨⟨[], none⟩, name⟩ v
      = .ok ⟨.mk (.record (fields_set fs name
            (.mk (.atom (.basic k) (resized slots len ++ [some v])) fp fm))
          valid (len + 1) none) p m, fin, c⟩ := by
  have h1 := fields_find_set fs name _ (.mk (.atom (.basic k) (resized slots len)) fp fm) hf
  simp only [field_ref.atom, hv, typed_builder.prepare_field, record_ref_get_root, Nat.le_add_left, ensure_true,
    except_bind_ok, hf, atom_resize, Nat.add_sub_cancel, ensure_true, record_ref_set_root,
    List.nil_append, dynamic_builder.prepare, field_get _ _ _ _ _ _ _ _ _ _ h1,
    prepare_cast_same_atom, field_set _ _ _ _ _ _ _ _ _ _ _ h1, fields_set_set,
    typed_builder.append_atom, dynamic_builder.typed, dynamic_builder.builder_,
    dynamic_builder.set_typed, pure, Except.pure]
/-- Writing a scalar into a field that does not exist yet. -/
theorem field_atom_new (print : data_view2 → Option String)
    (fs : List (String × dynamic_builder)) (valid : List Bool) (len : Nat) (p : Bool)
    (m : type) (fin : List typed_array) (c : Bool) (name : String) (k : basic_kind)
    (v : atom_view)
    (hf : fields_find fs name = none)
    (hv : atom_view_to_type_t v = .basic k) :
    field_ref.atom print ⟨.mk (.record fs valid (len + 1) none) p m, fin, c⟩
        ⟨⟨[], none⟩, name⟩ v
      = .ok ⟨.mk (.record (fs ++ [(name,
            .mk (.atom (.basic k) (List.replicate len none ++ [some v])) false .null)])
          valid (len + 1) none) p m, fin, c⟩ := by
  have h1 := fields_find_append_new fs name (.mk (.null len) false .null) hf
  have h2 := fields_find_append_new fs name
    (.mk (.atom (.basic k) (List.replicate len none)) false .null) hf
  simp only [field_ref.atom, hv, typed_builder.prepare_field, record_ref_get_root, Nat.le_add_left, ensure_true,
    except_bind_ok, hf, dynamic_builder.new, null_resize, Nat.add_sub_cancel,
    record_ref_set_root,
    List.nil_append, dynamic_builder.prepare, field_get _ _ _ _ _ _ _ _ _ _ h1,
    prepare_cast_null_atom, field_set _ _ _ _ _ _ _ _ _ _ _ h1,
    field_get _ _ _ _ _ _ _ _ _ _ h2, field_set _ _ _ _ _ _ _ _ _ _ _ h2,
    fields_set_append_new _ _ _ _ hf, fields_find_append_new _ _ _ hf,
    typed_builder.append_atom, dynamic_builder.typed, dynamic_builder.builder_,
    dynamic_builder.set_typed, pure, Except.pure]

theorem resized_self (slots : List (Option atom_view)) : resized slots slots.length = slots := by
  simp [resized]

theorem prepare_cast_other_atom (k k1 : basic_kind) (slots : List (Option atom_view)) (p : Bool)
    (m : type) (hk : k ≠ k1) :
    (dynamic_builder.mk (.atom (.basic k) slots) p m).prepare_cast (.basic k1)
      = .ok none := by
  simp [dynamic_builder.prepare_cast, builder_base.is, pure, Except.pure, hk]

theorem finish_previous_events_one_field (print : data_view2 → Option String)
    (x : String) (k : basic_kind) (slots : List (Option atom_view)) (fin : List typed_array)
    (hne : slots ≠ []) :
    series_builder_impl.finish_previous_events print
        ⟨.mk (.record [(x, .mk (.atom (.basic k) slots) false .null)] [] (slots.length + 1)
          (some x)) false .null, fin, false⟩ false
      = .ok ⟨.mk (.record [(x, .mk (.null 0) false .null)] [] 1 (some x)) false .null,
          fin ++ [⟨.record [(x, .basic k)], .struct slots.length [.primitive slots] none⟩],
          false⟩ := by
  have hlen : 0 < slots.length := List.length_pos.mpr hne
  have h0 : ¬ (slots.length = 0) := by omega
  have h1 : ¬ (0 = slots.length) := by omega
  simp [series_builder_impl.finish_previous_events, dynamic_builder.length,
    dynamic_builder.builder_, builder_base.length, h0, h1, hlen,
    dynamic_builder.finish_and_leave,
    builder_base.finish_and_leave, finish_fields, finish_validity, ensure, except_bind_ok,
    pure, Except.pure, fields_type, dynamic_builder.type, builder_base.type,
    atom_type.to_type, type.assign_metadata, type.layers, type.wrap, type.strip,
    builder_base.only_null, typed_array.length, arrow_array.length,
    dynamic_builder.is_protected]
theorem fields_find_single (x : String) (b : dynamic_builder) :
    fields_find [(x, b)] x = some b := by
  simp [fields_find_cons]

theorem fields_set_single (x : String) (b b1 : dynamic_builder) :
    fields_set [(x, b)] x b1 = [(x, b1)] := by
  simp [fields_set_cons, fields_set_nil]

/-- Writing a scalar of another kind into the only field of a record at top
level: the rows before the current one are cut off as a batch. -/
theorem field_atom_cut (print : data_view2 → Option String) (fin : List typed_array)
    (x : String) (k k1 : basic_kind) (slots : List (Option atom_view)) (w : atom_view)
    (hk : k ≠ k1) (hw : atom_view_to_type_t w = .basic k1) (hne : slots ≠ []) :
    field_ref.atom print
        ⟨.mk (.record [(x, .mk (.atom (.basic k) slots) false .null)] [] (slots.length + 1)
          none) false .null, fin, false⟩ ⟨⟨[], none⟩, x⟩ w
      = .ok ⟨.mk (.record [(x, .mk (.atom (.basic k1) [some w]) false .null)] [] 1 none)
          false .null,
          fin ++ [⟨.record [(x, .basic k)], .struct slots.length [.primitive slots] none⟩],
          false⟩ := by
  have hkk : ¬ (type_kind.basic k = type_kind.basic k1) := by
    intro h; injection h with h; exact hk h
  have hpath : (([path_step.field none x] : builder_path) == []) = false := rfl
  simp only [field_ref.atom, hw, typed_builder.prepare_field, record_ref_get_root, Nat.le_add_left, ensure_true,
    except_bind_ok, fields_find_single, atom_resize, Nat.add_sub_cancel, resized_self,
    ensure_true, record_ref_set_root, fields_set_single, List.nil_append,
    dynamic_builder.prepare, field_get _ _ _ _ _ _ _ _ _ _ (fields_find_single x _),
    prepare_cast_other_atom _ _ _ _ _ hk, dynamic_builder.kind, dynamic_builder.builder_,
    builder_base.kind, atom_type.kind, target.kind, ne_eq, hkk, not_false_eq_true,
    dynamic_builder.is_protected, hpath,
    finish_previous_events_one_field print x k slots fin hne, dynamic_builder.length,
    builder_base.length, gt_iff_lt, Nat.lt_irrefl, if_false, not_true_eq_false,
    prepare_cast_null_atom, field_set _ _ _ _ _ _ _ _ _ _ _ (fields_find_single x _),
    List.replicate_zero, typed_builder.append_atom, dynamic_builder.typed,
    dynamic_builder.set_typed, pure, Except.pure]

/-- Finishing a record at top level whose only field holds scalars in every row. -/
theorem finish_one_field (print : data_view2 → Option String) (fin : List typed_array)
    (x : String) (k : basic_kind) (slots : List (Option atom_view)) (hne : slots ≠ []) :
    series_builder.finish print
        ⟨.mk (.record [(x, .mk (.atom (.basic k) slots) false .null)] [] slots.length none)
          false .null, fin, false⟩
      = .ok (fin ++ [⟨.record [(x, .basic k)], .struct slots.length [.primitive slots] none⟩],
          ⟨.mk (.null 0) false .null, [], false⟩) := by
  have hlen : 0 < slots.length := List.length_pos.mpr hne
  have h0 : ¬ (slots.length = 0) := by omega
  have h1 : ¬ (0 = slots.length) := by omega
  simp [series_builder.finish, series_builder_impl.finish, dynamic_builder.length,
    dynamic_builder.builder_, builder_base.length, h0, h1, hlen,
    dynamic_builder.finish_and_leave,
    builder_base.finish_and_leave, finish_fields, finish_validity, ensure, except_bind_ok,
    pure, Except.pure, fields_type, dynamic_builder.type, builder_base.type,
    atom_type.to_type, type.assign_metadata, type.layers, type.wrap, type.strip,
    builder_base.only_null, typed_array.length, arrow_array.length,
    dynamic_builder.is_protected]
theorem write_record_single (print : data_view2 → Option String) (s : series_builder_impl)
    (x : String) (v : atom_view) :
    write_record print s [(x, v)]
      = (series_builder.record print s >>= fun sr =>
          field_ref.atom print sr.1 ⟨sr.2, x⟩ v) := by
  simp only [write_record, List.foldlM_cons, List.foldlM_nil, record_ref.field,
    builder_ref.atom]
  cases series_builder.record print s with
  | error e => rfl
  | ok sr =>
    simp only [except_bind_ok]
    cases field_ref.atom print sr.1 ⟨sr.2, x⟩ v <;> rfl

theorem record_one_field_first (print : data_view2 → Option String) (x : String)
    (k : basic_kind) (v : atom_view) (hv : atom_view_to_type_t v = .basic k) :
    write_record print series_builder_impl.new [(x, v)]
      = .ok ⟨.mk (.record [(x, .mk (.atom (.basic k) [some v]) false .null)] [] 1 none)
          false .null, [], false⟩ := by
  rw [write_record_single]
  simp only [series_builder_impl.new, dynamic_builder.new, record_on_nulls, except_bind_ok,
    List.replicate_zero, Nat.zero_add]
  have := field_atom_new print [] [] 0 false .null [] false x k v rfl hv
  simpa using this

theorem record_one_field_same (print : data_view2 → Option String) (fin : List typed_array)
    (x : String) (k : basic_kind) (slots : List (Option atom_view)) (v : atom_view)
    (hv : atom_view_to_type_t v = .basic k) :
    write_record print
        ⟨.mk (.record [(x, .mk (.atom (.basic k) slots) false .null)] [] slots.length none)
          false .null, fin, false⟩ [(x, v)]
      = .ok ⟨.mk (.record [(x, .mk (.atom (.basic k) (slots ++ [some v])) false .null)] []
          (slots ++ [some v]).length none) false .null, fin, false⟩ := by
  rw [write_record_single]
  simp only [record_on_record, except_bind_ok]
  have := field_atom_same print [(x, .mk (.atom (.basic k) slots) false .null)] []
    slots.length false .null fin false x k slots false .null v (fields_find_single x _) hv
  simpa [resized_self, fields_set_single] using this

theorem write_records_one_field (print : data_view2 → Option String) (fin : List typed_array)
    (x : String) (k : basic_kind) (vs : List atom_view) :
    ∀ (slots : List (Option atom_view)), (∀ v ∈ vs, atom_view_to_type_t v = .basic k) →
      write_records print
          ⟨.mk (.record [(x, .mk (.atom (.basic k) slots) false .null)] [] slots.length none)
            false .null, fin, false⟩ (vs.map (fun v => [(x, v)]))
        = .ok ⟨.mk (.record [(x, .mk (.atom (.basic k) (slots ++ vs.map some)) false .null)]
            [] (slots ++ vs.map some).length none) false .null, fin, false⟩ := by
  induction vs with
  | nil => intro slots _; simp [write_records, pure, Except.pure]
  | cons v rest ih =>
    intro slots h
    have hv := h v (List.mem_cons_self _ _)
    have hrest := ih (slots ++ [some v]) (fun w hw => h w (List.mem_cons_of_mem _ hw))
    simp only [write_records, List.map_cons, List.foldlM_cons,
      record_one_field_same print fin x k slots v hv, except_bind_ok] at hrest ⊢
    rw [hrest]
    simp

/-- C5: `n ≥ 1` records `{x: v_i}` of kind `k1` followed by one record `{x: w}`
of another kind `k2` finish as two batches: `n` rows of type `{x: k1}`,
then the row `{x: w}` of type `{x: k2}`. -/
theorem type_conflict_between_events_cuts_batch (print : data_view2 → Option String)
    (x : String) (k1 k2 : basic_kind) (vs : List atom_view) (w : atom_view)
    (hk : k1 ≠ k2) (hvs : ∀ v ∈ vs, atom_view_to_type_t v = .basic k1)
    (hw : atom_view_to_type_t w = .basic k2) (hn : 1 ≤ vs.length) :
    ∃ s s1,
      write_records print series_builder_impl.new (vs.map (fun v => [(x, v)]) ++ [[(x, w)]])
        = .ok s
      ∧ series_builder.finish print s
        = .ok ([⟨.record [(x, .basic k1)], .struct vs.length [.primitive (vs.map some)] none⟩,
            ⟨.record [(x, .basic k2)], .struct 1 [.primitive [some w]] none⟩], s1) := by
  cases vs with
  | nil => simp at hn
  | cons v0 rest =>
    have hv0 := hvs v0 (List.mem_cons_self _ _)
    have hrest := write_records_one_field print [] x k1 rest [some v0]
      (fun u hu => hvs u (List.mem_cons_of_mem _ hu))
    have hne : (some v0 :: rest.map some) ≠ [] := by simp
    have hcut := field_atom_cut print [] x k1 k2 (some v0 :: rest.map some) w hk hw hne
    have hfin := finish_one_field print
      [⟨.record [(x, .basic k1)],
        .struct (some v0 :: rest.map some).length [.primitive (some v0 :: rest.map some)] none⟩]
      x k2 [some w] (by simp)
    refine ⟨⟨.mk (.record [(x, .mk (.atom (.basic k2) [some w]) false .null)] [] 1 none)
        false .null,
        [] ++ [⟨.record [(x, .basic k1)],
          .struct (some v0 :: rest.map some).length [.primitive (some v0 :: rest.map some)]
            none⟩], false⟩, ⟨.mk (.null 0) false .null, [], false⟩, ?_, ?_⟩
    · have e1 : write_records print series_builder_impl.new
          ((v0 :: rest).map (fun v => [(x, v)]))
          = .ok ⟨.mk (.record [(x, .mk (.atom (.basic k1) (some v0 :: rest.map some)) false
              .null)] [] (some v0 :: rest.map some).length none) false .null, [], false⟩ := by
        simp only [write_records, List.map_cons, List.foldlM_cons,
          record_one_field_first print x k1 v0 hv0, except_bind_ok]
        simpa [write_records] using hrest
      have e2 : write_records print series_builder_impl.new
          ((v0 :: rest).map (fun v => [(x, v)]) ++ [[(x, w)]])
          = (write_records print series_builder_impl.new
              ((v0 :: rest).map (fun v => [(x, v)])) >>= fun s =>
              write_record print s [(x, w)]) := by
        simp only [write_records, List.foldlM_append, List.foldlM_cons, List.foldlM_nil]
        cases List.foldlM (write_record print) series_builder_impl.new
            ((v0 :: rest).map (fun v => [(x, v)])) with
        | error e => rfl
        | ok s =>
          simp only [except_bind_ok]
          cases write_record print s [(x, w)] <;> rfl
      rw [e2, e1, except_bind_ok, write_record_single, record_on_record, except_bind_ok]
      exact hcut
    · simpa using hfin

theorem type_conflict_between_events_cuts_batch_witness :
    (basic_kind.int64 ≠ basic_kind.string)
    ∧ (∀ v ∈ [atom_view.int64 1], atom_view_to_type_t v = .basic .int64)
    ∧ atom_view_to_type_t (.string "hi") = .basic .string
    ∧ 1 ≤ [atom_view.int64 1].length
    ∧ ∃ s s1,
      write_records (fun _ => none) series_builder_impl.new
          ([atom_view.int64 1].map (fun v => [("x", v)]) ++ [[("x", .string "hi")]])
        = .ok s
      ∧ series_builder.finish (fun _ => none) s
        = .ok ([⟨.record [("x", .basic .int64)],
              .struct [atom_view.int64 1].length
                [.primitive ([atom_view.int64 1].map some)] none⟩,
            ⟨.record [("x", .basic .string)],
              .struct 1 [.primitive [some (.string "hi")]] none⟩], s1) :=
  ⟨by decide, by decide, rfl, by decide,
    type_conflict_between_events_cuts_batch (fun _ => none) "x" .int64 .string
      [.int64 1] (.string "hi") (by decide) (by decide) rfl (by decide)⟩
/-! ## Writes below the top level keep the length of the series -/

theorem set_child_length (t : builder_base) (step : path_step) (c : dynamic_builder) :
    (t.set_child step c).length = t.length := by
  cases t <;> cases step <;> rfl

theorem set_typed_length (d : dynamic_builder) (variant : Option Nat) (t t1 : builder_base)
    (ht : d.typed variant = some t) (hl : t1.length = t.length) :
    (d.set_typed variant t1).length = d.length := by
  obtain ⟨b, p, m⟩ := d
  cases variant with
  | none =>
    cases b with
    | conflict ds vs => rfl
    | null n =>
      simp only [dynamic_builder.typed, dynamic_builder.builder_, Option.some.injEq] at ht
      subst ht
      simpa [dynamic_builder.set_typed, dynamic_builder.length, dynamic_builder.builder_] using hl
    | atom a i =>
      simp only [dynamic_builder.typed, dynamic_builder.builder_, Option.some.injEq] at ht
      subst ht
      simpa [dynamic_builder.set_typed, dynamic_builder.length, dynamic_builder.builder_] using hl
    | list o e =>
      simp only [dynamic_builder.typed, dynamic_builder.builder_, Option.some.injEq] at ht
      subst ht
      simpa [dynamic_builder.set_typed, dynamic_builder.length, dynamic_builder.builder_] using hl
    | record f v n k =>
      simp only [dynamic_builder.typed, dynamic_builder.builder_, Option.some.injEq] at ht
      subst ht
      simpa [dynamic_builder.set_typed, dynamic_builder.length, dynamic_builder.builder_] using hl
  | some i =>
    cases b with
    | conflict ds vs => rfl
    | null n => simp [dynamic_builder.typed, dynamic_builder.builder_] at ht
    | atom a i => simp [dynamic_builder.typed, dynamic_builder.builder_] at ht
    | list o e => simp [dynamic_builder.typed, dynamic_builder.builder_] at ht
    | record f v n k => simp [dynamic_builder.typed, dynamic_builder.builder_] at ht

theorem dynamic_builder_set_length (d d1 new : dynamic_builder) (path : builder_path)
    (hp : path ≠ []) (h : d.set path new = .ok d1) : d1.length = d.length := by
  cases path with
  | nil => exact absurd rfl hp
  | cons step rest =>
    simp only [dynamic_builder.set] at h
    split at h
    · simp at h
    · rename_i t ht
      split at h
      · simp at h
      · simp only [except_bind_eq_ok, except_pure_eq_ok] at h
        obtain ⟨c1, _, h⟩ := h
        subst h
        exact set_typed_length d _ t _ ht (set_child_length t step c1)

theorem series_set_length (s s1 : series_builder_impl) (new : dynamic_builder)
    (path : builder_path) (hp : path ≠ []) (h : s.set path new = .ok s1) :
    s1.total_length = s.total_length := by
  simp only [series_builder_impl.set, except_bind_eq_ok, except_pure_eq_ok] at h
  obtain ⟨b, hb, h⟩ := h
  subst h
  simp only [series_builder_impl_total_length_eq, dynamic_builder_set_length _ _ _ _ hp hb]

theorem record_ref_set_length (s s1 : series_builder_impl) (r : record_ref)
    (d : dynamic_builder) (fields fields1 : List (String × dynamic_builder))
    (valid valid1 : List Bool) (len : Nat) (ka ka1 : Option String)
    (hg : record_ref.get s r = .ok (d, fields, valid, len, ka))
    (h : record_ref.set s r d fields1 valid1 len ka1 = .ok s1) :
    s1.total_length = s.total_length := by
  simp only [record_ref.get, except_bind_eq_ok] at hg
  obtain ⟨d0, hd0, hg⟩ := hg
  split at hg
  · rename_i f0 v0 l0 k0 ht
    simp only [except_pure_eq_ok, Prod.mk.injEq] at hg
    obtain ⟨hd, hf, hv, hl, hk⟩ := hg
    subst hd hf hv hl hk
    simp only [record_ref.set] at h
    by_cases hp : r.owner = []
    · rw [hp] at h hd0
      simp only [series_builder_impl_get_root, Except.ok.injEq] at hd0
      simp only [series_builder_impl_set_root, Except.ok.injEq] at h
      subst h
      simp only [series_builder_impl_total_length_eq]
      rw [set_typed_length d0 _ _ _ ht (by rfl), hd0]
    · exact series_set_length s s1 _ _ hp h
  · simp at hg
theorem prepare_nested_length (print : data_view2 → Option String)
    (s s1 : series_builder_impl) (path : builder_path) (T : target) (variant : Option Nat)
    (hp : path ≠ []) (h : dynamic_builder.prepare print s path T = .ok (s1, variant)) :
    s1.total_length = s.total_length := by
  simp only [dynamic_builder.prepare, except_bind_eq_ok] at h
  obtain ⟨d, _, r, _, h⟩ := h
  cases r with
  | some dv =>
    obtain ⟨d1, v⟩ := dv
    simp only [except_bind_eq_ok, except_pure_eq_ok, Prod.mk.injEq] at h
    obtain ⟨s2, hs, h, _⟩ := h
    subst h
    exact series_set_length s s2 _ _ hp hs
  | none =>
    simp only [except_bind_eq_ok, ensure_eq_ok] at h
    obtain ⟨_, _, _, _, s2, hfpe, d1, _, s3, hwrap, d2, _, r2, _, h⟩ := h
    have h2 : s2.total_length = s.total_length :=
      series_builder_impl_finish_previous_events_length print _ _ _ hfpe
    have h3 : s3.total_length = s2.total_length := by
      split at hwrap
      · simp only [except_bind_eq_ok, except_pure_eq_ok] at hwrap
        obtain ⟨s2a, hs, hwrap⟩ := hwrap
        subst hwrap
        have := series_set_length s2 s2a _ _ hp hs
        simpa [series_builder_impl_total_length_eq, series_builder_impl.set_conflict_flag]
          using this
      · split at hwrap
        · simp at hwrap
        · simp only [except_pure_eq_ok] at hwrap
          subst hwrap; rfl
    cases r2 with
    | none => simp at h
    | some dv =>
      obtain ⟨d3, v⟩ := dv
      simp only [except_bind_eq_ok, except_pure_eq_ok, Prod.mk.injEq] at h
      obtain ⟨s4, hs, h, _⟩ := h
      subst h
      rw [series_set_length s3 s4 _ _ hp hs, h3, h2]

theorem append_record_nested_length (s s1 : series_builder_impl) (path : builder_path)
    (variant : Option Nat) (r : record_ref) (hp : path ≠ [])
    (h : typed_builder.append_record s path variant = .ok (s1, r)) :
    s1.total_length = s.total_length := by
  simp only [typed_builder.append_record, except_bind_eq_ok] at h
  obtain ⟨d, _, h⟩ := h
  split at h
  · simp only [except_bind_eq_ok, except_pure_eq_ok, Prod.mk.injEq] at h
    obtain ⟨s2, hs, h, _⟩ := h
    subst h
    exact series_set_length s s2 _ _ hp hs
  · simp at h

theorem append_list_nested_length (s s1 : series_builder_impl) (path : builder_path)
    (variant : Option Nat) (r : builder_ref) (hp : path ≠ [])
    (h : typed_builder.append_list s path variant = .ok (s1, r)) :
    s1.total_length = s.total_length ∧ r = .dynamic (path ++ [.elements variant]) := by
  simp only [typed_builder.append_list, except_bind_eq_ok] at h
  obtain ⟨d, _, h⟩ := h
  split at h
  · simp only [except_bind_eq_ok, except_pure_eq_ok, Prod.mk.injEq, ensure_eq_ok] at h
    obtain ⟨_, _, s2, hs, h, hr⟩ := h
    subst h
    exact ⟨series_set_length s s2 _ _ hp hs, hr.symm⟩
  · simp at h

theorem append_atom_nested_length (s s1 : series_builder_impl) (path : builder_path)
    (variant : Option Nat) (value : atom_view) (hp : path ≠ [])
    (h : typed_builder.append_atom s path variant value = .ok s1) :
    s1.total_length = s.total_length := by
  simp only [typed_builder.append_atom, except_bind_eq_ok] at h
  obtain ⟨d, _, h⟩ := h
  split at h
  · exact series_set_length s s1 _ _ hp h
  · simp at h

theorem prepare_field_length (print : data_view2 → Option String)
    (s s1 : series_builder_impl) (r : record_ref) (name : String) (T : target)
    (path : builder_path) (variant : Option Nat)
    (h : typed_builder.prepare_field print s r name T = .ok (s1, path, variant)) :
    s1.total_length = s.total_length ∧ path ≠ [] := by
  simp only [typed_builder.prepare_field, except_bind_eq_ok] at h
  obtain ⟨⟨d, fields, valid, len, ka⟩, hg, h⟩ := h
  simp only at h
  split at h
  · simp only [except_bind_eq_ok, except_pure_eq_ok, Prod.mk.injEq, ensure_eq_ok] at h
    obtain ⟨_, _, b, _, s2, hset, ⟨s3, v⟩, hprep, hs, hpath, _⟩ := h
    subst hs hpath
    have hne : r.owner ++ [path_step.field r.variant name] ≠ [] := by simp
    exact ⟨by rw [prepare_nested_length print _ _ _ _ _ hne hprep,
      record_ref_set_length s s2 r d fields _ valid _ len ka _ hg hset], hne⟩
  · simp only [except_bind_eq_ok, except_pure_eq_ok, Prod.mk.injEq, ensure_eq_ok] at h
    obtain ⟨_, _, b, _, _, _, s2, hset, ⟨s3, v⟩, hprep, ⟨d2, f2, v2, l2, k2⟩, hg2, s4, hset2, hs,
      hpath, _⟩ := h
    subst hs hpath
    have hne : r.owner ++ [path_step.field r.variant name] ≠ [] := by simp
    exact ⟨by rw [record_ref_set_length s3 s4 r d2 f2 _ v2 _ l2 k2 _ hg2 hset2,
      prepare_nested_length print _ _ _ _ _ hne hprep,
      record_ref_set_length s s2 r d fields _ valid _ len ka _ hg hset], hne⟩

/-- A reference below the top level: a field, or a dynamic builder other than
the root. -/
theorem record_below_top_length (print : data_view2 → Option String)
    (s s1 : series_builder_impl) (ref : builder_ref) (r : record_ref)
    (href : ref ≠ .series ∧ ref ≠ .dynamic [])
    (h : builder_ref.record print s ref = .ok (s1, r)) :
    s1.total_length = s.total_length := by
  cases ref with
  | series => exact absurd rfl href.1
  | dynamic path =>
    have hp : path ≠ [] := fun e => href.2 (by rw [e])
    simp only [builder_ref.record, dynamic_builder.record, except_bind_eq_ok] at h
    obtain ⟨⟨s2, v⟩, hprep, h⟩ := h
    rw [append_record_nested_length s2 s1 path v r hp h,
      prepare_nested_length print _ _ _ _ _ hp hprep]
  | field f =>
    simp only [builder_ref.record, field_ref.record, except_bind_eq_ok] at h
    obtain ⟨⟨s2, path, v⟩, hprep, h⟩ := h
    obtain ⟨hl, hp⟩ := prepare_field_length print _ _ _ _ _ _ _ hprep
    rw [append_record_nested_length s2 s1 path v r hp h, hl]

theorem list_below_top_length (print : data_view2 → Option String)
    (s s1 : series_builder_impl) (ref l : builder_ref)
    (href : ref ≠ .series ∧ ref ≠ .dynamic [])
    (h : builder_ref.list print s ref = .ok (s1, l)) :
    s1.total_length = s.total_length ∧ (l ≠ .series ∧ l ≠ .dynamic []) := by
  cases ref with
  | series => exact absurd rfl href.1
  | dynamic path =>
    have hp : path ≠ [] := fun e => href.2 (by rw [e])
    simp only [builder_ref.list, dynamic_builder.list, except_bind_eq_ok] at h
    obtain ⟨⟨s2, v⟩, hprep, h⟩ := h
    obtain ⟨hl, hr⟩ := append_list_nested_length s2 s1 path v l hp h
    subst hr
    exact ⟨by rw [hl, prepare_nested_length print _ _ _ _ _ hp hprep], by simp, by simp⟩
  | field f =>
    simp only [builder_ref.list, field_ref.list, except_bind_eq_ok] at h
    obtain ⟨⟨s2, path, v⟩, hprep, h⟩ := h
    obtain ⟨hl0, hp⟩ := prepare_field_length print _ _ _ _ _ _ _ hprep
    obtain ⟨hl, hr⟩ := append_list_nested_length s2 s1 path v l hp h
    subst hr
    exact ⟨by rw [hl, hl0], by simp, by simp⟩
theorem try_data_error_below_top (print : data_view2 → Option String) (cast_value : cast_fn) :
    (v : data_view2) → ∀ (s s1 : series_builder_impl) (ref : builder_ref) (e : ec),
      (ref ≠ .series ∧ ref ≠ .dynamic []) →
      builder_ref.try_data print cast_value s ref v = .ok (s1, .error e) →
      s1.total_length = s.total_length
  | .atom x => by
    intro s s1 ref e _ h
    simp only [builder_ref.try_data] at h
    rw [try_atom_error_state print cast_value s s1 ref x e h]
  | .pattern => by
    intro s s1 ref e _ h
    simp [builder_ref.try_data] at h
  | .map => by
    intro s s1 ref e _ h
    simp [builder_ref.try_data] at h
  | .record [] => by
    intro s s1 ref e _ h
    simp only [builder_ref.try_data, except_bind_eq_ok, except_pure_eq_ok, Prod.mk.injEq] at h
    obtain ⟨_, _, _, h⟩ := h
    simp at h
  | .record ((name, data) :: _) => by
    intro s s1 ref e href h
    simp only [builder_ref.try_data, except_bind_eq_ok] at h
    obtain ⟨⟨s2, r⟩, hrec, h⟩ := h
    have h1 := record_below_top_length print s s2 ref r href hrec
    have h2 := try_data_error_below_top print cast_value data s2 s1 (r.field name) e
      (by simp [record_ref.field]) h
    rw [h2, h1]
  | .list [] => by
    intro s s1 ref e _ h
    simp only [builder_ref.try_data, except_bind_eq_ok, except_pure_eq_ok, Prod.mk.injEq] at h
    obtain ⟨_, _, _, h⟩ := h
    simp at h
  | .list (y :: _) => by
    intro s s1 ref e href h
    simp only [builder_ref.try_data, except_bind_eq_ok] at h
    obtain ⟨⟨s2, l⟩, hlist, h⟩ := h
    obtain ⟨h1, hl⟩ := list_below_top_length print s s2 ref l href hlist
    have h2 := try_data_error_below_top print cast_value y s2 s1 l e hl h
    rw [h2, h1]

/-- C9, as stated, fails on the scenario S6 of the spec: the record row that
`try_data` opens before the failing field write stays in the series. -/
theorem failed_try_data_keeps_the_opened_row :
    (series_builder.new
        (some (.record [("ts", .enriched "" [("unit", "s")] (.basic .duration))])) >>= fun s0 =>
      write_record (fun _ => none) s0 [("ts", .duration 3000000000)] >>= fun s =>
      builder_ref.try_data (fun _ => none) (fun _ _ _ => .error .convert_error) s .series
        (.record [("ts", .atom (.string "nope"))]) >>= fun r =>
      pure (series_builder.length s, r.2, series_builder.length r.1))
      = .ok (1, .error .convert_error, 2) := by
  rfl

/-- C9, amended: when `try_data(v)` on the series returns an error, `length()`
is unchanged for an atom `v`, and one more than before for a record or list
`v`, whose row was opened before the failing nested write. -/
theorem failed_try_data_length (print : data_view2 → Option String) (cast_value : cast_fn)
    (s s1 : series_builder_impl) : (v : data_view2) → (e : ec) →
    (builder_ref.try_data print cast_value s .series v = .ok (s1, .error e)) →
    series_builder.length s1
      = series_builder.length s + (match v with | .atom _ => 0 | _ => 1)
  | .atom x, e, h => by
    simp only [builder_ref.try_data] at h
    rw [try_atom_error_state print cast_value s s1 .series x e h]
    rfl
  | .pattern, e, h => by simp [builder_ref.try_data] at h
  | .map, e, h => by simp [builder_ref.try_data] at h
  | .record [], e, h => by
    simp only [builder_ref.try_data, except_bind_eq_ok, except_pure_eq_ok, Prod.mk.injEq] at h
    obtain ⟨_, _, _, h⟩ := h
    simp at h
  | .record ((name, data) :: _), e, h => by
    simp only [builder_ref.try_data, except_bind_eq_ok] at h
    obtain ⟨⟨s2, r⟩, hrec, h⟩ := h
    simp only [builder_ref.record, series_builder.record, series_builder_impl.record,
      except_bind_eq_ok] at hrec
    obtain ⟨s3, hc, hrec⟩ := hrec
    have h2 := try_data_error_below_top print cast_value data s2 s1 (r.field name) e
      (by simp [record_ref.field]) h
    simp only [series_builder.length]
    rw [h2, dynamic_builder_record_root_length print _ _ _ hrec,
      series_builder_impl_finish_if_conflict_length print _ _ hc]
  | .list [], e, h => by
    simp only [builder_ref.try_data, except_bind_eq_ok, except_pure_eq_ok, Prod.mk.injEq] at h
    obtain ⟨_, _, _, h⟩ := h
    simp at h
  | .list (y :: _), e, h => by
    simp only [builder_ref.try_data, except_bind_eq_ok] at h
    obtain ⟨⟨s2, l⟩, hlist, h⟩ := h
    simp only [builder_ref.list, series_builder.list, series_builder_impl.list,
      except_bind_eq_ok] at hlist
    obtain ⟨s3, hc, hlist⟩ := hlist
    have hl : l ≠ .series ∧ l ≠ .dynamic [] := by
      simp only [dynamic_builder.list, except_bind_eq_ok] at hlist
      obtain ⟨⟨s4, variant⟩, _, hlist⟩ := hlist
      simp only [typed_builder.append_list, except_bind_eq_ok] at hlist
      obtain ⟨d, _, hlist⟩ := hlist
      split at hlist
      · simp only [except_bind_eq_ok, except_pure_eq_ok, Prod.mk.injEq, ensure_eq_ok] at hlist
        obtain ⟨_, _, _, _, _, hr⟩ := hlist
        subst hr
        simp
      · simp at hlist
    have h2 := try_data_error_below_top print cast_value y s2 s1 l e hl h
    simp only [series_builder.length]
    rw [h2, dynamic_builder_list_root_length print _ _ _ hlist,
      series_builder_impl_finish_if_conflict_length print _ _ hc]

theorem failed_try_data_length_witness :
    builder_ref.try_data (fun _ => none) (fun _ _ _ => .error .convert_error)
        ⟨.mk (.record [("ts", .mk (.atom (.basic .duration) [some (.duration 3000000000)])
            true (.enriched "" [("unit", "s")] (.basic .duration)))] [] 1 none) true
          (.record [("ts", .enriched "" [("unit", "s")] (.basic .duration))]), [], false⟩
        .series (.record [("ts", .atom (.string "nope"))])
      = .ok (⟨.mk (.record [("ts", .mk (.atom (.basic .duration)
            [some (.duration 3000000000)])
            true (.enriched "" [("unit", "s")] (.basic .duration)))] [] 2 none) true
          (.record [("ts", .enriched "" [("unit", "s")] (.basic .duration))]), [], false⟩,
          .error .convert_error)
    ∧ series_builder.length
        ⟨.mk (.record [("ts", .mk (.atom (.basic .duration) [some (.duration 3000000000)])
            true (.enriched "" [("unit", "s")] (.basic .duration)))] [] 2 none) true
          (.record [("ts", .enriched "" [("unit", "s")] (.basic .duration))]), [], false⟩
      = series_builder.length
          ⟨.mk (.record [("ts", .mk (.atom (.basic .duration) [some (.duration 3000000000)])
            true (.enriched "" [("unit", "s")] (.basic .duration)))] [] 1 none) true
          (.record [("ts", .enriched "" [("unit", "s")] (.basic .duration))]), [], false⟩
        + (match data_view2.record [("ts", .atom (.string "nope"))] with
            | .atom _ => 0 | _ => 1) :=
  ⟨rfl, failed_try_data_length (fun _ => none) (fun _ _ _ => .error .convert_error) _ _
    (.record [("ts", .atom (.string "nope"))]) .convert_error rfl⟩
/-! ## Records whose fields hold scalars -/

theorem fields_find_atom_fields_none
    (cols : List (String × basic_kind × List (Option atom_view))) (name : String)
    (h : cols.any (fun c => c.1 = name) = false) :
    fields_find (atom_fields cols) name = none := by
  induction cols with
  | nil => rfl
  | cons c rest ih =>
    simp only [List.any_cons, Bool.or_eq_false_iff, decide_eq_false_iff_not] at h
    have hne : ¬ name = c.1 := fun e => h.1 e.symm
    simp only [atom_fields, List.map_cons, fields_find_cons, hne, if_false] at ih ⊢
    exact ih h.2

theorem fields_find_atom_fields_some
    (cols : List (String × basic_kind × List (Option atom_view))) (name : String)
    (h : cols.any (fun c => c.1 = name) = true) :
    ∃ k slots, fields_find (atom_fields cols) name = some (.mk (.atom (.basic k) slots) false .null)
      ∧ (name, k, slots) ∈ cols := by
  induction cols with
  | nil => simp at h
  | cons c rest ih =>
    by_cases hc : c.1 = name
    · refine ⟨c.2.1, c.2.2, ?_, ?_⟩
      · simp [atom_fields, fields_find_cons, hc]
      · rw [← hc]; simp
    · have hne : ¬ name = c.1 := fun e => hc e.symm
      simp only [List.any_cons, hc, decide_False, Bool.false_or] at h
      obtain ⟨k, slots, hf, hm⟩ := ih h
      refine ⟨k, slots, ?_, List.mem_cons_of_mem _ hm⟩
      simp only [atom_fields, List.map_cons, fields_find_cons, hne, if_false] at hf ⊢
      exact hf

theorem fields_set_atom_fields
    (cols : List (String × basic_kind × List (Option atom_view))) (name : String)
    (k : basic_kind) (slots : List (Option atom_view))
    (hk : ∀ c ∈ cols, c.1 = name → c.2.1 = k) :
    fields_set (atom_fields cols) name (.mk (.atom (.basic k) slots) false .null)
      = atom_fields (cols.map (fun c => if c.1 = name then (c.1, c.2.1, slots) else c)) := by
  induction cols with
  | nil => rfl
  | cons c rest ih =>
    have ih1 := ih (fun d hd => hk d (List.mem_cons_of_mem _ hd))
    simp only [atom_fields, List.map_cons, fields_set_cons] at ih1 ⊢
    rw [ih1]
    by_cases hc : c.1 = name
    · have := hk c (List.mem_cons_self _ _) hc
      simp [hc, this]
    · simp [hc]

theorem unique_column (cols : List (String × basic_kind × List (Option atom_view)))
    (hnodup : (cols.map Prod.fst).Nodup) (c d : String × basic_kind × List (Option atom_view))
    (hc : c ∈ cols) (hd : d ∈ cols) (h : c.1 = d.1) : c = d := by
  induction cols with
  | nil => simp at hc
  | cons e rest ih =>
    simp only [List.map_cons, List.nodup_cons, List.mem_map, not_exists, not_and] at hnodup
    rcases List.mem_cons.mp hc with hc1 | hc1 <;> rcases List.mem_cons.mp hd with hd1 | hd1
    · rw [hc1, hd1]
    · subst hc1
      exact absurd h.symm (hnodup.1 d hd1)
    · subst hd1
      exact absurd h (hnodup.1 c hc1)
    · exact ih hnodup.2 hc1 hd1

/-- Writing a scalar into a field of a record at top level whose fields all
hold scalars. -/
theorem write_atom_fields (print : data_view2 → Option String)
    (cols : List (String × basic_kind × List (Option atom_view))) (len : Nat)
    (fin : List typed_array) (name : String) (k : basic_kind) (v : atom_view)
    (hv : atom_view_to_type_t v = .basic k)
    (hnodup : (cols.map Prod.fst).Nodup)
    (hkinds : ∀ c ∈ cols, c.1 = name → c.2.1 = k) :
    field_ref.atom print
        ⟨.mk (.record (atom_fields cols) [] (len + 1) none) false .null, fin, false⟩
        ⟨⟨[], none⟩, name⟩ v
      = .ok ⟨.mk (.record (atom_fields (write_column cols (len + 1) name k v)) []
          (len + 1) none) false .null, fin, false⟩ := by
  cases hany : cols.any (fun c => c.1 = name) with
  | false =>
    rw [field_atom_new print _ _ _ _ _ _ _ name k v
      (fields_find_atom_fields_none cols name hany) hv]
    simp [write_column, hany, atom_fields]
  | true =>
    obtain ⟨k1, slots, hf, hm⟩ := fields_find_atom_fields_some cols name hany
    have hk1 : k1 = k := hkinds _ hm rfl
    subst hk1
    rw [field_atom_same print _ _ _ _ _ _ _ name k1 slots false .null v hf hv,
      fields_set_atom_fields cols name k1 _ hkinds]
    simp only [write_column, hany, if_true, Nat.add_sub_cancel]
    congr 5
    apply List.map_congr_left
    intro c hc
    by_cases hcn : c.1 = name
    · have := unique_column cols hnodup c (name, k1, slots) hc hm hcn
      subst this
      simp
    · simp [hcn]
theorem finish_atom_field (print : data_view2 → Option String) (k : basic_kind)
    (slots : List (Option atom_view)) (len : Nat) (hlen : 0 < len) (hs : slots.length ≤ len) :
    (dynamic_builder.mk (.atom (.basic k) slots) false .null).finish_and_leave print
        (len - slots.length) 0
      = .ok (⟨.basic k, .primitive (slots ++ List.replicate (len - slots.length) none)⟩,
          .mk (.null 0) false .null) := by
  have h0 : ¬ (0 = slots.length + (len - slots.length)) := by omega
  simp [dynamic_builder.finish_and_leave, builder_base.finish_and_leave, builder_base.length,
    ensure, h0, except_bind_ok, pure, Except.pure, atom_type.to_type, type.assign_metadata,
    type.layers, type.wrap, type.strip, builder_base.only_null]

theorem finish_atom_fields (print : data_view2 → Option String) (len : Nat) (hlen : 0 < len)
    (cols : List (String × basic_kind × List (Option atom_view)))
    (hs : ∀ c ∈ cols, c.2.2.length ≤ len) :
    finish_fields print (atom_fields cols) len len none
      = .ok (cols.map (fun c =>
          .primitive (c.2.2 ++ List.replicate (len - c.2.2.length) none)), []) := by
  induction cols with
  | nil => rfl
  | cons c rest ih =>
    have hc := hs c (List.mem_cons_self _ _)
    have ih1 := ih (fun d hd => hs d (List.mem_cons_of_mem _ hd))
    have e1 : c.2.2.length + (len - c.2.2.length) - len = 0 := by omega
    simp only [atom_fields, List.map_cons] at ih1 ⊢
    simp only [finish_fields, dynamic_builder.length, dynamic_builder.builder_,
      builder_base.length, ensure_true hc, except_bind_ok, e1,
      finish_atom_field print c.2.1 c.2.2 len hlen hc, ih1, typed_array.length,
      arrow_array.length, List.length_append, List.length_replicate,
      dynamic_builder.is_protected, pure, Except.pure]
    have e2 : c.2.2.length + (len - c.2.2.length) = len := by omega
    simp [ensure, e2, except_bind_ok]

theorem fields_type_atom_fields (cols : List (String × basic_kind × List (Option atom_view))) :
    fields_type (atom_fields cols) = cols.map (fun c => (c.1, type.basic c.2.1)) := by
  induction cols with
  | nil => rfl
  | cons c rest ih =>
    simp only [atom_fields, List.map_cons, fields_type] at ih ⊢
    rw [ih]
    simp [dynamic_builder.type, builder_base.type, atom_type.to_type, type.assign_metadata,
      type.layers, type.wrap, type.strip]

/-- Finishing a record at top level whose fields all hold scalars. -/
theorem finish_atom_record (print : data_view2 → Option String) (len : Nat) (hlen : 0 < len)
    (cols : List (String × basic_kind × List (Option atom_view)))
    (hs : ∀ c ∈ cols, c.2.2.length ≤ len) :
    series_builder.finish print
        ⟨.mk (.record (atom_fields cols) [] len none) false .null, [], false⟩
      = .ok ([⟨.record (cols.map (fun c => (c.1, type.basic c.2.1))),
            .struct len (cols.map (fun c =>
              .primitive (c.2.2 ++ List.replicate (len - c.2.2.length) none))) none⟩],
          ⟨.mk (.null 0) false .null, [], false⟩) := by
  have h0 : ¬ (len = 0) := by omega
  have h1 : ¬ (0 = len) := by omega
  simp [series_builder.finish, series_builder_impl.finish, dynamic_builder.length,
    dynamic_builder.builder_, builder_base.length, h0, h1, hlen,
    dynamic_builder.finish_and_leave, builder_base.finish_and_leave,
    finish_atom_fields print len hlen cols hs, fields_type_atom_fields,
    finish_validity, ensure, except_bind_ok, pure, Except.pure,
    type.assign_metadata, type.layers, type.wrap, type.strip,
    builder_base.only_null]
theorem mem_foldl_add_name (l : List String) :
    ∀ (acc : List String) (name : String),
      name ∈ l.foldl add_name acc ↔ name ∈ acc ∨ name ∈ l := by
  induction l with
  | nil => intro acc name; simp
  | cons a rest ih =>
    intro acc name
    simp only [List.foldl_cons, ih, List.mem_cons]
    unfold add_name
    split
    · rename_i ha
      constructor
      · rintro (h | h)
        · exact Or.inl h
        · exact Or.inr (Or.inr h)
      · rintro (h | h | h)
        · exact Or.inl h
        · subst h; exact Or.inl ha
        · exact Or.inr h
    · simp only [List.mem_append, List.mem_singleton]
      tauto

theorem mem_field_names (rows : List (List (String × atom_view))) (name : String) :
    name ∈ field_names rows ↔ ∃ e ∈ rows, ∃ w ∈ e, w.1 = name := by
  simp only [field_names, mem_foldl_add_name, List.not_mem_nil, false_or, List.mem_map,
    List.mem_flatten]
  constructor
  · rintro ⟨w, ⟨e, he, hw⟩, h⟩
    exact ⟨e, he, w, hw, h⟩
  · rintro ⟨e, he, w, hw, h⟩
    exact ⟨w, ⟨e, he, hw⟩, h⟩

theorem field_names_write (done : List (List (String × atom_view)))
    (cur : List (String × atom_view)) (w : String × atom_view) :
    field_names (done ++ [cur ++ [w]]) = add_name (field_names (done ++ [cur])) w.1 := by
  simp [field_names, List.flatten_append, List.foldl_append]

theorem field_names_start (rows : List (List (String × atom_view))) :
    field_names (rows ++ [[]]) = field_names rows := by
  simp [field_names, List.flatten_append]

theorem last_written_write (cur : List (String × atom_view)) (w : String × atom_view)
    (name : String) :
    last_written (cur ++ [w]) name = if w.1 = name then some w.2 else last_written cur name := by
  simp [last_written, List.foldl_append]

theorem foldl_last_none (e : List (String × atom_view)) (name : String)
    (h : ∀ w ∈ e, w.1 ≠ name) :
    ∀ acc, e.foldl (fun acc w => if w.1 = name then some w.2 else acc) acc = acc := by
  induction e with
  | nil => intro acc; rfl
  | cons a rest ih =>
    intro acc
    have ha := h a (List.mem_cons_self _ _)
    simp only [List.foldl_cons, ha, if_false]
    exact ih (fun w hw => h w (List.mem_cons_of_mem _ hw)) acc

theorem last_written_none (e : List (String × atom_view)) (name : String)
    (h : ∀ w ∈ e, w.1 ≠ name) : last_written e name = none :=
  foldl_last_none e name h none

theorem any_name_iff (cols : List (String × basic_kind × List (Option atom_view)))
    (name : String) :
    cols.any (fun c => c.1 = name) = true ↔ name ∈ cols.map Prod.fst := by
  simp only [List.any_eq_true, decide_eq_true_eq, List.mem_map]

theorem write_column_names (cols : List (String × basic_kind × List (Option atom_view)))
    (len : Nat) (name : String) (k : basic_kind) (v : atom_view) :
    (write_column cols len name k v).map Prod.fst = add_name (cols.map Prod.fst) name := by
  unfold write_column add_name
  by_cases h : name ∈ cols.map Prod.fst
  · have hany := (any_name_iff cols name).mpr h
    simp only [hany, if_true, h]
    rw [List.map_map]
    apply List.map_congr_left
    intro c _
    by_cases hc : c.1 = name <;> simp [hc]
  · have hany : cols.any (fun c => c.1 = name) = false := by
      cases hh : cols.any (fun c => c.1 = name) with
      | false => rfl
      | true => exact absurd ((any_name_iff cols name).mp hh) h
    simp [hany, h]

theorem add_name_nodup (names : List String) (name : String) (h : names.Nodup) :
    (add_name names name).Nodup := by
  unfold add_name
  split
  · exact h
  · rename_i hn
    rw [List.nodup_append]
    refine ⟨h, by simp, ?_⟩
    intro a ha hb
    simp only [List.mem_singleton] at hb
    subst hb
    exact hn ha

theorem take_padded (slots : List (Option atom_view)) (n a b : Nat)
    (ha : n ≤ slots.length + a) (hb : n ≤ slots.length + b) :
    (slots ++ List.replicate a none).take n = (slots ++ List.replicate b none).take n := by
  apply List.ext_getElem?
  intro i
  simp only [List.getElem?_take, List.getElem?_append, List.getElem?_replicate]
  by_cases hi : i < n
  · by_cases hs : i < slots.length
    · simp [hi, hs]
    · have h1 : i - slots.length < a := by omega
      have h2 : i - slots.length < b := by omega
      simp [hi, hs, h1, h2]
  · simp [hi]

theorem resized_of_padded (slots : List (Option atom_view)) (n : Nat)
    (col : List (Option atom_view)) (x : Option atom_view) (hl : slots.length ≤ n + 1)
    (h : slots ++ List.replicate (n + 1 - slots.length) none = col ++ [x])
    (hcol : col.length = n) : resized slots n = col := by
  unfold resized
  have h1 : (slots ++ List.replicate (n + 1 - slots.length) none).take n = col := by
    rw [h, List.take_append_of_le_length (by omega), List.take_of_length_le (by omega)]
  rw [← h1]
  exact take_padded slots n _ _ (by omega) (by omega)
theorem columns_hold_start (kind_of : String → basic_kind)
    (cols : List (String × basic_kind × List (Option atom_view)))
    (rows : List (List (String × atom_view))) (h : columns_hold kind_of cols rows) :
    columns_hold kind_of cols (rows ++ [[]]) := by
  obtain ⟨hnames, hnodup, hcols⟩ := h
  refine ⟨by rw [field_names_start]; exact hnames, hnodup, ?_⟩
  intro c hc
  obtain ⟨hk, hl, hp⟩ := hcols c hc
  refine ⟨hk, by simp; omega, ?_⟩
  have e : (rows ++ [[]]).length - c.2.2.length = (rows.length - c.2.2.length) + 1 := by
    simp; omega
  rw [e, List.replicate_succ', ← List.append_assoc, hp]
  simp [last_written]

theorem unchanged_column_holds (done : List (List (String × atom_view)))
    (cur : List (String × atom_view)) (w : String × atom_view)
    (c : String × basic_kind × List (Option atom_view)) (hne : ¬ w.1 = c.1)
    (hl : c.2.2.length ≤ (done ++ [cur]).length)
    (hp : c.2.2 ++ List.replicate ((done ++ [cur]).length - c.2.2.length) none
      = (done ++ [cur]).map (fun e => last_written e c.1)) :
    c.2.2.length ≤ (done ++ [cur ++ [w]]).length
    ∧ c.2.2 ++ List.replicate ((done ++ [cur ++ [w]]).length - c.2.2.length) none
      = (done ++ [cur ++ [w]]).map (fun e => last_written e c.1) := by
  constructor
  · simpa using hl
  · have e : (done ++ [cur ++ [w]]).length = (done ++ [cur]).length := by simp
    rw [e, hp]
    simp [last_written_write, hne]

theorem columns_hold_write (kind_of : String → basic_kind)
    (cols : List (String × basic_kind × List (Option atom_view)))
    (done : List (List (String × atom_view))) (cur : List (String × atom_view))
    (f : String) (v : atom_view)
    (h : columns_hold kind_of cols (done ++ [cur])) :
    columns_hold kind_of (write_column cols (done.length + 1) f (kind_of f) v)
      (done ++ [cur ++ [(f, v)]]) := by
  obtain ⟨hnames, hnodup, hcols⟩ := h
  refine ⟨?_, ?_, ?_⟩
  · rw [write_column_names, hnames, field_names_write]
  · rw [write_column_names]; exact add_name_nodup _ _ hnodup
  · intro c1 hc1
    unfold write_column at hc1
    cases hany : cols.any (fun c => c.1 = f) with
    | true =>
      simp only [hany, if_true, List.mem_map] at hc1
      obtain ⟨c, hc, hc1⟩ := hc1
      obtain ⟨hk, hl, hp⟩ := hcols c hc
      by_cases hcf : c.1 = f
      · simp only [hcf, if_true, Nat.add_sub_cancel] at hc1
        subst hc1
        have hp1 : c.2.2 ++ List.replicate (done.length + 1 - c.2.2.length) none
            = done.map (fun e => last_written e c.1) ++ [last_written cur c.1] := by
          simpa using hp
        have hr := resized_of_padded c.2.2 done.length _ _ (by simpa using hl) hp1 (by simp)
        refine ⟨by simpa [hcf] using hk, by simp [resized_length], ?_⟩
        simp [resized_length, hr, last_written_write, hcf]
      · simp only [hcf, if_false] at hc1
        subst hc1
        have := unchanged_column_holds done cur (f, v) c (fun e => hcf e.symm) hl hp
        exact ⟨hk, this.1, this.2⟩
    | false =>
      simp only [hany, Bool.false_eq_true, if_false, List.mem_append, List.mem_singleton,
        Nat.add_sub_cancel] at hc1
      have hnot : f ∉ cols.map Prod.fst := by
        intro hmem
        have := (any_name_iff cols f).mpr hmem
        rw [hany] at this
        exact absurd this (by simp)
      rcases hc1 with hc | hc
      · obtain ⟨hk, hl, hp⟩ := hcols c1 hc
        have hne : ¬ f = c1.1 := by
          intro e
          exact hnot (by rw [e]; exact List.mem_map_of_mem _ hc)
        have := unchanged_column_holds done cur (f, v) c1 hne hl hp
        exact ⟨hk, this.1, this.2⟩
      · subst hc
        refine ⟨rfl, by simp, ?_⟩
        have hnone : ∀ e ∈ done, last_written e f = none := by
          intro e he
          apply last_written_none
          intro w hw hwf
          apply hnot
          rw [hnames, mem_field_names]
          exact ⟨e, List.mem_append_left _ he, w, hw, hwf⟩
        have hmap : done.map (fun e => last_written e f) = List.replicate done.length none := by
          rw [List.eq_replicate_iff]
          refine ⟨by simp, ?_⟩
          intro x hx
          simp only [List.mem_map] at hx
          obtain ⟨e, he, hx⟩ := hx
          rw [← hx, hnone e he]
        simp [hmap, last_written_write]
theorem write_fields_hold (print : data_view2 → Option String)
    (kind_of : String → basic_kind) (fin : List typed_array)
    (done : List (List (String × atom_view))) (ws : List (String × atom_view)) :
    ∀ (cols : List (String × basic_kind × List (Option atom_view)))
      (cur : List (String × atom_view)),
      columns_hold kind_of cols (done ++ [cur]) →
      (∀ w ∈ ws, atom_view_to_type_t w.2 = .basic (kind_of w.1)) →
      ∃ cols1,
        ws.foldlM (fun s f => builder_ref.atom print s
            (record_ref.field ⟨[], none⟩ f.1) f.2)
          ⟨.mk (.record (atom_fields cols) [] (done.length + 1) none) false .null, fin, false⟩
          = .ok ⟨.mk (.record (atom_fields cols1) [] (done.length + 1) none) false .null,
              fin, false⟩
        ∧ columns_hold kind_of cols1 (done ++ [cur ++ ws]) := by
  induction ws with
  | nil =>
    intro cols cur h _
    exact ⟨cols, rfl, by simpa using h⟩
  | cons w rest ih =>
    intro cols cur h hk
    have hw := hk w (List.mem_cons_self _ _)
    have hstep := write_atom_fields print cols done.length fin w.1 (kind_of w.1) w.2 hw h.2.1
      (fun c hc hcf => by rw [(h.2.2 c hc).1, hcf])
    have hinv := columns_hold_write kind_of cols done cur w.1 w.2 h
    obtain ⟨cols1, hrun, hinv1⟩ := ih _ (cur ++ [w]) hinv
      (fun u hu => hk u (List.mem_cons_of_mem _ hu))
    refine ⟨cols1, ?_, by simpa using hinv1⟩
    simp only [List.foldlM_cons, record_ref.field, builder_ref.atom, hstep, except_bind_ok]
    simpa [record_ref.field, builder_ref.atom] using hrun

theorem write_record_holds (print : data_view2 → Option String)
    (kind_of : String → basic_kind) (fin : List typed_array)
    (rows : List (List (String × atom_view))) (e : List (String × atom_view))
    (cols : List (String × basic_kind × List (Option atom_view)))
    (h : columns_hold kind_of cols rows)
    (hk : ∀ w ∈ e, atom_view_to_type_t w.2 = .basic (kind_of w.1)) :
    ∃ cols1,
      write_record print
          ⟨.mk (.record (atom_fields cols) [] rows.length none) false .null, fin, false⟩ e
        = .ok ⟨.mk (.record (atom_fields cols1) [] (rows ++ [e]).length none) false .null,
            fin, false⟩
      ∧ columns_hold kind_of cols1 (rows ++ [e]) := by
  obtain ⟨cols1, hrun, hinv⟩ := write_fields_hold print kind_of fin rows e cols []
    (columns_hold_start kind_of cols rows h) hk
  refine ⟨cols1, ?_, by simpa using hinv⟩
  simp only [write_record, record_on_record, except_bind_ok, List.length_append,
    List.length_singleton]
  exact hrun

theorem write_first_record_holds (print : data_view2 → Option String)
    (kind_of : String → basic_kind) (e : List (String × atom_view))
    (hk : ∀ w ∈ e, atom_view_to_type_t w.2 = .basic (kind_of w.1)) :
    ∃ cols1,
      write_record print series_builder_impl.new e
        = .ok ⟨.mk (.record (atom_fields cols1) [] 1 none) false .null, [], false⟩
      ∧ columns_hold kind_of cols1 [e] := by
  have h0 : columns_hold kind_of [] [] :=
    ⟨rfl, List.nodup_nil, fun c hc => absurd hc (List.not_mem_nil c)⟩
  obtain ⟨cols1, hrun, hinv⟩ := write_fields_hold print kind_of [] [] e [] []
    (columns_hold_start kind_of [] [] h0) hk
  refine ⟨cols1, ?_, by simpa using hinv⟩
  simp only [write_record, series_builder_impl.new, dynamic_builder.new, record_on_nulls,
    except_bind_ok, List.replicate_zero, Nat.zero_add]
  exact hrun

theorem write_records_hold (print : data_view2 → Option String)
    (kind_of : String → basic_kind) (fin : List typed_array)
    (events : List (List (String × atom_view))) :
    ∀ (rows : List (List (String × atom_view)))
      (cols : List (String × basic_kind × List (Option atom_view))),
      columns_hold kind_of cols rows →
      (∀ e ∈ events, ∀ w ∈ e, atom_view_to_type_t w.2 = .basic (kind_of w.1)) →
      ∃ cols1,
        write_records print
            ⟨.mk (.record (atom_fields cols) [] rows.length none) false .null, fin, false⟩
            events
          = .ok ⟨.mk (.record (atom_fields cols1) [] (rows ++ events).length none) false
              .null, fin, false⟩
        ∧ columns_hold kind_of cols1 (rows ++ events) := by
  induction events with
  | nil =>
    intro rows cols h _
    exact ⟨cols, by simp [write_records, pure, Except.pure], by simpa using h⟩
  | cons e rest ih =>
    intro rows cols h hk
    obtain ⟨cols1, hrun, hinv⟩ := write_record_holds print kind_of fin rows e cols h
      (hk e (List.mem_cons_self _ _))
    obtain ⟨cols2, hrun2, hinv2⟩ := ih (rows ++ [e]) cols1 hinv
      (fun e1 he1 => hk e1 (List.mem_cons_of_mem _ he1))
    refine ⟨cols2, ?_, by simpa using hinv2⟩
    simp only [write_records, List.foldlM_cons, hrun, except_bind_ok]
    simpa [write_records] using hrun2

/-- C6: record events whose fields are scalars, every field name with one
kind, finish as one struct batch: the fields in order of first appearance,
row `i` with the value that event `i` wrote for the field or null, and no
null row. -/
theorem records_with_optional_fields_unify (print : data_view2 → Option String)
    (kind_of : String → basic_kind) (events : List (List (String × atom_view)))
    (hne : events ≠ [])
    (hk : ∀ e ∈ events, ∀ w ∈ e, atom_view_to_type_t w.2 = .basic (kind_of w.1)) :
    ∃ s s1,
      write_records print series_builder_impl.new events = .ok s
      ∧ series_builder.finish print s = .ok ([expected_batch kind_of events], s1) := by
  cases events with
  | nil => exact absurd rfl hne
  | cons e0 rest =>
    obtain ⟨cols1, hrun1, hinv1⟩ := write_first_record_holds print kind_of e0
      (hk e0 (List.mem_cons_self _ _))
    obtain ⟨cols2, hrun2, hinv2⟩ := write_records_hold print kind_of [] rest [e0] cols1 hinv1
      (fun e he => hk e (List.mem_cons_of_mem _ he))
    have hlen : 0 < ([e0] ++ rest).length := by simp
    have hfin := finish_atom_record print ([e0] ++ rest).length hlen cols2
      (fun c hc => (hinv2.2.2 c hc).2.1)
    refine ⟨⟨.mk (.record (atom_fields cols2) [] ([e0] ++ rest).length none) false .null,
      [], false⟩, ⟨.mk (.null 0) false .null, [], false⟩, ?_, ?_⟩
    · simp only [write_records, List.foldlM_cons, hrun1, except_bind_ok]
      simpa [write_records] using hrun2
    · rw [hfin]
      obtain ⟨hnames, _, hcols⟩ := hinv2
      have e1 : cols2.map (fun c => (c.1, type.basic c.2.1))
          = (field_names ([e0] ++ rest)).map (fun f => (f, type.basic (kind_of f))) := by
        rw [← hnames, List.map_map]
        apply List.map_congr_left
        intro c hc
        simp [(hcols c hc).1]
      have e2 : cols2.map (fun c => arrow_array.primitive
            (c.2.2 ++ List.replicate (([e0] ++ rest).length - c.2.2.length) none))
          = (field_names ([e0] ++ rest)).map (fun f =>
              arrow_array.primitive (([e0] ++ rest).map (fun e => last_written e f))) := by
        rw [← hnames, List.map_map]
        apply List.map_congr_left
        intro c hc
        simp only [Function.comp, (hcols c hc).2.2]
      rw [e1, e2]
      rfl

theorem records_with_optional_fields_unify_witness :
    ([[("a", atom_view.int64 1)], [], [("a", .int64 3), ("b", .string "x")]]
        ≠ ([] : List (List (String × atom_view))))
    ∧ (∀ e ∈ [[("a", atom_view.int64 1)], [], [("a", .int64 3), ("b", .string "x")]],
        ∀ w ∈ e, atom_view_to_type_t w.2
          = .basic ((fun f => if f = "a" then basic_kind.int64 else .string) w.1))
    ∧ ∃ s s1,
      write_records (fun _ => none) series_builder_impl.new
          [[("a", .int64 1)], [], [("a", .int64 3), ("b", .string "x")]] = .ok s
      ∧ series_builder.finish (fun _ => none) s
        = .ok ([expected_batch (fun f => if f = "a" then basic_kind.int64 else .string)
            [[("a", .int64 1)], [], [("a", .int64 3), ("b", .string "x")]]], s1) :=
  ⟨by simp, by decide,
    records_with_optional_fields_unify (fun _ => none)
      (fun f => if f = "a" then basic_kind.int64 else .string)
      [[("a", .int64 1)], [], [("a", .int64 3), ("b", .string "x")]] (by simp) (by decide)⟩
/-! ## The argument `grow` of `finish_and_leave` is the preceding `resize` -/

theorem builder_base_finish_after_resize (print : data_view2 → Option String) :
    (b : builder_base) → ∀ (b1 : builder_base) (grow count : Nat), 0 < grow →
      b.resize (b.length + grow) = .ok b1 →
      b1.finish_and_leave print 0 count = b.finish_and_leave print grow count
  | .null n => by
    intro b1 grow count _ h
    simp only [builder_base.resize, except_pure_eq_ok] at h
    subst h
    simp [builder_base.finish_and_leave, builder_base.length]
  | .atom t inner => by
    intro b1 grow count hg h
    have h1 : inner.length < inner.length + grow := by omega
    simp only [builder_base.resize, builder_base.length, h1, if_true, except_pure_eq_ok,
      Nat.add_sub_cancel_left] at h
    subst h
    simp [builder_base.finish_and_leave]
  | .list offsets elements => by
    intro b1 grow count hg h
    have h1 : ¬ (offsets.length + grow < offsets.length) := by omega
    have h2 : offsets.length + grow > offsets.length := by omega
    simp only [builder_base.resize, builder_base.length, h1, h2, if_true, if_false,
      except_pure_eq_ok, Nat.add_sub_cancel_left] at h
    subst h
    simp [builder_base.finish_and_leave]
  | .record fields valid len ka => by
    intro b1 grow count hg h
    have h1 : ¬ (len + grow < len) := by omega
    have h2 : len + grow > len := by omega
    simp only [builder_base.resize, builder_base.length, h1, h2, if_true, if_false,
      except_pure_eq_ok, Nat.add_sub_cancel_left] at h
    subst h
    simp [builder_base.finish_and_leave, hg, fields_type]
  | .conflict ds [] => by
    intro b1 grow count hg h
    have h2 : ds.length + grow > ds.length := by omega
    simp [builder_base.resize, builder_base.length, h2] at h
  | .conflict ds (v0 :: rest) => by
    intro b1 grow count hg h
    have h2 : ds.length + grow > ds.length := by omega
    simp only [builder_base.resize, builder_base.length, h2, if_true, except_bind_eq_ok,
      except_pure_eq_ok, Nat.add_sub_cancel_left] at h
    obtain ⟨v1, hv, h⟩ := h
    subst h
    have ih := builder_base_finish_after_resize print v0 v1 grow
    simp only [builder_base.finish_and_leave, finish_variants, List.append_nil,
      List.replicate_zero, List.length_cons]
    simp only [ih _ hg hv]

theorem builder_base_resize_grow_type (b b1 : builder_base) (grow : Nat) (hg : 0 < grow)
    (h : b.resize (b.length + grow) = .ok b1) : b1.type = b.type := by
  cases b with
  | null n =>
    simp only [builder_base.resize, except_pure_eq_ok] at h
    subst h; rfl
  | atom t inner =>
    have h1 : inner.length < inner.length + grow := by omega
    simp only [builder_base.resize, builder_base.length, h1, if_true, except_pure_eq_ok] at h
    subst h; rfl
  | list offsets elements =>
    have h1 : ¬ (offsets.length + grow < offsets.length) := by omega
    have h2 : offsets.length + grow > offsets.length := by omega
    simp only [builder_base.resize, builder_base.length, h1, h2, if_true, if_false,
      except_pure_eq_ok] at h
    subst h
    simp [builder_base.type]
  | record fields valid len ka =>
    have h1 : ¬ (len + grow < len) := by omega
    have h2 : len + grow > len := by omega
    simp only [builder_base.resize, builder_base.length, h1, h2, if_true, if_false,
      except_pure_eq_ok] at h
    subst h
    simp [builder_base.type]
  | conflict ds vs =>
    have h2 : ds.length + grow > ds.length := by omega
    cases vs with
    | nil => simp [builder_base.resize, builder_base.length, h2] at h
    | cons v0 rest =>
      simp only [builder_base.resize, builder_base.length, h2, if_true, except_bind_eq_ok,
        except_pure_eq_ok] at h
      obtain ⟨v1, _, h⟩ := h
      subst h; rfl

/-- The calls `builder->resize(target_length)` and then
`builder->finish_and_leave(leave)` of lines 729 to 735 give what
`finish_and_leave` with `grow = target_length - builder->length()` gives. -/
theorem dynamic_builder_finish_after_resize (print : data_view2 → Option String)
    (d d1 : dynamic_builder) (grow count : Nat) (hg : 0 < grow)
    (h : d.resize (d.length + grow) = .ok d1) :
    d1.finish_and_leave print 0 count = d.finish_and_leave print grow count := by
  obtain ⟨b, p, m⟩ := d
  simp only [dynamic_builder.resize, dynamic_builder.length, dynamic_builder.builder_,
    except_bind_eq_ok, except_pure_eq_ok] at h
  obtain ⟨b1, hb, h⟩ := h
  subst h
  have hl : b1.length = b.length + grow := builder_base_resize_length _ _ _ hb
  have ht := builder_base_resize_grow_type b b1 grow hg hb
  have hf := builder_base_finish_after_resize print b b1 grow count hg hb
  simp only [dynamic_builder.finish_and_leave, hl, Nat.add_zero, ht, hf, hg, if_true, hb,
    Nat.lt_irrefl, if_false, gt_iff_lt]
  by_cases hc : count = b.length + grow
  · simp [hc, except_bind_ok, pure, Except.pure]
  · simp [hc]
theorem except_bind_error {α β : Type} (e : abort) (f : α → Except abort β) :
    ((Except.error e : Except abort α) >>= f) = .error e := rfl

/-- A write that asks a protected builder of a kind other than null for
another kind stops at the assertion of line 976 (`type mismatch for prepared
type`): the builder is an atom, list or record builder and the cast to the
requested builder fails. -/
theorem protected_mismatch_hits_assertion (print : data_view2 → Option String)
    (b : builder_base) (m : tenzir.type) (fin : List typed_array) (flag : Bool) (T : target)
    (hnull : b.kind ≠ .null) (hconflict : ∀ ds vs, b ≠ .conflict ds vs)
    (hcast : b.is T = false) :
    dynamic_builder.prepare print ⟨.mk b true m, fin, flag⟩ [] T = .error (.assertion 976) := by
  cases b with
  | null n => simp [builder_base.kind] at hnull
  | conflict ds vs => exact absurd rfl (hconflict ds vs)
  | atom t inner =>
    cases t with
    | basic k =>
      cases T with
      | basic k1 =>
        have hk : k ≠ k1 := by
          intro h; subst h; simp [builder_base.is] at hcast
        simp [dynamic_builder.prepare, series_builder_impl_get_root, dynamic_builder.prepare_cast,
          builder_base.is, hk, except_bind_ok, except_bind_error, pure, Except.pure, ensure, dynamic_builder.kind,
          dynamic_builder.builder_, builder_base.kind, atom_type.kind, target.kind,
          dynamic_builder.is_protected]
      | list =>
        simp [dynamic_builder.prepare, series_builder_impl_get_root, dynamic_builder.prepare_cast,
          builder_base.is, except_bind_ok, except_bind_error, pure, Except.pure, ensure, dynamic_builder.kind,
          dynamic_builder.builder_, builder_base.kind, atom_type.kind, target.kind,
          dynamic_builder.is_protected]
      | record =>
        simp [dynamic_builder.prepare, series_builder_impl_get_root, dynamic_builder.prepare_cast,
          builder_base.is, except_bind_ok, except_bind_error, pure, Except.pure, ensure, dynamic_builder.kind,
          dynamic_builder.builder_, builder_base.kind, atom_type.kind, target.kind,
          dynamic_builder.is_protected]
    | enumeration ls =>
      cases T <;>
        simp [dynamic_builder.prepare, series_builder_impl_get_root, dynamic_builder.prepare_cast,
          builder_base.is, except_bind_ok, except_bind_error, pure, Except.pure, ensure, dynamic_builder.kind,
          dynamic_builder.builder_, builder_base.kind, atom_type.kind, target.kind,
          dynamic_builder.is_protected]
  | list offs el =>
    cases T with
    | list => simp [builder_base.is] at hcast
    | basic k1 =>
      simp [dynamic_builder.prepare, series_builder_impl_get_root, dynamic_builder.prepare_cast,
        builder_base.is, except_bind_ok, except_bind_error, pure, Except.pure, ensure, dynamic_builder.kind,
        dynamic_builder.builder_, builder_base.kind, atom_type.kind, target.kind,
        dynamic_builder.is_protected]
    | record =>
      simp [dynamic_builder.prepare, series_builder_impl_get_root, dynamic_builder.prepare_cast,
        builder_base.is, except_bind_ok, except_bind_error, pure, Except.pure, ensure, dynamic_builder.kind,
        dynamic_builder.builder_, builder_base.kind, atom_type.kind, target.kind,
        dynamic_builder.is_protected]
  | record fs valid len keep =>
    cases T with
    | record => simp [builder_base.is] at hcast
    | basic k1 =>
      simp [dynamic_builder.prepare, series_builder_impl_get_root, dynamic_builder.prepare_cast,
        builder_base.is, except_bind_ok, except_bind_error, pure, Except.pure, ensure, dynamic_builder.kind,
        dynamic_builder.builder_, builder_base.kind, atom_type.kind, target.kind,
        dynamic_builder.is_protected]
    | list =>
      simp [dynamic_builder.prepare, series_builder_impl_get_root, dynamic_builder.prepare_cast,
        builder_base.is, except_bind_ok, except_bind_error, pure, Except.pure, ensure, dynamic_builder.kind,
        dynamic_builder.builder_, builder_base.kind, atom_type.kind, target.kind,
        dynamic_builder.is_protected]

/-- C11: a series protected with the null type accepts `atom(int64 1)`: the
write returns, and the protected builder then has kind `int64` instead of
`null` (`dynamic_builder::prepare` upgrades a null builder before it looks at
`protected_`). -/
theorem protected_null_builder_changes_kind (print : data_view2 → Option String) :
    (do
      let s ← series_builder.new (some .null)
      let s1 ← series_builder.atom print s (.int64 1)
      pure (s.is_protected, s.kind, s1.is_protected, s1.kind))
      = .ok (true, .null, true, .basic .int64) := rfl

/-- C15: after the record `{xs: [1, "hi"]}` has been written to a fresh series,
`remove_last()` does not return: the conflict builder of the list elements is
asked to shrink and its loop at line 468 never ends. -/
theorem remove_last_with_conflict_builder_diverges (print : data_view2 → Option String) :
    (do
      let s ← write_list_field print series_builder_impl.new "xs" [.int64 1, .string "hi"]
      series_builder.remove_last s) = .error (.diverges 468) := rfl

/-- C16: on the series that holds the rows `null, {}`, writing a third row
`null` and calling `remove_last()` does not give back the two rows: `finish()`
then returns `{}, null` (the validity of the two rows is exchanged). -/
theorem remove_last_changes_earlier_rows (print : data_view2 → Option String) :
    (do
      let s ← series_builder.null print series_builder_impl.new
      let (s, _) ← series_builder.record print s
      let (arrays, _) ← series_builder.finish print s
      pure (arrays.flatMap typed_array.rows)) = .ok [.atom .null, .record []]
    ∧ (do
      let s ← series_builder.null print series_builder_impl.new
      let (s, _) ← series_builder.record print s
      let s ← series_builder.null print s
      let s ← series_builder.remove_last s
      let (arrays, _) ← series_builder.finish print s
      pure (arrays.flatMap typed_array.rows)) = .ok [.record [], .atom .null] :=
  ⟨rfl, rfl⟩
/-- C13: the events `{a: 1, b: 2}` and then `{b: 5, a: "s"}` are cut into two
batches when `a` gets a string. The second batch holds only the second
event, and its type is `{a: string, b: int64}`: the field order of the
first event. A fresh series that receives only `{b: 5, a: "s"}` returns the
type `{b: int64, a: string}`. -/
theorem batch_after_cut_keeps_earlier_field_order (print : data_view2 → Option String) :
    (do
      let s ← write_records print series_builder_impl.new
        [[("a", .int64 1), ("b", .int64 2)], [("b", .int64 5), ("a", .string "s")]]
      let (arrays, _) ← series_builder.finish print s
      pure (arrays.map (fun (a : typed_array) => (a.type, a.length))))
      = .ok [(tenzir.type.record [("a", .basic .int64), ("b", .basic .int64)], 1),
          (tenzir.type.record [("a", .basic .string), ("b", .basic .int64)], 1)]
    ∧ (do
      let s ← write_records print series_builder_impl.new [[("b", .int64 5), ("a", .string "s")]]
      let (arrays, _) ← series_builder.finish print s
      pure (arrays.map (fun (a : typed_array) => (a.type, a.length))))
      = .ok [(tenzir.type.record [("b", .basic .int64), ("a", .basic .string)], 1)] := by
  have h1 : write_record print series_builder_impl.new [("a", .int64 1), ("b", .int64 2)]
      = .ok ⟨.mk (.record [("a", .mk (.atom (.basic .int64) [some (.int64 1)]) false .null),
          ("b", .mk (.atom (.basic .int64) [some (.int64 2)]) false .null)] [] 1 none)
          false .null, [], false⟩ := rfl
  have h2 : series_builder.record print
      ⟨.mk (.record [("a", .mk (.atom (.basic .int64) [some (.int64 1)]) false .null),
          ("b", .mk (.atom (.basic .int64) [some (.int64 2)]) false .null)] [] 1 none)
          false .null, [], false⟩
      = .ok (⟨.mk (.record [("a", .mk (.atom (.basic .int64) [some (.int64 1)]) false .null),
          ("b", .mk (.atom (.basic .int64) [some (.int64 2)]) false .null)] [] 2 none)
          false .null, [], false⟩, ⟨[], none⟩) := rfl
  have h3 : builder_ref.atom print
      ⟨.mk (.record [("a", .mk (.atom (.basic .int64) [some (.int64 1)]) false .null),
          ("b", .mk (.atom (.basic .int64) [some (.int64 2)]) false .null)] [] 2 none)
          false .null, [], false⟩ (record_ref.field ⟨[], none⟩ "b") (.int64 5)
      = .ok ⟨.mk (.record [("a", .mk (.atom (.basic .int64) [some (.int64 1)]) false .null),
          ("b", .mk (.atom (.basic .int64) [some (.int64 2), some (.int64 5)]) false .null)]
          [] 2 none) false .null, [], false⟩ := rfl
  have h4 : builder_ref.atom print
      ⟨.mk (.record [("a", .mk (.atom (.basic .int64) [some (.int64 1)]) false .null),
          ("b", .mk (.atom (.basic .int64) [some (.int64 2), some (.int64 5)]) false .null)]
          [] 2 none) false .null, [], false⟩ (record_ref.field ⟨[], none⟩ "a") (.string "s")
      = .ok ⟨.mk (.record [("a", .mk (.atom (.basic .string) [some (.string "s")]) false .null),
          ("b", .mk (.atom (.basic .int64) [some (.int64 5)]) false .null)] [] 1 none)
          false .null, [⟨.record [("a", .basic .int64), ("b", .basic .int64)],
            .struct 1 [.primitive [some (.int64 1)], .primitive [some (.int64 2)]] none⟩],
          false⟩ := rfl
  have h5 : series_builder.finish print
      ⟨.mk (.record [("a", .mk (.atom (.basic .string) [some (.string "s")]) false .null),
          ("b", .mk (.atom (.basic .int64) [some (.int64 5)]) false .null)] [] 1 none)
          false .null, [⟨.record [("a", .basic .int64), ("b", .basic .int64)],
            .struct 1 [.primitive [some (.int64 1)], .primitive [some (.int64 2)]] none⟩],
          false⟩
      = .ok ([⟨.record [("a", .basic .int64), ("b", .basic .int64)],
            .struct 1 [.primitive [some (.int64 1)], .primitive [some (.int64 2)]] none⟩,
          ⟨.record [("a", .basic .string), ("b", .basic .int64)],
            .struct 1 [.primitive [some (.string "s")], .primitive [some (.int64 5)]] none⟩],
          ⟨.mk (.null 0) false .null, [], false⟩) := rfl
  refine ⟨?_, rfl⟩
  have hrun : write_records print series_builder_impl.new
      [[("a", .int64 1), ("b", .int64 2)], [("b", .int64 5), ("a", .string "s")]]
      = .ok ⟨.mk (.record [("a", .mk (.atom (.basic .string) [some (.string "s")]) false .null),
          ("b", .mk (.atom (.basic .int64) [some (.int64 5)]) false .null)] [] 1 none)
          false .null, [⟨.record [("a", .basic .int64), ("b", .basic .int64)],
            .struct 1 [.primitive [some (.int64 1)], .primitive [some (.int64 2)]] none⟩],
          false⟩ := by
    simp only [write_records, List.foldlM_cons, List.foldlM_nil, h1, except_bind_ok]
    simp only [write_record, h2, except_bind_ok, List.foldlM_cons, List.foldlM_nil, h3, h4]
    rfl
  rw [hrun]
  simp only [except_bind_ok, h5]
  rfl
/-- One top-level null or scalar on a series whose current builder is a null
builder or a scalar builder that is not empty: the batch that is cut, if
any, is counted by `kind_changes`. -/
theorem count_step (print : data_view2 → Option String) (fin : List typed_array)
    (b : builder_base) (v : atom_view) (rest : List atom_view)
    (hb : (∃ n, b = .null n) ∨ ∃ k slots, b = .atom (.basic k) slots ∧ slots ≠ [])
    (hv : atom_view_to_type_t v ≠ .enumeration) :
    ∃ cut b1,
      series_builder.atom print ⟨.mk b false .null, fin, false⟩ v
        = .ok ⟨.mk b1 false .null, fin ++ cut, false⟩
      ∧ ((∃ n, b1 = .null n) ∨ ∃ k slots, b1 = .atom (.basic k) slots ∧ slots ≠ [])
      ∧ 0 < b1.length
      ∧ cut.length + kind_changes b1.scalar_kind rest = kind_changes b.scalar_kind (v :: rest) := by
  cases hvt : atom_view_to_type_t v with
  | enumeration => exact absurd hvt hv
  | null =>
    have hnull : v = .null := by
      cases v <;> simp [atom_view_to_type_t] at hvt
      rfl
    subst hnull
    rcases hb with ⟨n, hb⟩ | ⟨k, slots, hb, hne⟩
    · subst hb
      refine ⟨[], .null (n + 1), ?_, Or.inl ⟨_, rfl⟩, by simp [builder_base.length], ?_⟩
      · simpa using null_on_nulls print fin n
      · simp [kind_changes, atom_view_to_type_t, builder_base.scalar_kind]
    · subst hb
      refine ⟨[], .atom (.basic k) (slots ++ [none]), ?_, Or.inr ⟨k, _, rfl, by simp⟩,
        by simp [builder_base.length], ?_⟩
      · simpa using null_on_atoms print fin (.basic k) slots
      · simp [kind_changes, atom_view_to_type_t, builder_base.scalar_kind]
  | basic k1 =>
    rcases hb with ⟨n, hb⟩ | ⟨k, slots, hb, hne⟩
    · subst hb
      refine ⟨[], .atom (.basic k1) (List.replicate n none ++ [some v]), ?_,
        Or.inr ⟨k1, _, rfl, by simp⟩, by simp [builder_base.length], ?_⟩
      · simpa using atom_upgrade print fin k1 n v hvt
      · simp [kind_changes, hvt, builder_base.scalar_kind]
    · subst hb
      by_cases hk : k = k1
      · subst hk
        refine ⟨[], .atom (.basic k) (slots ++ [some v]), ?_, Or.inr ⟨k, _, rfl, by simp⟩,
          by simp [builder_base.length], ?_⟩
        · simpa using atom_same print fin k slots v hvt
        · simp [kind_changes, hvt, builder_base.scalar_kind]
      · refine ⟨[⟨.basic k, .primitive slots⟩], .atom (.basic k1) [some v], ?_,
          Or.inr ⟨k1, _, rfl, by simp⟩, by simp [builder_base.length], ?_⟩
        · exact atom_cut print fin k k1 slots v hk hvt hne
        · simp [kind_changes, hvt, builder_base.scalar_kind, hk, Nat.add_comm]

theorem count_run (print : data_view2 → Option String) (values : List atom_view) :
    ∀ (fin : List typed_array) (b : builder_base),
      ((∃ n, b = .null n) ∨ ∃ k slots, b = .atom (.basic k) slots ∧ slots ≠ []) →
      (∀ v ∈ values, atom_view_to_type_t v ≠ .enumeration) →
      ∃ cut b1,
        write_atoms print ⟨.mk b false .null, fin, false⟩ values
          = .ok ⟨.mk b1 false .null, fin ++ cut, false⟩
        ∧ ((∃ n, b1 = .null n) ∨ ∃ k slots, b1 = .atom (.basic k) slots ∧ slots ≠ [])
        ∧ (values ≠ [] → 0 < b1.length)
        ∧ cut.length = kind_changes b.scalar_kind values := by
  induction values with
  | nil =>
    intro fin b hb _
    exact ⟨[], b, by simp [write_atoms, pure, Except.pure], hb, by simp, by simp [kind_changes]⟩
  | cons v rest ih =>
    intro fin b hb hvs
    obtain ⟨cut, b1, hstep, hb1, hpos, hcount⟩ :=
      count_step print fin b v rest hb (hvs v (List.mem_cons_self _ _))
    obtain ⟨cut2, b2, hrun, hb2, hpos2, hcount2⟩ :=
      ih (fin ++ cut) b1 hb1 (fun w hw => hvs w (List.mem_cons_of_mem _ hw))
    refine ⟨cut ++ cut2, b2, ?_, hb2, ?_, ?_⟩
    · simp only [write_atoms, List.foldlM_cons, hstep, except_bind_ok]
      simpa [write_atoms, List.append_assoc] using hrun
    · intro _
      cases rest with
      | nil =>
        simp only [write_atoms, List.foldlM_nil, pure, Except.pure, Except.ok.injEq,
          series_builder_impl.mk.injEq, dynamic_builder.mk.injEq, and_true, true_and] at hrun
        rw [← hrun.1]; exact hpos
      | cons w ws => exact hpos2 (by simp)
    · rw [List.length_append, hcount2, hcount]

theorem count_finish (print : data_view2 → Option String) (fin : List typed_array)
    (b : builder_base)
    (hb : (∃ n, b = .null n) ∨ ∃ k slots, b = .atom (.basic k) slots ∧ slots ≠ [])
    (hpos : 0 < b.length) :
    ∃ a s1, series_builder.finish print ⟨.mk b false .null, fin, false⟩ = .ok (fin ++ [a], s1) := by
  rcases hb with ⟨n, hb⟩ | ⟨k, slots, hb, hne⟩
  · subst hb
    have hn : 0 < n := by simpa [builder_base.length] using hpos
    refine ⟨⟨.null, .null n⟩, ⟨.mk (.null 0) false .null, [], false⟩, ?_⟩
    simp [series_builder.finish, series_builder_impl.finish, dynamic_builder.length,
      dynamic_builder.builder_, builder_base.length, pure, Except.pure, hn,
      dynamic_builder_finish_nulls print _ hn, except_bind_ok, ensure]
  · subst hb
    have hlen : 0 < slots.length := List.length_pos.mpr hne
    refine ⟨⟨.basic k, .primitive slots⟩, ⟨.mk (.null 0) false .null, [], false⟩, ?_⟩
    simp [series_builder.finish, series_builder_impl.finish, dynamic_builder.length,
      dynamic_builder.builder_, builder_base.length, pure, Except.pure, hlen,
      dynamic_builder_finish_atoms print k _ hne, except_bind_ok, ensure]

theorem kind_changes_one_kind (k : basic_kind) (values : List atom_view) :
    ∀ last, (last = none ∨ last = some k) →
      (∀ v ∈ values, v = .null ∨ atom_view_to_type_t v = .basic k) →
      kind_changes last values = 0 := by
  induction values with
  | nil => intro _ _ _; rfl
  | cons v rest ih =>
    intro last hlast h
    rcases h v (List.mem_cons_self _ _) with hv | hv
    · subst hv
      simp only [kind_changes, atom_view_to_type_t]
      exact ih last hlast (fun w hw => h w (List.mem_cons_of_mem _ hw))
    · simp only [kind_changes, hv]
      rw [ih (some k) (Or.inr rfl) (fun w hw => h w (List.mem_cons_of_mem _ hw))]
      rcases hlast with h1 | h1 <;> simp [h1]

/-- C18: after a non-empty sequence of top-level nulls and scalars written to a
fresh series, `finish()` returns one array more than there are values whose
kind differs from the kind of the most recent earlier non-null value; when
all non-null values have one kind, it returns exactly one array. -/
theorem batches_are_cut_only_on_kind_change (print : data_view2 → Option String)
    (values : List atom_view) (hne : values ≠ [])
    (h : ∀ v ∈ values, atom_view_to_type_t v ≠ .enumeration) :
    ∃ s arrays s1,
      write_atoms print series_builder_impl.new values = .ok s
      ∧ series_builder.finish print s = .ok (arrays, s1)
      ∧ arrays.length = 1 + kind_changes none values
      ∧ ((∃ k, ∀ v ∈ values, v = .null ∨ atom_view_to_type_t v = .basic k) →
          arrays.length = 1) := by
  obtain ⟨cut, b1, hrun, hb1, hpos, hcount⟩ :=
    count_run print values [] (.null 0) (Or.inl ⟨0, rfl⟩) h
  obtain ⟨a, s1, hfin⟩ := count_finish print ([] ++ cut) b1 hb1 (hpos hne)
  have hlen : (([] : List typed_array) ++ cut ++ [a]).length = 1 + kind_changes none values := by
    simp only [List.nil_append, List.length_append, List.length_singleton, hcount,
      builder_base.scalar_kind]
    omega
  refine ⟨_, _, _, hrun, hfin, hlen, ?_⟩
  rintro ⟨k, hk⟩
  rw [hlen, kind_changes_one_kind k values none (Or.inl rfl) hk]

theorem batches_are_cut_only_on_kind_change_witness :
    [atom_view.int64 1, .null, .string "a", .string "b", .int64 2] ≠ []
    ∧ (∀ v ∈ [atom_view.int64 1, .null, .string "a", .string "b", .int64 2],
        atom_view_to_type_t v ≠ .enumeration)
    ∧ ∃ s arrays s1,
      write_atoms (fun _ => none) series_builder_impl.new
        [.int64 1, .null, .string "a", .string "b", .int64 2] = .ok s
      ∧ series_builder.finish (fun _ => none) s = .ok (arrays, s1)
      ∧ arrays.length
          = 1 + kind_changes none [.int64 1, .null, .string "a", .string "b", .int64 2]
      ∧ ((∃ k, ∀ v ∈ [atom_view.int64 1, .null, .string "a", .string "b", .int64 2],
            v = .null ∨ atom_view_to_type_t v = .basic k) → arrays.length = 1) :=
  ⟨by decide, by decide,
    batches_are_cut_only_on_kind_change (fun _ => none) _ (by decide) (by decide)⟩
theorem finish_validity_length (valid valid1 bits : List Bool) (target : Nat)
    (h : finish_validity valid target = .ok (some bits, valid1)) : bits.length = target := by
  simp only [finish_validity] at h
  split at h
  · split at h
    · simp only [Except.ok.injEq, Prod.mk.injEq, Option.some.injEq] at h
      obtain ⟨h1, _⟩ := h
      subst h1
      simp only [List.length_append, List.length_replicate]
      omega
    · simp at h
  · simp at h

theorem from_arrays_values (line : Nat) (offsets : List (Nat × Bool)) (values result : arrow_array)
    (h : from_arrays line offsets values = .ok result) :
    ∃ offs validity, result = .list offs validity values := by
  simp only [from_arrays] at h
  split at h
  · simp at h
  · split at h
    · simp at h
    · simp only [pure, Except.pure, Except.ok.injEq] at h
      exact ⟨_, _, h.symm⟩

mutual
theorem make_empty_array_uniform : (ty : tenzir.type) → ty.make_empty_array.uniform
  | .null => by simp [type.make_empty_array, arrow_array.uniform]
  | .basic _ => by simp [type.make_empty_array, arrow_array.uniform]
  | .enumeration _ => by simp [type.make_empty_array, arrow_array.uniform]
  | .list t => by
    simp only [type.make_empty_array, arrow_array.uniform]
    exact make_empty_array_uniform t
  | .map k v => by
    simp only [type.make_empty_array, arrow_array.uniform, children_uniform,
      type_make_empty_array_length, true_and, and_true]
    exact ⟨⟨make_empty_array_uniform k, make_empty_array_uniform v⟩, by simp⟩
  | .record fs => by
    simp only [type.make_empty_array, arrow_array.uniform]
    exact ⟨make_empty_arrays_uniform fs, by simp⟩
  | .enriched _ _ t => by
    simp only [type.make_empty_array]
    exact make_empty_array_uniform t
theorem make_empty_arrays_uniform :
    (fs : List (String × tenzir.type)) → children_uniform 0 (make_empty_arrays fs)
  | [] => by simp [make_empty_arrays, children_uniform]
  | (_, t) :: rest => by
    simp only [make_empty_arrays, children_uniform, type_make_empty_array_length, true_and]
    exact ⟨make_empty_array_uniform t, make_empty_arrays_uniform rest⟩
end

mutual
theorem builder_base_finish_uniform (print : data_view2 → Option String) :
    (b : builder_base) → ∀ (grow count : Nat) (a : typed_array) (b1 : builder_base),
      b.finish_and_leave print grow count = .ok (a, b1) → a.array.uniform
  | .null n => by
    intro grow count a b1 h
    simp only [builder_base.finish_and_leave] at h
    split at h
    · simp at h
    · simp [pure, Except.pure] at h
      obtain ⟨h1, _⟩ := h
      subst h1
      simp [arrow_array.uniform]
  | .atom t inner => by
    intro grow count a b1 h
    simp only [builder_base.finish_and_leave] at h
    split at h
    · simp at h
    · simp [pure, Except.pure] at h
      obtain ⟨h1, _⟩ := h
      subst h1
      simp [arrow_array.uniform]
  | .list offsets elements => by
    intro grow count a b1 h
    simp only [builder_base.finish_and_leave, ensure_eq_ok, except_bind_eq_ok,
      except_pure_eq_ok] at h
    obtain ⟨_, _, _, hc, ⟨used, el1⟩, hel, result, hres, h⟩ := h
    have ih := dynamic_builder_finish_uniform print elements _ _ _ _ hel
    simp only [Prod.mk.injEq] at h
    obtain ⟨h1, _⟩ := h
    subst h1
    obtain ⟨offs, validity, hres⟩ := from_arrays_values _ _ _ _ hres
    subst hres
    simpa [arrow_array.uniform] using ih
  | .record fields valid len keep_alive => by
    intro grow count a b1 h
    simp only [builder_base.finish_and_leave, ensure_eq_ok, except_bind_eq_ok,
      except_pure_eq_ok] at h
    obtain ⟨_, hc, ⟨children, fields1⟩, hf, ⟨bitmap, valid1⟩, hv, h⟩ := h
    have ih := finish_fields_uniform print fields _ _ _ _ _ hf
    simp only [Prod.mk.injEq] at h
    obtain ⟨h1, _⟩ := h
    subst h1
    simp only [arrow_array.uniform]
    refine ⟨ih, ?_⟩
    intro bits hbits
    subst hbits
    exact finish_validity_length _ _ _ _ hv
  | .conflict ds vs => by
    intro grow count a b1 h
    simp only [builder_base.finish_and_leave, ensure_eq_ok, except_bind_eq_ok,
      except_pure_eq_ok] at h
    obtain ⟨_, hc, ⟨arrays, vs1⟩, _, strings, hs, h⟩ := h
    simp only [Prod.mk.injEq] at h
    obtain ⟨h1, _⟩ := h
    subst h1
    simp [arrow_array.uniform]
theorem dynamic_builder_finish_uniform (print : data_view2 → Option String) :
    (d : dynamic_builder) → ∀ (grow count : Nat) (a : typed_array) (d1 : dynamic_builder),
      d.finish_and_leave print grow count = .ok (a, d1) → a.array.uniform
  | .mk b p m => by
    intro grow count a d1 h
    simp only [dynamic_builder.finish_and_leave, ensure_eq_ok, except_bind_eq_ok] at h
    obtain ⟨_, hc, ⟨result, b1⟩, hr, _, hlen, h⟩ := h
    have key : result.array.uniform := by
      split at hr
      · rw [except_bind_eq_ok] at hr
        obtain ⟨b0, _, hr⟩ := hr
        simp only [except_pure_eq_ok, Prod.mk.injEq] at hr
        obtain ⟨h1, _⟩ := hr
        subst h1
        exact make_empty_array_uniform _
      · exact builder_base_finish_uniform print b grow count result b1 hr
    simp only [except_pure_eq_ok, Prod.mk.injEq] at h
    obtain ⟨h1, _⟩ := h
    subst h1
    exact key
theorem finish_fields_uniform (print : data_view2 → Option String) :
    (fields : List (String × dynamic_builder)) →
      ∀ (len target : Nat) (keep : Option String) (arrays : List arrow_array)
        (fields1 : List (String × dynamic_builder)),
      finish_fields print fields len target keep = .ok (arrays, fields1) →
      children_uniform target arrays
  | [] => by
    intro len target keep arrays fields1 h
    simp only [finish_fields, except_pure_eq_ok, Prod.mk.injEq] at h
    obtain ⟨h1, _⟩ := h
    subst h1
    simp [children_uniform]
  | (name, builder) :: rest => by
    intro len target keep arrays fields1 h
    simp only [finish_fields, ensure_eq_ok, except_bind_eq_ok, except_pure_eq_ok] at h
    obtain ⟨_, _, ⟨array, builder1⟩, hb, _, _, _, hal, ⟨arrays1, rest1⟩, hrest, h⟩ := h
    have ih1 := dynamic_builder_finish_uniform print builder _ _ _ _ hb
    have ih2 := finish_fields_uniform print rest _ _ _ _ _ hrest
    simp only [Prod.mk.injEq] at h
    obtain ⟨h1, _⟩ := h
    subst h1
    exact ⟨hal, ih1, ih2⟩
end
/-! ## What writes do to the queue of finished arrays -/

theorem series_set_finished (s s1 : series_builder_impl) (path : builder_path)
    (d : dynamic_builder) (h : s.set path d = .ok s1) :
    s1.finished_ = s.finished_ ∧ s1.has_conflict_ = s.has_conflict_ := by
  simp only [series_builder_impl.set, except_bind_eq_ok, except_pure_eq_ok] at h
  obtain ⟨b, _, h⟩ := h
  subst h
  exact ⟨rfl, rfl⟩

theorem finish_previous_events_finished (print : data_view2 → Option String)
    (P : typed_array → Prop)
    (hP : ∀ d grow count a d1, dynamic_builder.finish_and_leave print d grow count = .ok (a, d1)
      → P a)
    (s s1 : series_builder_impl) (root : Bool)
    (h : s.finish_previous_events print root = .ok s1) (hs : s.finished_all P) :
    s1.finished_all P := by
  simp only [series_builder_impl.finish_previous_events] at h
  split at h
  · simp only [except_pure_eq_ok] at h
    subst h; exact hs
  · split at h
    · simp only [except_pure_eq_ok] at h
      subst h; exact hs
    · simp only [except_bind_eq_ok, ensure_eq_ok, except_pure_eq_ok] at h
      obtain ⟨⟨slice, b1⟩, hf, _, _, _, _, h⟩ := h
      subst h
      intro a ha
      simp only [List.mem_append, List.mem_singleton] at ha
      rcases ha with ha | ha
      · exact hs a ha
      · subst ha
        exact hP _ _ _ _ _ hf

theorem finish_if_conflict_finished (print : data_view2 → Option String)
    (P : typed_array → Prop)
    (hP : ∀ d grow count a d1, dynamic_builder.finish_and_leave print d grow count = .ok (a, d1)
      → P a)
    (s s1 : series_builder_impl)
    (h : s.finish_if_conflict print = .ok s1) (hs : s.finished_all P) :
    s1.finished_all P := by
  simp only [series_builder_impl.finish_if_conflict] at h
  split at h
  · simp only [except_bind_eq_ok, except_pure_eq_ok] at h
    obtain ⟨⟨array, b1⟩, hf, h⟩ := h
    subst h
    intro a ha
    simp only [List.mem_append, List.mem_singleton] at ha
    rcases ha with ha | ha
    · exact hs a ha
    · subst ha
      exact hP _ _ _ _ _ hf
  · simp only [except_pure_eq_ok] at h
    subst h; exact hs

theorem finished_all_of_eq (P : typed_array → Prop) (s s1 : series_builder_impl)
    (h : s1.finished_ = s.finished_) (hs : s.finished_all P) : s1.finished_all P := by
  intro a ha
  rw [h] at ha
  exact hs a ha

theorem prepare_finished (print : data_view2 → Option String) (P : typed_array → Prop)
    (hP : ∀ d grow count a d1, dynamic_builder.finish_and_leave print d grow count = .ok (a, d1)
      → P a)
    (s s1 : series_builder_impl) (path : builder_path) (T : target) (variant : Option Nat)
    (h : dynamic_builder.prepare print s path T = .ok (s1, variant)) (hs : s.finished_all P) :
    s1.finished_all P := by
  simp only [dynamic_builder.prepare, except_bind_eq_ok] at h
  obtain ⟨d, _, r, _, h⟩ := h
  cases r with
  | some dv =>
    obtain ⟨d1, v⟩ := dv
    simp only [except_bind_eq_ok, except_pure_eq_ok, Prod.mk.injEq] at h
    obtain ⟨s2, hset, h, _⟩ := h
    subst h
    exact finished_all_of_eq P s s2 (series_set_finished s s2 _ _ hset).1 hs
  | none =>
    simp only [except_bind_eq_ok, ensure_eq_ok] at h
    obtain ⟨_, _, _, _, s2, hfpe, d1, _, s3, hwrap, d2, _, r2, _, h⟩ := h
    have h2 : s2.finished_all P := finish_previous_events_finished print P hP _ _ _ hfpe hs
    have h3 : s3.finished_all P := by
      split at hwrap
      · simp only [except_bind_eq_ok, except_pure_eq_ok] at hwrap
        obtain ⟨s2a, hset, hwrap⟩ := hwrap
        subst hwrap
        exact finished_all_of_eq P s2 _ (series_set_finished s2 s2a _ _ hset).1 h2
      · split at hwrap
        · simp at hwrap
        · simp only [except_pure_eq_ok] at hwrap
          subst hwrap; exact h2
    cases r2 with
    | none => simp at h
    | some dv =>
      obtain ⟨d3, v⟩ := dv
      simp only [except_bind_eq_ok, except_pure_eq_ok, Prod.mk.injEq] at h
      obtain ⟨s4, hset, h, _⟩ := h
      subst h
      exact finished_all_of_eq P s3 s4 (series_set_finished s3 s4 _ _ hset).1 h3

theorem append_atom_finished (s s1 : series_builder_impl) (path : builder_path)
    (variant : Option Nat) (value : atom_view)
    (h : typed_builder.append_atom s path variant value = .ok s1) :
    s1.finished_ = s.finished_ := by
  simp only [typed_builder.append_atom, except_bind_eq_ok] at h
  obtain ⟨d, _, h⟩ := h
  split at h
  · exact (series_set_finished s s1 _ _ h).1
  · simp at h

theorem append_record_finished (s s1 : series_builder_impl) (path : builder_path)
    (variant : Option Nat) (r : record_ref)
    (h : typed_builder.append_record s path variant = .ok (s1, r)) :
    s1.finished_ = s.finished_ := by
  simp only [typed_builder.append_record, except_bind_eq_ok] at h
  obtain ⟨d, _, h⟩ := h
  split at h
  · simp only [except_bind_eq_ok, except_pure_eq_ok, Prod.mk.injEq] at h
    obtain ⟨s2, hset, h, _⟩ := h
    subst h
    exact (series_set_finished s s2 _ _ hset).1
  · simp at h

theorem append_list_finished (s s1 : series_builder_impl) (path : builder_path)
    (variant : Option Nat) (r : builder_ref)
    (h : typed_builder.append_list s path variant = .ok (s1, r)) :
    s1.finished_ = s.finished_ := by
  simp only [typed_builder.append_list, except_bind_eq_ok] at h
  obtain ⟨d, _, h⟩ := h
  split at h
  · simp only [except_bind_eq_ok, except_pure_eq_ok, Prod.mk.injEq, ensure_eq_ok] at h
    obtain ⟨_, _, s2, hset, h, _⟩ := h
    subst h
    exact (series_set_finished s s2 _ _ hset).1
  · simp at h

theorem dynamic_atom_finished (print : data_view2 → Option String) (P : typed_array → Prop)
    (hP : ∀ d grow count a d1, dynamic_builder.finish_and_leave print d grow count = .ok (a, d1)
      → P a)
    (s s1 : series_builder_impl) (path : builder_path) (value : atom_view)
    (h : dynamic_builder.atom print s path value = .ok s1) (hs : s.finished_all P) :
    s1.finished_all P := by
  simp only [dynamic_builder.atom] at h
  split at h
  · simp only [except_bind_eq_ok] at h
    obtain ⟨d, _, d1, _, hset⟩ := h
    exact finished_all_of_eq P s s1 (series_set_finished s s1 _ _ hset).1 hs
  · simp only [except_bind_eq_ok] at h
    obtain ⟨d, _, h⟩ := h
    split at h
    · exact finished_all_of_eq P s s1 (series_set_finished s s1 _ _ h).1 hs
    · simp at h
  · simp only [except_bind_eq_ok] at h
    obtain ⟨⟨s2, variant⟩, hprep, h⟩ := h
    exact finished_all_of_eq P s2 s1 (append_atom_finished _ _ _ _ _ h)
      (prepare_finished print P hP _ _ _ _ _ hprep hs)

theorem dynamic_record_finished (print : data_view2 → Option String) (P : typed_array → Prop)
    (hP : ∀ d grow count a d1, dynamic_builder.finish_and_leave print d grow count = .ok (a, d1)
      → P a)
    (s s1 : series_builder_impl) (path : builder_path) (r : record_ref)
    (h : dynamic_builder.record print s path = .ok (s1, r)) (hs : s.finished_all P) :
    s1.finished_all P := by
  simp only [dynamic_builder.record, except_bind_eq_ok] at h
  obtain ⟨⟨s2, variant⟩, hprep, h⟩ := h
  exact finished_all_of_eq P s2 s1 (append_record_finished _ _ _ _ _ h)
    (prepare_finished print P hP _ _ _ _ _ hprep hs)

theorem dynamic_list_finished (print : data_view2 → Option String) (P : typed_array → Prop)
    (hP : ∀ d grow count a d1, dynamic_builder.finish_and_leave print d grow count = .ok (a, d1)
      → P a)
    (s s1 : series_builder_impl) (path : builder_path) (r : builder_ref)
    (h : dynamic_builder.list print s path = .ok (s1, r)) (hs : s.finished_all P) :
    s1.finished_all P := by
  simp only [dynamic_builder.list, except_bind_eq_ok] at h
  obtain ⟨⟨s2, variant⟩, hprep, h⟩ := h
  exact finished_all_of_eq P s2 s1 (append_list_finished _ _ _ _ _ h)
    (prepare_finished print P hP _ _ _ _ _ hprep hs)
theorem record_ref_set_finished (s s1 : series_builder_impl) (r : record_ref)
    (d : dynamic_builder) (fields : List (String × dynamic_builder)) (valid : List Bool)
    (len : Nat) (ka : Option String) (h : record_ref.set s r d fields valid len ka = .ok s1) :
    s1.finished_ = s.finished_ :=
  (series_set_finished s s1 _ _ h).1

theorem prepare_field_finished (print : data_view2 → Option String) (P : typed_array → Prop)
    (hP : ∀ d grow count a d1, dynamic_builder.finish_and_leave print d grow count = .ok (a, d1)
      → P a)
    (s s1 : series_builder_impl) (self : record_ref) (name : String) (T : target)
    (path : builder_path) (variant : Option Nat)
    (h : typed_builder.prepare_field print s self name T = .ok (s1, path, variant))
    (hs : s.finished_all P) : s1.finished_all P := by
  simp only [typed_builder.prepare_field, except_bind_eq_ok] at h
  obtain ⟨⟨d, fields, valid, len, ka⟩, _, h⟩ := h
  split at h
  · simp only [except_bind_eq_ok, except_pure_eq_ok, Prod.mk.injEq, ensure_eq_ok] at h
    obtain ⟨_, _, builder, _, s2, hset, ⟨s3, v⟩, hprep, h, _⟩ := h
    subst h
    exact prepare_finished print P hP _ _ _ _ _ hprep
      (finished_all_of_eq P s s2 (record_ref_set_finished _ _ _ _ _ _ _ _ hset) hs)
  · simp only [except_bind_eq_ok, except_pure_eq_ok, Prod.mk.injEq, ensure_eq_ok] at h
    obtain ⟨_, _, builder1, _, _, _, s2, hset, ⟨s3, v⟩, hprep, ⟨d2, f2, v2, l2, k2⟩, _, s4,
      hset2, h, _⟩ := h
    subst h
    exact finished_all_of_eq P s3 s4 (record_ref_set_finished _ _ _ _ _ _ _ _ hset2)
      (prepare_finished print P hP _ _ _ _ _ hprep
        (finished_all_of_eq P s s2 (record_ref_set_finished _ _ _ _ _ _ _ _ hset) hs))

theorem field_atom_finished (print : data_view2 → Option String) (P : typed_array → Prop)
    (hP : ∀ d grow count a d1, dynamic_builder.finish_and_leave print d grow count = .ok (a, d1)
      → P a)
    (s s1 : series_builder_impl) (self : field_ref) (value : atom_view)
    (h : field_ref.atom print s self value = .ok s1) (hs : s.finished_all P) :
    s1.finished_all P := by
  simp only [field_ref.atom] at h
  split at h
  · simp only [except_bind_eq_ok] at h
    obtain ⟨⟨d, fields, valid, len, ka⟩, _, h⟩ := h
    split at h
    · simp only [except_bind_eq_ok, ensure_eq_ok] at h
      obtain ⟨_, _, h⟩ := h
      split at h
      · simp only [except_bind_eq_ok, ensure_eq_ok] at h
        obtain ⟨_, _, f1, _, hset⟩ := h
        exact finished_all_of_eq P s s1 (record_ref_set_finished _ _ _ _ _ _ _ _ hset) hs
      · simp only [except_pure_eq_ok] at h
        subst h; exact hs
    · simp only [except_pure_eq_ok] at h
      subst h; exact hs
  · simp only [except_bind_eq_ok] at h
    obtain ⟨⟨d, fields, valid, len, ka⟩, _, h⟩ := h
    split at h
    · simp at h
    · simp only [except_bind_eq_ok, ensure_eq_ok] at h
      obtain ⟨_, _, b1, _, s2, hset, h⟩ := h
      exact dynamic_atom_finished print P hP _ _ _ _ h
        (finished_all_of_eq P s s2 (record_ref_set_finished _ _ _ _ _ _ _ _ hset) hs)
  · simp only [except_bind_eq_ok] at h
    obtain ⟨⟨s2, path, variant⟩, hprep, h⟩ := h
    exact finished_all_of_eq P s2 s1 (append_atom_finished _ _ _ _ _ h)
      (prepare_field_finished print P hP _ _ _ _ _ _ _ hprep hs)

theorem field_record_finished (print : data_view2 → Option String) (P : typed_array → Prop)
    (hP : ∀ d grow count a d1, dynamic_builder.finish_and_leave print d grow count = .ok (a, d1)
      → P a)
    (s s1 : series_builder_impl) (self : field_ref) (r : record_ref)
    (h : field_ref.record print s self = .ok (s1, r)) (hs : s.finished_all P) :
    s1.finished_all P := by
  simp only [field_ref.record, except_bind_eq_ok] at h
  obtain ⟨⟨s2, path, variant⟩, hprep, h⟩ := h
  exact finished_all_of_eq P s2 s1 (append_record_finished _ _ _ _ _ h)
    (prepare_field_finished print P hP _ _ _ _ _ _ _ hprep hs)

theorem field_list_finished (print : data_view2 → Option String) (P : typed_array → Prop)
    (hP : ∀ d grow count a d1, dynamic_builder.finish_and_leave print d grow count = .ok (a, d1)
      → P a)
    (s s1 : series_builder_impl) (self : field_ref) (r : builder_ref)
    (h : field_ref.list print s self = .ok (s1, r)) (hs : s.finished_all P) :
    s1.finished_all P := by
  simp only [field_ref.list, except_bind_eq_ok] at h
  obtain ⟨⟨s2, path, variant⟩, hprep, h⟩ := h
  exact finished_all_of_eq P s2 s1 (append_list_finished _ _ _ _ _ h)
    (prepare_field_finished print P hP _ _ _ _ _ _ _ hprep hs)

theorem builder_ref_atom_finished (print : data_view2 → Option String) (P : typed_array → Prop)
    (hP : ∀ d grow count a d1, dynamic_builder.finish_and_leave print d grow count = .ok (a, d1)
      → P a)
    (s s1 : series_builder_impl) (ref : builder_ref) (value : atom_view)
    (h : builder_ref.atom print s ref value = .ok s1) (hs : s.finished_all P) :
    s1.finished_all P := by
  cases ref with
  | series =>
    simp only [builder_ref.atom, series_builder.atom, series_builder_impl.atom,
      except_bind_eq_ok] at h
    obtain ⟨s2, hc, h⟩ := h
    exact dynamic_atom_finished print P hP _ _ _ _ h
      (finish_if_conflict_finished print P hP _ _ hc hs)
  | dynamic path => exact dynamic_atom_finished print P hP _ _ _ _ h hs
  | field f => exact field_atom_finished print P hP _ _ _ _ h hs

theorem builder_ref_record_finished (print : data_view2 → Option String)
    (P : typed_array → Prop)
    (hP : ∀ d grow count a d1, dynamic_builder.finish_and_leave print d grow count = .ok (a, d1)
      → P a)
    (s s1 : series_builder_impl) (ref : builder_ref) (r : record_ref)
    (h : builder_ref.record print s ref = .ok (s1, r)) (hs : s.finished_all P) :
    s1.finished_all P := by
  cases ref with
  | series =>
    simp only [builder_ref.record, series_builder.record, series_builder_impl.record,
      except_bind_eq_ok] at h
    obtain ⟨s2, hc, h⟩ := h
    exact dynamic_record_finished print P hP _ _ _ _ h
      (finish_if_conflict_finished print P hP _ _ hc hs)
  | dynamic path => exact dynamic_record_finished print P hP _ _ _ _ h hs
  | field f => exact field_record_finished print P hP _ _ _ _ h hs

theorem builder_ref_list_finished (print : data_view2 → Option String) (P : typed_array → Prop)
    (hP : ∀ d grow count a d1, dynamic_builder.finish_and_leave print d grow count = .ok (a, d1)
      → P a)
    (s s1 : series_builder_impl) (ref r : builder_ref)
    (h : builder_ref.list print s ref = .ok (s1, r)) (hs : s.finished_all P) :
    s1.finished_all P := by
  cases ref with
  | series =>
    simp only [builder_ref.list, series_builder.list, series_builder_impl.list,
      except_bind_eq_ok] at h
    obtain ⟨s2, hc, h⟩ := h
    exact dynamic_list_finished print P hP _ _ _ _ h
      (finish_if_conflict_finished print P hP _ _ hc hs)
  | dynamic path => exact dynamic_list_finished print P hP _ _ _ _ h hs
  | field f => exact field_list_finished print P hP _ _ _ _ h hs

theorem except_map_eq_ok {α β : Type} (x : Except abort α) (f : α → β) (b : β) :
    x.map f = .ok b ↔ ∃ a, x = .ok a ∧ f a = b := by
  cases x with
  | error e => simp [Except.map]
  | ok a => simp [Except.map]

theorem finish_finished (print : data_view2 → Option String) (P : typed_array → Prop)
    (hP : ∀ d grow count a d1, dynamic_builder.finish_and_leave print d grow count = .ok (a, d1)
      → P a)
    (s s1 : series_builder_impl) (arrays : List typed_array)
    (h : series_builder.finish print s = .ok (arrays, s1)) (hs : s.finished_all P) :
    (∀ a ∈ arrays, P a) ∧ s1.finished_ = [] := by
  simp only [series_builder.finish, series_builder_impl.finish] at h
  split at h
  · simp only [except_bind_eq_ok, ensure_eq_ok, except_pure_eq_ok, Prod.mk.injEq] at h
    obtain ⟨⟨array, b1⟩, hf, _, _, h1, h2⟩ := h
    subst h1 h2
    refine ⟨?_, rfl⟩
    intro a ha
    simp only [List.mem_append, List.mem_singleton] at ha
    rcases ha with ha | ha
    · exact hs a ha
    · subst ha
      exact hP _ _ _ _ _ hf
  · simp only [except_pure_eq_ok, Prod.mk.injEq] at h
    obtain ⟨h1, h2⟩ := h
    subst h1 h2
    exact ⟨hs, rfl⟩

theorem remove_last_finished (s s1 : series_builder_impl)
    (h : series_builder.remove_last s = .ok s1) : s1.finished_ = s.finished_ := by
  simp only [series_builder.remove_last, series_builder_impl.remove_last] at h
  split at h
  · simp only [except_bind_eq_ok, except_pure_eq_ok] at h
    obtain ⟨b1, _, h⟩ := h
    subst h; rfl
  · simp only [except_pure_eq_ok] at h
    subst h; rfl

theorem call_run_finished (print : data_view2 → Option String) (P : typed_array → Prop)
    (hP : ∀ d grow count a d1, dynamic_builder.finish_and_leave print d grow count = .ok (a, d1)
      → P a)
    (s s1 : series_builder_impl) (c : call)
    (h : c.run print s = .ok s1) (hs : s.finished_all P) : s1.finished_all P := by
  cases c with
  | atom ref value => exact builder_ref_atom_finished print P hP _ _ _ _ h hs
  | record ref =>
    simp only [call.run, except_map_eq_ok] at h
    obtain ⟨⟨s2, r⟩, h, h1⟩ := h
    subst h1
    exact builder_ref_record_finished print P hP _ _ _ _ h hs
  | list ref =>
    simp only [call.run, except_map_eq_ok] at h
    obtain ⟨⟨s2, r⟩, h, h1⟩ := h
    subst h1
    exact builder_ref_list_finished print P hP _ _ _ _ h hs
  | remove_last =>
    exact finished_all_of_eq P s s1 (remove_last_finished s s1 h) hs
  | finish =>
    simp only [call.run, except_map_eq_ok] at h
    obtain ⟨⟨arrays, s2⟩, h, h1⟩ := h
    subst h1
    intro a ha
    rw [(finish_finished print P hP s s2 arrays h hs).2] at ha
    simp at ha

theorem run_all_finished (print : data_view2 → Option String) (P : typed_array → Prop)
    (hP : ∀ d grow count a d1, dynamic_builder.finish_and_leave print d grow count = .ok (a, d1)
      → P a)
    (calls : List call) :
    ∀ (s s1 : series_builder_impl), run_all print s calls = .ok s1 → s.finished_all P →
      s1.finished_all P := by
  induction calls with
  | nil =>
    intro s s1 h hs
    simp only [run_all, List.foldlM_nil, except_pure_eq_ok] at h
    subst h; exact hs
  | cons c rest ih =>
    intro s s1 h hs
    simp only [run_all, List.foldlM_cons, except_bind_eq_ok] at h
    obtain ⟨s2, hc, h⟩ := h
    exact ih s2 s1 h (call_run_finished print P hP s s2 c hc hs)

theorem series_builder_new_finished (ty : Option tenzir.type) (s : series_builder_impl)
    (h : series_builder.new ty = .ok s) : s.finished_ = [] := by
  cases ty with
  | none =>
    simp only [series_builder.new, except_pure_eq_ok] at h
    subst h; rfl
  | some t =>
    simp only [series_builder.new, except_bind_eq_ok, except_pure_eq_ok] at h
    obtain ⟨b, _, h⟩ := h
    subst h; rfl

/-- C20: every array that `finish()` returns, after any sequence of calls on a
new series (protected or not), is length-uniform: in every struct array in
it, at any depth, each child has the length of the struct, and so has the
validity bitmap when there is one. -/
theorem finished_structs_are_length_uniform (print : data_view2 → Option String)
    (ty : Option tenzir.type) (calls : List call) (s0 s s1 : series_builder_impl)
    (arrays : List typed_array)
    (hnew : series_builder.new ty = .ok s0)
    (hrun : run_all print s0 calls = .ok s)
    (hfinish : series_builder.finish print s = .ok (arrays, s1)) :
    ∀ a ∈ arrays, a.array.uniform := by
  have hP : ∀ d grow count a d1,
      dynamic_builder.finish_and_leave print d grow count = .ok (a, d1) → a.array.uniform :=
    fun d grow count a d1 h => dynamic_builder_finish_uniform print d grow count a d1 h
  have h0 : s0.finished_all (fun a => a.array.uniform) := by
    intro a ha
    rw [series_builder_new_finished ty s0 hnew] at ha
    simp at ha
  have hs := run_all_finished print (fun a => a.array.uniform) hP calls s0 s hrun h0
  exact (finish_finished print (fun a => a.array.uniform) hP s s1 arrays hfinish hs).1

theorem finished_structs_are_length_uniform_witness :
    series_builder.new none = .ok series_builder_impl.new
    ∧ run_all (fun _ => none) series_builder_impl.new
        [.record .series, .atom (.field ⟨⟨[], none⟩, "a"⟩) (.int64 1), .atom .series .null]
      = .ok ⟨.mk (.record [("a", .mk (.atom (.basic .int64) [some (.int64 1)]) false .null)]
          [true, false] 2 none) false .null, [], false⟩
    ∧ series_builder.finish (fun _ => none)
        ⟨.mk (.record [("a", .mk (.atom (.basic .int64) [some (.int64 1)]) false .null)]
          [true, false] 2 none) false .null, [], false⟩
      = .ok ([⟨.record [("a", .basic .int64)],
          .struct 2 [.primitive [some (.int64 1), none]] (some [true, false])⟩],
          ⟨.mk (.null 0) false .null, [], false⟩)
    ∧ ∀ a ∈ [(⟨.record [("a", .basic .int64)],
          .struct 2 [.primitive [some (.int64 1), none]] (some [true, false])⟩ : typed_array)],
        a.array.uniform :=
  ⟨rfl, rfl, rfl,
    finished_structs_are_length_uniform (fun _ => none) none
      [.record .series, .atom (.field ⟨⟨[], none⟩, "a"⟩) (.int64 1), .atom .series .null]
      series_builder_impl.new
      ⟨.mk (.record [("a", .mk (.atom (.basic .int64) [some (.int64 1)]) false .null)]
          [true, false] 2 none) false .null, [], false⟩
      ⟨.mk (.null 0) false .null, [], false⟩ _ rfl rfl rfl⟩
/-! ## Writes do not read the queue of finished arrays -/

theorem except_map_bind {α β γ : Type} (x : Except abort α) (f : α → β)
    (g : β → Except abort γ) : (x.map f >>= g) = (x >>= fun a => g (f a)) := by
  cases x <;> rfl

theorem except_bind_map {α β γ : Type} (x : Except abort α) (g : α → Except abort β)
    (f : β → γ) : (x >>= g).map f = (x >>= fun a => (g a).map f) := by
  cases x <;> rfl

theorem except_map_ok {α β : Type} (a : α) (f : α → β) :
    (Except.ok a : Except abort α).map f = .ok (f a) := rfl

theorem except_map_error {α β : Type} (e : abort) (f : α → β) :
    (Except.error e : Except abort α).map f = .error e := rfl

theorem except_map_map {α β γ : Type} (x : Except abort α) (f : α → β) (g : β → γ) :
    (x.map f).map g = x.map (fun a => g (f a)) := by
  cases x <;> rfl

theorem prepend_get (pre : List typed_array) (s : series_builder_impl) (path : builder_path) :
    (s.prepend pre).get path = s.get path := rfl

theorem prepend_set (pre : List typed_array) (s : series_builder_impl) (path : builder_path)
    (d : dynamic_builder) :
    (s.prepend pre).set path d = (s.set path d).map (series_builder_impl.prepend pre) := by
  simp only [series_builder_impl.set, series_builder_impl.prepend]
  cases s.builder_.set path d <;> rfl

theorem prepend_finish_previous_events (print : data_view2 → Option String)
    (pre : List typed_array) (s : series_builder_impl) (root : Bool) :
    (s.prepend pre).finish_previous_events print root
      = (s.finish_previous_events print root).map (series_builder_impl.prepend pre) := by
  simp only [series_builder_impl.finish_previous_events, series_builder_impl.prepend]
  split
  · rfl
  · split
    · rfl
    · cases h : s.builder_.finish_and_leave print 0 (if (!root) = true then 1 else 0) with
      | error e => rfl
      | ok r =>
        obtain ⟨slice, b1⟩ := r
        simp only [except_bind_ok]
        by_cases h1 : b1.length = if (!root) = true then 1 else 0
        · by_cases h2 : slice.length > 0
          · simp only [ensure, if_pos h1, if_pos h2, except_bind_ok, pure, Except.pure,
              except_map_ok, series_builder_impl.prepend, List.append_assoc]
          · simp only [ensure, if_pos h1, if_neg h2, except_bind_ok, except_bind_error,
              except_map_error]
        · simp only [ensure, if_neg h1, except_bind_error, except_map_error]
theorem prepend_set_conflict_flag (pre : List typed_array) (s : series_builder_impl) :
    (s.prepend pre).set_conflict_flag = s.set_conflict_flag.prepend pre := rfl

theorem prepend_prepare_tail (pre : List typed_array)
    (s : series_builder_impl) (path : builder_path) (T : target) :
    (do
      let d2 ← (s.prepend pre).get path
      match ← d2.prepare_cast T with
      | some (d3, variant) => pure (← (s.prepend pre).set path d3, variant)
      | none => (.error (.diverges 1037) : Except abort (series_builder_impl × Option Nat)))
    = (do
      let d2 ← s.get path
      match ← d2.prepare_cast T with
      | some (d3, variant) => pure (← s.set path d3, variant)
      | none => (.error (.diverges 1037) : Except abort (series_builder_impl × Option Nat))).map
        (fun (r : series_builder_impl × Option Nat) => (r.1.prepend pre, r.2)) := by
  simp only [prepend_get]
  cases s.get path with
  | error e => rfl
  | ok d2 =>
    simp only [except_bind_ok]
    cases d2.prepare_cast T with
    | error e => rfl
    | ok r =>
      cases r with
      | none => rfl
      | some dv =>
        obtain ⟨d3, variant⟩ := dv
        simp only [except_bind_ok, prepend_set]
        cases s.set path d3 <;> rfl

theorem prepend_prepare (print : data_view2 → Option String) (pre : List typed_array)
    (s : series_builder_impl) (path : builder_path) (T : target) :
    dynamic_builder.prepare print (s.prepend pre) path T
      = (dynamic_builder.prepare print s path T).map (fun r => (r.1.prepend pre, r.2)) := by
  simp only [dynamic_builder.prepare, prepend_get]
  cases s.get path with
  | error e => rfl
  | ok d =>
    simp only [except_bind_ok]
    cases d.prepare_cast T with
    | error e => rfl
    | ok r =>
      cases r with
      | some dv =>
        obtain ⟨d1, variant⟩ := dv
        simp only [except_bind_ok, prepend_set]
        cases s.set path d1 <;> rfl
      | none =>
        simp only [except_bind_ok]
        by_cases h1 : d.kind ≠ T.kind
        · by_cases h2 : d.is_protected = false
          · simp only [ensure, if_pos h1, if_pos h2, except_bind_ok,
              prepend_finish_previous_events]
            cases s.finish_previous_events print (path == []) with
            | error e => rfl
            | ok s1 =>
              simp only [except_map_ok, except_bind_ok, prepend_get]
              cases s1.get path with
              | error e => rfl
              | ok d1 =>
                simp only [except_bind_ok]
                by_cases h3 : d1.length > 0
                · simp only [if_pos h3, prepend_set]
                  cases s1.set path d1.wrap_conflict with
                  | error e => rfl
                  | ok s1a =>
                    simp only [except_map_ok, except_bind_ok, pure, Except.pure,
                      prepend_set_conflict_flag]
                    exact prepend_prepare_tail pre s1a.set_conflict_flag path T
                · by_cases h4 : d1.kind ≠ .null
                  · simp only [if_neg h3, if_pos h4, except_bind_error, except_map_error]
                  · simp only [if_neg h3, if_neg h4, except_bind_ok, pure, Except.pure]
                    exact prepend_prepare_tail pre s1 path T
          · simp only [ensure, if_pos h1, if_neg h2, except_bind_ok, except_bind_error,
              except_map_error]
        · simp only [ensure, if_neg h1, except_bind_error, except_map_error]
theorem prepend_append_atom (pre : List typed_array) (s : series_builder_impl)
    (path : builder_path) (variant : Option Nat) (value : atom_view) :
    typed_builder.append_atom (s.prepend pre) path variant value
      = (typed_builder.append_atom s path variant value).map
          (series_builder_impl.prepend pre) := by
  simp only [typed_builder.append_atom, prepend_get]
  cases s.get path with
  | error e => rfl
  | ok d =>
    simp only [except_bind_ok]
    split
    · exact prepend_set pre s path _
    · rfl

theorem prepend_append_record (pre : List typed_array) (s : series_builder_impl)
    (path : builder_path) (variant : Option Nat) :
    typed_builder.append_record (s.prepend pre) path variant
      = (typed_builder.append_record s path variant).map
          (fun (r : series_builder_impl × record_ref) => (r.1.prepend pre, r.2)) := by
  simp only [typed_builder.append_record, prepend_get]
  cases s.get path with
  | error e => rfl
  | ok d =>
    simp only [except_bind_ok]
    split
    · simp only [prepend_set]
      cases s.set path _ <;> rfl
    · rfl

theorem prepend_append_list (pre : List typed_array) (s : series_builder_impl)
    (path : builder_path) (variant : Option Nat) :
    typed_builder.append_list (s.prepend pre) path variant
      = (typed_builder.append_list s path variant).map
          (fun (r : series_builder_impl × builder_ref) => (r.1.prepend pre, r.2)) := by
  simp only [typed_builder.append_list, prepend_get]
  cases s.get path with
  | error e => rfl
  | ok d =>
    simp only [except_bind_ok]
    split
    · rename_i offsets elements _
      by_cases h : elements.length < 2 ^ 31
      · simp only [ensure, if_pos h, except_bind_ok, prepend_set]
        cases s.set path _ <;> rfl
      · simp only [ensure, if_neg h, except_bind_error, except_map_error]
    · rfl

theorem prepend_dynamic_atom (print : data_view2 → Option String) (pre : List typed_array)
    (s : series_builder_impl) (path : builder_path) (value : atom_view) :
    dynamic_builder.atom print (s.prepend pre) path value
      = (dynamic_builder.atom print s path value).map (series_builder_impl.prepend pre) := by
  simp only [dynamic_builder.atom]
  split
  · simp only [prepend_get]
    cases s.get path with
    | error e => rfl
    | ok d =>
      simp only [except_bind_ok]
      cases d.resize (d.length + 1) with
      | error e => rfl
      | ok d1 =>
        simp only [except_bind_ok]
        exact prepend_set pre s path d1
  · simp only [prepend_get]
    cases s.get path with
    | error e => rfl
    | ok d =>
      simp only [except_bind_ok]
      split
      · exact prepend_set pre s path _
      · rfl
  · simp only [prepend_prepare, except_map_bind]
    cases dynamic_builder.prepare print s path _ with
    | error e => rfl
    | ok r =>
      simp only [except_bind_ok]
      exact prepend_append_atom pre r.1 path r.2 value

theorem prepend_dynamic_record (print : data_view2 → Option String) (pre : List typed_array)
    (s : series_builder_impl) (path : builder_path) :
    dynamic_builder.record print (s.prepend pre) path
      = (dynamic_builder.record print s path).map
          (fun (r : series_builder_impl × record_ref) => (r.1.prepend pre, r.2)) := by
  simp only [dynamic_builder.record, prepend_prepare, except_map_bind]
  cases dynamic_builder.prepare print s path .record with
  | error e => rfl
  | ok r =>
    simp only [except_bind_ok]
    exact prepend_append_record pre r.1 path r.2

theorem prepend_dynamic_list (print : data_view2 → Option String) (pre : List typed_array)
    (s : series_builder_impl) (path : builder_path) :
    dynamic_builder.list print (s.prepend pre) path
      = (dynamic_builder.list print s path).map
          (fun (r : series_builder_impl × builder_ref) => (r.1.prepend pre, r.2)) := by
  simp only [dynamic_builder.list, prepend_prepare, except_map_bind]
  cases dynamic_builder.prepare print s path .list with
  | error e => rfl
  | ok r =>
    simp only [except_bind_ok]
    exact prepend_append_list pre r.1 path r.2

theorem prepend_record_ref_get (pre : List typed_array) (s : series_builder_impl)
    (r : record_ref) : record_ref.get (s.prepend pre) r = record_ref.get s r := rfl

theorem prepend_record_ref_set (pre : List typed_array) (s : series_builder_impl)
    (r : record_ref) (d : dynamic_builder) (fields : List (String × dynamic_builder))
    (valid : List Bool) (len : Nat) (ka : Option String) :
    record_ref.set (s.prepend pre) r d fields valid len ka
      = (record_ref.set s r d fields valid len ka).map (series_builder_impl.prepend pre) :=
  prepend_set pre s _ _
theorem prepend_prepare_field (print : data_view2 → Option String) (pre : List typed_array)
    (s : series_builder_impl) (self : record_ref) (name : String) (T : target) :
    typed_builder.prepare_field print (s.prepend pre) self name T
      = (typed_builder.prepare_field print s self name T).map
          (fun (r : series_builder_impl × builder_path × Option Nat) =>
            (r.1.prepend pre, r.2)) := by
  simp only [typed_builder.prepare_field, prepend_record_ref_get]
  cases record_ref.get s self with
  | error e => rfl
  | ok g =>
    obtain ⟨d, fields, valid, len, ka⟩ := g
    simp only [except_bind_ok]
    by_cases hl : 1 ≤ len
    case neg =>
      split <;> simp only [ensure, if_neg hl, except_bind_error, except_map_error]
    simp only [ensure, if_pos hl, except_bind_ok]
    split
    · cases dynamic_builder.new.resize (len - 1) with
      | error e => rfl
      | ok builder =>
        simp only [except_bind_ok, prepend_record_ref_set]
        cases record_ref.set s self d (fields ++ [(name, builder)]) valid len ka with
        | error e => rfl
        | ok s1 =>
          simp only [except_map_ok, except_bind_ok, prepend_prepare]
          cases dynamic_builder.prepare print s1 (self.owner ++ [.field self.variant name]) T
            <;> rfl
    · rename_i builder _
      cases builder.resize (len - 1) with
      | error e => rfl
      | ok builder1 =>
        simp only [except_bind_ok]
        by_cases hk : ka = none
        · simp only [ensure, if_pos hk, except_bind_ok, prepend_record_ref_set]
          cases record_ref.set s self d (fields_set fields name builder1) valid len
            (some name) with
          | error e => rfl
          | ok s1 =>
            simp only [except_map_ok, except_bind_ok, prepend_prepare]
            cases dynamic_builder.prepare print s1
              (self.owner ++ [.field self.variant name]) T with
            | error e => rfl
            | ok r =>
              obtain ⟨s2, variant⟩ := r
              simp only [except_map_ok, except_bind_ok, prepend_record_ref_get]
              cases record_ref.get s2 self with
              | error e => rfl
              | ok g2 =>
                obtain ⟨d2, f2, v2, l2, k2⟩ := g2
                simp only [except_bind_ok, prepend_record_ref_set]
                cases record_ref.set s2 self d2 f2 v2 l2 none <;> rfl
        · simp only [ensure, if_neg hk, except_bind_error, except_map_error]

theorem prepend_field_atom (print : data_view2 → Option String) (pre : List typed_array)
    (s : series_builder_impl) (self : field_ref) (value : atom_view) :
    field_ref.atom print (s.prepend pre) self value
      = (field_ref.atom print s self value).map (series_builder_impl.prepend pre) := by
  simp only [field_ref.atom]
  split
  · simp only [prepend_record_ref_get]
    cases record_ref.get s self.origin_ with
    | error e => rfl
    | ok g =>
      obtain ⟨d, fields, valid, len, ka⟩ := g
      simp only [except_bind_ok]
      split
      · rename_i field _
        by_cases h1 : field.length ≤ len
        · simp only [ensure, if_pos h1, except_bind_ok]
          split
          · by_cases hl : 1 ≤ len
            case neg => simp only [if_neg hl, except_bind_error, except_map_error]
            simp only [if_pos hl, except_bind_ok]
            cases field.resize (len - 1) with
            | error e => rfl
            | ok field1 =>
              simp only [except_bind_ok]
              exact prepend_record_ref_set pre s _ _ _ _ _ _
          · rfl
        · simp only [ensure, if_neg h1, except_bind_error, except_map_error]
      · rfl
  · simp only [prepend_record_ref_get]
    cases record_ref.get s self.origin_ with
    | error e => rfl
    | ok g =>
      obtain ⟨d, fields, valid, len, ka⟩ := g
      simp only [except_bind_ok]
      split
      · rfl
      · rename_i builder _
        by_cases hl : 1 ≤ len
        case neg => simp only [ensure, if_neg hl, except_bind_error, except_map_error]
        simp only [ensure, if_pos hl, except_bind_ok]
        cases builder.resize (len - 1) with
        | error e => rfl
        | ok builder1 =>
          simp only [except_bind_ok, prepend_record_ref_set]
          cases record_ref.set s self.origin_ d (fields_set fields self.name_ builder1) valid
            len ka with
          | error e => rfl
          | ok s1 =>
            simp only [except_map_ok, except_bind_ok]
            exact prepend_dynamic_atom print pre s1 _ value
  · simp only [prepend_prepare_field, except_map_bind]
    cases typed_builder.prepare_field print s self.origin_ self.name_ _ with
    | error e => rfl
    | ok r =>
      simp only [except_bind_ok]
      exact prepend_append_atom pre r.1 r.2.1 r.2.2 value

theorem prepend_field_record (print : data_view2 → Option String) (pre : List typed_array)
    (s : series_builder_impl) (self : field_ref) :
    field_ref.record print (s.prepend pre) self
      = (field_ref.record print s self).map
          (fun (r : series_builder_impl × record_ref) => (r.1.prepend pre, r.2)) := by
  simp only [field_ref.record, prepend_prepare_field, except_map_bind]
  cases typed_builder.prepare_field print s self.origin_ self.name_ .record with
  | error e => rfl
  | ok r =>
    simp only [except_bind_ok]
    exact prepend_append_record pre r.1 r.2.1 r.2.2

theorem prepend_field_list (print : data_view2 → Option String) (pre : List typed_array)
    (s : series_builder_impl) (self : field_ref) :
    field_ref.list print (s.prepend pre) self
      = (field_ref.list print s self).map
          (fun (r : series_builder_impl × builder_ref) => (r.1.prepend pre, r.2)) := by
  simp only [field_ref.list, prepend_prepare_field, except_map_bind]
  cases typed_builder.prepare_field print s self.origin_ self.name_ .list with
  | error e => rfl
  | ok r =>
    simp only [except_bind_ok]
    exact prepend_append_list pre r.1 r.2.1 r.2.2

theorem prepend_finish_if_conflict (print : data_view2 → Option String)
    (pre : List typed_array) (s : series_builder_impl) :
    (s.prepend pre).finish_if_conflict print
      = (s.finish_if_conflict print).map (series_builder_impl.prepend pre) := by
  simp only [series_builder_impl.finish_if_conflict, series_builder_impl.prepend]
  split
  · cases s.builder_.finish_and_leave print 0 0 with
    | error e => rfl
    | ok r =>
      simp only [except_bind_ok, pure, Except.pure, except_map_ok, List.append_assoc]
      rfl
  · rfl

theorem prepend_builder_ref_atom (print : data_view2 → Option String) (pre : List typed_array)
    (s : series_builder_impl) (ref : builder_ref) (value : atom_view) :
    builder_ref.atom print (s.prepend pre) ref value
      = (builder_ref.atom print s ref value).map (series_builder_impl.prepend pre) := by
  cases ref with
  | series =>
    simp only [builder_ref.atom, series_builder.atom, series_builder_impl.atom,
      prepend_finish_if_conflict, except_map_bind]
    cases s.finish_if_conflict print with
    | error e => rfl
    | ok s1 =>
      simp only [except_bind_ok]
      exact prepend_dynamic_atom print pre s1 [] value
  | dynamic path => exact prepend_dynamic_atom print pre s path value
  | field f => exact prepend_field_atom print pre s f value

theorem prepend_builder_ref_record (print : data_view2 → Option String)
    (pre : List typed_array) (s : series_builder_impl) (ref : builder_ref) :
    builder_ref.record print (s.prepend pre) ref
      = (builder_ref.record print s ref).map
          (fun (r : series_builder_impl × record_ref) => (r.1.prepend pre, r.2)) := by
  cases ref with
  | series =>
    simp only [builder_ref.record, series_builder.record, series_builder_impl.record,
      prepend_finish_if_conflict, except_map_bind]
    cases s.finish_if_conflict print with
    | error e => rfl
    | ok s1 =>
      simp only [except_bind_ok]
      exact prepend_dynamic_record print pre s1 []
  | dynamic path => exact prepend_dynamic_record print pre s path
  | field f => exact prepend_field_record print pre s f

theorem prepend_builder_ref_list (print : data_view2 → Option String) (pre : List typed_array)
    (s : series_builder_impl) (ref : builder_ref) :
    builder_ref.list print (s.prepend pre) ref
      = (builder_ref.list print s ref).map
          (fun (r : series_builder_impl × builder_ref) => (r.1.prepend pre, r.2)) := by
  cases ref with
  | series =>
    simp only [builder_ref.list, series_builder.list, series_builder_impl.list,
      prepend_finish_if_conflict, except_map_bind]
    cases s.finish_if_conflict print with
    | error e => rfl
    | ok s1 =>
      simp only [except_bind_ok]
      exact prepend_dynamic_list print pre s1 []
  | dynamic path => exact prepend_dynamic_list print pre s path
  | field f => exact prepend_field_list print pre s f

theorem prepend_remove_last (pre : List typed_array) (s : series_builder_impl) :
    series_builder.remove_last (s.prepend pre)
      = (series_builder.remove_last s).map (series_builder_impl.prepend pre) := by
  simp only [series_builder.remove_last, series_builder_impl.remove_last,
    series_builder_impl.prepend]
  split
  · cases s.builder_.resize (s.builder_.length - 1) <;> rfl
  · rfl

theorem prepend_finish (print : data_view2 → Option String) (pre : List typed_array)
    (s : series_builder_impl) :
    series_builder.finish print (s.prepend pre)
      = (series_builder.finish print s).map
          (fun (r : List typed_array × series_builder_impl) => (pre ++ r.1, r.2)) := by
  simp only [series_builder.finish, series_builder_impl.finish, series_builder_impl.prepend]
  split
  · cases s.builder_.finish_and_leave print 0 0 with
    | error e => rfl
    | ok r =>
      simp only [except_bind_ok]
      by_cases h : r.2.length = 0
      · simp only [ensure, if_pos h, except_bind_ok, pure, Except.pure, except_map_ok,
          List.append_assoc]
      · simp only [ensure, if_neg h, except_bind_error, except_map_error]
  · rfl

theorem prepend_call_run (print : data_view2 → Option String) (pre : List typed_array)
    (s : series_builder_impl) (c : call) (hc : c ≠ .finish) :
    c.run print (s.prepend pre) = (c.run print s).map (series_builder_impl.prepend pre) := by
  cases c with
  | atom ref value => exact prepend_builder_ref_atom print pre s ref value
  | record ref =>
    simp only [call.run, prepend_builder_ref_record, except_map_map]
  | list ref =>
    simp only [call.run, prepend_builder_ref_list, except_map_map]
  | remove_last => exact prepend_remove_last pre s
  | finish => exact absurd rfl hc

theorem prepend_run_all (print : data_view2 → Option String) (pre : List typed_array)
    (calls : List call) (hc : ∀ c ∈ calls, c ≠ .finish) :
    ∀ s : series_builder_impl,
      run_all print (s.prepend pre) calls
        = (run_all print s calls).map (series_builder_impl.prepend pre) := by
  induction calls with
  | nil => intro s; rfl
  | cons c rest ih =>
    intro s
    simp only [run_all, List.foldlM_cons,
      prepend_call_run print pre s c (hc c (List.mem_cons_self _ _)), except_map_bind]
    cases c.run print s with
    | error e => rfl
    | ok s1 =>
      simp only [except_bind_ok]
      exact ih (fun c1 h1 => hc c1 (List.mem_cons_of_mem _ h1)) s1
theorem finish_validity_rest (valid valid1 : List Bool) (bitmap : Option (List Bool))
    (target : Nat) (h : finish_validity valid target = .ok (bitmap, valid1)) : valid1 = [] := by
  simp only [finish_validity] at h
  split at h
  · split at h
    · simp only [Except.ok.injEq, Prod.mk.injEq] at h
      exact h.2.symm
    · simp at h
  · rename_i hlen
    simp only [Except.ok.injEq, Prod.mk.injEq] at h
    rw [← h.2]
    exact List.length_eq_zero.mp (by omega)

mutual
theorem builder_base_finish_all_only_null (print : data_view2 → Option String) :
    (b : builder_base) → ∀ (grow : Nat) (a : typed_array) (b1 : builder_base),
      b.finish_and_leave print grow 0 = .ok (a, b1) → b1.only_null = true
  | .null n => by
    intro grow a b1 h
    simp only [builder_base.finish_and_leave] at h
    split at h
    · simp at h
    · simp only [pure, Except.pure, Except.ok.injEq, Prod.mk.injEq] at h
      obtain ⟨_, h2⟩ := h
      subst h2
      rfl
  | .atom t inner => by
    intro grow a b1 h
    simp only [builder_base.finish_and_leave] at h
    split at h
    · simp at h
    · simp only [pure, Except.pure, Except.ok.injEq, Prod.mk.injEq] at h
      obtain ⟨_, h2⟩ := h
      subst h2
      simp [builder_base.only_null]
  | .list offsets elements => by
    intro grow a b1 h
    simp only [builder_base.finish_and_leave, ensure_eq_ok, except_bind_eq_ok,
      except_pure_eq_ok] at h
    obtain ⟨_, _, _, _, ⟨used, el1⟩, _, result, _, h⟩ := h
    simp only [Prod.mk.injEq] at h
    obtain ⟨_, h2⟩ := h
    subst h2
    simp [builder_base.only_null]
  | .record fields valid len keep_alive => by
    intro grow a b1 h
    simp only [builder_base.finish_and_leave, ensure_eq_ok, except_bind_eq_ok,
      except_pure_eq_ok] at h
    obtain ⟨_, _, ⟨children, fields1⟩, _, ⟨bitmap, valid1⟩, hv, h⟩ := h
    simp only [Prod.mk.injEq] at h
    obtain ⟨_, h2⟩ := h
    subst h2
    have hvalid : valid1 = [] := finish_validity_rest _ _ _ _ hv
    subst hvalid
    simp [builder_base.only_null]
  | .conflict ds vs => by
    intro grow a b1 h
    simp only [builder_base.finish_and_leave, ensure_eq_ok, except_bind_eq_ok,
      except_pure_eq_ok, Nat.sub_zero, List.drop_length] at h
    obtain ⟨_, _, ⟨arrays, vs1⟩, hvs, strings, _, h⟩ := h
    simp only [Prod.mk.injEq] at h
    obtain ⟨_, h2⟩ := h
    subst h2
    simp only [builder_base.only_null]
    exact finish_variants_all_only_null print vs _ _ _ _ hvs
theorem finish_variants_all_only_null (print : data_view2 → Option String) :
    (vs : List builder_base) → ∀ (i grow : Nat) (arrays : List typed_array)
      (vs1 : List builder_base),
      finish_variants print vs i grow [] = .ok (arrays, vs1) → variants_only_null vs1 = true
  | [] => by
    intro i grow arrays vs1 h
    simp only [finish_variants, except_pure_eq_ok, Prod.mk.injEq] at h
    obtain ⟨_, h2⟩ := h
    subst h2
    rfl
  | v :: rest => by
    intro i grow arrays vs1 h
    simp only [finish_variants, except_bind_eq_ok, except_pure_eq_ok, List.count_nil] at h
    obtain ⟨⟨array, v1⟩, hv, ⟨arrays1, rest1⟩, hrest, h⟩ := h
    simp only [Prod.mk.injEq] at h
    obtain ⟨_, h2⟩ := h
    subst h2
    have ih1 := builder_base_finish_all_only_null print v _ _ _ hv
    have ih2 := finish_variants_all_only_null print rest _ _ _ _ hrest
    simp [variants_only_null, ih1, ih2]
end

/-- Finishing all rows of an unprotected builder that holds at least one row
leaves a fresh null builder (with the metadata of the builder). -/
theorem dynamic_builder_finish_all_resets (print : data_view2 → Option String)
    (b : builder_base) (m : tenzir.type) (a : typed_array) (d1 : dynamic_builder)
    (hlen : 0 < b.length)
    (h : (dynamic_builder.mk b false m).finish_and_leave print 0 0 = .ok (a, d1)) :
    d1 = .mk (.null 0) false m := by
  have h0 : ¬ (0 = b.length + 0) := by omega
  simp only [dynamic_builder.finish_and_leave, if_neg h0, ensure_eq_ok, except_bind_eq_ok,
    except_pure_eq_ok] at h
  obtain ⟨_, _, ⟨result, b1⟩, hr, _, _, h⟩ := h
  have hn := builder_base_finish_all_only_null print b 0 result b1 hr
  simp only [Prod.mk.injEq] at h
  obtain ⟨_, h2⟩ := h
  rw [← h2]
  simp [hn]
theorem finish_if_conflict_twice {α : Type} (print : data_view2 → Option String)
    (s : series_builder_impl) (f : series_builder_impl → Except abort α) :
    (s.finish_if_conflict print >>= fun s1 => s1.finish_if_conflict print >>= f)
      = (s.finish_if_conflict print >>= f) := by
  simp only [series_builder_impl.finish_if_conflict]
  split
  · cases s.builder_.finish_and_leave print 0 0 with
    | error e => rfl
    | ok r => rfl
  · rename_i h
    simp only [pure, Except.pure, except_bind_ok, h]
    rfl

theorem top_level_write_finishes_conflict (print : data_view2 → Option String)
    (s : series_builder_impl) (c : call) (hc : c.is_top_level_write = true) :
    c.run print s = (s.finish_if_conflict print >>= fun s1 => c.run print s1) := by
  cases c with
  | atom ref value =>
    cases ref with
    | series =>
      simp only [call.run, builder_ref.atom, series_builder.atom, series_builder_impl.atom]
      exact (finish_if_conflict_twice print s _).symm
    | dynamic path => simp [call.is_top_level_write] at hc
    | field f => simp [call.is_top_level_write] at hc
  | record ref =>
    cases ref with
    | series =>
      simp only [call.run, builder_ref.record, series_builder.record,
        series_builder_impl.record, except_bind_map]
      exact (finish_if_conflict_twice print s _).symm
    | dynamic path => simp [call.is_top_level_write] at hc
    | field f => simp [call.is_top_level_write] at hc
  | list ref =>
    cases ref with
    | series =>
      simp only [call.run, builder_ref.list, series_builder.list, series_builder_impl.list,
        except_bind_map]
      exact (finish_if_conflict_twice print s _).symm
    | dynamic path => simp [call.is_top_level_write] at hc
    | field f => simp [call.is_top_level_write] at hc
  | remove_last => simp [call.is_top_level_write] at hc
  | finish => simp [call.is_top_level_write] at hc

/-- C19: on a series whose conflict flag is set (a conflict builder was engaged
while the rows of its current builder were written), a top-level write and
the calls after it give at `finish()`: the batches cut earlier, then one
batch with all rows of the current builder, then exactly the batches that a
fresh series returns for the same calls. Both sides stop when one does. -/
theorem conflict_pending_starts_new_batch (print : data_view2 → Option String)
    (b : builder_base) (fin : List typed_array) (first : call) (rest : List call)
    (hlen : 0 < b.length) (hfirst : first.is_top_level_write = true)
    (hrest : ∀ c ∈ rest, c ≠ .finish) :
    (run_all print ⟨.mk b false .null, fin, true⟩ (first :: rest)
        >>= series_builder.finish print).map Prod.fst
      = ((dynamic_builder.mk b false .null).finish_and_leave print 0 0 >>= fun e1 =>
          (run_all print series_builder_impl.new (first :: rest)
            >>= series_builder.finish print).map (fun e2 => fin ++ [e1.1] ++ e2.1)) := by
  have hne : ∀ c ∈ first :: rest, c ≠ .finish := by
    intro c hc
    rcases List.mem_cons.mp hc with h | h
    · subst h
      intro h1
      rw [h1] at hfirst
      simp [call.is_top_level_write] at hfirst
    · exact hrest c h
  have hrun : run_all print ⟨.mk b false .null, fin, true⟩ (first :: rest)
      = ((⟨.mk b false .null, fin, true⟩ : series_builder_impl).finish_if_conflict print
          >>= fun s1 => run_all print s1 (first :: rest)) := by
    simp only [run_all, List.foldlM_cons]
    rw [top_level_write_finishes_conflict print _ first hfirst]
    cases (⟨.mk b false .null, fin, true⟩ : series_builder_impl).finish_if_conflict print
      <;> rfl
  rw [hrun]
  simp only [series_builder_impl.finish_if_conflict, if_true]
  cases hfl : (dynamic_builder.mk b false .null).finish_and_leave print 0 0 with
  | error e => rfl
  | ok r =>
    obtain ⟨a, d1⟩ := r
    have hd := dynamic_builder_finish_all_resets print b .null a d1 hlen hfl
    subst hd
    have hs : (⟨.mk (.null 0) false .null, fin ++ [a], false⟩ : series_builder_impl)
        = series_builder_impl.new.prepend (fin ++ [a]) := by
      simp [series_builder_impl.prepend, series_builder_impl.new, dynamic_builder.new]
    simp only [except_bind_ok, pure, Except.pure, hs,
      prepend_run_all print (fin ++ [a]) (first :: rest) hne, except_map_bind]
    cases run_all print series_builder_impl.new (first :: rest) with
    | error e => rfl
    | ok s2 =>
      simp only [except_bind_ok, prepend_finish, except_map_map]

theorem conflict_pending_starts_new_batch_witness :
    write_list_field (fun _ => some "") series_builder_impl.new "xs" [.int64 1, .string "hi"]
      = .ok ⟨.mk (.record [("xs", .mk (.list [(0, true)] (.mk (.conflict [0, 1]
          [.atom (.basic .int64) [some (.int64 1)],
           .atom (.basic .string) [some (.string "hi")]]) false .null)) false .null)]
          [] 1 none) false .null, [], true⟩
    ∧ 0 < builder_base.length (.record [("xs", .mk (.list [(0, true)] (.mk (.conflict [0, 1]
          [.atom (.basic .int64) [some (.int64 1)],
           .atom (.basic .string) [some (.string "hi")]]) false .null)) false .null)]
          [] 1 none)
    ∧ (call.record .series).is_top_level_write = true
    ∧ (∀ c ∈ ([.atom (.field ⟨⟨[], none⟩, "x"⟩) (.string "a")] : List call), c ≠ .finish)
    ∧ (run_all (fun _ => some "") ⟨.mk (.record [("xs", .mk (.list [(0, true)] (.mk (.conflict [0, 1]
          [.atom (.basic .int64) [some (.int64 1)],
           .atom (.basic .string) [some (.string "hi")]]) false .null)) false .null)]
          [] 1 none) false .null, [], true⟩ (.record .series :: [.atom (.field ⟨⟨[], none⟩, "x"⟩) (.string "a")])
        >>= series_builder.finish (fun _ => some "")).map Prod.fst
      = ((dynamic_builder.mk (.record [("xs", .mk (.list [(0, true)] (.mk (.conflict [0, 1]
          [.atom (.basic .int64) [some (.int64 1)],
           .atom (.basic .string) [some (.string "hi")]]) false .null)) false .null)]
          [] 1 none) false .null).finish_and_leave (fun _ => some "") 0 0 >>= fun e1 =>
          (run_all (fun _ => some "") series_builder_impl.new (.record .series :: [.atom (.field ⟨⟨[], none⟩, "x"⟩) (.string "a")])
            >>= series_builder.finish (fun _ => some "")).map (fun e2 => [] ++ [e1.1] ++ e2.1)) :=
  ⟨rfl, by decide, rfl, by decide,
    conflict_pending_starts_new_batch (fun _ => some "") (.record [("xs", .mk (.list [(0, true)] (.mk (.conflict [0, 1]
          [.atom (.basic .int64) [some (.int64 1)],
           .atom (.basic .string) [some (.string "hi")]]) false .null)) false .null)]
          [] 1 none) [] (.record .series) [.atom (.field ⟨⟨[], none⟩, "x"⟩) (.string "a")]
      (by decide) rfl (by decide)⟩
/-! ## Record events with scalars and nulls -/

/-- Writing null into a field of a record at top level whose fields all hold
scalars. -/
theorem null_atom_fields (print : data_view2 → Option String)
    (cols : List (String × basic_kind × List (Option atom_view))) (len : Nat)
    (fin : List typed_array) (name : String)
    (hnodup : (cols.map Prod.fst).Nodup) (hlen : ∀ c ∈ cols, c.2.2.length ≤ len)
    (hpos : 1 ≤ len) :
    field_ref.atom print
        ⟨.mk (.record (atom_fields cols) [] len none) false .null, fin, false⟩
        ⟨⟨[], none⟩, name⟩ .null
      = .ok ⟨.mk (.record (atom_fields (null_column cols len name)) [] len none) false .null,
          fin, false⟩ := by
  cases hany : cols.any (fun c => c.1 = name) with
  | false =>
    have hsame : null_column cols len name = cols := by
      unfold null_column
      conv => rhs; rw [← List.map_id cols]
      apply List.map_congr_left
      intro c hc
      have : ¬ c.1 = name := by
        intro h
        have := (any_name_iff cols name).mpr (List.mem_map.mpr ⟨c, hc, h⟩)
        rw [hany] at this
        exact Bool.noConfusion this
      simp [this]
    simp only [field_ref.atom, atom_view_to_type_t, record_ref_get_root, except_bind_ok,
      fields_find_atom_fields_none cols name hany, hsame, pure, Except.pure]
  | true =>
    obtain ⟨k, slots, hf, hm⟩ := fields_find_atom_fields_some cols name hany
    have hs := hlen _ hm
    simp only at hs
    have hkinds : ∀ c ∈ cols, c.1 = name → c.2.1 = k := by
      intro c hc hcn
      have := unique_column cols hnodup c (name, k, slots) hc hm hcn
      rw [this]
    by_cases heq : slots.length = len
    · have hcols : null_column cols len name
          = cols.map (fun c => if c.1 = name then (c.1, c.2.1, resized slots (len - 1))
              else c) := by
        unfold null_column
        apply List.map_congr_left
        intro c hc
        by_cases hcn : c.1 = name
        · have := unique_column cols hnodup c (name, k, slots) hc hm hcn
          subst this
          simp [heq]
        · simp [hcn]
      simp only [field_ref.atom, atom_view_to_type_t, record_ref_get_root, except_bind_ok, hf,
        dynamic_builder.length, dynamic_builder.builder_, builder_base.length, ensure_true hs,
        heq, if_true, atom_resize, record_ref_set_root, ensure_true (Nat.le_refl len),
        ensure_true hpos,
        fields_set_atom_fields cols name k _ hkinds, hcols]
    · have hsame : null_column cols len name = cols := by
        unfold null_column
        conv => rhs; rw [← List.map_id cols]
        apply List.map_congr_left
        intro c hc
        by_cases hcn : c.1 = name
        · have := unique_column cols hnodup c (name, k, slots) hc hm hcn
          subst this
          simp [heq]
        · simp [hcn]
      simp only [field_ref.atom, atom_view_to_type_t, record_ref_get_root, except_bind_ok, hf,
        dynamic_builder.length, dynamic_builder.builder_, builder_base.length, ensure_true hs,
        heq, if_false, hsame, pure, Except.pure]
theorem null_column_names (cols : List (String × basic_kind × List (Option atom_view)))
    (len : Nat) (name : String) :
    (null_column cols len name).map Prod.fst = cols.map Prod.fst := by
  unfold null_column
  rw [List.map_map]
  apply List.map_congr_left
  intro c _
  by_cases h : c.1 = name ∧ c.2.2.length = len <;> simp [h]

theorem null_column_mem (cols : List (String × basic_kind × List (Option atom_view)))
    (len : Nat) (name : String) (c : String × basic_kind × List (Option atom_view))
    (hc : c ∈ null_column cols len name) :
    ∃ d ∈ cols, c.1 = d.1 ∧ c.2.1 = d.2.1 ∧ c.2.2.length ≤ d.2.2.length := by
  unfold null_column at hc
  obtain ⟨d, hd, h⟩ := List.mem_map.mp hc
  refine ⟨d, hd, ?_⟩
  by_cases hcond : d.1 = name ∧ d.2.2.length = len
  · rw [if_pos hcond] at h
    subst h
    refine ⟨rfl, rfl, ?_⟩
    simp only [resized, List.length_take, List.length_append, List.length_replicate]
    omega
  · rw [if_neg hcond] at h
    subst h
    exact ⟨rfl, rfl, Nat.le_refl _⟩

theorem write_column_mem (cols : List (String × basic_kind × List (Option atom_view)))
    (len : Nat) (name : String) (k : basic_kind) (v : atom_view)
    (c : String × basic_kind × List (Option atom_view))
    (hc : c ∈ write_column cols (len + 1) name k v) :
    (c.1 = name ∧ c.2.1 = k ∧ c.2.2.length = len + 1 ∧ ¬ name ∈ cols.map Prod.fst)
    ∨ ∃ d ∈ cols, c.1 = d.1 ∧ c.2.1 = d.2.1
        ∧ (c.2.2.length = len + 1 ∨ c.2.2 = d.2.2) := by
  unfold write_column at hc
  split at hc
  · obtain ⟨d, hd, h⟩ := List.mem_map.mp hc
    right
    refine ⟨d, hd, ?_⟩
    by_cases hcond : d.1 = name
    · rw [if_pos hcond] at h
      subst h
      refine ⟨rfl, rfl, Or.inl ?_⟩
      simp only [resized, List.length_append, List.length_take, List.length_replicate,
        List.length_singleton, Nat.add_sub_cancel]
      omega
    · rw [if_neg hcond] at h
      subst h
      exact ⟨rfl, rfl, Or.inr rfl⟩
  · rename_i hany
    rcases List.mem_append.mp hc with h | h
    · exact Or.inr ⟨c, h, rfl, rfl, Or.inr rfl⟩
    · left
      simp only [List.mem_singleton] at h
      subst h
      refine ⟨rfl, rfl, by simp, ?_⟩
      intro hmem
      exact hany ((any_name_iff cols name).mpr hmem)

/-- The fields of a record builder of length `len` at top level that has
received scalars and nulls: the names are `names`, without repetition;
every field has the kind of its name and no more slots than `len`. -/
theorem write_values_step (print : data_view2 → Option String)
    (kind_of : String → basic_kind) (fin : List typed_array) (len : Nat)
    (ws : List (String × atom_view)) :
    ∀ (cols : List (String × basic_kind × List (Option atom_view))),
      (cols.map Prod.fst).Nodup →
      (∀ c ∈ cols, c.2.1 = kind_of c.1 ∧ c.2.2.length ≤ len + 1) →
      (∀ w ∈ ws, w.2 = .null ∨ atom_view_to_type_t w.2 = .basic (kind_of w.1)) →
      ∃ cols1,
        ws.foldlM (fun s f => builder_ref.atom print s
            (record_ref.field ⟨[], none⟩ f.1) f.2)
          ⟨.mk (.record (atom_fields cols) [] (len + 1) none) false .null, fin, false⟩
          = .ok ⟨.mk (.record (atom_fields cols1) [] (len + 1) none) false .null, fin, false⟩
        ∧ cols1.map Prod.fst = ws.foldl add_written (cols.map Prod.fst)
        ∧ (cols1.map Prod.fst).Nodup
        ∧ ∀ c ∈ cols1, c.2.1 = kind_of c.1 ∧ c.2.2.length ≤ len + 1 := by
  induction ws with
  | nil =>
    intro cols hn hc _
    exact ⟨cols, rfl, rfl, hn, hc⟩
  | cons w rest ih =>
    intro cols hn hc hk
    rcases hk w (List.mem_cons_self _ _) with hw | hw
    · have hstep := null_atom_fields print cols (len + 1) fin w.1 hn (fun c h => (hc c h).2)
        (Nat.le_add_left 1 len)
      have hn1 : ((null_column cols (len + 1) w.1).map Prod.fst).Nodup := by
        rw [null_column_names]; exact hn
      have hc1 : ∀ c ∈ null_column cols (len + 1) w.1,
          c.2.1 = kind_of c.1 ∧ c.2.2.length ≤ len + 1 := by
        intro c hcm
        obtain ⟨d, hd, h1, h2, h3⟩ := null_column_mem cols (len + 1) w.1 c hcm
        have := hc d hd
        exact ⟨by rw [h1, h2]; exact this.1, Nat.le_trans h3 this.2⟩
      obtain ⟨cols1, hrun, hnames, hnd, hcs⟩ := ih _ hn1 hc1
        (fun u hu => hk u (List.mem_cons_of_mem _ hu))
      refine ⟨cols1, ?_, ?_, hnd, hcs⟩
      · simp only [List.foldlM_cons, record_ref.field, builder_ref.atom]
        rw [hw, hstep]
        simpa [record_ref.field, builder_ref.atom] using hrun
      · rw [hnames, null_column_names]
        simp [List.foldl_cons, add_written, hw]
    · have hne : w.2 ≠ .null := atom_view_ne_null_of_basic w.2 _ hw
      have hstep := write_atom_fields print cols len fin w.1 (kind_of w.1) w.2 hw hn
        (fun c hcm hcf => by rw [(hc c hcm).1, hcf])
      have hn1 : ((write_column cols (len + 1) w.1 (kind_of w.1) w.2).map Prod.fst).Nodup := by
        rw [write_column_names]; exact add_name_nodup _ _ hn
      have hc1 : ∀ c ∈ write_column cols (len + 1) w.1 (kind_of w.1) w.2,
          c.2.1 = kind_of c.1 ∧ c.2.2.length ≤ len + 1 := by
        intro c hcm
        rcases write_column_mem cols len w.1 (kind_of w.1) w.2 c hcm with
          ⟨h1, h2, h3, _⟩ | ⟨d, hd, h1, h2, h3⟩
        · exact ⟨by rw [h1, h2], by omega⟩
        · have := hc d hd
          refine ⟨by rw [h1, h2]; exact this.1, ?_⟩
          rcases h3 with h3 | h3
          · omega
          · rw [h3]; exact this.2
      obtain ⟨cols1, hrun, hnames, hnd, hcs⟩ := ih _ hn1 hc1
        (fun u hu => hk u (List.mem_cons_of_mem _ hu))
      refine ⟨cols1, ?_, ?_, hnd, hcs⟩
      · simp only [List.foldlM_cons, record_ref.field, builder_ref.atom, hstep, except_bind_ok]
        simpa [record_ref.field, builder_ref.atom] using hrun
      · rw [hnames, write_column_names]
        simp [List.foldl_cons, add_written, hne]

theorem write_events_step (print : data_view2 → Option String)
    (kind_of : String → basic_kind) (fin : List typed_array)
    (events : List (List (String × atom_view))) :
    ∀ (len : Nat) (cols : List (String × basic_kind × List (Option atom_view))),
      (cols.map Prod.fst).Nodup →
      (∀ c ∈ cols, c.2.1 = kind_of c.1 ∧ c.2.2.length ≤ len) →
      (∀ e ∈ events, ∀ w ∈ e, w.2 = .null ∨ atom_view_to_type_t w.2 = .basic (kind_of w.1)) →
      ∃ cols1,
        write_records print
            ⟨.mk (.record (atom_fields cols) [] len none) false .null, fin, false⟩ events
          = .ok ⟨.mk (.record (atom_fields cols1) [] (len + events.length) none) false .null,
              fin, false⟩
        ∧ cols1.map Prod.fst = events.flatten.foldl add_written (cols.map Prod.fst)
        ∧ (cols1.map Prod.fst).Nodup
        ∧ ∀ c ∈ cols1, c.2.1 = kind_of c.1 ∧ c.2.2.length ≤ len + events.length := by
  induction events with
  | nil =>
    intro len cols hn hc _
    exact ⟨cols, by simp [write_records, pure, Except.pure], rfl, hn, hc⟩
  | cons e rest ih =>
    intro len cols hn hc hk
    obtain ⟨cols1, hrun1, hnames1, hn1, hc1⟩ := write_values_step print kind_of fin len e cols hn
      (fun c h => ⟨(hc c h).1, Nat.le_succ_of_le (hc c h).2⟩) (hk e (List.mem_cons_self _ _))
    obtain ⟨cols2, hrun2, hnames2, hn2, hc2⟩ := ih (len + 1) cols1 hn1 hc1
      (fun e1 he1 => hk e1 (List.mem_cons_of_mem _ he1))
    have e1 : len + 1 + rest.length = len + (rest.length + 1) := by omega
    refine ⟨cols2, ?_, ?_, hn2, ?_⟩
    · simp only [write_records, List.foldlM_cons, write_record, record_on_record,
        except_bind_ok, hrun1, List.length_cons]
      rw [← e1]
      simpa [write_records] using hrun2
    · rw [hnames2, hnames1]
      simp [List.flatten_cons, List.foldl_append]
    · simpa [List.length_cons, e1] using hc2

theorem mem_foldl_add_written (l : List (String × atom_view)) :
    ∀ (acc : List String) (name : String),
      name ∈ l.foldl add_written acc ↔ name ∈ acc ∨ ∃ w ∈ l, w.1 = name ∧ w.2 ≠ .null := by
  induction l with
  | nil => intro acc name; simp
  | cons a rest ih =>
    intro acc name
    simp only [List.foldl_cons, ih, List.mem_cons, exists_eq_or_imp]
    unfold add_written
    by_cases ha : a.2 = .null
    · simp [ha]
    · simp only [ha, if_false, ne_eq, not_false_eq_true, and_true]
      unfold add_name
      split
      · rename_i hmem
        constructor
        · rintro (h | h)
          · exact Or.inl h
          · exact Or.inr (Or.inr h)
        · rintro (h | h | h)
          · exact Or.inl h
          · subst h; exact Or.inl hmem
          · exact Or.inr h
      · simp only [List.mem_append, List.mem_singleton]
        constructor
        · rintro ((h | h) | h)
          · exact Or.inl h
          · exact Or.inr (Or.inl h.symm)
          · exact Or.inr (Or.inr h)
        · rintro (h | h | h)
          · exact Or.inl (Or.inl h)
          · exact Or.inl (Or.inr h.symm)
          · exact Or.inr h

/-- Record events whose fields are written with scalars or nulls, every
field name with one kind, finish as one batch whose type lists exactly the
fields that were written with a value other than null at least once, in the
order of the first such write: a field that is only ever written with
`atom(null)` is not in the type, every other written field is. -/
theorem flat_record_events_batch_type (print : data_view2 → Option String)
    (kind_of : String → basic_kind) (events : List (List (String × atom_view)))
    (hne : events ≠ [])
    (hk : ∀ e ∈ events, ∀ w ∈ e,
      w.2 = .null ∨ atom_view_to_type_t w.2 = .basic (kind_of w.1)) :
    ∃ s batch s1,
      write_records print series_builder_impl.new events = .ok s
      ∧ series_builder.finish print s = .ok ([batch], s1)
      ∧ batch.type = .record ((written_names events).map (fun f => (f, .basic (kind_of f))))
      ∧ ∀ b, b ∈ written_names events ↔ ∃ e ∈ events, ∃ w ∈ e, w.1 = b ∧ w.2 ≠ .null := by
  cases events with
  | nil => exact absurd rfl hne
  | cons e0 rest =>
    have h0 : write_record print series_builder_impl.new e0
        = e0.foldlM (fun s f => builder_ref.atom print s (record_ref.field ⟨[], none⟩ f.1) f.2)
          ⟨.mk (.record (atom_fields []) [] (0 + 1) none) false .null, [], false⟩ := by
      simp only [write_record, series_builder_impl.new, dynamic_builder.new, record_on_nulls,
        except_bind_ok, List.replicate_zero, Nat.zero_add]
      rfl
    obtain ⟨cols1, hrun1, hnames1, hn1, hc1⟩ := write_values_step print kind_of [] 0 e0 []
      List.nodup_nil (fun c h => absurd h (List.not_mem_nil c)) (hk e0 (List.mem_cons_self _ _))
    obtain ⟨cols2, hrun2, hnames2, hn2, hc2⟩ := write_events_step print kind_of [] rest 1 cols1
      hn1 (by simpa using hc1) (fun e he => hk e (List.mem_cons_of_mem _ he))
    have hlen : 0 < 1 + rest.length := by omega
    have hfin := finish_atom_record print (1 + rest.length) hlen cols2 (fun c hc => (hc2 c hc).2)
    have hnames : cols2.map Prod.fst = written_names (e0 :: rest) := by
      rw [hnames2, hnames1]
      simp [written_names, List.flatten_cons, List.foldl_append]
    refine ⟨_, _, _, ?_, hfin, ?_, ?_⟩
    · simp only [write_records, List.foldlM_cons, h0, hrun1, except_bind_ok]
      simpa [write_records] using hrun2
    · simp only
      rw [← hnames, List.map_map]
      congr 1
      apply List.map_congr_left
      intro c hc
      simp [(hc2 c hc).1]
    · intro b
      simp only [written_names, mem_foldl_add_written, List.not_mem_nil, false_or,
        List.mem_flatten]
      constructor
      · rintro ⟨w, ⟨e, he, hw⟩, h⟩
        exact ⟨e, he, w, hw, h⟩
      · rintro ⟨e, he, w, hw, h⟩
        exact ⟨w, ⟨e, he, hw⟩, h⟩

theorem flat_record_events_batch_type_witness :
    ([[("a", atom_view.int64 1), ("b", .null)], [("a", .int64 2), ("b", .null)]]
        ≠ ([] : List (List (String × atom_view))))
    ∧ (∀ e ∈ [[("a", atom_view.int64 1), ("b", .null)], [("a", .int64 2), ("b", .null)]],
        ∀ w ∈ e, w.2 = .null
          ∨ atom_view_to_type_t w.2 = .basic ((fun _ => basic_kind.int64) w.1))
    ∧ ∃ s batch s1,
      write_records (fun _ => none) series_builder_impl.new
          [[("a", .int64 1), ("b", .null)], [("a", .int64 2), ("b", .null)]] = .ok s
      ∧ series_builder.finish (fun _ => none) s = .ok ([batch], s1)
      ∧ batch.type = .record
          ((written_names [[("a", .int64 1), ("b", .null)], [("a", .int64 2), ("b", .null)]]).map
            (fun f => (f, .basic ((fun _ => basic_kind.int64) f))))
      ∧ ∀ b,
        b ∈ written_names [[("a", .int64 1), ("b", .null)], [("a", .int64 2), ("b", .null)]]
          ↔ ∃ e ∈ [[("a", atom_view.int64 1), ("b", .null)], [("a", .int64 2), ("b", .null)]],
            ∃ w ∈ e, w.1 = b ∧ w.2 ≠ .null :=
  ⟨by simp, by decide,
    flat_record_events_batch_type (fun _ => none) (fun _ => basic_kind.int64)
      [[("a", .int64 1), ("b", .null)], [("a", .int64 2), ("b", .null)]] (by simp) (by decide)⟩
/-! ## Protected builders keep the shape of their type -/

theorem type_strip_strip : (ty : tenzir.type) → ty.strip.strip = ty.strip
  | .null => rfl
  | .basic _ => rfl
  | .enumeration _ => rfl
  | .list _ => rfl
  | .map _ _ => rfl
  | .record _ => rfl
  | .enriched _ _ t => by
    simp only [type.strip]
    exact type_strip_strip t

theorem type_wrap_layers_strip : (ty : tenzir.type) → type.wrap ty.layers ty.strip = ty
  | .null => rfl
  | .basic _ => rfl
  | .enumeration _ => rfl
  | .list _ => rfl
  | .map _ _ => rfl
  | .record _ => rfl
  | .enriched n as t => by
    simp only [type.layers, type.strip, type.wrap]
    rw [type_wrap_layers_strip t]

theorem type_strip_wrap (ls : List (String × List (String × String))) (ty : tenzir.type) :
    (type.wrap ls ty).strip = ty.strip := by
  induction ls with
  | nil => rfl
  | cons l rest ih =>
    obtain ⟨n, as⟩ := l
    simp only [type.wrap, type.strip]
    exact ih

theorem assign_metadata_of_strip (t ty : tenzir.type) (h : t.strip = ty.strip) :
    t.assign_metadata ty = ty := by
  simp only [type.assign_metadata, h]
  exact type_wrap_layers_strip ty

mutual
theorem builder_base_conforms_type :
    (b : builder_base) → ∀ (ty : tenzir.type), b.conforms ty → b.type = ty.strip
  | .null _ => by intro ty h; simp [builder_base.conforms] at h
  | .atom t _ => by
    intro ty h
    simp only [builder_base.conforms] at h
    simp [builder_base.type, h]
  | .list _ elements => by
    intro ty h
    simp only [builder_base.conforms] at h
    obtain ⟨t, ht, hel⟩ := h
    simp only [builder_base.type, ht, dynamic_builder_conforms_type elements t hel]
  | .record fields _ _ _ => by
    intro ty h
    simp only [builder_base.conforms] at h
    obtain ⟨fs, ht, hf, _⟩ := h
    simp only [builder_base.type, ht, fields_conform_type fields fs hf]
  | .conflict _ _ => by intro ty h; simp [builder_base.conforms] at h
theorem dynamic_builder_conforms_type :
    (d : dynamic_builder) → ∀ (ty : tenzir.type), d.conforms ty → d.type = ty
  | .mk b p m => by
    intro ty h
    simp only [dynamic_builder.conforms] at h
    obtain ⟨_, hm, hb⟩ := h
    subst hm
    have := builder_base_conforms_type b m hb
    simp only [dynamic_builder.type]
    apply assign_metadata_of_strip
    rw [this, type_strip_strip]
theorem fields_conform_type :
    (fields : List (String × dynamic_builder)) → ∀ (fs : List (String × tenzir.type)),
      fields_conform fields fs → fields_type fields = fs
  | [] => by
    intro fs h
    simp only [fields_conform] at h
    subst h; rfl
  | (name, d) :: rest => by
    intro fs h
    simp only [fields_conform] at h
    obtain ⟨t, fs1, hfs, hd, hrest⟩ := h
    subst hfs
    simp only [fields_type, dynamic_builder_conforms_type d t hd,
      fields_conform_type rest fs1 hrest]
end
mutual
theorem builder_base_resize_conforms :
    (b : builder_base) → ∀ (ty : tenzir.type) (n : Nat) (b1 : builder_base),
      b.conforms ty → b.resize n = .ok b1 → b1.conforms ty
  | .null _ => by intro ty n b1 h; simp [builder_base.conforms] at h
  | .atom t inner => by
    intro ty n b1 h hr
    simp only [builder_base.resize] at hr
    split at hr
    · simp only [except_pure_eq_ok] at hr
      subst hr; exact h
    · split at hr
      · simp only [except_pure_eq_ok] at hr
        subst hr; exact h
      · simp only [except_pure_eq_ok] at hr
        subst hr; exact h
  | .list offsets elements => by
    intro ty n b1 h hr
    simp only [builder_base.conforms] at h
    obtain ⟨t, ht, hel⟩ := h
    simp only [builder_base.resize] at hr
    split at hr
    · simp only [except_bind_eq_ok, except_pure_eq_ok] at hr
      obtain ⟨el1, hel1, hr⟩ := hr
      subst hr
      simp only [builder_base.conforms]
      exact ⟨t, ht, dynamic_builder_resize_conforms elements t _ el1 hel hel1⟩
    · split at hr
      · simp only [except_pure_eq_ok] at hr
        subst hr
        simp only [builder_base.conforms]
        exact ⟨t, ht, hel⟩
      · simp only [except_pure_eq_ok] at hr
        subst hr
        simp only [builder_base.conforms]
        exact ⟨t, ht, hel⟩
  | .record fields valid len ka => by
    intro ty n b1 h hr
    simp only [builder_base.conforms] at h
    obtain ⟨fs, ht, hf, hnd⟩ := h
    simp only [builder_base.resize] at hr
    split at hr
    · simp only [except_bind_eq_ok, except_pure_eq_ok] at hr
      obtain ⟨fields1, hf1, hr⟩ := hr
      subst hr
      have := resize_fields_conforms fields fs n fields1 hf hf1
      simp only [builder_base.conforms]
      exact ⟨fs, ht, this.1, by rw [this.2]; exact hnd⟩
    · split at hr
      · simp only [except_pure_eq_ok] at hr
        subst hr
        simp only [builder_base.conforms]
        exact ⟨fs, ht, hf, hnd⟩
      · simp only [except_pure_eq_ok] at hr
        subst hr
        simp only [builder_base.conforms]
        exact ⟨fs, ht, hf, hnd⟩
  | .conflict _ _ => by intro ty n b1 h; simp [builder_base.conforms] at h
theorem dynamic_builder_resize_conforms :
    (d : dynamic_builder) → ∀ (ty : tenzir.type) (n : Nat) (d1 : dynamic_builder),
      d.conforms ty → d.resize n = .ok d1 → d1.conforms ty
  | .mk b p m => by
    intro ty n d1 h hr
    simp only [dynamic_builder.conforms] at h
    obtain ⟨hp, hm, hb⟩ := h
    simp only [dynamic_builder.resize, except_bind_eq_ok, except_pure_eq_ok] at hr
    obtain ⟨b1, hb1, hr⟩ := hr
    subst hr
    simp only [dynamic_builder.conforms]
    exact ⟨hp, hm, builder_base_resize_conforms b ty n b1 hb hb1⟩
theorem resize_fields_conforms :
    (fields : List (String × dynamic_builder)) → ∀ (fs : List (String × tenzir.type)) (n : Nat)
      (fields1 : List (String × dynamic_builder)),
      fields_conform fields fs → resize_fields fields n = .ok fields1 →
      fields_conform fields1 fs ∧ fields1.map Prod.fst = fields.map Prod.fst
  | [] => by
    intro fs n fields1 h hr
    simp only [resize_fields, except_pure_eq_ok] at hr
    subst hr
    exact ⟨h, rfl⟩
  | (name, d) :: rest => by
    intro fs n fields1 h hr
    simp only [fields_conform] at h
    obtain ⟨t, fs1, hfs, hd, hrest⟩ := h
    simp only [resize_fields, except_bind_eq_ok, except_pure_eq_ok] at hr
    obtain ⟨d1, hd1, rest1, hrest1, hr⟩ := hr
    subst hr
    have ih := resize_fields_conforms rest fs1 n rest1 hrest hrest1
    have hd1c : d1.conforms t := by
      split at hd1
      · exact dynamic_builder_resize_conforms d t n d1 hd hd1
      · simp only [except_pure_eq_ok] at hd1
        subst hd1; exact hd
    simp only [fields_conform, List.map_cons, ih.2, and_true]
    exact ⟨t, fs1, hfs, hd1c, ih.1⟩
end
theorem fields_find_none_of_not_mem (fs : List (String × dynamic_builder)) (name : String)
    (h : ¬ name ∈ fs.map Prod.fst) : fields_find fs name = none := by
  induction fs with
  | nil => rfl
  | cons f rest ih =>
    obtain ⟨n, d⟩ := f
    simp only [List.map_cons, List.mem_cons, not_or] at h
    rw [fields_find_cons, if_neg h.1]
    exact ih h.2

theorem fields_set_names (fs : List (String × dynamic_builder)) (name : String)
    (b : dynamic_builder) : (fields_set fs name b).map Prod.fst = fs.map Prod.fst := by
  induction fs with
  | nil => rfl
  | cons f rest ih =>
    obtain ⟨n, d⟩ := f
    rw [fields_set_cons]
    by_cases hn : n = name <;> simp [hn, ih]

theorem fields_find_conform (fields : List (String × dynamic_builder)) :
    ∀ (fs : List (String × tenzir.type)) (name : String) (c : dynamic_builder),
      fields_conform fields fs → (fields.map Prod.fst).Nodup →
      fields_find fields name = some c →
      ∃ t, c.conforms t
        ∧ ∀ c1 : dynamic_builder, c1.conforms t → fields_conform (fields_set fields name c1) fs := by
  induction fields with
  | nil => intro fs name c _ _ h; simp [fields_find_nil] at h
  | cons f rest ih =>
    obtain ⟨n, d⟩ := f
    intro fs name c hf hnd h
    simp only [fields_conform] at hf
    obtain ⟨t, fs1, hfs, hd, hrest⟩ := hf
    simp only [List.map_cons, List.nodup_cons] at hnd
    rw [fields_find_cons] at h
    by_cases hn : name = n
    · subst hn
      simp only [if_true, Option.some.injEq] at h
      subst h
      refine ⟨t, hd, ?_⟩
      intro c1 hc1
      rw [fields_set_cons, if_pos rfl, fields_set_absent rest name c1
        (fields_find_none_of_not_mem rest name hnd.1)]
      simp only [fields_conform]
      exact ⟨t, fs1, hfs, hc1, hrest⟩
    · rw [if_neg hn] at h
      obtain ⟨t1, hc, hset⟩ := ih fs1 name c hrest hnd.2 h
      refine ⟨t1, hc, ?_⟩
      intro c1 hc1
      have hn1 : ¬ n = name := fun e => hn e.symm
      rw [fields_set_cons, if_neg hn1]
      simp only [fields_conform]
      exact ⟨t, fs1, hfs, hd, hset c1 hc1⟩

/-- In a tree of protected builders that conforms to `T`, a pointer designates a
dynamic builder that conforms to a type, and storing a builder that conforms
to this type through the pointer keeps the tree conforming to `T`. -/
theorem dynamic_builder_get_conforms (path : builder_path) :
    ∀ (root : dynamic_builder) (T : tenzir.type) (d : dynamic_builder),
      root.conforms T → root.get path = .ok d →
      ∃ ty, d.conforms ty
        ∧ ∀ (d1 r : dynamic_builder), d1.conforms ty → root.set path d1 = .ok r →
            r.conforms T := by
  induction path with
  | nil =>
    intro root T d h hg
    simp only [dynamic_builder.get, except_pure_eq_ok] at hg
    subst hg
    refine ⟨T, h, ?_⟩
    intro d1 r hd1 hs
    simp only [dynamic_builder.set, except_pure_eq_ok] at hs
    subst hs; exact hd1
  | cons step rest ih =>
    intro root T d h hg
    obtain ⟨b, p, m⟩ := root
    simp only [dynamic_builder.conforms] at h
    obtain ⟨hp, hm, hb⟩ := h
    subst hp hm
    cases b with
    | null n => simp [builder_base.conforms] at hb
    | conflict ds vs => simp [builder_base.conforms] at hb
    | atom t inner =>
      cases hv : step.variant with
      | none =>
        cases step <;>
          simp [dynamic_builder.get, dynamic_builder.typed, dynamic_builder.builder_, hv,
            builder_base.child] at hg
      | some i =>
        simp [dynamic_builder.get, dynamic_builder.typed, dynamic_builder.builder_, hv] at hg
    | list offsets elements =>
      simp only [builder_base.conforms] at hb
      obtain ⟨t, ht, hel⟩ := hb
      cases hv : step.variant with
      | some i =>
        simp [dynamic_builder.get, dynamic_builder.typed, dynamic_builder.builder_, hv] at hg
      | none =>
        cases step with
        | field v name =>
          simp [dynamic_builder.get, dynamic_builder.typed, dynamic_builder.builder_, hv,
            builder_base.child] at hg
        | elements v =>
          simp only [dynamic_builder.get, dynamic_builder.typed, dynamic_builder.builder_, hv,
            builder_base.child] at hg
          obtain ⟨ty, hd, hset⟩ := ih elements t d hel hg
          refine ⟨ty, hd, ?_⟩
          intro d1 r hd1 hs
          simp only [dynamic_builder.set, dynamic_builder.typed, dynamic_builder.builder_, hv,
            builder_base.child, except_bind_eq_ok, except_pure_eq_ok] at hs
          obtain ⟨c1, hc1, hs⟩ := hs
          subst hs
          have := hset d1 c1 hd1 hc1
          simp only [path_step.variant] at hv
          subst hv
          simp only [dynamic_builder.set_typed, builder_base.set_child,
            dynamic_builder.conforms, builder_base.conforms, true_and]
          exact ⟨t, ht, this⟩
    | record fields valid len ka =>
      simp only [builder_base.conforms] at hb
      obtain ⟨fs, ht, hf, hnd⟩ := hb
      cases hv : step.variant with
      | some i =>
        simp [dynamic_builder.get, dynamic_builder.typed, dynamic_builder.builder_, hv] at hg
      | none =>
        cases step with
        | elements v =>
          simp [dynamic_builder.get, dynamic_builder.typed, dynamic_builder.builder_, hv,
            builder_base.child] at hg
        | field v name =>
          simp only [dynamic_builder.get, dynamic_builder.typed, dynamic_builder.builder_, hv,
            builder_base.child] at hg
          cases hfind : fields_find fields name with
          | none => simp [hfind] at hg
          | some c =>
            simp only [hfind] at hg
            obtain ⟨t, hc, hfset⟩ := fields_find_conform fields fs name c hf hnd hfind
            obtain ⟨ty, hd, hset⟩ := ih c t d hc hg
            refine ⟨ty, hd, ?_⟩
            intro d1 r hd1 hs
            simp only [dynamic_builder.set, dynamic_builder.typed, dynamic_builder.builder_, hv,
              builder_base.child, hfind, except_bind_eq_ok, except_pure_eq_ok] at hs
            obtain ⟨c1, hc1, hs⟩ := hs
            subst hs
            have := hset d1 c1 hd1 hc1
            simp only [path_step.variant] at hv
            subst hv
            simp only [dynamic_builder.set_typed, builder_base.set_child,
              dynamic_builder.conforms, builder_base.conforms, true_and]
            exact ⟨fs, ht, hfset c1 this, by rw [fields_set_names]; exact hnd⟩
theorem series_get_conforms (s : series_builder_impl) (T : tenzir.type) (path : builder_path)
    (d : dynamic_builder) (h : s.protected_as T) (hg : s.get path = .ok d) :
    ∃ ty, d.conforms ty
      ∧ ∀ (d1 : dynamic_builder) (s1 : series_builder_impl), d1.conforms ty →
          s.set path d1 = .ok s1 → s1.protected_as T := by
  obtain ⟨hb, hfin, hflag⟩ := h
  obtain ⟨ty, hd, hset⟩ := dynamic_builder_get_conforms path s.builder_ T d hb hg
  refine ⟨ty, hd, ?_⟩
  intro d1 s1 hd1 hs
  simp only [series_builder_impl.set, except_bind_eq_ok, except_pure_eq_ok] at hs
  obtain ⟨r, hr, hs⟩ := hs
  subst hs
  exact ⟨hset d1 r hd1 hr, hfin, hflag⟩

theorem conforms_typed_none (d : dynamic_builder) (ty : tenzir.type) (h : d.conforms ty) :
    ∃ b, d = .mk b true ty ∧ b.conforms ty ∧ d.typed none = some b
      ∧ ∀ b1, d.set_typed none b1 = .mk b1 true ty := by
  obtain ⟨b, p, m⟩ := d
  simp only [dynamic_builder.conforms] at h
  obtain ⟨hp, hm, hb⟩ := h
  subst hp hm
  refine ⟨b, rfl, hb, ?_, ?_⟩
  · cases b <;> simp [builder_base.conforms] at hb <;>
      simp [dynamic_builder.typed, dynamic_builder.builder_]
  · intro b1
    cases b <;> simp [builder_base.conforms] at hb <;> simp [dynamic_builder.set_typed]

theorem conforms_typed_some (d : dynamic_builder) (ty : tenzir.type) (i : Nat)
    (h : d.conforms ty) : d.typed (some i) = none := by
  obtain ⟨b, p, m⟩ := d
  simp only [dynamic_builder.conforms] at h
  obtain ⟨_, _, hb⟩ := h
  cases b <;> simp [builder_base.conforms] at hb <;>
    simp [dynamic_builder.typed, dynamic_builder.builder_]

theorem prepare_protected (print : data_view2 → Option String) (s s1 : series_builder_impl)
    (T : tenzir.type) (path : builder_path) (target : target) (variant : Option Nat)
    (h : s.protected_as T)
    (hp : dynamic_builder.prepare print s path target = .ok (s1, variant)) :
    s1.protected_as T ∧ variant = none := by
  simp only [dynamic_builder.prepare, except_bind_eq_ok] at hp
  obtain ⟨d, hg, r, hcast, hp⟩ := hp
  obtain ⟨ty, hd, hset⟩ := series_get_conforms s T path d h hg
  obtain ⟨b, hdb, hb, _, _⟩ := conforms_typed_none d ty hd
  subst hdb
  simp only [dynamic_builder.prepare_cast] at hcast
  split at hcast
  · simp only [except_pure_eq_ok] at hcast
    subst hcast
    simp only [except_bind_eq_ok, except_pure_eq_ok, Prod.mk.injEq] at hp
    obtain ⟨s2, hs2, h1, h2⟩ := hp
    subst h1
    exact ⟨hset _ _ hd hs2, h2.symm⟩
  · cases b with
    | null n => simp [builder_base.conforms] at hb
    | conflict ds vs => simp [builder_base.conforms] at hb
    | atom t inner =>
      simp only [except_pure_eq_ok] at hcast
      subst hcast
      simp [ensure, dynamic_builder.is_protected, except_bind_eq_ok] at hp
    | list offsets elements =>
      simp only [except_pure_eq_ok] at hcast
      subst hcast
      simp [ensure, dynamic_builder.is_protected, except_bind_eq_ok] at hp
    | record fields valid len ka =>
      simp only [except_pure_eq_ok] at hcast
      subst hcast
      simp [ensure, dynamic_builder.is_protected, except_bind_eq_ok] at hp

theorem append_atom_protected (s s1 : series_builder_impl) (T : tenzir.type)
    (path : builder_path) (value : atom_view) (h : s.protected_as T)
    (ha : typed_builder.append_atom s path none value = .ok s1) : s1.protected_as T := by
  simp only [typed_builder.append_atom, except_bind_eq_ok] at ha
  obtain ⟨d, hg, ha⟩ := ha
  obtain ⟨ty, hd, hset⟩ := series_get_conforms s T path d h hg
  obtain ⟨b, hdb, hb, htyped, hst⟩ := conforms_typed_none d ty hd
  rw [htyped] at ha
  cases b with
  | atom t inner =>
    simp only [hst] at ha
    refine hset _ _ ?_ ha
    simp only [dynamic_builder.conforms, builder_base.conforms, true_and]
    simpa [builder_base.conforms] using hb
  | null n => simp at ha
  | list offsets elements => simp at ha
  | record fields valid len ka => simp at ha
  | conflict ds vs => simp at ha

theorem append_record_protected (s s1 : series_builder_impl) (T : tenzir.type)
    (path : builder_path) (r : record_ref) (h : s.protected_as T)
    (ha : typed_builder.append_record s path none = .ok (s1, r)) : s1.protected_as T := by
  simp only [typed_builder.append_record, except_bind_eq_ok] at ha
  obtain ⟨d, hg, ha⟩ := ha
  obtain ⟨ty, hd, hset⟩ := series_get_conforms s T path d h hg
  obtain ⟨b, hdb, hb, htyped, hst⟩ := conforms_typed_none d ty hd
  rw [htyped] at ha
  cases b with
  | record fields valid len ka =>
    simp only [hst, except_bind_eq_ok, except_pure_eq_ok, Prod.mk.injEq] at ha
    obtain ⟨s2, hs2, h1, _⟩ := ha
    subst h1
    refine hset _ _ ?_ hs2
    simp only [dynamic_builder.conforms, builder_base.conforms, true_and]
    simpa [builder_base.conforms] using hb
  | null n => simp at ha
  | list offsets elements => simp at ha
  | atom t inner => simp at ha
  | conflict ds vs => simp at ha

theorem append_list_protected (s s1 : series_builder_impl) (T : tenzir.type)
    (path : builder_path) (r : builder_ref) (h : s.protected_as T)
    (ha : typed_builder.append_list s path none = .ok (s1, r)) : s1.protected_as T := by
  simp only [typed_builder.append_list, except_bind_eq_ok] at ha
  obtain ⟨d, hg, ha⟩ := ha
  obtain ⟨ty, hd, hset⟩ := series_get_conforms s T path d h hg
  obtain ⟨b, hdb, hb, htyped, hst⟩ := conforms_typed_none d ty hd
  rw [htyped] at ha
  cases b with
  | list offsets elements =>
    simp only [hst, except_bind_eq_ok, except_pure_eq_ok, Prod.mk.injEq, ensure_eq_ok] at ha
    obtain ⟨_, _, s2, hs2, h1, _⟩ := ha
    subst h1
    refine hset _ _ ?_ hs2
    simp only [dynamic_builder.conforms, builder_base.conforms, true_and]
    simpa [builder_base.conforms] using hb
  | null n => simp at ha
  | record fields valid len ka => simp at ha
  | atom t inner => simp at ha
  | conflict ds vs => simp at ha

theorem dynamic_atom_protected (print : data_view2 → Option String)
    (s s1 : series_builder_impl) (T : tenzir.type) (path : builder_path) (value : atom_view)
    (h : s.protected_as T) (ha : dynamic_builder.atom print s path value = .ok s1) :
    s1.protected_as T := by
  simp only [dynamic_builder.atom] at ha
  split at ha
  · simp only [except_bind_eq_ok] at ha
    obtain ⟨d, hg, d1, hr, hs⟩ := ha
    obtain ⟨ty, hd, hset⟩ := series_get_conforms s T path d h hg
    exact hset _ _ (dynamic_builder_resize_conforms d ty _ d1 hd hr) hs
  · simp only [except_bind_eq_ok] at ha
    obtain ⟨d, hg, ha⟩ := ha
    obtain ⟨ty, hd, hset⟩ := series_get_conforms s T path d h hg
    split at ha
    · refine hset _ _ ?_ ha
      simp only [dynamic_builder.conforms, builder_base.conforms] at hd ⊢
      exact hd
    · simp at ha
  · simp only [except_bind_eq_ok] at ha
    obtain ⟨⟨s2, variant⟩, hp, ha⟩ := ha
    obtain ⟨h2, hv⟩ := prepare_protected print s s2 T path _ variant h hp
    subst hv
    exact append_atom_protected s2 s1 T path value h2 ha

theorem dynamic_record_protected (print : data_view2 → Option String)
    (s s1 : series_builder_impl) (T : tenzir.type) (path : builder_path) (r : record_ref)
    (h : s.protected_as T) (ha : dynamic_builder.record print s path = .ok (s1, r)) :
    s1.protected_as T := by
  simp only [dynamic_builder.record, except_bind_eq_ok] at ha
  obtain ⟨⟨s2, variant⟩, hp, ha⟩ := ha
  obtain ⟨h2, hv⟩ := prepare_protected print s s2 T path _ variant h hp
  subst hv
  exact append_record_protected s2 s1 T path r h2 ha

theorem dynamic_list_protected (print : data_view2 → Option String)
    (s s1 : series_builder_impl) (T : tenzir.type) (path : builder_path) (r : builder_ref)
    (h : s.protected_as T) (ha : dynamic_builder.list print s path = .ok (s1, r)) :
    s1.protected_as T := by
  simp only [dynamic_builder.list, except_bind_eq_ok] at ha
  obtain ⟨⟨s2, variant⟩, hp, ha⟩ := ha
  obtain ⟨h2, hv⟩ := prepare_protected print s s2 T path _ variant h hp
  subst hv
  exact append_list_protected s2 s1 T path r h2 ha
theorem record_ref_get_conforms (s : series_builder_impl) (T : tenzir.type) (r : record_ref)
    (d : dynamic_builder) (fields : List (String × dynamic_builder)) (valid : List Bool)
    (len : Nat) (ka : Option String) (h : s.protected_as T)
    (hg : record_ref.get s r = .ok (d, fields, valid, len, ka)) :
    ∃ fs, fields_conform fields fs ∧ (fields.map Prod.fst).Nodup
      ∧ ∀ (fields1 : List (String × dynamic_builder)) (valid1 : List Bool) (len1 : Nat)
          (ka1 : Option String) (s1 : series_builder_impl),
          fields_conform fields1 fs → (fields1.map Prod.fst).Nodup →
          record_ref.set s r d fields1 valid1 len1 ka1 = .ok s1 → s1.protected_as T := by
  simp only [record_ref.get, except_bind_eq_ok] at hg
  obtain ⟨d0, hg0, hg⟩ := hg
  obtain ⟨ty, hd, hset⟩ := series_get_conforms s T r.owner d0 h hg0
  obtain ⟨b, hdb, hb, htyped, hst⟩ := conforms_typed_none d0 ty hd
  cases hv : r.variant with
  | some i =>
    rw [hv, conforms_typed_some d0 ty i hd] at hg
    simp at hg
  | none =>
    rw [hv, htyped] at hg
    cases b with
    | record f0 v0 l0 k0 =>
      simp only [except_pure_eq_ok, Prod.mk.injEq] at hg
      obtain ⟨h1, h2, h3, h4, h5⟩ := hg
      subst h1 h2 h3 h4 h5
      simp only [builder_base.conforms] at hb
      obtain ⟨fs, hty, hf, hnd⟩ := hb
      refine ⟨fs, hf, hnd, ?_⟩
      intro fields1 valid1 len1 ka1 s1 hf1 hnd1 hs
      simp only [record_ref.set, hv, hst] at hs
      refine hset _ _ ?_ hs
      simp only [dynamic_builder.conforms, builder_base.conforms, true_and]
      exact ⟨fs, hty, hf1, hnd1⟩
    | null n => simp at hg
    | list offsets elements => simp at hg
    | atom t inner => simp at hg
    | conflict ds vs => simp at hg

theorem record_ref_variant_none (s : series_builder_impl) (T : tenzir.type) (r : record_ref)
    (g : dynamic_builder × List (String × dynamic_builder) × List Bool × Nat × Option String)
    (h : s.protected_as T) (hg : record_ref.get s r = .ok g) : r.variant = none := by
  simp only [record_ref.get, except_bind_eq_ok] at hg
  obtain ⟨d0, hg0, hg⟩ := hg
  obtain ⟨ty, hd, _⟩ := series_get_conforms s T r.owner d0 h hg0
  cases hv : r.variant with
  | none => rfl
  | some i =>
    rw [hv, conforms_typed_some d0 ty i hd] at hg
    simp at hg

theorem prepare_field_protected (print : data_view2 → Option String)
    (s s1 : series_builder_impl) (T : tenzir.type) (self : record_ref) (name : String)
    (target : target) (path : builder_path) (variant : Option Nat)
    (h : s.protected_as T)
    (hexists : ∀ d fields valid len ka, record_ref.get s self = .ok (d, fields, valid, len, ka) →
      (fields_find fields name).isSome = true)
    (hp : typed_builder.prepare_field print s self name target = .ok (s1, path, variant)) :
    s1.protected_as T ∧ variant = none := by
  simp only [typed_builder.prepare_field, except_bind_eq_ok] at hp
  obtain ⟨⟨d, fields, valid, len, ka⟩, hg, hp⟩ := hp
  have hsome := hexists d fields valid len ka hg
  obtain ⟨fs, hf, hnd, hset⟩ := record_ref_get_conforms s T self d fields valid len ka h hg
  cases hfind : fields_find fields name with
  | none => simp [hfind] at hsome
  | some builder =>
    simp only [hfind, except_bind_eq_ok, except_pure_eq_ok, Prod.mk.injEq, ensure_eq_ok] at hp
    obtain ⟨_, _, builder1, hr, _, _, s2, hs2, ⟨s3, v⟩, hprep, ⟨d2, f2, v2, l2, k2⟩, hg2, s4,
      hs4, h1, _, h3⟩ := hp
    subst h1
    obtain ⟨t, hc, hfset⟩ := fields_find_conform fields fs name builder hf hnd hfind
    have hb1 := dynamic_builder_resize_conforms builder t _ builder1 hc hr
    have hs2p := hset _ _ _ _ s2 (hfset builder1 hb1) (by rw [fields_set_names]; exact hnd) hs2
    obtain ⟨hs3p, hv⟩ := prepare_protected print s2 s3 T _ _ v hs2p hprep
    obtain ⟨fs2, hf2, hnd2, hset2⟩ := record_ref_get_conforms s3 T self d2 f2 v2 l2 k2 hs3p hg2
    exact ⟨hset2 _ _ _ _ s4 hf2 hnd2 hs4, by rw [← h3, hv]⟩

theorem field_exists_of_protected (s : series_builder_impl) (f : field_ref)
    (h : field_ref.is_protected s f = .ok true) :
    ∀ d fields valid len ka, record_ref.get s f.origin_ = .ok (d, fields, valid, len, ka) →
      (fields_find fields f.name_).isSome = true := by
  intro d fields valid len ka hg
  simp only [field_ref.is_protected, field_ref.builder, hg, except_bind_ok, pure,
    Except.pure] at h
  cases hfind : fields_find fields f.name_ with
  | none => simp [hfind] at h
  | some b => rfl

theorem field_atom_protected (print : data_view2 → Option String)
    (s s1 : series_builder_impl) (T : tenzir.type) (self : field_ref) (value : atom_view)
    (h : s.protected_as T) (hprot : field_ref.is_protected s self = .ok true)
    (ha : field_ref.atom print s self value = .ok s1) : s1.protected_as T := by
  have hexists := field_exists_of_protected s self hprot
  simp only [field_ref.atom] at ha
  split at ha
  · simp only [except_bind_eq_ok] at ha
    obtain ⟨⟨d, fields, valid, len, ka⟩, hg, ha⟩ := ha
    obtain ⟨fs, hf, hnd, hset⟩ := record_ref_get_conforms s T _ d fields valid len ka h hg
    cases hfind : fields_find fields self.name_ with
    | none =>
      simp only [hfind, except_pure_eq_ok] at ha
      subst ha; exact h
    | some field =>
      simp only [hfind, except_bind_eq_ok, ensure_eq_ok] at ha
      obtain ⟨_, _, ha⟩ := ha
      split at ha
      · simp only [except_bind_eq_ok, ensure_eq_ok] at ha
        obtain ⟨_, _, field1, hr, hs⟩ := ha
        obtain ⟨t, hc, hfset⟩ := fields_find_conform fields fs _ field hf hnd hfind
        exact hset _ _ _ _ s1
          (hfset field1 (dynamic_builder_resize_conforms field t _ field1 hc hr))
          (by rw [fields_set_names]; exact hnd) hs
      · simp only [except_pure_eq_ok] at ha
        subst ha; exact h
  · simp only [except_bind_eq_ok] at ha
    obtain ⟨⟨d, fields, valid, len, ka⟩, hg, ha⟩ := ha
    obtain ⟨fs, hf, hnd, hset⟩ := record_ref_get_conforms s T _ d fields valid len ka h hg
    cases hfind : fields_find fields self.name_ with
    | none => simp [hfind] at ha
    | some builder =>
      simp only [hfind, except_bind_eq_ok, ensure_eq_ok] at ha
      obtain ⟨_, _, builder1, hr, s2, hs2, ha⟩ := ha
      obtain ⟨t, hc, hfset⟩ := fields_find_conform fields fs _ builder hf hnd hfind
      have hs2p := hset _ _ _ _ s2
        (hfset builder1 (dynamic_builder_resize_conforms builder t _ builder1 hc hr))
        (by rw [fields_set_names]; exact hnd) hs2
      exact dynamic_atom_protected print s2 s1 T _ value hs2p ha
  · simp only [except_bind_eq_ok] at ha
    obtain ⟨⟨s2, path, variant⟩, hp, ha⟩ := ha
    obtain ⟨h2, hv⟩ := prepare_field_protected print s s2 T _ _ _ path variant h hexists hp
    subst hv
    exact append_atom_protected s2 s1 T path value h2 ha

theorem field_record_protected (print : data_view2 → Option String)
    (s s1 : series_builder_impl) (T : tenzir.type) (self : field_ref) (r : record_ref)
    (h : s.protected_as T) (hprot : field_ref.is_protected s self = .ok true)
    (ha : field_ref.record print s self = .ok (s1, r)) : s1.protected_as T := by
  have hexists := field_exists_of_protected s self hprot
  simp only [field_ref.record, except_bind_eq_ok] at ha
  obtain ⟨⟨s2, path, variant⟩, hp, ha⟩ := ha
  obtain ⟨h2, hv⟩ := prepare_field_protected print s s2 T _ _ _ path variant h hexists hp
  subst hv
  exact append_record_protected s2 s1 T path r h2 ha

theorem field_list_protected (print : data_view2 → Option String)
    (s s1 : series_builder_impl) (T : tenzir.type) (self : field_ref) (r : builder_ref)
    (h : s.protected_as T) (hprot : field_ref.is_protected s self = .ok true)
    (ha : field_ref.list print s self = .ok (s1, r)) : s1.protected_as T := by
  have hexists := field_exists_of_protected s self hprot
  simp only [field_ref.list, except_bind_eq_ok] at ha
  obtain ⟨⟨s2, path, variant⟩, hp, ha⟩ := ha
  obtain ⟨h2, hv⟩ := prepare_field_protected print s s2 T _ _ _ path variant h hexists hp
  subst hv
  exact append_list_protected s2 s1 T path r h2 ha
theorem finish_if_conflict_protected (print : data_view2 → Option String)
    (s : series_builder_impl) (T : tenzir.type) (h : s.protected_as T) :
    s.finish_if_conflict print = .ok s := by
  simp [series_builder_impl.finish_if_conflict, h.2.2, pure, Except.pure]

theorem builder_ref_atom_protected (print : data_view2 → Option String)
    (s s1 : series_builder_impl) (T : tenzir.type) (ref : builder_ref) (value : atom_view)
    (h : s.protected_as T) (hc : (call.atom ref value).to_protected_field s)
    (ha : builder_ref.atom print s ref value = .ok s1) : s1.protected_as T := by
  cases ref with
  | series =>
    simp only [builder_ref.atom, series_builder.atom, series_builder_impl.atom,
      finish_if_conflict_protected print s T h, except_bind_ok] at ha
    exact dynamic_atom_protected print s s1 T [] value h ha
  | dynamic path => exact dynamic_atom_protected print s s1 T path value h ha
  | field f => exact field_atom_protected print s s1 T f value h hc ha

theorem builder_ref_record_protected (print : data_view2 → Option String)
    (s s1 : series_builder_impl) (T : tenzir.type) (ref : builder_ref) (r : record_ref)
    (h : s.protected_as T) (hc : (call.record ref).to_protected_field s)
    (ha : builder_ref.record print s ref = .ok (s1, r)) : s1.protected_as T := by
  cases ref with
  | series =>
    simp only [builder_ref.record, series_builder.record, series_builder_impl.record,
      finish_if_conflict_protected print s T h, except_bind_ok] at ha
    exact dynamic_record_protected print s s1 T [] r h ha
  | dynamic path => exact dynamic_record_protected print s s1 T path r h ha
  | field f => exact field_record_protected print s s1 T f r h hc ha

theorem builder_ref_list_protected (print : data_view2 → Option String)
    (s s1 : series_builder_impl) (T : tenzir.type) (ref r : builder_ref)
    (h : s.protected_as T) (hc : (call.list ref).to_protected_field s)
    (ha : builder_ref.list print s ref = .ok (s1, r)) : s1.protected_as T := by
  cases ref with
  | series =>
    simp only [builder_ref.list, series_builder.list, series_builder_impl.list,
      finish_if_conflict_protected print s T h, except_bind_ok] at ha
    exact dynamic_list_protected print s s1 T [] r h ha
  | dynamic path => exact dynamic_list_protected print s s1 T path r h ha
  | field f => exact field_list_protected print s s1 T f r h hc ha

theorem remove_last_protected (s s1 : series_builder_impl) (T : tenzir.type)
    (h : s.protected_as T) (ha : series_builder.remove_last s = .ok s1) :
    s1.protected_as T := by
  simp only [series_builder.remove_last, series_builder_impl.remove_last] at ha
  split at ha
  · simp only [except_bind_eq_ok, except_pure_eq_ok] at ha
    obtain ⟨b1, hr, ha⟩ := ha
    subst ha
    exact ⟨dynamic_builder_resize_conforms _ T _ b1 h.1 hr, h.2.1, rfl⟩
  · simp only [except_pure_eq_ok] at ha
    subst ha
    exact ⟨h.1, h.2.1, rfl⟩

theorem conforms_of_strip_eq (b : builder_base) (ty ty1 : tenzir.type)
    (h : ty.strip = ty1.strip) (hb : b.conforms ty) : b.conforms ty1 := by
  cases b with
  | null n => simp [builder_base.conforms] at hb
  | conflict ds vs => simp [builder_base.conforms] at hb
  | atom t inner =>
    simp only [builder_base.conforms] at hb ⊢
    rw [← h]; exact hb
  | list offsets elements =>
    simp only [builder_base.conforms] at hb ⊢
    rw [← h]; exact hb
  | record fields valid len ka =>
    simp only [builder_base.conforms] at hb ⊢
    rw [← h]; exact hb

theorem fields_conform_append (fields : List (String × dynamic_builder)) :
    ∀ (fs : List (String × tenzir.type)) (name : String) (d : dynamic_builder)
      (t : tenzir.type),
      fields_conform fields fs → d.conforms t →
      fields_conform (fields ++ [(name, d)]) (fs ++ [(name, t)]) := by
  induction fields with
  | nil =>
    intro fs name d t h hd
    simp only [fields_conform] at h
    subst h
    simp only [List.nil_append, fields_conform]
    exact ⟨t, [], rfl, hd, rfl⟩
  | cons f rest ih =>
    obtain ⟨n, d0⟩ := f
    intro fs name d t h hd
    simp only [fields_conform] at h
    obtain ⟨t0, fs1, hfs, hd0, hrest⟩ := h
    subst hfs
    simp only [List.cons_append, fields_conform]
    exact ⟨t0, fs1 ++ [(name, t)], rfl, hd0, ih fs1 name d t hrest hd⟩

theorem dynamic_builder_conforms_mk (b : builder_base) (ty : tenzir.type) :
    (dynamic_builder.mk b true ty).conforms ty ↔ b.conforms ty := by
  simp [dynamic_builder.conforms]

theorem fields_find_some_of_mem (fs : List (String × dynamic_builder)) (name : String)
    (h : name ∈ fs.map Prod.fst) : (fields_find fs name).isSome = true := by
  induction fs with
  | nil => simp at h
  | cons f rest ih =>
    obtain ⟨n, d⟩ := f
    rw [fields_find_cons]
    by_cases hn : name = n
    · simp [hn]
    · rw [if_neg hn]
      simp only [List.map_cons, List.mem_cons] at h
      rcases h with h | h
      · exact absurd h hn
      · exact ih h

mutual
theorem protect_builder_conforms :
    (ty : tenzir.type) → ∀ (b : builder_base), ty.has_null = false →
      protect_builder ty = .ok b → b.conforms ty
  | .null => by intro b h; simp [type.has_null] at h
  | .basic k => by
    intro b _ hp
    simp only [protect_builder, except_pure_eq_ok] at hp
    subst hp
    simp [builder_base.conforms, type.strip, atom_type.to_type]
  | .enumeration ls => by
    intro b _ hp
    simp only [protect_builder, except_pure_eq_ok] at hp
    subst hp
    simp [builder_base.conforms, type.strip, atom_type.to_type]
  | .list t => by
    intro b h hp
    simp only [type.has_null] at h
    simp only [protect_builder, except_bind_eq_ok, except_pure_eq_ok] at hp
    obtain ⟨el, hel, hp⟩ := hp
    subst hp
    have ih := protect_builder_conforms t el h hel
    simp only [builder_base.conforms, type.strip]
    exact ⟨t, rfl, (dynamic_builder_conforms_mk el t).mpr ih⟩
  | .map _ _ => by intro b _ hp; simp [protect_builder] at hp
  | .record fs => by
    intro b h hp
    simp only [type.has_null] at h
    simp only [protect_builder, except_bind_eq_ok, except_pure_eq_ok] at hp
    obtain ⟨fields, hf, hp⟩ := hp
    subst hp
    have ih := protect_fields_conform fs [] [] fields h (by simp [fields_conform])
      List.nodup_nil hf
    simp only [builder_base.conforms, type.strip]
    exact ⟨fs, rfl, by simpa using ih.1, ih.2⟩
  | .enriched n as t => by
    intro b h hp
    simp only [type.has_null] at h
    simp only [protect_builder] at hp
    exact conforms_of_strip_eq b t _ rfl (protect_builder_conforms t b h hp)
theorem protect_fields_conform :
    (fs : List (String × tenzir.type)) → ∀ (done : List (String × dynamic_builder))
      (fs0 : List (String × tenzir.type)) (fields : List (String × dynamic_builder)),
      fields_have_null fs = false → fields_conform done fs0 → (done.map Prod.fst).Nodup →
      protect_fields fs done = .ok fields →
      fields_conform fields (fs0 ++ fs) ∧ (fields.map Prod.fst).Nodup
  | [] => by
    intro done fs0 fields _ hd hnd hp
    simp only [protect_fields, except_pure_eq_ok] at hp
    subst hp
    exact ⟨by simpa using hd, hnd⟩
  | (name, t) :: rest => by
    intro done fs0 fields h hd hnd hp
    simp only [fields_have_null, Bool.or_eq_false_iff] at h
    simp only [protect_fields, except_bind_eq_ok, ensure_eq_ok] at hp
    obtain ⟨_, hnew, field, hfield, hp⟩ := hp
    have hfc := protect_builder_conforms t field h.1 hfield
    have hdc : (dynamic_builder.mk field true t).conforms t :=
      (dynamic_builder_conforms_mk field t).mpr hfc
    have hnd1 : ((done ++ [(name, dynamic_builder.mk field true t)]).map Prod.fst).Nodup := by
      simp only [List.map_append, List.map_cons, List.map_nil]
      rw [List.nodup_append]
      refine ⟨hnd, by simp, ?_⟩
      intro a ha hb
      simp only [List.mem_singleton] at hb
      subst hb
      have := fields_find_some_of_mem done a ha
      cases hfd : fields_find done a with
      | none => simp [hfd] at this
      | some x => simp [hfd] at hnew
    have ih := protect_fields_conform rest _ (fs0 ++ [(name, t)]) fields h.2
      (fields_conform_append done fs0 name _ t hd hdc) hnd1 hp
    exact ⟨by simpa using ih.1, ih.2⟩
end

theorem series_builder_new_protected (T : tenzir.type) (s : series_builder_impl)
    (hnull : T.has_null = false) (h : series_builder.new (some T) = .ok s) :
    s.protected_as T := by
  simp only [series_builder.new, dynamic_builder.protect, except_bind_eq_ok,
    except_pure_eq_ok] at h
  obtain ⟨d, ⟨b, hb, hd⟩, h⟩ := h
  subst hd h
  exact ⟨(dynamic_builder_conforms_mk b T).mpr (protect_builder_conforms T b hnull hb),
    rfl, rfl⟩
mutual
theorem builder_base_finish_conforms (print : data_view2 → Option String) :
    (b : builder_base) → ∀ (ty : tenzir.type) (grow count : Nat) (a : typed_array)
      (b1 : builder_base),
      b.conforms ty → b.finish_and_leave print grow count = .ok (a, b1) → b1.conforms ty
  | .null _ => by intro ty grow count a b1 h; simp [builder_base.conforms] at h
  | .conflict _ _ => by intro ty grow count a b1 h; simp [builder_base.conforms] at h
  | .atom t inner => by
    intro ty grow count a b1 h hf
    simp only [builder_base.finish_and_leave] at hf
    split at hf
    · simp at hf
    · simp only [pure, Except.pure, Except.ok.injEq, Prod.mk.injEq] at hf
      obtain ⟨_, h2⟩ := hf
      subst h2
      exact h
  | .list offsets elements => by
    intro ty grow count a b1 h hf
    simp only [builder_base.conforms] at h
    obtain ⟨t, ht, hel⟩ := h
    simp only [builder_base.finish_and_leave, ensure_eq_ok, except_bind_eq_ok,
      except_pure_eq_ok] at hf
    obtain ⟨_, _, _, _, ⟨used, el1⟩, hfe, result, _, hf⟩ := hf
    simp only [Prod.mk.injEq] at hf
    obtain ⟨_, h2⟩ := hf
    subst h2
    simp only [builder_base.conforms]
    exact ⟨t, ht, dynamic_builder_finish_conforms print elements t _ _ _ _ hel hfe⟩
  | .record fields valid len ka => by
    intro ty grow count a b1 h hf
    simp only [builder_base.conforms] at h
    obtain ⟨fs, ht, hfc, hnd⟩ := h
    simp only [builder_base.finish_and_leave, ensure_eq_ok, except_bind_eq_ok,
      except_pure_eq_ok] at hf
    obtain ⟨_, _, ⟨children, fields1⟩, hff, ⟨bitmap, valid1⟩, _, hf⟩ := hf
    simp only [Prod.mk.injEq] at hf
    obtain ⟨_, h2⟩ := hf
    subst h2
    have ih := finish_fields_conforms print fields fs _ _ _ _ _ hfc hff
    simp only [builder_base.conforms]
    exact ⟨fs, ht, ih.1, by rw [ih.2]; exact hnd⟩
theorem dynamic_builder_finish_conforms (print : data_view2 → Option String) :
    (d : dynamic_builder) → ∀ (ty : tenzir.type) (grow count : Nat) (a : typed_array)
      (d1 : dynamic_builder),
      d.conforms ty → d.finish_and_leave print grow count = .ok (a, d1) → d1.conforms ty
  | .mk b p m => by
    intro ty grow count a d1 h hf
    simp only [dynamic_builder.conforms] at h
    obtain ⟨hp, hm, hb⟩ := h
    subst hp hm
    simp only [dynamic_builder.finish_and_leave, ensure_eq_ok, except_bind_eq_ok] at hf
    obtain ⟨_, _, ⟨result, b1⟩, hr, _, _, hf⟩ := hf
    have key : b1.conforms m := by
      split at hr
      · rw [except_bind_eq_ok] at hr
        obtain ⟨b0, hb0, hr⟩ := hr
        simp only [except_pure_eq_ok, Prod.mk.injEq] at hr
        obtain ⟨_, h2⟩ := hr
        subst h2
        split at hb0
        · exact builder_base_resize_conforms b m _ b0 hb hb0
        · simp only [except_pure_eq_ok] at hb0
          subst hb0; exact hb
      · exact builder_base_finish_conforms print b m grow count result b1 hb hr
    simp only [except_pure_eq_ok, Prod.mk.injEq, Bool.not_true, Bool.and_false,
      Bool.false_eq_true, if_false] at hf
    obtain ⟨_, h2⟩ := hf
    subst h2
    exact (dynamic_builder_conforms_mk b1 m).mpr key
theorem finish_fields_conforms (print : data_view2 → Option String) :
    (fields : List (String × dynamic_builder)) → ∀ (fs : List (String × tenzir.type))
      (len target : Nat) (keep : Option String) (arrays : List arrow_array)
      (fields1 : List (String × dynamic_builder)),
      fields_conform fields fs →
      finish_fields print fields len target keep = .ok (arrays, fields1) →
      fields_conform fields1 fs ∧ fields1.map Prod.fst = fields.map Prod.fst
  | [] => by
    intro fs len target keep arrays fields1 h hf
    simp only [finish_fields, except_pure_eq_ok, Prod.mk.injEq] at hf
    obtain ⟨_, h2⟩ := hf
    subst h2
    exact ⟨h, rfl⟩
  | (name, builder) :: rest => by
    intro fs len target keep arrays fields1 h hf
    simp only [fields_conform] at h
    obtain ⟨t, fs1, hfs, hd, hrest⟩ := h
    simp only [finish_fields, ensure_eq_ok, except_bind_eq_ok, except_pure_eq_ok] at hf
    obtain ⟨_, _, ⟨array, builder1⟩, hb, _, _, _, _, ⟨arrays1, rest1⟩, hr, hf⟩ := hf
    have ih1 := dynamic_builder_finish_conforms print builder t _ _ _ _ hd hb
    have ih2 := finish_fields_conforms print rest fs1 _ _ _ _ _ hrest hr
    have hprot : builder1.is_protected = true := by
      obtain ⟨b, hdb, _⟩ := conforms_typed_none builder1 t ih1
      rw [hdb]; rfl
    simp only [Prod.mk.injEq, hprot, Bool.not_true, Bool.and_false, Bool.false_and,
      Bool.false_eq_true, if_false] at hf
    obtain ⟨_, h2⟩ := hf
    subst h2
    simp only [fields_conform, List.map_cons, ih2.2, and_true]
    exact ⟨t, fs1, hfs, ih1, ih2.1⟩
end

theorem finish_protected (print : data_view2 → Option String)
    (s s1 : series_builder_impl) (T : tenzir.type) (arrays : List typed_array)
    (h : s.protected_as T) (hf : series_builder.finish print s = .ok (arrays, s1)) :
    s1.protected_as T := by
  simp only [series_builder.finish, series_builder_impl.finish] at hf
  split at hf
  · simp only [except_bind_eq_ok, ensure_eq_ok, except_pure_eq_ok, Prod.mk.injEq] at hf
    obtain ⟨⟨array, d1⟩, hfl, _, _, _, h2⟩ := hf
    subst h2
    exact ⟨dynamic_builder_finish_conforms print _ T _ _ _ _ h.1 hfl, rfl, rfl⟩
  · simp only [except_pure_eq_ok, Prod.mk.injEq] at hf
    obtain ⟨_, h2⟩ := hf
    subst h2
    exact ⟨h.1, rfl, rfl⟩
theorem call_run_protected (print : data_view2 → Option String)
    (s s1 : series_builder_impl) (T : tenzir.type) (c : call)
    (h : s.protected_as T) (hc : c.to_protected_field s)
    (ha : c.run print s = .ok s1) : s1.protected_as T := by
  cases c with
  | atom ref value => exact builder_ref_atom_protected print s s1 T ref value h hc ha
  | record ref =>
    simp only [call.run, except_map_eq_ok] at ha
    obtain ⟨⟨s2, r⟩, ha, h1⟩ := ha
    subst h1
    exact builder_ref_record_protected print s s2 T ref r h hc ha
  | list ref =>
    simp only [call.run, except_map_eq_ok] at ha
    obtain ⟨⟨s2, r⟩, ha, h1⟩ := ha
    subst h1
    exact builder_ref_list_protected print s s2 T ref r h hc ha
  | remove_last => exact remove_last_protected s s1 T h ha
  | finish =>
    simp only [call.run, except_map_eq_ok] at ha
    obtain ⟨⟨arrays, s2⟩, ha, h1⟩ := ha
    subst h1
    exact finish_protected print s s2 T arrays h ha

theorem run_all_protected (print : data_view2 → Option String) (T : tenzir.type)
    (calls : List call) :
    ∀ (s s1 : series_builder_impl), s.protected_as T →
      to_protected_fields print s calls → run_all print s calls = .ok s1 →
      s1.protected_as T := by
  induction calls with
  | nil =>
    intro s s1 h _ hr
    simp only [run_all, List.foldlM_nil, except_pure_eq_ok] at hr
    subst hr; exact h
  | cons c rest ih =>
    intro s s1 h hg hr
    simp only [run_all, List.foldlM_cons, except_bind_eq_ok] at hr
    obtain ⟨s2, hc, hr⟩ := hr
    simp only [to_protected_fields, hc] at hg
    exact ih s2 s1 (call_run_protected print s s2 T c h hg.1 hc) hg.2 hr

theorem finish_protected_record (print : data_view2 → Option String)
    (s s1 : series_builder_impl) (T : tenzir.type) (fs : List (String × tenzir.type))
    (arrays : List typed_array) (hrecord : T.strip = .record fs) (h : s.protected_as T)
    (hf : series_builder.finish print s = .ok (arrays, s1)) :
    ∀ a ∈ arrays, a.type = T := by
  obtain ⟨hb, hfin, _⟩ := h
  simp only [series_builder.finish, series_builder_impl.finish] at hf
  split at hf
  · rename_i hlen
    simp only [except_bind_eq_ok, ensure_eq_ok, except_pure_eq_ok, Prod.mk.injEq] at hf
    obtain ⟨⟨array, d1⟩, hfl, _, _, h1, _⟩ := hf
    subst h1
    intro a ha
    rw [hfin] at ha
    simp only [List.nil_append, List.mem_singleton] at ha
    subst ha
    obtain ⟨b, hdb, hbc, _, _⟩ := conforms_typed_none s.builder_ T hb
    rw [hdb] at hfl hlen
    have h0 : ¬ (0 = b.length + 0) := by
      simp only [dynamic_builder.length, dynamic_builder.builder_] at hlen
      omega
    simp only [dynamic_builder.finish_and_leave, if_neg h0, ensure_eq_ok, except_bind_eq_ok,
      except_pure_eq_ok, Prod.mk.injEq] at hfl
    obtain ⟨_, _, ⟨result, b1⟩, hr, _, _, h1, _⟩ := hfl
    subst h1
    simp only
    apply assign_metadata_of_strip
    cases b with
    | null n => simp [builder_base.conforms] at hbc
    | conflict ds vs => simp [builder_base.conforms] at hbc
    | atom t inner =>
      simp only [builder_base.conforms, hrecord] at hbc
      cases t <;> simp [atom_type.to_type] at hbc
    | list offsets elements =>
      simp only [builder_base.conforms, hrecord] at hbc
      obtain ⟨t, ht, _⟩ := hbc
      simp at ht
    | record fields valid len ka =>
      have htype := builder_base_conforms_type _ T hbc
      simp only [builder_base.type] at htype
      simp only [builder_base.finish_and_leave, ensure_eq_ok, except_bind_eq_ok,
        except_pure_eq_ok] at hr
      obtain ⟨_, _, ⟨children, fields1⟩, _, ⟨bitmap, valid1⟩, _, hr⟩ := hr
      simp only [Prod.mk.injEq] at hr
      obtain ⟨h1, _⟩ := hr
      subst h1
      simp only [htype, type_strip_strip]
  · simp only [except_pure_eq_ok, Prod.mk.injEq] at hf
    obtain ⟨h1, _⟩ := hf
    subst h1
    intro a ha
    rw [hfin] at ha
    simp at ha

/-- C12 (counterexample): a series protected with the record type `{a: int64}`
accepts a write through `field("z")`; `finish()` then returns a batch of the
type `{a: int64, z: int64}`. -/
theorem undeclared_field_extends_protected_type :
    (do
      let s ← series_builder.new (some (.record [("a", .basic .int64)]))
      let (s, r) ← series_builder.record (fun _ => none) s
      let s ← builder_ref.atom (fun _ => none) s (r.field "z") (.int64 1)
      let (arrays, _) ← series_builder.finish (fun _ => none) s
      pure (arrays.map typed_array.type))
      = .ok [.record [("a", .basic .int64), ("z", .basic .int64)]] := rfl

/-- C12, amended: on a series protected with a record type `T` in which the
null type does not occur, after any sequence of writes, `remove_last()` and
`finish()` calls in which every write through a field handle goes to a field
for which `is_protected()` is true (a field that `T` declares), every batch
that `finish()` returns has the type `T`: its fields, their order, their
types and the metadata. -/
theorem protected_record_type_is_fixed (print : data_view2 → Option String)
    (T : tenzir.type) (fs : List (String × tenzir.type)) (calls : List call)
    (s0 s s1 : series_builder_impl) (arrays : List typed_array)
    (hrecord : T.strip = .record fs) (hnull : T.has_null = false)
    (hnew : series_builder.new (some T) = .ok s0)
    (hdeclared : to_protected_fields print s0 calls)
    (hrun : run_all print s0 calls = .ok s)
    (hfinish : series_builder.finish print s = .ok (arrays, s1)) :
    ∀ a ∈ arrays, a.type = T :=
  finish_protected_record print s s1 T fs arrays hrecord
    (run_all_protected print T calls s0 s (series_builder_new_protected T s0 hnull hnew)
      hdeclared hrun) hfinish

theorem protected_record_type_is_fixed_witness :
    type.strip (.enriched "flow" [] (.record [("a", .basic .int64)])) = .record [("a", .basic .int64)]
    ∧ type.has_null (.enriched "flow" [] (.record [("a", .basic .int64)])) = false
    ∧ series_builder.new (some (.enriched "flow" [] (.record [("a", .basic .int64)]))) = .ok ⟨.mk (.record [("a", .mk (.atom (.basic .int64) []) true (.basic .int64))] [] 0 none) true (.enriched "flow" [] (.record [("a", .basic .int64)])), [], false⟩
    ∧ to_protected_fields (fun _ => none) ⟨.mk (.record [("a", .mk (.atom (.basic .int64) []) true (.basic .int64))] [] 0 none) true (.enriched "flow" [] (.record [("a", .basic .int64)])), [], false⟩ [.record .series, .atom (.field ⟨⟨[], none⟩, "a"⟩) (.int64 1)]
    ∧ run_all (fun _ => none) ⟨.mk (.record [("a", .mk (.atom (.basic .int64) []) true (.basic .int64))] [] 0 none) true (.enriched "flow" [] (.record [("a", .basic .int64)])), [], false⟩ [.record .series, .atom (.field ⟨⟨[], none⟩, "a"⟩) (.int64 1)] = .ok ⟨.mk (.record [("a", .mk (.atom (.basic .int64) [some (.int64 1)]) true (.basic .int64))] [] 1 none) true (.enriched "flow" [] (.record [("a", .basic .int64)])), [], false⟩
    ∧ series_builder.finish (fun _ => none) ⟨.mk (.record [("a", .mk (.atom (.basic .int64) [some (.int64 1)]) true (.basic .int64))] [] 1 none) true (.enriched "flow" [] (.record [("a", .basic .int64)])), [], false⟩ = .ok ([(⟨(.enriched "flow" [] (.record [("a", .basic .int64)])), .struct 1 [.primitive [some (.int64 1)]] none⟩ : typed_array)], ⟨.mk (.record [("a", .mk (.atom (.basic .int64) []) true (.basic .int64))] [] 0 none) true (.enriched "flow" [] (.record [("a", .basic .int64)])), [], false⟩)
    ∧ ∀ a ∈ [(⟨(.enriched "flow" [] (.record [("a", .basic .int64)])), .struct 1 [.primitive [some (.int64 1)]] none⟩ : typed_array)], a.type = (.enriched "flow" [] (.record [("a", .basic .int64)])) :=
  ⟨rfl, rfl, rfl, ⟨trivial, rfl, trivial⟩, rfl, rfl,
    protected_record_type_is_fixed (fun _ => none) (.enriched "flow" [] (.record [("a", .basic .int64)])) [("a", .basic .int64)] [.record .series, .atom (.field ⟨⟨[], none⟩, "a"⟩) (.int64 1)]
      ⟨.mk (.record [("a", .mk (.atom (.basic .int64) []) true (.basic .int64))] [] 0 none) true (.enriched "flow" [] (.record [("a", .basic .int64)])), [], false⟩ ⟨.mk (.record [("a", .mk (.atom (.basic .int64) [some (.int64 1)]) true (.basic .int64))] [] 1 none) true (.enriched "flow" [] (.record [("a", .basic .int64)])), [], false⟩ ⟨.mk (.record [("a", .mk (.atom (.basic .int64) []) true (.basic .int64))] [] 0 none) true (.enriched "flow" [] (.record [("a", .basic .int64)])), [], false⟩ [(⟨(.enriched "flow" [] (.record [("a", .basic .int64)])), .struct 1 [.primitive [some (.int64 1)]] none⟩ : typed_array)] rfl rfl rfl ⟨trivial, rfl, trivial⟩ rfl rfl⟩
/-- C22: an unprotected series that received `n ≥ 1` times `null()` and nothing
else returns from `finish()` exactly one array, of type null and length `n`. -/
theorem only_nulls_finish_as_one_null_array (print : data_view2 → Option String) (n : Nat)
    (hn : 1 ≤ n) :
    ∃ s s1,
      (List.replicate n ()).foldlM (fun s _ => series_builder.null print s)
        series_builder_impl.new = .ok s
      ∧ series_builder.finish print s = .ok ([⟨.null, .null n⟩], s1)
      ∧ typed_array.length ⟨.null, .null n⟩ = n := by
  have hrun : ∀ (k m : Nat) (fin : List typed_array),
      (List.replicate k ()).foldlM (fun s _ => series_builder.null print s)
        ⟨.mk (.null m) false .null, fin, false⟩
        = .ok ⟨.mk (.null (m + k)) false .null, fin, false⟩ := by
    intro k
    induction k with
    | zero => intro m fin; rfl
    | succ k ih =>
      intro m fin
      have hstep := null_on_nulls print fin m
      simp only [series_builder.atom] at hstep
      simp only [List.replicate_succ, List.foldlM_cons, series_builder.null, hstep,
        except_bind_ok]
      have := ih (m + 1) fin
      simp only [series_builder.null] at this
      rw [this]
      have e : m + 1 + k = m + (k + 1) := by omega
      rw [e]
  refine ⟨⟨.mk (.null n) false .null, [], false⟩, ⟨.mk (.null 0) false .null, [], false⟩,
    ?_, ?_, rfl⟩
  · have := hrun n 0 []
    simpa [series_builder_impl.new, dynamic_builder.new] using this
  · have hpos : 0 < n := by omega
    simp [series_builder.finish, series_builder_impl.finish, dynamic_builder.length,
      dynamic_builder.builder_, builder_base.length, pure, Except.pure, hpos,
      dynamic_builder_finish_nulls print _ hpos, except_bind_ok, ensure]

theorem only_nulls_finish_as_one_null_array_witness :
    1 ≤ 3
    ∧ ∃ s s1,
      (List.replicate 3 ()).foldlM (fun s _ => series_builder.null (fun _ => none) s)
        series_builder_impl.new = .ok s
      ∧ series_builder.finish (fun _ => none) s = .ok ([⟨.null, .null 3⟩], s1)
      ∧ typed_array.length ⟨.null, .null 3⟩ = 3 :=
  ⟨by decide, only_nulls_finish_as_one_null_array (fun _ => none) 3 (by decide)⟩

/-- C23: `try_atom(v)` with an enumeration value `v` through a handle for which
`is_protected()` is false returns the error `type_clash` and leaves the
series as it is: no row is added and no builder changes. -/
theorem enumeration_on_unprotected_is_an_error (print : data_view2 → Option String)
    (cast_value : cast_fn) (s : series_builder_impl) (ref : builder_ref) (v : Nat)
    (h : builder_ref.is_protected s ref = .ok false) :
    builder_ref.try_atom print cast_value s ref (.enumeration v)
      = .ok (s, .error .type_clash) := by
  simp [builder_ref.try_atom, h, except_bind_ok, atom_view_to_type_t, pure, Except.pure]

theorem enumeration_on_unprotected_is_an_error_witness :
    builder_ref.is_protected series_builder_impl.new .series = .ok false
    ∧ builder_ref.try_atom (fun _ => none) (fun v _ _ => .ok v) series_builder_impl.new
        .series (.enumeration 2)
      = .ok (series_builder_impl.new, .error .type_clash) :=
  ⟨rfl, enumeration_on_unprotected_is_an_error (fun _ => none) (fun v _ _ => .ok v)
    series_builder_impl.new .series 2 rfl⟩

theorem assign_metadata_strip (t m : tenzir.type) : (t.assign_metadata m).strip = t.strip := by
  simp only [type.assign_metadata, type_strip_wrap, type_strip_strip]

/-- C25: a dynamic builder that holds a conflict builder, with any variants,
reports the kind `string` and a type that is `string` under its metadata
(plain `string` for the empty metadata of an unprotected builder), and the
array that its `finish_and_leave` returns has that type. -/
theorem conflict_builder_shows_as_string (print : data_view2 → Option String)
    (ds : List Nat) (vs : List builder_base) (p : Bool) (m : tenzir.type) :
    (dynamic_builder.mk (.conflict ds vs) p m).kind = .basic .string
    ∧ (dynamic_builder.mk (.conflict ds vs) p m).type = (type.basic .string).assign_metadata m
    ∧ (dynamic_builder.mk (.conflict ds vs) p .null).type = .basic .string
    ∧ ∀ grow count a d1,
        (dynamic_builder.mk (.conflict ds vs) p m).finish_and_leave print grow count
          = .ok (a, d1) →
        a.type = (type.basic .string).assign_metadata m
          ∧ a.type.strip = .basic .string := by
  refine ⟨rfl, rfl, rfl, ?_⟩
  intro grow count a d1 h
  simp only [dynamic_builder.finish_and_leave, ensure_eq_ok, except_bind_eq_ok] at h
  obtain ⟨_, _, ⟨result, b1⟩, hr, _, _, h⟩ := h
  have key : result.type.strip = .basic .string := by
    split at hr
    · rw [except_bind_eq_ok] at hr
      obtain ⟨b0, _, hr⟩ := hr
      simp only [except_pure_eq_ok, Prod.mk.injEq] at hr
      obtain ⟨h1, _⟩ := hr
      subst h1
      simp only [builder_base.type, assign_metadata_strip]
      rfl
    · simp only [builder_base.finish_and_leave, ensure_eq_ok, except_bind_eq_ok,
        except_pure_eq_ok] at hr
      obtain ⟨_, _, ⟨arrays, vs1⟩, _, strings, _, hr⟩ := hr
      simp only [Prod.mk.injEq] at hr
      obtain ⟨h1, _⟩ := hr
      subst h1
      rfl
  simp only [except_pure_eq_ok, Prod.mk.injEq] at h
  obtain ⟨h1, _⟩ := h
  subst h1
  refine ⟨?_, ?_⟩
  · simp only [type.assign_metadata, key]
    rfl
  · simp only [assign_metadata_strip, key]

theorem conflict_builder_shows_as_string_witness :
    (dynamic_builder.mk (.conflict [0, 1] [.atom (.basic .int64) [some (.int64 1)],
        .atom (.basic .string) [some (.string "hi")]]) false .null).finish_and_leave
        (fun _ => some "") 0 0
      = .ok (⟨.basic .string, .primitive [some (.string ""), some (.string "")]⟩,
          .mk (.null 0) false .null)
    ∧ (⟨.basic .string, .primitive [some (.string ""), some (.string "")]⟩ : typed_array).type
        = (type.basic .string).assign_metadata .null
    ∧ (⟨.basic .string, .primitive [some (.string ""), some (.string "")]⟩ : typed_array).type.strip
        = .basic .string :=
  ⟨rfl, (conflict_builder_shows_as_string (fun _ => some "") [0, 1]
    [.atom (.basic .int64) [some (.int64 1)], .atom (.basic .string) [some (.string "hi")]]
    false .null).2.2.2 0 0
    ⟨.basic .string, .primitive [some (.string ""), some (.string "")]⟩
    (.mk (.null 0) false .null) rfl⟩
/-- C29: after the writes `null`, `{a: 1}`, `null`, the call `remove_last()`
(`resize(2)` on the record builder) leaves the validity `[true, false]`: row
0, which was null, is valid, and row 1, which was a record, is null. Before
the third write the validity was `[false]` (row 1 valid by default). -/
theorem record_resize_scrambles_validity (print : data_view2 → Option String) :
    (do
      let s ← series_builder.null print series_builder_impl.new
      write_record print s [("a", .int64 1)])
      = .ok ⟨.mk (.record [("a", .mk (.atom (.basic .int64) [none, some (.int64 1)]) false
          .null)] [false] 2 none) false .null, [], false⟩
    ∧ (do
      let s ← series_builder.null print series_builder_impl.new
      let s ← write_record print s [("a", .int64 1)]
      let s ← series_builder.null print s
      series_builder.remove_last s)
      = .ok ⟨.mk (.record [("a", .mk (.atom (.basic .int64) [none, some (.int64 1)]) false
          .null)] [true, false] 2 none) false .null, [], false⟩ :=
  ⟨rfl, rfl⟩
theorem type_named_name (name : String) (ty : tenzir.type) (h : name ≠ "") :
    (type.named name ty).name = name := by
  have h1 : (name != "") = true := by simpa using h
  simp [type.named, type.name, type.layers, List.find?, h1]

theorem as_table_slice_schema (name : String) (array : typed_array) (slice : table_slice)
    (h : as_table_slice name array = .ok slice) :
    slice.schema.name
        = (if name ≠ "" then name
          else if array.type.name ≠ "" then array.type.name else "tenzir.json")
    ∧ (name ≠ "" → name = array.type.name → slice.schema = array.type)
    ∧ array.type.kind = .record := by
  simp only [as_table_slice, except_bind_eq_ok, ensure_eq_ok] at h
  obtain ⟨_, hrec, _, _, h⟩ := h
  split at h
  · simp only [except_pure_eq_ok] at h
    subst h
    refine ⟨?_, ?_, hrec⟩
    · by_cases hn : name = ""
      · by_cases ha : array.type.name = ""
        · simp [hn, ha, type_named_name]
        · simp [hn, ha]
      · have hn1 : name ≠ "" := hn
        by_cases ha : name = array.type.name
        · rw [if_pos hn1, if_pos hn1, if_neg (not_not.mpr ha)]
          exact ha.symm
        · have ha1 : name ≠ array.type.name := ha
          rw [if_pos hn1, if_pos hn1, if_pos ha1]
          exact type_named_name name _ hn
    · intro hn ha
      rw [if_pos hn, if_neg (not_not.mpr ha)]
  · simp at h

theorem mapM_as_table_slice (name : String) (arrays : List typed_array) :
    ∀ slices, arrays.mapM (as_table_slice name) = .ok slices →
      List.Forall₂ (fun a sl => as_table_slice name a = .ok sl) arrays slices := by
  induction arrays with
  | nil =>
    intro slices h
    simp only [List.mapM_nil, pure, Except.pure, Except.ok.injEq] at h
    subst h
    exact List.Forall₂.nil
  | cons a rest ih =>
    intro slices h
    simp only [List.mapM_cons, except_bind_eq_ok, except_pure_eq_ok] at h
    obtain ⟨sl, hsl, sls, hsls, h⟩ := h
    subst h
    exact List.Forall₂.cons hsl (ih sls hsls)

/-- C26: every table slice that `finish_as_table_slice(name)` returns belongs to
one array of `finish()`, in order; the array has a record type, and the name
of the slice's schema is `name` when `name` is not empty, else the name of
the array's type when that is not empty, else `tenzir.json`; when `name` is
not empty and is the name of the array's type already, the schema is the
array's type itself, not wrapped again. -/
theorem table_slice_schema_naming (print : data_view2 → Option String)
    (s s1 : series_builder_impl) (name : String) (slices : List table_slice)
    (h : series_builder.finish_as_table_slice print s name = .ok (slices, s1)) :
    ∃ arrays, series_builder.finish print s = .ok (arrays, s1)
      ∧ List.Forall₂ (fun (a : typed_array) (sl : table_slice) =>
          a.type.kind = .record
          ∧ sl.schema.name
              = (if name ≠ "" then name
                else if a.type.name ≠ "" then a.type.name else "tenzir.json")
          ∧ (name ≠ "" → name = a.type.name → sl.schema = a.type)) arrays slices := by
  simp only [series_builder.finish_as_table_slice, except_bind_eq_ok, except_pure_eq_ok,
    Prod.mk.injEq] at h
  obtain ⟨⟨arrays, s2⟩, hf, result, hm, h1, h2⟩ := h
  subst h1 h2
  refine ⟨arrays, hf, ?_⟩
  have := mapM_as_table_slice name arrays result hm
  refine List.Forall₂.imp ?_ this
  intro a sl hsl
  obtain ⟨h1, h2, h3⟩ := as_table_slice_schema name a sl hsl
  exact ⟨h3, h1, h2⟩

theorem table_slice_schema_naming_witness :
    series_builder.finish_as_table_slice (fun _ => none)
        ⟨.mk (.record [("a", .mk (.atom (.basic .int64) [some (.int64 1)]) false .null)] [] 1
          none) false .null, [], false⟩ "zeek"
      = .ok ([⟨1, [.primitive [some (.int64 1)]],
          type.named "zeek" (.record [("a", .basic .int64)])⟩],
        ⟨.mk (.null 0) false .null, [], false⟩)
    ∧ ∃ arrays,
      series_builder.finish (fun _ => none)
          ⟨.mk (.record [("a", .mk (.atom (.basic .int64) [some (.int64 1)]) false .null)] []
            1 none) false .null, [], false⟩
        = .ok (arrays, ⟨.mk (.null 0) false .null, [], false⟩)
      ∧ List.Forall₂ (fun (a : typed_array) (sl : table_slice) =>
          a.type.kind = .record
          ∧ sl.schema.name
              = (if "zeek" ≠ "" then "zeek"
                else if a.type.name ≠ "" then a.type.name else "tenzir.json")
          ∧ ("zeek" ≠ "" → "zeek" = a.type.name → sl.schema = a.type)) arrays
          [⟨1, [.primitive [some (.int64 1)]],
            type.named "zeek" (.record [("a", .basic .int64)])⟩] :=
  ⟨rfl, table_slice_schema_naming (fun _ => none) _ _ "zeek" _ rfl⟩
theorem dynamic_builder_finish_is_protected (print : data_view2 → Option String)
    (d d1 : dynamic_builder) (grow count : Nat) (a : typed_array)
    (h : d.finish_and_leave print grow count = .ok (a, d1)) :
    d1.is_protected = d.is_protected := by
  obtain ⟨b, p, m⟩ := d
  simp only [dynamic_builder.finish_and_leave, ensure_eq_ok, except_bind_eq_ok,
    except_pure_eq_ok, Prod.mk.injEq] at h
  obtain ⟨_, _, ⟨result, b1⟩, _, _, _, _, h⟩ := h
  subst h
  split <;> rfl

theorem finish_fields_survivors (print : data_view2 → Option String)
    (fields : List (String × dynamic_builder)) :
    ∀ (len target : Nat) (keep : Option String) (arrays : List arrow_array)
      (fields1 : List (String × dynamic_builder)),
      finish_fields print fields len target keep = .ok (arrays, fields1) →
      fields1.map Prod.fst = (fields.filter (field_survives target keep)).map Prod.fst := by
  induction fields with
  | nil =>
    intro len target keep arrays fields1 h
    simp only [finish_fields, except_pure_eq_ok, Prod.mk.injEq] at h
    obtain ⟨_, h2⟩ := h
    subst h2
    rfl
  | cons f rest ih =>
    obtain ⟨name, builder⟩ := f
    intro len target keep arrays fields1 h
    simp only [finish_fields, ensure_eq_ok, except_bind_eq_ok, except_pure_eq_ok] at h
    obtain ⟨_, hle, ⟨array, builder1⟩, hb, _, hlen1, _, _, ⟨arrays1, rest1⟩, hr, h⟩ := h
    have ih1 := ih len target keep arrays1 rest1 hr
    have hprot := dynamic_builder_finish_is_protected print builder builder1 _ _ _ hb
    have hl : builder1.length = builder.length - target := by
      simp only at hlen1
      rw [hlen1]; omega
    simp only [Prod.mk.injEq] at h
    obtain ⟨_, h2⟩ := h
    have hcond : (builder1.length == 0 && !builder1.is_protected && keep != some name)
        = !(field_survives target keep (name, builder)) := by
      simp only [field_survives, hprot, hl]
      by_cases h0 : builder.length > target
      · have : ¬ (builder.length - target = 0) := by omega
        simp [h0, this]
      · have : builder.length - target = 0 := by omega
        simp [h0, this, bne]
    rw [hcond] at h2
    cases hs : field_survives target keep (name, builder) with
    | true =>
      simp only [hs, Bool.not_true, Bool.false_eq_true, if_false] at h2
      subst h2
      simp only [List.filter_cons, hs, if_true, List.map_cons, ih1]
    | false =>
      simp only [hs, Bool.not_false, if_true] at h2
      subst h2
      simp only [List.filter_cons, hs, Bool.false_eq_true, if_false]
      exact ih1

theorem fields_type_names (fields : List (String × dynamic_builder)) :
    (fields_type fields).map Prod.fst = fields.map Prod.fst := by
  induction fields with
  | nil => rfl
  | cons f rest ih =>
    obtain ⟨n, d⟩ := f
    simp only [fields_type, List.map_cons, ih]

/-- C24: after `finish_and_leave(count)` on a record builder the builder has
exactly the fields that retain rows (they were longer than the emitted
struct array), or are protected, or are the field that `keep_alive_`
designates, in their former order; the other fields are gone from its
fields and from its type. -/
theorem record_finish_collects_null_fields (print : data_view2 → Option String)
    (fields : List (String × dynamic_builder)) (valid : List Bool) (len : Nat)
    (keep_alive : Option String) (grow count : Nat) (a : typed_array) (b1 : builder_base)
    (h : (builder_base.record fields valid len keep_alive).finish_and_leave print grow count
      = .ok (a, b1)) :
    ∃ fields1 valid1,
      b1 = .record fields1 valid1 count keep_alive
      ∧ fields1.map Prod.fst
          = (fields.filter (field_survives (len + grow - count) keep_alive)).map Prod.fst
      ∧ b1.type = .record (fields_type fields1)
      ∧ (fields_type fields1).map Prod.fst
          = (fields.filter (field_survives (len + grow - count) keep_alive)).map Prod.fst := by
  simp only [builder_base.finish_and_leave, ensure_eq_ok, except_bind_eq_ok,
    except_pure_eq_ok] at h
  obtain ⟨_, _, ⟨children, fields1⟩, hf, ⟨bitmap, valid1⟩, _, h⟩ := h
  simp only [Prod.mk.injEq] at h
  obtain ⟨_, h2⟩ := h
  subst h2
  have := finish_fields_survivors print fields _ _ _ _ _ hf
  exact ⟨fields1, valid1, rfl, this, rfl, by rw [fields_type_names, this]⟩

theorem record_finish_collects_null_fields_witness :
    (builder_base.record [("a", .mk (.atom (.basic .int64) [some (.int64 1), some (.int64 2)]) false .null), ("b", .mk (.atom (.basic .int64) [some (.int64 1)]) false .null)] [] 2 none).finish_and_leave (fun _ => none) 0 1
      = .ok ((⟨.record [("a", .basic .int64), ("b", .basic .int64)], .struct 1 [.primitive [some (.int64 1)], .primitive [some (.int64 1)]] none⟩ : typed_array), (.record [("a", .mk (.atom (.basic .int64) [some (.int64 2)]) false .null)] [] 1 none))
    ∧ ∃ fields1 valid1,
      (.record [("a", .mk (.atom (.basic .int64) [some (.int64 2)]) false .null)] [] 1 none) = builder_base.record fields1 valid1 1 none
      ∧ fields1.map Prod.fst
          = (List.filter (field_survives (2 + 0 - 1) none) [("a", .mk (.atom (.basic .int64) [some (.int64 1), some (.int64 2)]) false .null), ("b", .mk (.atom (.basic .int64) [some (.int64 1)]) false .null)]).map Prod.fst
      ∧ builder_base.type (.record [("a", .mk (.atom (.basic .int64) [some (.int64 2)]) false .null)] [] 1 none) = .record (fields_type fields1)
      ∧ (fields_type fields1).map Prod.fst
          = (List.filter (field_survives (2 + 0 - 1) none) [("a", .mk (.atom (.basic .int64) [some (.int64 1), some (.int64 2)]) false .null), ("b", .mk (.atom (.basic .int64) [some (.int64 1)]) false .null)]).map Prod.fst :=
  ⟨rfl, record_finish_collects_null_fields (fun _ => none) [("a", .mk (.atom (.basic .int64) [some (.int64 1), some (.int64 2)]) false .null), ("b", .mk (.atom (.basic .int64) [some (.int64 1)]) false .null)] [] 2 none 0 1 (⟨.record [("a", .basic .int64), ("b", .basic .int64)], .struct 1 [.primitive [some (.int64 1)], .primitive [some (.int64 1)]] none⟩ : typed_array) (.record [("a", .mk (.atom (.basic .int64) [some (.int64 2)]) false .null)] [] 1 none) rfl⟩
/-- The event `{l: [{x: 1}]}` is opened: `record()` at the top level. -/
theorem nested_null_record_step1 (print : data_view2 → Option String) :
    call.run print series_builder_impl.new
      (.record .series)
      = .ok ⟨.mk (.record [] [] 1 none) false .null, [], false⟩ := rfl

/-- The field `l` of the first event becomes a list. -/
theorem nested_null_record_step2 (print : data_view2 → Option String) :
    call.run print ⟨.mk (.record [] [] 1 none) false .null, [], false⟩
      (.list (.field ⟨⟨[], none⟩, "l"⟩))
      = .ok ⟨.mk (.record [("l", .mk (.list [(0, true)] (.mk (.null 0) false .null)) false .null)] [] 1 none) false .null, [], false⟩ := rfl

/-- The list of the first event gets a record. -/
theorem nested_null_record_step3 (print : data_view2 → Option String) :
    call.run print ⟨.mk (.record [("l", .mk (.list [(0, true)] (.mk (.null 0) false .null)) false .null)] [] 1 none) false .null, [], false⟩
      (.record (.dynamic [.field none "l", .elements none]))
      = .ok ⟨.mk (.record [("l", .mk (.list [(0, true)] (.mk (.record [] [] 1 none) false .null)) false .null)] [] 1 none) false .null, [], false⟩ := rfl

/-- The record in the list gets `x: 1`. -/
theorem nested_null_record_step4 (print : data_view2 → Option String) :
    call.run print ⟨.mk (.record [("l", .mk (.list [(0, true)] (.mk (.record [] [] 1 none) false .null)) false .null)] [] 1 none) false .null, [], false⟩
      (.atom (.field ⟨⟨[.field none "l", .elements none], none⟩, "x"⟩) (.int64 1))
      = .ok ⟨.mk (.record [("l", .mk (.list [(0, true)] (.mk (.record [("x", .mk (.atom (.basic .int64) [some (.int64 1)]) false .null)] [] 1 none) false .null)) false .null)] [] 1 none) false .null, [], false⟩ := rfl

/-- The second event is opened. -/
theorem nested_null_record_step5 (print : data_view2 → Option String) :
    call.run print ⟨.mk (.record [("l", .mk (.list [(0, true)] (.mk (.record [("x", .mk (.atom (.basic .int64) [some (.int64 1)]) false .null)] [] 1 none) false .null)) false .null)] [] 1 none) false .null, [], false⟩
      (.record .series)
      = .ok ⟨.mk (.record [("l", .mk (.list [(0, true)] (.mk (.record [("x", .mk (.atom (.basic .int64) [some (.int64 1)]) false .null)] [] 1 none) false .null)) false .null)] [] 2 none) false .null, [], false⟩ := rfl

/-- The field `l` of the second event becomes a list. -/
theorem nested_null_record_step6 (print : data_view2 → Option String) :
    call.run print ⟨.mk (.record [("l", .mk (.list [(0, true)] (.mk (.record [("x", .mk (.atom (.basic .int64) [some (.int64 1)]) false .null)] [] 1 none) false .null)) false .null)] [] 2 none) false .null, [], false⟩
      (.list (.field ⟨⟨[], none⟩, "l"⟩))
      = .ok ⟨.mk (.record [("l", .mk (.list [(0, true), (1, true)] (.mk (.record [("x", .mk (.atom (.basic .int64) [some (.int64 1)]) false .null)] [] 1 none) false .null)) false .null)] [] 2 none) false .null, [], false⟩ := rfl

/-- The list of the second event gets a null: the record builder of the elements
records the validity `[true, false]`. -/
theorem nested_null_record_step7 (print : data_view2 → Option String) :
    call.run print ⟨.mk (.record [("l", .mk (.list [(0, true), (1, true)] (.mk (.record [("x", .mk (.atom (.basic .int64) [some (.int64 1)]) false .null)] [] 1 none) false .null)) false .null)] [] 2 none) false .null, [], false⟩
      (.atom (.dynamic [.field none "l", .elements none]) .null)
      = .ok ⟨.mk (.record [("l", .mk (.list [(0, true), (1, true)] (.mk (.record [("x", .mk (.atom (.basic .int64) [some (.int64 1)]) false .null)] [true, false] 2 none) false .null)) false .null)] [] 2 none) false .null, [], false⟩ := rfl

/-- The list of the second event gets a record: the elements builder has
length 3 and a validity of two entries. -/
theorem nested_null_record_step8 (print : data_view2 → Option String) :
    call.run print ⟨.mk (.record [("l", .mk (.list [(0, true), (1, true)] (.mk (.record [("x", .mk (.atom (.basic .int64) [some (.int64 1)]) false .null)] [true, false] 2 none) false .null)) false .null)] [] 2 none) false .null, [], false⟩
      (.record (.dynamic [.field none "l", .elements none]))
      = .ok ⟨.mk (.record [("l", .mk (.list [(0, true), (1, true)] (.mk (.record [("x", .mk (.atom (.basic .int64) [some (.int64 1)]) false .null)] [true, false] 3 none) false .null)) false .null)] [] 2 none) false .null, [], false⟩ := rfl

/-- The write of `x: "s"` asks for the earlier rows to be finished and stops at the
`TENZIR_TODO` of the record builder. -/
theorem nested_null_record_step9 (print : data_view2 → Option String) :
    call.run print ⟨.mk (.record [("l", .mk (.list [(0, true), (1, true)] (.mk (.record [("x", .mk (.atom (.basic .int64) [some (.int64 1)]) false .null)] [true, false] 3 none) false .null)) false .null)] [] 2 none) false .null, [], false⟩
      (.atom (.field ⟨⟨[.field none "l", .elements none], none⟩, "x"⟩) (.string "s"))
      = .error (.todo 772) := rfl

/-- C27: the events `{l: [{x: 1}]}` and then `{l: [null, {x: "s"}]}`: after the
first eight calls the record builder of the list elements holds the rows
`{x: 1}`, `null` and the record in progress, with a validity of two entries.
The write of `"s"` into `x` asks for the earlier rows to be finished; the
elements builder is asked to `finish_and_leave(2)`, its target length 1 is
below the two validity entries, and the call stops at the `TENZIR_TODO` of
line 772 instead of returning an array. -/
theorem record_finish_hits_todo_with_retained_null (print : data_view2 → Option String) :
    run_all print series_builder_impl.new
      [.record .series,
       .list (.field ⟨⟨[], none⟩, "l"⟩),
       .record (.dynamic [.field none "l", .elements none]),
       .atom (.field ⟨⟨[.field none "l", .elements none], none⟩, "x"⟩) (.int64 1),
       .record .series,
       .list (.field ⟨⟨[], none⟩, "l"⟩),
       .atom (.dynamic [.field none "l", .elements none]) .null,
       .record (.dynamic [.field none "l", .elements none])]
      = .ok ⟨.mk (.record [("l", .mk (.list [(0, true), (1, true)] (.mk (.record [("x", .mk (.atom (.basic .int64) [some (.int64 1)]) false .null)] [true, false] 3 none) false .null)) false .null)] [] 2 none) false .null, [], false⟩
    ∧ run_all print series_builder_impl.new
      [.record .series,
       .list (.field ⟨⟨[], none⟩, "l"⟩),
       .record (.dynamic [.field none "l", .elements none]),
       .atom (.field ⟨⟨[.field none "l", .elements none], none⟩, "x"⟩) (.int64 1),
       .record .series,
       .list (.field ⟨⟨[], none⟩, "l"⟩),
       .atom (.dynamic [.field none "l", .elements none]) .null,
       .record (.dynamic [.field none "l", .elements none]),
       .atom (.field ⟨⟨[.field none "l", .elements none], none⟩, "x"⟩) (.string "s")]
      = .error (.todo 772) := by
  constructor
  · simp only [run_all, List.foldlM_cons, List.foldlM_nil, nested_null_record_step1 print, nested_null_record_step2 print, nested_null_record_step3 print, nested_null_record_step4 print, nested_null_record_step5 print, nested_null_record_step6 print, nested_null_record_step7 print, nested_null_record_step8 print, except_bind_ok]
    rfl
  · simp only [run_all, List.foldlM_cons, List.foldlM_nil, nested_null_record_step1 print, nested_null_record_step2 print, nested_null_record_step3 print, nested_null_record_step4 print, nested_null_record_step5 print, nested_null_record_step6 print, nested_null_record_step7 print, nested_null_record_step8 print, nested_null_record_step9 print, except_bind_ok, except_bind_error]
/-- The event `{l: [[1]], a: 1}` is opened. -/
theorem retained_null_list_step1 (print : data_view2 → Option String) :
    call.run print
      series_builder_impl.new
      (.record .series)
      = .ok ⟨(.mk (.record [] [] 1 none) false .null), [], false⟩ := rfl

/-- The field `l` of the first event becomes a list. -/
theorem retained_null_list_step2 (print : data_view2 → Option String) :
    call.run print
      ⟨(.mk (.record [] [] 1 none) false .null), [], false⟩
      (.list (.field ⟨⟨[], none⟩, "l"⟩))
      = .ok ⟨(.mk (.record [("l", (.mk (.list [(0, true)] (.mk
      (.null 0) false .null)) false .null))] [] 1 none) false .null), [], false⟩ := rfl

/-- The list `l` gets a list. -/
theorem retained_null_list_step3 (print : data_view2 → Option String) :
    call.run print
      ⟨(.mk (.record [("l", (.mk (.list [(0, true)] (.mk (.null 0) false .null)) false .null))]
      [] 1 none) false .null), [], false⟩
      (.list (.dynamic [.field none "l", .elements none]))
      = .ok ⟨(.mk (.record [("l", (.mk (.list [(0, true)] (.mk (.list [(0, true)] (.mk
      (.null 0) false .null)) false .null)) false .null))] [] 1 none) false .null), [], false⟩ := rfl

/-- The inner list gets the element 1. -/
theorem retained_null_list_step4 (print : data_view2 → Option String) :
    call.run print
      ⟨(.mk (.record [("l", (.mk (.list [(0, true)] (.mk (.list [(0, true)] (.mk
      (.null 0) false .null)) false .null)) false .null))] [] 1 none) false .null), [], false⟩
      (.atom (.dynamic [.field none "l", .elements none, .elements none]) (.int64 1))
      = .ok ⟨(.mk (.record [("l", (.mk (.list [(0, true)] (.mk (.list [(0, true)] (.mk (.atom
      (.basic (.int64)) [some (.int64 1)]) false .null)) false .null)) false .null))]
      [] 1 none) false .null), [], false⟩ := rfl

/-- The field `a` of the first event gets 1. -/
theorem retained_null_list_step5 (print : data_view2 → Option String) :
    call.run print
      ⟨(.mk (.record [("l", (.mk (.list [(0, true)] (.mk (.list [(0, true)] (.mk (.atom (.basic
      (.int64)) [some (.int64 1)]) false .null)) false .null)) false .null))]
      [] 1 none) false .null), [], false⟩
      (.atom (.field ⟨⟨[], none⟩, "a"⟩) (.int64 1))
      = .ok ⟨(.mk (.record [("l", (.mk (.list [(0, true)] (.mk (.list [(0, true)] (.mk (.atom
      (.basic (.int64)) [some (.int64 1)]) false .null)) false .null)) false .null)), ("a", (.mk
      (.atom (.basic (.int64)) [some (.int64 1)]) false .null))] [] 1 none) false .null),
      [], false⟩ := rfl

/-- The second event `{l: [[2], null], a: "s"}` is opened. -/
theorem retained_null_list_step6 (print : data_view2 → Option String) :
    call.run print
      ⟨(.mk (.record [("l", (.mk (.list [(0, true)] (.mk (.list [(0, true)] (.mk (.atom (.basic
      (.int64)) [some (.int64 1)]) false .null)) false .null)) false .null)), ("a", (.mk (.atom
      (.basic (.int64)) [some (.int64 1)]) false .null))] [] 1 none) false .null), [], false⟩
      (.record .series)
      = .ok ⟨(.mk (.record [("l", (.mk (.list [(0, true)] (.mk (.list [(0, true)] (.mk (.atom
      (.basic (.int64)) [some (.int64 1)]) false .null)) false .null)) false .null)), ("a", (.mk
      (.atom (.basic (.int64)) [some (.int64 1)]) false .null))] [] 2 none) false .null),
      [], false⟩ := rfl

/-- The field `l` of the second event becomes a list. -/
theorem retained_null_list_step7 (print : data_view2 → Option String) :
    call.run print
      ⟨(.mk (.record [("l", (.mk (.list [(0, true)] (.mk (.list [(0, true)] (.mk (.atom (.basic
      (.int64)) [some (.int64 1)]) false .null)) false .null)) false .null)), ("a", (.mk (.atom
      (.basic (.int64)) [some (.int64 1)]) false .null))] [] 2 none) false .null), [], false⟩
      (.list (.field ⟨⟨[], none⟩, "l"⟩))
      = .ok ⟨(.mk (.record [("l", (.mk (.list [(0, true), (1, true)] (.mk (.list [(0, true)] (.mk
      (.atom (.basic (.int64)) [some (.int64 1)]) false .null)) false .null)) false .null)), ("a",
      (.mk (.atom (.basic (.int64)) [some (.int64 1)]) false .null))] [] 2 none) false .null),
      [], false⟩ := rfl

/-- The list `l` of the second event gets a list. -/
theorem retained_null_list_step8 (print : data_view2 → Option String) :
    call.run print
      ⟨(.mk (.record [("l", (.mk (.list [(0, true), (1, true)] (.mk (.list [(0, true)] (.mk (.atom
      (.basic (.int64)) [some (.int64 1)]) false .null)) false .null)) false .null)), ("a", (.mk
      (.atom (.basic (.int64)) [some (.int64 1)]) false .null))] [] 2 none) false .null),
      [], false⟩
      (.list (.dynamic [.field none "l", .elements none]))
      = .ok ⟨(.mk (.record [("l", (.mk (.list [(0, true), (1, true)] (.mk (.list [(0, true),
      (1, true)] (.mk (.atom (.basic (.int64)) [some
      (.int64 1)]) false .null)) false .null)) false .null)), ("a", (.mk (.atom (.basic (.int64))
      [some (.int64 1)]) false .null))] [] 2 none) false .null), [], false⟩ := rfl

/-- The inner list gets the element 2. -/
theorem retained_null_list_step9 (print : data_view2 → Option String) :
    call.run print
      ⟨(.mk (.record [("l", (.mk (.list [(0, true), (1, true)] (.mk (.list [(0, true), (1, true)]
      (.mk (.atom (.basic (.int64)) [some (.int64 1)]) false .null)) false .null)) false .null)),
      ("a", (.mk (.atom (.basic (.int64)) [some (.int64 1)]) false .null))]
      [] 2 none) false .null), [], false⟩
      (.atom (.dynamic [.field none "l", .elements none, .elements none]) (.int64 2))
      = .ok ⟨(.mk (.record [("l", (.mk (.list [(0, true), (1, true)] (.mk (.list [(0, true),
      (1, true)] (.mk (.atom (.basic (.int64)) [some (.int64 1), some
      (.int64 2)]) false .null)) false .null)) false .null)), ("a", (.mk (.atom (.basic (.int64))
      [some (.int64 1)]) false .null))] [] 2 none) false .null), [], false⟩ := rfl

/-- The list `l` of the second event gets a null: the builder of its elements holds
the lists `[1]`, `[2]` and a null list. -/
theorem retained_null_list_step10 (print : data_view2 → Option String) :
    call.run print
      ⟨(.mk (.record [("l", (.mk (.list [(0, true), (1, true)] (.mk (.list [(0, true), (1, true)]
      (.mk (.atom (.basic (.int64)) [some (.int64 1), some
      (.int64 2)]) false .null)) false .null)) false .null)), ("a", (.mk (.atom (.basic (.int64))
      [some (.int64 1)]) false .null))] [] 2 none) false .null), [], false⟩
      (.atom (.dynamic [.field none "l", .elements none]) .null)
      = .ok ⟨(.mk (.record [("l", (.mk (.list [(0, true), (1, true)] (.mk (.list [(0, true),
      (1, true), (2, false)] (.mk (.atom (.basic (.int64)) [some (.int64 1), some
      (.int64 2)]) false .null)) false .null)) false .null)), ("a", (.mk (.atom (.basic (.int64))
      [some (.int64 1)]) false .null))] [] 2 none) false .null), [], false⟩ := rfl

/-- The field `a` gets a string: the first event is cut off as a batch, and the
builder of the elements of `l` retains two lists, both valid. -/
theorem retained_null_list_step11 (print : data_view2 → Option String) :
    call.run print
      ⟨(.mk (.record [("l", (.mk (.list [(0, true), (1, true)] (.mk (.list [(0, true), (1, true),
      (2, false)] (.mk (.atom (.basic (.int64)) [some (.int64 1), some
      (.int64 2)]) false .null)) false .null)) false .null)), ("a", (.mk (.atom (.basic (.int64))
      [some (.int64 1)]) false .null))] [] 2 none) false .null), [], false⟩
      (.atom (.field ⟨⟨[], none⟩, "a"⟩) (.string "s"))
      = .ok ⟨(.mk (.record [("l", (.mk (.list [(0, true)] (.mk (.list [(0, true), (1, true)] (.mk
      (.atom (.basic (.int64)) [some (.int64 2)]) false .null)) false .null)) false .null)), ("a",
      (.mk (.atom (.basic (.string)) [some (.string "s")]) false .null))] [] 1 none) false .null),
      [⟨(tenzir.type.record [("l", (.list (.list (.basic .int64)))), ("a", (.basic .int64))]),
      (.struct 1 [(.list [0, 1] [true] (.list [0, 1] [true] (.primitive [some (.int64 1)]))),
      (.primitive [some (.int64 1)])] none)⟩], false⟩ := rfl

/-- A fresh series: the event `{l: [[2], null], a: "s"}` is opened. -/
theorem fresh_null_list_step1 (print : data_view2 → Option String) :
    call.run print
      series_builder_impl.new
      (.record .series)
      = .ok ⟨(.mk (.record [] [] 1 none) false .null), [], false⟩ := rfl

/-- The field `l` becomes a list on the fresh series. -/
theorem fresh_null_list_step2 (print : data_view2 → Option String) :
    call.run print
      ⟨(.mk (.record [] [] 1 none) false .null), [], false⟩
      (.list (.field ⟨⟨[], none⟩, "l"⟩))
      = .ok ⟨(.mk (.record [("l", (.mk (.list [(0, true)] (.mk
      (.null 0) false .null)) false .null))] [] 1 none) false .null), [], false⟩ := rfl

/-- The list `l` gets a list on the fresh series. -/
theorem fresh_null_list_step3 (print : data_view2 → Option String) :
    call.run print
      ⟨(.mk (.record [("l", (.mk (.list [(0, true)] (.mk (.null 0) false .null)) false .null))]
      [] 1 none) false .null), [], false⟩
      (.list (.dynamic [.field none "l", .elements none]))
      = .ok ⟨(.mk (.record [("l", (.mk (.list [(0, true)] (.mk (.list [(0, true)] (.mk
      (.null 0) false .null)) false .null)) false .null))] [] 1 none) false .null), [], false⟩ := rfl

/-- The inner list gets the element 2 on the fresh series. -/
theorem fresh_null_list_step4 (print : data_view2 → Option String) :
    call.run print
      ⟨(.mk (.record [("l", (.mk (.list [(0, true)] (.mk (.list [(0, true)] (.mk
      (.null 0) false .null)) false .null)) false .null))] [] 1 none) false .null), [], false⟩
      (.atom (.dynamic [.field none "l", .elements none, .elements none]) (.int64 2))
      = .ok ⟨(.mk (.record [("l", (.mk (.list [(0, true)] (.mk (.list [(0, true)] (.mk (.atom
      (.basic (.int64)) [some (.int64 2)]) false .null)) false .null)) false .null))]
      [] 1 none) false .null), [], false⟩ := rfl

/-- The list `l` gets a null on the fresh series. -/
theorem fresh_null_list_step5 (print : data_view2 → Option String) :
    call.run print
      ⟨(.mk (.record [("l", (.mk (.list [(0, true)] (.mk (.list [(0, true)] (.mk (.atom (.basic
      (.int64)) [some (.int64 2)]) false .null)) false .null)) false .null))]
      [] 1 none) false .null), [], false⟩
      (.atom (.dynamic [.field none "l", .elements none]) .null)
      = .ok ⟨(.mk (.record [("l", (.mk (.list [(0, true)] (.mk (.list [(0, true), (1, false)] (.mk
      (.atom (.basic (.int64)) [some (.int64 2)]) false .null)) false .null)) false .null))]
      [] 1 none) false .null), [], false⟩ := rfl

/-- The field `a` gets a string on the fresh series. -/
theorem fresh_null_list_step6 (print : data_view2 → Option String) :
    call.run print
      ⟨(.mk (.record [("l", (.mk (.list [(0, true)] (.mk (.list [(0, true), (1, false)] (.mk
      (.atom (.basic (.int64)) [some (.int64 2)]) false .null)) false .null)) false .null))]
      [] 1 none) false .null), [], false⟩
      (.atom (.field ⟨⟨[], none⟩, "a"⟩) (.string "s"))
      = .ok ⟨(.mk (.record [("l", (.mk (.list [(0, true)] (.mk (.list [(0, true), (1, false)] (.mk
      (.atom (.basic (.int64)) [some (.int64 2)]) false .null)) false .null)) false .null)), ("a",
      (.mk (.atom (.basic (.string)) [some (.string "s")]) false .null))] [] 1 none) false .null),
      [], false⟩ := rfl

/-- C28: the events `{l: [[1]], a: 1}` and then `{l: [[2], null], a: "s"}`. The
string in `a` cuts the first event off; the list builder of the elements of
`l` is asked to `finish_and_leave(2)` and retains the lists `[2]` and null.
Afterwards its two offsets are both valid: the retained null list has become
an empty list, where a fresh series that receives only the second event
holds the offsets `[(0, true), (1, false)]`. -/
theorem list_finish_revives_retained_null_list (print : data_view2 → Option String) :
    run_all print series_builder_impl.new
      [.record .series,
       .list (.field ⟨⟨[], none⟩, "l"⟩),
       .list (.dynamic [.field none "l", .elements none]),
       .atom (.dynamic [.field none "l", .elements none, .elements none]) (.int64 1),
       .atom (.field ⟨⟨[], none⟩, "a"⟩) (.int64 1),
       .record .series,
       .list (.field ⟨⟨[], none⟩, "l"⟩),
       .list (.dynamic [.field none "l", .elements none]),
       .atom (.dynamic [.field none "l", .elements none, .elements none]) (.int64 2),
       .atom (.dynamic [.field none "l", .elements none]) .null,
       .atom (.field ⟨⟨[], none⟩, "a"⟩) (.string "s")]
      = .ok ⟨(.mk (.record [("l", (.mk (.list [(0, true)] (.mk (.list [(0, true), (1, true)] (.mk
      (.atom (.basic (.int64)) [some (.int64 2)]) false .null)) false .null)) false .null)), ("a",
      (.mk (.atom (.basic (.string)) [some (.string "s")]) false .null))] [] 1 none) false .null),
      [⟨(tenzir.type.record [("l", (.list (.list (.basic .int64)))), ("a", (.basic .int64))]),
      (.struct 1 [(.list [0, 1] [true] (.list [0, 1] [true] (.primitive [some (.int64 1)]))),
      (.primitive [some (.int64 1)])] none)⟩], false⟩
    ∧ run_all print series_builder_impl.new
      [.record .series,
       .list (.field ⟨⟨[], none⟩, "l"⟩),
       .list (.dynamic [.field none "l", .elements none]),
       .atom (.dynamic [.field none "l", .elements none, .elements none]) (.int64 2),
       .atom (.dynamic [.field none "l", .elements none]) .null,
       .atom (.field ⟨⟨[], none⟩, "a"⟩) (.string "s")]
      = .ok ⟨(.mk (.record [("l", (.mk (.list [(0, true)] (.mk (.list [(0, true), (1, false)] (.mk
      (.atom (.basic (.int64)) [some (.int64 2)]) false .null)) false .null)) false .null)), ("a",
      (.mk (.atom (.basic (.string)) [some (.string "s")]) false .null))] [] 1 none) false .null),
      [], false⟩ := by
  constructor
  · simp only [run_all, List.foldlM_cons, List.foldlM_nil, except_bind_ok,
      retained_null_list_step1 print,
      retained_null_list_step2 print,
      retained_null_list_step3 print,
      retained_null_list_step4 print,
      retained_null_list_step5 print,
      retained_null_list_step6 print,
      retained_null_list_step7 print,
      retained_null_list_step8 print,
      retained_null_list_step9 print,
      retained_null_list_step10 print,
      retained_null_list_step11 print]
    rfl
  · simp only [run_all, List.foldlM_cons, List.foldlM_nil, except_bind_ok,
      fresh_null_list_step1 print,
      fresh_null_list_step2 print,
      fresh_null_list_step3 print,
      fresh_null_list_step4 print,
      fresh_null_list_step5 print,
      fresh_null_list_step6 print]
    rfl
/-- The number 1 is written to a fresh series. -/
theorem finish_after_removal_step1 (print : data_view2 → Option String) :
    call.run print
      series_builder_impl.new
      (.atom .series (.int64 1))
      = .ok ⟨(.mk (.atom (.basic (.int64)) [some (.int64 1)]) false .null), [], false⟩ := rfl

/-- The row is removed again: the root keeps its int64 builder, with no rows. -/
theorem finish_after_removal_step2 (print : data_view2 → Option String) :
    call.run print
      ⟨(.mk (.atom (.basic (.int64)) [some (.int64 1)]) false .null), [], false⟩
      (.remove_last)
      = .ok ⟨(.mk (.atom (.basic (.int64)) []) false .null), [], false⟩ := rfl

/-- The series is finished: no array is returned and the int64 builder stays. -/
theorem finish_after_removal_step3 (print : data_view2 → Option String) :
    call.run print
      ⟨(.mk (.atom (.basic (.int64)) []) false .null), [], false⟩
      (.finish)
      = .ok ⟨(.mk (.atom (.basic (.int64)) []) false .null), [], false⟩ := rfl

/-- The string stops at the assertion of line 1035: the builder has no rows and is
not the null builder. -/
theorem finish_after_removal_step4 (print : data_view2 → Option String) :
    call.run print
      ⟨(.mk (.atom (.basic (.int64)) []) false .null), [], false⟩
      (.atom .series (.string "s"))
      = .error (.assertion 1035) := rfl

/-- C36: `atom(1)`, `remove_last()`, `finish()` on a fresh series. After
`finish()` the series has no rows but its kind is `int64`, not null, and the
write `atom("s")` that follows stops at the assertion of line 1035; on a
freshly constructed series the same write returns. -/
theorem finish_keeps_emptied_typed_builder (print : data_view2 → Option String) :
    run_all print series_builder_impl.new
      [.atom .series (.int64 1),
       .remove_last,
       .finish]
      = .ok ⟨(.mk (.atom (.basic (.int64)) []) false .null), [], false⟩
    ∧ series_builder_impl.kind ⟨(.mk (.atom (.basic (.int64)) []) false .null), [], false⟩
      = .basic .int64
    ∧ run_all print series_builder_impl.new
      [.atom .series (.int64 1),
       .remove_last,
       .finish,
       .atom .series (.string "s")]
      = .error (.assertion 1035)
    ∧ run_all print series_builder_impl.new [.atom .series (.string "s")]
      = .ok ⟨.mk (.atom (.basic .string) [some (.string "s")]) false .null, [], false⟩ := by
  refine ⟨?_, rfl, ?_, rfl⟩
  · simp only [run_all, List.foldlM_cons, List.foldlM_nil, except_bind_ok,
      finish_after_removal_step1 print,
      finish_after_removal_step2 print,
      finish_after_removal_step3 print]
    rfl
  · simp only [run_all, List.foldlM_cons, List.foldlM_nil, except_bind_ok, except_bind_error,
      finish_after_removal_step1 print,
      finish_after_removal_step2 print,
      finish_after_removal_step3 print,
      finish_after_removal_step4 print]
/-- The event `{l: [[1]], a: 1}` is opened on a fresh series. -/
theorem retained_only_null_step1 (print : data_view2 → Option String) :
    call.run print
      series_builder_impl.new
      (.record .series)
      = .ok ⟨(.mk (.record [] [] 1 none) false .null), [], false⟩ := rfl

/-- The field `l` becomes a list in the first event. -/
theorem retained_only_null_step2 (print : data_view2 → Option String) :
    call.run print
      ⟨(.mk (.record [] [] 1 none) false .null), [], false⟩
      (.list (.field ⟨⟨[], none⟩, "l"⟩))
      = .ok ⟨(.mk (.record [("l", (.mk (.list [(0, true)] (.mk
      (.null 0) false .null)) false .null))] [] 1 none) false .null), [], false⟩ := rfl

/-- The list `l` gets a list in the first event. -/
theorem retained_only_null_step3 (print : data_view2 → Option String) :
    call.run print
      ⟨(.mk (.record [("l", (.mk (.list [(0, true)] (.mk (.null 0) false .null)) false .null))]
      [] 1 none) false .null), [], false⟩
      (.list (.dynamic [.field none "l", .elements none]))
      = .ok ⟨(.mk (.record [("l", (.mk (.list [(0, true)] (.mk (.list [(0, true)] (.mk
      (.null 0) false .null)) false .null)) false .null))] [] 1 none) false .null), [], false⟩ := rfl

/-- The inner list gets the element 1 in the first event. -/
theorem retained_only_null_step4 (print : data_view2 → Option String) :
    call.run print
      ⟨(.mk (.record [("l", (.mk (.list [(0, true)] (.mk (.list [(0, true)] (.mk
      (.null 0) false .null)) false .null)) false .null))] [] 1 none) false .null), [], false⟩
      (.atom (.dynamic [.field none "l", .elements none, .elements none]) (.int64 1))
      = .ok ⟨(.mk (.record [("l", (.mk (.list [(0, true)] (.mk (.list [(0, true)] (.mk (.atom
      (.basic (.int64)) [some (.int64 1)]) false .null)) false .null)) false .null))]
      [] 1 none) false .null), [], false⟩ := rfl

/-- The field `a` gets 1 in the first event. -/
theorem retained_only_null_step5 (print : data_view2 → Option String) :
    call.run print
      ⟨(.mk (.record [("l", (.mk (.list [(0, true)] (.mk (.list [(0, true)] (.mk (.atom (.basic
      (.int64)) [some (.int64 1)]) false .null)) false .null)) false .null))]
      [] 1 none) false .null), [], false⟩
      (.atom (.field ⟨⟨[], none⟩, "a"⟩) (.int64 1))
      = .ok ⟨(.mk (.record [("l", (.mk (.list [(0, true)] (.mk (.list [(0, true)] (.mk (.atom
      (.basic (.int64)) [some (.int64 1)]) false .null)) false .null)) false .null)), ("a", (.mk
      (.atom (.basic (.int64)) [some (.int64 1)]) false .null))] [] 1 none) false .null),
      [], false⟩ := rfl

/-- The event `{l: [null], a: "s"}` is opened. -/
theorem retained_only_null_step6 (print : data_view2 → Option String) :
    call.run print
      ⟨(.mk (.record [("l", (.mk (.list [(0, true)] (.mk (.list [(0, true)] (.mk (.atom (.basic
      (.int64)) [some (.int64 1)]) false .null)) false .null)) false .null)), ("a", (.mk (.atom
      (.basic (.int64)) [some (.int64 1)]) false .null))] [] 1 none) false .null), [], false⟩
      (.record .series)
      = .ok ⟨(.mk (.record [("l", (.mk (.list [(0, true)] (.mk (.list [(0, true)] (.mk (.atom
      (.basic (.int64)) [some (.int64 1)]) false .null)) false .null)) false .null)), ("a", (.mk
      (.atom (.basic (.int64)) [some (.int64 1)]) false .null))] [] 2 none) false .null),
      [], false⟩ := rfl

/-- The field `l` becomes a list in the second event. -/
theorem retained_only_null_step7 (print : data_view2 → Option String) :
    call.run print
      ⟨(.mk (.record [("l", (.mk (.list [(0, true)] (.mk (.list [(0, true)] (.mk (.atom (.basic
      (.int64)) [some (.int64 1)]) false .null)) false .null)) false .null)), ("a", (.mk (.atom
      (.basic (.int64)) [some (.int64 1)]) false .null))] [] 2 none) false .null), [], false⟩
      (.list (.field ⟨⟨[], none⟩, "l"⟩))
      = .ok ⟨(.mk (.record [("l", (.mk (.list [(0, true), (1, true)] (.mk (.list [(0, true)] (.mk
      (.atom (.basic (.int64)) [some (.int64 1)]) false .null)) false .null)) false .null)), ("a",
      (.mk (.atom (.basic (.int64)) [some (.int64 1)]) false .null))] [] 2 none) false .null),
      [], false⟩ := rfl

/-- The list `l` gets a null: the builder of its elements holds the list `[1]` and a
null list. -/
theorem retained_only_null_step8 (print : data_view2 → Option String) :
    call.run print
      ⟨(.mk (.record [("l", (.mk (.list [(0, true), (1, true)] (.mk (.list [(0, true)] (.mk (.atom
      (.basic (.int64)) [some (.int64 1)]) false .null)) false .null)) false .null)), ("a", (.mk
      (.atom (.basic (.int64)) [some (.int64 1)]) false .null))] [] 2 none) false .null),
      [], false⟩
      (.atom (.dynamic [.field none "l", .elements none]) .null)
      = .ok ⟨(.mk (.record [("l", (.mk (.list [(0, true), (1, true)] (.mk (.list [(0, true),
      (1, false)] (.mk (.atom (.basic (.int64)) [some
      (.int64 1)]) false .null)) false .null)) false .null)), ("a", (.mk (.atom (.basic (.int64))
      [some (.int64 1)]) false .null))] [] 2 none) false .null), [], false⟩ := rfl

/-- The field `a` gets a string: the builder of the elements of `l` is asked to
`finish_and_leave(1)`, and `FromArrays` fails on the null offset of the
retained list. -/
theorem retained_only_null_step9 (print : data_view2 → Option String) :
    call.run print
      ⟨(.mk (.record [("l", (.mk (.list [(0, true), (1, true)] (.mk (.list [(0, true), (1, false)]
      (.mk (.atom (.basic (.int64)) [some (.int64 1)]) false .null)) false .null)) false .null)),
      ("a", (.mk (.atom (.basic (.int64)) [some (.int64 1)]) false .null))]
      [] 2 none) false .null), [], false⟩
      (.atom (.field ⟨⟨[], none⟩, "a"⟩) (.string "s"))
      = .error (.status 668) := rfl

/-- C32: the events `{l: [[1]], a: 1}` and then `{l: [null], a: "s"}`. After
eight calls the unprotected dynamic builder of the elements of `l` has
length 2 and its last row is null. The string in `a` cuts the first event
off, and the elements builder is asked to `finish_and_leave(1)`: the one
retained row is null, and the call stops at `ValueOrDie()` of line 668
instead of returning an array of length 1 and becoming a null builder. -/
theorem finish_with_only_null_retained_fails (print : data_view2 → Option String) :
    run_all print series_builder_impl.new
      [.record .series,
       .list (.field ⟨⟨[], none⟩, "l"⟩),
       .list (.dynamic [.field none "l", .elements none]),
       .atom (.dynamic [.field none "l", .elements none, .elements none]) (.int64 1),
       .atom (.field ⟨⟨[], none⟩, "a"⟩) (.int64 1),
       .record .series,
       .list (.field ⟨⟨[], none⟩, "l"⟩),
       .atom (.dynamic [.field none "l", .elements none]) .null]
      = .ok ⟨(.mk (.record [("l", (.mk (.list [(0, true), (1, true)] (.mk (.list [(0, true),
      (1, false)] (.mk (.atom (.basic (.int64)) [some
      (.int64 1)]) false .null)) false .null)) false .null)), ("a", (.mk (.atom (.basic (.int64))
      [some (.int64 1)]) false .null))] [] 2 none) false .null), [], false⟩
    ∧ run_all print series_builder_impl.new
      [.record .series,
       .list (.field ⟨⟨[], none⟩, "l"⟩),
       .list (.dynamic [.field none "l", .elements none]),
       .atom (.dynamic [.field none "l", .elements none, .elements none]) (.int64 1),
       .atom (.field ⟨⟨[], none⟩, "a"⟩) (.int64 1),
       .record .series,
       .list (.field ⟨⟨[], none⟩, "l"⟩),
       .atom (.dynamic [.field none "l", .elements none]) .null,
       .atom (.field ⟨⟨[], none⟩, "a"⟩) (.string "s")]
      = .error (.status 668) := by
  constructor
  · simp only [run_all, List.foldlM_cons, List.foldlM_nil, except_bind_ok,
      retained_only_null_step1 print,
      retained_only_null_step2 print,
      retained_only_null_step3 print,
      retained_only_null_step4 print,
      retained_only_null_step5 print,
      retained_only_null_step6 print,
      retained_only_null_step7 print,
      retained_only_null_step8 print]
    rfl
  · simp only [run_all, List.foldlM_cons, List.foldlM_nil, except_bind_ok, except_bind_error,
      retained_only_null_step1 print,
      retained_only_null_step2 print,
      retained_only_null_step3 print,
      retained_only_null_step4 print,
      retained_only_null_step5 print,
      retained_only_null_step6 print,
      retained_only_null_step7 print,
      retained_only_null_step8 print,
      retained_only_null_step9 print]
/-- The method `subloc` stays inside a location when `pos` is at most the
length of the location. -/
theorem subloc_within_of_pos_le (l : location) (pos count : Nat)
    (h : l.begin ≤ l.end_) (he : l.end_ < 2 ^ 64) (hp : pos ≤ l.end_ - l.begin) :
    l.begin ≤ (l.subloc pos count).begin
    ∧ (l.subloc pos count).begin ≤ (l.subloc pos count).end_
    ∧ (l.subloc pos count).end_ ≤ l.end_ := by
  unfold location.subloc
  split
  · exact ⟨Nat.le_refl _, h, Nat.le_refl _⟩
  · have h1 : (l.begin + pos) % 2 ^ 64 = l.begin + pos := Nat.mod_eq_of_lt (by omega)
    have h2 : (l.end_ + 2 ^ 64 - (l.begin + pos)) % 2 ^ 64 = l.end_ - (l.begin + pos) := by
      have : l.end_ + 2 ^ 64 - (l.begin + pos) = (l.end_ - (l.begin + pos)) + 2 ^ 64 := by omega
      rw [this, Nat.add_mod_right]
      exact Nat.mod_eq_of_lt (by omega)
    simp only [h1, h2]
    split
    · exact ⟨by omega, by omega, Nat.le_refl _⟩
    · rename_i hc
      have h3 : (l.begin + pos + count) % 2 ^ 64 = l.begin + pos + count :=
        Nat.mod_eq_of_lt (by omega)
      simp only [h3]
      exact ⟨by omega, by omega, by omega⟩

/-- C39: the location `[5, 10)` and `pos = 8`: the guard `pos > end` compares the
relative position with the absolute end, lets the call pass, and `subloc`
returns the location with `begin = 13` and `end = 10`, which begins after
the end of the location it was taken from. On the unknown location `subloc`
returns the unknown location. -/
theorem subloc_leaves_the_location :
    location.subloc ⟨5, 10⟩ 8 (2 ^ 64 - 1) = ⟨13, 10⟩
    ∧ (location.subloc ⟨5, 10⟩ 8 (2 ^ 64 - 1)).end_
        < (location.subloc ⟨5, 10⟩ 8 (2 ^ 64 - 1)).begin
    ∧ ∀ pos count, location.unknown.subloc pos count = location.unknown := by
  refine ⟨by decide, by decide, ?_⟩
  intro pos count
  simp [location.subloc]
theorem builder_base_child_set_child (t : builder_base) (step : path_step)
    (c c1 : dynamic_builder) (h : t.child step = some c) :
    (t.set_child step c1).child step = some c1 := by
  cases t with
  | record fs valid n ka =>
    cases step with
    | field v name =>
      simp only [builder_base.child] at h
      simp only [builder_base.set_child, builder_base.child]
      exact fields_find_set fs name c c1 h
    | elements v => simp [builder_base.child] at h
  | list offs el =>
    cases step with
    | field v name => simp [builder_base.child] at h
    | elements v => rfl
  | null n => cases step <;> simp [builder_base.child] at h
  | atom t inner => cases step <;> simp [builder_base.child] at h
  | conflict ds vs => cases step <;> simp [builder_base.child] at h

theorem builder_base_set_child_not_conflict (t : builder_base) (step : path_step)
    (c c1 : dynamic_builder) (h : t.child step = some c) :
    ∀ ds vs, t.set_child step c1 ≠ .conflict ds vs := by
  intro ds vs
  cases t <;> cases step <;> simp [builder_base.child] at h <;>
    simp [builder_base.set_child]

theorem dynamic_builder_typed_set_typed (d : dynamic_builder) (variant : Option Nat)
    (t t1 : builder_base) (h : d.typed variant = some t)
    (hn : ∀ ds vs, t1 ≠ .conflict ds vs) :
    (d.set_typed variant t1).typed variant = some t1 := by
  obtain ⟨b, p, m⟩ := d
  cases variant with
  | none =>
    cases b with
    | conflict ds vs =>
      cases vs with
      | nil => simp [dynamic_builder.typed, dynamic_builder.builder_] at h
      | cons v rest =>
        simp [dynamic_builder.set_typed, dynamic_builder.typed, dynamic_builder.builder_]
    | null n =>
      cases t1 <;> first | rfl | exact absurd rfl (hn _ _)
    | atom a inner =>
      cases t1 <;> first | rfl | exact absurd rfl (hn _ _)
    | list offs el =>
      cases t1 <;> first | rfl | exact absurd rfl (hn _ _)
    | record fs valid n ka =>
      cases t1 <;> first | rfl | exact absurd rfl (hn _ _)
  | some i =>
    cases b with
    | conflict ds vs =>
      simp only [dynamic_builder.typed, dynamic_builder.builder_] at h
      simp only [dynamic_builder.set_typed, dynamic_builder.typed, dynamic_builder.builder_]
      have hi : i < vs.length := by
        rcases Nat.lt_or_ge i vs.length with hlt | hge
        · exact hlt
        · rw [List.get?_eq_none.mpr hge] at h
          exact absurd h (by simp)
      simp [List.get?_eq_getElem?, List.getElem?_set, hi]
    | null n => simp [dynamic_builder.typed, dynamic_builder.builder_] at h
    | atom a inner => simp [dynamic_builder.typed, dynamic_builder.builder_] at h
    | list offs el => simp [dynamic_builder.typed, dynamic_builder.builder_] at h
    | record fs valid n ka => simp [dynamic_builder.typed, dynamic_builder.builder_] at h

/-- A store through a pointer that can be dereferenced returns, and the pointer
designates the stored builder afterwards. -/
theorem dynamic_builder_set_of_get (path : builder_path) :
    ∀ (d c new : dynamic_builder), d.get path = .ok c →
      ∃ d1, d.set path new = .ok d1 ∧ d1.get path = .ok new := by
  induction path with
  | nil =>
    intro d c new _
    exact ⟨new, rfl, rfl⟩
  | cons step rest ih =>
    intro d c new h
    simp only [dynamic_builder.get] at h
    cases ht : d.typed step.variant with
    | none => simp [ht] at h
    | some t =>
      simp only [ht] at h
      cases hc : t.child step with
      | none => simp [hc] at h
      | some c0 =>
        simp only [hc] at h
        obtain ⟨c1, hset, hget⟩ := ih c0 c new h
        refine ⟨d.set_typed step.variant (t.set_child step c1), ?_, ?_⟩
        · simp only [dynamic_builder.set, ht, hc, hset, except_bind_ok]
          rfl
        · simp only [dynamic_builder.get,
            dynamic_builder_typed_set_typed d _ t _ ht
              (builder_base_set_child_not_conflict t step c0 c1 hc),
            builder_base_child_set_child t step c0 c1 hc, hget]

theorem series_set_of_get (s : series_builder_impl) (path : builder_path)
    (c new : dynamic_builder) (h : s.get path = .ok c) :
    ∃ s1, s.set path new = .ok s1 ∧ s1.get path = .ok new
      ∧ s1.finished_ = s.finished_ ∧ s1.has_conflict_ = s.has_conflict_ := by
  obtain ⟨d1, hset, hget⟩ := dynamic_builder_set_of_get path s.builder_ c new h
  refine ⟨{ s with builder_ := d1 }, ?_, hget, rfl, rfl⟩
  simp only [series_builder_impl.set, hset, except_bind_ok]
  rfl

/-- C38: `atom(null)` on a dynamic builder whose inner builder is a null, atom,
list or record builder returns; the builder that the pointer designates
afterwards has one more row, the same kind, the same protection and
metadata, and its earlier content is unchanged (a null builder counts one
more row, an atom builder has one more null slot, a list builder one more
null offset and the same elements, a record builder the same fields and one
more invalid row); the queue of finished batches and the conflict flag of
the series are unchanged, and the inner builder is no conflict builder. -/
theorem null_write_keeps_kind_and_rows (print : data_view2 → Option String)
    (s : series_builder_impl) (self : builder_path) (b : builder_base) (p : Bool) (m : type)
    (hget : s.get self = .ok (.mk b p m)) (hb : ∀ ds vs, b ≠ .conflict ds vs) :
    ∃ s1 b1, dynamic_builder.atom print s self .null = .ok s1
      ∧ s1.get self = .ok (.mk b1 p m)
      ∧ b1.length = b.length + 1
      ∧ b1.kind = b.kind
      ∧ (∀ ds vs, b1 ≠ .conflict ds vs)
      ∧ (∀ n, b = .null n → b1 = .null (n + 1))
      ∧ (∀ t inner, b = .atom t inner → b1 = .atom t (inner ++ [none]))
      ∧ (∀ offsets elements, b = .list offsets elements →
          b1 = .list (offsets ++ [(elements.length, false)]) elements)
      ∧ (∀ fields valid n keep_alive, b = .record fields valid n keep_alive →
          b1 = .record fields (valid ++ List.replicate (n - valid.length) true ++ [false])
            (n + 1) keep_alive)
      ∧ s1.finished_ = s.finished_
      ∧ s1.has_conflict_ = s.has_conflict_ := by
  have key : ∃ b1, b.resize (b.length + 1) = .ok b1
      ∧ b1.length = b.length + 1 ∧ b1.kind = b.kind
      ∧ (∀ ds vs, b1 ≠ .conflict ds vs)
      ∧ (∀ n, b = .null n → b1 = .null (n + 1))
      ∧ (∀ t inner, b = .atom t inner → b1 = .atom t (inner ++ [none]))
      ∧ (∀ offsets elements, b = .list offsets elements →
          b1 = .list (offsets ++ [(elements.length, false)]) elements)
      ∧ (∀ fields valid n keep_alive, b = .record fields valid n keep_alive →
          b1 = .record fields (valid ++ List.replicate (n - valid.length) true ++ [false])
            (n + 1) keep_alive) := by
    cases b with
    | null n =>
      refine ⟨.null (n + 1), rfl, rfl, rfl, (by intro _ _ h; cases h), ?_, ?_, ?_, ?_⟩
      · intro n1 h; cases h; rfl
      · intro _ _ h; cases h
      · intro _ _ h; cases h
      · intro _ _ _ _ h; cases h
    | atom t inner =>
      have h1 : inner.length < inner.length + 1 := Nat.lt_succ_self _
      refine ⟨.atom t (inner ++ [none]), ?_, by simp [builder_base.length], rfl,
        (by intro _ _ h; cases h), ?_, ?_, ?_, ?_⟩
      · simp only [builder_base.resize, builder_base.length, if_pos h1,
          Nat.add_sub_cancel_left]
        rfl
      · intro _ h; cases h
      · intro _ _ h; cases h; rfl
      · intro _ _ h; cases h
      · intro _ _ _ _ h; cases h
    | list offsets elements =>
      have h1 : ¬ (offsets.length + 1 < offsets.length) := by omega
      have h2 : offsets.length + 1 > offsets.length := Nat.lt_succ_self _
      refine ⟨.list (offsets ++ [(elements.length, false)]) elements, ?_,
        by simp [builder_base.length], rfl, (by intro _ _ h; cases h), ?_, ?_, ?_, ?_⟩
      · simp only [builder_base.resize, builder_base.length, if_neg h1, if_pos h2,
          Nat.add_sub_cancel_left]
        rfl
      · intro _ h; cases h
      · intro _ _ h; cases h
      · intro _ _ h; cases h; rfl
      · intro _ _ _ _ h; cases h
    | record fields valid n keep_alive =>
      have h1 : ¬ (n + 1 < n) := by omega
      have h2 : n + 1 > n := Nat.lt_succ_self _
      refine ⟨.record fields (valid ++ List.replicate (n - valid.length) true ++ [false])
        (n + 1) keep_alive, ?_, rfl, rfl, (by intro _ _ h; cases h), ?_, ?_, ?_, ?_⟩
      · simp only [builder_base.resize, builder_base.length, if_neg h1, if_pos h2,
          Nat.add_sub_cancel_left]
        rfl
      · intro _ h; cases h
      · intro _ _ h; cases h
      · intro _ _ h; cases h
      · intro _ _ _ _ h; cases h; rfl
    | conflict ds vs => exact absurd rfl (hb ds vs)
  obtain ⟨b1, hres, hlen, hkind, hnc, hrest⟩ := key
  obtain ⟨s1, hset, hget1, hfin, hflag⟩ := series_set_of_get s self _ (.mk b1 p m) hget
  refine ⟨s1, b1, ?_, hget1, hlen, hkind, hnc, hrest.1, hrest.2.1, hrest.2.2.1, hrest.2.2.2,
    hfin, hflag⟩
  simp only [dynamic_builder.atom, atom_view_to_type_t, hget, except_bind_ok,
    dynamic_builder.resize, dynamic_builder.length, dynamic_builder.builder_, hres]
  exact hset

theorem null_write_keeps_kind_and_rows_witness :
    series_builder_impl.get
        ⟨.mk (.list [(0, true)] (.mk (.atom (.basic .int64) [some (.int64 1)]) false .null))
          false .null, [], false⟩ [.elements none]
      = .ok (.mk (.atom (.basic .int64) [some (.int64 1)]) false .null)
    ∧ ∃ s1 b1, dynamic_builder.atom (fun _ => none)
          ⟨.mk (.list [(0, true)] (.mk (.atom (.basic .int64) [some (.int64 1)]) false .null))
            false .null, [], false⟩ [.elements none] .null = .ok s1
      ∧ s1.get [.elements none] = .ok (.mk b1 false .null)
      ∧ b1.length = (builder_base.atom (.basic .int64) [some (.int64 1)]).length + 1
      ∧ b1.kind = (builder_base.atom (.basic .int64) [some (.int64 1)]).kind
      ∧ (∀ ds vs, b1 ≠ .conflict ds vs)
      ∧ (∀ n, builder_base.atom (.basic .int64) [some (.int64 1)] = .null n →
          b1 = .null (n + 1))
      ∧ (∀ t inner, builder_base.atom (.basic .int64) [some (.int64 1)] = .atom t inner →
          b1 = .atom t (inner ++ [none]))
      ∧ (∀ offsets elements,
          builder_base.atom (.basic .int64) [some (.int64 1)] = .list offsets elements →
          b1 = .list (offsets ++ [(elements.length, false)]) elements)
      ∧ (∀ fields valid n keep_alive,
          builder_base.atom (.basic .int64) [some (.int64 1)]
            = .record fields valid n keep_alive →
          b1 = .record fields (valid ++ List.replicate (n - valid.length) true ++ [false])
            (n + 1) keep_alive)
      ∧ s1.finished_ = []
      ∧ s1.has_conflict_ = false :=
  ⟨rfl, null_write_keeps_kind_and_rows (fun _ => none)
    ⟨.mk (.list [(0, true)] (.mk (.atom (.basic .int64) [some (.int64 1)]) false .null))
      false .null, [], false⟩ [.elements none]
    (.atom (.basic .int64) [some (.int64 1)]) false .null rfl
    (by intro _ _ h; cases h)⟩
/-- The method `finish_previous_events(requester)` on a root builder of length `n`.
A requester that is not the root, `n ≥ 2`: the root is asked to
`finish_and_leave(1)`; when that call returns, its array has `n - 1` rows,
it is appended to the queue as the one new batch and the root is left with
1 row. The root as requester, `n ≥ 1`: the root is asked to
`finish_and_leave(0)`, the batch has `n` rows and the root is left with none.
With `n = 0`, or `n = 1` and a requester that is not the root, the series is
unchanged. The call stops exactly when `finish_and_leave` of the root stops:
the two assertions after it hold. -/
theorem finish_previous_events_when_root_returns (print : data_view2 → Option String)
    (s : series_builder_impl) :
    (2 ≤ s.builder_.length →
      (∀ slice b1, s.builder_.finish_and_leave print 0 1 = .ok (slice, b1) →
        s.finish_previous_events print false
          = .ok { s with builder_ := b1, finished_ := s.finished_ ++ [slice] }
        ∧ slice.length = s.builder_.length - 1 ∧ b1.length = 1)
      ∧ (∀ e, s.builder_.finish_and_leave print 0 1 = .error e →
        s.finish_previous_events print false = .error e))
    ∧ (1 ≤ s.builder_.length →
      (∀ slice b1, s.builder_.finish_and_leave print 0 0 = .ok (slice, b1) →
        s.finish_previous_events print true
          = .ok { s with builder_ := b1, finished_ := s.finished_ ++ [slice] }
        ∧ slice.length = s.builder_.length ∧ b1.length = 0)
      ∧ (∀ e, s.builder_.finish_and_leave print 0 0 = .error e →
        s.finish_previous_events print true = .error e))
    ∧ (s.builder_.length = 0 → ∀ requester_is_root,
      s.finish_previous_events print requester_is_root = .ok s)
    ∧ (s.builder_.length = 1 → s.finish_previous_events print false = .ok s) := by
  refine ⟨?_, ?_, ?_, ?_⟩
  · intro hn
    have h0 : ¬ s.builder_.length = 0 := by omega
    have h1 : ¬ s.builder_.length = 1 := by omega
    constructor
    · intro slice b1 h
      have hl := dynamic_builder_finish_and_leave_length print _ _ _ _ _ h
      have hpos : slice.length > 0 := by omega
      refine ⟨?_, by omega, hl.2⟩
      simp [series_builder_impl.finish_previous_events, h0, h1, h, except_bind_ok,
        ensure_true hl.2, ensure_true hpos]
    · intro e h
      simp [series_builder_impl.finish_previous_events, h0, h1, h, except_bind_error]
  · intro hn
    have h0 : ¬ s.builder_.length = 0 := by omega
    constructor
    · intro slice b1 h
      have hl := dynamic_builder_finish_and_leave_length print _ _ _ _ _ h
      have hpos : slice.length > 0 := by omega
      refine ⟨?_, by omega, hl.2⟩
      simp [series_builder_impl.finish_previous_events, h0, h, except_bind_ok,
        ensure_true hl.2, ensure_true hpos]
    · intro e h
      simp [series_builder_impl.finish_previous_events, h0, h, except_bind_error]
  · intro hn r
    simp [series_builder_impl.finish_previous_events, hn]
    rfl
  · intro hn
    simp [series_builder_impl.finish_previous_events, hn]
    rfl

theorem finish_previous_events_when_root_returns_witness :
    2 ≤ (dynamic_builder.mk (.record
        [("x", .mk (.atom (.basic .int64) [some (.int64 1), some (.int64 2)]) false .null)]
        [] 2 none) false .null).length
    ∧ series_builder_impl.finish_previous_events (fun _ => none)
        ⟨.mk (.record
          [("x", .mk (.atom (.basic .int64) [some (.int64 1), some (.int64 2)]) false .null)]
          [] 2 none) false .null, [], false⟩ false
      = .ok ⟨.mk (.record
          [("x", .mk (.atom (.basic .int64) [some (.int64 2)]) false .null)]
          [] 1 none) false .null,
          [⟨.record [("x", .basic .int64)], .struct 1 [.primitive [some (.int64 1)]] none⟩],
          false⟩ :=
  ⟨by decide,
    (((finish_previous_events_when_root_returns (fun _ => none)
      ⟨.mk (.record
        [("x", .mk (.atom (.basic .int64) [some (.int64 1), some (.int64 2)]) false .null)]
        [] 2 none) false .null, [], false⟩).1 (by decide)).1
      ⟨.record [("x", .basic .int64)], .struct 1 [.primitive [some (.int64 1)]] none⟩
      (.mk (.record
          [("x", .mk (.atom (.basic .int64) [some (.int64 2)]) false .null)]
          [] 1 none) false .null) rfl).1⟩
/-! ## Stores and loads through pointers -/

theorem dynamic_builder_get_append (p : builder_path) :
    ∀ (d : dynamic_builder) (q : builder_path),
      d.get (p ++ q) = d.get p >>= fun c => c.get q := by
  induction p with
  | nil =>
    intro d q
    simp only [List.nil_append, dynamic_builder.get, pure, Except.pure, except_bind_ok]
  | cons step rest ih =>
    intro d q
    rw [List.cons_append]
    simp only [dynamic_builder.get]
    cases d.typed step.variant with
    | none => rfl
    | some t =>
      dsimp only
      cases t.child step with
      | none => rfl
      | some c => exact ih c q

theorem builder_base_set_child_set_child (t : builder_base) (step : path_step)
    (c1 c2 : dynamic_builder) :
    (t.set_child step c1).set_child step c2 = t.set_child step c2 := by
  cases t <;> cases step <;> simp [builder_base.set_child, fields_set_set]

theorem dynamic_builder_set_typed_set_typed (d : dynamic_builder) (variant : Option Nat)
    (t t1 t2 : builder_base) (h : d.typed variant = some t)
    (hn : ∀ ds vs, t1 ≠ .conflict ds vs) :
    (d.set_typed variant t1).set_typed variant t2 = d.set_typed variant t2 := by
  obtain ⟨b, p, m⟩ := d
  cases variant with
  | none =>
    cases b with
    | conflict ds vs => simp [dynamic_builder.set_typed]
    | null n => cases t1 <;> first | rfl | exact absurd rfl (hn _ _)
    | atom a inner => cases t1 <;> first | rfl | exact absurd rfl (hn _ _)
    | list offs el => cases t1 <;> first | rfl | exact absurd rfl (hn _ _)
    | record fs valid n ka => cases t1 <;> first | rfl | exact absurd rfl (hn _ _)
  | some i =>
    cases b with
    | conflict ds vs => simp [dynamic_builder.set_typed]
    | null n => rfl
    | atom a inner => rfl
    | list offs el => rfl
    | record fs valid n ka => rfl

/-- A second store through the same pointer replaces the first. -/
theorem dynamic_builder_set_set (p : builder_path) :
    ∀ (d d1 x y : dynamic_builder), d.set p x = .ok d1 → d1.set p y = d.set p y := by
  induction p with
  | nil =>
    intro d d1 x y _
    rfl
  | cons step rest ih =>
    intro d d1 x y h
    simp only [dynamic_builder.set] at h
    cases ht : d.typed step.variant with
    | none => simp [ht] at h
    | some t =>
      simp only [ht] at h
      cases hc : t.child step with
      | none => simp [hc] at h
      | some c =>
        simp only [hc, except_bind_eq_ok, except_pure_eq_ok] at h
        obtain ⟨c1, hset, h⟩ := h
        subst h
        have hnc := builder_base_set_child_not_conflict t step c c1 hc
        simp only [dynamic_builder.set, ht, hc,
          dynamic_builder_typed_set_typed d _ t _ ht hnc,
          builder_base_child_set_child t step c c1 hc, ih c c1 x y hset]
        cases c.set rest y with
        | error e => rfl
        | ok c2 =>
          simp only [except_bind_ok, builder_base_set_child_set_child,
            dynamic_builder_set_typed_set_typed d _ t _ _ ht hnc]

theorem dynamic_builder_set_append (p : builder_path) :
    ∀ (d : dynamic_builder) (q : builder_path) (new : dynamic_builder),
      d.set (p ++ q) new = d.get p >>= fun c => c.set q new >>= fun c1 => d.set p c1 := by
  induction p with
  | nil =>
    intro d q new
    simp only [List.nil_append, dynamic_builder.get, dynamic_builder.set, pure, Except.pure,
      except_bind_ok]
    cases d.set q new <;> rfl
  | cons step rest ih =>
    intro d q new
    rw [List.cons_append]
    simp only [dynamic_builder.get, dynamic_builder.set]
    cases d.typed step.variant with
    | none => rfl
    | some t =>
      dsimp only
      cases hc : t.child step with
      | none => rfl
      | some c =>
        dsimp only
        rw [ih c q new]
        cases c.get rest with
        | error e => rfl
        | ok c0 =>
          simp only [except_bind_ok]
          cases c0.set q new with
          | error e => rfl
          | ok c1 => simp only [except_bind_ok]

theorem series_set_set (s s1 : series_builder_impl) (p : builder_path) (x y : dynamic_builder)
    (h : s.set p x = .ok s1) : s1.set p y = s.set p y := by
  simp only [series_builder_impl.set, except_bind_eq_ok, except_pure_eq_ok] at h
  obtain ⟨b, hb, h⟩ := h
  subst h
  simp only [series_builder_impl.set, dynamic_builder_set_set p _ _ x y hb]

theorem series_get_set (s s1 : series_builder_impl) (p : builder_path) (x : dynamic_builder)
    (h : s.set p x = .ok s1) : s1.get p = .ok x := by
  simp only [series_builder_impl.set, except_bind_eq_ok, except_pure_eq_ok] at h
  obtain ⟨b, hb, h⟩ := h
  subst h
  have hg : ∃ c, s.builder_.get p = .ok c := by
    revert hb
    generalize s.builder_ = d
    induction p generalizing d b with
    | nil => intro _; exact ⟨d, rfl⟩
    | cons step rest ih =>
      intro hb
      simp only [dynamic_builder.set] at hb
      simp only [dynamic_builder.get]
      cases ht : d.typed step.variant with
      | none => simp [ht] at hb
      | some t =>
        simp only [ht] at hb
        cases hc : t.child step with
        | none => simp [hc] at hb
        | some c =>
          simp only [hc, except_bind_eq_ok, except_pure_eq_ok] at hb
          obtain ⟨c1, hset, _⟩ := hb
          simp only [hc]
          exact ih c1 c hset
  obtain ⟨c, hc⟩ := hg
  obtain ⟨d1, hset, hget⟩ := dynamic_builder_set_of_get p s.builder_ c x hc
  rw [hset] at hb
  cases hb
  exact hget
/-! ## A record builder behind a pointer -/

theorem record_ref_get_at (s : series_builder_impl) (r : record_ref) (d : dynamic_builder)
    (fields : List (String × dynamic_builder)) (valid : List Bool) (len : Nat)
    (ka : Option String) (hown : s.get r.owner = .ok d)
    (htyp : d.typed r.variant = some (.record fields valid len ka)) :
    record_ref.get s r = .ok (d, fields, valid, len, ka) := by
  simp only [record_ref.get, hown, except_bind_ok, htyp]
  rfl

theorem field_path_get (s : series_builder_impl) (r : record_ref) (d : dynamic_builder)
    (fields : List (String × dynamic_builder)) (valid : List Bool) (len : Nat)
    (ka : Option String) (name : String) (c : dynamic_builder)
    (hown : s.get r.owner = .ok d)
    (htyp : d.typed r.variant = some (.record fields valid len ka))
    (hf : fields_find fields name = some c) :
    s.get (r.owner ++ [.field r.variant name]) = .ok c := by
  simp only [series_builder_impl.get] at hown
  simp only [series_builder_impl.get, dynamic_builder_get_append, hown, except_bind_ok,
    dynamic_builder.get, path_step.variant, htyp, builder_base.child, hf]
  rfl

theorem field_path_set (s : series_builder_impl) (r : record_ref) (d : dynamic_builder)
    (fields : List (String × dynamic_builder)) (valid : List Bool) (len : Nat)
    (ka : Option String) (name : String) (c c1 : dynamic_builder)
    (hown : s.get r.owner = .ok d)
    (htyp : d.typed r.variant = some (.record fields valid len ka))
    (hf : fields_find fields name = some c) :
    s.set (r.owner ++ [.field r.variant name]) c1
      = s.set r.owner (d.set_typed r.variant
          (.record (fields_set fields name c1) valid len ka)) := by
  simp only [series_builder_impl.get] at hown
  simp only [series_builder_impl.set, dynamic_builder_set_append, hown, except_bind_ok,
    dynamic_builder.set, path_step.variant, htyp, builder_base.child, hf,
    builder_base.set_child, pure, Except.pure]

theorem record_not_conflict (fields : List (String × dynamic_builder)) (valid : List Bool)
    (len : Nat) (ka : Option String) :
    ∀ ds vs, builder_base.record fields valid len ka ≠ .conflict ds vs := by
  intro ds vs h
  cases h

theorem resized_append_one (slots : List (Option atom_view)) (x : Option atom_view) :
    resized (slots ++ [x]) slots.length = slots := by
  simp [resized]

theorem dynamic_builder_typed_atom (t : atom_type) (inner : List (Option atom_view))
    (p : Bool) (m : type) :
    (dynamic_builder.mk (.atom t inner) p m).typed none = some (.atom t inner) := rfl

theorem dynamic_builder_set_typed_atom (t : atom_type) (inner : List (Option atom_view))
    (p : Bool) (m : type) (t1 : builder_base) :
    (dynamic_builder.mk (.atom t inner) p m).set_typed none t1 = .mk t1 p m := rfl

/-- Writing a scalar into an existing field of its kind, through any pointer to
a record builder: the field is cut or filled up to the rows before the
current one and gets the value; nothing else in the series changes. -/
theorem field_atom_same_at (print : data_view2 → Option String) (s : series_builder_impl)
    (r : record_ref) (d : dynamic_builder) (fields : List (String × dynamic_builder))
    (valid : List Bool) (len : Nat) (name : String) (k : basic_kind)
    (slots : List (Option atom_view)) (fp : Bool) (fm : type) (v : atom_view)
    (hown : s.get r.owner = .ok d)
    (htyp : d.typed r.variant = some (.record fields valid len none))
    (hf : fields_find fields name = some (.mk (.atom (.basic k) slots) fp fm))
    (hv : atom_view_to_type_t v = .basic k) (hlen : 1 ≤ len) :
    field_ref.atom print s ⟨r, name⟩ v
      = s.set r.owner (d.set_typed r.variant (.record (fields_set fields name
          (.mk (.atom (.basic k) (resized slots (len - 1) ++ [some v])) fp fm))
          valid len none)) := by
  have hF1 := fields_find_set fields name _
    (.mk (.atom (.basic k) (resized slots (len - 1))) fp fm) hf
  obtain ⟨s1, hs1, hg1, _, _⟩ := series_set_of_get s r.owner d
    (d.set_typed r.variant (.record (fields_set fields name
      (.mk (.atom (.basic k) (resized slots (len - 1))) fp fm)) valid len (some name))) hown
  have ht1 := dynamic_builder_typed_set_typed d r.variant _
    (.record (fields_set fields name
      (.mk (.atom (.basic k) (resized slots (len - 1))) fp fm)) valid len (some name))
    htyp (record_not_conflict _ _ _ _)
  obtain ⟨s3, hs3, hg3, _, _⟩ := series_set_of_get s r.owner d
    (d.set_typed r.variant (.record (fields_set fields name
      (.mk (.atom (.basic k) (resized slots (len - 1))) fp fm)) valid len none)) hown
  have ht3 := dynamic_builder_typed_set_typed d r.variant _
    (.record (fields_set fields name
      (.mk (.atom (.basic k) (resized slots (len - 1))) fp fm)) valid len none)
    htyp (record_not_conflict _ _ _ _)
  have hprep : dynamic_builder.prepare print s1 (r.owner ++ [.field r.variant name])
      (.basic k) = .ok (s1, none) := by
    simp only [dynamic_builder.prepare, field_path_get s1 r _ _ _ _ _ name _ hg1 ht1 hF1,
      except_bind_ok, prepare_cast_same_atom,
      field_path_set s1 r _ _ _ _ _ name _ _ hg1 ht1 hF1, fields_set_set,
      dynamic_builder_set_typed_set_typed d r.variant _ _ _ htyp (record_not_conflict _ _ _ _),
      series_set_set s s1 _ _ _ hs1, hs1]
    rfl
  simp only [field_ref.atom, hv, typed_builder.prepare_field,
    record_ref_get_at s r d fields valid len none hown htyp, except_bind_ok, hf, atom_resize,
    ensure_true hlen, ensure_true, record_ref.set, hs1, hprep, pure, Except.pure,
    record_ref_get_at s1 r _ _ _ _ _ hg1 ht1,
    dynamic_builder_set_typed_set_typed d r.variant _ _ _ htyp (record_not_conflict _ _ _ _),
    series_set_set s s1 _ _ _ hs1, hs3, typed_builder.append_atom,
    field_path_get s3 r _ _ _ _ _ name _ hg3 ht3 hF1, dynamic_builder_typed_atom,
    dynamic_builder_set_typed_atom,
    field_path_set s3 r _ _ _ _ _ name _ _ hg3 ht3 hF1, fields_set_set,
    series_set_set s s3 _ _ _ hs3]

theorem fields_find_set_other (fs : List (String × dynamic_builder)) (name other : String)
    (b : dynamic_builder) (h : other ≠ name) :
    fields_find (fields_set fs name b) other = fields_find fs other := by
  induction fs with
  | nil => rfl
  | cons f rest ih =>
    obtain ⟨n, d⟩ := f
    rw [fields_set_cons]
    by_cases hn : n = name
    · subst hn
      rw [if_pos rfl, fields_find_cons, fields_find_cons, if_neg h, if_neg h, ih]
    · rw [if_neg hn, fields_find_cons, fields_find_cons, ih]

theorem resized_getD (slots : List (Option atom_view)) (n i : Nat) (h : i < n) :
    (resized slots n).getD i none = slots.getD i none := by
  simp only [resized, List.getD_eq_getElem?_getD, List.getElem?_take, if_pos h,
    List.getElem?_append, List.getElem?_replicate]
  by_cases hs : i < slots.length
  · simp [hs]
  · have h1 : slots[i]? = none := List.getElem?_eq_none (by omega)
    simp only [hs, h1, if_false]
    split <;> rfl

/-- C35: a record builder of length `L ≥ 1` behind any pointer, and a field of it
whose builder is an atom builder of kind `K`. Writing `v1` and then `v2`,
both of kind `K`, into the field returns and leaves the series as one write
of `v2` does: the field builder has length `L`, its last slot holds `v2`,
its earlier slots are the slots it had (null where it had none), the other
fields, the validity and the length of the record are unchanged, and so are
the queue of finished batches and the conflict flag. -/
theorem last_write_wins_within_row (print : data_view2 → Option String)
    (s : series_builder_impl) (r : record_ref) (d : dynamic_builder)
    (fields : List (String × dynamic_builder)) (valid : List Bool) (len : Nat)
    (name : String) (k : basic_kind) (slots : List (Option atom_view)) (fp : Bool) (fm : type)
    (v1 v2 : atom_view)
    (hown : s.get r.owner = .ok d)
    (htyp : d.typed r.variant = some (.record fields valid len none))
    (hlen : 1 ≤ len)
    (hf : fields_find fields name = some (.mk (.atom (.basic k) slots) fp fm))
    (hv1 : atom_view_to_type_t v1 = .basic k) (hv2 : atom_view_to_type_t v2 = .basic k) :
    ∃ s2 d2 fields2,
      (field_ref.atom print s ⟨r, name⟩ v1 >>= fun s1 => field_ref.atom print s1 ⟨r, name⟩ v2)
        = .ok s2
      ∧ field_ref.atom print s ⟨r, name⟩ v2 = .ok s2
      ∧ record_ref.get s2 r = .ok (d2, fields2, valid, len, none)
      ∧ fields_find fields2 name
          = some (.mk (.atom (.basic k) (resized slots (len - 1) ++ [some v2])) fp fm)
      ∧ (resized slots (len - 1) ++ [some v2]).length = len
      ∧ (resized slots (len - 1) ++ [some v2]).getD (len - 1) none = some v2
      ∧ (∀ i, i < len - 1 →
          (resized slots (len - 1) ++ [some v2]).getD i none = slots.getD i none)
      ∧ (∀ other, other ≠ name → fields_find fields2 other = fields_find fields other)
      ∧ fields2.map Prod.fst = fields.map Prod.fst
      ∧ s2.finished_ = s.finished_
      ∧ s2.has_conflict_ = s.has_conflict_ := by
  have hF1 := fields_find_set fields name _
    (.mk (.atom (.basic k) (resized slots (len - 1) ++ [some v1])) fp fm) hf
  obtain ⟨s1, hs1, hg1, _, _⟩ := series_set_of_get s r.owner d
    (d.set_typed r.variant (.record (fields_set fields name
      (.mk (.atom (.basic k) (resized slots (len - 1) ++ [some v1])) fp fm)) valid len none))
    hown
  have ht1 := dynamic_builder_typed_set_typed d r.variant _
    (.record (fields_set fields name
      (.mk (.atom (.basic k) (resized slots (len - 1) ++ [some v1])) fp fm)) valid len none)
    htyp (record_not_conflict _ _ _ _)
  obtain ⟨s2, hs2, hg2, hfin, hflag⟩ := series_set_of_get s r.owner d
    (d.set_typed r.variant (.record (fields_set fields name
      (.mk (.atom (.basic k) (resized slots (len - 1) ++ [some v2])) fp fm)) valid len none))
    hown
  have ht2 := dynamic_builder_typed_set_typed d r.variant _
    (.record (fields_set fields name
      (.mk (.atom (.basic k) (resized slots (len - 1) ++ [some v2])) fp fm)) valid len none)
    htyp (record_not_conflict _ _ _ _)
  have hw1 := field_atom_same_at print s r d fields valid len name k slots fp fm v1 hown htyp
    hf hv1 hlen
  have hw2 := field_atom_same_at print s r d fields valid len name k slots fp fm v2 hown htyp
    hf hv2 hlen
  have hw12 := field_atom_same_at print s1 r _ _ valid len name k _ fp fm v2 hg1 ht1 hF1 hv2
    hlen
  have hres : resized (resized slots (len - 1) ++ [some v1]) (len - 1)
      = resized slots (len - 1) := by
    have := resized_append_one (resized slots (len - 1)) (some v1)
    rwa [resized_length] at this
  rw [hres, fields_set_set,
    dynamic_builder_set_typed_set_typed d r.variant _ _ _ htyp (record_not_conflict _ _ _ _),
    series_set_set s s1 _ _ _ hs1, hs2] at hw12
  refine ⟨s2, _, _, ?_, ?_, record_ref_get_at s2 r _ _ _ _ _ hg2 ht2,
    fields_find_set fields name _ _ hf, ?_, ?_, ?_, ?_, fields_set_names _ _ _, hfin, hflag⟩
  · rw [hw1, hs1, except_bind_ok, hw12]
  · rw [hw2, hs2]
  · simp [resized_length]; omega
  · have : len - 1 = (resized slots (len - 1)).length := (resized_length _ _).symm
    rw [List.getD_eq_getElem?_getD]
    conv => lhs; arg 1; arg 2; rw [this]
    simp
  · intro i hi
    rw [List.getD_eq_getElem?_getD, List.getElem?_append_left (by rw [resized_length]; exact hi),
      ← List.getD_eq_getElem?_getD]
    exact resized_getD slots (len - 1) i hi
  · intro other ho
    exact fields_find_set_other fields name other _ ho

theorem last_write_wins_within_row_witness :
    ∃ s2 d2 fields2,
      (field_ref.atom (fun _ => none)
          ⟨.mk (.record [("x", .mk (.atom (.basic .int64) [some (.int64 7)]) false .null),
            ("y", .mk (.atom (.basic .bool) [some (.bool true)]) false .null)] [] 2 none)
            false .null, [], false⟩ ⟨⟨[], none⟩, "x"⟩ (.int64 1)
        >>= fun s1 => field_ref.atom (fun _ => none) s1 ⟨⟨[], none⟩, "x"⟩ (.int64 2))
        = .ok s2
      ∧ field_ref.atom (fun _ => none)
          ⟨.mk (.record [("x", .mk (.atom (.basic .int64) [some (.int64 7)]) false .null),
            ("y", .mk (.atom (.basic .bool) [some (.bool true)]) false .null)] [] 2 none)
            false .null, [], false⟩ ⟨⟨[], none⟩, "x"⟩ (.int64 2) = .ok s2
      ∧ record_ref.get s2 ⟨[], none⟩ = .ok (d2, fields2, [], 2, none)
      ∧ fields_find fields2 "x"
          = some (.mk (.atom (.basic .int64)
              (resized [some (.int64 7)] (2 - 1) ++ [some (.int64 2)])) false .null)
      ∧ (resized [some (atom_view.int64 7)] (2 - 1) ++ [some (atom_view.int64 2)]).length = 2
      ∧ (resized [some (atom_view.int64 7)] (2 - 1) ++ [some (atom_view.int64 2)]).getD (2 - 1) none
          = some (.int64 2)
      ∧ (∀ i, i < 2 - 1 →
          (resized [some (atom_view.int64 7)] (2 - 1) ++ [some (atom_view.int64 2)]).getD i none
            = [some (atom_view.int64 7)].getD i none)
      ∧ (∀ other, other ≠ "x" → fields_find fields2 other
          = fields_find [("x", .mk (.atom (.basic .int64) [some (.int64 7)]) false .null),
            ("y", .mk (.atom (.basic .bool) [some (.bool true)]) false .null)] other)
      ∧ fields2.map Prod.fst
          = [("x", dynamic_builder.mk (.atom (.basic .int64) [some (.int64 7)]) false .null),
            ("y", .mk (.atom (.basic .bool) [some (.bool true)]) false .null)].map Prod.fst
      ∧ s2.finished_ = []
      ∧ s2.has_conflict_ = false :=
  last_write_wins_within_row (fun _ => none)
    ⟨.mk (.record [("x", .mk (.atom (.basic .int64) [some (.int64 7)]) false .null),
      ("y", .mk (.atom (.basic .bool) [some (.bool true)]) false .null)] [] 2 none)
      false .null, [], false⟩ ⟨[], none⟩
    (.mk (.record [("x", .mk (.atom (.basic .int64) [some (.int64 7)]) false .null),
      ("y", .mk (.atom (.basic .bool) [some (.bool true)]) false .null)] [] 2 none)
      false .null)
    [("x", .mk (.atom (.basic .int64) [some (.int64 7)]) false .null),
      ("y", .mk (.atom (.basic .bool) [some (.bool true)]) false .null)] [] 2 "x" .int64
    [some (.int64 7)] false .null (.int64 1) (.int64 2) rfl rfl (by decide) rfl rfl rfl
mutual
/-- The method `resize` returns on every builder without a conflict builder. -/
theorem builder_base_resize_total : (b : builder_base) → ∀ (n : Nat),
    b.conflict_free = true → ∃ b1, b.resize n = .ok b1
  | .null _ => fun n _ => ⟨.null n, rfl⟩
  | .atom t inner => by
    intro n _
    simp only [builder_base.resize]
    split
    · exact ⟨_, rfl⟩
    · split
      · exact ⟨_, rfl⟩
      · exact ⟨_, rfl⟩
  | .list offsets elements => by
    intro n h
    simp only [builder_base.conflict_free] at h
    simp only [builder_base.resize]
    split
    · obtain ⟨e1, he⟩ := dynamic_builder_resize_total elements
        (offsets.getD n (0, false)).1 h
      exact ⟨_, by rw [he, except_bind_ok]; rfl⟩
    · split
      · exact ⟨_, rfl⟩
      · exact ⟨_, rfl⟩
  | .record fields valid len ka => by
    intro n h
    simp only [builder_base.conflict_free] at h
    simp only [builder_base.resize]
    split
    · obtain ⟨f1, hf⟩ := resize_fields_total fields n h
      exact ⟨_, by rw [hf, except_bind_ok]; rfl⟩
    · split
      · exact ⟨_, rfl⟩
      · exact ⟨_, rfl⟩
  | .conflict _ _ => by
    intro n h
    simp [builder_base.conflict_free] at h
/-- The method `dynamic_builder::resize` returns when no conflict builder is involved. -/
theorem dynamic_builder_resize_total : (d : dynamic_builder) → ∀ (n : Nat),
    d.conflict_free = true → ∃ d1, d.resize n = .ok d1
  | .mk b p m => by
    intro n h
    simp only [dynamic_builder.conflict_free] at h
    obtain ⟨b1, hb⟩ := builder_base_resize_total b n h
    exact ⟨.mk b1 p m, by simp only [dynamic_builder.resize, hb, except_bind_ok]; rfl⟩
/-- The loop over the fields in the record `resize` returns when no conflict
builder is involved. -/
theorem resize_fields_total : (fields : List (String × dynamic_builder)) → ∀ (n : Nat),
    fields_conflict_free fields = true → ∃ fields1, resize_fields fields n = .ok fields1
  | [] => fun _ _ => ⟨[], rfl⟩
  | (name, builder) :: rest => by
    intro n h
    simp only [fields_conflict_free, Bool.and_eq_true] at h
    obtain ⟨r1, hr⟩ := resize_fields_total rest n h.2
    obtain ⟨b1, hb⟩ := dynamic_builder_resize_total builder n h.1
    simp only [resize_fields, hr, hb, except_bind_ok]
    split
    · exact ⟨_, rfl⟩
    · exact ⟨_, rfl⟩
end

/-- The null branch of `field_ref::atom` on a record builder of length `L`
behind any pointer. When the record has no field `name`, the series is
unchanged: no field is added. When the field is shorter than `L`, the series is
unchanged. When the field has length `L ≥ 1`, the field is resized to `L - 1`:
the call returns exactly when that `resize` returns, which it does on every
field without a conflict builder; afterwards the field has length `L - 1`, and
the other fields, the order of the fields, the validity and the length of the
record, the queue of finished batches and the conflict flag are unchanged. -/
theorem null_field_write_where_resize_returns (print : data_view2 → Option String)
    (s : series_builder_impl) (r : record_ref) (d : dynamic_builder)
    (fields : List (String × dynamic_builder)) (valid : List Bool) (len : Nat)
    (ka : Option String) (name : String)
    (hown : s.get r.owner = .ok d)
    (htyp : d.typed r.variant = some (.record fields valid len ka)) :
    (fields_find fields name = none → field_ref.atom print s ⟨r, name⟩ .null = .ok s)
    ∧ (∀ field, fields_find fields name = some field → field.length < len →
        field_ref.atom print s ⟨r, name⟩ .null = .ok s)
    ∧ (∀ field, fields_find fields name = some field → field.length = len → 1 ≤ len →
        (∀ field1, field.resize (len - 1) = .ok field1 →
          ∃ s1 d1, field_ref.atom print s ⟨r, name⟩ .null = .ok s1
            ∧ record_ref.get s1 r = .ok (d1, fields_set fields name field1, valid, len, ka)
            ∧ fields_find (fields_set fields name field1) name = some field1
            ∧ field1.length = len - 1
            ∧ (∀ other, other ≠ name →
                fields_find (fields_set fields name field1) other = fields_find fields other)
            ∧ (fields_set fields name field1).map Prod.fst = fields.map Prod.fst
            ∧ s1.finished_ = s.finished_
            ∧ s1.has_conflict_ = s.has_conflict_)
        ∧ (∀ e, field.resize (len - 1) = .error e →
          field_ref.atom print s ⟨r, name⟩ .null = .error e)
        ∧ (field.conflict_free = true → ∃ field1, field.resize (len - 1) = .ok field1)) := by
  have hget := record_ref_get_at s r d fields valid len ka hown htyp
  refine ⟨?_, ?_, ?_⟩
  · intro hf
    simp only [field_ref.atom, atom_view_to_type_t, hget, except_bind_ok, hf]
    rfl
  · intro field hf hl
    have h1 : field.length ≤ len := Nat.le_of_lt hl
    have h2 : ¬ field.length = len := Nat.ne_of_lt hl
    simp only [field_ref.atom, atom_view_to_type_t, hget, except_bind_ok, hf, ensure_true h1,
      if_neg h2]
    rfl
  · intro field hf hl hpos
    have h1 : field.length ≤ len := Nat.le_of_eq hl
    refine ⟨?_, ?_, fun hc => dynamic_builder_resize_total field (len - 1) hc⟩
    · intro field1 hres
      obtain ⟨s1, hs1, hg1, hfin, hflag⟩ := series_set_of_get s r.owner d
        (d.set_typed r.variant (.record (fields_set fields name field1) valid len ka)) hown
      have ht1 := dynamic_builder_typed_set_typed d r.variant _
        (.record (fields_set fields name field1) valid len ka) htyp
        (record_not_conflict _ _ _ _)
      refine ⟨s1, _, ?_, record_ref_get_at s1 r _ _ _ _ _ hg1 ht1,
        fields_find_set fields name _ _ hf, dynamic_builder_resize_length _ _ _ hres,
        fun other ho => fields_find_set_other fields name other _ ho,
        fields_set_names _ _ _, hfin, hflag⟩
      simp only [field_ref.atom, atom_view_to_type_t, hget, except_bind_ok, hf,
        ensure_true h1, ensure_true hpos, if_pos hl, hres, record_ref.set, hs1]
    · intro e hres
      simp only [field_ref.atom, atom_view_to_type_t, hget, except_bind_ok, hf,
        ensure_true h1, ensure_true hpos, if_pos hl, hres, except_bind_error]

theorem null_field_write_where_resize_returns_witness :
    ∃ s1 d1, field_ref.atom (fun _ => none)
        ⟨.mk (.record
          [("x", .mk (.atom (.basic .int64) [some (.int64 1), some (.int64 2)]) false .null),
            ("y", .mk (.atom (.basic .bool) [some (.bool true)]) false .null)] [] 2 none)
          false .null, [], false⟩ ⟨⟨[], none⟩, "x"⟩ .null = .ok s1
      ∧ record_ref.get s1 ⟨[], none⟩ = .ok (d1,
          fields_set
            [("x", .mk (.atom (.basic .int64) [some (.int64 1), some (.int64 2)]) false .null),
              ("y", .mk (.atom (.basic .bool) [some (.bool true)]) false .null)] "x"
            (.mk (.atom (.basic .int64) [some (.int64 1)]) false .null), [], 2, none)
      ∧ fields_find (fields_set
            [("x", .mk (.atom (.basic .int64) [some (.int64 1), some (.int64 2)]) false .null),
              ("y", .mk (.atom (.basic .bool) [some (.bool true)]) false .null)] "x"
            (.mk (.atom (.basic .int64) [some (.int64 1)]) false .null)) "x"
          = some (.mk (.atom (.basic .int64) [some (.int64 1)]) false .null)
      ∧ (dynamic_builder.mk (.atom (.basic .int64) [some (.int64 1)]) false .null).length
          = 2 - 1
      ∧ (∀ other, other ≠ "x" →
          fields_find (fields_set
            [("x", .mk (.atom (.basic .int64) [some (.int64 1), some (.int64 2)]) false .null),
              ("y", .mk (.atom (.basic .bool) [some (.bool true)]) false .null)] "x"
            (.mk (.atom (.basic .int64) [some (.int64 1)]) false .null)) other
          = fields_find
            [("x", .mk (.atom (.basic .int64) [some (.int64 1), some (.int64 2)]) false .null),
              ("y", .mk (.atom (.basic .bool) [some (.bool true)]) false .null)] other)
      ∧ (fields_set
            [("x", .mk (.atom (.basic .int64) [some (.int64 1), some (.int64 2)]) false .null),
              ("y", .mk (.atom (.basic .bool) [some (.bool true)]) false .null)] "x"
            (.mk (.atom (.basic .int64) [some (.int64 1)]) false .null)).map Prod.fst
          = [("x", dynamic_builder.mk (.atom (.basic .int64)
                [some (.int64 1), some (.int64 2)]) false .null),
              ("y", .mk (.atom (.basic .bool) [some (.bool true)]) false .null)].map Prod.fst
      ∧ s1.finished_ = []
      ∧ s1.has_conflict_ = false :=
  ((null_field_write_where_resize_returns (fun _ => none)
    ⟨.mk (.record
      [("x", .mk (.atom (.basic .int64) [some (.int64 1), some (.int64 2)]) false .null),
        ("y", .mk (.atom (.basic .bool) [some (.bool true)]) false .null)] [] 2 none)
      false .null, [], false⟩ ⟨[], none⟩
    (.mk (.record
      [("x", .mk (.atom (.basic .int64) [some (.int64 1), some (.int64 2)]) false .null),
        ("y", .mk (.atom (.basic .bool) [some (.bool true)]) false .null)] [] 2 none)
      false .null)
    [("x", .mk (.atom (.basic .int64) [some (.int64 1), some (.int64 2)]) false .null),
      ("y", .mk (.atom (.basic .bool) [some (.bool true)]) false .null)] [] 2 none "x"
    rfl rfl).2.2
      (.mk (.atom (.basic .int64) [some (.int64 1), some (.int64 2)]) false .null)
      rfl rfl (by decide)).1
    (.mk (.atom (.basic .int64) [some (.int64 1)]) false .null) rfl
/-! ## The rows of a conflict builder -/

/-- The first two loops of `conflict_builder::finish_and_leave` on atom builders:
every variant gives up its first slots and keeps as many as the kept
discriminants name it. -/
theorem finish_variants_atoms (print : data_view2 → Option String) (kept : List Nat) :
    ∀ (variants : List builder_base) (i : Nat),
      (∀ v ∈ variants, ∃ t inner, v = builder_base.atom t inner) →
      (∀ j v, variants.get? j = some v → kept.count (i + j) ≤ v.length) →
      ∃ arrays variants1, finish_variants print variants i 0 kept = .ok (arrays, variants1)
        ∧ arrays.length = variants.length
        ∧ variants1.length = variants.length
        ∧ ∀ j t inner, variants.get? j = some (.atom t inner) →
          arrays.get? j = some ⟨t.to_type,
            .primitive (inner.take (inner.length - kept.count (i + j)))⟩
          ∧ variants1.get? j
            = some (.atom t (inner.drop (inner.length - kept.count (i + j)))) := by
  intro variants
  induction variants with
  | nil =>
    intro i _ _
    exact ⟨[], [], rfl, rfl, rfl, by intro j t inner h; simp at h⟩
  | cons v rest ih =>
    intro i hat hlen
    obtain ⟨t, inner, hv⟩ := hat v (List.mem_cons_self _ _)
    subst hv
    have h0 := hlen 0 _ rfl
    simp only [Nat.add_zero, builder_base.length] at h0
    obtain ⟨arrays, variants1, hfv, hal, hvl, hrest⟩ := ih (i + 1)
      (fun v hv => hat v (List.mem_cons_of_mem _ hv))
      (fun j v hj => by
        have := hlen (j + 1) v (by simpa using hj)
        rwa [Nat.add_assoc, Nat.add_comm 1 j])
    have hc : ¬ kept.count i > inner.length := by omega
    refine ⟨⟨t.to_type, .primitive (inner.take (inner.length - kept.count i))⟩ :: arrays,
      .atom t (inner.drop (inner.length - kept.count i)) :: variants1, ?_, ?_, ?_, ?_⟩
    · simp only [finish_variants, builder_base.finish_and_leave, if_neg hc, pure, Except.pure,
        except_bind_ok, hfv, List.replicate_zero, List.append_nil]
    · simp [hal]
    · simp [hvl]
    · intro j t1 inner1 hj
      cases j with
      | zero =>
        simp only [List.get?_cons_zero, Option.some.injEq, builder_base.atom.injEq] at hj
        obtain ⟨ht, hi⟩ := hj
        subst ht hi
        simp
      | succ j =>
        have := hrest j t1 inner1 (by simpa using hj)
        simpa [Nat.add_assoc, Nat.add_comm 1 j] using this

theorem getD_set_zero (offsets : List Nat) (d d1 x : Nat) (hd : d < offsets.length) :
    (offsets.set d x).getD d1 0 = if d1 = d then x else offsets.getD d1 0 := by
  simp only [List.getD_eq_getElem?_getD, List.getElem?_set]
  by_cases h : d = d1
  · subst h
    simp [hd]
  · have h1 : ¬ d1 = d := fun e => h e.symm
    simp [h, h1]

/-- The third loop of `conflict_builder::finish_and_leave`: row `j` is printed
from the slot of its variant whose number is the offset the variant started
with plus the count of earlier rows of the same variant. -/
theorem conflict_render_ranks (print : data_view2 → Option String)
    (arrays : List typed_array) (hprint : ∀ v, ∃ str, print v = some str) :
    ∀ (rows offsets : List Nat), offsets.length = arrays.length →
      (∀ d ∈ rows, d < arrays.length) →
      (∀ d a, arrays.get? d = some a → offsets.getD d 0 + rows.count d ≤ a.length) →
      ∃ strings, conflict_render print arrays rows offsets = .ok strings
        ∧ strings.length = rows.length
        ∧ ∀ j d a, rows.get? j = some d → arrays.get? d = some a →
          ∃ str, print (value_at a.type a.array
              (offsets.getD d 0 + (rows.take j).count d)) = some str
            ∧ strings.get? j = some (some (.string str)) := by
  intro rows
  induction rows with
  | nil =>
    intro offsets _ _ _
    exact ⟨[], rfl, rfl, by intro j d a h; simp at h⟩
  | cons d rest ih =>
    intro offsets hol hrows hroom
    have hd : d < arrays.length := hrows d (List.mem_cons_self _ _)
    obtain ⟨a, ha⟩ : ∃ a, arrays.get? d = some a :=
      ⟨arrays.get ⟨d, hd⟩, List.get?_eq_get hd⟩
    have hr := hroom d a ha
    simp only [List.count_cons_self] at hr
    have hlt : offsets.getD d 0 < a.length := by omega
    obtain ⟨str, hstr⟩ := hprint (value_at a.type a.array (offsets.getD d 0))
    obtain ⟨strings, hs, hsl, hsr⟩ := ih (offsets.set d (offsets.getD d 0 + 1))
      (by simp [hol])
      (fun d1 h1 => hrows d1 (List.mem_cons_of_mem _ h1))
      (by
        intro d1 a1 ha1
        rw [getD_set_zero offsets d d1 _ (by omega)]
        have := hroom d1 a1 ha1
        by_cases h : d1 = d
        · subst h
          simp only [if_true, List.count_cons_self] at this ⊢
          omega
        · have hc : List.count d1 (d :: rest) = List.count d1 rest := by
            simp [List.count_cons, h, Ne.symm h]
          rw [hc] at this
          simp only [if_neg h]
          exact this)
    refine ⟨some (.string str) :: strings, ?_, by simp [hsl], ?_⟩
    · simp only [conflict_render, ha, if_pos hlt, hstr, hs, except_bind_ok]
      rfl
    · intro j d1 a1 hj ha1
      cases j with
      | zero =>
        simp only [List.get?_cons_zero, Option.some.injEq] at hj
        subst hj
        rw [ha] at ha1
        cases ha1
        exact ⟨str, by simpa using hstr, rfl⟩
      | succ j =>
        obtain ⟨str1, hp1, hg1⟩ := hsr j d1 a1 (by simpa using hj) ha1
        refine ⟨str1, ?_, by simpa using hg1⟩
        rw [getD_set_zero offsets d d1 _ (by omega)] at hp1
        by_cases h : d1 = d
        · subst h
          simp only [if_true] at hp1
          simp only [List.take_succ_cons, List.count_cons_self]
          rw [← hp1]
          congr 2
          omega
        · have hc : List.count d1 (d :: List.take j rest) = List.count d1 (List.take j rest) := by
            simp [List.count_cons, h, Ne.symm h]
          simp only [if_neg h] at hp1
          simp only [List.take_succ_cons, hc]
          exact hp1
theorem count_take_add_count_drop (l : List Nat) (n a : Nat) :
    (l.take n).count a + (l.drop n).count a = l.count a := by
  rw [← List.count_append, List.take_append_drop]

theorem getD_take_of_lt (l : List (Option atom_view)) (n i : Nat) (h : i < n) :
    (l.take n).getD i none = l.getD i none := by
  simp only [List.getD_eq_getElem?_getD, List.getElem?_take, if_pos h]

theorem getD_drop_add (l : List (Option atom_view)) (n i : Nat) :
    (l.drop n).getD i none = l.getD (n + i) none := by
  simp only [List.getD_eq_getElem?_getD, List.getElem?_drop]

theorem getD_replicate_zero (n d : Nat) : (List.replicate n 0).getD d 0 = 0 := by
  simp only [List.getD_eq_getElem?_getD, List.getElem?_replicate]
  split <;> rfl

theorem count_take_lt_of_get (l : List Nat) (i n d : Nat) (hi : i < n)
    (hd : l.get? i = some d) : (l.take i).count d < (l.take n).count d := by
  have hlen : i < l.length := by
    rcases Nat.lt_or_ge i l.length with h | h
    · exact h
    · rw [List.get?_eq_none.mpr h] at hd
      cases hd
  have h1 : l.take (i + 1) = l.take i ++ [d] := by
    have hg : l[i]? = some d := by
      rw [← List.get?_eq_getElem?]
      exact hd
    rw [List.take_succ, hg]
    rfl
  have h2 : (l.take (i + 1)).count d = (l.take i).count d + 1 := by
    rw [h1, List.count_append]
    simp
  have h3 : (l.take (i + 1)).count d ≤ (l.take n).count d := by
    apply List.Sublist.count_le
    have : l.take (i + 1) = (l.take n).take (i + 1) := by
      rw [List.take_take, Nat.min_eq_left (by omega)]
    rw [this]
    exact List.take_sublist _ _
  omega

/-- A conflict builder whose variants are atom builders, with every
discriminant naming a variant and every variant as long as the count of its
discriminant, and a printer that prints every value. For every `k ≤ L`,
`finish_and_leave(k)` returns; the string array has `L - k` entries, entry `i`
is the printed row `i`; the builder keeps the last `k` discriminants, every
variant keeps its last slots, as many as the kept discriminants name it, and
the rows of the builder afterwards are the rows `L - k` to `L - 1` in their
order. -/
theorem conflict_of_atoms_keeps_row_order (print : data_view2 → Option String)
    (discriminants : List Nat) (variants : List builder_base) (k : Nat)
    (hprint : ∀ v, ∃ str, print v = some str)
    (hat : ∀ v ∈ variants, ∃ t inner, v = builder_base.atom t inner)
    (hwf1 : ∀ d ∈ discriminants, d < variants.length)
    (hwf2 : ∀ d v, variants.get? d = some v → v.length = discriminants.count d)
    (hk : k ≤ discriminants.length) :
    ∃ strings variants1,
      (builder_base.conflict discriminants variants).finish_and_leave print 0 k
        = .ok (⟨.basic .string, .primitive strings⟩,
          .conflict (discriminants.drop (discriminants.length - k)) variants1)
      ∧ strings.length = discriminants.length - k
      ∧ (∀ i, i < discriminants.length - k →
          ∃ str, print (conflict_row discriminants variants i) = some str
            ∧ strings.get? i = some (some (.string str)))
      ∧ variants1.length = variants.length
      ∧ (∀ d t inner, variants.get? d = some (.atom t inner) →
          variants1.get? d = some (.atom t (inner.drop (inner.length
            - (discriminants.drop (discriminants.length - k)).count d))))
      ∧ (∀ i, discriminants.length - k ≤ i → i < discriminants.length →
          conflict_row (discriminants.drop (discriminants.length - k)) variants1
              (i - (discriminants.length - k))
            = conflict_row discriminants variants i) := by
  have hsub : ∀ d, (discriminants.drop (discriminants.length - k)).count d
      ≤ discriminants.count d :=
    fun d => List.Sublist.count_le (List.drop_sublist _ _) d
  have hsplit := count_take_add_count_drop discriminants (discriminants.length - k)
  obtain ⟨arrays, variants1, hfv, hal, hvl, hrest⟩ :=
    finish_variants_atoms print (discriminants.drop (discriminants.length - k)) variants 0 hat
      (by
        intro j v hj
        rw [Nat.zero_add, hwf2 j v hj]
        exact hsub j)
  have hvar : ∀ d, d < variants.length → ∃ t inner, variants.get? d = some (.atom t inner) := by
    intro d hd
    obtain ⟨t, inner, hv⟩ := hat (variants.get ⟨d, hd⟩) (List.get_mem _ _ _)
    exact ⟨t, inner, by rw [List.get?_eq_get hd, hv]⟩
  have harr : ∀ d a, arrays.get? d = some a → ∃ t inner,
      variants.get? d = some (.atom t inner)
      ∧ a = ⟨t.to_type, .primitive (inner.take (inner.length
        - (discriminants.drop (discriminants.length - k)).count d))⟩ := by
    intro d a ha
    have hd : d < variants.length := by
      rcases Nat.lt_or_ge d arrays.length with h | h
      · omega
      · rw [List.get?_eq_none.mpr h] at ha
        cases ha
    obtain ⟨t, inner, hv⟩ := hvar d hd
    have := (hrest d t inner hv).1
    rw [Nat.zero_add, ha] at this
    exact ⟨t, inner, hv, Option.some.inj this⟩
  obtain ⟨strings, hs, hsl, hsr⟩ := conflict_render_ranks print arrays hprint
    (discriminants.take (discriminants.length - k)) (List.replicate variants.length 0)
    (by simp [hal])
    (fun d hd => by
      rw [hal]
      exact hwf1 d (List.mem_of_mem_take hd))
    (by
      intro d a ha
      obtain ⟨t, inner, hv, hae⟩ := harr d a ha
      have hl := hwf2 d _ hv
      simp only [builder_base.length] at hl
      have := hsplit d
      subst hae
      rw [getD_replicate_zero]
      simp only [typed_array.length, arrow_array.length, List.length_take]
      omega)
  refine ⟨strings, variants1, ?_, ?_, ?_, hvl, ?_, ?_⟩
  · simp only [builder_base.finish_and_leave, List.replicate_zero, List.append_nil,
      ensure_true hk, except_bind_ok, hfv, hs]
    rfl
  · rw [hsl, List.length_take]
    omega
  · intro i hi
    have hil : i < discriminants.length := by omega
    have hgi : discriminants.get? i = some (discriminants.get ⟨i, hil⟩) :=
      List.get?_eq_get hil
    have hd0 : discriminants.get ⟨i, hil⟩ < variants.length :=
      hwf1 _ (List.get_mem _ _ _)
    generalize discriminants.get ⟨i, hil⟩ = d at hgi hd0
    have hd : d < variants.length := hd0
    obtain ⟨t, inner, hv⟩ := hvar d hd
    have ha := (hrest d t inner hv).1
    rw [Nat.zero_add] at ha
    have hfi : (discriminants.take (discriminants.length - k)).get? i = some d := by
      rw [List.get?_eq_getElem?, List.getElem?_take, if_pos hi, ← List.get?_eq_getElem?, hgi]
    obtain ⟨str, hp, hg⟩ := hsr i d _ hfi ha
    refine ⟨str, ?_, hg⟩
    have htt : (discriminants.take (discriminants.length - k)).take i = discriminants.take i := by
      rw [List.take_take, Nat.min_eq_left (by omega)]
    have hrank := count_take_lt_of_get discriminants i (discriminants.length - k) d hi hgi
    have hl := hwf2 d _ hv
    simp only [builder_base.length] at hl
    have := hsplit d
    rw [getD_replicate_zero, Nat.zero_add, htt] at hp
    simp only [value_at] at hp
    rw [getD_take_of_lt _ _ _ (by omega)] at hp
    simp only [conflict_row, hgi, hv]
    exact hp
  · intro d t inner hv
    have := (hrest d t inner hv).2
    rwa [Nat.zero_add] at this
  · intro i hi1 hi2
    have hgi : discriminants.get? i = some (discriminants.get ⟨i, hi2⟩) :=
      List.get?_eq_get hi2
    have hd0 : discriminants.get ⟨i, hi2⟩ < variants.length :=
      hwf1 _ (List.get_mem _ _ _)
    generalize discriminants.get ⟨i, hi2⟩ = d at hgi hd0
    have hd : d < variants.length := hd0
    obtain ⟨t, inner, hv⟩ := hvar d hd
    have hv1 := (hrest d t inner hv).2
    rw [Nat.zero_add] at hv1
    have hki : (discriminants.drop (discriminants.length - k)).get?
        (i - (discriminants.length - k)) = some d := by
      rw [List.get?_eq_getElem?, List.getElem?_drop, ← List.get?_eq_getElem?]
      have : discriminants.length - k + (i - (discriminants.length - k)) = i := by omega
      rw [this, hgi]
    have hl := hwf2 d _ hv
    simp only [builder_base.length] at hl
    have hs1 := hsplit d
    have htake : discriminants.take i
        = discriminants.take (discriminants.length - k)
          ++ (discriminants.drop (discriminants.length - k)).take
            (i - (discriminants.length - k)) := by
      have : i = (discriminants.length - k) + (i - (discriminants.length - k)) := by omega
      conv => lhs; rw [this]
      exact List.take_add _ _ _
    simp only [conflict_row, hgi, hv, hki, hv1]
    rw [getD_drop_add, htake, List.count_append]
    congr 3
    omega

theorem conflict_of_atoms_keeps_row_order_witness :
    ∃ strings variants1,
      (builder_base.conflict [0, 1, 0]
          [.atom (.basic .int64) [some (.int64 1), some (.int64 2)],
            .atom (.basic .string) [some (.string "a")]]).finish_and_leave
          (fun _ => some "row") 0 1
        = .ok (⟨.basic .string, .primitive strings⟩,
          .conflict ([0, 1, 0].drop ([0, 1, 0].length - 1)) variants1)
      ∧ strings.length = [0, 1, 0].length - 1
      ∧ (∀ i, i < [0, 1, 0].length - 1 →
          ∃ str, (fun _ => some "row") (conflict_row [0, 1, 0]
              [.atom (.basic .int64) [some (.int64 1), some (.int64 2)],
                .atom (.basic .string) [some (.string "a")]] i) = some str
            ∧ strings.get? i = some (some (.string str)))
      ∧ variants1.length
          = [builder_base.atom (.basic .int64) [some (.int64 1), some (.int64 2)],
              .atom (.basic .string) [some (.string "a")]].length
      ∧ (∀ d t inner,
          [builder_base.atom (.basic .int64) [some (.int64 1), some (.int64 2)],
              .atom (.basic .string) [some (.string "a")]].get? d = some (.atom t inner) →
          variants1.get? d = some (.atom t (inner.drop (inner.length
            - ([0, 1, 0].drop ([0, 1, 0].length - 1)).count d))))
      ∧ (∀ i, [0, 1, 0].length - 1 ≤ i → i < [0, 1, 0].length →
          conflict_row ([0, 1, 0].drop ([0, 1, 0].length - 1)) variants1
              (i - ([0, 1, 0].length - 1))
            = conflict_row [0, 1, 0]
              [.atom (.basic .int64) [some (.int64 1), some (.int64 2)],
                .atom (.basic .string) [some (.string "a")]] i) :=
  conflict_of_atoms_keeps_row_order (fun _ => some "row") [0, 1, 0]
    [.atom (.basic .int64) [some (.int64 1), some (.int64 2)],
      .atom (.basic .string) [some (.string "a")]] 1
    (fun _ => ⟨"row", rfl⟩)
    (by
      intro v hv
      simp only [List.mem_cons, List.mem_singleton, List.not_mem_nil, or_false] at hv
      rcases hv with h | h <;> exact ⟨_, _, h⟩)
    (by decide)
    (by
      intro d v h
      match d, h with
      | 0, h => cases h; rfl
      | 1, h => cases h; rfl
      | _ + 2, h => cases h)
    (by decide)
/-! ## No batch is empty -/

theorem root_length_of_total (s s1 : series_builder_impl)
    (ht : s1.total_length = s.total_length) (hf : s1.finished_ = s.finished_) :
    s1.builder_.length = s.builder_.length := by
  rw [series_builder_impl_total_length_eq, series_builder_impl_total_length_eq, hf] at ht
  omega

theorem event_open_of_eq (s s1 : series_builder_impl)
    (ht : s1.total_length = s.total_length) (hf : s1.finished_ = s.finished_)
    (h : s.event_open) : s1.event_open := by
  refine ⟨?_, ?_⟩
  · rw [root_length_of_total s s1 ht hf]
    exact h.1
  · rw [hf]
    exact h.2

theorem series_set_event_open (s s1 : series_builder_impl) (path : builder_path)
    (d : dynamic_builder) (hp : path ≠ []) (h : s.set path d = .ok s1) (hs : s.event_open) :
    s1.event_open :=
  event_open_of_eq s s1 (series_set_length s s1 d path hp h) (series_set_finished s s1 _ _ h).1
    hs

theorem finish_previous_events_event_open (print : data_view2 → Option String)
    (s s1 : series_builder_impl) (h : s.finish_previous_events print false = .ok s1)
    (hs : s.event_open) : s1.event_open ∧ s1.has_conflict_ = s.has_conflict_ := by
  simp only [series_builder_impl.finish_previous_events] at h
  split at h
  · simp only [except_pure_eq_ok] at h
    subst h; exact ⟨hs, rfl⟩
  · split at h
    · simp only [except_pure_eq_ok] at h
      subst h; exact ⟨hs, rfl⟩
    · simp only [except_bind_eq_ok, ensure_eq_ok, except_pure_eq_ok] at h
      obtain ⟨⟨slice, b1⟩, hf, _, hl, _, hpos, h⟩ := h
      subst h
      refine ⟨⟨?_, ?_⟩, rfl⟩
      · simp only [Bool.not_false, if_true] at hl
        simp only [hl]
        exact Nat.le_refl 1
      · intro a ha
        simp only [List.mem_append, List.mem_singleton] at ha
        rcases ha with ha | ha
        · exact hs.2 a ha
        · subst ha
          exact hpos

theorem set_conflict_flag_event_open (s : series_builder_impl) (hs : s.event_open) :
    s.set_conflict_flag.event_open := hs

theorem prepare_event_open (print : data_view2 → Option String)
    (s s1 : series_builder_impl) (path : builder_path) (T : target) (variant : Option Nat)
    (hp : path ≠ []) (h : dynamic_builder.prepare print s path T = .ok (s1, variant))
    (hs : s.event_open) : s1.event_open := by
  simp only [dynamic_builder.prepare, except_bind_eq_ok] at h
  obtain ⟨d, _, r, _, h⟩ := h
  cases r with
  | some dv =>
    obtain ⟨d1, v⟩ := dv
    simp only [except_bind_eq_ok, except_pure_eq_ok, Prod.mk.injEq] at h
    obtain ⟨s2, hset, h, _⟩ := h
    subst h
    exact series_set_event_open s s2 _ _ hp hset hs
  | none =>
    simp only [except_bind_eq_ok, ensure_eq_ok] at h
    obtain ⟨_, _, _, _, s2, hfpe, d1, _, s3, hwrap, d2, _, r2, _, h⟩ := h
    have hroot : (path == []) = false := by
      cases path with
      | nil => exact absurd rfl hp
      | cons step rest => rfl
    rw [hroot] at hfpe
    have h2 : s2.event_open := (finish_previous_events_event_open print s s2 hfpe hs).1
    have h3 : s3.event_open := by
      split at hwrap
      · simp only [except_bind_eq_ok, except_pure_eq_ok] at hwrap
        obtain ⟨s2a, hset, hwrap⟩ := hwrap
        subst hwrap
        exact set_conflict_flag_event_open _ (series_set_event_open s2 s2a _ _ hp hset h2)
      · split at hwrap
        · simp at hwrap
        · simp only [except_pure_eq_ok] at hwrap
          subst hwrap; exact h2
    cases r2 with
    | none => simp at h
    | some dv =>
      obtain ⟨d3, v⟩ := dv
      simp only [except_bind_eq_ok, except_pure_eq_ok, Prod.mk.injEq] at h
      obtain ⟨s4, hset, h, _⟩ := h
      subst h
      exact series_set_event_open s3 s4 _ _ hp hset h3

theorem append_atom_event_open (s s1 : series_builder_impl) (path : builder_path)
    (variant : Option Nat) (value : atom_view) (hp : path ≠ [])
    (h : typed_builder.append_atom s path variant value = .ok s1) (hs : s.event_open) :
    s1.event_open :=
  event_open_of_eq s s1 (append_atom_nested_length s s1 path variant value hp h)
    (append_atom_finished s s1 path variant value h) hs

theorem append_record_event_open (s s1 : series_builder_impl) (path : builder_path)
    (variant : Option Nat) (r : record_ref) (hp : path ≠ [])
    (h : typed_builder.append_record s path variant = .ok (s1, r)) (hs : s.event_open) :
    s1.event_open :=
  event_open_of_eq s s1 (append_record_nested_length s s1 path variant r hp h)
    (append_record_finished s s1 path variant r h) hs

theorem append_list_event_open (s s1 : series_builder_impl) (path : builder_path)
    (variant : Option Nat) (r : builder_ref) (hp : path ≠ [])
    (h : typed_builder.append_list s path variant = .ok (s1, r)) (hs : s.event_open) :
    s1.event_open :=
  event_open_of_eq s s1 (append_list_nested_length s s1 path variant r hp h).1
    (append_list_finished s s1 path variant r h) hs

theorem dynamic_atom_event_open (print : data_view2 → Option String)
    (s s1 : series_builder_impl) (path : builder_path) (value : atom_view) (hp : path ≠ [])
    (h : dynamic_builder.atom print s path value = .ok s1) (hs : s.event_open) :
    s1.event_open := by
  simp only [dynamic_builder.atom] at h
  split at h
  · simp only [except_bind_eq_ok] at h
    obtain ⟨d, _, d1, _, hset⟩ := h
    exact series_set_event_open s s1 _ _ hp hset hs
  · simp only [except_bind_eq_ok] at h
    obtain ⟨d, _, h⟩ := h
    split at h
    · exact series_set_event_open s s1 _ _ hp h hs
    · simp at h
  · simp only [except_bind_eq_ok] at h
    obtain ⟨⟨s2, variant⟩, hprep, h⟩ := h
    exact append_atom_event_open s2 s1 _ _ _ hp h
      (prepare_event_open print s s2 _ _ _ hp hprep hs)

theorem dynamic_record_event_open (print : data_view2 → Option String)
    (s s1 : series_builder_impl) (path : builder_path) (r : record_ref) (hp : path ≠ [])
    (h : dynamic_builder.record print s path = .ok (s1, r)) (hs : s.event_open) :
    s1.event_open := by
  simp only [dynamic_builder.record, except_bind_eq_ok] at h
  obtain ⟨⟨s2, variant⟩, hprep, h⟩ := h
  exact append_record_event_open s2 s1 _ _ _ hp h
    (prepare_event_open print s s2 _ _ _ hp hprep hs)

theorem dynamic_list_event_open (print : data_view2 → Option String)
    (s s1 : series_builder_impl) (path : builder_path) (r : builder_ref) (hp : path ≠ [])
    (h : dynamic_builder.list print s path = .ok (s1, r)) (hs : s.event_open) :
    s1.event_open := by
  simp only [dynamic_builder.list, except_bind_eq_ok] at h
  obtain ⟨⟨s2, variant⟩, hprep, h⟩ := h
  exact append_list_event_open s2 s1 _ _ _ hp h
    (prepare_event_open print s s2 _ _ _ hp hprep hs)

theorem record_ref_set_event_open (s s1 : series_builder_impl) (r : record_ref)
    (d : dynamic_builder) (fields fields1 : List (String × dynamic_builder))
    (valid valid1 : List Bool) (len : Nat) (ka ka1 : Option String)
    (hg : record_ref.get s r = .ok (d, fields, valid, len, ka))
    (h : record_ref.set s r d fields1 valid1 len ka1 = .ok s1) (hs : s.event_open) :
    s1.event_open :=
  event_open_of_eq s s1 (record_ref_set_length s s1 r d fields fields1 valid valid1 len ka ka1
    hg h) (record_ref_set_finished s s1 r d fields1 valid1 len ka1 h) hs

theorem prepare_field_event_open (print : data_view2 → Option String)
    (s s1 : series_builder_impl) (self : record_ref) (name : String) (T : target)
    (path : builder_path) (variant : Option Nat)
    (h : typed_builder.prepare_field print s self name T = .ok (s1, path, variant))
    (hs : s.event_open) : s1.event_open ∧ path ≠ [] := by
  have hpath := (prepare_field_length print s s1 self name T path variant h).2
  refine ⟨?_, hpath⟩
  simp only [typed_builder.prepare_field, except_bind_eq_ok] at h
  obtain ⟨⟨d, fields, valid, len, ka⟩, hg, h⟩ := h
  have hp : self.owner ++ [path_step.field self.variant name] ≠ [] := by simp
  split at h
  · simp only [except_bind_eq_ok, except_pure_eq_ok, Prod.mk.injEq, ensure_eq_ok] at h
    obtain ⟨_, _, builder, _, s2, hset, ⟨s3, v⟩, hprep, h, _⟩ := h
    subst h
    exact prepare_event_open print s2 s3 _ _ _ hp hprep
      (record_ref_set_event_open s s2 self d fields _ valid valid len ka ka hg hset hs)
  · simp only [except_bind_eq_ok, except_pure_eq_ok, Prod.mk.injEq, ensure_eq_ok] at h
    obtain ⟨_, _, builder1, _, _, _, s2, hset, ⟨s3, v⟩, hprep, ⟨d2, f2, v2, l2, k2⟩, hg2, s4,
      hset2, h, _⟩ := h
    subst h
    exact record_ref_set_event_open s3 s4 self d2 f2 f2 v2 v2 l2 k2 none hg2 hset2
      (prepare_event_open print s2 s3 _ _ _ hp hprep
        (record_ref_set_event_open s s2 self d fields _ valid valid len ka _ hg hset hs))

theorem field_atom_event_open (print : data_view2 → Option String)
    (s s1 : series_builder_impl) (self : field_ref) (value : atom_view)
    (h : field_ref.atom print s self value = .ok s1) (hs : s.event_open) :
    s1.event_open := by
  simp only [field_ref.atom] at h
  split at h
  · simp only [except_bind_eq_ok] at h
    obtain ⟨⟨d, fields, valid, len, ka⟩, hg, h⟩ := h
    split at h
    · simp only [except_bind_eq_ok, ensure_eq_ok] at h
      obtain ⟨_, _, h⟩ := h
      split at h
      · simp only [except_bind_eq_ok, ensure_eq_ok] at h
        obtain ⟨_, _, f1, _, hset⟩ := h
        exact record_ref_set_event_open s s1 _ d fields _ valid valid len ka ka hg hset hs
      · simp only [except_pure_eq_ok] at h
        subst h; exact hs
    · simp only [except_pure_eq_ok] at h
      subst h; exact hs
  · simp only [except_bind_eq_ok] at h
    obtain ⟨⟨d, fields, valid, len, ka⟩, hg, h⟩ := h
    split at h
    · simp at h
    · simp only [except_bind_eq_ok, ensure_eq_ok] at h
      obtain ⟨_, _, b1, _, s2, hset, h⟩ := h
      exact dynamic_atom_event_open print s2 s1 _ _ (by simp) h
        (record_ref_set_event_open s s2 _ d fields _ valid valid len ka ka hg hset hs)
  · simp only [except_bind_eq_ok] at h
    obtain ⟨⟨s2, path, variant⟩, hprep, h⟩ := h
    obtain ⟨h2, hp⟩ := prepare_field_event_open print s s2 _ _ _ _ _ hprep hs
    exact append_atom_event_open s2 s1 _ _ _ hp h h2

theorem field_record_event_open (print : data_view2 → Option String)
    (s s1 : series_builder_impl) (self : field_ref) (r : record_ref)
    (h : field_ref.record print s self = .ok (s1, r)) (hs : s.event_open) :
    s1.event_open := by
  simp only [field_ref.record, except_bind_eq_ok] at h
  obtain ⟨⟨s2, path, variant⟩, hprep, h⟩ := h
  obtain ⟨h2, hp⟩ := prepare_field_event_open print s s2 _ _ _ _ _ hprep hs
  exact append_record_event_open s2 s1 _ _ _ hp h h2

theorem field_list_event_open (print : data_view2 → Option String)
    (s s1 : series_builder_impl) (self : field_ref) (r : builder_ref)
    (h : field_ref.list print s self = .ok (s1, r)) (hs : s.event_open) :
    s1.event_open := by
  simp only [field_ref.list, except_bind_eq_ok] at h
  obtain ⟨⟨s2, path, variant⟩, hprep, h⟩ := h
  obtain ⟨h2, hp⟩ := prepare_field_event_open print s s2 _ _ _ _ _ hprep hs
  exact append_list_event_open s2 s1 _ _ _ hp h h2
theorem event_open_batches_nonempty (s : series_builder_impl) (h : s.event_open) :
    s.batches_nonempty :=
  ⟨fun _ => h.1, h.2⟩

theorem set_typed_length_ge (d : dynamic_builder) (variant : Option Nat) (t t1 : builder_base)
    (ht : d.typed variant = some t) (hl : t.length ≤ t1.length) :
    d.length ≤ (d.set_typed variant t1).length := by
  obtain ⟨b, p, m⟩ := d
  cases variant with
  | none =>
    cases b with
    | conflict ds vs => exact Nat.le_refl _
    | null n =>
      simp only [dynamic_builder.typed, dynamic_builder.builder_, Option.some.injEq] at ht
      subst ht; exact hl
    | atom a inner =>
      simp only [dynamic_builder.typed, dynamic_builder.builder_, Option.some.injEq] at ht
      subst ht; exact hl
    | list offs el =>
      simp only [dynamic_builder.typed, dynamic_builder.builder_, Option.some.injEq] at ht
      subst ht; exact hl
    | record fs valid n ka =>
      simp only [dynamic_builder.typed, dynamic_builder.builder_, Option.some.injEq] at ht
      subst ht; exact hl
  | some i =>
    cases b with
    | conflict ds vs => exact Nat.le_refl _
    | null n => exact Nat.le_refl _
    | atom a inner => exact Nat.le_refl _
    | list offs el => exact Nat.le_refl _
    | record fs valid n ka => exact Nat.le_refl _

/-- Replacing the root builder by one that is not shorter keeps the queue free
of empty arrays and the conflict flag backed by a row. -/
theorem set_root_batches_nonempty (s s1 : series_builder_impl) (d : dynamic_builder)
    (hl : s.builder_.length ≤ d.length) (h : s.set [] d = .ok s1)
    (hs : s.batches_nonempty) : s1.batches_nonempty := by
  rw [series_builder_impl_set_root] at h
  cases h
  exact ⟨fun hf => Nat.le_trans (hs.1 hf) hl, hs.2⟩

theorem finish_if_conflict_batches_nonempty (print : data_view2 → Option String)
    (s s1 : series_builder_impl) (h : s.finish_if_conflict print = .ok s1)
    (hs : s.batches_nonempty) :
    s1.has_conflict_ = false ∧ ∀ a ∈ s1.finished_, 1 ≤ a.length := by
  simp only [series_builder_impl.finish_if_conflict] at h
  split at h
  · rename_i hflag
    simp only [except_bind_eq_ok, except_pure_eq_ok] at h
    obtain ⟨⟨array, b1⟩, hf, h⟩ := h
    subst h
    refine ⟨rfl, ?_⟩
    intro a ha
    simp only [List.mem_append, List.mem_singleton] at ha
    rcases ha with ha | ha
    · exact hs.2 a ha
    · subst ha
      have hl := (dynamic_builder_finish_and_leave_length print _ _ _ _ _ hf).1
      have := hs.1 hflag
      omega
  · rename_i hflag
    simp only [except_pure_eq_ok] at h
    subst h
    exact ⟨by simpa using hflag, hs.2⟩

theorem finish_previous_events_root_batches (print : data_view2 → Option String)
    (s s1 : series_builder_impl) (h : s.finish_previous_events print true = .ok s1)
    (hflag : s.has_conflict_ = false) (hs : ∀ a ∈ s.finished_, 1 ≤ a.length) :
    s1.has_conflict_ = false ∧ ∀ a ∈ s1.finished_, 1 ≤ a.length := by
  simp only [series_builder_impl.finish_previous_events] at h
  split at h
  · simp only [except_pure_eq_ok] at h
    subst h; exact ⟨hflag, hs⟩
  · split at h
    · simp only [except_pure_eq_ok] at h
      subst h; exact ⟨hflag, hs⟩
    · simp only [except_bind_eq_ok, ensure_eq_ok, except_pure_eq_ok] at h
      obtain ⟨⟨slice, b1⟩, hf, _, hl, _, hpos, h⟩ := h
      subst h
      refine ⟨hflag, ?_⟩
      intro a ha
      simp only [List.mem_append, List.mem_singleton] at ha
      rcases ha with ha | ha
      · exact hs a ha
      · subst ha
        exact hpos

theorem prepare_cast_length_ge (T : target) (d d1 : dynamic_builder) (variant : Option Nat)
    (h : d.prepare_cast T = .ok (some (d1, variant))) : d.length ≤ d1.length := by
  rcases dynamic_builder_prepare_cast_spec T d d1 variant h with ⟨_, hl, _⟩ | ⟨_, _, _, _, hl, _⟩
  · omega
  · omega

theorem prepare_root_batches_nonempty (print : data_view2 → Option String)
    (s s1 : series_builder_impl) (T : target) (variant : Option Nat)
    (h : dynamic_builder.prepare print s [] T = .ok (s1, variant))
    (hflag : s.has_conflict_ = false) (hs : ∀ a ∈ s.finished_, 1 ≤ a.length) :
    s1.batches_nonempty := by
  simp only [dynamic_builder.prepare, except_bind_eq_ok] at h
  obtain ⟨d, _, r, _, h⟩ := h
  cases r with
  | some dv =>
    obtain ⟨d1, v⟩ := dv
    simp only [except_bind_eq_ok, except_pure_eq_ok, Prod.mk.injEq] at h
    obtain ⟨s2, hset, h, _⟩ := h
    subst h
    rw [series_builder_impl_set_root] at hset
    cases hset
    exact ⟨fun hf => by simp [hflag] at hf, hs⟩
  | none =>
    simp only [except_bind_eq_ok, ensure_eq_ok] at h
    obtain ⟨_, _, _, _, s2, hfpe, d1, hd1, s3, hwrap, d2, hd2, r2, hcast, h⟩ := h
    have hroot : (([] : builder_path) == []) = true := rfl
    rw [hroot] at hfpe
    obtain ⟨hflag2, hs2⟩ := finish_previous_events_root_batches print s s2 hfpe hflag hs
    rw [series_builder_impl_get_root] at hd1
    cases hd1
    have h3 : s3.batches_nonempty := by
      split at hwrap
      · rename_i hpos
        simp only [except_bind_eq_ok, except_pure_eq_ok] at hwrap
        obtain ⟨s2a, hset, hwrap⟩ := hwrap
        subst hwrap
        rw [series_builder_impl_set_root] at hset
        cases hset
        refine ⟨fun _ => ?_, hs2⟩
        show 1 ≤ s2.builder_.wrap_conflict.length
        rw [dynamic_builder_wrap_conflict_length]
        exact hpos
      · split at hwrap
        · simp at hwrap
        · simp only [except_pure_eq_ok] at hwrap
          subst hwrap
          exact ⟨fun hf => by simp [hflag2] at hf, hs2⟩
    rw [series_builder_impl_get_root] at hd2
    cases hd2
    cases r2 with
    | none => simp at h
    | some dv =>
      obtain ⟨d3, v⟩ := dv
      simp only [except_bind_eq_ok, except_pure_eq_ok, Prod.mk.injEq] at h
      obtain ⟨s4, hset, h, _⟩ := h
      subst h
      exact set_root_batches_nonempty s3 s4 d3 (prepare_cast_length_ge T _ _ _ hcast) hset h3

theorem append_atom_root_batches_nonempty (s s1 : series_builder_impl)
    (variant : Option Nat) (value : atom_view)
    (h : typed_builder.append_atom s [] variant value = .ok s1) (hs : s.batches_nonempty) :
    s1.batches_nonempty := by
  simp only [typed_builder.append_atom, except_bind_eq_ok] at h
  obtain ⟨d, hd, h⟩ := h
  rw [series_builder_impl_get_root] at hd
  cases hd
  split at h
  · rename_i t inner ht
    exact set_root_batches_nonempty s s1 _
      (set_typed_length_ge _ _ _ _ ht (by simp [builder_base.length])) h hs
  · simp at h

theorem append_record_root_batches_nonempty (s s1 : series_builder_impl)
    (variant : Option Nat) (r : record_ref)
    (h : typed_builder.append_record s [] variant = .ok (s1, r)) (hs : s.batches_nonempty) :
    s1.batches_nonempty := by
  simp only [typed_builder.append_record, except_bind_eq_ok] at h
  obtain ⟨d, hd, h⟩ := h
  rw [series_builder_impl_get_root] at hd
  cases hd
  split at h
  · rename_i fields valid len ka ht
    simp only [except_bind_eq_ok, except_pure_eq_ok, Prod.mk.injEq] at h
    obtain ⟨s2, hset, h, _⟩ := h
    subst h
    exact set_root_batches_nonempty s s2 _
      (set_typed_length_ge _ _ _ _ ht (by simp [builder_base.length])) hset hs
  · simp at h

theorem append_list_root_batches_nonempty (s s1 : series_builder_impl)
    (variant : Option Nat) (r : builder_ref)
    (h : typed_builder.append_list s [] variant = .ok (s1, r)) (hs : s.batches_nonempty) :
    s1.batches_nonempty := by
  simp only [typed_builder.append_list, except_bind_eq_ok] at h
  obtain ⟨d, hd, h⟩ := h
  rw [series_builder_impl_get_root] at hd
  cases hd
  split at h
  · rename_i offsets elements ht
    simp only [except_bind_eq_ok, except_pure_eq_ok, Prod.mk.injEq, ensure_eq_ok] at h
    obtain ⟨_, _, s2, hset, h, _⟩ := h
    subst h
    exact set_root_batches_nonempty s s2 _
      (set_typed_length_ge _ _ _ _ ht (by simp [builder_base.length])) hset hs
  · simp at h

theorem dynamic_atom_root_batches_nonempty (print : data_view2 → Option String)
    (s s1 : series_builder_impl) (value : atom_view)
    (h : dynamic_builder.atom print s [] value = .ok s1)
    (hflag : s.has_conflict_ = false) (hs : ∀ a ∈ s.finished_, 1 ≤ a.length) :
    s1.batches_nonempty := by
  have hs0 : s.batches_nonempty := ⟨fun hf => by simp [hflag] at hf, hs⟩
  simp only [dynamic_builder.atom] at h
  split at h
  · simp only [except_bind_eq_ok] at h
    obtain ⟨d, hd, d1, hres, hset⟩ := h
    rw [series_builder_impl_get_root] at hd
    cases hd
    exact set_root_batches_nonempty s s1 d1
      (by rw [dynamic_builder_resize_length _ _ _ hres]; omega) hset hs0
  · simp only [except_bind_eq_ok] at h
    obtain ⟨d, hd, h⟩ := h
    rw [series_builder_impl_get_root] at hd
    cases hd
    split at h
    · rename_i labels inner p m heq
      refine set_root_batches_nonempty s s1 _ ?_ h hs0
      rw [heq]
      simp [dynamic_builder.length, dynamic_builder.builder_, builder_base.length]
    · simp at h
  · simp only [except_bind_eq_ok] at h
    obtain ⟨⟨s2, variant⟩, hprep, h⟩ := h
    exact append_atom_root_batches_nonempty s2 s1 _ _ h
      (prepare_root_batches_nonempty print s s2 _ _ hprep hflag hs)

theorem dynamic_record_root_batches_nonempty (print : data_view2 → Option String)
    (s s1 : series_builder_impl) (r : record_ref)
    (h : dynamic_builder.record print s [] = .ok (s1, r))
    (hflag : s.has_conflict_ = false) (hs : ∀ a ∈ s.finished_, 1 ≤ a.length) :
    s1.batches_nonempty := by
  simp only [dynamic_builder.record, except_bind_eq_ok] at h
  obtain ⟨⟨s2, variant⟩, hprep, h⟩ := h
  exact append_record_root_batches_nonempty s2 s1 _ _ h
    (prepare_root_batches_nonempty print s s2 _ _ hprep hflag hs)

theorem dynamic_list_root_batches_nonempty (print : data_view2 → Option String)
    (s s1 : series_builder_impl) (r : builder_ref)
    (h : dynamic_builder.list print s [] = .ok (s1, r))
    (hflag : s.has_conflict_ = false) (hs : ∀ a ∈ s.finished_, 1 ≤ a.length) :
    s1.batches_nonempty := by
  simp only [dynamic_builder.list, except_bind_eq_ok] at h
  obtain ⟨⟨s2, variant⟩, hprep, h⟩ := h
  exact append_list_root_batches_nonempty s2 s1 _ _ h
    (prepare_root_batches_nonempty print s s2 _ _ hprep hflag hs)

theorem finish_batches_nonempty (print : data_view2 → Option String)
    (s s1 : series_builder_impl) (arrays : List typed_array)
    (h : series_builder.finish print s = .ok (arrays, s1)) (hs : s.batches_nonempty) :
    (∀ a ∈ arrays, 1 ≤ a.length) ∧ s1.batches_nonempty := by
  simp only [series_builder.finish, series_builder_impl.finish] at h
  split at h
  · rename_i hpos
    simp only [except_bind_eq_ok, ensure_eq_ok, except_pure_eq_ok, Prod.mk.injEq] at h
    obtain ⟨⟨array, b1⟩, hf, _, _, h1, h2⟩ := h
    subst h1 h2
    refine ⟨?_, fun hf => by simp at hf, fun a ha => by simp at ha⟩
    intro a ha
    simp only [List.mem_append, List.mem_singleton] at ha
    rcases ha with ha | ha
    · exact hs.2 a ha
    · subst ha
      have hl := (dynamic_builder_finish_and_leave_length print _ _ _ _ _ hf).1
      omega
  · simp only [except_pure_eq_ok, Prod.mk.injEq] at h
    obtain ⟨h1, h2⟩ := h
    subst h1 h2
    exact ⟨hs.2, fun hf => by simp at hf, fun a ha => by simp at ha⟩

theorem remove_last_batches_nonempty (s s1 : series_builder_impl)
    (h : series_builder.remove_last s = .ok s1) (hs : s.batches_nonempty) :
    s1.batches_nonempty := by
  simp only [series_builder.remove_last, series_builder_impl.remove_last] at h
  split at h
  · simp only [except_bind_eq_ok, except_pure_eq_ok] at h
    obtain ⟨b1, _, h⟩ := h
    subst h
    exact ⟨fun hf => by simp at hf, hs.2⟩
  · simp only [except_pure_eq_ok] at h
    subst h
    exact ⟨fun hf => by simp at hf, hs.2⟩

theorem call_run_batches_nonempty (print : data_view2 → Option String)
    (s s1 : series_builder_impl) (c : call) (hc : c.in_progress s)
    (h : c.run print s = .ok s1) (hs : s.batches_nonempty) : s1.batches_nonempty := by
  cases c with
  | atom ref value =>
    cases ref with
    | series =>
      simp only [call.run, builder_ref.atom, series_builder.atom, series_builder_impl.atom,
        except_bind_eq_ok] at h
      obtain ⟨s2, hfc, h⟩ := h
      obtain ⟨hflag, hfin⟩ := finish_if_conflict_batches_nonempty print s s2 hfc hs
      exact dynamic_atom_root_batches_nonempty print s2 s1 value h hflag hfin
    | dynamic path =>
      simp only [call.in_progress, call.ref] at hc
      exact event_open_batches_nonempty _
        (dynamic_atom_event_open print s s1 path value hc.1 h ⟨hc.2, hs.2⟩)
    | field f =>
      simp only [call.in_progress, call.ref] at hc
      exact event_open_batches_nonempty _
        (field_atom_event_open print s s1 f value h ⟨hc, hs.2⟩)
  | record ref =>
    simp only [call.run, except_map_eq_ok] at h
    obtain ⟨⟨s2, r⟩, h, h1⟩ := h
    subst h1
    cases ref with
    | series =>
      simp only [builder_ref.record, series_builder.record, series_builder_impl.record,
        except_bind_eq_ok] at h
      obtain ⟨s3, hfc, h⟩ := h
      obtain ⟨hflag, hfin⟩ := finish_if_conflict_batches_nonempty print s s3 hfc hs
      exact dynamic_record_root_batches_nonempty print s3 s2 r h hflag hfin
    | dynamic path =>
      simp only [call.in_progress, call.ref] at hc
      exact event_open_batches_nonempty _
        (dynamic_record_event_open print s s2 path r hc.1 h ⟨hc.2, hs.2⟩)
    | field f =>
      simp only [call.in_progress, call.ref] at hc
      exact event_open_batches_nonempty _
        (field_record_event_open print s s2 f r h ⟨hc, hs.2⟩)
  | list ref =>
    simp only [call.run, except_map_eq_ok] at h
    obtain ⟨⟨s2, r⟩, h, h1⟩ := h
    subst h1
    cases ref with
    | series =>
      simp only [builder_ref.list, series_builder.list, series_builder_impl.list,
        except_bind_eq_ok] at h
      obtain ⟨s3, hfc, h⟩ := h
      obtain ⟨hflag, hfin⟩ := finish_if_conflict_batches_nonempty print s s3 hfc hs
      exact dynamic_list_root_batches_nonempty print s3 s2 r h hflag hfin
    | dynamic path =>
      simp only [call.in_progress, call.ref] at hc
      exact event_open_batches_nonempty _
        (dynamic_list_event_open print s s2 path r hc.1 h ⟨hc.2, hs.2⟩)
    | field f =>
      simp only [call.in_progress, call.ref] at hc
      exact event_open_batches_nonempty _
        (field_list_event_open print s s2 f r h ⟨hc, hs.2⟩)
  | remove_last => exact remove_last_batches_nonempty s s1 h hs
  | finish =>
    simp only [call.run, except_map_eq_ok] at h
    obtain ⟨⟨arrays, s2⟩, h, h1⟩ := h
    subst h1
    exact (finish_batches_nonempty print s s2 arrays h hs).2

theorem run_all_batches_nonempty (print : data_view2 → Option String) (calls : List call) :
    ∀ (s s1 : series_builder_impl), events_in_progress print s calls →
      run_all print s calls = .ok s1 → s.batches_nonempty → s1.batches_nonempty := by
  induction calls with
  | nil =>
    intro s s1 _ h hs
    simp only [run_all, List.foldlM_nil, except_pure_eq_ok] at h
    subst h; exact hs
  | cons c rest ih =>
    intro s s1 hg h hs
    simp only [run_all, List.foldlM_cons, except_bind_eq_ok] at h
    obtain ⟨s2, hc, h⟩ := h
    simp only [events_in_progress, hc] at hg
    exact ih s2 s1 hg.2 h (call_run_batches_nonempty print s s2 c hg.1 hc hs)

theorem series_builder_new_batches_nonempty (ty : Option tenzir.type)
    (s : series_builder_impl) (h : series_builder.new ty = .ok s) : s.batches_nonempty := by
  cases ty with
  | none =>
    simp only [series_builder.new, except_pure_eq_ok] at h
    subst h
    exact ⟨fun hf => by simp [series_builder_impl.new] at hf,
      fun a ha => by simp [series_builder_impl.new] at ha⟩
  | some ty =>
    simp only [series_builder.new, except_bind_eq_ok, except_pure_eq_ok] at h
    obtain ⟨b, _, h⟩ := h
    subst h
    exact ⟨fun hf => by simp at hf, fun a ha => by simp at ha⟩
theorem as_table_slice_length_assertion (name : String) (a : typed_array)
    (h : 1 ≤ a.length) : as_table_slice name a ≠ .error (.assertion 1297) := by
  intro he
  simp only [as_table_slice] at he
  by_cases hk : a.type.kind = .record
  · have hl : a.length > 0 := h
    simp only [ensure_true hk, ensure_true hl, except_bind_ok] at he
    split at he
    · cases he
    · cases he
  · simp only [ensure, if_neg hk, except_bind_error] at he
    cases he

/-- C37: a series, new or protected, and any sequence of calls (writes through
the series or through handles, `remove_last()`, `finish()`) in which every
call through a handle is made while an event is in progress: the handle lies
below the root builder and the root builder holds a row. When the calls
return, no array in the queue of finished batches is empty, every array
that a following `finish()` returns has at least one row, and for none of
them the length assertion of `finish_as_table_slice` fails. -/
theorem no_empty_batches (print : data_view2 → Option String) (ty : Option tenzir.type)
    (calls : List call) (s0 s : series_builder_impl)
    (hnew : series_builder.new ty = .ok s0)
    (hguard : events_in_progress print s0 calls)
    (hrun : run_all print s0 calls = .ok s) :
    (∀ a ∈ s.finished_, 1 ≤ a.length)
    ∧ ∀ arrays s1, series_builder.finish print s = .ok (arrays, s1) →
      ∀ a ∈ arrays, 1 ≤ a.length
        ∧ ∀ name, as_table_slice name a ≠ .error (.assertion 1297) := by
  have hs := run_all_batches_nonempty print calls s0 s hguard hrun
    (series_builder_new_batches_nonempty ty s0 hnew)
  refine ⟨hs.2, ?_⟩
  intro arrays s1 hf a ha
  have hl := (finish_batches_nonempty print s s1 arrays hf hs).1 a ha
  exact ⟨hl, fun name => as_table_slice_length_assertion name a hl⟩

/-- The event `{a: 1}` is opened on a fresh series. -/
theorem cut_between_events_step1 (print : data_view2 → Option String) :
    call.run print
      series_builder_impl.new
      (.record .series)
      = .ok ⟨(.mk (.record [] [] 1 none) false .null), [], false⟩ := rfl

/-- The field `a` of the first event gets 1. -/
theorem cut_between_events_step2 (print : data_view2 → Option String) :
    call.run print
      ⟨(.mk (.record [] [] 1 none) false .null), [], false⟩
      (.atom (.field ⟨⟨[], none⟩, "a"⟩) (.int64 1))
      = .ok ⟨(.mk (.record [("a", (.mk (.atom (.basic (.int64)) [some (.int64 1)]) false .null))]
      [] 1 none) false .null), [], false⟩ := rfl

/-- The event `{a: "s"}` is opened. -/
theorem cut_between_events_step3 (print : data_view2 → Option String) :
    call.run print
      ⟨(.mk (.record [("a", (.mk (.atom (.basic (.int64)) [some (.int64 1)]) false .null))]
      [] 1 none) false .null), [], false⟩
      (.record .series)
      = .ok ⟨(.mk (.record [("a", (.mk (.atom (.basic (.int64)) [some (.int64 1)]) false .null))]
      [] 2 none) false .null), [], false⟩ := rfl

/-- The field `a` gets a string: the first event is cut off as a batch of one row. -/
theorem cut_between_events_step4 (print : data_view2 → Option String) :
    call.run print
      ⟨(.mk (.record [("a", (.mk (.atom (.basic (.int64)) [some (.int64 1)]) false .null))]
      [] 2 none) false .null), [], false⟩
      (.atom (.field ⟨⟨[], none⟩, "a"⟩) (.string "s"))
      = .ok ⟨(.mk (.record [("a", (.mk (.atom (.basic (.string)) [some
      (.string "s")]) false .null))] [] 1 none) false .null), [⟨(tenzir.type.record [("a",
      (.basic .int64))]), (.struct 1 [(.primitive [some (.int64 1)])] none)⟩], false⟩ := rfl

theorem no_empty_batches_witness :
    (∀ a ∈ ((⟨(.mk (.record [("a", (.mk (.atom (.basic (.string)) [some (.string "s")]) false .null))]
      [] 1 none) false .null), [⟨(tenzir.type.record [("a", (.basic .int64))]), (.struct 1
      [(.primitive [some (.int64 1)])] none)⟩], false⟩ : series_builder_impl)).finished_, 1 ≤ a.length)
    ∧ ∀ arrays s1, series_builder.finish (fun _ => none)
        ⟨(.mk (.record [("a", (.mk (.atom (.basic (.string)) [some (.string "s")]) false .null))]
      [] 1 none) false .null), [⟨(tenzir.type.record [("a", (.basic .int64))]), (.struct 1
      [(.primitive [some (.int64 1)])] none)⟩], false⟩
        = .ok (arrays, s1) →
      ∀ a ∈ arrays, 1 ≤ a.length
        ∧ ∀ name, as_table_slice name a ≠ .error (.assertion 1297) :=
  no_empty_batches (fun _ => none) none
    [.record .series,
     .atom (.field ⟨⟨[], none⟩, "a"⟩) (.int64 1),
     .record .series,
     .atom (.field ⟨⟨[], none⟩, "a"⟩) (.string "s")]
    series_builder_impl.new
    ⟨(.mk (.record [("a", (.mk (.atom (.basic (.string)) [some (.string "s")]) false .null))]
    [] 1 none) false .null), [⟨(tenzir.type.record [("a", (.basic .int64))]), (.struct 1
    [(.primitive [some (.int64 1)])] none)⟩], false⟩
    rfl
    (by
      simp only [events_in_progress, except_bind_ok,
        cut_between_events_step1 (fun _ => none),
        cut_between_events_step2 (fun _ => none),
        cut_between_events_step3 (fun _ => none),
        cut_between_events_step4 (fun _ => none)]
      simp only [call.in_progress, call.ref, and_self, true_and, and_true]
      decide)
    (by
      simp only [run_all, List.foldlM_cons, List.foldlM_nil, except_bind_ok,
        cut_between_events_step1 (fun _ => none),
        cut_between_events_step2 (fun _ => none),
        cut_between_events_step3 (fun _ => none),
        cut_between_events_step4 (fun _ => none)]
      rfl)
/-- The event `[1]` is opened on a fresh series: `list()`. -/
theorem stale_handle_step1 (print : data_view2 → Option String) :
    call.run print
      series_builder_impl.new
      (.list .series)
      = .ok ⟨(.mk (.list [(0, true)] (.mk (.null 0) false .null)) false .null), [], false⟩ := rfl

/-- The list gets the element 1. -/
theorem stale_handle_step2 (print : data_view2 → Option String) :
    call.run print
      ⟨(.mk (.list [(0, true)] (.mk (.null 0) false .null)) false .null), [], false⟩
      (.atom (.dynamic [.elements none]) (.int64 1))
      = .ok ⟨(.mk (.list [(0, true)] (.mk (.atom (.basic (.int64)) [some
      (.int64 1)]) false .null)) false .null), [], false⟩ := rfl

/-- The event is removed: the root builder holds no row. -/
theorem stale_handle_step3 (print : data_view2 → Option String) :
    call.run print
      ⟨(.mk (.list [(0, true)] (.mk (.atom (.basic (.int64)) [some
      (.int64 1)]) false .null)) false .null), [], false⟩
      (.remove_last)
      = .ok ⟨(.mk (.list [] (.mk (.atom (.basic (.int64)) []) false .null)) false .null), [], false⟩ := rfl

/-- The handle of the removed list is used again: the elements builder gets a row
while the root builder holds none. -/
theorem stale_handle_step4 (print : data_view2 → Option String) :
    call.run print
      ⟨(.mk (.list [] (.mk (.atom (.basic (.int64)) []) false .null)) false .null), [], false⟩
      (.atom (.dynamic [.elements none]) (.int64 2))
      = .ok ⟨(.mk (.list [] (.mk (.atom (.basic (.int64)) [some
      (.int64 2)]) false .null)) false .null), [], false⟩ := rfl

/-- A string through the same handle: the elements builder becomes a conflict
builder and the conflict flag is set while the root builder holds no row. -/
theorem stale_handle_step5 (print : data_view2 → Option String) :
    call.run print
      ⟨(.mk (.list [] (.mk (.atom (.basic (.int64)) [some (.int64 2)]) false .null)) false .null),
      [], false⟩
      (.atom (.dynamic [.elements none]) (.string "s"))
      = .ok ⟨(.mk (.list [] (.mk (.conflict [0, 1] [(.atom (.basic (.int64)) [some (.int64 2)]),
      (.atom (.basic (.string)) [some (.string "s")])]) false .null)) false .null), [], true⟩ := rfl

/-- The next event is opened: `finish_if_conflict` queues the array of the root
builder, which has no rows. -/
theorem stale_handle_step6 (print : data_view2 → Option String) :
    call.run print
      ⟨(.mk (.list [] (.mk (.conflict [0, 1] [(.atom (.basic (.int64)) [some (.int64 2)]), (.atom
      (.basic (.string)) [some (.string "s")])]) false .null)) false .null), [], true⟩
      (.list .series)
      = .ok ⟨(.mk (.list [(0, true)] (.mk (.null 0) false .null)) false .null), [⟨(.list
      (.basic .string)), (.list [0] [] (.primitive []))⟩], false⟩ := rfl

/-- Without an event in progress the statement of C37 does not hold: a handle
that is used after `remove_last()` has removed its event sets the conflict
flag on an empty root builder, and the next top-level write queues an array
without rows. -/
theorem stale_handle_queues_empty_batch (print : data_view2 → Option String) :
    run_all print series_builder_impl.new
      [.list .series,
       .atom (.dynamic [.elements none]) (.int64 1),
       .remove_last,
       .atom (.dynamic [.elements none]) (.int64 2),
       .atom (.dynamic [.elements none]) (.string "s"),
       .list .series]
      = .ok ⟨(.mk (.list [(0, true)] (.mk (.null 0) false .null)) false .null), [⟨(.list
      (.basic .string)), (.list [0] [] (.primitive []))⟩], false⟩ := by
  simp only [run_all, List.foldlM_cons, List.foldlM_nil, except_bind_ok,
    stale_handle_step1 print,
    stale_handle_step2 print,
    stale_handle_step3 print,
    stale_handle_step4 print,
    stale_handle_step5 print,
    stale_handle_step6 print]
  rfl
/-! ## Length uniformity in record builders -/

theorem fields_bounded_mono (len len1 : Nat) (h : len ≤ len1) :
    ∀ (fields : List (String × dynamic_builder)), fields_bounded len fields →
      fields_bounded len1 fields
  | [] => fun _ => by simp only [fields_bounded]
  | (name, builder) :: rest => by
    intro hf
    simp only [fields_bounded] at hf ⊢
    exact ⟨Nat.le_trans hf.1 h, hf.2.1, fields_bounded_mono len len1 h rest hf.2.2⟩

mutual
/-- The method `resize` keeps length uniformity. -/
theorem builder_base_resize_bounded : (b : builder_base) → ∀ (n : Nat) (b1 : builder_base),
    b.bounded → b.resize n = .ok b1 → b1.bounded
  | .null _ => by
    intro n b1 _ h
    simp only [builder_base.resize, except_pure_eq_ok] at h
    subst h
    simp only [builder_base.bounded]
  | .atom t inner => by
    intro n b1 _ h
    simp only [builder_base.resize] at h
    split at h
    · simp only [except_pure_eq_ok] at h
      subst h; simp only [builder_base.bounded]
    · split at h
      · simp only [except_pure_eq_ok] at h
        subst h; simp only [builder_base.bounded]
      · simp only [except_pure_eq_ok] at h
        subst h; simp only [builder_base.bounded]
  | .list offsets elements => by
    intro n b1 hb h
    simp only [builder_base.bounded] at hb
    simp only [builder_base.resize] at h
    split at h
    · simp only [except_bind_eq_ok, except_pure_eq_ok] at h
      obtain ⟨e1, he, h⟩ := h
      subst h
      simp only [builder_base.bounded]
      exact dynamic_builder_resize_bounded elements _ e1 hb he
    · split at h
      · simp only [except_pure_eq_ok] at h
        subst h; simp only [builder_base.bounded]; exact hb
      · simp only [except_pure_eq_ok] at h
        subst h; simp only [builder_base.bounded]; exact hb
  | .record fields valid len ka => by
    intro n b1 hb h
    simp only [builder_base.bounded] at hb
    simp only [builder_base.resize] at h
    split at h
    · simp only [except_bind_eq_ok, except_pure_eq_ok] at h
      obtain ⟨f1, hf, h⟩ := h
      subst h
      simp only [builder_base.bounded]
      exact resize_fields_bounded fields n len f1 hb hf
    · split at h
      · rename_i hgt
        simp only [except_pure_eq_ok] at h
        subst h
        simp only [builder_base.bounded]
        exact fields_bounded_mono len n (Nat.le_of_lt hgt) fields hb
      · rename_i h1 h2
        simp only [except_pure_eq_ok] at h
        subst h
        simp only [builder_base.bounded]
        exact fields_bounded_mono len n (by omega) fields hb
  | .conflict ds [] => by
    intro n b1 hb h
    simp only [builder_base.resize] at h
    split at h
    · simp at h
    · split at h
      · simp at h
      · simp only [except_pure_eq_ok] at h
        subst h; exact hb
  | .conflict ds (v0 :: rest) => by
    intro n b1 hb h
    simp only [builder_base.bounded, variants_bounded] at hb
    simp only [builder_base.resize] at h
    split at h
    · simp only [except_bind_eq_ok, except_pure_eq_ok] at h
      obtain ⟨v1, hv, h⟩ := h
      subst h
      simp only [builder_base.bounded, variants_bounded]
      exact ⟨builder_base_resize_bounded v0 _ v1 hb.1 hv, hb.2⟩
    · split at h
      · simp at h
      · simp only [except_pure_eq_ok] at h
        subst h
        simp only [builder_base.bounded, variants_bounded]
        exact hb
/-- The method `dynamic_builder::resize` keeps length uniformity. -/
theorem dynamic_builder_resize_bounded : (d : dynamic_builder) →
    ∀ (n : Nat) (d1 : dynamic_builder), d.bounded → d.resize n = .ok d1 → d1.bounded
  | .mk b p m => by
    intro n d1 hd h
    simp only [dynamic_builder.bounded] at hd
    simp only [dynamic_builder.resize, except_bind_eq_ok, except_pure_eq_ok] at h
    obtain ⟨b1, hb, h⟩ := h
    subst h
    simp only [dynamic_builder.bounded]
    exact builder_base_resize_bounded b n b1 hd hb
/-- After the loop of the record `resize` no field is longer than the new length. -/
theorem resize_fields_bounded : (fields : List (String × dynamic_builder)) →
    ∀ (n len : Nat) (fields1 : List (String × dynamic_builder)), fields_bounded len fields →
      resize_fields fields n = .ok fields1 → fields_bounded n fields1
  | [] => by
    intro n len fields1 _ h
    simp only [resize_fields, except_pure_eq_ok] at h
    subst h
    simp only [fields_bounded]
  | (name, builder) :: rest => by
    intro n len fields1 hf h
    simp only [fields_bounded] at hf
    simp only [resize_fields, except_bind_eq_ok, except_pure_eq_ok] at h
    obtain ⟨b1, hb, r1, hr, h⟩ := h
    subst h
    simp only [fields_bounded]
    refine ⟨?_, ?_, resize_fields_bounded rest n len r1 hf.2.2 hr⟩
    · split at hb
      · rw [dynamic_builder_resize_length _ _ _ hb]
      · rename_i hle
        simp only [except_pure_eq_ok] at hb
        subst hb
        omega
    · split at hb
      · exact dynamic_builder_resize_bounded builder n b1 hf.2.1 hb
      · simp only [except_pure_eq_ok] at hb
        subst hb
        exact hf.2.1
end
mutual
/-- The method `finish_and_leave` keeps length uniformity in the builder it
leaves behind. -/
theorem builder_base_finish_bounded (print : data_view2 → Option String) :
    (b : builder_base) → ∀ (grow count : Nat) (a : typed_array) (b1 : builder_base),
      b.bounded → b.finish_and_leave print grow count = .ok (a, b1) → b1.bounded
  | .null n => by
    intro grow count a b1 _ h
    simp only [builder_base.finish_and_leave] at h
    split at h
    · simp at h
    · simp only [except_pure_eq_ok, Prod.mk.injEq] at h
      obtain ⟨_, h2⟩ := h
      subst h2
      simp only [builder_base.bounded]
  | .atom t inner => by
    intro grow count a b1 _ h
    simp only [builder_base.finish_and_leave] at h
    split at h
    · simp at h
    · simp only [except_pure_eq_ok, Prod.mk.injEq] at h
      obtain ⟨_, h2⟩ := h
      subst h2
      simp only [builder_base.bounded]
  | .list offsets elements => by
    intro grow count a b1 hb h
    simp only [builder_base.bounded] at hb
    simp only [builder_base.finish_and_leave, ensure_eq_ok, except_bind_eq_ok,
      except_pure_eq_ok] at h
    obtain ⟨_, _, _, hc, ⟨used, el1⟩, hel, result, hres, h⟩ := h
    have ih := dynamic_builder_finish_bounded print elements _ _ _ _ hb hel
    simp only [Prod.mk.injEq] at h
    obtain ⟨_, h2⟩ := h
    subst h2
    simp only [builder_base.bounded]
    exact ih
  | .record fields valid len keep_alive => by
    intro grow count a b1 hb h
    simp only [builder_base.bounded] at hb
    simp only [builder_base.finish_and_leave, ensure_eq_ok, except_bind_eq_ok,
      except_pure_eq_ok] at h
    obtain ⟨_, hc, ⟨children, fields1⟩, hf, ⟨bitmap, valid1⟩, hv, h⟩ := h
    have ih := finish_fields_bounded print fields _ _ _ _ _ len hb hf
    simp only [Prod.mk.injEq] at h
    obtain ⟨_, h2⟩ := h
    subst h2
    simp only [builder_base.bounded]
    refine fields_bounded_mono _ _ ?_ _ ih
    omega
  | .conflict ds vs => by
    intro grow count a b1 hb h
    simp only [builder_base.bounded] at hb
    simp only [builder_base.finish_and_leave, ensure_eq_ok, except_bind_eq_ok,
      except_pure_eq_ok] at h
    obtain ⟨_, hc, ⟨arrays, vs1⟩, hfv, strings, hs, h⟩ := h
    have ih := finish_variants_bounded print vs _ _ _ _ _ hb hfv
    simp only [Prod.mk.injEq] at h
    obtain ⟨_, h2⟩ := h
    subst h2
    simp only [builder_base.bounded]
    exact ih
/-- The method `dynamic_builder::finish_and_leave` keeps length uniformity. -/
theorem dynamic_builder_finish_bounded (print : data_view2 → Option String) :
    (d : dynamic_builder) → ∀ (grow count : Nat) (a : typed_array) (d1 : dynamic_builder),
      d.bounded → d.finish_and_leave print grow count = .ok (a, d1) → d1.bounded
  | .mk b p m => by
    intro grow count a d1 hd h
    simp only [dynamic_builder.bounded] at hd
    simp only [dynamic_builder.finish_and_leave, ensure_eq_ok, except_bind_eq_ok] at h
    obtain ⟨_, hc, ⟨result, b1⟩, hr, _, hlen, h⟩ := h
    have key : b1.bounded := by
      split at hr
      · rw [except_bind_eq_ok] at hr
        obtain ⟨b0, hb0, hr⟩ := hr
        simp only [except_pure_eq_ok, Prod.mk.injEq] at hr
        obtain ⟨_, h2⟩ := hr
        subst h2
        split at hb0
        · exact builder_base_resize_bounded b _ b0 hd hb0
        · simp only [except_pure_eq_ok] at hb0
          subst hb0; exact hd
      · exact builder_base_finish_bounded print b grow count result b1 hd hr
    simp only [except_pure_eq_ok, Prod.mk.injEq] at h
    obtain ⟨_, h2⟩ := h
    subst h2
    split
    · simp only [dynamic_builder.bounded, builder_base.bounded]
    · simp only [dynamic_builder.bounded]
      exact key
/-- After the loop over the fields in the record `finish_and_leave` no field is
longer than the rows the record keeps. -/
theorem finish_fields_bounded (print : data_view2 → Option String) :
    (fields : List (String × dynamic_builder)) →
      ∀ (len target : Nat) (keep : Option String) (arrays : List arrow_array)
        (fields1 : List (String × dynamic_builder)) (len0 : Nat),
      fields_bounded len0 fields →
      finish_fields print fields len target keep = .ok (arrays, fields1) →
      fields_bounded (len - target) fields1
  | [] => by
    intro len target keep arrays fields1 len0 _ h
    simp only [finish_fields, except_pure_eq_ok, Prod.mk.injEq] at h
    obtain ⟨_, h2⟩ := h
    subst h2
    simp only [fields_bounded]
  | (name, builder) :: rest => by
    intro len target keep arrays fields1 len0 hf h
    simp only [fields_bounded] at hf
    simp only [finish_fields, ensure_eq_ok, except_bind_eq_ok, except_pure_eq_ok] at h
    obtain ⟨_, hle, ⟨array, builder1⟩, hb, _, hl1, _, hal, ⟨arrays1, rest1⟩, hrest, h⟩ := h
    have ih1 := dynamic_builder_finish_bounded print builder _ _ _ _ hf.2.1 hb
    have ih2 := finish_fields_bounded print rest _ _ _ _ _ len0 hf.2.2 hrest
    simp only [Prod.mk.injEq] at h
    obtain ⟨_, h2⟩ := h
    subst h2
    split
    · exact ih2
    · simp only [fields_bounded]
      refine ⟨?_, ih1, ih2⟩
      rw [hl1]
      omega
/-- The loop over the variants in the conflict `finish_and_leave` keeps length
uniformity. -/
theorem finish_variants_bounded (print : data_view2 → Option String) :
    (variants : List builder_base) →
      ∀ (i grow : Nat) (kept : List Nat) (arrays : List typed_array)
        (variants1 : List builder_base),
      variants_bounded variants →
      finish_variants print variants i grow kept = .ok (arrays, variants1) →
      variants_bounded variants1
  | [] => by
    intro i grow kept arrays variants1 _ h
    simp only [finish_variants, except_pure_eq_ok, Prod.mk.injEq] at h
    obtain ⟨_, h2⟩ := h
    subst h2
    simp only [variants_bounded]
  | variant :: rest => by
    intro i grow kept arrays variants1 hv h
    simp only [variants_bounded] at hv
    simp only [finish_variants, except_bind_eq_ok, except_pure_eq_ok] at h
    obtain ⟨⟨array, variant1⟩, hb, ⟨arrays1, rest1⟩, hrest, h⟩ := h
    have ih1 := builder_base_finish_bounded print variant _ _ _ _ hv.1 hb
    have ih2 := finish_variants_bounded print rest _ _ _ _ _ hv.2 hrest
    simp only [Prod.mk.injEq] at h
    obtain ⟨_, h2⟩ := h
    subst h2
    simp only [variants_bounded]
    exact ⟨ih1, ih2⟩
end
theorem variants_bounded_append : ∀ (vs : List builder_base) (v : builder_base),
    variants_bounded vs → v.bounded → variants_bounded (vs ++ [v])
  | [], v => by
    intro _ hv
    simp only [List.nil_append, variants_bounded]
    exact ⟨hv, trivial⟩
  | v0 :: rest, v => by
    intro h hv
    simp only [variants_bounded] at h
    simp only [List.cons_append, variants_bounded]
    exact ⟨h.1, variants_bounded_append rest v h.2 hv⟩

theorem variants_bounded_get : ∀ (vs : List builder_base) (i : Nat) (v : builder_base),
    variants_bounded vs → vs.get? i = some v → v.bounded
  | [], i, v => by
    intro _ h
    simp at h
  | v0 :: rest, 0, v => by
    intro h hg
    simp only [variants_bounded] at h
    simp only [List.get?_cons_zero, Option.some.injEq] at hg
    subst hg
    exact h.1
  | v0 :: rest, i + 1, v => by
    intro h hg
    simp only [variants_bounded] at h
    simp only [List.get?_cons_succ] at hg
    exact variants_bounded_get rest i v h.2 hg

theorem variants_bounded_set : ∀ (vs : List builder_base) (i : Nat) (v : builder_base),
    variants_bounded vs → v.bounded → variants_bounded (vs.set i v)
  | [], i, v => by
    intro h _
    simpa using h
  | v0 :: rest, 0, v => by
    intro h hv
    simp only [variants_bounded] at h
    simp only [List.set_cons_zero, variants_bounded]
    exact ⟨hv, h.2⟩
  | v0 :: rest, i + 1, v => by
    intro h hv
    simp only [variants_bounded] at h
    simp only [List.set_cons_succ, variants_bounded]
    exact ⟨h.1, variants_bounded_set rest i v h.2 hv⟩

theorem fields_bounded_find (len : Nat) : ∀ (fields : List (String × dynamic_builder))
    (name : String) (c : dynamic_builder), fields_bounded len fields →
    fields_find fields name = some c → c.length ≤ len ∧ c.bounded
  | [], name, c => by
    intro _ h
    simp [fields_find_nil] at h
  | (n, d) :: rest, name, c => by
    intro hf h
    simp only [fields_bounded] at hf
    rw [fields_find_cons] at h
    split at h
    · simp only [Option.some.injEq] at h
      subst h
      exact ⟨hf.1, hf.2.1⟩
    · exact fields_bounded_find len rest name c hf.2.2 h

theorem fields_bounded_set (len : Nat) : ∀ (fields : List (String × dynamic_builder))
    (name : String) (c : dynamic_builder), fields_bounded len fields →
    c.length ≤ len → c.bounded → fields_bounded len (fields_set fields name c)
  | [], name, c => by
    intro h _ _
    simpa [fields_set_nil] using h
  | (n, d) :: rest, name, c => by
    intro hf hl hc
    simp only [fields_bounded] at hf
    rw [fields_set_cons]
    split
    · simp only [fields_bounded]
      exact ⟨hl, hc, fields_bounded_set len rest name c hf.2.2 hl hc⟩
    · simp only [fields_bounded]
      exact ⟨hf.1, hf.2.1, fields_bounded_set len rest name c hf.2.2 hl hc⟩

theorem fields_bounded_append (len : Nat) : ∀ (fields : List (String × dynamic_builder))
    (name : String) (c : dynamic_builder), fields_bounded len fields →
    c.length ≤ len → c.bounded → fields_bounded len (fields ++ [(name, c)])
  | [], name, c => by
    intro _ hl hc
    simp only [List.nil_append, fields_bounded]
    exact ⟨hl, hc, trivial⟩
  | (n, d) :: rest, name, c => by
    intro hf hl hc
    simp only [fields_bounded] at hf
    simp only [List.cons_append, fields_bounded]
    exact ⟨hf.1, hf.2.1, fields_bounded_append len rest name c hf.2.2 hl hc⟩

theorem target_make_bounded (T : target) : T.make.bounded := by
  cases T <;> simp [target.make, builder_base.bounded, fields_bounded, dynamic_builder.new,
    dynamic_builder.bounded]

theorem dynamic_builder_typed_bounded (d : dynamic_builder) (variant : Option Nat)
    (t : builder_base) (hd : d.bounded) (ht : d.typed variant = some t) : t.bounded := by
  obtain ⟨b, p, m⟩ := d
  simp only [dynamic_builder.bounded] at hd
  cases variant with
  | none =>
    cases b with
    | conflict ds vs =>
      simp only [builder_base.bounded] at hd
      simp only [dynamic_builder.typed, dynamic_builder.builder_] at ht
      cases vs with
      | nil => simp at ht
      | cons v rest =>
        simp only [List.head?_cons, Option.some.injEq] at ht
        subst ht
        simp only [variants_bounded] at hd
        exact hd.1
    | null n =>
      simp only [dynamic_builder.typed, dynamic_builder.builder_, Option.some.injEq] at ht
      subst ht; exact hd
    | atom a inner =>
      simp only [dynamic_builder.typed, dynamic_builder.builder_, Option.some.injEq] at ht
      subst ht; exact hd
    | list offs el =>
      simp only [dynamic_builder.typed, dynamic_builder.builder_, Option.some.injEq] at ht
      subst ht; exact hd
    | record fs valid n ka =>
      simp only [dynamic_builder.typed, dynamic_builder.builder_, Option.some.injEq] at ht
      subst ht; exact hd
  | some i =>
    cases b with
    | conflict ds vs =>
      simp only [builder_base.bounded] at hd
      simp only [dynamic_builder.typed, dynamic_builder.builder_] at ht
      exact variants_bounded_get vs i t hd ht
    | null n => simp [dynamic_builder.typed, dynamic_builder.builder_] at ht
    | atom a inner => simp [dynamic_builder.typed, dynamic_builder.builder_] at ht
    | list offs el => simp [dynamic_builder.typed, dynamic_builder.builder_] at ht
    | record fs valid n ka => simp [dynamic_builder.typed, dynamic_builder.builder_] at ht

theorem dynamic_builder_set_typed_bounded (d : dynamic_builder) (variant : Option Nat)
    (t1 : builder_base) (hd : d.bounded) (h1 : t1.bounded) :
    (d.set_typed variant t1).bounded := by
  obtain ⟨b, p, m⟩ := d
  simp only [dynamic_builder.bounded] at hd
  cases variant with
  | none =>
    cases b with
    | conflict ds vs =>
      simp only [builder_base.bounded] at hd
      simp only [dynamic_builder.set_typed, dynamic_builder.bounded, builder_base.bounded]
      exact variants_bounded_set vs 0 t1 hd h1
    | null n => exact h1
    | atom a inner => exact h1
    | list offs el => exact h1
    | record fs valid n ka => exact h1
  | some i =>
    cases b with
    | conflict ds vs =>
      simp only [builder_base.bounded] at hd
      simp only [dynamic_builder.set_typed, dynamic_builder.bounded, builder_base.bounded]
      exact variants_bounded_set vs i t1 hd h1
    | null n => exact hd
    | atom a inner => exact hd
    | list offs el => exact hd
    | record fs valid n ka => exact hd

theorem builder_base_child_bounded (t : builder_base) (step : path_step) (c : dynamic_builder)
    (ht : t.bounded) (hc : t.child step = some c) : c.bounded := by
  cases t with
  | record fs valid n ka =>
    cases step with
    | field v name =>
      simp only [builder_base.bounded] at ht
      simp only [builder_base.child] at hc
      exact (fields_bounded_find n fs name c ht hc).2
    | elements v => simp [builder_base.child] at hc
  | list offs el =>
    cases step with
    | field v name => simp [builder_base.child] at hc
    | elements v =>
      simp only [builder_base.bounded] at ht
      simp only [builder_base.child, Option.some.injEq] at hc
      subst hc
      exact ht
  | null n => cases step <;> simp [builder_base.child] at hc
  | atom a inner => cases step <;> simp [builder_base.child] at hc
  | conflict ds vs => cases step <;> simp [builder_base.child] at hc

theorem wrap_conflict_bounded (d : dynamic_builder) (hd : d.bounded) :
    d.wrap_conflict.bounded := by
  obtain ⟨b, p, m⟩ := d
  simp only [dynamic_builder.bounded] at hd
  simp only [dynamic_builder.wrap_conflict, dynamic_builder.bounded, builder_base.bounded,
    variants_bounded]
  exact ⟨hd, trivial⟩

theorem prepare_cast_bounded (T : target) (d d1 : dynamic_builder) (variant : Option Nat)
    (hd : d.bounded) (h : d.prepare_cast T = .ok (some (d1, variant))) : d1.bounded := by
  obtain ⟨b, p, m⟩ := d
  simp only [dynamic_builder.bounded] at hd
  simp only [dynamic_builder.prepare_cast] at h
  split at h
  · simp only [except_pure_eq_ok, Option.some.injEq, Prod.mk.injEq] at h
    obtain ⟨h1, _⟩ := h
    subst h1
    exact hd
  · split at h
    · simp only [except_bind_eq_ok, except_pure_eq_ok, Option.some.injEq,
        Prod.mk.injEq] at h
      obtain ⟨fresh, hf, h1, _⟩ := h
      subst h1
      simp only [dynamic_builder.bounded]
      exact builder_base_resize_bounded _ _ _ (target_make_bounded T) hf
    · rename_i ds vs _
      simp only [builder_base.bounded] at hd
      simp only [except_bind_eq_ok, except_pure_eq_ok, Option.some.injEq,
        Prod.mk.injEq] at h
      obtain ⟨⟨c, i⟩, hp, h1, _⟩ := h
      subst h1
      simp only [dynamic_builder.bounded]
      simp only [conflict_builder.prepare] at hp
      split at hp
      · split at hp
        · simp at hp
        · simp only [except_pure_eq_ok, Prod.mk.injEq] at hp
          obtain ⟨hp1, _⟩ := hp
          subst hp1
          simp only [builder_base.bounded]
          exact hd
      · split at hp
        · simp at hp
        · simp only [except_pure_eq_ok, Prod.mk.injEq] at hp
          obtain ⟨hp1, _⟩ := hp
          subst hp1
          simp only [builder_base.bounded]
          exact variants_bounded_append vs _ hd (target_make_bounded T)
    · simp only [except_pure_eq_ok] at h
      cases h
theorem set_child_bounded (t : builder_base) (step : path_step) (c c1 : dynamic_builder)
    (ht : t.bounded) (hc : t.child step = some c) (h1 : c1.bounded)
    (hfit : ∀ fields valid len ka, t = .record fields valid len ka → c1.length ≤ len) :
    (t.set_child step c1).bounded := by
  cases t with
  | record fs valid n ka =>
    cases step with
    | field v name =>
      simp only [builder_base.bounded] at ht
      simp only [builder_base.set_child, builder_base.bounded]
      exact fields_bounded_set n fs name c1 ht (hfit fs valid n ka rfl) h1
    | elements v => simp [builder_base.child] at hc
  | list offs el =>
    cases step with
    | field v name => simp [builder_base.child] at hc
    | elements v =>
      simp only [builder_base.set_child, builder_base.bounded]
      exact h1
  | null n => cases step <;> simp [builder_base.child] at hc
  | atom a inner => cases step <;> simp [builder_base.child] at hc
  | conflict ds vs => cases step <;> simp [builder_base.child] at hc

/-- A store through a pointer keeps length uniformity when the stored builder is
uniform and fits its owner. -/
theorem dynamic_builder_set_bounded (p : builder_path) :
    ∀ (d c1 d1 : dynamic_builder), d.bounded → c1.bounded → d.fits p c1.length →
      d.set p c1 = .ok d1 → d1.bounded := by
  induction p with
  | nil =>
    intro d c1 d1 _ h1 _ h
    simp only [dynamic_builder.set, except_pure_eq_ok] at h
    subst h
    exact h1
  | cons step rest ih =>
    intro d c1 d1 hd h1 hfit h
    simp only [dynamic_builder.set] at h
    cases ht : d.typed step.variant with
    | none => simp [ht] at h
    | some t =>
      simp only [ht] at h
      cases hc : t.child step with
      | none => simp [hc] at h
      | some c =>
        simp only [hc, except_bind_eq_ok, except_pure_eq_ok] at h
        obtain ⟨c2, hset, h⟩ := h
        subst h
        have htb := dynamic_builder_typed_bounded d _ t hd ht
        have hcb := builder_base_child_bounded t step c htb hc
        apply dynamic_builder_set_typed_bounded d _ _ hd
        cases rest with
        | nil =>
          simp only [dynamic_builder.set, except_pure_eq_ok] at hset
          subst hset
          apply set_child_bounded t step c c1 htb hc h1
          intro fields valid len ka heq
          subst heq
          cases step with
          | field v name =>
            simp only [dynamic_builder.fits, ht] at hfit
            exact hfit
          | elements v => simp [builder_base.child] at hc
        | cons s2 r2 =>
          simp only [dynamic_builder.fits, ht, hc] at hfit
          have hc2 := ih c c1 c2 hcb h1 hfit hset
          have hl := dynamic_builder_set_length c c2 c1 (s2 :: r2) (by simp) hset
          apply set_child_bounded t step c c2 htb hc hc2
          intro fields valid len ka heq
          subst heq
          cases step with
          | field v name =>
            simp only [builder_base.bounded] at htb
            simp only [builder_base.child] at hc
            rw [hl]
            exact (fields_bounded_find len fields name c htb hc).1
          | elements v => simp [builder_base.child] at hc

theorem series_set_bounded (s s1 : series_builder_impl) (p : builder_path)
    (c1 : dynamic_builder) (hs : s.builder_.bounded) (h1 : c1.bounded)
    (hfit : s.builder_.fits p c1.length) (h : s.set p c1 = .ok s1) : s1.builder_.bounded := by
  simp only [series_builder_impl.set, except_bind_eq_ok, except_pure_eq_ok] at h
  obtain ⟨b, hb, h⟩ := h
  subst h
  exact dynamic_builder_set_bounded p s.builder_ c1 b hs h1 hfit hb

theorem dynamic_builder_get_bounded (p : builder_path) :
    ∀ (d c : dynamic_builder), d.bounded → d.get p = .ok c → c.bounded := by
  induction p with
  | nil =>
    intro d c hd h
    simp only [dynamic_builder.get, except_pure_eq_ok] at h
    subst h
    exact hd
  | cons step rest ih =>
    intro d c hd h
    simp only [dynamic_builder.get] at h
    cases ht : d.typed step.variant with
    | none => simp [ht] at h
    | some t =>
      simp only [ht] at h
      cases hc : t.child step with
      | none => simp [hc] at h
      | some c0 =>
        simp only [hc] at h
        exact ih c0 c (builder_base_child_bounded t step c0
          (dynamic_builder_typed_bounded d _ t hd ht) hc) h

theorem fits_cons_cons (d : dynamic_builder) (step s2 : path_step) (r2 : builder_path)
    (n : Nat)
    (h : ∀ t c, d.typed step.variant = some t → t.child step = some c →
      c.fits (s2 :: r2) n) : d.fits (step :: s2 :: r2) n := by
  rw [dynamic_builder.fits]
  cases ht : d.typed step.variant with
  | none => trivial
  | some t =>
    cases hc : t.child step with
    | none => simp only [hc]
    | some c =>
      simp only [hc]
      exact h t c ht hc

/-- The elements of a list are not bounded by their owner. -/
theorem fits_elements (q : builder_path) (v : Option Nat) (n : Nat) :
    ∀ (d : dynamic_builder), d.fits (q ++ [.elements v]) n := by
  induction q with
  | nil =>
    intro d
    rw [List.nil_append, dynamic_builder.fits]
    cases d.typed (path_step.elements v).variant with
    | none => trivial
    | some t => cases t <;> trivial
  | cons step rest ih =>
    intro d
    rw [List.cons_append]
    cases hr : rest ++ [path_step.elements v] with
    | nil => simp at hr
    | cons s2 r2 =>
      apply fits_cons_cons
      intro t c _ _
      rw [← hr]
      exact ih c

/-- A field fits when it is not longer than its record builder. -/
theorem fits_field (q : builder_path) (v : Option Nat) (name : String) (n : Nat) :
    ∀ (d dq : dynamic_builder) (fields : List (String × dynamic_builder)) (valid : List Bool)
      (len : Nat) (ka : Option String), d.get q = .ok dq →
      dq.typed v = some (.record fields valid len ka) → n ≤ len →
      d.fits (q ++ [.field v name]) n := by
  induction q with
  | nil =>
    intro d dq fields valid len ka hg ht hn
    simp only [dynamic_builder.get, except_pure_eq_ok] at hg
    subst hg
    simp only [List.nil_append, dynamic_builder.fits, path_step.variant, ht]
    exact hn
  | cons step rest ih =>
    intro d dq fields valid len ka hg ht hn
    rw [List.cons_append]
    simp only [dynamic_builder.get] at hg
    cases hr : rest ++ [path_step.field v name] with
    | nil => simp at hr
    | cons s2 r2 =>
      apply fits_cons_cons
      intro t c ht0 hc
      simp only [ht0, hc] at hg
      rw [← hr]
      exact ih c dq fields valid len ka hg ht hn
theorem fits_cons_cons_eq (d : dynamic_builder) (step s2 : path_step) (r2 : builder_path)
    (n : Nat) (t : builder_base) (c : dynamic_builder) (ht : d.typed step.variant = some t)
    (hc : t.child step = some c) : d.fits (step :: s2 :: r2) n = c.fits (s2 :: r2) n := by
  rw [dynamic_builder.fits]
  simp only [ht, hc]

/-- A builder fits below a field pointer exactly when it is not longer than the
record builder that owns the field. -/
theorem fits_field_iff (q : builder_path) (v : Option Nat) (name : String) (n : Nat) :
    ∀ (d : dynamic_builder), d.fits (q ++ [.field v name]) n ↔
      ∀ x fields valid len ka, d.get q = .ok x →
        x.typed v = some (.record fields valid len ka) → n ≤ len := by
  induction q with
  | nil =>
    intro d
    rw [List.nil_append, dynamic_builder.fits]
    simp only [path_step.variant, dynamic_builder.get, except_pure_eq_ok]
    cases ht : d.typed v with
    | none =>
      constructor
      · intro _ x fields valid len ka hx h
        subst hx
        simp [ht] at h
      · intro _
        trivial
    | some t =>
      cases t with
      | record fs va l k =>
        constructor
        · intro h x fields valid len ka hx hh
          subst hx
          rw [ht] at hh
          simp only [Option.some.injEq, builder_base.record.injEq] at hh
          obtain ⟨_, _, hl, _⟩ := hh
          subst hl
          exact h
        · intro h
          exact h d fs va l k rfl ht
      | null k =>
        constructor
        · intro _ x fields valid len ka hx hh
          subst hx
          simp [ht] at hh
        · intro _
          trivial
      | atom a i =>
        constructor
        · intro _ x fields valid len ka hx hh
          subst hx
          simp [ht] at hh
        · intro _
          trivial
      | list o e =>
        constructor
        · intro _ x fields valid len ka hx hh
          subst hx
          simp [ht] at hh
        · intro _
          trivial
      | conflict ds vs =>
        constructor
        · intro _ x fields valid len ka hx hh
          subst hx
          simp [ht] at hh
        · intro _
          trivial
  | cons step rest ih =>
    intro d
    rw [List.cons_append]
    cases hr : rest ++ [path_step.field v name] with
    | nil => simp at hr
    | cons s2 r2 =>
      simp only [dynamic_builder.get]
      cases ht : d.typed step.variant with
      | none =>
        constructor
        · intro _ x fields valid len ka hx
          simp at hx
        · intro _
          rw [dynamic_builder.fits]
          simp only [ht]
      | some t =>
        cases hc : t.child step with
        | none =>
          constructor
          · intro _ x fields valid len ka hx
            simp [hc] at hx
          · intro _
            rw [dynamic_builder.fits]
            simp only [ht, hc]
        | some c =>
          rw [fits_cons_cons_eq d step s2 r2 n t c ht hc, ← hr]
          simp only [hc]
          exact ih c

theorem path_nil_or_append (p : builder_path) :
    p = [] ∨ ∃ q last, p = q ++ [last] := by
  rcases List.eq_nil_or_concat p with hp | ⟨q, last, hp⟩
  · exact Or.inl hp
  · exact Or.inr ⟨q, last, by rw [hp, List.concat_eq_append]⟩

theorem fits_mono (p : builder_path) (d : dynamic_builder) (n m : Nat) (hm : m ≤ n)
    (h : d.fits p n) : d.fits p m := by
  rcases List.eq_nil_or_concat p with hp | ⟨q, last, hp⟩
  · subst hp
    trivial
  · rw [List.concat_eq_append] at hp
    subst hp
    cases last with
    | elements v => exact fits_elements q v m d
    | field v name =>
      rw [fits_field_iff] at h ⊢
      intro x fields valid len ka hx ht
      exact Nat.le_trans hm (h x fields valid len ka hx ht)

theorem typed_child_field (t : builder_base) (v : Option Nat) (name : String)
    (c : dynamic_builder) (h : t.child (.field v name) = some c) :
    ∃ fields valid len ka, t = .record fields valid len ka ∧ fields_find fields name = some c := by
  cases t with
  | record fs va l k => exact ⟨fs, va, l, k, rfl, h⟩
  | null n => simp [builder_base.child] at h
  | atom a i => simp [builder_base.child] at h
  | list o e => simp [builder_base.child] at h
  | conflict ds vs => simp [builder_base.child] at h

theorem dynamic_builder_get_field (d c : dynamic_builder) (q : builder_path) (v : Option Nat)
    (name : String) (h : d.get (q ++ [.field v name]) = .ok c) :
    ∃ x fields valid len ka, d.get q = .ok x ∧ x.typed v = some (.record fields valid len ka)
      ∧ fields_find fields name = some c := by
  rw [dynamic_builder_get_append] at h
  simp only [except_bind_eq_ok] at h
  obtain ⟨x, hx, h⟩ := h
  simp only [dynamic_builder.get, path_step.variant] at h
  cases ht : x.typed v with
  | none => simp [ht] at h
  | some t =>
    simp only [ht] at h
    cases hc : t.child (.field v name) with
    | none => simp [hc] at h
    | some c0 =>
      simp only [hc, except_pure_eq_ok] at h
      subst h
      obtain ⟨fields, valid, len, ka, rfl, hf⟩ := typed_child_field t v name c0 hc
      exact ⟨x, fields, valid, len, ka, hx, ht, hf⟩

/-- In a length-uniform tree every builder fits where it is. -/
theorem fits_of_get (p : builder_path) (d c : dynamic_builder) (hd : d.bounded)
    (h : d.get p = .ok c) : d.fits p c.length := by
  rcases List.eq_nil_or_concat p with hp | ⟨q, last, hp⟩
  · subst hp
    trivial
  · rw [List.concat_eq_append] at hp
    subst hp
    cases last with
    | elements v => exact fits_elements q v _ d
    | field v name =>
      rw [fits_field_iff]
      intro x fields valid len ka hx ht
      obtain ⟨x1, fields1, valid1, len1, ka1, hx1, ht1, hf⟩ :=
        dynamic_builder_get_field d c q v name h
      rw [hx] at hx1
      cases hx1
      rw [ht] at ht1
      cases ht1
      have hxb := dynamic_builder_get_bounded q d x hd hx
      have htb := dynamic_builder_typed_bounded x v _ hxb ht
      simp only [builder_base.bounded] at htb
      exact (fields_bounded_find len fields name c htb hf).1
theorem dynamic_builder_set_field (d d1 new : dynamic_builder) (q : builder_path)
    (v : Option Nat) (name : String) (h : d.set (q ++ [.field v name]) new = .ok d1) :
    ∃ x fields valid len ka, d.get q = .ok x
      ∧ x.typed v = some (.record fields valid len ka)
      ∧ d1.get q = .ok (x.set_typed v (.record (fields_set fields name new) valid len ka))
      ∧ (x.set_typed v (.record (fields_set fields name new) valid len ka)).typed v
          = some (.record (fields_set fields name new) valid len ka) := by
  rw [dynamic_builder_set_append] at h
  simp only [except_bind_eq_ok] at h
  obtain ⟨x, hx, c1, hc1, hd1⟩ := h
  simp only [dynamic_builder.set, path_step.variant] at hc1
  cases ht : x.typed v with
  | none => simp [ht] at hc1
  | some t =>
    simp only [ht] at hc1
    cases hc : t.child (.field v name) with
    | none => simp [hc] at hc1
    | some c0 =>
      simp only [hc, except_bind_eq_ok, except_pure_eq_ok] at hc1
      obtain ⟨c2, hc2, hc1⟩ := hc1
      subst hc2
      subst hc1
      obtain ⟨fields, valid, len, ka, rfl, _⟩ := typed_child_field t v name c0 hc
      obtain ⟨d2, hd2, hg⟩ := dynamic_builder_set_of_get q d x
        (x.set_typed v ((builder_base.record fields valid len ka).set_child
          (.field v name) new)) hx
      rw [hd1] at hd2
      cases hd2
      refine ⟨x, fields, valid, len, ka, hx, ht, hg, ?_⟩
      exact dynamic_builder_typed_set_typed x v _ _ ht (by intro ds vs h; cases h)

/-- A store through a pointer does not change what fits below the pointer. -/
theorem fits_set (p : builder_path) (d d1 new : dynamic_builder) (n : Nat)
    (hs : d.set p new = .ok d1) (h : d.fits p n) : d1.fits p n := by
  rcases path_nil_or_append p with hp | ⟨q, last, hp⟩
  · subst hp
    trivial
  · subst hp
    cases last with
    | elements v => exact fits_elements q v n d1
    | field v name =>
      rw [fits_field_iff] at h ⊢
      intro x1 fields1 valid1 len1 ka1 hx1 ht1
      obtain ⟨x, fields, valid, len, ka, hx, ht, hg, htt⟩ :=
        dynamic_builder_set_field d d1 new q v name hs
      rw [hg] at hx1
      cases hx1
      rw [htt] at ht1
      cases ht1
      exact h x fields _ _ _ hx ht

theorem series_set_builder (s s1 : series_builder_impl) (p : builder_path)
    (x : dynamic_builder) (h : s.set p x = .ok s1) : s.builder_.set p x = .ok s1.builder_ := by
  simp only [series_builder_impl.set, except_bind_eq_ok, except_pure_eq_ok] at h
  obtain ⟨b, hb, h⟩ := h
  subst h
  exact hb

theorem set_typed_length_le (d : dynamic_builder) (variant : Option Nat) (t t1 : builder_base)
    (ht : d.typed variant = some t) (hl : t1.length ≤ t.length + 1) :
    (d.set_typed variant t1).length ≤ d.length + 1 := by
  obtain ⟨b, p, m⟩ := d
  cases variant with
  | none =>
    cases b with
    | conflict ds vs =>
      simp [dynamic_builder.set_typed, dynamic_builder.length, dynamic_builder.builder_,
        builder_base.length]
    | null n =>
      simp only [dynamic_builder.typed, dynamic_builder.builder_, Option.some.injEq] at ht
      subst ht
      simpa [dynamic_builder.set_typed, dynamic_builder.length, dynamic_builder.builder_] using hl
    | atom a i =>
      simp only [dynamic_builder.typed, dynamic_builder.builder_, Option.some.injEq] at ht
      subst ht
      simpa [dynamic_builder.set_typed, dynamic_builder.length, dynamic_builder.builder_] using hl
    | list o e =>
      simp only [dynamic_builder.typed, dynamic_builder.builder_, Option.some.injEq] at ht
      subst ht
      simpa [dynamic_builder.set_typed, dynamic_builder.length, dynamic_builder.builder_] using hl
    | record f va l k =>
      simp only [dynamic_builder.typed, dynamic_builder.builder_, Option.some.injEq] at ht
      subst ht
      simpa [dynamic_builder.set_typed, dynamic_builder.length, dynamic_builder.builder_] using hl
  | some i =>
    cases b with
    | conflict ds vs =>
      simp [dynamic_builder.set_typed, dynamic_builder.length, dynamic_builder.builder_,
        builder_base.length]
    | null n => simp [dynamic_builder.typed, dynamic_builder.builder_] at ht
    | atom a i => simp [dynamic_builder.typed, dynamic_builder.builder_] at ht
    | list o e => simp [dynamic_builder.typed, dynamic_builder.builder_] at ht
    | record f va l k => simp [dynamic_builder.typed, dynamic_builder.builder_] at ht

theorem set_typed_length_conflict (d : dynamic_builder) (variant : Option Nat)
    (t1 : builder_base) (ds : List Nat) (vs : List builder_base)
    (hd : d.builder_ = .conflict ds vs) : (d.set_typed variant t1).length = d.length := by
  obtain ⟨b, p, m⟩ := d
  simp only [dynamic_builder.builder_] at hd
  subst hd
  cases variant <;> rfl

/-- Writing back a typed builder that has grown by at most one row keeps length
uniformity when the dynamic builder has room for one more row where it is, or
is a conflict builder. -/
theorem append_bounded (s s1 : series_builder_impl) (path : builder_path)
    (d : dynamic_builder) (variant : Option Nat) (t t1 : builder_base)
    (hs : s.builder_.bounded) (hg : s.get path = .ok d) (ht : d.typed variant = some t)
    (h1 : t1.bounded) (hl : t1.length ≤ t.length + 1)
    (hroom : s.builder_.fits path (d.length + 1) ∨ ∃ ds vs, d.builder_ = .conflict ds vs)
    (h : s.set path (d.set_typed variant t1) = .ok s1) : s1.builder_.bounded := by
  have hdb := dynamic_builder_get_bounded path s.builder_ d hs hg
  apply series_set_bounded s s1 path _ hs
    (dynamic_builder_set_typed_bounded d variant t1 hdb h1) _ h
  rcases hroom with hroom | ⟨ds, vs, hc⟩
  · exact fits_mono path _ _ _ (set_typed_length_le d variant t t1 ht hl) hroom
  · rw [set_typed_length_conflict d variant t1 ds vs hc]
    exact fits_of_get path s.builder_ d hs hg
theorem finish_previous_events_bounded (print : data_view2 → Option String)
    (s s1 : series_builder_impl) (root : Bool) (hs : s.builder_.bounded)
    (h : s.finish_previous_events print root = .ok s1) : s1.builder_.bounded := by
  simp only [series_builder_impl.finish_previous_events] at h
  split at h
  · simp only [except_pure_eq_ok] at h
    subst h; exact hs
  · split at h
    · simp only [except_pure_eq_ok] at h
      subst h; exact hs
    · simp only [except_bind_eq_ok, ensure_eq_ok, except_pure_eq_ok] at h
      obtain ⟨⟨slice, b1⟩, hf, _, _, _, _, h⟩ := h
      subst h
      exact dynamic_builder_finish_bounded print s.builder_ _ _ _ _ hs hf

theorem finish_if_conflict_bounded (print : data_view2 → Option String)
    (s s1 : series_builder_impl) (hs : s.builder_.bounded)
    (h : s.finish_if_conflict print = .ok s1) : s1.builder_.bounded := by
  simp only [series_builder_impl.finish_if_conflict] at h
  split at h
  · simp only [except_bind_eq_ok, except_pure_eq_ok] at h
    obtain ⟨⟨array, b1⟩, hf, h⟩ := h
    subst h
    exact dynamic_builder_finish_bounded print s.builder_ _ _ _ _ hs hf
  · simp only [except_pure_eq_ok] at h
    subst h; exact hs

/-- Storing the result of a successful cast keeps length uniformity, and
afterwards the builder has room for one more row or is a conflict builder. -/
theorem prepare_cast_set_bounded (s s1 : series_builder_impl) (path : builder_path)
    (T : target) (d d1 : dynamic_builder) (variant : Option Nat)
    (hs : s.builder_.bounded) (hg : s.get path = .ok d)
    (hroom : s.builder_.fits path (d.length + 1))
    (hc : d.prepare_cast T = .ok (some (d1, variant))) (h : s.set path d1 = .ok s1) :
    s1.builder_.bounded ∧ ∃ d2, s1.get path = .ok d2 ∧
      (s1.builder_.fits path (d2.length + 1) ∨ ∃ ds vs, d2.builder_ = .conflict ds vs) := by
  have hdb := dynamic_builder_get_bounded path s.builder_ d hs hg
  have h1b := prepare_cast_bounded T d d1 variant hdb hc
  have hb := series_set_builder s s1 path d1 h
  rcases dynamic_builder_prepare_cast_spec T d d1 variant hc with
    ⟨_, hl, _⟩ | ⟨i, ds, vs, _, hl, hcf⟩
  · refine ⟨series_set_bounded s s1 path d1 hs h1b ?_ h, d1, series_get_set s s1 path d1 h,
      Or.inl ?_⟩
    · exact fits_mono path _ _ _ (by omega) hroom
    · rw [hl]
      exact fits_set path _ _ _ _ hb hroom
  · refine ⟨series_set_bounded s s1 path d1 hs h1b ?_ h, d1, series_get_set s s1 path d1 h,
      Or.inr ⟨ds, vs, hcf⟩⟩
    rw [hl]
    exact hroom

/-- The method `dynamic_builder::prepare` keeps length uniformity when the builder
has room for one more row where it is, before and after a cut. -/
theorem prepare_bounded (print : data_view2 → Option String)
    (s s1 : series_builder_impl) (path : builder_path) (T : target) (variant : Option Nat)
    (hs : s.builder_.bounded)
    (hroom : ∀ s2, (s2 = s ∨ s.finish_previous_events print (path == []) = .ok s2) →
      ∀ d, s2.get path = .ok d → s2.builder_.fits path (d.length + 1))
    (h : dynamic_builder.prepare print s path T = .ok (s1, variant)) :
    s1.builder_.bounded ∧ ∃ d2, s1.get path = .ok d2 ∧
      (s1.builder_.fits path (d2.length + 1) ∨ ∃ ds vs, d2.builder_ = .conflict ds vs) := by
  simp only [dynamic_builder.prepare, except_bind_eq_ok] at h
  obtain ⟨d, hg, r, hr, h⟩ := h
  cases r with
  | some dv =>
    obtain ⟨d1, v⟩ := dv
    simp only [except_bind_eq_ok, except_pure_eq_ok, Prod.mk.injEq] at h
    obtain ⟨s2, hset, h, hv⟩ := h
    subst h
    subst hv
    exact prepare_cast_set_bounded s s2 path T d d1 v hs hg (hroom s (Or.inl rfl) d hg) hr hset
  | none =>
    simp only [except_bind_eq_ok, ensure_eq_ok] at h
    obtain ⟨_, _, _, _, s2, hfpe, d1, hg1, s3, hwrap, d2, hg2, r2, hr2, h⟩ := h
    have h2b := finish_previous_events_bounded print s s2 _ hs hfpe
    have h2room := hroom s2 (Or.inr hfpe) d1 hg1
    have h3 : s3.builder_.bounded ∧ s3.builder_.fits path (d2.length + 1) := by
      split at hwrap
      · simp only [except_bind_eq_ok, except_pure_eq_ok] at hwrap
        obtain ⟨s2a, hset, hwrap⟩ := hwrap
        subst hwrap
        have hd1b := dynamic_builder_get_bounded path s2.builder_ d1 h2b hg1
        have hg3 : s2a.get path = .ok d1.wrap_conflict := series_get_set s2 s2a path _ hset
        have hg2a : s2a.get path = .ok d2 := hg2
        rw [hg3] at hg2a
        cases hg2a
        have hb := series_set_builder s2 s2a path _ hset
        rw [dynamic_builder_wrap_conflict_length]
        refine ⟨series_set_bounded s2 s2a path _ h2b (wrap_conflict_bounded d1 hd1b) ?_ hset,
          fits_set path _ _ _ _ hb h2room⟩
        rw [dynamic_builder_wrap_conflict_length]
        exact fits_mono path _ _ _ (by omega) h2room
      · split at hwrap
        · simp at hwrap
        · simp only [except_pure_eq_ok] at hwrap
          subst hwrap
          rw [hg1] at hg2
          cases hg2
          exact ⟨h2b, h2room⟩
    cases r2 with
    | none => simp at h
    | some dv =>
      obtain ⟨d3, v⟩ := dv
      simp only [except_bind_eq_ok, except_pure_eq_ok, Prod.mk.injEq] at h
      obtain ⟨s4, hset, h, hv⟩ := h
      subst h
      subst hv
      exact prepare_cast_set_bounded s3 s4 path T d2 d3 v h3.1 hg2 h3.2 hr2 hset

theorem append_atom_bounded (s s1 : series_builder_impl) (path : builder_path)
    (variant : Option Nat) (value : atom_view) (hs : s.builder_.bounded)
    (hroom : ∃ d, s.get path = .ok d ∧
      (s.builder_.fits path (d.length + 1) ∨ ∃ ds vs, d.builder_ = .conflict ds vs))
    (h : typed_builder.append_atom s path variant value = .ok s1) : s1.builder_.bounded := by
  obtain ⟨d0, hg0, hroom⟩ := hroom
  simp only [typed_builder.append_atom, except_bind_eq_ok] at h
  obtain ⟨d, hg, h⟩ := h
  rw [hg0] at hg
  cases hg
  split at h
  · rename_i t inner ht
    refine append_bounded s s1 path d0 variant _ _ hs hg0 ht ?_ ?_ hroom h
    · simp only [builder_base.bounded]
    · simp [builder_base.length]
  · simp at h

theorem append_record_bounded (s s1 : series_builder_impl) (path : builder_path)
    (variant : Option Nat) (r : record_ref) (hs : s.builder_.bounded)
    (hroom : ∃ d, s.get path = .ok d ∧
      (s.builder_.fits path (d.length + 1) ∨ ∃ ds vs, d.builder_ = .conflict ds vs))
    (h : typed_builder.append_record s path variant = .ok (s1, r)) : s1.builder_.bounded := by
  obtain ⟨d0, hg0, hroom⟩ := hroom
  simp only [typed_builder.append_record, except_bind_eq_ok] at h
  obtain ⟨d, hg, h⟩ := h
  rw [hg0] at hg
  cases hg
  split at h
  · rename_i fields valid len ka ht
    simp only [except_bind_eq_ok, except_pure_eq_ok, Prod.mk.injEq] at h
    obtain ⟨s2, hset, h, _⟩ := h
    subst h
    have htb := dynamic_builder_typed_bounded d0 variant _
      (dynamic_builder_get_bounded path s.builder_ d0 hs hg0) ht
    simp only [builder_base.bounded] at htb
    refine append_bounded s s2 path d0 variant _ _ hs hg0 ht ?_ ?_ hroom hset
    · simp only [builder_base.bounded]
      exact fields_bounded_mono len (len + 1) (Nat.le_succ len) fields htb
    · simp [builder_base.length]
  · simp at h

theorem append_list_bounded (s s1 : series_builder_impl) (path : builder_path)
    (variant : Option Nat) (r : builder_ref) (hs : s.builder_.bounded)
    (hroom : ∃ d, s.get path = .ok d ∧
      (s.builder_.fits path (d.length + 1) ∨ ∃ ds vs, d.builder_ = .conflict ds vs))
    (h : typed_builder.append_list s path variant = .ok (s1, r)) : s1.builder_.bounded := by
  obtain ⟨d0, hg0, hroom⟩ := hroom
  simp only [typed_builder.append_list, except_bind_eq_ok] at h
  obtain ⟨d, hg, h⟩ := h
  rw [hg0] at hg
  cases hg
  split at h
  · rename_i offsets elements ht
    simp only [except_bind_eq_ok, ensure_eq_ok, except_pure_eq_ok, Prod.mk.injEq] at h
    obtain ⟨_, _, s2, hset, h, _⟩ := h
    subst h
    have htb := dynamic_builder_typed_bounded d0 variant _
      (dynamic_builder_get_bounded path s.builder_ d0 hs hg0) ht
    simp only [builder_base.bounded] at htb
    refine append_bounded s s2 path d0 variant _ _ hs hg0 ht ?_ ?_ hroom hset
    · simp only [builder_base.bounded]
      exact htb
    · simp [builder_base.length]
  · simp at h

/-- The method `dynamic_builder::atom` keeps length uniformity when the builder
has room for one more row where it is, before and after a cut. -/
theorem dynamic_atom_bounded (print : data_view2 → Option String)
    (s s1 : series_builder_impl) (path : builder_path) (value : atom_view)
    (hs : s.builder_.bounded)
    (hroom : ∀ s2, (s2 = s ∨ s.finish_previous_events print (path == []) = .ok s2) →
      ∀ d, s2.get path = .ok d → s2.builder_.fits path (d.length + 1))
    (h : dynamic_builder.atom print s path value = .ok s1) : s1.builder_.bounded := by
  simp only [dynamic_builder.atom] at h
  split at h
  · simp only [except_bind_eq_ok] at h
    obtain ⟨d, hg, d1, hr, h⟩ := h
    have hdb := dynamic_builder_get_bounded path s.builder_ d hs hg
    refine series_set_bounded s s1 path d1 hs
      (dynamic_builder_resize_bounded d _ d1 hdb hr) ?_ h
    rw [dynamic_builder_resize_length d d1 _ hr]
    exact hroom s (Or.inl rfl) d hg
  · simp only [except_bind_eq_ok] at h
    obtain ⟨d, hg, h⟩ := h
    split at h
    · rename_i labels inner p m
      refine series_set_bounded s s1 path _ hs ?_ ?_ h
      · simp only [dynamic_builder.bounded, builder_base.bounded]
      · have := hroom s (Or.inl rfl) _ hg
        simpa [dynamic_builder.length, dynamic_builder.builder_, builder_base.length] using this
    · simp at h
  · simp only [except_bind_eq_ok] at h
    obtain ⟨⟨s2, variant⟩, hp, h⟩ := h
    have hpost := prepare_bounded print s s2 path _ variant hs hroom hp
    exact append_atom_bounded s2 s1 path variant value hpost.1 hpost.2 h

theorem dynamic_record_bounded (print : data_view2 → Option String)
    (s s1 : series_builder_impl) (path : builder_path) (r : record_ref)
    (hs : s.builder_.bounded)
    (hroom : ∀ s2, (s2 = s ∨ s.finish_previous_events print (path == []) = .ok s2) →
      ∀ d, s2.get path = .ok d → s2.builder_.fits path (d.length + 1))
    (h : dynamic_builder.record print s path = .ok (s1, r)) : s1.builder_.bounded := by
  simp only [dynamic_builder.record, except_bind_eq_ok] at h
  obtain ⟨⟨s2, variant⟩, hp, h⟩ := h
  have hpost := prepare_bounded print s s2 path _ variant hs hroom hp
  exact append_record_bounded s2 s1 path variant r hpost.1 hpost.2 h

theorem dynamic_list_bounded (print : data_view2 → Option String)
    (s s1 : series_builder_impl) (path : builder_path) (r : builder_ref)
    (hs : s.builder_.bounded)
    (hroom : ∀ s2, (s2 = s ∨ s.finish_previous_events print (path == []) = .ok s2) →
      ∀ d, s2.get path = .ok d → s2.builder_.fits path (d.length + 1))
    (h : dynamic_builder.list print s path = .ok (s1, r)) : s1.builder_.bounded := by
  simp only [dynamic_builder.list, except_bind_eq_ok] at h
  obtain ⟨⟨s2, variant⟩, hp, h⟩ := h
  have hpost := prepare_bounded print s s2 path _ variant hs hroom hp
  exact append_list_bounded s2 s1 path variant r hpost.1 hpost.2 h

/-- Below the root builder and below the elements of a list everything fits. -/
theorem fits_of_not_field (path : builder_path) (d : dynamic_builder) (n : Nat)
    (h : match path.getLast? with
      | some (.field _ _) => False
      | _ => True) : d.fits path n := by
  rcases path_nil_or_append path with hp | ⟨q, last, hp⟩
  · subst hp
    trivial
  · subst hp
    cases last with
    | elements v => exact fits_elements q v n d
    | field v name => simp at h
/-- Every field that the loop of the record `finish_and_leave` keeps is what
`finish_and_leave` leaves of a field of the same name. -/
theorem finish_fields_mem (print : data_view2 → Option String)
    (fields : List (String × dynamic_builder)) :
    ∀ (len target : Nat) (keep : Option String) (arrays : List arrow_array)
      (fields1 : List (String × dynamic_builder)),
      finish_fields print fields len target keep = .ok (arrays, fields1) →
      ∀ n f1, (n, f1) ∈ fields1 → ∃ f a, (n, f) ∈ fields ∧
        f.finish_and_leave print (target - f.length) (f.length + (target - f.length) - target)
          = .ok (a, f1) := by
  induction fields with
  | nil =>
    intro len target keep arrays fields1 h n f1 hm
    simp only [finish_fields, except_pure_eq_ok, Prod.mk.injEq] at h
    obtain ⟨_, h⟩ := h
    subst h
    cases hm
  | cons head rest ih =>
    obtain ⟨name, builder⟩ := head
    intro len target keep arrays fields1 h n f1 hm
    simp only [finish_fields, except_bind_eq_ok, ensure_eq_ok, except_pure_eq_ok,
      Prod.mk.injEq] at h
    obtain ⟨_, _, ⟨array, builder1⟩, hf, _, _, _, _, ⟨arrays1, rest1⟩, hrest, _, h⟩ := h
    subst h
    have hr : ∀ n f1, (n, f1) ∈ rest1 → ∃ f a, (n, f) ∈ (name, builder) :: rest ∧
        f.finish_and_leave print (target - f.length)
          (f.length + (target - f.length) - target) = .ok (a, f1) := by
      intro n f1 hm
      obtain ⟨f, a, hf1, hf2⟩ := ih len target keep arrays1 rest1 hrest n f1 hm
      exact ⟨f, a, List.mem_cons_of_mem _ hf1, hf2⟩
    split at hm
    · exact hr n f1 hm
    · rcases List.mem_cons.mp hm with hm | hm
      · simp only [Prod.mk.injEq] at hm
        obtain ⟨h1, h2⟩ := hm
        subst h1 h2
        exact ⟨builder, array, List.mem_cons_self _ _, hf⟩
      · exact hr n f1 hm

/-- A field that leaves a row is found again after the loop of the record
`finish_and_leave`. -/
theorem finish_fields_find (print : data_view2 → Option String)
    (fields : List (String × dynamic_builder)) :
    ∀ (len target : Nat) (keep : Option String) (arrays : List arrow_array)
      (fields1 : List (String × dynamic_builder)) (name : String) (c : dynamic_builder),
      finish_fields print fields len target keep = .ok (arrays, fields1) →
      fields_find fields name = some c →
      1 ≤ c.length + (target - c.length) - target →
      ∃ c1 a, fields_find fields1 name = some c1 ∧
        c.finish_and_leave print (target - c.length) (c.length + (target - c.length) - target)
          = .ok (a, c1) := by
  induction fields with
  | nil =>
    intro len target keep arrays fields1 name c _ hfind
    simp [fields_find_nil] at hfind
  | cons head rest ih =>
    obtain ⟨n, builder⟩ := head
    intro len target keep arrays fields1 name c h hfind hleave
    simp only [finish_fields, except_bind_eq_ok, ensure_eq_ok, except_pure_eq_ok,
      Prod.mk.injEq] at h
    obtain ⟨_, _, ⟨array, builder1⟩, hf, _, hl1, _, _, ⟨arrays1, rest1⟩, hrest, _, h⟩ := h
    subst h
    rw [fields_find_cons] at hfind
    by_cases hn : name = n
    · subst hn
      simp only [if_true, Option.some.injEq] at hfind
      subst hfind
      have hne : (builder1.length == 0) = false := by
        have hl := (dynamic_builder_finish_and_leave_length print _ _ _ _ _ hf).2
        simp only [beq_eq_false_iff_ne, ne_eq]
        omega
      simp only [hne, Bool.false_and, Bool.false_eq_true, if_false]
      exact ⟨builder1, array, by rw [fields_find_cons]; simp, hf⟩
    · simp only [hn, if_false] at hfind
      obtain ⟨c1, a, hc1, hc2⟩ := ih len target keep arrays1 rest1 name c hrest hfind hleave
      refine ⟨c1, a, ?_, hc2⟩
      split
      · exact hc1
      · rw [fields_find_cons]
        simp only [hn, if_false]
        exact hc1

/-- Every variant that the loops of the conflict `finish_and_leave` leave is
what `finish_and_leave` leaves of the variant of the same index. -/
theorem finish_variants_get (print : data_view2 → Option String)
    (variants : List builder_base) :
    ∀ (i : Nat) (kept : List Nat) (arrays : List typed_array) (variants1 : List builder_base)
      (k : Nat) (t1 : builder_base),
      finish_variants print variants i 0 kept = .ok (arrays, variants1) →
      variants1.get? k = some t1 →
      ∃ t a, variants.get? k = some t ∧
        t.finish_and_leave print 0 (kept.count (i + k)) = .ok (a, t1) := by
  induction variants with
  | nil =>
    intro i kept arrays variants1 k t1 h hk
    simp only [finish_variants, except_pure_eq_ok, Prod.mk.injEq] at h
    obtain ⟨_, h⟩ := h
    subst h
    simp at hk
  | cons v rest ih =>
    intro i kept arrays variants1 k t1 h hk
    simp only [finish_variants, except_bind_eq_ok, except_pure_eq_ok, Prod.mk.injEq] at h
    obtain ⟨⟨array, v1⟩, hv, ⟨arrays1, rest1⟩, hrest, _, h⟩ := h
    subst h
    cases k with
    | zero =>
      simp only [List.get?_cons_zero, Option.some.injEq] at hk
      subst hk
      exact ⟨v, array, rfl, hv⟩
    | succ k =>
      simp only [List.get?_cons_succ] at hk
      obtain ⟨t, a, ht, hf⟩ := ih (i + 1) kept arrays1 rest1 k t1 hrest hk
      refine ⟨t, a, ?_, ?_⟩
      · simp only [List.get?_cons_succ]
        exact ht
      · have : i + (k + 1) = i + 1 + k := by omega
        rw [this]
        exact hf
/-- A cut that leaves a row of a record builder leaves the fields that were
shorter than the record builder shorter than it. -/
theorem record_cut_room (print : data_view2 → Option String)
    (fields : List (String × dynamic_builder)) (valid : List Bool) (len : Nat)
    (ka : Option String) (c : Nat) (a : typed_array) (t1 : builder_base) (name : String)
    (hc : 1 ≤ c)
    (hroom : ∀ f, (name, f) ∈ fields → f.length + 1 ≤ len)
    (h : (builder_base.record fields valid len ka).finish_and_leave print 0 c = .ok (a, t1)) :
    ∃ fields1 valid1, t1 = .record fields1 valid1 c ka ∧
      ∀ f1, (name, f1) ∈ fields1 → f1.length + 1 ≤ c := by
  simp only [builder_base.finish_and_leave, except_bind_eq_ok, ensure_eq_ok,
    except_pure_eq_ok, Prod.mk.injEq, Nat.add_zero] at h
  obtain ⟨_, hle, ⟨arrays, fields1⟩, hf, ⟨bitmap, valid1⟩, _, _, h⟩ := h
  subst h
  refine ⟨fields1, valid1, rfl, ?_⟩
  intro f1 hm
  obtain ⟨f, a1, hmem, hfin⟩ := finish_fields_mem print fields _ _ _ _ _ hf name f1 hm
  have hl := (dynamic_builder_finish_and_leave_length print _ _ _ _ _ hfin).2
  have := hroom f hmem
  omega

/-- A cut that leaves a row of a typed builder leaves a row of the child that
holds a row of its last row. -/
theorem typed_cut_child (print : data_view2 → Option String) (t t1 : builder_base)
    (step : path_step) (x : dynamic_builder) (c : Nat) (a : typed_array) (hc : 1 ≤ c)
    (hx : t.child step = some x) (hlive : t.child_live step x = true)
    (h : t.finish_and_leave print 0 c = .ok (a, t1)) :
    ∃ x1 c1 a1, 1 ≤ c1 ∧ t1.child step = some x1 ∧
      x.finish_and_leave print 0 c1 = .ok (a1, x1) := by
  cases t with
  | null n => cases step <;> simp [builder_base.child] at hx
  | atom ty inner => cases step <;> simp [builder_base.child] at hx
  | conflict ds vs => cases step <;> simp [builder_base.child] at hx
  | record fields valid len ka =>
    cases step with
    | elements v => simp [builder_base.child] at hx
    | field v name =>
      simp only [builder_base.child] at hx
      simp only [builder_base.child_live, beq_iff_eq] at hlive
      simp only [builder_base.finish_and_leave, except_bind_eq_ok, ensure_eq_ok,
        except_pure_eq_ok, Prod.mk.injEq, Nat.add_zero] at h
      obtain ⟨_, hle, ⟨arrays, fields1⟩, hf, ⟨bitmap, valid1⟩, _, _, h⟩ := h
      subst h
      have hleave : 1 ≤ x.length + (len - c - x.length) - (len - c) := by omega
      obtain ⟨c1, a1, hfind, hfin⟩ :=
        finish_fields_find print fields _ _ _ _ _ name x hf hx hleave
      have hg : len - c - x.length = 0 := by omega
      rw [hg] at hfin
      exact ⟨c1, _, a1, hleave, hfind, by simpa [hg] using hfin⟩
  | list offsets elements =>
    cases step with
    | field v name => simp [builder_base.child] at hx
    | elements v =>
      simp only [builder_base.child, Option.some.injEq] at hx
      subst hx
      simp only [builder_base.child_live, List.all_eq_true, decide_eq_true_eq] at hlive
      simp only [builder_base.finish_and_leave, except_bind_eq_ok, ensure_eq_ok,
        except_pure_eq_ok, Prod.mk.injEq, List.replicate_zero, List.append_nil] at h
      obtain ⟨_, _, _, hle, ⟨used, elements1⟩, hf, result, _, _, h⟩ := h
      subst h
      refine ⟨elements1, _, used, ?_, rfl, hf⟩
      have hlt : offsets.length - c < offsets.length := by omega
      have hget : (offsets ++ [(elements.length, true)]).getD (offsets.length - c) (0, false)
          = offsets.get ⟨offsets.length - c, hlt⟩ := by
        rw [List.getD_eq_getElem?_getD, List.getElem?_append_left hlt,
          List.getElem?_eq_getElem hlt]
        rfl
      rw [hget]
      have := hlive _ (List.get_mem offsets (offsets.length - c) hlt)
      omega
theorem builder_base_finish_kind_null (print : data_view2 → Option String) (n grow c : Nat)
    (a : typed_array) (b1 : builder_base)
    (h : (builder_base.null n).finish_and_leave print grow c = .ok (a, b1)) :
    b1 = .null c := by
  simp only [builder_base.finish_and_leave] at h
  split at h
  · simp at h
  · simp only [except_pure_eq_ok, Prod.mk.injEq] at h
    exact h.2.symm

theorem builder_base_finish_kind_atom (print : data_view2 → Option String) (ty : atom_type)
    (inner : List (Option atom_view)) (grow c : Nat) (a : typed_array) (b1 : builder_base)
    (h : (builder_base.atom ty inner).finish_and_leave print grow c = .ok (a, b1)) :
    ∃ inner1, b1 = .atom ty inner1 := by
  simp only [builder_base.finish_and_leave] at h
  split at h
  · simp at h
  · simp only [except_pure_eq_ok, Prod.mk.injEq] at h
    exact ⟨_, h.2.symm⟩

theorem builder_base_finish_kind_list (print : data_view2 → Option String)
    (offsets : List (Nat × Bool)) (elements : dynamic_builder) (grow c : Nat)
    (a : typed_array) (b1 : builder_base)
    (h : (builder_base.list offsets elements).finish_and_leave print grow c = .ok (a, b1)) :
    ∃ offsets1 elements1, b1 = .list offsets1 elements1 := by
  simp only [builder_base.finish_and_leave, except_bind_eq_ok, ensure_eq_ok,
    except_pure_eq_ok, Prod.mk.injEq] at h
  obtain ⟨_, _, _, _, ⟨used, elements1⟩, _, result, _, _, h⟩ := h
  exact ⟨_, _, h.symm⟩

theorem builder_base_finish_kind_record (print : data_view2 → Option String)
    (fields : List (String × dynamic_builder)) (valid : List Bool) (len : Nat)
    (ka : Option String) (grow c : Nat) (a : typed_array) (b1 : builder_base)
    (h : (builder_base.record fields valid len ka).finish_and_leave print grow c
      = .ok (a, b1)) :
    ∃ fields1 valid1 len1 ka1, b1 = .record fields1 valid1 len1 ka1 := by
  simp only [builder_base.finish_and_leave, except_bind_eq_ok, ensure_eq_ok,
    except_pure_eq_ok, Prod.mk.injEq] at h
  obtain ⟨_, _, ⟨arrays, fields1⟩, _, ⟨bitmap, valid1⟩, _, _, h⟩ := h
  exact ⟨_, _, _, _, h.symm⟩
theorem count_drop_of_getLast (l : List Nat) (j c : Nat) (hl : l.getLast? = some j)
    (hc : 1 ≤ c) (hle : c ≤ l.length) : 1 ≤ (l.drop (l.length - c)).count j := by
  have h1 : (l.drop (l.length - c)).getLast? = some j := by
    rw [List.getLast?_drop]
    have : ¬ l.length ≤ l.length - c := by omega
    simp only [this, if_false]
    exact hl
  have hm : j ∈ l.drop (l.length - c) := List.mem_of_mem_getLast? h1
  exact List.count_pos_iff.mpr hm

/-- What a cut that leaves a row of a dynamic builder does to the typed builder
of a pointer into it that belongs to the last row: nothing, or a cut that leaves
a row, or the dynamic builder is an empty null builder afterwards. -/
theorem dynamic_cut_typed (print : data_view2 → Option String) (d d1 : dynamic_builder)
    (v : Option Nat) (t t1 : builder_base) (c : Nat) (a : typed_array) (hc : 1 ≤ c)
    (hlive : d.variant_live v = true) (ht : d.typed v = some t)
    (ht1 : d1.typed v = some t1) (h : d.finish_and_leave print 0 c = .ok (a, d1)) :
    t1 = t ∨ (∃ c1 a1, 1 ≤ c1 ∧ t.finish_and_leave print 0 c1 = .ok (a1, t1))
      ∨ ∃ n, t1 = .null n := by
  obtain ⟨b, p, m⟩ := d
  simp only [dynamic_builder.finish_and_leave, ensure_eq_ok, except_bind_eq_ok] at h
  obtain ⟨_, hle, ⟨result, b1⟩, hr, _, hlen, h⟩ := h
  have key : ∀ t2, (dynamic_builder.mk b1 p m).typed v = some t2 →
      t2 = t ∨ (∃ c1 a1, 1 ≤ c1 ∧ t.finish_and_leave print 0 c1 = .ok (a1, t2)) := by
    intro t2 ht2
    split at hr
    · simp only [Nat.lt_irrefl, if_false, gt_iff_lt, pure, Except.pure, except_bind_ok,
        Except.ok.injEq, Prod.mk.injEq] at hr
      obtain ⟨_, h2⟩ := hr
      subst h2
      rw [ht] at ht2
      cases ht2
      exact Or.inl rfl
    · right
      cases b with
      | conflict ds vs =>
        simp only [builder_base.finish_and_leave, except_bind_eq_ok, ensure_eq_ok,
          except_pure_eq_ok, Prod.mk.injEq, List.replicate_zero, List.append_nil] at hr
        obtain ⟨_, hle2, ⟨arrays, vs1⟩, hfv, strings, _, _, h2⟩ := hr
        subst h2
        simp only [dynamic_builder.variant_live, dynamic_builder.builder_, beq_iff_eq] at hlive
        have hcount := count_drop_of_getLast ds (v.getD 0) c hlive hc hle2
        cases v with
        | none =>
          simp only [dynamic_builder.typed, dynamic_builder.builder_,
            List.head?_eq_getElem?, ← List.get?_eq_getElem?] at ht ht2
          obtain ⟨t0, a0, ht0, hf0⟩ := finish_variants_get print vs 0 _ arrays vs1 0 t2 hfv ht2
          rw [ht] at ht0
          cases ht0
          exact ⟨_, a0, hcount, hf0⟩
        | some j =>
          simp only [dynamic_builder.typed, dynamic_builder.builder_] at ht ht2
          obtain ⟨t0, a0, ht0, hf0⟩ := finish_variants_get print vs 0 _ arrays vs1 j t2 hfv ht2
          rw [ht] at ht0
          cases ht0
          simp only [Option.getD_some] at hcount
          simp only [Nat.zero_add] at hf0
          exact ⟨_, a0, hcount, hf0⟩
      | null n =>
        have hb1 := builder_base_finish_kind_null print n 0 c result b1 hr
        subst hb1
        cases v with
        | none =>
          simp only [dynamic_builder.typed, dynamic_builder.builder_, Option.some.injEq]
            at ht ht2
          subst ht ht2
          exact ⟨c, result, hc, hr⟩
        | some j => simp [dynamic_builder.typed, dynamic_builder.builder_] at ht
      | atom ty inner =>
        obtain ⟨inner1, hb1⟩ := builder_base_finish_kind_atom print ty inner 0 c result b1 hr
        subst hb1
        cases v with
        | none =>
          simp only [dynamic_builder.typed, dynamic_builder.builder_, Option.some.injEq]
            at ht ht2
          subst ht ht2
          exact ⟨c, result, hc, hr⟩
        | some j => simp [dynamic_builder.typed, dynamic_builder.builder_] at ht
      | list offsets elements =>
        obtain ⟨o1, e1, hb1⟩ :=
          builder_base_finish_kind_list print offsets elements 0 c result b1 hr
        subst hb1
        cases v with
        | none =>
          simp only [dynamic_builder.typed, dynamic_builder.builder_, Option.some.injEq]
            at ht ht2
          subst ht ht2
          exact ⟨c, result, hc, hr⟩
        | some j => simp [dynamic_builder.typed, dynamic_builder.builder_] at ht
      | record fields valid len ka =>
        obtain ⟨f1, v1, l1, k1, hb1⟩ :=
          builder_base_finish_kind_record print fields valid len ka 0 c result b1 hr
        subst hb1
        cases v with
        | none =>
          simp only [dynamic_builder.typed, dynamic_builder.builder_, Option.some.injEq]
            at ht ht2
          subst ht ht2
          exact ⟨c, result, hc, hr⟩
        | some j => simp [dynamic_builder.typed, dynamic_builder.builder_] at ht
  simp only [except_pure_eq_ok, Prod.mk.injEq] at h
  obtain ⟨_, h2⟩ := h
  subst h2
  split at ht1
  · cases v with
    | none =>
      simp only [dynamic_builder.typed, dynamic_builder.builder_, Option.some.injEq] at ht1
      exact Or.inr (Or.inr ⟨c, ht1.symm⟩)
    | some j => simp [dynamic_builder.typed, dynamic_builder.builder_] at ht1
  · rcases key t1 ht1 with h | h
    · exact Or.inl h
    · exact Or.inr (Or.inl h)
theorem dynamic_builder_get_cons (d c : dynamic_builder) (step : path_step)
    (rest : builder_path) (h : d.get (step :: rest) = .ok c) :
    ∃ t x, d.typed step.variant = some t ∧ t.child step = some x ∧ x.get rest = .ok c := by
  simp only [dynamic_builder.get] at h
  cases ht : d.typed step.variant with
  | none => simp [ht] at h
  | some t =>
    simp only [ht] at h
    cases hc : t.child step with
    | none => simp [hc] at h
    | some x =>
      simp only [hc] at h
      exact ⟨t, x, rfl, hc, h⟩

theorem dynamic_builder_get_cons_of (d x : dynamic_builder) (t : builder_base)
    (step : path_step) (rest : builder_path) (ht : d.typed step.variant = some t)
    (hc : t.child step = some x) : d.get (step :: rest) = x.get rest := by
  simp only [dynamic_builder.get, ht, hc]

theorem live_nil (d : dynamic_builder) (v : Option Nat) (h : d.live [] v = true) :
    d.variant_live v = true ∧ ∃ fields valid len ka,
      d.typed v = some (.record fields valid len ka) ∧ 1 ≤ len := by
  simp only [dynamic_builder.live, Bool.and_eq_true] at h
  obtain ⟨h1, h2⟩ := h
  refine ⟨h1, ?_⟩
  split at h2
  · rename_i fields valid len ka ht
    simp only [decide_eq_true_eq] at h2
    exact ⟨fields, valid, len, ka, ht, h2⟩
  · cases h2

theorem live_cons (d : dynamic_builder) (step : path_step) (rest : builder_path)
    (v : Option Nat) (h : d.live (step :: rest) v = true) :
    d.variant_live step.variant = true ∧ ∃ t x, d.typed step.variant = some t ∧
      t.child step = some x ∧ t.child_live step x = true ∧ x.live rest v = true := by
  simp only [dynamic_builder.live, Bool.and_eq_true] at h
  obtain ⟨h1, h2⟩ := h
  refine ⟨h1, ?_⟩
  cases ht : d.typed step.variant with
  | none => simp [ht] at h2
  | some t =>
    simp only [ht] at h2
    cases hc : t.child step with
    | none => simp [hc] at h2
    | some x =>
      simp only [hc, Bool.and_eq_true] at h2
      exact ⟨t, x, rfl, hc, h2.1, h2.2⟩

/-- A cut that leaves a row of the tree keeps the room in the record builder of
a pointer that belongs to the event in progress. -/
theorem cut_room (print : data_view2 → Option String) (name : String) (v : Option Nat)
    (p : builder_path) : ∀ (d d1 : dynamic_builder) (c : Nat) (a : typed_array), 1 ≤ c →
      d.live p v = true → d.room p v name → d.finish_and_leave print 0 c = .ok (a, d1) →
      d1.room p v name := by
  induction p with
  | nil =>
    intro d d1 c a hc hlive hroom h x1 fields1 valid1 len1 ka1 f hx1 ht1 hm
    simp only [dynamic_builder.get, except_pure_eq_ok] at hx1
    subst hx1
    obtain ⟨hvl, fields, valid, len, ka, ht, _⟩ := live_nil d v hlive
    rcases dynamic_cut_typed print d d1 v _ _ c a hc hvl ht ht1 h with
      h1 | ⟨c1, a1, hc1, hfin⟩ | ⟨n, h1⟩
    · rw [h1] at ht1
      simp only [builder_base.record.injEq] at h1
      obtain ⟨hf, _, hl, _⟩ := h1
      subst hf hl
      exact hroom d fields1 valid len1 ka f rfl ht hm
    · obtain ⟨fields2, valid2, heq, hall⟩ :=
        record_cut_room print fields valid len ka c1 a1 _ name hc1
          (fun f hf => hroom d fields valid len ka f rfl ht hf) hfin
      simp only [builder_base.record.injEq] at heq
      obtain ⟨hf, _, hl, _⟩ := heq
      subst hf hl
      exact hall f hm
    · cases h1
  | cons step rest ih =>
    intro d d1 c a hc hlive hroom h x1 fields1 valid1 len1 ka1 f hx1 ht1 hm
    obtain ⟨hvl, t, x, ht, hx, hcl, hxl⟩ := live_cons d step rest v hlive
    obtain ⟨t1, y1, hty1, hy1, hget1⟩ := dynamic_builder_get_cons d1 x1 step rest hx1
    have hxroom : x.room rest v name := by
      intro x2 fields2 valid2 len2 ka2 f2 hx2 ht2 hm2
      refine hroom x2 fields2 valid2 len2 ka2 f2 ?_ ht2 hm2
      rw [dynamic_builder_get_cons_of d x t step rest ht hx]
      exact hx2
    rcases dynamic_cut_typed print d d1 step.variant _ _ c a hc hvl ht hty1 h with
      h1 | ⟨c1, a1, hc1, hfin⟩ | ⟨n, h1⟩
    · subst h1
      rw [hx] at hy1
      cases hy1
      exact hxroom x1 fields1 valid1 len1 ka1 f hget1 ht1 hm
    · obtain ⟨y2, c2, a2, hc2, hy2, hfin2⟩ :=
        typed_cut_child print t t1 step x c1 a1 hc1 hx hcl hfin
      rw [hy1] at hy2
      cases hy2
      exact ih x y1 c2 a2 hc2 hxl hxroom hfin2 x1 fields1 valid1 len1 ka1 f hget1 ht1 hm
    · subst h1
      cases step <;> simp [builder_base.child] at hy1
theorem fields_mem_of_find (fs : List (String × dynamic_builder)) (name : String)
    (f : dynamic_builder) (h : fields_find fs name = some f) : (name, f) ∈ fs := by
  induction fs with
  | nil => simp [fields_find_nil] at h
  | cons head rest ih =>
    obtain ⟨n, d⟩ := head
    rw [fields_find_cons] at h
    by_cases hn : name = n
    · subst hn
      simp only [if_true, Option.some.injEq] at h
      subst h
      exact List.mem_cons_self _ _
    · simp only [hn, if_false] at h
      exact List.mem_cons_of_mem _ (ih h)

/-- A field has room for one more row when it is shorter than its record
builder. -/
theorem room_fits (d f1 : dynamic_builder) (p : builder_path) (v : Option Nat)
    (name : String) (hroom : d.room p v name)
    (hg : d.get (p ++ [.field v name]) = .ok f1) :
    d.fits (p ++ [.field v name]) (f1.length + 1) := by
  rw [fits_field_iff]
  intro x fields valid len ka hx ht
  obtain ⟨x1, fields1, valid1, len1, ka1, hx1, ht1, hf⟩ :=
    dynamic_builder_get_field d f1 p v name hg
  rw [hx] at hx1
  cases hx1
  rw [ht] at ht1
  cases ht1
  exact hroom x fields valid len ka f1 hx ht (fields_mem_of_find fields name f1 hf)

theorem room_after_cut (print : data_view2 → Option String) (s s2 : series_builder_impl)
    (owner : builder_path) (v : Option Nat) (name : String)
    (hlive : s.builder_.live owner v = true) (hroom : s.builder_.room owner v name)
    (h : s.finish_previous_events print false = .ok s2) : s2.builder_.room owner v name := by
  simp only [series_builder_impl.finish_previous_events] at h
  split at h
  · simp only [except_pure_eq_ok] at h
    subst h; exact hroom
  · split at h
    · simp only [except_pure_eq_ok] at h
      subst h; exact hroom
    · simp only [except_bind_eq_ok, ensure_eq_ok, except_pure_eq_ok, Bool.not_false,
        if_true] at h
      obtain ⟨⟨slice, b1⟩, hf, _, _, _, _, h⟩ := h
      subst h
      exact cut_room print name v owner s.builder_ b1 1 slice (Nat.le_refl 1) hlive hroom hf

/-- A field of a record builder of the event in progress that is shorter than
the record builder has room for one more row, before and after a cut. -/
theorem field_path_room (print : data_view2 → Option String) (s : series_builder_impl)
    (owner : builder_path) (v : Option Nat) (name : String)
    (hlive : s.builder_.live owner v = true) (hroom : s.builder_.room owner v name) :
    ∀ s2, (s2 = s ∨ s.finish_previous_events print
        ((owner ++ [path_step.field v name]) == []) = .ok s2) →
      ∀ d, s2.get (owner ++ [.field v name]) = .ok d →
        s2.builder_.fits (owner ++ [.field v name]) (d.length + 1) := by
  intro s2 hs2 d hd
  have hne : ((owner ++ [path_step.field v name]) == []) = false := by
    cases owner <;> rfl
  rw [hne] at hs2
  rcases hs2 with hs2 | hs2
  · subst hs2
    exact room_fits _ d owner v name hroom hd
  · exact room_fits _ d owner v name (room_after_cut print s s2 owner v name hlive hroom hs2) hd

theorem variant_live_set_typed (d : dynamic_builder) (v w : Option Nat) (t t1 : builder_base)
    (ht : d.typed v = some t) (hn : ∀ ds vs, t1 ≠ .conflict ds vs)
    (h : d.variant_live w = true) : (d.set_typed v t1).variant_live w = true := by
  obtain ⟨b, p, m⟩ := d
  cases b with
  | conflict ds vs =>
    cases v <;> exact h
  | null n =>
    cases v with
    | none =>
      cases t1 with
      | conflict ds vs => exact absurd rfl (hn ds vs)
      | null _ => rfl
      | atom _ _ => rfl
      | list _ _ => rfl
      | record _ _ _ _ => rfl
    | some j => simp [dynamic_builder.typed, dynamic_builder.builder_] at ht
  | atom a i =>
    cases v with
    | none =>
      cases t1 with
      | conflict ds vs => exact absurd rfl (hn ds vs)
      | null _ => rfl
      | atom _ _ => rfl
      | list _ _ => rfl
      | record _ _ _ _ => rfl
    | some j => simp [dynamic_builder.typed, dynamic_builder.builder_] at ht
  | list o e =>
    cases v with
    | none =>
      cases t1 with
      | conflict ds vs => exact absurd rfl (hn ds vs)
      | null _ => rfl
      | atom _ _ => rfl
      | list _ _ => rfl
      | record _ _ _ _ => rfl
    | some j => simp [dynamic_builder.typed, dynamic_builder.builder_] at ht
  | record f va l k =>
    cases v with
    | none =>
      cases t1 with
      | conflict ds vs => exact absurd rfl (hn ds vs)
      | null _ => rfl
      | atom _ _ => rfl
      | list _ _ => rfl
      | record _ _ _ _ => rfl
    | some j => simp [dynamic_builder.typed, dynamic_builder.builder_] at ht

theorem child_live_set_child (t : builder_base) (step : path_step) (c c1 : dynamic_builder)
    (hc : t.child step = some c) (hl : c1.length = c.length)
    (h : t.child_live step c = true) : (t.set_child step c1).child_live step c1 = true := by
  cases t with
  | null n => cases step <;> simp [builder_base.child] at hc
  | atom a i => cases step <;> simp [builder_base.child] at hc
  | conflict ds vs => cases step <;> simp [builder_base.child] at hc
  | record fields valid len ka =>
    cases step with
    | elements v => simp [builder_base.child] at hc
    | field v name =>
      simp only [builder_base.child_live, beq_iff_eq] at h
      simp only [builder_base.set_child, builder_base.child_live, beq_iff_eq]
      omega
  | list offsets elements =>
    cases step with
    | field v name => simp [builder_base.child] at hc
    | elements v =>
      simp only [builder_base.child, Option.some.injEq] at hc
      subst hc
      simp only [builder_base.child_live] at h
      simp only [builder_base.set_child, builder_base.child_live, hl]
      exact h

/-- A store through a pointer on the way to a record builder of the event in
progress keeps the record builder in the event in progress when the stored
builder is as long as the one it replaces and holds the record builder. -/
theorem live_set (p : builder_path) (v : Option Nat) :
    ∀ (d x x1 d1 : dynamic_builder), d.live p v = true → d.get p = .ok x →
      x1.length = x.length → x1.live [] v = true → d.set p x1 = .ok d1 →
      d1.live p v = true := by
  induction p with
  | nil =>
    intro d x x1 d1 _ _ _ hx1 hs
    simp only [dynamic_builder.set, except_pure_eq_ok] at hs
    subst hs
    exact hx1
  | cons step rest ih =>
    intro d x x1 d1 hlive hg hl hx1 hs
    obtain ⟨hvl, t, c, ht, hc, hcl, hcr⟩ := live_cons d step rest v hlive
    rw [dynamic_builder_get_cons_of d c t step rest ht hc] at hg
    simp only [dynamic_builder.set, ht, hc, except_bind_eq_ok, except_pure_eq_ok] at hs
    obtain ⟨c1, hc1, hs⟩ := hs
    subst hs
    have hc1l : c1.length = c.length := by
      cases rest with
      | nil =>
        simp only [dynamic_builder.set, except_pure_eq_ok] at hc1
        simp only [dynamic_builder.get, except_pure_eq_ok] at hg
        subst hc1 hg
        exact hl
      | cons s2 r2 => exact dynamic_builder_set_length c c1 x1 (s2 :: r2) (by simp) hc1
    have hnc := builder_base_set_child_not_conflict t step c c1 hc
    simp only [dynamic_builder.live, Bool.and_eq_true]
    refine ⟨variant_live_set_typed d _ _ t _ ht hnc hvl, ?_⟩
    rw [dynamic_builder_typed_set_typed d _ t _ ht hnc]
    simp only [builder_base_child_set_child t step c c1 hc, Bool.and_eq_true]
    exact ⟨child_live_set_child t step c c1 hc hc1l hcl, ih c x x1 c1 hcr hg hl hx1 hc1⟩
theorem record_ref_get_ok (s : series_builder_impl) (r : record_ref) (d : dynamic_builder)
    (fields : List (String × dynamic_builder)) (valid : List Bool) (len : Nat)
    (ka : Option String) (h : record_ref.get s r = .ok (d, fields, valid, len, ka)) :
    s.get r.owner = .ok d ∧ d.typed r.variant = some (.record fields valid len ka) := by
  simp only [record_ref.get, except_bind_eq_ok] at h
  obtain ⟨d0, hg, h⟩ := h
  split at h
  · rename_i fields0 valid0 len0 ka0 ht
    simp only [except_pure_eq_ok, Prod.mk.injEq] at h
    obtain ⟨h1, h2, h3, h4, h5⟩ := h
    subst h1 h2 h3 h4 h5
    exact ⟨hg, ht⟩
  · simp at h

theorem live_get (p : builder_path) (v : Option Nat) :
    ∀ (d x : dynamic_builder), d.live p v = true → d.get p = .ok x → x.live [] v = true := by
  induction p with
  | nil =>
    intro d x hlive hg
    simp only [dynamic_builder.get, except_pure_eq_ok] at hg
    subst hg
    exact hlive
  | cons step rest ih =>
    intro d x hlive hg
    obtain ⟨_, t, c, ht, hc, _, hcr⟩ := live_cons d step rest v hlive
    rw [dynamic_builder_get_cons_of d c t step rest ht hc] at hg
    exact ih c x hcr hg

/-- Writing back the members of a record builder keeps length uniformity when no
field is longer than the record builder. -/
theorem record_set_bounded (s s1 : series_builder_impl) (r : record_ref) (d : dynamic_builder)
    (fields fields1 : List (String × dynamic_builder)) (valid valid1 : List Bool)
    (len : Nat) (ka ka1 : Option String) (hs : s.builder_.bounded)
    (hg : s.get r.owner = .ok d) (ht : d.typed r.variant = some (.record fields valid len ka))
    (hf : fields_bounded len fields1)
    (h : record_ref.set s r d fields1 valid1 len ka1 = .ok s1) : s1.builder_.bounded := by
  simp only [record_ref.set] at h
  have hdb := dynamic_builder_get_bounded r.owner s.builder_ d hs hg
  refine series_set_bounded s s1 r.owner _ hs
    (dynamic_builder_set_typed_bounded d r.variant _ hdb ?_) ?_ h
  · simp only [builder_base.bounded]
    exact hf
  · rw [set_typed_length d r.variant _ (.record fields1 valid1 len ka1) ht rfl]
    exact fits_of_get r.owner s.builder_ d hs hg

theorem record_set_get (s s1 : series_builder_impl) (r : record_ref) (d : dynamic_builder)
    (fields fields1 : List (String × dynamic_builder)) (valid valid1 : List Bool)
    (len : Nat) (ka ka1 : Option String)
    (ht : d.typed r.variant = some (.record fields valid len ka))
    (h : record_ref.set s r d fields1 valid1 len ka1 = .ok s1) :
    ∃ x, s1.get r.owner = .ok x ∧
      x.typed r.variant = some (.record fields1 valid1 len ka1) ∧ x.length = d.length
      ∧ (∀ w, d.variant_live w = true → x.variant_live w = true) := by
  simp only [record_ref.set] at h
  refine ⟨_, series_get_set s s1 r.owner _ h, ?_,
    set_typed_length d r.variant _ (.record fields1 valid1 len ka1) ht rfl, ?_⟩
  · exact dynamic_builder_typed_set_typed d r.variant _ _ ht (by intro ds vs h; cases h)
  · intro w hw
    exact variant_live_set_typed d r.variant w _ _ ht (by intro ds vs h; cases h) hw

theorem record_set_live (s s1 : series_builder_impl) (r : record_ref) (d : dynamic_builder)
    (fields fields1 : List (String × dynamic_builder)) (valid valid1 : List Bool)
    (len : Nat) (ka ka1 : Option String)
    (hlive : s.builder_.live r.owner r.variant = true)
    (hg : s.get r.owner = .ok d) (ht : d.typed r.variant = some (.record fields valid len ka))
    (h : record_ref.set s r d fields1 valid1 len ka1 = .ok s1) :
    s1.builder_.live r.owner r.variant = true ∧ 1 ≤ len := by
  obtain ⟨x, hx, hxt, hxl, hxv⟩ := record_set_get s s1 r d fields fields1 valid valid1 len ka ka1
    ht h
  have hdl := live_get r.owner r.variant s.builder_ d hlive hg
  obtain ⟨hdv, fields0, valid0, len0, ka0, ht0, hpos⟩ := live_nil d r.variant hdl
  rw [ht] at ht0
  cases ht0
  refine ⟨?_, hpos⟩
  simp only [record_ref.set] at h
  have hb := series_set_builder s s1 r.owner _ h
  have hx2 : s1.get r.owner = .ok (d.set_typed r.variant (.record fields1 valid1 len ka1)) :=
    series_get_set s s1 r.owner _ h
  rw [hx] at hx2
  cases hx2
  apply live_set r.owner r.variant s.builder_ d _ s1.builder_ hlive hg hxl _ hb
  simp only [dynamic_builder.live, Bool.and_eq_true, hxt, decide_eq_true_eq]
  exact ⟨hxv _ hdv, hpos⟩

theorem record_set_room (s s1 : series_builder_impl) (r : record_ref) (d : dynamic_builder)
    (fields fields1 : List (String × dynamic_builder)) (valid valid1 : List Bool)
    (len : Nat) (ka ka1 : Option String) (name : String)
    (ht : d.typed r.variant = some (.record fields valid len ka))
    (hf : ∀ f, (name, f) ∈ fields1 → f.length + 1 ≤ len)
    (h : record_ref.set s r d fields1 valid1 len ka1 = .ok s1) :
    s1.builder_.room r.owner r.variant name := by
  obtain ⟨x, hx, hxt, _, _⟩ := record_set_get s s1 r d fields fields1 valid valid1 len ka ka1
    ht h
  intro x2 fields2 valid2 len2 ka2 f hx2 ht2 hm
  have hx3 : s1.get r.owner = .ok x2 := hx2
  rw [hx] at hx3
  cases hx3
  rw [hxt] at ht2
  cases ht2
  exact hf f hm

theorem fields_set_mem (fs : List (String × dynamic_builder)) (name : String)
    (b f : dynamic_builder) (h : (name, f) ∈ fields_set fs name b) : f = b := by
  simp only [fields_set, List.mem_map] at h
  obtain ⟨⟨n, g⟩, _, hg⟩ := h
  split at hg
  · simp only [Prod.mk.injEq] at hg
    exact hg.2.symm
  · rename_i hne
    simp only [Prod.mk.injEq] at hg
    simp only [beq_iff_eq] at hne
    exact absurd hg.1 hne

theorem fields_append_mem (fs : List (String × dynamic_builder)) (name : String)
    (b f : dynamic_builder) (hnone : fields_find fs name = none)
    (h : (name, f) ∈ fs ++ [(name, b)]) : f = b := by
  rcases List.mem_append.mp h with h | h
  · have hm : name ∈ fs.map Prod.fst := List.mem_map.mpr ⟨(name, f), h, rfl⟩
    have := fields_find_some_of_mem fs name hm
    rw [hnone] at this
    cases this
  · simp only [List.mem_singleton, Prod.mk.injEq] at h
    exact h.2
theorem record_fields_bounded (s : series_builder_impl) (r : record_ref) (d : dynamic_builder)
    (fields : List (String × dynamic_builder)) (valid : List Bool) (len : Nat)
    (ka : Option String) (hs : s.builder_.bounded) (hg : s.get r.owner = .ok d)
    (ht : d.typed r.variant = some (.record fields valid len ka)) :
    fields_bounded len fields := by
  have hdb := dynamic_builder_get_bounded r.owner s.builder_ d hs hg
  have htb := dynamic_builder_typed_bounded d r.variant _ hdb ht
  simpa only [builder_base.bounded] using htb

/-- Resetting `keep_alive_` of a record builder leaves length uniformity and the
room of its fields as they are. -/
theorem keep_alive_reset_bounded (s s1 : series_builder_impl) (r : record_ref)
    (name : String) (d : dynamic_builder) (fields : List (String × dynamic_builder))
    (valid : List Bool) (len : Nat) (ka : Option String)
    (hs : s.builder_.bounded)
    (hpost : ∃ d2, s.get (r.owner ++ [.field r.variant name]) = .ok d2 ∧
      (s.builder_.fits (r.owner ++ [.field r.variant name]) (d2.length + 1)
        ∨ ∃ ds vs, d2.builder_ = .conflict ds vs))
    (hg : record_ref.get s r = .ok (d, fields, valid, len, ka))
    (h : record_ref.set s r d fields valid len none = .ok s1) :
    s1.builder_.bounded ∧ ∃ d2, s1.get (r.owner ++ [.field r.variant name]) = .ok d2 ∧
      (s1.builder_.fits (r.owner ++ [.field r.variant name]) (d2.length + 1)
        ∨ ∃ ds vs, d2.builder_ = .conflict ds vs) := by
  obtain ⟨hown, htyp⟩ := record_ref_get_ok s r d fields valid len ka hg
  obtain ⟨d2, hd2, hroom⟩ := hpost
  have hfb := record_fields_bounded s r d fields valid len ka hs hown htyp
  refine ⟨record_set_bounded s s1 r d fields fields valid valid len ka none hs hown htyp hfb h,
    d2, ?_, ?_⟩
  · obtain ⟨x, hx, hxt, _, _⟩ :=
      record_set_get s s1 r d fields fields valid valid len ka none htyp h
    obtain ⟨x0, fields0, valid0, len0, ka0, hx0, ht0, hf0⟩ :=
      dynamic_builder_get_field s.builder_ d2 r.owner r.variant name hd2
    have hx0a : s.get r.owner = .ok x0 := hx0
    rw [hown] at hx0a
    cases hx0a
    rw [htyp] at ht0
    cases ht0
    exact field_path_get s1 r x fields valid len none name d2 hx hxt hf0
  · rcases hroom with hroom | hroom
    · left
      rw [fits_field_iff] at hroom ⊢
      intro x1 fields1 valid1 len1 ka1 hx1 ht1
      obtain ⟨x, hx, hxt, _, _⟩ :=
        record_set_get s s1 r d fields fields valid valid len ka none htyp h
      have hx1a : s1.get r.owner = .ok x1 := hx1
      rw [hx] at hx1a
      cases hx1a
      rw [hxt] at ht1
      cases ht1
      exact hroom d fields valid len ka hown htyp
    · exact Or.inr hroom

/-- The method `typed_builder<record_type>::prepare<Type>(name)` on a record
builder of the event in progress keeps length uniformity, and afterwards the
field has room for one more row or is a conflict builder. -/
theorem prepare_field_bounded (print : data_view2 → Option String)
    (s s1 : series_builder_impl) (self : record_ref) (name : String) (T : target)
    (path : builder_path) (variant : Option Nat) (hs : s.builder_.bounded)
    (hlive : s.builder_.live self.owner self.variant = true)
    (h : typed_builder.prepare_field print s self name T = .ok (s1, path, variant)) :
    s1.builder_.bounded ∧ ∃ d2, s1.get path = .ok d2 ∧
      (s1.builder_.fits path (d2.length + 1) ∨ ∃ ds vs, d2.builder_ = .conflict ds vs) := by
  simp only [typed_builder.prepare_field, except_bind_eq_ok] at h
  obtain ⟨⟨d, fields, valid, len, ka⟩, hg, h⟩ := h
  obtain ⟨hown, htyp⟩ := record_ref_get_ok s self d fields valid len ka hg
  have hfb := record_fields_bounded s self d fields valid len ka hs hown htyp
  cases hfind : fields_find fields name with
  | none =>
    simp only [hfind, except_bind_eq_ok, except_pure_eq_ok, Prod.mk.injEq, ensure_eq_ok] at h
    obtain ⟨_, _, builder, hb, s2, hset, ⟨s3, v3⟩, hp, h1, h2, h3⟩ := h
    subst h1 h2 h3
    have hbl := dynamic_builder_resize_length _ _ _ hb
    have hbb : builder.bounded := dynamic_builder_resize_bounded _ _ _
      (by simp only [dynamic_builder.new, dynamic_builder.bounded, builder_base.bounded]) hb
    obtain ⟨hl2, hpos⟩ := record_set_live s s2 self d fields _ valid valid len ka ka hlive hown
      htyp hset
    have h2b := record_set_bounded s s2 self d fields _ valid valid len ka ka hs hown htyp
      (fields_bounded_append len fields name builder hfb (by omega) hbb) hset
    have h2room := record_set_room s s2 self d fields _ valid valid len ka ka name htyp
      (by
        intro f hm
        rw [fields_append_mem fields name builder f hfind hm]
        omega) hset
    exact prepare_bounded print s2 s3 _ T v3 h2b
      (field_path_room print s2 self.owner self.variant name hl2 h2room) hp
  | some b =>
    simp only [hfind, except_bind_eq_ok, ensure_eq_ok, except_pure_eq_ok, Prod.mk.injEq] at h
    obtain ⟨_, _, builder, hb, _, _, s2, hset, ⟨s3, v3⟩, hp, ⟨d4, fields4, valid4, len4, ka4⟩,
      hg4, s5, hset5, h1, h2, h3⟩ := h
    subst h1 h2 h3
    have hbl := dynamic_builder_resize_length _ _ _ hb
    have hbb : builder.bounded := dynamic_builder_resize_bounded _ _ _
      (fields_bounded_find len fields name b hfb hfind).2 hb
    obtain ⟨hl2, hpos⟩ := record_set_live s s2 self d fields _ valid valid len ka (some name)
      hlive hown htyp hset
    have h2b := record_set_bounded s s2 self d fields _ valid valid len ka (some name) hs hown
      htyp (fields_bounded_set len fields name builder hfb (by omega) hbb) hset
    have h2room := record_set_room s s2 self d fields _ valid valid len ka (some name) name
      htyp
      (by
        intro f hm
        rw [fields_set_mem fields name builder f hm]
        omega) hset
    have hpost := prepare_bounded print s2 s3 _ T v3 h2b
      (field_path_room print s2 self.owner self.variant name hl2 h2room) hp
    exact keep_alive_reset_bounded s3 s5 self name d4 fields4 valid4 len4 ka4 hpost.1 hpost.2
      hg4 hset5

/-- The method `field_ref::atom` on a field of a record builder of the event in
progress keeps length uniformity. -/
theorem field_atom_bounded (print : data_view2 → Option String)
    (s s1 : series_builder_impl) (self : field_ref) (value : atom_view)
    (hs : s.builder_.bounded)
    (hlive : s.builder_.live self.origin_.owner self.origin_.variant = true)
    (h : field_ref.atom print s self value = .ok s1) : s1.builder_.bounded := by
  simp only [field_ref.atom] at h
  split at h
  · simp only [except_bind_eq_ok] at h
    obtain ⟨⟨d, fields, valid, len, ka⟩, hg, h⟩ := h
    obtain ⟨hown, htyp⟩ := record_ref_get_ok s self.origin_ d fields valid len ka hg
    have hfb := record_fields_bounded s self.origin_ d fields valid len ka hs hown htyp
    cases hfind : fields_find fields self.name_ with
    | none =>
      simp only [hfind, except_pure_eq_ok] at h
      subst h; exact hs
    | some field =>
      simp only [hfind, except_bind_eq_ok, ensure_eq_ok] at h
      obtain ⟨_, _, h⟩ := h
      split at h
      · simp only [except_bind_eq_ok, ensure_eq_ok] at h
        obtain ⟨_, _, field1, hr, hset⟩ := h
        have hl := dynamic_builder_resize_length _ _ _ hr
        have hb1 : field1.bounded := dynamic_builder_resize_bounded _ _ _
          (fields_bounded_find len fields _ field hfb hfind).2 hr
        exact record_set_bounded s s1 self.origin_ d fields _ valid valid len ka ka hs hown
          htyp (fields_bounded_set len fields _ field1 hfb (by omega) hb1) hset
      · simp only [except_pure_eq_ok] at h
        subst h; exact hs
  · simp only [except_bind_eq_ok] at h
    obtain ⟨⟨d, fields, valid, len, ka⟩, hg, h⟩ := h
    obtain ⟨hown, htyp⟩ := record_ref_get_ok s self.origin_ d fields valid len ka hg
    have hfb := record_fields_bounded s self.origin_ d fields valid len ka hs hown htyp
    cases hfind : fields_find fields self.name_ with
    | none => simp [hfind] at h
    | some b =>
      simp only [hfind, except_bind_eq_ok, ensure_eq_ok] at h
      obtain ⟨_, _, builder, hb, s2, hset, h⟩ := h
      have hbl := dynamic_builder_resize_length _ _ _ hb
      have hbb : builder.bounded := dynamic_builder_resize_bounded _ _ _
        (fields_bounded_find len fields _ b hfb hfind).2 hb
      obtain ⟨hl2, hpos⟩ := record_set_live s s2 self.origin_ d fields _ valid valid len ka ka
        hlive hown htyp hset
      have h2b := record_set_bounded s s2 self.origin_ d fields _ valid valid len ka ka hs
        hown htyp (fields_bounded_set len fields _ builder hfb (by omega) hbb) hset
      have h2room := record_set_room s s2 self.origin_ d fields _ valid valid len ka ka
        self.name_ htyp
        (by
          intro f hm
          rw [fields_set_mem fields _ builder f hm]
          omega) hset
      exact dynamic_atom_bounded print s2 s1 _ value h2b
        (field_path_room print s2 self.origin_.owner self.origin_.variant self.name_ hl2
          h2room) h
  · simp only [except_bind_eq_ok] at h
    obtain ⟨⟨s2, path, variant⟩, hp, h⟩ := h
    have hpost := prepare_field_bounded print s s2 self.origin_ self.name_ _ path variant hs
      hlive hp
    exact append_atom_bounded s2 s1 path variant value hpost.1 hpost.2 h

theorem field_record_bounded (print : data_view2 → Option String)
    (s s1 : series_builder_impl) (self : field_ref) (r : record_ref)
    (hs : s.builder_.bounded)
    (hlive : s.builder_.live self.origin_.owner self.origin_.variant = true)
    (h : field_ref.record print s self = .ok (s1, r)) : s1.builder_.bounded := by
  simp only [field_ref.record, except_bind_eq_ok] at h
  obtain ⟨⟨s2, path, variant⟩, hp, h⟩ := h
  have hpost := prepare_field_bounded print s s2 self.origin_ self.name_ _ path variant hs
    hlive hp
  exact append_record_bounded s2 s1 path variant r hpost.1 hpost.2 h

theorem field_list_bounded (print : data_view2 → Option String)
    (s s1 : series_builder_impl) (self : field_ref) (r : builder_ref)
    (hs : s.builder_.bounded)
    (hlive : s.builder_.live self.origin_.owner self.origin_.variant = true)
    (h : field_ref.list print s self = .ok (s1, r)) : s1.builder_.bounded := by
  simp only [field_ref.list, except_bind_eq_ok] at h
  obtain ⟨⟨s2, path, variant⟩, hp, h⟩ := h
  have hpost := prepare_field_bounded print s s2 self.origin_ self.name_ _ path variant hs
    hlive hp
  exact append_list_bounded s2 s1 path variant r hpost.1 hpost.2 h
mutual
/-- A protected builder is empty and length-uniform directly after its
construction. -/
theorem protect_builder_bounded :
    (ty : tenzir.type) → ∀ (b : builder_base), protect_builder ty = .ok b →
      b.length = 0 ∧ b.bounded
  | .null => by
    intro b hp
    simp only [protect_builder, except_pure_eq_ok] at hp
    subst hp
    exact ⟨rfl, trivial⟩
  | .basic k => by
    intro b hp
    simp only [protect_builder, except_pure_eq_ok] at hp
    subst hp
    exact ⟨rfl, trivial⟩
  | .enumeration ls => by
    intro b hp
    simp only [protect_builder, except_pure_eq_ok] at hp
    subst hp
    exact ⟨rfl, trivial⟩
  | .list t => by
    intro b hp
    simp only [protect_builder, except_bind_eq_ok, except_pure_eq_ok] at hp
    obtain ⟨el, hel, hp⟩ := hp
    subst hp
    have ih := protect_builder_bounded t el hel
    refine ⟨rfl, ?_⟩
    simp only [builder_base.bounded, dynamic_builder.bounded]
    exact ih.2
  | .map _ _ => by intro b hp; simp [protect_builder] at hp
  | .record fs => by
    intro b hp
    simp only [protect_builder, except_bind_eq_ok, except_pure_eq_ok] at hp
    obtain ⟨fields, hf, hp⟩ := hp
    subst hp
    have ih := protect_fields_bounded fs [] fields (by simp only [fields_bounded]) hf
    refine ⟨rfl, ?_⟩
    simp only [builder_base.bounded]
    exact ih
  | .enriched _ _ nested => by
    intro b hp
    simp only [protect_builder] at hp
    exact protect_builder_bounded nested b hp
theorem protect_fields_bounded :
    (fs : List (String × tenzir.type)) → ∀ (done fields : List (String × dynamic_builder)),
      fields_bounded 0 done → protect_fields fs done = .ok fields → fields_bounded 0 fields
  | [] => by
    intro done fields hd hp
    simp only [protect_fields, except_pure_eq_ok] at hp
    subst hp
    exact hd
  | (name, field_ty) :: rest => by
    intro done fields hd hp
    simp only [protect_fields, except_bind_eq_ok, ensure_eq_ok] at hp
    obtain ⟨_, _, field, hf, hp⟩ := hp
    have ih := protect_builder_bounded field_ty field hf
    refine protect_fields_bounded rest _ fields ?_ hp
    apply fields_bounded_append 0 done name _ hd
    · simp only [dynamic_builder.length, dynamic_builder.builder_, ih.1]
      exact Nat.le_refl 0
    · simp only [dynamic_builder.bounded]
      exact ih.2
end

theorem series_builder_new_bounded (ty : Option tenzir.type)
    (s : series_builder_impl) (h : series_builder.new ty = .ok s) : s.builder_.bounded := by
  cases ty with
  | none =>
    simp only [series_builder.new, except_pure_eq_ok] at h
    subst h
    simp only [series_builder_impl.new, dynamic_builder.new, dynamic_builder.bounded,
      builder_base.bounded]
  | some ty =>
    simp only [series_builder.new, dynamic_builder.protect, except_bind_eq_ok,
      except_pure_eq_ok] at h
    obtain ⟨d, ⟨b, hb, hd⟩, h⟩ := h
    subst hd h
    simp only [dynamic_builder.bounded]
    exact (protect_builder_bounded ty b hb).2

theorem finish_bounded (print : data_view2 → Option String) (s s1 : series_builder_impl)
    (arrays : List typed_array) (hs : s.builder_.bounded)
    (h : s.finish print = .ok (arrays, s1)) : s1.builder_.bounded := by
  simp only [series_builder_impl.finish] at h
  split at h
  · simp only [except_bind_eq_ok, ensure_eq_ok, except_pure_eq_ok, Prod.mk.injEq] at h
    obtain ⟨⟨array, b1⟩, hf, _, _, _, h⟩ := h
    subst h
    exact dynamic_builder_finish_bounded print s.builder_ _ _ _ _ hs hf
  · simp only [except_pure_eq_ok, Prod.mk.injEq] at h
    obtain ⟨_, h⟩ := h
    subst h
    exact hs

theorem remove_last_bounded (s s1 : series_builder_impl) (hs : s.builder_.bounded)
    (h : s.remove_last = .ok s1) : s1.builder_.bounded := by
  simp only [series_builder_impl.remove_last] at h
  split at h
  · simp only [except_bind_eq_ok, except_pure_eq_ok] at h
    obtain ⟨b1, hr, h⟩ := h
    subst h
    exact dynamic_builder_resize_bounded s.builder_ _ b1 hs hr
  · simp only [except_pure_eq_ok] at h
    subst h
    exact hs

theorem root_room (print : data_view2 → Option String) (s : series_builder_impl)
    (path : builder_path)
    (hp : match path.getLast? with
      | some (.field _ _) => False
      | _ => True) :
    ∀ s2, (s2 = s ∨ s.finish_previous_events print (path == []) = .ok s2) →
      ∀ d, s2.get path = .ok d → s2.builder_.fits path (d.length + 1) := by
  intro s2 _ d _
  exact fits_of_not_field path s2.builder_ _ hp

/-- One call on a handle of the event in progress keeps length uniformity. -/
theorem call_run_bounded (print : data_view2 → Option String)
    (s s1 : series_builder_impl) (c : call) (hc : c.live s)
    (h : c.run print s = .ok s1) (hs : s.builder_.bounded) : s1.builder_.bounded := by
  cases c with
  | atom ref value =>
    cases ref with
    | series =>
      simp only [call.run, builder_ref.atom, series_builder.atom, series_builder_impl.atom,
        except_bind_eq_ok] at h
      obtain ⟨s2, hfc, h⟩ := h
      exact dynamic_atom_bounded print s2 s1 [] value
        (finish_if_conflict_bounded print s s2 hs hfc) (root_room print s2 [] trivial) h
    | dynamic path =>
      simp only [call.live, call.ref] at hc
      exact dynamic_atom_bounded print s s1 path value hs (root_room print s path hc) h
    | field f =>
      simp only [call.live, call.ref] at hc
      exact field_atom_bounded print s s1 f value hs hc h
  | record ref =>
    simp only [call.run, except_map_eq_ok] at h
    obtain ⟨⟨s2, r⟩, h, h1⟩ := h
    subst h1
    cases ref with
    | series =>
      simp only [builder_ref.record, series_builder.record, series_builder_impl.record,
        except_bind_eq_ok] at h
      obtain ⟨s3, hfc, h⟩ := h
      exact dynamic_record_bounded print s3 s2 [] r
        (finish_if_conflict_bounded print s s3 hs hfc) (root_room print s3 [] trivial) h
    | dynamic path =>
      simp only [call.live, call.ref] at hc
      exact dynamic_record_bounded print s s2 path r hs (root_room print s path hc) h
    | field f =>
      simp only [call.live, call.ref] at hc
      exact field_record_bounded print s s2 f r hs hc h
  | list ref =>
    simp only [call.run, except_map_eq_ok] at h
    obtain ⟨⟨s2, r⟩, h, h1⟩ := h
    subst h1
    cases ref with
    | series =>
      simp only [builder_ref.list, series_builder.list, series_builder_impl.list,
        except_bind_eq_ok] at h
      obtain ⟨s3, hfc, h⟩ := h
      exact dynamic_list_bounded print s3 s2 [] r
        (finish_if_conflict_bounded print s s3 hs hfc) (root_room print s3 [] trivial) h
    | dynamic path =>
      simp only [call.live, call.ref] at hc
      exact dynamic_list_bounded print s s2 path r hs (root_room print s path hc) h
    | field f =>
      simp only [call.live, call.ref] at hc
      exact field_list_bounded print s s2 f r hs hc h
  | remove_last => exact remove_last_bounded s s1 hs h
  | finish =>
    simp only [call.run, except_map_eq_ok] at h
    obtain ⟨⟨arrays, s2⟩, h, h1⟩ := h
    subst h1
    exact finish_bounded print s s2 arrays hs h

theorem run_all_bounded (print : data_view2 → Option String) (calls : List call) :
    ∀ (s s1 : series_builder_impl), handles_live print s calls →
      run_all print s calls = .ok s1 → s.builder_.bounded → s1.builder_.bounded := by
  induction calls with
  | nil =>
    intro s s1 _ h hs
    simp only [run_all, List.foldlM_nil, except_pure_eq_ok] at h
    subst h; exact hs
  | cons c rest ih =>
    intro s s1 hg h hs
    simp only [run_all, List.foldlM_cons, except_bind_eq_ok] at h
    obtain ⟨s2, hc, h⟩ := h
    simp only [handles_live, hc] at hg
    exact ih s2 s1 hg.2 h (call_run_bounded print s s2 c hg.1 hc hs)
/-- C31: a series, new or protected, and any sequence of calls (writes through
the series or through handles, `remove_last()`, `finish()`) in which every
call through a handle is made on a handle of the event in progress: a pointer
to a dynamic builder is the root builder or the elements of a list, and the
record builder of a field handle holds a row, as does every builder on the
way down to it, each for the last row of its owner. When the calls return,
every record builder in the builder tree, at any depth and also inside list
elements and conflict variants, has no field longer than itself. -/
theorem record_builders_stay_length_uniform (print : data_view2 → Option String)
    (ty : Option tenzir.type) (calls : List call) (s0 s : series_builder_impl)
    (hnew : series_builder.new ty = .ok s0)
    (hguard : handles_live print s0 calls)
    (hrun : run_all print s0 calls = .ok s) : s.builder_.bounded :=
  run_all_bounded print calls s0 s hguard hrun (series_builder_new_bounded ty s0 hnew)

/-- The event `{a: 1}` is opened on a fresh series. -/
theorem nested_cut_step1 (print : data_view2 → Option String) :
    call.run print
      series_builder_impl.new
      (.record .series)
      = .ok ⟨(.mk (.record [] [] 1 none) false .null), [], false⟩ := rfl

/-- The field `a` of the first event gets 1. -/
theorem nested_cut_step2 (print : data_view2 → Option String) :
    call.run print
      ⟨(.mk (.record [] [] 1 none) false .null), [], false⟩
      (.atom (.field ⟨⟨[], none⟩, "a"⟩) (.int64 1))
      = .ok ⟨(.mk (.record [("a", (.mk (.atom (.basic (.int64)) [some (.int64 1)]) false .null))]
      [] 1 none) false .null), [], false⟩ := rfl

/-- The second event is opened. -/
theorem nested_cut_step3 (print : data_view2 → Option String) :
    call.run print
      ⟨(.mk (.record [("a", (.mk (.atom (.basic (.int64)) [some (.int64 1)]) false .null))]
      [] 1 none) false .null), [], false⟩
      (.record .series)
      = .ok ⟨(.mk (.record [("a", (.mk (.atom (.basic (.int64)) [some (.int64 1)]) false .null))]
      [] 2 none) false .null), [], false⟩ := rfl

/-- The field `r` of the second event gets a record. -/
theorem nested_cut_step4 (print : data_view2 → Option String) :
    call.run print
      ⟨(.mk (.record [("a", (.mk (.atom (.basic (.int64)) [some (.int64 1)]) false .null))]
      [] 2 none) false .null), [], false⟩
      (.record (.field ⟨⟨[], none⟩, "r"⟩))
      = .ok ⟨(.mk (.record [("a", (.mk (.atom (.basic (.int64)) [some (.int64 1)]) false .null)),
      ("r", (.mk (.record [] [false] 2 none) false .null))] [] 2 none) false .null), [], false⟩ := rfl

/-- The field `b` of that record gets 2. -/
theorem nested_cut_step5 (print : data_view2 → Option String) :
    call.run print
      ⟨(.mk (.record [("a", (.mk (.atom (.basic (.int64)) [some (.int64 1)]) false .null)), ("r",
      (.mk (.record [] [false] 2 none) false .null))] [] 2 none) false .null), [], false⟩
      (.atom (.field ⟨⟨[.field none "r"], none⟩, "b"⟩) (.int64 2))
      = .ok ⟨(.mk (.record [("a", (.mk (.atom (.basic (.int64)) [some (.int64 1)]) false .null)),
      ("r", (.mk (.record [("b", (.mk (.atom (.basic (.int64)) [none, some
      (.int64 2)]) false .null))] [false] 2 none) false .null))] [] 2 none) false .null),
      [], false⟩ := rfl

/-- The field `b` gets a string instead: the first event is cut off as a batch. -/
theorem nested_cut_step6 (print : data_view2 → Option String) :
    call.run print
      ⟨(.mk (.record [("a", (.mk (.atom (.basic (.int64)) [some (.int64 1)]) false .null)), ("r",
      (.mk (.record [("b", (.mk (.atom (.basic (.int64)) [none, some (.int64 2)]) false .null))]
      [false] 2 none) false .null))] [] 2 none) false .null), [], false⟩
      (.atom (.field ⟨⟨[.field none "r"], none⟩, "b"⟩) (.string "x"))
      = .ok ⟨(.mk (.record [("r", (.mk (.record [("b", (.mk (.atom (.basic (.string)) [some
      (.string "x")]) false .null))] [] 1 none) false .null))] [] 1 none) false .null),
      [⟨(tenzir.type.record [("a", (.basic .int64)), ("r", (tenzir.type.record [("b",
      (.basic .int64))]))]), (.struct 1 [(.primitive [some (.int64 1)]), (.struct 1 [(.primitive
      [none])] (some [false]))] none)⟩], false⟩ := rfl

/-- The field `l` of the second event gets a list. -/
theorem nested_cut_step7 (print : data_view2 → Option String) :
    call.run print
      ⟨(.mk (.record [("r", (.mk (.record [("b", (.mk (.atom (.basic (.string)) [some
      (.string "x")]) false .null))] [] 1 none) false .null))] [] 1 none) false .null),
      [⟨(tenzir.type.record [("a", (.basic .int64)), ("r", (tenzir.type.record [("b",
      (.basic .int64))]))]), (.struct 1 [(.primitive [some (.int64 1)]), (.struct 1 [(.primitive
      [none])] (some [false]))] none)⟩], false⟩
      (.list (.field ⟨⟨[], none⟩, "l"⟩))
      = .ok ⟨(.mk (.record [("r", (.mk (.record [("b", (.mk (.atom (.basic (.string)) [some
      (.string "x")]) false .null))] [] 1 none) false .null)), ("l", (.mk (.list [(0, true)] (.mk
      (.null 0) false .null)) false .null))] [] 1 none) false .null), [⟨(tenzir.type.record [("a",
      (.basic .int64)), ("r", (tenzir.type.record [("b", (.basic .int64))]))]), (.struct 1
      [(.primitive [some (.int64 1)]), (.struct 1 [(.primitive [none])] (some
      [false]))] none)⟩], false⟩ := rfl

/-- The list gets a record. -/
theorem nested_cut_step8 (print : data_view2 → Option String) :
    call.run print
      ⟨(.mk (.record [("r", (.mk (.record [("b", (.mk (.atom (.basic (.string)) [some
      (.string "x")]) false .null))] [] 1 none) false .null)), ("l", (.mk (.list [(0, true)] (.mk
      (.null 0) false .null)) false .null))] [] 1 none) false .null), [⟨(tenzir.type.record [("a",
      (.basic .int64)), ("r", (tenzir.type.record [("b", (.basic .int64))]))]), (.struct 1
      [(.primitive [some (.int64 1)]), (.struct 1 [(.primitive [none])] (some
      [false]))] none)⟩], false⟩
      (.record (.dynamic [.field none "l", .elements none]))
      = .ok ⟨(.mk (.record [("r", (.mk (.record [("b", (.mk (.atom (.basic (.string)) [some
      (.string "x")]) false .null))] [] 1 none) false .null)), ("l", (.mk (.list [(0, true)] (.mk
      (.record [] [] 1 none) false .null)) false .null))] [] 1 none) false .null),
      [⟨(tenzir.type.record [("a", (.basic .int64)), ("r", (tenzir.type.record [("b",
      (.basic .int64))]))]), (.struct 1 [(.primitive [some (.int64 1)]), (.struct 1 [(.primitive
      [none])] (some [false]))] none)⟩], false⟩ := rfl

/-- The field `c` of that record gets 3. -/
theorem nested_cut_step9 (print : data_view2 → Option String) :
    call.run print
      ⟨(.mk (.record [("r", (.mk (.record [("b", (.mk (.atom (.basic (.string)) [some
      (.string "x")]) false .null))] [] 1 none) false .null)), ("l", (.mk (.list [(0, true)] (.mk
      (.record [] [] 1 none) false .null)) false .null))] [] 1 none) false .null),
      [⟨(tenzir.type.record [("a", (.basic .int64)), ("r", (tenzir.type.record [("b",
      (.basic .int64))]))]), (.struct 1 [(.primitive [some (.int64 1)]), (.struct 1 [(.primitive
      [none])] (some [false]))] none)⟩], false⟩
      (.atom (.field ⟨⟨[.field none "l", .elements none], none⟩, "c"⟩) (.int64 3))
      = .ok ⟨(.mk (.record [("r", (.mk (.record [("b", (.mk (.atom (.basic (.string)) [some
      (.string "x")]) false .null))] [] 1 none) false .null)), ("l", (.mk (.list [(0, true)] (.mk
      (.record [("c", (.mk (.atom (.basic (.int64)) [some (.int64 3)]) false .null))]
      [] 1 none) false .null)) false .null))] [] 1 none) false .null), [⟨(tenzir.type.record
      [("a", (.basic .int64)), ("r", (tenzir.type.record [("b", (.basic .int64))]))]), (.struct 1
      [(.primitive [some (.int64 1)]), (.struct 1 [(.primitive [none])] (some
      [false]))] none)⟩], false⟩ := rfl

/-- The field `c` is reset to null. -/
theorem nested_cut_step10 (print : data_view2 → Option String) :
    call.run print
      ⟨(.mk (.record [("r", (.mk (.record [("b", (.mk (.atom (.basic (.string)) [some
      (.string "x")]) false .null))] [] 1 none) false .null)), ("l", (.mk (.list [(0, true)] (.mk
      (.record [("c", (.mk (.atom (.basic (.int64)) [some (.int64 3)]) false .null))]
      [] 1 none) false .null)) false .null))] [] 1 none) false .null), [⟨(tenzir.type.record
      [("a", (.basic .int64)), ("r", (tenzir.type.record [("b", (.basic .int64))]))]), (.struct 1
      [(.primitive [some (.int64 1)]), (.struct 1 [(.primitive [none])] (some
      [false]))] none)⟩], false⟩
      (.atom (.field ⟨⟨[.field none "l", .elements none], none⟩, "c"⟩) .null)
      = .ok ⟨(.mk (.record [("r", (.mk (.record [("b", (.mk (.atom (.basic (.string)) [some
      (.string "x")]) false .null))] [] 1 none) false .null)), ("l", (.mk (.list [(0, true)] (.mk
      (.record [("c", (.mk (.atom (.basic (.int64)) []) false .null))]
      [] 1 none) false .null)) false .null))] [] 1 none) false .null), [⟨(tenzir.type.record
      [("a", (.basic .int64)), ("r", (tenzir.type.record [("b", (.basic .int64))]))]), (.struct 1
      [(.primitive [some (.int64 1)]), (.struct 1 [(.primitive [none])] (some
      [false]))] none)⟩], false⟩ := rfl

theorem record_builders_stay_length_uniform_witness :
    ((⟨(.mk (.record [("r", (.mk (.record [("b", (.mk (.atom (.basic (.string)) [some
      (.string "x")]) false .null))] [] 1 none) false .null)), ("l", (.mk (.list [(0, true)] (.mk
      (.record [("c", (.mk (.atom (.basic (.int64)) []) false .null))]
      [] 1 none) false .null)) false .null))] [] 1 none) false .null), [⟨(tenzir.type.record
      [("a", (.basic .int64)), ("r", (tenzir.type.record [("b", (.basic .int64))]))]), (.struct 1
      [(.primitive [some (.int64 1)]), (.struct 1 [(.primitive [none])] (some
      [false]))] none)⟩], false⟩ : series_builder_impl)).builder_.bounded :=
  record_builders_stay_length_uniform (fun _ => none) none
    [.record .series,
     .atom (.field ⟨⟨[], none⟩, "a"⟩) (.int64 1),
     .record .series,
     .record (.field ⟨⟨[], none⟩, "r"⟩),
     .atom (.field ⟨⟨[.field none "r"], none⟩, "b"⟩) (.int64 2),
     .atom (.field ⟨⟨[.field none "r"], none⟩, "b"⟩) (.string "x"),
     .list (.field ⟨⟨[], none⟩, "l"⟩),
     .record (.dynamic [.field none "l", .elements none]),
     .atom (.field ⟨⟨[.field none "l", .elements none], none⟩, "c"⟩) (.int64 3),
     .atom (.field ⟨⟨[.field none "l", .elements none], none⟩, "c"⟩) .null]
    series_builder_impl.new
    ⟨(.mk (.record [("r", (.mk (.record [("b", (.mk (.atom (.basic (.string)) [some
    (.string "x")]) false .null))] [] 1 none) false .null)), ("l", (.mk (.list [(0, true)] (.mk
    (.record [("c", (.mk (.atom (.basic (.int64)) []) false .null))]
    [] 1 none) false .null)) false .null))] [] 1 none) false .null), [⟨(tenzir.type.record
    [("a", (.basic .int64)), ("r", (tenzir.type.record [("b", (.basic .int64))]))]), (.struct 1
    [(.primitive [some (.int64 1)]), (.struct 1 [(.primitive [none])] (some
    [false]))] none)⟩], false⟩
    rfl
    (by
      simp only [handles_live, except_bind_ok,
        nested_cut_step1 (fun _ => none),
        nested_cut_step2 (fun _ => none),
        nested_cut_step3 (fun _ => none),
        nested_cut_step4 (fun _ => none),
        nested_cut_step5 (fun _ => none),
        nested_cut_step6 (fun _ => none),
        nested_cut_step7 (fun _ => none),
        nested_cut_step8 (fun _ => none),
        nested_cut_step9 (fun _ => none),
        nested_cut_step10 (fun _ => none)]
      simp only [call.live, call.ref]
      repeat' apply And.intro
      all_goals first | rfl | exact True.intro)
    (by
      simp only [run_all, List.foldlM_cons, List.foldlM_nil, except_bind_ok,
        nested_cut_step1 (fun _ => none),
        nested_cut_step2 (fun _ => none),
        nested_cut_step3 (fun _ => none),
        nested_cut_step4 (fun _ => none),
        nested_cut_step5 (fun _ => none),
        nested_cut_step6 (fun _ => none),
        nested_cut_step7 (fun _ => none),
        nested_cut_step8 (fun _ => none),
        nested_cut_step9 (fun _ => none),
        nested_cut_step10 (fun _ => none)]
      rfl)
/-! ## Sound list offsets -/

theorem offsets_chain_single (f : Bool) : offsets_chain [(0, f)] := by
  refine ⟨?_, List.chain'_singleton _⟩
  intro o ho
  simp only [List.head?_cons, Option.some.injEq] at ho
  subst ho
  rfl

/-- The validity of the last offset does not matter. -/
theorem offsets_chain_flag (l : List (Nat × Bool)) (n : Nat) (f g : Bool)
    (h : offsets_chain (l ++ [(n, f)])) : offsets_chain (l ++ [(n, g)]) := by
  obtain ⟨hh, hc⟩ := h
  refine ⟨?_, ?_⟩
  · intro o ho
    cases l with
    | nil =>
      simp only [List.nil_append, List.head?_cons, Option.some.injEq] at ho
      subst ho
      exact hh (n, f) rfl
    | cons a rest =>
      simp only [List.cons_append, List.head?_cons, Option.some.injEq] at ho
      subst ho
      exact hh _ rfl
  · rw [List.chain'_append] at hc ⊢
    refine ⟨hc.1, List.chain'_singleton _, ?_⟩
    intro x hx y hy
    simp only [List.head?_cons, Option.mem_def, Option.some.injEq] at hy
    subst hy
    exact hc.2.2 x hx (n, f) rfl

theorem offsets_chain_take (l : List (Nat × Bool)) (k : Nat) (h : offsets_chain l) :
    offsets_chain (l.take k) := by
  obtain ⟨hh, hc⟩ := h
  refine ⟨?_, hc.take k⟩
  intro o ho
  cases k with
  | zero => simp at ho
  | succ k =>
    cases l with
    | nil => simp at ho
    | cons a rest =>
      simp only [List.take_succ_cons, List.head?_cons, Option.some.injEq] at ho
      subst ho
      exact hh _ rfl

/-- One more offset at the end of the elements keeps the offsets sound. -/
theorem offsets_chain_append (l : List (Nat × Bool)) (n : Nat) (f f1 f2 : Bool)
    (h : offsets_chain (l ++ [(n, f)])) : offsets_chain (l ++ [(n, f1)] ++ [(n, f2)]) := by
  have h1 := offsets_chain_flag l n f f1 h
  obtain ⟨hh, hc⟩ := h1
  refine ⟨?_, ?_⟩
  · intro o ho
    apply hh o
    cases l with
    | nil => exact ho
    | cons a rest => exact ho
  · rw [List.chain'_append]
    refine ⟨hc, List.chain'_singleton _, ?_⟩
    intro x hx y hy
    have hx2 : x = (n, f1) := by
      have : (l ++ [(n, f1)]).getLast? = some (n, f1) := List.getLast?_concat l
      simp only [Option.mem_def] at hx
      rw [this] at hx
      exact (Option.some.inj hx).symm
    simp only [List.head?_cons, Option.mem_def, Option.some.injEq] at hy
    subst hx2 hy
    exact ⟨Nat.le_refl n, fun _ => rfl⟩

/-- Null lists at the end of a list builder keep the offsets sound. -/
theorem offsets_chain_nulls (l : List (Nat × Bool)) (n : Nat) (g : Nat)
    (h : offsets_chain (l ++ [(n, true)])) :
    offsets_chain (l ++ List.replicate g (n, false) ++ [(n, true)]) := by
  induction g generalizing l with
  | zero => simpa using h
  | succ g ih =>
    have h1 := offsets_chain_append l n true false true h
    have h2 := ih (l ++ [(n, false)]) h1
    rw [List.replicate_succ]
    simpa [List.append_assoc] using h2

/-- No offset of a list builder lies behind the end of the elements. -/
theorem offsets_chain_le_last (l : List (Nat × Bool)) (n : Nat) (f : Bool)
    (h : offsets_chain (l ++ [(n, f)])) : ∀ o ∈ l, o.1 ≤ n := by
  obtain ⟨_, hc⟩ := h
  have hm : List.Chain' (fun (a b : Nat × Bool) => a.1 ≤ b.1) (l ++ [(n, f)]) :=
    hc.imp (fun _ _ hab => hab.1)
  have hp : List.Pairwise (fun (a b : Nat × Bool) => a.1 ≤ b.1) (l ++ [(n, f)]) := by
    haveI : IsTrans (Nat × Bool) (fun a b => a.1 ≤ b.1) := ⟨fun _ _ _ h1 h2 => Nat.le_trans h1 h2⟩
    exact List.chain'_iff_pairwise.mp hm
  rw [List.pairwise_append] at hp
  intro o ho
  exact hp.2.2 o ho (n, f) (List.mem_singleton.mpr rfl)

/-- The elements may grow behind a last list that is not null. -/
theorem offsets_chain_grow (l : List (Nat × Bool)) (n m : Nat)
    (h : offsets_chain (l ++ [(n, true)])) (hlast : ∃ o, l.getLast? = some (o, true))
    (hm : n ≤ m) : offsets_chain (l ++ [(m, true)]) := by
  obtain ⟨hh, hc⟩ := h
  obtain ⟨o, ho⟩ := hlast
  refine ⟨?_, ?_⟩
  · intro x hx
    cases l with
    | nil => simp at ho
    | cons a rest =>
      simp only [List.cons_append, List.head?_cons, Option.some.injEq] at hx
      subst hx
      exact hh _ rfl
  · rw [List.chain'_append] at hc ⊢
    refine ⟨hc.1, List.chain'_singleton _, ?_⟩
    intro x hx y hy
    simp only [List.head?_cons, Option.mem_def, Option.some.injEq] at hy
    subst hy
    have hx2 : x = (o, true) := by
      simp only [Option.mem_def] at hx
      rw [ho] at hx
      exact (Option.some.inj hx).symm
    subst hx2
    have := hc.2.2 (o, true) hx (n, true) rfl
    exact ⟨Nat.le_trans this.1 hm, fun hf => by cases hf⟩
/-- On sound offsets that end in a valid one, the cleaning of
`ListArray::FromArrays` keeps every offset. -/
theorem clean_offsets (l : List (Nat × Bool))
    (hc : List.Chain' (fun (a b : Nat × Bool) => a.1 ≤ b.1 ∧ (a.2 = false → a.1 = b.1)) l)
    (hlast : ∃ o, l.getLast? = some (o, true)) :
    l.foldr (fun o cleaned => (if o.2 then o.1 else cleaned.headD o.1) :: cleaned) []
      = l.map Prod.fst := by
  induction l with
  | nil => rfl
  | cons a rest ih =>
    cases rest with
    | nil =>
      obtain ⟨o, ho⟩ := hlast
      simp only [List.getLast?_singleton, Option.some.injEq] at ho
      subst ho
      rfl
    | cons b r =>
      have hrest := ih (List.Chain'.tail hc) (by
        obtain ⟨o, ho⟩ := hlast
        exact ⟨o, by rw [List.getLast?_cons_cons] at ho; exact ho⟩)
      have hab := List.Chain'.rel_head hc
      rw [List.foldr_cons, hrest]
      simp only [List.map_cons, List.headD_cons, List.cons.injEq, and_true]
      cases ha : a.2 with
      | true => simp
      | false =>
        simp only [Bool.false_eq_true, if_false]
        exact (hab.2 ha).symm

/-- The offsets that a cut keeps, moved to begin at 0, are sound. -/
theorem offsets_chain_shift (l : List (Nat × Bool)) (k : Nat) (h : offsets_chain l)
    (hk : k < l.length) :
    offsets_chain ((l.drop k).map (fun o => (o.1 - (l.getD k (0, false)).1, true))) := by
  obtain ⟨_, hc⟩ := h
  refine ⟨?_, ?_⟩
  · intro o ho
    have hd : l.drop k = l.get ⟨k, hk⟩ :: l.drop (k + 1) := List.drop_eq_getElem_cons hk
    rw [hd] at ho
    simp only [List.map_cons, List.head?_cons, Option.some.injEq] at ho
    subst ho
    have hg : l.getD k (0, false) = l.get ⟨k, hk⟩ := by
      rw [List.getD_eq_getElem?_getD, List.getElem?_eq_getElem hk]
      rfl
    rw [hg]
    exact Nat.sub_self _
  · rw [List.chain'_map]
    refine (hc.drop k).imp ?_
    intro a b hab
    exact ⟨Nat.sub_le_sub_right hab.1 _, fun hf => by cases hf⟩

theorem offsets_chain_getD_le (l : List (Nat × Bool)) (n k : Nat)
    (h : offsets_chain (l ++ [(n, true)])) :
    ((l ++ [(n, true)]).getD k (0, false)).1 ≤ n := by
  rcases Nat.lt_or_ge k l.length with hk | hk
  · have hg : (l ++ [(n, true)]).getD k (0, false) = l.get ⟨k, hk⟩ := by
      rw [List.getD_eq_getElem?_getD, List.getElem?_append_left hk,
        List.getElem?_eq_getElem hk]
      rfl
    rw [hg]
    exact offsets_chain_le_last l n true h _ (List.get_mem l k hk)
  · rcases Nat.eq_or_lt_of_le hk with hk | hk
    · have hg : (l ++ [(n, true)]).getD k (0, false) = (n, true) := by
        rw [List.getD_eq_getElem?_getD, ← hk, List.getElem?_concat_length]
        rfl
      rw [hg]
    · have hg : (l ++ [(n, true)]).getD k (0, false) = (0, false) := by
        rw [List.getD_eq_getElem?_getD, List.getElem?_eq_none]
        · rfl
        · simp only [List.length_append, List.length_singleton]
          omega
      rw [hg]
      exact Nat.zero_le n

/-- The list array that `ListArray::FromArrays` builds from sound offsets has
sound offsets when the values have as many elements as the last offset says. -/
theorem from_arrays_sound (line : Nat) (l : List (Nat × Bool)) (values result : arrow_array)
    (hl : offsets_chain l) (hv : values.offsets_sound)
    (hlen : ∀ o, l.getLast? = some o → o.1 = values.length)
    (h : from_arrays line l values = .ok result) : result.offsets_sound := by
  simp only [from_arrays] at h
  cases hlast : l.getLast? with
  | none => simp [hlast] at h
  | some last =>
    simp only [hlast] at h
    split at h
    · simp at h
    · rename_i hflag
      simp only [except_pure_eq_ok] at h
      subst h
      obtain ⟨n, f⟩ := last
      have hf : f = true := by simpa using hflag
      subst hf
      rw [clean_offsets l hl.2 ⟨n, hlast⟩]
      have hne : l ≠ [] := by
        intro he
        subst he
        simp at hlast
      simp only [arrow_array.offsets_sound]
      refine ⟨?_, ?_, ?_, ?_, hv⟩
      · simp only [List.length_map, List.length_dropLast]
        have : 0 < l.length := List.length_pos.mpr hne
        omega
      · cases l with
        | nil => exact absurd rfl hne
        | cons a rest =>
          simp only [List.map_cons, List.head?_cons, Option.some.injEq]
          exact hl.1 a rfl
      · rw [List.chain'_map]
        exact hl.2.imp (fun _ _ hab => hab.1)
      · rw [List.getLast?_map, hlast]
        simp only [Option.map_some', Option.some.injEq]
        exact hlen (n, true) hlast
/-- The offsets that a shrinking `resize` keeps, followed by the offset of the
first list it drops, are sound. -/
theorem offsets_chain_shrink (l : List (Nat × Bool)) (n k : Nat)
    (h : offsets_chain (l ++ [(n, true)])) (hk : k < l.length) :
    offsets_chain (l.take k ++ [((l.getD k (0, false)).1, true)]) := by
  have h1 := offsets_chain_take _ (k + 1) h
  rw [List.take_append_of_le_length (by omega)] at h1
  have h2 : l.take (k + 1) = l.take k ++ [l.get ⟨k, hk⟩] := by
    rw [List.take_succ, List.getElem?_eq_getElem hk]
    rfl
  have hg : l.getD k (0, false) = l.get ⟨k, hk⟩ := by
    rw [List.getD_eq_getElem?_getD, List.getElem?_eq_getElem hk]
    rfl
  rw [h2] at h1
  rw [hg]
  exact offsets_chain_flag _ _ (l.get ⟨k, hk⟩).2 true h1

mutual
/-- The method `resize` keeps the offsets of every list builder sound. -/
theorem builder_base_resize_lists_sound : (b : builder_base) →
    ∀ (n : Nat) (b1 : builder_base), b.lists_sound → b.resize n = .ok b1 → b1.lists_sound
  | .null _ => by
    intro n b1 _ h
    simp only [builder_base.resize, except_pure_eq_ok] at h
    subst h
    simp only [builder_base.lists_sound]
  | .atom t inner => by
    intro n b1 _ h
    simp only [builder_base.resize] at h
    split at h
    · simp only [except_pure_eq_ok] at h
      subst h; simp only [builder_base.lists_sound]
    · split at h
      · simp only [except_pure_eq_ok] at h
        subst h; simp only [builder_base.lists_sound]
      · simp only [except_pure_eq_ok] at h
        subst h; simp only [builder_base.lists_sound]
  | .list offsets elements => by
    intro n b1 hb h
    simp only [builder_base.lists_sound] at hb
    simp only [builder_base.resize] at h
    split at h
    · rename_i hlt
      simp only [except_bind_eq_ok, except_pure_eq_ok] at h
      obtain ⟨e1, he, h⟩ := h
      subst h
      simp only [builder_base.lists_sound]
      refine ⟨?_, dynamic_builder_resize_lists_sound elements _ e1 hb.2 he⟩
      rw [dynamic_builder_resize_length _ _ _ he]
      exact offsets_chain_shrink offsets _ n hb.1 hlt
    · split at h
      · simp only [except_pure_eq_ok] at h
        subst h
        simp only [builder_base.lists_sound]
        exact ⟨offsets_chain_nulls offsets _ _ hb.1, hb.2⟩
      · simp only [except_pure_eq_ok] at h
        subst h; simp only [builder_base.lists_sound]; exact hb
  | .record fields valid len ka => by
    intro n b1 hb h
    simp only [builder_base.lists_sound] at hb
    simp only [builder_base.resize] at h
    split at h
    · simp only [except_bind_eq_ok, except_pure_eq_ok] at h
      obtain ⟨f1, hf, h⟩ := h
      subst h
      simp only [builder_base.lists_sound]
      exact resize_fields_lists_sound fields n f1 hb hf
    · split at h
      · simp only [except_pure_eq_ok] at h
        subst h
        simp only [builder_base.lists_sound]
        exact hb
      · simp only [except_pure_eq_ok] at h
        subst h
        simp only [builder_base.lists_sound]
        exact hb
  | .conflict ds [] => by
    intro n b1 hb h
    simp only [builder_base.resize] at h
    split at h
    · simp at h
    · split at h
      · simp at h
      · simp only [except_pure_eq_ok] at h
        subst h; exact hb
  | .conflict ds (v0 :: rest) => by
    intro n b1 hb h
    simp only [builder_base.lists_sound, variants_lists_sound] at hb
    simp only [builder_base.resize] at h
    split at h
    · simp only [except_bind_eq_ok, except_pure_eq_ok] at h
      obtain ⟨v1, hv, h⟩ := h
      subst h
      simp only [builder_base.lists_sound, variants_lists_sound]
      exact ⟨builder_base_resize_lists_sound v0 _ v1 hb.1 hv, hb.2⟩
    · split at h
      · simp at h
      · simp only [except_pure_eq_ok] at h
        subst h
        simp only [builder_base.lists_sound, variants_lists_sound]
        exact hb
/-- The method `dynamic_builder::resize` keeps the offsets of every list builder
sound. -/
theorem dynamic_builder_resize_lists_sound : (d : dynamic_builder) →
    ∀ (n : Nat) (d1 : dynamic_builder), d.lists_sound → d.resize n = .ok d1 → d1.lists_sound
  | .mk b p m => by
    intro n d1 hd h
    simp only [dynamic_builder.lists_sound] at hd
    simp only [dynamic_builder.resize, except_bind_eq_ok, except_pure_eq_ok] at h
    obtain ⟨b1, hb, h⟩ := h
    subst h
    simp only [dynamic_builder.lists_sound]
    exact builder_base_resize_lists_sound b n b1 hd hb
/-- The loop of the record `resize` keeps the offsets of every list builder
sound. -/
theorem resize_fields_lists_sound : (fields : List (String × dynamic_builder)) →
    ∀ (n : Nat) (fields1 : List (String × dynamic_builder)), fields_lists_sound fields →
      resize_fields fields n = .ok fields1 → fields_lists_sound fields1
  | [] => by
    intro n fields1 _ h
    simp only [resize_fields, except_pure_eq_ok] at h
    subst h
    simp only [fields_lists_sound]
  | (name, builder) :: rest => by
    intro n fields1 hf h
    simp only [fields_lists_sound] at hf
    simp only [resize_fields, except_bind_eq_ok, except_pure_eq_ok] at h
    obtain ⟨b1, hb, r1, hr, h⟩ := h
    subst h
    simp only [fields_lists_sound]
    refine ⟨?_, resize_fields_lists_sound rest n r1 hf.2 hr⟩
    split at hb
    · exact dynamic_builder_resize_lists_sound builder n b1 hf.1 hb
    · simp only [except_pure_eq_ok] at hb
      subst hb
      exact hf.1
end
theorem take_succ_getLast (l : List (Nat × Bool)) (k : Nat) (hk : k < l.length) :
    (l.take (k + 1)).getLast? = some (l.getD k (0, false)) := by
  have h2 : l.take (k + 1) = l.take k ++ [l.get ⟨k, hk⟩] := by
    rw [List.take_succ, List.getElem?_eq_getElem hk]
    rfl
  have hg : l.getD k (0, false) = l.get ⟨k, hk⟩ := by
    rw [List.getD_eq_getElem?_getD, List.getElem?_eq_getElem hk]
    rfl
  rw [h2, hg]
  exact List.getLast?_concat _

/-- The offsets that the list `finish_and_leave` leaves in the builder, followed
by the count of the elements it leaves, are sound. -/
theorem list_cut_offsets (offs : List (Nat × Bool)) (n count : Nat)
    (hc : count ≤ offs.length) (h : offsets_chain (offs ++ [(n, true)])) :
    offsets_chain
      ((((offs ++ [(n, true)]).drop (offs.length - count)).take count).map
          (fun o => (o.1 - ((offs ++ [(n, true)]).getD (offs.length - count) (0, false)).1, true))
        ++ [(n - ((offs ++ [(n, true)]).getD (offs.length - count) (0, false)).1, true)]) := by
  have hlt : offs.length - count < (offs ++ [(n, true)]).length := by
    simp only [List.length_append, List.length_singleton]
    omega
  have hs := offsets_chain_shift (offs ++ [(n, true)]) (offs.length - count) h hlt
  have hd : (offs ++ [(n, true)]).drop (offs.length - count)
      = offs.drop (offs.length - count) ++ [(n, true)] :=
    List.drop_append_of_le_length (by omega)
  have ht : (offs.drop (offs.length - count) ++ [(n, true)]).take count
      = offs.drop (offs.length - count) := by
    rw [List.take_append_of_le_length (by simp only [List.length_drop]; omega)]
    exact List.take_of_length_le (by simp only [List.length_drop]; omega)
  rw [hd] at hs ⊢
  rw [ht]
  simpa only [List.map_append, List.map_cons, List.map_nil] using hs

mutual
theorem make_empty_array_sound : (ty : tenzir.type) → ty.make_empty_array.offsets_sound
  | .null => by simp [type.make_empty_array, arrow_array.offsets_sound]
  | .basic _ => by simp [type.make_empty_array, arrow_array.offsets_sound]
  | .enumeration _ => by simp [type.make_empty_array, arrow_array.offsets_sound]
  | .list t => by
    simp only [type.make_empty_array, arrow_array.offsets_sound, type_make_empty_array_length]
    exact ⟨rfl, rfl, List.chain'_singleton _, rfl, make_empty_array_sound t⟩
  | .map k v => by
    simp only [type.make_empty_array, arrow_array.offsets_sound, children_offsets_sound]
    exact ⟨rfl, rfl, List.chain'_singleton _, rfl,
      make_empty_array_sound k, make_empty_array_sound v, trivial⟩
  | .record fs => by
    simp only [type.make_empty_array, arrow_array.offsets_sound]
    exact make_empty_arrays_sound fs
  | .enriched _ _ t => by
    simp only [type.make_empty_array]
    exact make_empty_array_sound t
theorem make_empty_arrays_sound :
    (fs : List (String × tenzir.type)) → children_offsets_sound (make_empty_arrays fs)
  | [] => by simp [make_empty_arrays, children_offsets_sound]
  | (_, t) :: rest => by
    simp only [make_empty_arrays, children_offsets_sound]
    exact ⟨make_empty_array_sound t, make_empty_arrays_sound rest⟩
end

mutual
/-- On a builder with sound list offsets, the array that `finish_and_leave`
returns has sound list offsets, and so has the builder it leaves behind. -/
theorem builder_base_finish_lists_sound (print : data_view2 → Option String) :
    (b : builder_base) → ∀ (grow count : Nat) (a : typed_array) (b1 : builder_base),
      b.lists_sound → b.finish_and_leave print grow count = .ok (a, b1) →
      a.array.offsets_sound ∧ b1.lists_sound
  | .null n => by
    intro grow count a b1 _ h
    simp only [builder_base.finish_and_leave] at h
    split at h
    · simp at h
    · simp only [except_pure_eq_ok, Prod.mk.injEq] at h
      obtain ⟨h1, h2⟩ := h
      subst h1 h2
      simp only [arrow_array.offsets_sound, builder_base.lists_sound, and_self]
  | .atom t inner => by
    intro grow count a b1 _ h
    simp only [builder_base.finish_and_leave] at h
    split at h
    · simp at h
    · simp only [except_pure_eq_ok, Prod.mk.injEq] at h
      obtain ⟨h1, h2⟩ := h
      subst h1 h2
      simp only [arrow_array.offsets_sound, builder_base.lists_sound, and_self]
  | .list offsets elements => by
    intro grow count a b1 hb h
    simp only [builder_base.lists_sound] at hb
    simp only [builder_base.finish_and_leave, ensure_eq_ok, except_bind_eq_ok,
      except_pure_eq_ok] at h
    obtain ⟨_, _, _, hc, ⟨used, el1⟩, hel, result, hres, h⟩ := h
    have ih := dynamic_builder_finish_lists_sound print elements _ _ _ _ hb.2 hel
    have hlen := dynamic_builder_finish_and_leave_length print elements el1 _ _ used hel
    have hall := offsets_chain_nulls offsets elements.length grow hb.1
    have hle := offsets_chain_getD_le (offsets ++ List.replicate grow (elements.length, false))
      elements.length
      ((offsets ++ List.replicate grow (elements.length, false)).length - count) hall
    simp only [Prod.mk.injEq] at h
    obtain ⟨h1, h2⟩ := h
    subst h1 h2
    refine ⟨?_, ?_⟩
    · refine from_arrays_sound 668 _ used.array result (offsets_chain_take _ _ hall) ih.1 ?_ hres
      intro o ho
      rw [take_succ_getLast _ _ (by
        simp only [List.length_append, List.length_singleton]
        omega)] at ho
      simp only [Option.some.injEq] at ho
      subst ho
      have hu : used.array.length = used.length := rfl
      rw [hu, hlen.1]
      omega
    · simp only [builder_base.lists_sound]
      refine ⟨?_, ih.2⟩
      rw [hlen.2]
      exact list_cut_offsets _ elements.length count hc hall
  | .record fields valid len keep_alive => by
    intro grow count a b1 hb h
    simp only [builder_base.lists_sound] at hb
    simp only [builder_base.finish_and_leave, ensure_eq_ok, except_bind_eq_ok,
      except_pure_eq_ok] at h
    obtain ⟨_, hc, ⟨children, fields1⟩, hf, ⟨bitmap, valid1⟩, hv, h⟩ := h
    have ih := finish_fields_lists_sound print fields _ _ _ _ _ hb hf
    simp only [Prod.mk.injEq] at h
    obtain ⟨h1, h2⟩ := h
    subst h1 h2
    simp only [arrow_array.offsets_sound, builder_base.lists_sound]
    exact ih
  | .conflict ds vs => by
    intro grow count a b1 hb h
    simp only [builder_base.lists_sound] at hb
    simp only [builder_base.finish_and_leave, ensure_eq_ok, except_bind_eq_ok,
      except_pure_eq_ok] at h
    obtain ⟨_, hc, ⟨arrays, vs1⟩, hfv, strings, hs, h⟩ := h
    have ih := finish_variants_lists_sound print vs _ _ _ _ _ hb hfv
    simp only [Prod.mk.injEq] at h
    obtain ⟨h1, h2⟩ := h
    subst h1 h2
    simp only [arrow_array.offsets_sound, builder_base.lists_sound, true_and]
    exact ih
/-- The method `dynamic_builder::finish_and_leave` on a builder with sound list
offsets returns an array with sound list offsets and leaves such a builder. -/
theorem dynamic_builder_finish_lists_sound (print : data_view2 → Option String) :
    (d : dynamic_builder) → ∀ (grow count : Nat) (a : typed_array) (d1 : dynamic_builder),
      d.lists_sound → d.finish_and_leave print grow count = .ok (a, d1) →
      a.array.offsets_sound ∧ d1.lists_sound
  | .mk b p m => by
    intro grow count a d1 hd h
    simp only [dynamic_builder.lists_sound] at hd
    simp only [dynamic_builder.finish_and_leave, ensure_eq_ok, except_bind_eq_ok] at h
    obtain ⟨_, hc, ⟨result, b1⟩, hr, _, hlen, h⟩ := h
    have key : result.array.offsets_sound ∧ b1.lists_sound := by
      split at hr
      · rw [except_bind_eq_ok] at hr
        obtain ⟨b0, hb0, hr⟩ := hr
        simp only [except_pure_eq_ok, Prod.mk.injEq] at hr
        obtain ⟨h1, h2⟩ := hr
        subst h1 h2
        refine ⟨make_empty_array_sound _, ?_⟩
        split at hb0
        · exact builder_base_resize_lists_sound b _ b0 hd hb0
        · simp only [except_pure_eq_ok] at hb0
          subst hb0; exact hd
      · exact builder_base_finish_lists_sound print b grow count result b1 hd hr
    simp only [except_pure_eq_ok, Prod.mk.injEq] at h
    obtain ⟨h1, h2⟩ := h
    subst h1 h2
    refine ⟨key.1, ?_⟩
    split
    · simp only [dynamic_builder.lists_sound, builder_base.lists_sound]
    · simp only [dynamic_builder.lists_sound]
      exact key.2
/-- The loop over the fields in the record `finish_and_leave` returns arrays
with sound list offsets and leaves builders with sound list offsets. -/
theorem finish_fields_lists_sound (print : data_view2 → Option String) :
    (fields : List (String × dynamic_builder)) →
      ∀ (len target : Nat) (keep : Option String) (arrays : List arrow_array)
        (fields1 : List (String × dynamic_builder)),
      fields_lists_sound fields →
      finish_fields print fields len target keep = .ok (arrays, fields1) →
      children_offsets_sound arrays ∧ fields_lists_sound fields1
  | [] => by
    intro len target keep arrays fields1 _ h
    simp only [finish_fields, except_pure_eq_ok, Prod.mk.injEq] at h
    obtain ⟨h1, h2⟩ := h
    subst h1 h2
    simp only [children_offsets_sound, fields_lists_sound, and_self]
  | (name, builder) :: rest => by
    intro len target keep arrays fields1 hf h
    simp only [fields_lists_sound] at hf
    simp only [finish_fields, ensure_eq_ok, except_bind_eq_ok, except_pure_eq_ok] at h
    obtain ⟨_, hle, ⟨array, builder1⟩, hb, _, hl1, _, hal, ⟨arrays1, rest1⟩, hrest, h⟩ := h
    have ih1 := dynamic_builder_finish_lists_sound print builder _ _ _ _ hf.1 hb
    have ih2 := finish_fields_lists_sound print rest _ _ _ _ _ hf.2 hrest
    simp only [Prod.mk.injEq] at h
    obtain ⟨h1, h2⟩ := h
    subst h1 h2
    simp only [children_offsets_sound]
    refine ⟨⟨ih1.1, ih2.1⟩, ?_⟩
    split
    · exact ih2.2
    · simp only [fields_lists_sound]
      exact ⟨ih1.2, ih2.2⟩
/-- The loop over the variants in the conflict `finish_and_leave` leaves
builders with sound list offsets. -/
theorem finish_variants_lists_sound (print : data_view2 → Option String) :
    (variants : List builder_base) →
      ∀ (i grow : Nat) (kept : List Nat) (arrays : List typed_array)
        (variants1 : List builder_base),
      variants_lists_sound variants →
      finish_variants print variants i grow kept = .ok (arrays, variants1) →
      variants_lists_sound variants1
  | [] => by
    intro i grow kept arrays variants1 _ h
    simp only [finish_variants, except_pure_eq_ok, Prod.mk.injEq] at h
    obtain ⟨_, h2⟩ := h
    subst h2
    simp only [variants_lists_sound]
  | variant :: rest => by
    intro i grow kept arrays variants1 hv h
    simp only [variants_lists_sound] at hv
    simp only [finish_variants, except_bind_eq_ok, except_pure_eq_ok] at h
    obtain ⟨⟨array, variant1⟩, hb, ⟨arrays1, rest1⟩, hrest, h⟩ := h
    have ih1 := builder_base_finish_lists_sound print variant _ _ _ _ hv.1 hb
    have ih2 := finish_variants_lists_sound print rest _ _ _ _ _ hv.2 hrest
    simp only [Prod.mk.injEq] at h
    obtain ⟨_, h2⟩ := h
    subst h2
    simp only [variants_lists_sound]
    exact ⟨ih1.2, ih2⟩
end
theorem variants_lists_sound_append : ∀ (vs : List builder_base) (v : builder_base),
    variants_lists_sound vs → v.lists_sound → variants_lists_sound (vs ++ [v])
  | [], v => by
    intro _ hv
    simp only [List.nil_append, variants_lists_sound]
    exact ⟨hv, trivial⟩
  | v0 :: rest, v => by
    intro h hv
    simp only [variants_lists_sound] at h
    simp only [List.cons_append, variants_lists_sound]
    exact ⟨h.1, variants_lists_sound_append rest v h.2 hv⟩

theorem variants_lists_sound_get : ∀ (vs : List builder_base) (i : Nat) (v : builder_base),
    variants_lists_sound vs → vs.get? i = some v → v.lists_sound
  | [], i, v => by
    intro _ h
    simp at h
  | v0 :: rest, 0, v => by
    intro h hg
    simp only [variants_lists_sound] at h
    simp only [List.get?_cons_zero, Option.some.injEq] at hg
    subst hg
    exact h.1
  | v0 :: rest, i + 1, v => by
    intro h hg
    simp only [variants_lists_sound] at h
    simp only [List.get?_cons_succ] at hg
    exact variants_lists_sound_get rest i v h.2 hg

theorem variants_lists_sound_set : ∀ (vs : List builder_base) (i : Nat) (v : builder_base),
    variants_lists_sound vs → v.lists_sound → variants_lists_sound (vs.set i v)
  | [], i, v => by
    intro h _
    simpa using h
  | v0 :: rest, 0, v => by
    intro h hv
    simp only [variants_lists_sound] at h
    simp only [List.set_cons_zero, variants_lists_sound]
    exact ⟨hv, h.2⟩
  | v0 :: rest, i + 1, v => by
    intro h hv
    simp only [variants_lists_sound] at h
    simp only [List.set_cons_succ, variants_lists_sound]
    exact ⟨h.1, variants_lists_sound_set rest i v h.2 hv⟩

theorem fields_lists_sound_find : ∀ (fields : List (String × dynamic_builder))
    (name : String) (c : dynamic_builder), fields_lists_sound fields →
    fields_find fields name = some c → c.lists_sound
  | [], name, c => by
    intro _ h
    simp [fields_find_nil] at h
  | (n, d) :: rest, name, c => by
    intro hf h
    simp only [fields_lists_sound] at hf
    rw [fields_find_cons] at h
    split at h
    · simp only [Option.some.injEq] at h
      subst h
      exact hf.1
    · exact fields_lists_sound_find rest name c hf.2 h

theorem fields_lists_sound_set : ∀ (fields : List (String × dynamic_builder))
    (name : String) (c : dynamic_builder), fields_lists_sound fields →
    c.lists_sound → fields_lists_sound (fields_set fields name c)
  | [], name, c => by
    intro h _
    simpa [fields_set_nil] using h
  | (n, d) :: rest, name, c => by
    intro hf hc
    simp only [fields_lists_sound] at hf
    rw [fields_set_cons]
    split
    · simp only [fields_lists_sound]
      exact ⟨hc, fields_lists_sound_set rest name c hf.2 hc⟩
    · simp only [fields_lists_sound]
      exact ⟨hf.1, fields_lists_sound_set rest name c hf.2 hc⟩

theorem fields_lists_sound_append : ∀ (fields : List (String × dynamic_builder))
    (name : String) (c : dynamic_builder), fields_lists_sound fields →
    c.lists_sound → fields_lists_sound (fields ++ [(name, c)])
  | [], name, c => by
    intro _ hc
    simp only [List.nil_append, fields_lists_sound]
    exact ⟨hc, trivial⟩
  | (n, d) :: rest, name, c => by
    intro hf hc
    simp only [fields_lists_sound] at hf
    simp only [List.cons_append, fields_lists_sound]
    exact ⟨hf.1, fields_lists_sound_append rest name c hf.2 hc⟩

theorem target_make_lists_sound (T : target) : T.make.lists_sound := by
  cases T with
  | basic k => simp only [target.make, builder_base.lists_sound]
  | list =>
    simp only [target.make, builder_base.lists_sound, List.nil_append, dynamic_builder.new,
      dynamic_builder.lists_sound, and_true]
    exact offsets_chain_single true
  | record => simp only [target.make, builder_base.lists_sound, fields_lists_sound]

theorem builder_base_child_lists_sound (t : builder_base) (step : path_step)
    (c : dynamic_builder) (ht : t.lists_sound) (hc : t.child step = some c) :
    c.lists_sound := by
  cases t with
  | record fs valid n ka =>
    cases step with
    | field v name =>
      simp only [builder_base.lists_sound] at ht
      simp only [builder_base.child] at hc
      exact fields_lists_sound_find fs name c ht hc
    | elements v => simp [builder_base.child] at hc
  | list offs el =>
    cases step with
    | field v name => simp [builder_base.child] at hc
    | elements v =>
      simp only [builder_base.lists_sound] at ht
      simp only [builder_base.child, Option.some.injEq] at hc
      subst hc
      exact ht.2
  | null n => cases step <;> simp [builder_base.child] at hc
  | atom a inner => cases step <;> simp [builder_base.child] at hc
  | conflict ds vs => cases step <;> simp [builder_base.child] at hc

theorem dynamic_builder_typed_lists_sound (d : dynamic_builder) (variant : Option Nat)
    (t : builder_base) (hd : d.lists_sound) (ht : d.typed variant = some t) : t.lists_sound := by
  obtain ⟨b, p, m⟩ := d
  simp only [dynamic_builder.lists_sound] at hd
  cases variant with
  | none =>
    cases b with
    | conflict ds vs =>
      simp only [builder_base.lists_sound] at hd
      simp only [dynamic_builder.typed, dynamic_builder.builder_] at ht
      cases vs with
      | nil => simp at ht
      | cons v rest =>
        simp only [List.head?_cons, Option.some.injEq] at ht
        subst ht
        simp only [variants_lists_sound] at hd
        exact hd.1
    | null n =>
      simp only [dynamic_builder.typed, dynamic_builder.builder_, Option.some.injEq] at ht
      subst ht; exact hd
    | atom a inner =>
      simp only [dynamic_builder.typed, dynamic_builder.builder_, Option.some.injEq] at ht
      subst ht; exact hd
    | list offs el =>
      simp only [dynamic_builder.typed, dynamic_builder.builder_, Option.some.injEq] at ht
      subst ht; exact hd
    | record fs valid n ka =>
      simp only [dynamic_builder.typed, dynamic_builder.builder_, Option.some.injEq] at ht
      subst ht; exact hd
  | some i =>
    cases b with
    | conflict ds vs =>
      simp only [builder_base.lists_sound] at hd
      simp only [dynamic_builder.typed, dynamic_builder.builder_] at ht
      exact variants_lists_sound_get vs i t hd ht
    | null n => simp [dynamic_builder.typed, dynamic_builder.builder_] at ht
    | atom a inner => simp [dynamic_builder.typed, dynamic_builder.builder_] at ht
    | list offs el => simp [dynamic_builder.typed, dynamic_builder.builder_] at ht
    | record fs valid n ka => simp [dynamic_builder.typed, dynamic_builder.builder_] at ht

theorem dynamic_builder_set_typed_lists_sound (d : dynamic_builder) (variant : Option Nat)
    (t1 : builder_base) (hd : d.lists_sound) (h1 : t1.lists_sound) :
    (d.set_typed variant t1).lists_sound := by
  obtain ⟨b, p, m⟩ := d
  simp only [dynamic_builder.lists_sound] at hd
  cases variant with
  | none =>
    cases b with
    | conflict ds vs =>
      simp only [builder_base.lists_sound] at hd
      simp only [dynamic_builder.set_typed, dynamic_builder.lists_sound, builder_base.lists_sound]
      exact variants_lists_sound_set vs 0 t1 hd h1
    | null n => exact h1
    | atom a inner => exact h1
    | list offs el => exact h1
    | record fs valid n ka => exact h1
  | some i =>
    cases b with
    | conflict ds vs =>
      simp only [builder_base.lists_sound] at hd
      simp only [dynamic_builder.set_typed, dynamic_builder.lists_sound, builder_base.lists_sound]
      exact variants_lists_sound_set vs i t1 hd h1
    | null n => exact hd
    | atom a inner => exact hd
    | list offs el => exact hd
    | record fs valid n ka => exact hd

theorem wrap_conflict_lists_sound (d : dynamic_builder) (hd : d.lists_sound) :
    d.wrap_conflict.lists_sound := by
  obtain ⟨b, p, m⟩ := d
  simp only [dynamic_builder.lists_sound] at hd
  simp only [dynamic_builder.wrap_conflict, dynamic_builder.lists_sound, builder_base.lists_sound,
    variants_lists_sound]
  exact ⟨hd, trivial⟩

theorem prepare_cast_lists_sound (T : target) (d d1 : dynamic_builder) (variant : Option Nat)
    (hd : d.lists_sound) (h : d.prepare_cast T = .ok (some (d1, variant))) : d1.lists_sound := by
  obtain ⟨b, p, m⟩ := d
  simp only [dynamic_builder.lists_sound] at hd
  simp only [dynamic_builder.prepare_cast] at h
  split at h
  · simp only [except_pure_eq_ok, Option.some.injEq, Prod.mk.injEq] at h
    obtain ⟨h1, _⟩ := h
    subst h1
    exact hd
  · split at h
    · simp only [except_bind_eq_ok, except_pure_eq_ok, Option.some.injEq,
        Prod.mk.injEq] at h
      obtain ⟨fresh, hf, h1, _⟩ := h
      subst h1
      simp only [dynamic_builder.lists_sound]
      exact builder_base_resize_lists_sound _ _ _ (target_make_lists_sound T) hf
    · rename_i ds vs _
      simp only [builder_base.lists_sound] at hd
      simp only [except_bind_eq_ok, except_pure_eq_ok, Option.some.injEq,
        Prod.mk.injEq] at h
      obtain ⟨⟨c, i⟩, hp, h1, _⟩ := h
      subst h1
      simp only [dynamic_builder.lists_sound]
      simp only [conflict_builder.prepare] at hp
      split at hp
      · split at hp
        · simp at hp
        · simp only [except_pure_eq_ok, Prod.mk.injEq] at hp
          obtain ⟨hp1, _⟩ := hp
          subst hp1
          simp only [builder_base.lists_sound]
          exact hd
      · split at hp
        · simp at hp
        · simp only [except_pure_eq_ok, Prod.mk.injEq] at hp
          obtain ⟨hp1, _⟩ := hp
          subst hp1
          simp only [builder_base.lists_sound]
          exact variants_lists_sound_append vs _ hd (target_make_lists_sound T)
    · simp only [except_pure_eq_ok] at h
      cases h
theorem typed_child_elements (t : builder_base) (v : Option Nat) (c : dynamic_builder)
    (h : t.child (.elements v) = some c) : ∃ offsets, t = .list offsets c := by
  cases t with
  | list o e =>
    simp only [builder_base.child, Option.some.injEq] at h
    subst h
    exact ⟨o, rfl⟩
  | null n => simp [builder_base.child] at h
  | atom a i => simp [builder_base.child] at h
  | record fs va l k => simp [builder_base.child] at h
  | conflict ds vs => simp [builder_base.child] at h

theorem dynamic_builder_get_elements (d c : dynamic_builder) (q : builder_path)
    (v : Option Nat) (h : d.get (q ++ [.elements v]) = .ok c) :
    ∃ x offsets, d.get q = .ok x ∧ x.typed v = some (.list offsets c) := by
  rw [dynamic_builder_get_append] at h
  simp only [except_bind_eq_ok] at h
  obtain ⟨x, hx, h⟩ := h
  obtain ⟨t, c0, ht, hc, hg⟩ := dynamic_builder_get_cons x c (.elements v) [] h
  simp only [dynamic_builder.get, except_pure_eq_ok] at hg
  subst hg
  obtain ⟨offsets, rfl⟩ := typed_child_elements t v c0 hc
  exact ⟨x, offsets, hx, ht⟩

theorem dynamic_builder_set_elements (d d1 new : dynamic_builder) (q : builder_path)
    (v : Option Nat) (h : d.set (q ++ [.elements v]) new = .ok d1) :
    ∃ x offsets elements, d.get q = .ok x
      ∧ x.typed v = some (.list offsets elements)
      ∧ d1.get q = .ok (x.set_typed v (.list offsets new))
      ∧ (x.set_typed v (.list offsets new)).typed v = some (.list offsets new) := by
  rw [dynamic_builder_set_append] at h
  simp only [except_bind_eq_ok] at h
  obtain ⟨x, hx, c1, hc1, hd1⟩ := h
  simp only [dynamic_builder.set, path_step.variant] at hc1
  cases ht : x.typed v with
  | none => simp [ht] at hc1
  | some t =>
    simp only [ht] at hc1
    cases hc : t.child (.elements v) with
    | none => simp [hc] at hc1
    | some c0 =>
      simp only [hc, except_bind_eq_ok, except_pure_eq_ok] at hc1
      obtain ⟨c2, hc2, hc1⟩ := hc1
      subst hc2
      subst hc1
      obtain ⟨offsets, rfl⟩ := typed_child_elements t v c0 hc
      obtain ⟨d2, hd2, hg⟩ := dynamic_builder_set_of_get q d x
        (x.set_typed v ((builder_base.list offsets c0).set_child (.elements v) new)) hx
      rw [hd1] at hd2
      cases hd2
      refine ⟨x, offsets, c0, hx, ht, hg, ?_⟩
      exact dynamic_builder_typed_set_typed x v _ _ ht (by intro ds vs h; cases h)

theorem fits_list_nil (d : dynamic_builder) (n : Nat) : d.fits_list [] n := by
  intro q v x offsets elements hp
  cases q <;> simp at hp

theorem fits_list_field (d : dynamic_builder) (q : builder_path) (v : Option Nat)
    (name : String) (n : Nat) : d.fits_list (q ++ [.field v name]) n := by
  intro q1 v1 x offsets elements hp
  have := List.append_inj_right' hp rfl
  simp at this

theorem fits_list_elements_iff (d : dynamic_builder) (q : builder_path) (v : Option Nat)
    (n : Nat) : d.fits_list (q ++ [.elements v]) n ↔
      ∀ x offsets elements, d.get q = .ok x → x.typed v = some (.list offsets elements) →
        offsets_chain (offsets ++ [(n, true)]) := by
  constructor
  · intro h x offsets elements hx ht
    exact h q v x offsets elements rfl hx ht
  · intro h q1 v1 x offsets elements hp hx ht
    have h1 := List.append_inj_left' hp rfl
    have h2 := List.append_inj_right' hp rfl
    simp only [List.cons.injEq, path_step.elements.injEq, and_true] at h2
    subst h1 h2
    exact h x offsets elements hx ht

theorem dynamic_builder_get_lists_sound (p : builder_path) :
    ∀ (d c : dynamic_builder), d.lists_sound → d.get p = .ok c → c.lists_sound := by
  induction p with
  | nil =>
    intro d c hd h
    simp only [dynamic_builder.get, except_pure_eq_ok] at h
    subst h
    exact hd
  | cons step rest ih =>
    intro d c hd h
    obtain ⟨t, x, ht, hx, hg⟩ := dynamic_builder_get_cons d c step rest h
    exact ih x c (builder_base_child_lists_sound t step x
      (dynamic_builder_typed_lists_sound d _ t hd ht) hx) hg

/-- In a tree with sound list offsets every builder can be stored where it is. -/
theorem fits_list_of_get (p : builder_path) (d c : dynamic_builder) (hd : d.lists_sound)
    (h : d.get p = .ok c) : d.fits_list p c.length := by
  rcases path_nil_or_append p with hp | ⟨q, last, hp⟩
  · subst hp
    exact fits_list_nil d _
  · subst hp
    cases last with
    | field v name => exact fits_list_field d q v name _
    | elements v =>
      rw [fits_list_elements_iff]
      intro x offsets elements hx ht
      obtain ⟨x1, offsets1, hx1, ht1⟩ := dynamic_builder_get_elements d c q v h
      rw [hx] at hx1
      cases hx1
      rw [ht] at ht1
      cases ht1
      have htb := dynamic_builder_typed_lists_sound x v _
        (dynamic_builder_get_lists_sound q d x hd hx) ht
      simp only [builder_base.lists_sound] at htb
      exact htb.1

/-- A store through a pointer does not change what can be stored through it. -/
theorem fits_list_set (p : builder_path) (d d1 new : dynamic_builder) (n : Nat)
    (hs : d.set p new = .ok d1) (h : d.fits_list p n) : d1.fits_list p n := by
  rcases path_nil_or_append p with hp | ⟨q, last, hp⟩
  · subst hp
    exact fits_list_nil d1 _
  · subst hp
    cases last with
    | field v name => exact fits_list_field d1 q v name _
    | elements v =>
      rw [fits_list_elements_iff] at h ⊢
      intro x1 offsets1 elements1 hx1 ht1
      obtain ⟨x, offsets, elements, hx, ht, hg, htt⟩ :=
        dynamic_builder_set_elements d d1 new q v hs
      rw [hg] at hx1
      cases hx1
      rw [htt] at ht1
      cases ht1
      exact h x offsets1 elements hx ht

theorem set_child_lists_sound (t : builder_base) (step : path_step) (c c1 : dynamic_builder)
    (ht : t.lists_sound) (hc : t.child step = some c) (h1 : c1.lists_sound)
    (hfit : ∀ offsets elements, t = .list offsets elements →
      offsets_chain (offsets ++ [(c1.length, true)])) :
    (t.set_child step c1).lists_sound := by
  cases t with
  | record fs valid n ka =>
    cases step with
    | field v name =>
      simp only [builder_base.lists_sound] at ht
      simp only [builder_base.set_child, builder_base.lists_sound]
      exact fields_lists_sound_set fs name c1 ht h1
    | elements v => simp [builder_base.child] at hc
  | list offs el =>
    cases step with
    | field v name => simp [builder_base.child] at hc
    | elements v =>
      simp only [builder_base.set_child, builder_base.lists_sound]
      exact ⟨hfit offs el rfl, h1⟩
  | null n => cases step <;> simp [builder_base.child] at hc
  | atom a inner => cases step <;> simp [builder_base.child] at hc
  | conflict ds vs => cases step <;> simp [builder_base.child] at hc

/-- A store through a pointer keeps the list offsets sound when the stored
builder has sound list offsets and can be stored there. -/
theorem dynamic_builder_set_lists_sound (p : builder_path) :
    ∀ (d c1 d1 : dynamic_builder), d.lists_sound → c1.lists_sound →
      d.fits_list p c1.length → d.set p c1 = .ok d1 → d1.lists_sound := by
  induction p with
  | nil =>
    intro d c1 d1 _ h1 _ h
    simp only [dynamic_builder.set, except_pure_eq_ok] at h
    subst h
    exact h1
  | cons step rest ih =>
    intro d c1 d1 hd h1 hfit h
    simp only [dynamic_builder.set] at h
    cases ht : d.typed step.variant with
    | none => simp [ht] at h
    | some t =>
      simp only [ht] at h
      cases hc : t.child step with
      | none => simp [hc] at h
      | some c =>
        simp only [hc, except_bind_eq_ok, except_pure_eq_ok] at h
        obtain ⟨c2, hset, h⟩ := h
        subst h
        have htb := dynamic_builder_typed_lists_sound d _ t hd ht
        have hcb := builder_base_child_lists_sound t step c htb hc
        apply dynamic_builder_set_typed_lists_sound d _ _ hd
        cases rest with
        | nil =>
          simp only [dynamic_builder.set, except_pure_eq_ok] at hset
          subst hset
          apply set_child_lists_sound t step c c1 htb hc h1
          intro offsets elements heq
          subst heq
          cases step with
          | field v name => simp [builder_base.child] at hc
          | elements v => exact hfit [] v d offsets elements rfl rfl ht
        | cons s2 r2 =>
          have hfit2 : c.fits_list (s2 :: r2) c1.length := by
            intro q v x offsets elements hp hx hty
            refine hfit (step :: q) v x offsets elements ?_ ?_ hty
            · rw [hp]
              rfl
            · rw [dynamic_builder_get_cons_of d c t step q ht hc]
              exact hx
          have hc2 := ih c c1 c2 hcb h1 hfit2 hset
          have hl := dynamic_builder_set_length c c2 c1 (s2 :: r2) (by simp) hset
          apply set_child_lists_sound t step c c2 htb hc hc2
          intro offsets elements heq
          subst heq
          cases step with
          | field v name => simp [builder_base.child] at hc
          | elements v =>
            simp only [builder_base.lists_sound] at htb
            simp only [builder_base.child, Option.some.injEq] at hc
            subst hc
            rw [hl]
            exact htb.1
theorem series_set_lists_sound (s s1 : series_builder_impl) (p : builder_path)
    (c1 : dynamic_builder) (hs : s.lists_sound) (h1 : c1.lists_sound)
    (hfit : s.builder_.fits_list p c1.length) (h : s.set p c1 = .ok s1) : s1.lists_sound := by
  have hb := series_set_builder s s1 p c1 h
  refine ⟨dynamic_builder_set_lists_sound p s.builder_ c1 s1.builder_ hs.1 h1 hfit hb, ?_⟩
  rw [(series_set_finished s s1 p c1 h).1]
  exact hs.2

theorem set_typed_length_succ (d : dynamic_builder) (variant : Option Nat) (t t1 : builder_base)
    (ht : d.typed variant = some t) (hl : t1.length = t.length + 1) :
    (d.set_typed variant t1).length = d.length + 1 ∨ ∃ ds vs, d.builder_ = .conflict ds vs := by
  obtain ⟨b, p, m⟩ := d
  cases b with
  | conflict ds vs => exact Or.inr ⟨ds, vs, rfl⟩
  | null n =>
    left
    cases variant with
    | none =>
      simp only [dynamic_builder.typed, dynamic_builder.builder_, Option.some.injEq] at ht
      subst ht
      simpa [dynamic_builder.set_typed, dynamic_builder.length, dynamic_builder.builder_] using hl
    | some j => simp [dynamic_builder.typed, dynamic_builder.builder_] at ht
  | atom a i =>
    left
    cases variant with
    | none =>
      simp only [dynamic_builder.typed, dynamic_builder.builder_, Option.some.injEq] at ht
      subst ht
      simpa [dynamic_builder.set_typed, dynamic_builder.length, dynamic_builder.builder_] using hl
    | some j => simp [dynamic_builder.typed, dynamic_builder.builder_] at ht
  | list o e =>
    left
    cases variant with
    | none =>
      simp only [dynamic_builder.typed, dynamic_builder.builder_, Option.some.injEq] at ht
      subst ht
      simpa [dynamic_builder.set_typed, dynamic_builder.length, dynamic_builder.builder_] using hl
    | some j => simp [dynamic_builder.typed, dynamic_builder.builder_] at ht
  | record f va l k =>
    left
    cases variant with
    | none =>
      simp only [dynamic_builder.typed, dynamic_builder.builder_, Option.some.injEq] at ht
      subst ht
      simpa [dynamic_builder.set_typed, dynamic_builder.length, dynamic_builder.builder_] using hl
    | some j => simp [dynamic_builder.typed, dynamic_builder.builder_] at ht

/-- Writing back a typed builder that has grown by one row keeps the list
offsets sound when one more row can be stored where the dynamic builder is, or
the dynamic builder is a conflict builder. -/
theorem append_lists_sound (s s1 : series_builder_impl) (path : builder_path)
    (d : dynamic_builder) (variant : Option Nat) (t t1 : builder_base)
    (hs : s.lists_sound) (hg : s.get path = .ok d) (ht : d.typed variant = some t)
    (h1 : t1.lists_sound) (hl : t1.length = t.length + 1)
    (hroom : s.builder_.fits_list path (d.length + 1) ∨ ∃ ds vs, d.builder_ = .conflict ds vs)
    (h : s.set path (d.set_typed variant t1) = .ok s1) : s1.lists_sound := by
  have hdb := dynamic_builder_get_lists_sound path s.builder_ d hs.1 hg
  apply series_set_lists_sound s s1 path _ hs
    (dynamic_builder_set_typed_lists_sound d variant t1 hdb h1) _ h
  rcases set_typed_length_succ d variant t t1 ht hl with hlen | ⟨ds, vs, hc⟩
  · rcases hroom with hroom | ⟨ds, vs, hc⟩
    · rw [hlen]
      exact hroom
    · rw [set_typed_length_conflict d variant t1 ds vs hc]
      exact fits_list_of_get path s.builder_ d hs.1 hg
  · rw [set_typed_length_conflict d variant t1 ds vs hc]
    exact fits_list_of_get path s.builder_ d hs.1 hg

theorem finish_previous_events_lists_sound (print : data_view2 → Option String)
    (s s1 : series_builder_impl) (root : Bool) (hs : s.lists_sound)
    (h : s.finish_previous_events print root = .ok s1) : s1.lists_sound := by
  simp only [series_builder_impl.finish_previous_events] at h
  split at h
  · simp only [except_pure_eq_ok] at h
    subst h; exact hs
  · split at h
    · simp only [except_pure_eq_ok] at h
      subst h; exact hs
    · simp only [except_bind_eq_ok, ensure_eq_ok, except_pure_eq_ok] at h
      obtain ⟨⟨slice, b1⟩, hf, _, _, _, _, h⟩ := h
      subst h
      have key := dynamic_builder_finish_lists_sound print s.builder_ _ _ _ _ hs.1 hf
      refine ⟨key.2, ?_⟩
      intro a ha
      simp only [List.mem_append, List.mem_singleton] at ha
      rcases ha with ha | ha
      · exact hs.2 a ha
      · subst ha
        exact key.1

theorem finish_if_conflict_lists_sound (print : data_view2 → Option String)
    (s s1 : series_builder_impl) (hs : s.lists_sound)
    (h : s.finish_if_conflict print = .ok s1) : s1.lists_sound := by
  simp only [series_builder_impl.finish_if_conflict] at h
  split at h
  · simp only [except_bind_eq_ok, except_pure_eq_ok] at h
    obtain ⟨⟨array, b1⟩, hf, h⟩ := h
    subst h
    have key := dynamic_builder_finish_lists_sound print s.builder_ _ _ _ _ hs.1 hf
    refine ⟨key.2, ?_⟩
    intro a ha
    simp only [List.mem_append, List.mem_singleton] at ha
    rcases ha with ha | ha
    · exact hs.2 a ha
    · subst ha
      exact key.1
  · simp only [except_pure_eq_ok] at h
    subst h; exact hs

/-- Storing the result of a successful cast keeps the list offsets sound, and
afterwards one more row can be stored where the builder is, or the builder is a
conflict builder. -/
theorem prepare_cast_set_lists_sound (s s1 : series_builder_impl) (path : builder_path)
    (T : target) (d d1 : dynamic_builder) (variant : Option Nat)
    (hs : s.lists_sound) (hg : s.get path = .ok d)
    (hroom : s.builder_.fits_list path (d.length + 1))
    (hc : d.prepare_cast T = .ok (some (d1, variant))) (h : s.set path d1 = .ok s1) :
    s1.lists_sound ∧ ∃ d2, s1.get path = .ok d2 ∧
      (s1.builder_.fits_list path (d2.length + 1)
        ∨ ∃ ds vs, d2.builder_ = .conflict ds vs) := by
  have hdb := dynamic_builder_get_lists_sound path s.builder_ d hs.1 hg
  have h1b := prepare_cast_lists_sound T d d1 variant hdb hc
  have hb := series_set_builder s s1 path d1 h
  rcases dynamic_builder_prepare_cast_spec T d d1 variant hc with
    ⟨_, hl, _⟩ | ⟨i, ds, vs, _, hl, hcf⟩
  · refine ⟨series_set_lists_sound s s1 path d1 hs h1b ?_ h, d1,
      series_get_set s s1 path d1 h, Or.inl ?_⟩
    · rw [hl]
      exact fits_list_of_get path s.builder_ d hs.1 hg
    · rw [hl]
      exact fits_list_set path _ _ _ _ hb hroom
  · refine ⟨series_set_lists_sound s s1 path d1 hs h1b ?_ h, d1,
      series_get_set s s1 path d1 h, Or.inr ⟨ds, vs, hcf⟩⟩
    rw [hl]
    exact hroom

/-- The method `dynamic_builder::prepare` keeps the list offsets sound when one
more row can be stored where the builder is, before and after a cut. -/
theorem prepare_lists_sound (print : data_view2 → Option String)
    (s s1 : series_builder_impl) (path : builder_path) (T : target) (variant : Option Nat)
    (hs : s.lists_sound)
    (hroom : ∀ s2, (s2 = s ∨ s.finish_previous_events print (path == []) = .ok s2) →
      ∀ d, s2.get path = .ok d → s2.builder_.fits_list path (d.length + 1))
    (h : dynamic_builder.prepare print s path T = .ok (s1, variant)) :
    s1.lists_sound ∧ ∃ d2, s1.get path = .ok d2 ∧
      (s1.builder_.fits_list path (d2.length + 1)
        ∨ ∃ ds vs, d2.builder_ = .conflict ds vs) := by
  simp only [dynamic_builder.prepare, except_bind_eq_ok] at h
  obtain ⟨d, hg, r, hr, h⟩ := h
  cases r with
  | some dv =>
    obtain ⟨d1, v⟩ := dv
    simp only [except_bind_eq_ok, except_pure_eq_ok, Prod.mk.injEq] at h
    obtain ⟨s2, hset, h, hv⟩ := h
    subst h
    subst hv
    exact prepare_cast_set_lists_sound s s2 path T d d1 v hs hg (hroom s (Or.inl rfl) d hg) hr
      hset
  | none =>
    simp only [except_bind_eq_ok, ensure_eq_ok] at h
    obtain ⟨_, _, _, _, s2, hfpe, d1, hg1, s3, hwrap, d2, hg2, r2, hr2, h⟩ := h
    have h2b := finish_previous_events_lists_sound print s s2 _ hs hfpe
    have h2room := hroom s2 (Or.inr hfpe) d1 hg1
    have h3 : s3.lists_sound ∧ s3.builder_.fits_list path (d2.length + 1) := by
      split at hwrap
      · simp only [except_bind_eq_ok, except_pure_eq_ok] at hwrap
        obtain ⟨s2a, hset, hwrap⟩ := hwrap
        subst hwrap
        have hd1b := dynamic_builder_get_lists_sound path s2.builder_ d1 h2b.1 hg1
        have hg3 : s2a.get path = .ok d1.wrap_conflict := series_get_set s2 s2a path _ hset
        have hg2a : s2a.get path = .ok d2 := hg2
        rw [hg3] at hg2a
        cases hg2a
        have hb := series_set_builder s2 s2a path _ hset
        rw [dynamic_builder_wrap_conflict_length]
        have hs2a : s2a.lists_sound :=
          series_set_lists_sound s2 s2a path _ h2b (wrap_conflict_lists_sound d1 hd1b)
            (by
              rw [dynamic_builder_wrap_conflict_length]
              exact fits_list_of_get path s2.builder_ d1 h2b.1 hg1) hset
        exact ⟨hs2a, fits_list_set path _ _ _ _ hb h2room⟩
      · split at hwrap
        · simp at hwrap
        · simp only [except_pure_eq_ok] at hwrap
          subst hwrap
          rw [hg1] at hg2
          cases hg2
          exact ⟨h2b, h2room⟩
    cases r2 with
    | none => simp at h
    | some dv =>
      obtain ⟨d3, v⟩ := dv
      simp only [except_bind_eq_ok, except_pure_eq_ok, Prod.mk.injEq] at h
      obtain ⟨s4, hset, h, hv⟩ := h
      subst h
      subst hv
      exact prepare_cast_set_lists_sound s3 s4 path T d2 d3 v h3.1 hg2 h3.2 hr2 hset

theorem append_atom_lists_sound (s s1 : series_builder_impl) (path : builder_path)
    (variant : Option Nat) (value : atom_view) (hs : s.lists_sound)
    (hroom : ∃ d, s.get path = .ok d ∧
      (s.builder_.fits_list path (d.length + 1) ∨ ∃ ds vs, d.builder_ = .conflict ds vs))
    (h : typed_builder.append_atom s path variant value = .ok s1) : s1.lists_sound := by
  obtain ⟨d0, hg0, hroom⟩ := hroom
  simp only [typed_builder.append_atom, except_bind_eq_ok] at h
  obtain ⟨d, hg, h⟩ := h
  rw [hg0] at hg
  cases hg
  split at h
  · rename_i t inner ht
    refine append_lists_sound s s1 path d0 variant _ _ hs hg0 ht ?_ ?_ hroom h
    · simp only [builder_base.lists_sound]
    · simp [builder_base.length]
  · simp at h

theorem append_record_lists_sound (s s1 : series_builder_impl) (path : builder_path)
    (variant : Option Nat) (r : record_ref) (hs : s.lists_sound)
    (hroom : ∃ d, s.get path = .ok d ∧
      (s.builder_.fits_list path (d.length + 1) ∨ ∃ ds vs, d.builder_ = .conflict ds vs))
    (h : typed_builder.append_record s path variant = .ok (s1, r)) : s1.lists_sound := by
  obtain ⟨d0, hg0, hroom⟩ := hroom
  simp only [typed_builder.append_record, except_bind_eq_ok] at h
  obtain ⟨d, hg, h⟩ := h
  rw [hg0] at hg
  cases hg
  split at h
  · rename_i fields valid len ka ht
    simp only [except_bind_eq_ok, except_pure_eq_ok, Prod.mk.injEq] at h
    obtain ⟨s2, hset, h, _⟩ := h
    subst h
    have htb := dynamic_builder_typed_lists_sound d0 variant _
      (dynamic_builder_get_lists_sound path s.builder_ d0 hs.1 hg0) ht
    simp only [builder_base.lists_sound] at htb
    refine append_lists_sound s s2 path d0 variant _ _ hs hg0 ht ?_ ?_ hroom hset
    · simp only [builder_base.lists_sound]
      exact htb
    · simp [builder_base.length]
  · simp at h

theorem append_list_lists_sound (s s1 : series_builder_impl) (path : builder_path)
    (variant : Option Nat) (r : builder_ref) (hs : s.lists_sound)
    (hroom : ∃ d, s.get path = .ok d ∧
      (s.builder_.fits_list path (d.length + 1) ∨ ∃ ds vs, d.builder_ = .conflict ds vs))
    (h : typed_builder.append_list s path variant = .ok (s1, r)) : s1.lists_sound := by
  obtain ⟨d0, hg0, hroom⟩ := hroom
  simp only [typed_builder.append_list, except_bind_eq_ok] at h
  obtain ⟨d, hg, h⟩ := h
  rw [hg0] at hg
  cases hg
  split at h
  · rename_i offsets elements ht
    simp only [except_bind_eq_ok, ensure_eq_ok, except_pure_eq_ok, Prod.mk.injEq] at h
    obtain ⟨_, _, s2, hset, h, _⟩ := h
    subst h
    have htb := dynamic_builder_typed_lists_sound d0 variant _
      (dynamic_builder_get_lists_sound path s.builder_ d0 hs.1 hg0) ht
    simp only [builder_base.lists_sound] at htb
    refine append_lists_sound s s2 path d0 variant _ _ hs hg0 ht ?_ ?_ hroom hset
    · simp only [builder_base.lists_sound]
      exact ⟨offsets_chain_append offsets _ true true true htb.1, htb.2⟩
    · simp [builder_base.length]
  · simp at h

/-- The method `dynamic_builder::atom` keeps the list offsets sound when one more
row can be stored where the builder is, before and after a cut. -/
theorem dynamic_atom_lists_sound (print : data_view2 → Option String)
    (s s1 : series_builder_impl) (path : builder_path) (value : atom_view)
    (hs : s.lists_sound)
    (hroom : ∀ s2, (s2 = s ∨ s.finish_previous_events print (path == []) = .ok s2) →
      ∀ d, s2.get path = .ok d → s2.builder_.fits_list path (d.length + 1))
    (h : dynamic_builder.atom print s path value = .ok s1) : s1.lists_sound := by
  simp only [dynamic_builder.atom] at h
  split at h
  · simp only [except_bind_eq_ok] at h
    obtain ⟨d, hg, d1, hr, h⟩ := h
    have hdb := dynamic_builder_get_lists_sound path s.builder_ d hs.1 hg
    refine series_set_lists_sound s s1 path d1 hs
      (dynamic_builder_resize_lists_sound d _ d1 hdb hr) ?_ h
    rw [dynamic_builder_resize_length d d1 _ hr]
    exact hroom s (Or.inl rfl) d hg
  · simp only [except_bind_eq_ok] at h
    obtain ⟨d, hg, h⟩ := h
    split at h
    · rename_i labels inner p m
      refine series_set_lists_sound s s1 path _ hs ?_ ?_ h
      · simp only [dynamic_builder.lists_sound, builder_base.lists_sound]
      · have := hroom s (Or.inl rfl) _ hg
        simpa [dynamic_builder.length, dynamic_builder.builder_, builder_base.length] using this
    · simp at h
  · simp only [except_bind_eq_ok] at h
    obtain ⟨⟨s2, variant⟩, hp, h⟩ := h
    have hpost := prepare_lists_sound print s s2 path _ variant hs hroom hp
    exact append_atom_lists_sound s2 s1 path variant value hpost.1 hpost.2 h

theorem dynamic_record_lists_sound (print : data_view2 → Option String)
    (s s1 : series_builder_impl) (path : builder_path) (r : record_ref)
    (hs : s.lists_sound)
    (hroom : ∀ s2, (s2 = s ∨ s.finish_previous_events print (path == []) = .ok s2) →
      ∀ d, s2.get path = .ok d → s2.builder_.fits_list path (d.length + 1))
    (h : dynamic_builder.record print s path = .ok (s1, r)) : s1.lists_sound := by
  simp only [dynamic_builder.record, except_bind_eq_ok] at h
  obtain ⟨⟨s2, variant⟩, hp, h⟩ := h
  have hpost := prepare_lists_sound print s s2 path _ variant hs hroom hp
  exact append_record_lists_sound s2 s1 path variant r hpost.1 hpost.2 h

theorem dynamic_list_lists_sound (print : data_view2 → Option String)
    (s s1 : series_builder_impl) (path : builder_path) (r : builder_ref)
    (hs : s.lists_sound)
    (hroom : ∀ s2, (s2 = s ∨ s.finish_previous_events print (path == []) = .ok s2) →
      ∀ d, s2.get path = .ok d → s2.builder_.fits_list path (d.length + 1))
    (h : dynamic_builder.list print s path = .ok (s1, r)) : s1.lists_sound := by
  simp only [dynamic_builder.list, except_bind_eq_ok] at h
  obtain ⟨⟨s2, variant⟩, hp, h⟩ := h
  have hpost := prepare_lists_sound print s s2 path _ variant hs hroom hp
  exact append_list_lists_sound s2 s1 path variant r hpost.1 hpost.2 h
theorem list_live_nil (d : dynamic_builder) (v : Option Nat) (h : d.list_live [] v = true) :
    d.variant_live v = true ∧ ∃ offsets elements o,
      d.typed v = some (.list offsets elements) ∧ offsets.getLast? = some (o, true) := by
  simp only [dynamic_builder.list_live, Bool.and_eq_true] at h
  obtain ⟨h1, h2⟩ := h
  refine ⟨h1, ?_⟩
  split at h2
  · rename_i offsets elements ht
    split at h2
    · rename_i o hl
      exact ⟨offsets, elements, o, ht, hl⟩
    · cases h2
  · cases h2

theorem list_live_cons (d : dynamic_builder) (step : path_step) (rest : builder_path)
    (v : Option Nat) (h : d.list_live (step :: rest) v = true) :
    d.variant_live step.variant = true ∧ ∃ t x, d.typed step.variant = some t ∧
      t.child step = some x ∧ t.child_live step x = true ∧ x.list_live rest v = true := by
  simp only [dynamic_builder.list_live, Bool.and_eq_true] at h
  obtain ⟨h1, h2⟩ := h
  refine ⟨h1, ?_⟩
  cases ht : d.typed step.variant with
  | none => simp [ht] at h2
  | some t =>
    simp only [ht] at h2
    cases hc : t.child step with
    | none => simp [hc] at h2
    | some x =>
      simp only [hc, Bool.and_eq_true] at h2
      exact ⟨t, x, rfl, hc, h2.1, h2.2⟩

theorem list_live_open (p : builder_path) (v : Option Nat) :
    ∀ (d : dynamic_builder), d.list_live p v = true → d.list_open p v := by
  induction p with
  | nil =>
    intro d hlive x offsets elements hx ht
    simp only [dynamic_builder.get, except_pure_eq_ok] at hx
    subst hx
    obtain ⟨_, offsets0, elements0, o, ht0, hl⟩ := list_live_nil d v hlive
    rw [ht] at ht0
    cases ht0
    exact ⟨o, hl⟩
  | cons step rest ih =>
    intro d hlive x offsets elements hx ht
    obtain ⟨_, t, c, htc, hc, _, hcl⟩ := list_live_cons d step rest v hlive
    rw [dynamic_builder_get_cons_of d c t step rest htc hc] at hx
    exact ih c hcl x offsets elements hx ht

/-- A cut that leaves a list of a list builder leaves only lists that are not
null. -/
theorem list_cut_open (print : data_view2 → Option String) (offsets : List (Nat × Bool))
    (elements : dynamic_builder) (c : Nat) (a : typed_array) (t1 : builder_base)
    (hc : 1 ≤ c)
    (h : (builder_base.list offsets elements).finish_and_leave print 0 c = .ok (a, t1)) :
    ∃ offsets1 elements1 o, t1 = .list offsets1 elements1 ∧
      offsets1.getLast? = some (o, true) := by
  simp only [builder_base.finish_and_leave, except_bind_eq_ok, ensure_eq_ok,
    except_pure_eq_ok, Prod.mk.injEq, List.replicate_zero, List.append_nil] at h
  obtain ⟨_, _, _, hle, ⟨used, elements1⟩, hf, result, _, _, h⟩ := h
  subst h
  have hne : ((offsets ++ [(elements.length, true)]).drop (offsets.length - c)).take c ≠ [] := by
    intro he
    have hl := congrArg List.length he
    simp only [List.length_take, List.length_drop, List.length_append, List.length_singleton,
      List.length_nil] at hl
    omega
  obtain ⟨last, hlast⟩ : ∃ last,
      (((offsets ++ [(elements.length, true)]).drop (offsets.length - c)).take c).getLast?
        = some last := by
    cases hx : (((offsets ++ [(elements.length, true)]).drop (offsets.length - c)).take c).getLast?
      with
    | none => exact absurd (List.getLast?_eq_none_iff.mp hx) hne
    | some last => exact ⟨last, rfl⟩
  refine ⟨_, elements1,
    last.1 - ((offsets ++ [(elements.length, true)]).getD (offsets.length - c) (0, false)).1,
    rfl, ?_⟩
  rw [List.getLast?_map, hlast]
  rfl

/-- A cut that leaves a row of the tree leaves the last list of a list builder
of the event in progress not null. -/
theorem cut_list_open (print : data_view2 → Option String) (v : Option Nat)
    (p : builder_path) : ∀ (d d1 : dynamic_builder) (c : Nat) (a : typed_array), 1 ≤ c →
      d.list_live p v = true → d.finish_and_leave print 0 c = .ok (a, d1) →
      d1.list_open p v := by
  induction p with
  | nil =>
    intro d d1 c a hc hlive h x1 offsets1 elements1 hx1 ht1
    simp only [dynamic_builder.get, except_pure_eq_ok] at hx1
    subst hx1
    obtain ⟨hvl, offsets, elements, o, ht, hl⟩ := list_live_nil d v hlive
    rcases dynamic_cut_typed print d d1 v _ _ c a hc hvl ht ht1 h with
      h1 | ⟨c1, a1, hc1, hfin⟩ | ⟨n, h1⟩
    · simp only [builder_base.list.injEq] at h1
      obtain ⟨hf, _⟩ := h1
      subst hf
      exact ⟨o, hl⟩
    · obtain ⟨offsets2, elements2, o2, heq, hl2⟩ :=
        list_cut_open print offsets elements c1 a1 _ hc1 hfin
      simp only [builder_base.list.injEq] at heq
      obtain ⟨hf, _⟩ := heq
      subst hf
      exact ⟨o2, hl2⟩
    · cases h1
  | cons step rest ih =>
    intro d d1 c a hc hlive h x1 offsets1 elements1 hx1 ht1
    obtain ⟨hvl, t, x, ht, hx, hcl, hxl⟩ := list_live_cons d step rest v hlive
    obtain ⟨t1, y1, hty1, hy1, hget1⟩ := dynamic_builder_get_cons d1 x1 step rest hx1
    rcases dynamic_cut_typed print d d1 step.variant _ _ c a hc hvl ht hty1 h with
      h1 | ⟨c1, a1, hc1, hfin⟩ | ⟨n, h1⟩
    · subst h1
      rw [hx] at hy1
      cases hy1
      exact list_live_open rest v x hxl x1 offsets1 elements1 hget1 ht1
    · obtain ⟨y2, c2, a2, hc2, hy2, hfin2⟩ :=
        typed_cut_child print t t1 step x c1 a1 hc1 hx hcl hfin
      rw [hy1] at hy2
      cases hy2
      exact ih x y1 c2 a2 hc2 hxl hfin2 x1 offsets1 elements1 hget1 ht1
    · subst h1
      cases step <;> simp [builder_base.child] at hy1

theorem list_open_after_cut (print : data_view2 → Option String) (s s2 : series_builder_impl)
    (q : builder_path) (v : Option Nat) (hlive : s.builder_.list_live q v = true)
    (h : s.finish_previous_events print false = .ok s2) : s2.builder_.list_open q v := by
  simp only [series_builder_impl.finish_previous_events] at h
  split at h
  · simp only [except_pure_eq_ok] at h
    subst h; exact list_live_open q v _ hlive
  · split at h
    · simp only [except_pure_eq_ok] at h
      subst h; exact list_live_open q v _ hlive
    · simp only [except_bind_eq_ok, ensure_eq_ok, except_pure_eq_ok, Bool.not_false,
        if_true] at h
      obtain ⟨⟨slice, b1⟩, hf, _, _, _, _, h⟩ := h
      subst h
      exact cut_list_open print v q s.builder_ b1 1 slice (Nat.le_refl 1) hlive hf

/-- Behind a last list that is not null the elements can grow by one row. -/
theorem list_open_fits (d e : dynamic_builder) (q : builder_path) (v : Option Nat)
    (hd : d.lists_sound) (hopen : d.list_open q v)
    (hg : d.get (q ++ [.elements v]) = .ok e) :
    d.fits_list (q ++ [.elements v]) (e.length + 1) := by
  rw [fits_list_elements_iff]
  intro x offsets elements hx ht
  obtain ⟨x1, offsets1, hx1, ht1⟩ := dynamic_builder_get_elements d e q v hg
  rw [hx] at hx1
  cases hx1
  rw [ht] at ht1
  cases ht1
  have htb := dynamic_builder_typed_lists_sound x v _
    (dynamic_builder_get_lists_sound q d x hd hx) ht
  simp only [builder_base.lists_sound] at htb
  exact offsets_chain_grow offsets _ _ htb.1 (hopen x offsets _ hx ht) (Nat.le_succ _)

/-- The elements of a list builder of the event in progress can grow by one row,
before and after a cut. -/
theorem elements_path_room (print : data_view2 → Option String) (s : series_builder_impl)
    (q : builder_path) (v : Option Nat) (hs : s.lists_sound)
    (hlive : s.builder_.list_live q v = true) :
    ∀ s2, (s2 = s ∨ s.finish_previous_events print
        ((q ++ [path_step.elements v]) == []) = .ok s2) →
      ∀ d, s2.get (q ++ [.elements v]) = .ok d →
        s2.builder_.fits_list (q ++ [.elements v]) (d.length + 1) := by
  intro s2 hs2 d hd
  have hne : ((q ++ [path_step.elements v]) == []) = false := by
    cases q <;> rfl
  rw [hne] at hs2
  rcases hs2 with hs2 | hs2
  · subst hs2
    exact list_open_fits _ d q v hs.1 (list_live_open q v _ hlive) hd
  · exact list_open_fits _ d q v (finish_previous_events_lists_sound print s s2 _ hs hs2).1
      (list_open_after_cut print s s2 q v hlive hs2) hd
theorem record_fields_lists_sound (s : series_builder_impl) (r : record_ref)
    (d : dynamic_builder) (fields : List (String × dynamic_builder)) (valid : List Bool)
    (len : Nat) (ka : Option String) (hs : s.lists_sound) (hg : s.get r.owner = .ok d)
    (ht : d.typed r.variant = some (.record fields valid len ka)) :
    fields_lists_sound fields := by
  have hdb := dynamic_builder_get_lists_sound r.owner s.builder_ d hs.1 hg
  have htb := dynamic_builder_typed_lists_sound d r.variant _ hdb ht
  simpa only [builder_base.lists_sound] using htb

/-- Writing back the members of a record builder keeps the list offsets sound
when the fields have sound list offsets. -/
theorem record_set_lists_sound (s s1 : series_builder_impl) (r : record_ref)
    (d : dynamic_builder) (fields fields1 : List (String × dynamic_builder))
    (valid valid1 : List Bool) (len : Nat) (ka ka1 : Option String) (hs : s.lists_sound)
    (hg : s.get r.owner = .ok d) (ht : d.typed r.variant = some (.record fields valid len ka))
    (hf : fields_lists_sound fields1)
    (h : record_ref.set s r d fields1 valid1 len ka1 = .ok s1) : s1.lists_sound := by
  simp only [record_ref.set] at h
  have hdb := dynamic_builder_get_lists_sound r.owner s.builder_ d hs.1 hg
  refine series_set_lists_sound s s1 r.owner _ hs
    (dynamic_builder_set_typed_lists_sound d r.variant _ hdb ?_) ?_ h
  · simp only [builder_base.lists_sound]
    exact hf
  · rw [set_typed_length d r.variant _ (.record fields1 valid1 len ka1) ht rfl]
    exact fits_list_of_get r.owner s.builder_ d hs.1 hg

theorem field_path_fits_list (print : data_view2 → Option String) (s : series_builder_impl)
    (owner : builder_path) (v : Option Nat) (name : String) :
    ∀ s2, (s2 = s ∨ s.finish_previous_events print
        ((owner ++ [path_step.field v name]) == []) = .ok s2) →
      ∀ d, s2.get (owner ++ [.field v name]) = .ok d →
        s2.builder_.fits_list (owner ++ [.field v name]) (d.length + 1) := by
  intro s2 _ d _
  exact fits_list_field _ owner v name _

theorem keep_alive_reset_get (s s1 : series_builder_impl) (r : record_ref)
    (name : String) (d d2 : dynamic_builder) (fields : List (String × dynamic_builder))
    (valid : List Bool) (len : Nat) (ka : Option String)
    (hd2 : s.get (r.owner ++ [.field r.variant name]) = .ok d2)
    (hg : record_ref.get s r = .ok (d, fields, valid, len, ka))
    (h : record_ref.set s r d fields valid len none = .ok s1) :
    s1.get (r.owner ++ [.field r.variant name]) = .ok d2 := by
  obtain ⟨hown, htyp⟩ := record_ref_get_ok s r d fields valid len ka hg
  obtain ⟨x, hx, hxt, _, _⟩ :=
    record_set_get s s1 r d fields fields valid valid len ka none htyp h
  obtain ⟨x0, fields0, valid0, len0, ka0, hx0, ht0, hf0⟩ :=
    dynamic_builder_get_field s.builder_ d2 r.owner r.variant name hd2
  have hx0a : s.get r.owner = .ok x0 := hx0
  rw [hown] at hx0a
  cases hx0a
  rw [htyp] at ht0
  cases ht0
  exact field_path_get s1 r x fields valid len none name d2 hx hxt hf0

/-- The method `typed_builder<record_type>::prepare<Type>(name)` keeps the list
offsets sound and returns a pointer to the field. -/
theorem prepare_field_lists_sound (print : data_view2 → Option String)
    (s s1 : series_builder_impl) (self : record_ref) (name : String) (T : target)
    (path : builder_path) (variant : Option Nat) (hs : s.lists_sound)
    (h : typed_builder.prepare_field print s self name T = .ok (s1, path, variant)) :
    s1.lists_sound ∧ ∃ d2, s1.get path = .ok d2 ∧
      (s1.builder_.fits_list path (d2.length + 1)
        ∨ ∃ ds vs, d2.builder_ = .conflict ds vs) := by
  simp only [typed_builder.prepare_field, except_bind_eq_ok] at h
  obtain ⟨⟨d, fields, valid, len, ka⟩, hg, h⟩ := h
  obtain ⟨hown, htyp⟩ := record_ref_get_ok s self d fields valid len ka hg
  have hfb := record_fields_lists_sound s self d fields valid len ka hs hown htyp
  cases hfind : fields_find fields name with
  | none =>
    simp only [hfind, except_bind_eq_ok, except_pure_eq_ok, Prod.mk.injEq, ensure_eq_ok] at h
    obtain ⟨_, _, builder, hb, s2, hset, ⟨s3, v3⟩, hp, h1, h2, h3⟩ := h
    subst h1 h2 h3
    have hbb : builder.lists_sound := dynamic_builder_resize_lists_sound _ _ _
      (by simp only [dynamic_builder.new, dynamic_builder.lists_sound,
        builder_base.lists_sound]) hb
    have h2b := record_set_lists_sound s s2 self d fields _ valid valid len ka ka hs hown htyp
      (fields_lists_sound_append fields name builder hfb hbb) hset
    exact prepare_lists_sound print s2 s3 _ T v3 h2b
      (field_path_fits_list print s2 self.owner self.variant name) hp
  | some b =>
    simp only [hfind, except_bind_eq_ok, ensure_eq_ok, except_pure_eq_ok, Prod.mk.injEq] at h
    obtain ⟨_, _, builder, hb, _, _, s2, hset, ⟨s3, v3⟩, hp, ⟨d4, fields4, valid4, len4, ka4⟩,
      hg4, s5, hset5, h1, h2, h3⟩ := h
    subst h1 h2 h3
    have hbb : builder.lists_sound := dynamic_builder_resize_lists_sound _ _ _
      (fields_lists_sound_find fields name b hfb hfind) hb
    have h2b := record_set_lists_sound s s2 self d fields _ valid valid len ka (some name) hs
      hown htyp (fields_lists_sound_set fields name builder hfb hbb) hset
    have hpost := prepare_lists_sound print s2 s3 _ T v3 h2b
      (field_path_fits_list print s2 self.owner self.variant name) hp
    obtain ⟨hown4, htyp4⟩ := record_ref_get_ok s3 self d4 fields4 valid4 len4 ka4 hg4
    obtain ⟨d2, hd2, _⟩ := hpost.2
    refine ⟨record_set_lists_sound s3 s5 self d4 fields4 fields4 valid4 valid4 len4 ka4 none
      hpost.1 hown4 htyp4
      (record_fields_lists_sound s3 self d4 fields4 valid4 len4 ka4 hpost.1 hown4 htyp4) hset5,
      d2, keep_alive_reset_get s3 s5 self name d4 d2 fields4 valid4 len4 ka4 hd2 hg4 hset5,
      Or.inl (fits_list_field _ self.owner self.variant name _)⟩

/-- The method `field_ref::atom` keeps the list offsets sound. -/
theorem field_atom_lists_sound (print : data_view2 → Option String)
    (s s1 : series_builder_impl) (self : field_ref) (value : atom_view)
    (hs : s.lists_sound)
    (h : field_ref.atom print s self value = .ok s1) : s1.lists_sound := by
  simp only [field_ref.atom] at h
  split at h
  · simp only [except_bind_eq_ok] at h
    obtain ⟨⟨d, fields, valid, len, ka⟩, hg, h⟩ := h
    obtain ⟨hown, htyp⟩ := record_ref_get_ok s self.origin_ d fields valid len ka hg
    have hfb := record_fields_lists_sound s self.origin_ d fields valid len ka hs hown htyp
    cases hfind : fields_find fields self.name_ with
    | none =>
      simp only [hfind, except_pure_eq_ok] at h
      subst h; exact hs
    | some field =>
      simp only [hfind, except_bind_eq_ok, ensure_eq_ok] at h
      obtain ⟨_, _, h⟩ := h
      split at h
      · simp only [except_bind_eq_ok, ensure_eq_ok] at h
        obtain ⟨_, _, field1, hr, hset⟩ := h
        have hb1 : field1.lists_sound := dynamic_builder_resize_lists_sound _ _ _
          (fields_lists_sound_find fields _ field hfb hfind) hr
        exact record_set_lists_sound s s1 self.origin_ d fields _ valid valid len ka ka hs hown
          htyp (fields_lists_sound_set fields _ field1 hfb hb1) hset
      · simp only [except_pure_eq_ok] at h
        subst h; exact hs
  · simp only [except_bind_eq_ok] at h
    obtain ⟨⟨d, fields, valid, len, ka⟩, hg, h⟩ := h
    obtain ⟨hown, htyp⟩ := record_ref_get_ok s self.origin_ d fields valid len ka hg
    have hfb := record_fields_lists_sound s self.origin_ d fields valid len ka hs hown htyp
    cases hfind : fields_find fields self.name_ with
    | none => simp [hfind] at h
    | some b =>
      simp only [hfind, except_bind_eq_ok, ensure_eq_ok] at h
      obtain ⟨_, _, builder, hb, s2, hset, h⟩ := h
      have hbb : builder.lists_sound := dynamic_builder_resize_lists_sound _ _ _
        (fields_lists_sound_find fields _ b hfb hfind) hb
      have h2b := record_set_lists_sound s s2 self.origin_ d fields _ valid valid len ka ka hs
        hown htyp (fields_lists_sound_set fields _ builder hfb hbb) hset
      exact dynamic_atom_lists_sound print s2 s1 _ value h2b
        (field_path_fits_list print s2 self.origin_.owner self.origin_.variant self.name_) h
  · simp only [except_bind_eq_ok] at h
    obtain ⟨⟨s2, path, variant⟩, hp, h⟩ := h
    have hpost := prepare_field_lists_sound print s s2 self.origin_ self.name_ _ path variant
      hs hp
    exact append_atom_lists_sound s2 s1 path variant value hpost.1 hpost.2 h

theorem field_record_lists_sound (print : data_view2 → Option String)
    (s s1 : series_builder_impl) (self : field_ref) (r : record_ref)
    (hs : s.lists_sound)
    (h : field_ref.record print s self = .ok (s1, r)) : s1.lists_sound := by
  simp only [field_ref.record, except_bind_eq_ok] at h
  obtain ⟨⟨s2, path, variant⟩, hp, h⟩ := h
  have hpost := prepare_field_lists_sound print s s2 self.origin_ self.name_ _ path variant
    hs hp
  exact append_record_lists_sound s2 s1 path variant r hpost.1 hpost.2 h

theorem field_list_lists_sound (print : data_view2 → Option String)
    (s s1 : series_builder_impl) (self : field_ref) (r : builder_ref)
    (hs : s.lists_sound)
    (h : field_ref.list print s self = .ok (s1, r)) : s1.lists_sound := by
  simp only [field_ref.list, except_bind_eq_ok] at h
  obtain ⟨⟨s2, path, variant⟩, hp, h⟩ := h
  have hpost := prepare_field_lists_sound print s s2 self.origin_ self.name_ _ path variant
    hs hp
  exact append_list_lists_sound s2 s1 path variant r hpost.1 hpost.2 h

mutual
/-- A protected builder has sound list offsets directly after its construction. -/
theorem protect_builder_lists_sound :
    (ty : tenzir.type) → ∀ (b : builder_base), protect_builder ty = .ok b → b.lists_sound
  | .null => by
    intro b hp
    simp only [protect_builder, except_pure_eq_ok] at hp
    subst hp
    trivial
  | .basic k => by
    intro b hp
    simp only [protect_builder, except_pure_eq_ok] at hp
    subst hp
    trivial
  | .enumeration ls => by
    intro b hp
    simp only [protect_builder, except_pure_eq_ok] at hp
    subst hp
    trivial
  | .list t => by
    intro b hp
    simp only [protect_builder, except_bind_eq_ok, except_pure_eq_ok] at hp
    obtain ⟨el, hel, hp⟩ := hp
    subst hp
    have ih := protect_builder_lists_sound t el hel
    have hl := (protect_builder_bounded t el hel).1
    simp only [builder_base.lists_sound, dynamic_builder.lists_sound, List.nil_append,
      dynamic_builder.length, dynamic_builder.builder_, hl]
    exact ⟨offsets_chain_single true, ih⟩
  | .map _ _ => by intro b hp; simp [protect_builder] at hp
  | .record fs => by
    intro b hp
    simp only [protect_builder, except_bind_eq_ok, except_pure_eq_ok] at hp
    obtain ⟨fields, hf, hp⟩ := hp
    subst hp
    have ih := protect_fields_lists_sound fs [] fields (by simp only [fields_lists_sound]) hf
    simp only [builder_base.lists_sound]
    exact ih
  | .enriched _ _ nested => by
    intro b hp
    simp only [protect_builder] at hp
    exact protect_builder_lists_sound nested b hp
theorem protect_fields_lists_sound :
    (fs : List (String × tenzir.type)) → ∀ (done fields : List (String × dynamic_builder)),
      fields_lists_sound done → protect_fields fs done = .ok fields →
      fields_lists_sound fields
  | [] => by
    intro done fields hd hp
    simp only [protect_fields, except_pure_eq_ok] at hp
    subst hp
    exact hd
  | (name, field_ty) :: rest => by
    intro done fields hd hp
    simp only [protect_fields, except_bind_eq_ok, ensure_eq_ok] at hp
    obtain ⟨_, _, field, hf, hp⟩ := hp
    have ih := protect_builder_lists_sound field_ty field hf
    refine protect_fields_lists_sound rest _ fields ?_ hp
    apply fields_lists_sound_append done name _ hd
    simp only [dynamic_builder.lists_sound]
    exact ih
end

theorem series_builder_new_lists_sound (ty : Option tenzir.type)
    (s : series_builder_impl) (h : series_builder.new ty = .ok s) : s.lists_sound := by
  cases ty with
  | none =>
    simp only [series_builder.new, except_pure_eq_ok] at h
    subst h
    refine ⟨?_, ?_⟩
    · simp only [series_builder_impl.new, dynamic_builder.new, dynamic_builder.lists_sound,
        builder_base.lists_sound]
    · intro a ha
      simp [series_builder_impl.new] at ha
  | some ty =>
    simp only [series_builder.new, dynamic_builder.protect, except_bind_eq_ok,
      except_pure_eq_ok] at h
    obtain ⟨d, ⟨b, hb, hd⟩, h⟩ := h
    subst hd h
    refine ⟨?_, ?_⟩
    · simp only [dynamic_builder.lists_sound]
      exact protect_builder_lists_sound ty b hb
    · intro a ha
      simp at ha

theorem finish_lists_sound (print : data_view2 → Option String) (s s1 : series_builder_impl)
    (arrays : List typed_array) (hs : s.lists_sound)
    (h : s.finish print = .ok (arrays, s1)) :
    (∀ a ∈ arrays, a.array.offsets_sound) ∧ s1.lists_sound := by
  simp only [series_builder_impl.finish] at h
  split at h
  · simp only [except_bind_eq_ok, ensure_eq_ok, except_pure_eq_ok, Prod.mk.injEq] at h
    obtain ⟨⟨array, b1⟩, hf, _, _, h1, h2⟩ := h
    subst h1 h2
    have key := dynamic_builder_finish_lists_sound print s.builder_ _ _ _ _ hs.1 hf
    refine ⟨?_, key.2, ?_⟩
    · intro a ha
      simp only [List.mem_append, List.mem_singleton] at ha
      rcases ha with ha | ha
      · exact hs.2 a ha
      · subst ha
        exact key.1
    · intro a ha
      cases ha
  · simp only [except_pure_eq_ok, Prod.mk.injEq] at h
    obtain ⟨h1, h2⟩ := h
    subst h1 h2
    exact ⟨hs.2, hs.1, fun a ha => by cases ha⟩

theorem remove_last_lists_sound (s s1 : series_builder_impl) (hs : s.lists_sound)
    (h : s.remove_last = .ok s1) : s1.lists_sound := by
  simp only [series_builder_impl.remove_last] at h
  split at h
  · simp only [except_bind_eq_ok, except_pure_eq_ok] at h
    obtain ⟨b1, hr, h⟩ := h
    subst h
    exact ⟨dynamic_builder_resize_lists_sound s.builder_ _ b1 hs.1 hr, hs.2⟩
  · simp only [except_pure_eq_ok] at h
    subst h
    exact hs

theorem current_path_room (print : data_view2 → Option String) (s : series_builder_impl)
    (path : builder_path) (hs : s.lists_sound)
    (hp : match path.getLast? with
      | none => True
      | some (.elements variant) => s.builder_.list_live path.dropLast variant = true
      | some (.field _ _) => False) :
    ∀ s2, (s2 = s ∨ s.finish_previous_events print (path == []) = .ok s2) →
      ∀ d, s2.get path = .ok d → s2.builder_.fits_list path (d.length + 1) := by
  rcases path_nil_or_append path with he | ⟨q, last, he⟩
  · subst he
    intro s2 _ d _
    exact fits_list_nil _ _
  · subst he
    cases last with
    | field v name => simp at hp
    | elements v =>
      have hl : (q ++ [path_step.elements v]).getLast? = some (.elements v) :=
        List.getLast?_concat q
      have hd : (q ++ [path_step.elements v]).dropLast = q := List.dropLast_concat
      rw [hl] at hp
      simp only [hd] at hp
      exact elements_path_room print s q v hs hp

/-- One call on a handle of the event in progress keeps the list offsets of the
builder tree and of the queue of finished batches sound. -/
theorem call_run_lists_sound (print : data_view2 → Option String)
    (s s1 : series_builder_impl) (c : call) (hc : c.current s)
    (h : c.run print s = .ok s1) (hs : s.lists_sound) : s1.lists_sound := by
  cases c with
  | atom ref value =>
    cases ref with
    | series =>
      simp only [call.run, builder_ref.atom, series_builder.atom, series_builder_impl.atom,
        except_bind_eq_ok] at h
      obtain ⟨s2, hfc, h⟩ := h
      have h2 := finish_if_conflict_lists_sound print s s2 hs hfc
      exact dynamic_atom_lists_sound print s2 s1 [] value h2
        (current_path_room print s2 [] h2 trivial) h
    | dynamic path =>
      simp only [call.current, call.ref] at hc
      exact dynamic_atom_lists_sound print s s1 path value hs
        (current_path_room print s path hs hc) h
    | field f => exact field_atom_lists_sound print s s1 f value hs h
  | record ref =>
    simp only [call.run, except_map_eq_ok] at h
    obtain ⟨⟨s2, r⟩, h, h1⟩ := h
    subst h1
    cases ref with
    | series =>
      simp only [builder_ref.record, series_builder.record, series_builder_impl.record,
        except_bind_eq_ok] at h
      obtain ⟨s3, hfc, h⟩ := h
      have h3 := finish_if_conflict_lists_sound print s s3 hs hfc
      exact dynamic_record_lists_sound print s3 s2 [] r h3
        (current_path_room print s3 [] h3 trivial) h
    | dynamic path =>
      simp only [call.current, call.ref] at hc
      exact dynamic_record_lists_sound print s s2 path r hs
        (current_path_room print s path hs hc) h
    | field f => exact field_record_lists_sound print s s2 f r hs h
  | list ref =>
    simp only [call.run, except_map_eq_ok] at h
    obtain ⟨⟨s2, r⟩, h, h1⟩ := h
    subst h1
    cases ref with
    | series =>
      simp only [builder_ref.list, series_builder.list, series_builder_impl.list,
        except_bind_eq_ok] at h
      obtain ⟨s3, hfc, h⟩ := h
      have h3 := finish_if_conflict_lists_sound print s s3 hs hfc
      exact dynamic_list_lists_sound print s3 s2 [] r h3
        (current_path_room print s3 [] h3 trivial) h
    | dynamic path =>
      simp only [call.current, call.ref] at hc
      exact dynamic_list_lists_sound print s s2 path r hs
        (current_path_room print s path hs hc) h
    | field f => exact field_list_lists_sound print s s2 f r hs h
  | remove_last => exact remove_last_lists_sound s s1 hs h
  | finish =>
    simp only [call.run, except_map_eq_ok] at h
    obtain ⟨⟨arrays, s2⟩, h, h1⟩ := h
    subst h1
    exact (finish_lists_sound print s s2 arrays hs h).2

theorem run_all_lists_sound (print : data_view2 → Option String) (calls : List call) :
    ∀ (s s1 : series_builder_impl), handles_current print s calls →
      run_all print s calls = .ok s1 → s.lists_sound → s1.lists_sound := by
  induction calls with
  | nil =>
    intro s s1 _ h hs
    simp only [run_all, List.foldlM_nil, except_pure_eq_ok] at h
    subst h; exact hs
  | cons c rest ih =>
    intro s s1 hg h hs
    simp only [run_all, List.foldlM_cons, except_bind_eq_ok] at h
    obtain ⟨s2, hc, h⟩ := h
    simp only [handles_current, hc] at hg
    exact ih s2 s1 hg.2 h (call_run_lists_sound print s s2 c hg.1 hc hs)
/-- C21: a series, new or protected, and any sequence of calls (writes through
the series or through handles, `remove_last()`, `finish()`) in which every
call through a handle is made on a handle of the event in progress. In every
array that a following `finish()` returns, the batches that conflict cuts
queued and the batch after them included, every list array of `n` lists, at
any depth, has `n + 1` offsets that begin at 0, do not decrease and end at the
length of its values. -/
theorem finished_list_offsets_are_sound (print : data_view2 → Option String)
    (ty : Option tenzir.type) (calls : List call) (s0 s s1 : series_builder_impl)
    (arrays : List typed_array)
    (hnew : series_builder.new ty = .ok s0)
    (hguard : handles_current print s0 calls)
    (hrun : run_all print s0 calls = .ok s)
    (hfinish : series_builder.finish print s = .ok (arrays, s1)) :
    ∀ a ∈ arrays, a.array.offsets_sound :=
  (finish_lists_sound print s s1 arrays
    (run_all_lists_sound print calls s0 s hguard hrun (series_builder_new_lists_sound ty s0 hnew))
    hfinish).1

/-- The event `{a: 1, l: [1, 2]}` is opened on a fresh series. -/
theorem list_cut_step1 (print : data_view2 → Option String) :
    call.run print
      series_builder_impl.new
      (.record .series)
      = .ok ⟨(.mk (.record [] [] 1 none) false .null), [], false⟩ := rfl

/-- The field `a` of the first event gets 1. -/
theorem list_cut_step2 (print : data_view2 → Option String) :
    call.run print
      ⟨(.mk (.record [] [] 1 none) false .null), [], false⟩
      (.atom (.field ⟨⟨[], none⟩, "a"⟩) (.int64 1))
      = .ok ⟨(.mk (.record [("a", (.mk (.atom (.basic (.int64)) [some (.int64 1)]) false .null))]
      [] 1 none) false .null), [], false⟩ := rfl

/-- The field `l` of the first event gets a list. -/
theorem list_cut_step3 (print : data_view2 → Option String) :
    call.run print
      ⟨(.mk (.record [("a", (.mk (.atom (.basic (.int64)) [some (.int64 1)]) false .null))]
      [] 1 none) false .null), [], false⟩
      (.list (.field ⟨⟨[], none⟩, "l"⟩))
      = .ok ⟨(.mk (.record [("a", (.mk (.atom (.basic (.int64)) [some (.int64 1)]) false .null)),
      ("l", (.mk (.list [(0, true)] (.mk (.null 0) false .null)) false .null))]
      [] 1 none) false .null), [], false⟩ := rfl

/-- The list gets 1. -/
theorem list_cut_step4 (print : data_view2 → Option String) :
    call.run print
      ⟨(.mk (.record [("a", (.mk (.atom (.basic (.int64)) [some (.int64 1)]) false .null)), ("l",
      (.mk (.list [(0, true)] (.mk (.null 0) false .null)) false .null))] [] 1 none) false .null),
      [], false⟩
      (.atom (.dynamic [.field none "l", .elements none]) (.int64 1))
      = .ok ⟨(.mk (.record [("a", (.mk (.atom (.basic (.int64)) [some (.int64 1)]) false .null)),
      ("l", (.mk (.list [(0, true)] (.mk (.atom (.basic (.int64)) [some
      (.int64 1)]) false .null)) false .null))] [] 1 none) false .null), [], false⟩ := rfl

/-- The list gets 2. -/
theorem list_cut_step5 (print : data_view2 → Option String) :
    call.run print
      ⟨(.mk (.record [("a", (.mk (.atom (.basic (.int64)) [some (.int64 1)]) false .null)), ("l",
      (.mk (.list [(0, true)] (.mk (.atom (.basic (.int64)) [some
      (.int64 1)]) false .null)) false .null))] [] 1 none) false .null), [], false⟩
      (.atom (.dynamic [.field none "l", .elements none]) (.int64 2))
      = .ok ⟨(.mk (.record [("a", (.mk (.atom (.basic (.int64)) [some (.int64 1)]) false .null)),
      ("l", (.mk (.list [(0, true)] (.mk (.atom (.basic (.int64)) [some (.int64 1), some
      (.int64 2)]) false .null)) false .null))] [] 1 none) false .null), [], false⟩ := rfl

/-- The second event is opened. -/
theorem list_cut_step6 (print : data_view2 → Option String) :
    call.run print
      ⟨(.mk (.record [("a", (.mk (.atom (.basic (.int64)) [some (.int64 1)]) false .null)), ("l",
      (.mk (.list [(0, true)] (.mk (.atom (.basic (.int64)) [some (.int64 1), some
      (.int64 2)]) false .null)) false .null))] [] 1 none) false .null), [], false⟩
      (.record .series)
      = .ok ⟨(.mk (.record [("a", (.mk (.atom (.basic (.int64)) [some (.int64 1)]) false .null)),
      ("l", (.mk (.list [(0, true)] (.mk (.atom (.basic (.int64)) [some (.int64 1), some
      (.int64 2)]) false .null)) false .null))] [] 2 none) false .null), [], false⟩ := rfl

/-- The field `l` of the second event gets a list. -/
theorem list_cut_step7 (print : data_view2 → Option String) :
    call.run print
      ⟨(.mk (.record [("a", (.mk (.atom (.basic (.int64)) [some (.int64 1)]) false .null)), ("l",
      (.mk (.list [(0, true)] (.mk (.atom (.basic (.int64)) [some (.int64 1), some
      (.int64 2)]) false .null)) false .null))] [] 2 none) false .null), [], false⟩
      (.list (.field ⟨⟨[], none⟩, "l"⟩))
      = .ok ⟨(.mk (.record [("a", (.mk (.atom (.basic (.int64)) [some (.int64 1)]) false .null)),
      ("l", (.mk (.list [(0, true), (2, true)] (.mk (.atom (.basic (.int64)) [some
      (.int64 1), some (.int64 2)]) false .null)) false .null))] [] 2 none) false .null),
      [], false⟩ := rfl

/-- The list gets 3. -/
theorem list_cut_step8 (print : data_view2 → Option String) :
    call.run print
      ⟨(.mk (.record [("a", (.mk (.atom (.basic (.int64)) [some (.int64 1)]) false .null)), ("l",
      (.mk (.list [(0, true), (2, true)] (.mk (.atom (.basic (.int64)) [some (.int64 1), some
      (.int64 2)]) false .null)) false .null))] [] 2 none) false .null), [], false⟩
      (.atom (.dynamic [.field none "l", .elements none]) (.int64 3))
      = .ok ⟨(.mk (.record [("a", (.mk (.atom (.basic (.int64)) [some (.int64 1)]) false .null)),
      ("l", (.mk (.list [(0, true), (2, true)] (.mk (.atom (.basic (.int64)) [some
      (.int64 1), some (.int64 2), some (.int64 3)]) false .null)) false .null))]
      [] 2 none) false .null), [], false⟩ := rfl

/-- The field `a` gets a string: the first event is cut off as a batch, the list of the second event stays in the builder. -/
theorem list_cut_step9 (print : data_view2 → Option String) :
    call.run print
      ⟨(.mk (.record [("a", (.mk (.atom (.basic (.int64)) [some (.int64 1)]) false .null)), ("l",
      (.mk (.list [(0, true), (2, true)] (.mk (.atom (.basic (.int64)) [some (.int64 1), some
      (.int64 2), some (.int64 3)]) false .null)) false .null))] [] 2 none) false .null),
      [], false⟩
      (.atom (.field ⟨⟨[], none⟩, "a"⟩) (.string "x"))
      = .ok ⟨(.mk (.record [("a", (.mk (.atom (.basic (.string)) [some
      (.string "x")]) false .null)), ("l", (.mk (.list [(0, true)] (.mk (.atom (.basic (.int64))
      [some (.int64 3)]) false .null)) false .null))] [] 1 none) false .null),
      [⟨(tenzir.type.record [("a", (.basic .int64)), ("l", (.list (.basic .int64)))]), (.struct 1
      [(.primitive [some (.int64 1)]), (.list [0, 2] [true] (.primitive [some (.int64 1), some
      (.int64 2)]))] none)⟩], false⟩ := rfl

/-- The list of the second event gets 4 after the cut. -/
theorem list_cut_step10 (print : data_view2 → Option String) :
    call.run print
      ⟨(.mk (.record [("a", (.mk (.atom (.basic (.string)) [some (.string "x")]) false .null)),
      ("l", (.mk (.list [(0, true)] (.mk (.atom (.basic (.int64)) [some
      (.int64 3)]) false .null)) false .null))] [] 1 none) false .null), [⟨(tenzir.type.record
      [("a", (.basic .int64)), ("l", (.list (.basic .int64)))]), (.struct 1 [(.primitive [some
      (.int64 1)]), (.list [0, 2] [true] (.primitive [some (.int64 1), some
      (.int64 2)]))] none)⟩], false⟩
      (.atom (.dynamic [.field none "l", .elements none]) (.int64 4))
      = .ok ⟨(.mk (.record [("a", (.mk (.atom (.basic (.string)) [some
      (.string "x")]) false .null)), ("l", (.mk (.list [(0, true)] (.mk (.atom (.basic (.int64))
      [some (.int64 3), some (.int64 4)]) false .null)) false .null))] [] 1 none) false .null),
      [⟨(tenzir.type.record [("a", (.basic .int64)), ("l", (.list (.basic .int64)))]), (.struct 1
      [(.primitive [some (.int64 1)]), (.list [0, 2] [true] (.primitive [some (.int64 1), some
      (.int64 2)]))] none)⟩], false⟩ := rfl

/-- The third event is opened; it has no list. -/
theorem list_cut_step11 (print : data_view2 → Option String) :
    call.run print
      ⟨(.mk (.record [("a", (.mk (.atom (.basic (.string)) [some (.string "x")]) false .null)),
      ("l", (.mk (.list [(0, true)] (.mk (.atom (.basic (.int64)) [some (.int64 3), some
      (.int64 4)]) false .null)) false .null))] [] 1 none) false .null), [⟨(tenzir.type.record
      [("a", (.basic .int64)), ("l", (.list (.basic .int64)))]), (.struct 1 [(.primitive [some
      (.int64 1)]), (.list [0, 2] [true] (.primitive [some (.int64 1), some
      (.int64 2)]))] none)⟩], false⟩
      (.record .series)
      = .ok ⟨(.mk (.record [("a", (.mk (.atom (.basic (.string)) [some
      (.string "x")]) false .null)), ("l", (.mk (.list [(0, true)] (.mk (.atom (.basic (.int64))
      [some (.int64 3), some (.int64 4)]) false .null)) false .null))] [] 2 none) false .null),
      [⟨(tenzir.type.record [("a", (.basic .int64)), ("l", (.list (.basic .int64)))]), (.struct 1
      [(.primitive [some (.int64 1)]), (.list [0, 2] [true] (.primitive [some (.int64 1), some
      (.int64 2)]))] none)⟩], false⟩ := rfl

/-- The field `a` of the third event gets a string. -/
theorem list_cut_step12 (print : data_view2 → Option String) :
    call.run print
      ⟨(.mk (.record [("a", (.mk (.atom (.basic (.string)) [some (.string "x")]) false .null)),
      ("l", (.mk (.list [(0, true)] (.mk (.atom (.basic (.int64)) [some (.int64 3), some
      (.int64 4)]) false .null)) false .null))] [] 2 none) false .null), [⟨(tenzir.type.record
      [("a", (.basic .int64)), ("l", (.list (.basic .int64)))]), (.struct 1 [(.primitive [some
      (.int64 1)]), (.list [0, 2] [true] (.primitive [some (.int64 1), some
      (.int64 2)]))] none)⟩], false⟩
      (.atom (.field ⟨⟨[], none⟩, "a"⟩) (.string "y"))
      = .ok ⟨(.mk (.record [("a", (.mk (.atom (.basic (.string)) [some (.string "x"), some
      (.string "y")]) false .null)), ("l", (.mk (.list [(0, true)] (.mk (.atom (.basic (.int64))
      [some (.int64 3), some (.int64 4)]) false .null)) false .null))] [] 2 none) false .null),
      [⟨(tenzir.type.record [("a", (.basic .int64)), ("l", (.list (.basic .int64)))]), (.struct 1
      [(.primitive [some (.int64 1)]), (.list [0, 2] [true] (.primitive [some (.int64 1), some
      (.int64 2)]))] none)⟩], false⟩ := rfl

/-- The three events are finished: the batch that was cut off and the batch of
the two events after the cut. -/
theorem list_cut_finish (print : data_view2 → Option String) :
    series_builder.finish print
      ⟨(.mk (.record [("a", (.mk (.atom (.basic (.string)) [some (.string "x"), some
      (.string "y")]) false .null)), ("l", (.mk (.list [(0, true)] (.mk (.atom (.basic (.int64))
      [some (.int64 3), some (.int64 4)]) false .null)) false .null))] [] 2 none) false .null),
      [⟨(tenzir.type.record [("a", (.basic .int64)), ("l", (.list (.basic .int64)))]), (.struct 1
      [(.primitive [some (.int64 1)]), (.list [0, 2] [true] (.primitive [some (.int64 1), some
      (.int64 2)]))] none)⟩], false⟩
      = .ok ([⟨(tenzir.type.record [("a", (.basic .int64)), ("l", (.list (.basic .int64)))]), (.struct 1
      [(.primitive [some (.int64 1)]), (.list [0, 2] [true] (.primitive [some (.int64 1), some
      (.int64 2)]))] none)⟩, ⟨(tenzir.type.record [("a", (.basic .string)), ("l", (.list
      (.basic .int64)))]), (.struct 2 [(.primitive [some (.string "x"), some (.string "y")]),
      (.list [0, 2, 2] [true, false] (.primitive [some (.int64 3), some (.int64 4)]))] none)⟩],
        ⟨(.mk (.null 0) false .null), [], false⟩) := rfl

theorem finished_list_offsets_are_sound_witness :
    ((⟨(tenzir.type.record [("a", (.basic .int64)), ("l", (.list (.basic .int64)))]), (.struct 1
      [(.primitive [some (.int64 1)]), (.list [0, 2] [true] (.primitive [some (.int64 1), some
      (.int64 2)]))] none)⟩ : typed_array)).array.offsets_sound
    ∧ ((⟨(tenzir.type.record [("a", (.basic .string)), ("l", (.list (.basic .int64)))]), (.struct 2
      [(.primitive [some (.string "x"), some (.string "y")]), (.list [0, 2, 2] [true, false]
      (.primitive [some (.int64 3), some (.int64 4)]))] none)⟩ : typed_array)).array.offsets_sound :=
  (fun h => ⟨h _ (List.mem_cons_self _ _),
      h _ (List.mem_cons_of_mem _ (List.mem_cons_self _ _))⟩)
  (finished_list_offsets_are_sound (fun _ => none) none
    [.record .series,
     .atom (.field ⟨⟨[], none⟩, "a"⟩) (.int64 1),
     .list (.field ⟨⟨[], none⟩, "l"⟩),
     .atom (.dynamic [.field none "l", .elements none]) (.int64 1),
     .atom (.dynamic [.field none "l", .elements none]) (.int64 2),
     .record .series,
     .list (.field ⟨⟨[], none⟩, "l"⟩),
     .atom (.dynamic [.field none "l", .elements none]) (.int64 3),
     .atom (.field ⟨⟨[], none⟩, "a"⟩) (.string "x"),
     .atom (.dynamic [.field none "l", .elements none]) (.int64 4),
     .record .series,
     .atom (.field ⟨⟨[], none⟩, "a"⟩) (.string "y")]
    series_builder_impl.new
    ⟨(.mk (.record [("a", (.mk (.atom (.basic (.string)) [some (.string "x"), some
    (.string "y")]) false .null)), ("l", (.mk (.list [(0, true)] (.mk (.atom (.basic (.int64))
    [some (.int64 3), some (.int64 4)]) false .null)) false .null))] [] 2 none) false .null),
    [⟨(tenzir.type.record [("a", (.basic .int64)), ("l", (.list (.basic .int64)))]), (.struct 1
    [(.primitive [some (.int64 1)]), (.list [0, 2] [true] (.primitive [some (.int64 1), some
    (.int64 2)]))] none)⟩], false⟩
    ⟨(.mk (.null 0) false .null), [], false⟩
    [⟨(tenzir.type.record [("a", (.basic .int64)), ("l", (.list (.basic .int64)))]), (.struct 1
    [(.primitive [some (.int64 1)]), (.list [0, 2] [true] (.primitive [some (.int64 1), some
    (.int64 2)]))] none)⟩, ⟨(tenzir.type.record [("a", (.basic .string)), ("l", (.list
    (.basic .int64)))]), (.struct 2 [(.primitive [some (.string "x"), some (.string "y")]),
    (.list [0, 2, 2] [true, false] (.primitive [some (.int64 3), some (.int64 4)]))] none)⟩]
    rfl
    (by
      simp only [handles_current, except_bind_ok,
        list_cut_step1 (fun _ => none),
        list_cut_step2 (fun _ => none),
        list_cut_step3 (fun _ => none),
        list_cut_step4 (fun _ => none),
        list_cut_step5 (fun _ => none),
        list_cut_step6 (fun _ => none),
        list_cut_step7 (fun _ => none),
        list_cut_step8 (fun _ => none),
        list_cut_step9 (fun _ => none),
        list_cut_step10 (fun _ => none),
        list_cut_step11 (fun _ => none),
        list_cut_step12 (fun _ => none)]
      simp only [call.current, call.ref]
      repeat' apply And.intro
      all_goals first | rfl | exact rfl | exact True.intro)
    (by
      simp only [run_all, List.foldlM_cons, List.foldlM_nil, except_bind_ok,
        list_cut_step1 (fun _ => none),
        list_cut_step2 (fun _ => none),
        list_cut_step3 (fun _ => none),
        list_cut_step4 (fun _ => none),
        list_cut_step5 (fun _ => none),
        list_cut_step6 (fun _ => none),
        list_cut_step7 (fun _ => none),
        list_cut_step8 (fun _ => none),
        list_cut_step9 (fun _ => none),
        list_cut_step10 (fun _ => none),
        list_cut_step11 (fun _ => none),
        list_cut_step12 (fun _ => none)]
      rfl)
    (list_cut_finish (fun _ => none)))
/-- The event `[1]` is opened on a fresh series: `list()`. -/
theorem stale_list_step1 (print : data_view2 → Option String) :
    call.run print
      series_builder_impl.new
      (.list .series)
      = .ok ⟨(.mk (.list [(0, true)] (.mk (.null 0) false .null)) false .null), [], false⟩ := rfl

/-- The list gets the element 1. -/
theorem stale_list_step2 (print : data_view2 → Option String) :
    call.run print
      ⟨(.mk (.list [(0, true)] (.mk (.null 0) false .null)) false .null), [], false⟩
      (.atom (.dynamic [.elements none]) (.int64 1))
      = .ok ⟨(.mk (.list [(0, true)] (.mk (.atom (.basic (.int64)) [some
      (.int64 1)]) false .null)) false .null), [], false⟩ := rfl

/-- The event is removed: the list builder holds no list and no element. -/
theorem stale_list_step3 (print : data_view2 → Option String) :
    call.run print
      ⟨(.mk (.list [(0, true)] (.mk (.atom (.basic (.int64)) [some
      (.int64 1)]) false .null)) false .null), [], false⟩
      (.remove_last)
      = .ok ⟨(.mk (.list [] (.mk (.atom (.basic (.int64)) []) false .null)) false .null), [], false⟩ := rfl

/-- The handle of the removed list is used again: the elements builder gets a row
that belongs to no list. -/
theorem stale_list_step4 (print : data_view2 → Option String) :
    call.run print
      ⟨(.mk (.list [] (.mk (.atom (.basic (.int64)) []) false .null)) false .null), [], false⟩
      (.atom (.dynamic [.elements none]) (.int64 5))
      = .ok ⟨(.mk (.list [] (.mk (.atom (.basic (.int64)) [some
      (.int64 5)]) false .null)) false .null), [], false⟩ := rfl

/-- The next event is opened: its list begins at offset 1. -/
theorem stale_list_step5 (print : data_view2 → Option String) :
    call.run print
      ⟨(.mk (.list [] (.mk (.atom (.basic (.int64)) [some (.int64 5)]) false .null)) false .null),
      [], false⟩
      (.list .series)
      = .ok ⟨(.mk (.list [(1, true)] (.mk (.atom (.basic (.int64)) [some
      (.int64 5)]) false .null)) false .null), [], false⟩ := rfl

/-- The list of that event gets the element 6. -/
theorem stale_list_step6 (print : data_view2 → Option String) :
    call.run print
      ⟨(.mk (.list [(1, true)] (.mk (.atom (.basic (.int64)) [some
      (.int64 5)]) false .null)) false .null), [], false⟩
      (.atom (.dynamic [.elements none]) (.int64 6))
      = .ok ⟨(.mk (.list [(1, true)] (.mk (.atom (.basic (.int64)) [some (.int64 5), some
      (.int64 6)]) false .null)) false .null), [], false⟩ := rfl

/-- Without the handles of the event in progress the statement of C21 does not
hold: an element written through the handle of a list that `remove_last()`
has removed belongs to no list, and the list array of the next event begins at
offset 1. -/
theorem stale_list_handle_shifts_offsets (print : data_view2 → Option String) :
    (run_all print series_builder_impl.new
      [.list .series,
       .atom (.dynamic [.elements none]) (.int64 1),
       .remove_last,
       .atom (.dynamic [.elements none]) (.int64 5),
       .list .series,
       .atom (.dynamic [.elements none]) (.int64 6)]
      >>= series_builder.finish print)
      = .ok ([⟨(.list (.basic .int64)), (.list [1, 2] [true] (.primitive [some (.int64 5), some
      (.int64 6)]))⟩],
        ⟨(.mk (.null 0) false .null), [], false⟩) := by
  simp only [run_all, List.foldlM_cons, List.foldlM_nil, except_bind_ok,
    stale_list_step1 print,
    stale_list_step2 print,
    stale_list_step3 print,
    stale_list_step4 print,
    stale_list_step5 print,
    stale_list_step6 print]
  rfl
/-- The event `{l: [{x: 1}, {x: "s"}]}` is opened. -/
theorem null_over_conflict_step1 (print : data_view2 → Option String) :
    call.run print
      series_builder_impl.new
      (.record .series)
      = .ok ⟨(.mk (.record [] [] 1 none) false .null), [], false⟩ := rfl

/-- The field `l` of the event becomes a list. -/
theorem null_over_conflict_step2 (print : data_view2 → Option String) :
    call.run print
      ⟨(.mk (.record [] [] 1 none) false .null), [], false⟩
      (.list (.field ⟨⟨[], none⟩, "l"⟩))
      = .ok ⟨(.mk (.record [("l", (.mk (.list [(0, true)] (.mk
      (.null 0) false .null)) false .null))] [] 1 none) false .null), [], false⟩ := rfl

/-- The list gets its first record. -/
theorem null_over_conflict_step3 (print : data_view2 → Option String) :
    call.run print
      ⟨(.mk (.record [("l", (.mk (.list [(0, true)] (.mk (.null 0) false .null)) false .null))]
      [] 1 none) false .null), [], false⟩
      (.record (.dynamic [.field none "l", .elements none]))
      = .ok ⟨(.mk (.record [("l", (.mk (.list [(0, true)] (.mk (.record []
      [] 1 none) false .null)) false .null))] [] 1 none) false .null), [], false⟩ := rfl

/-- The first record gets `x: 1`. -/
theorem null_over_conflict_step4 (print : data_view2 → Option String) :
    call.run print
      ⟨(.mk (.record [("l", (.mk (.list [(0, true)] (.mk (.record []
      [] 1 none) false .null)) false .null))] [] 1 none) false .null), [], false⟩
      (.atom (.field ⟨⟨[.field none "l", .elements none], none⟩, "x"⟩) (.int64 1))
      = .ok ⟨(.mk (.record [("l", (.mk (.list [(0, true)] (.mk (.record [("x", (.mk (.atom (.basic
      (.int64)) [some (.int64 1)]) false .null))] [] 1 none) false .null)) false .null))]
      [] 1 none) false .null), [], false⟩ := rfl

/-- The list gets its second record. -/
theorem null_over_conflict_step5 (print : data_view2 → Option String) :
    call.run print
      ⟨(.mk (.record [("l", (.mk (.list [(0, true)] (.mk (.record [("x", (.mk (.atom (.basic
      (.int64)) [some (.int64 1)]) false .null))] [] 1 none) false .null)) false .null))]
      [] 1 none) false .null), [], false⟩
      (.record (.dynamic [.field none "l", .elements none]))
      = .ok ⟨(.mk (.record [("l", (.mk (.list [(0, true)] (.mk (.record [("x", (.mk (.atom (.basic
      (.int64)) [some (.int64 1)]) false .null))] [] 2 none) false .null)) false .null))]
      [] 1 none) false .null), [], false⟩ := rfl

/-- The second record gets `x: "s"`: the event in progress is the only one, nothing
is cut off, and the builder of `x` becomes a conflict builder of length 2, the
length of its record builder. -/
theorem null_over_conflict_step6 (print : data_view2 → Option String) :
    call.run print
      ⟨(.mk (.record [("l", (.mk (.list [(0, true)] (.mk (.record [("x", (.mk (.atom (.basic
      (.int64)) [some (.int64 1)]) false .null))] [] 2 none) false .null)) false .null))]
      [] 1 none) false .null), [], false⟩
      (.atom (.field ⟨⟨[.field none "l", .elements none], none⟩, "x"⟩) (.string "s"))
      = .ok ⟨(.mk (.record [("l", (.mk (.list [(0, true)] (.mk (.record [("x", (.mk (.conflict
      [0, 1] [(.atom (.basic (.int64)) [some (.int64 1)]), (.atom (.basic (.string)) [some
      (.string "s")])]) false .null))] [] 2 none) false .null)) false .null))]
      [] 1 none) false .null), [], true⟩ := rfl

/-- The second record gets `x: null`: the field is as long as the record, the
conflict builder is asked to shrink by one row and its loop never advances. -/
theorem null_over_conflict_step7 (print : data_view2 → Option String) :
    call.run print
      ⟨(.mk (.record [("l", (.mk (.list [(0, true)] (.mk (.record [("x", (.mk (.conflict [0, 1]
      [(.atom (.basic (.int64)) [some (.int64 1)]), (.atom (.basic (.string)) [some
      (.string "s")])]) false .null))] [] 2 none) false .null)) false .null))]
      [] 1 none) false .null), [], true⟩
      (.atom (.field ⟨⟨[.field none "l", .elements none], none⟩, "x"⟩) .null)
      = .error (.diverges 468) := rfl

/-- C34: the one event `{l: [{x: 1}, {x: "s"}]}` and then `x: null` on the
second record of the list. After six calls the record builder of the list
elements has length 2 and its field `x` is a conflict builder of length 2.
The null write finds the field with the length of the record and calls
`field->resize(1)` (line 1055): the shrinking branch of
`conflict_builder::resize` loops without advancing its iterator (lines
468 to 470), so the call does not return; the specified result is a field
of length 1 with nothing else changed. -/
theorem null_field_write_on_conflict_builder_diverges (print : data_view2 → Option String) :
    run_all print series_builder_impl.new
      [.record .series,
       .list (.field ⟨⟨[], none⟩, "l"⟩),
       .record (.dynamic [.field none "l", .elements none]),
       .atom (.field ⟨⟨[.field none "l", .elements none], none⟩, "x"⟩) (.int64 1),
       .record (.dynamic [.field none "l", .elements none]),
       .atom (.field ⟨⟨[.field none "l", .elements none], none⟩, "x"⟩) (.string "s")]
      = .ok ⟨(.mk (.record [("l", (.mk (.list [(0, true)] (.mk (.record [("x", (.mk (.conflict
      [0, 1] [(.atom (.basic (.int64)) [some (.int64 1)]), (.atom (.basic (.string)) [some
      (.string "s")])]) false .null))] [] 2 none) false .null)) false .null))]
      [] 1 none) false .null), [], true⟩
    ∧ field_ref.atom print
      ⟨(.mk (.record [("l", (.mk (.list [(0, true)] (.mk (.record [("x", (.mk (.conflict [0, 1]
      [(.atom (.basic (.int64)) [some (.int64 1)]), (.atom (.basic (.string)) [some
      (.string "s")])]) false .null))] [] 2 none) false .null)) false .null))]
      [] 1 none) false .null), [], true⟩
      ⟨⟨[.field none "l", .elements none], none⟩, "x"⟩ .null
      = .error (.diverges 468)
    ∧ run_all print series_builder_impl.new
      [.record .series,
       .list (.field ⟨⟨[], none⟩, "l"⟩),
       .record (.dynamic [.field none "l", .elements none]),
       .atom (.field ⟨⟨[.field none "l", .elements none], none⟩, "x"⟩) (.int64 1),
       .record (.dynamic [.field none "l", .elements none]),
       .atom (.field ⟨⟨[.field none "l", .elements none], none⟩, "x"⟩) (.string "s"),
       .atom (.field ⟨⟨[.field none "l", .elements none], none⟩, "x"⟩) .null]
      = .error (.diverges 468) := by
  refine ⟨?_, rfl, ?_⟩
  · simp only [run_all, List.foldlM_cons, List.foldlM_nil, except_bind_ok,
      null_over_conflict_step1 print,
      null_over_conflict_step2 print,
      null_over_conflict_step3 print,
      null_over_conflict_step4 print,
      null_over_conflict_step5 print,
      null_over_conflict_step6 print]
    rfl
  · simp only [run_all, List.foldlM_cons, List.foldlM_nil, except_bind_ok, except_bind_error,
      null_over_conflict_step1 print,
      null_over_conflict_step2 print,
      null_over_conflict_step3 print,
      null_over_conflict_step4 print,
      null_over_conflict_step5 print,
      null_over_conflict_step6 print,
      null_over_conflict_step7 print]
/-- C33: `finish_previous_events` with a requester other than the root, on two
roots of length 2 that public writes reach. After the event `{l: [{x: 1}]}` and,
of a second event, the list `l` with a null and an opened record, the root
holds two rows; the root is asked to `finish_and_leave(1)`, the record builder
of the list elements is asked to leave two rows with a validity of two
entries, and the call stops at the `TENZIR_TODO` of line 772. After the event
`{l: [[1]], a: 1}` and, of a second event, the list `l` with a null, the root
holds two rows as well, and the call stops at `ValueOrDie()` of line 668. In
both states no batch is appended and no root of length 1 is left; the
specified result is exactly one new batch of length 1. -/
theorem finish_previous_events_stops_on_reachable_roots (print : data_view2 → Option String) :
    run_all print series_builder_impl.new
      [.record .series,
       .list (.field ⟨⟨[], none⟩, "l"⟩),
       .record (.dynamic [.field none "l", .elements none]),
       .atom (.field ⟨⟨[.field none "l", .elements none], none⟩, "x"⟩) (.int64 1),
       .record .series,
       .list (.field ⟨⟨[], none⟩, "l"⟩),
       .atom (.dynamic [.field none "l", .elements none]) .null,
       .record (.dynamic [.field none "l", .elements none])]
      = .ok ⟨(.mk (.record [("l", (.mk (.list [(0, true), (1, true)] (.mk (.record [("x", (.mk (.atom
      (.basic (.int64)) [some (.int64 1)]) false .null))]
      [true, false] 3 none) false .null)) false .null))] [] 2 none) false .null), [], false⟩
    ∧ (dynamic_builder.length
      (.mk (.record [("l", (.mk (.list [(0, true), (1, true)] (.mk (.record [("x", (.mk (.atom
      (.basic (.int64)) [some (.int64 1)]) false .null))]
      [true, false] 3 none) false .null)) false .null))] [] 2 none) false .null)) = 2
    ∧ series_builder_impl.finish_previous_events print
      ⟨(.mk (.record [("l", (.mk (.list [(0, true), (1, true)] (.mk (.record [("x", (.mk (.atom
      (.basic (.int64)) [some (.int64 1)]) false .null))]
      [true, false] 3 none) false .null)) false .null))] [] 2 none) false .null), [], false⟩ false
      = .error (.todo 772)
    ∧ run_all print series_builder_impl.new
      [.record .series,
       .list (.field ⟨⟨[], none⟩, "l"⟩),
       .list (.dynamic [.field none "l", .elements none]),
       .atom (.dynamic [.field none "l", .elements none, .elements none]) (.int64 1),
       .atom (.field ⟨⟨[], none⟩, "a"⟩) (.int64 1),
       .record .series,
       .list (.field ⟨⟨[], none⟩, "l"⟩),
       .atom (.dynamic [.field none "l", .elements none]) .null]
      = .ok ⟨(.mk (.record [("l", (.mk (.list [(0, true), (1, true)] (.mk (.list [(0, true), (1, false)]
      (.mk (.atom (.basic (.int64)) [some (.int64 1)]) false .null)) false .null)) false .null)),
      ("a", (.mk (.atom (.basic (.int64)) [some (.int64 1)]) false .null))]
      [] 2 none) false .null), [], false⟩
    ∧ (dynamic_builder.length
      (.mk (.record [("l", (.mk (.list [(0, true), (1, true)] (.mk (.list [(0, true), (1, false)]
      (.mk (.atom (.basic (.int64)) [some (.int64 1)]) false .null)) false .null)) false .null)),
      ("a", (.mk (.atom (.basic (.int64)) [some (.int64 1)]) false .null))]
      [] 2 none) false .null)) = 2
    ∧ series_builder_impl.finish_previous_events print
      ⟨(.mk (.record [("l", (.mk (.list [(0, true), (1, true)] (.mk (.list [(0, true), (1, false)]
      (.mk (.atom (.basic (.int64)) [some (.int64 1)]) false .null)) false .null)) false .null)),
      ("a", (.mk (.atom (.basic (.int64)) [some (.int64 1)]) false .null))]
      [] 2 none) false .null), [], false⟩ false
      = .error (.status 668) := by
  refine ⟨?_, rfl, rfl, ?_, rfl, rfl⟩
  · simp only [run_all, List.foldlM_cons, List.foldlM_nil, except_bind_ok,
      nested_null_record_step1 print,
      nested_null_record_step2 print,
      nested_null_record_step3 print,
      nested_null_record_step4 print,
      nested_null_record_step5 print,
      nested_null_record_step6 print,
      nested_null_record_step7 print,
      nested_null_record_step8 print]
    rfl
  · simp only [run_all, List.foldlM_cons, List.foldlM_nil, except_bind_ok,
      retained_only_null_step1 print,
      retained_only_null_step2 print,
      retained_only_null_step3 print,
      retained_only_null_step4 print,
      retained_only_null_step5 print,
      retained_only_null_step6 print,
      retained_only_null_step7 print,
      retained_only_null_step8 print]
    rfl
theorem root_step_refl (s : series_builder_impl) (h : s.builder_.plain) : s.root_step [] s :=
  ⟨h, [], (List.append_nil _).symm, fun _ _ hne => absurd rfl hne,
    fun _ ha => absurd ha (List.not_mem_nil _), fun _ hn => Or.inl hn,
    fun _ => ⟨fun _ hn => hn, Nat.le_refl _⟩⟩

theorem root_step_mono (W W1 : List String) (s s1 : series_builder_impl)
    (hW : ∀ n, n ∈ W → n ∈ W1) (h : s.root_step W s1) : s.root_step W1 s1 := by
  obtain ⟨hp, news, hfin, h1, h2, h3, h4⟩ := h
  refine ⟨hp, news, hfin, h1, ?_, ?_, h4⟩
  · intro a ha n hn
    rcases h2 a ha n hn with h | h
    · exact Or.inl h
    · exact Or.inr (hW n h)
  · intro n hn
    rcases h3 n hn with h | h
    · exact Or.inl h
    · exact Or.inr (hW n h)

theorem root_step_trans (W1 W2 : List String) (s s1 s2 : series_builder_impl)
    (h : s.root_step W1 s1) (h' : s1.root_step W2 s2) : s.root_step (W1 ++ W2) s2 := by
  obtain ⟨_, news, hfin, h1, h2, h3, h4⟩ := h
  obtain ⟨hp', news', hfin', h1', h2', h3', h4'⟩ := h'
  refine ⟨hp', news ++ news', by rw [hfin', hfin, List.append_assoc], ?_, ?_, ?_, ?_⟩
  · intro n hn hne
    by_cases hnews : news = []
    · have hne' : news' ≠ [] := by
        intro h0
        rw [hnews, h0] at hne
        exact hne rfl
      obtain ⟨a, ha, hh⟩ := h1' n ((h4 hnews).1 n hn) hne'
      exact ⟨a, List.mem_append_right _ ha, hh⟩
    · obtain ⟨a, ha, hh⟩ := h1 n hn hnews
      exact ⟨a, List.mem_append_left _ ha, hh⟩
  · intro a ha n hn
    rcases List.mem_append.mp ha with ha | ha
    · rcases h2 a ha n hn with h | h
      · exact Or.inl h
      · exact Or.inr (List.mem_append_left _ h)
    · rcases h2' a ha n hn with h | h
      · rcases h3 n h with h | h
        · exact Or.inl h
        · exact Or.inr (List.mem_append_left _ h)
      · exact Or.inr (List.mem_append_right _ h)
  · intro n hn
    rcases h3' n hn with h | h
    · rcases h3 n h with h | h
      · exact Or.inl h
      · exact Or.inr (List.mem_append_left _ h)
    · exact Or.inr (List.mem_append_right _ h)
  · intro hnil
    obtain ⟨hn1, hn2⟩ := List.append_eq_nil.mp hnil
    exact ⟨fun n hn => (h4' hn2).1 n ((h4 hn1).1 n hn),
      Nat.le_trans (h4 hn1).2 (h4' hn2).2⟩

theorem root_step_trans_nil (W : List String) (s s1 s2 : series_builder_impl)
    (h : s.root_step W s1) (h' : s1.root_step [] s2) : s.root_step W s2 := by
  have := root_step_trans W [] s s1 s2 h h'
  rwa [List.append_nil] at this

theorem root_step_nil_trans (W : List String) (s s1 s2 : series_builder_impl)
    (h : s.root_step [] s1) (h' : s1.root_step W s2) : s.root_step W s2 :=
  root_step_trans [] W s s1 s2 h h'

theorem root_step_plain (W : List String) (s s1 : series_builder_impl)
    (h : s.root_step W s1) : s1.builder_.plain := h.1

/-- A dynamic builder whose inner builder is a null, atom, list or record builder
holds no conflict builder. -/
theorem plain_of_kind (b : builder_base) (p : Bool) (m : tenzir.type)
    (h : (match b with | .conflict _ _ => false | _ => true) = true) :
    (dynamic_builder.mk b p m).plain := by
  intro ds vs hc
  simp only [dynamic_builder.builder_] at hc
  subst hc
  simp at h

theorem has_field_assign_metadata (t m : tenzir.type) (n : String) :
    (t.assign_metadata m).has_field n = t.has_field n := by
  simp only [type.has_field, assign_metadata_strip]

theorem has_field_record (fields : List (String × dynamic_builder)) (n : String) :
    (tenzir.type.record (fields_type fields)).has_field n = true ↔ n ∈ fields.map Prod.fst := by
  simp only [type.has_field, type.strip, fields_type_names, decide_eq_true_eq]

theorem has_field_builder_type (b : builder_base) (p : Bool) (m : tenzir.type) (n : String) :
    b.type.has_field n = true ↔ n ∈ (dynamic_builder.mk b p m).field_names := by
  cases b with
  | null len => simp [builder_base.type, type.has_field, type.strip,
      dynamic_builder.field_names, dynamic_builder.builder_]
  | atom t inner =>
    cases t <;> simp [builder_base.type, atom_type.to_type, type.has_field, type.strip,
      dynamic_builder.field_names, dynamic_builder.builder_]
  | list offsets elements => simp [builder_base.type, type.has_field, type.strip,
      dynamic_builder.field_names, dynamic_builder.builder_]
  | record fields valid len ka =>
    simp only [builder_base.type, has_field_record, dynamic_builder.field_names,
      dynamic_builder.builder_]
  | conflict ds vs => simp [builder_base.type, type.has_field, type.strip,
      dynamic_builder.field_names, dynamic_builder.builder_]

theorem finish_fields_names (print : data_view2 → Option String)
    (fields fields1 : List (String × dynamic_builder)) (len target : Nat)
    (keep : Option String) (arrays : List arrow_array)
    (h : finish_fields print fields len target keep = .ok (arrays, fields1)) :
    ∀ n, n ∈ fields1.map Prod.fst → n ∈ fields.map Prod.fst := by
  intro n hn
  obtain ⟨⟨n1, f1⟩, hm, hn1⟩ := List.mem_map.mp hn
  simp only at hn1
  subst hn1
  obtain ⟨f, _, hf, _⟩ := finish_fields_mem print fields len target keep arrays fields1 h n1 f1 hm
  exact List.mem_map.mpr ⟨(n1, f), hf, rfl⟩

theorem resize_fields_names : (fields : List (String × dynamic_builder)) → ∀ (n : Nat)
    (fields1 : List (String × dynamic_builder)), resize_fields fields n = .ok fields1 →
    fields1.map Prod.fst = fields.map Prod.fst
  | [], _, fields1, h => by
    simp only [resize_fields, except_pure_eq_ok] at h
    subst h
    rfl
  | (name, builder) :: rest, n, fields1, h => by
    simp only [resize_fields, except_bind_eq_ok, except_pure_eq_ok] at h
    obtain ⟨b1, _, r1, hr, h⟩ := h
    subst h
    simp only [List.map_cons, resize_fields_names rest n r1 hr]

/-- The method `resize` keeps the kind of a builder other than a conflict builder
and the names of the fields of a record builder. -/
theorem builder_base_resize_root (b b1 : builder_base) (n : Nat) (p : Bool) (m : tenzir.type)
    (h : b.resize n = .ok b1) (hp : (dynamic_builder.mk b p m).plain) :
    (dynamic_builder.mk b1 p m).plain
      ∧ (dynamic_builder.mk b1 p m).field_names = (dynamic_builder.mk b p m).field_names := by
  cases b with
  | null len =>
    simp only [builder_base.resize, except_pure_eq_ok] at h
    subst h
    exact ⟨plain_of_kind _ _ _ rfl, rfl⟩
  | atom t inner =>
    simp only [builder_base.resize] at h
    split at h
    · simp only [except_pure_eq_ok] at h
      subst h
      exact ⟨plain_of_kind _ _ _ rfl, rfl⟩
    · split at h
      · simp only [except_pure_eq_ok] at h
        subst h
        exact ⟨plain_of_kind _ _ _ rfl, rfl⟩
      · simp only [except_pure_eq_ok] at h
        subst h
        exact ⟨plain_of_kind _ _ _ rfl, rfl⟩
  | list offsets elements =>
    simp only [builder_base.resize] at h
    split at h
    · simp only [except_bind_eq_ok, except_pure_eq_ok] at h
      obtain ⟨e1, _, h⟩ := h
      subst h
      exact ⟨plain_of_kind _ _ _ rfl, rfl⟩
    · split at h
      · simp only [except_pure_eq_ok] at h
        subst h
        exact ⟨plain_of_kind _ _ _ rfl, rfl⟩
      · simp only [except_pure_eq_ok] at h
        subst h
        exact ⟨plain_of_kind _ _ _ rfl, rfl⟩
  | record fields valid len ka =>
    simp only [builder_base.resize] at h
    split at h
    · simp only [except_bind_eq_ok, except_pure_eq_ok] at h
      obtain ⟨f1, hf, h⟩ := h
      subst h
      refine ⟨plain_of_kind _ _ _ rfl, ?_⟩
      simp only [dynamic_builder.field_names, dynamic_builder.builder_,
        resize_fields_names fields n f1 hf]
    · split at h
      · simp only [except_pure_eq_ok] at h
        subst h
        exact ⟨plain_of_kind _ _ _ rfl, rfl⟩
      · simp only [except_pure_eq_ok] at h
        subst h
        exact ⟨plain_of_kind _ _ _ rfl, rfl⟩
  | conflict ds vs => exact absurd rfl (hp ds vs)

theorem dynamic_builder_resize_root (d d1 : dynamic_builder) (n : Nat)
    (h : d.resize n = .ok d1) (hp : d.plain) :
    d1.plain ∧ d1.field_names = d.field_names := by
  obtain ⟨b, p, m⟩ := d
  simp only [dynamic_builder.resize, except_bind_eq_ok, except_pure_eq_ok] at h
  obtain ⟨b1, hb, h⟩ := h
  subst h
  exact builder_base_resize_root b b1 n p m hb hp

/-- The method `finish_and_leave` of a builder other than a conflict builder: the
array has the type of the builder, a record builder stays a record builder
with no new fields, and every other builder keeps its kind. -/
theorem builder_base_finish_root (print : data_view2 → Option String) (b b1 : builder_base)
    (p : Bool) (m : tenzir.type) (grow count : Nat) (a : typed_array)
    (h : b.finish_and_leave print grow count = .ok (a, b1))
    (hp : (dynamic_builder.mk b p m).plain) :
    (dynamic_builder.mk b1 p m).plain
      ∧ (∀ n, a.type.has_field n = true ↔ n ∈ (dynamic_builder.mk b p m).field_names)
      ∧ (∀ n, n ∈ (dynamic_builder.mk b1 p m).field_names →
          n ∈ (dynamic_builder.mk b p m).field_names) := by
  cases b with
  | null len =>
    simp only [builder_base.finish_and_leave] at h
    split at h
    · simp at h
    · simp only [except_pure_eq_ok, Prod.mk.injEq] at h
      obtain ⟨ha, hb⟩ := h
      subst ha hb
      refine ⟨plain_of_kind _ _ _ rfl, fun n => ?_, fun n hn => ?_⟩
      · simp [type.has_field, type.strip, dynamic_builder.field_names,
          dynamic_builder.builder_]
      · simp [dynamic_builder.field_names, dynamic_builder.builder_] at hn
  | atom t inner =>
    simp only [builder_base.finish_and_leave] at h
    split at h
    · simp at h
    · simp only [except_pure_eq_ok, Prod.mk.injEq] at h
      obtain ⟨ha, hb⟩ := h
      subst ha hb
      refine ⟨plain_of_kind _ _ _ rfl, fun n => ?_, fun n hn => ?_⟩
      · cases t <;> simp [atom_type.to_type, type.has_field, type.strip,
          dynamic_builder.field_names, dynamic_builder.builder_]
      · simp [dynamic_builder.field_names, dynamic_builder.builder_] at hn
  | list offsets elements =>
    simp only [builder_base.finish_and_leave, except_bind_eq_ok, ensure_eq_ok,
      except_pure_eq_ok, Prod.mk.injEq] at h
    obtain ⟨_, _, _, _, ⟨used, elements1⟩, _, result, _, ha, hb⟩ := h
    subst ha hb
    refine ⟨plain_of_kind _ _ _ rfl, fun n => ?_, fun n hn => ?_⟩
    · simp [type.has_field, type.strip, dynamic_builder.field_names,
        dynamic_builder.builder_]
    · simp [dynamic_builder.field_names, dynamic_builder.builder_] at hn
  | record fields valid len ka =>
    simp only [builder_base.finish_and_leave, except_bind_eq_ok, ensure_eq_ok,
      except_pure_eq_ok, Prod.mk.injEq] at h
    obtain ⟨_, _, ⟨arrays, fields1⟩, hf, ⟨bitmap, valid1⟩, _, ha, hb⟩ := h
    subst ha hb
    refine ⟨plain_of_kind _ _ _ rfl, fun n => ?_, fun n hn => ?_⟩
    · simp only [has_field_record, dynamic_builder.field_names, dynamic_builder.builder_]
    · simp only [dynamic_builder.field_names, dynamic_builder.builder_] at hn ⊢
      exact finish_fields_names print fields fields1 _ _ _ arrays hf n hn
  | conflict ds vs => exact absurd rfl (hp ds vs)

/-- The method `dynamic_builder::finish_and_leave` of a dynamic builder without a
conflict builder: the top-level fields of the array are the fields of the
record builder, and the builder afterwards has no new fields and no conflict
builder. -/
theorem dynamic_builder_finish_root (print : data_view2 → Option String)
    (d d1 : dynamic_builder) (grow count : Nat) (a : typed_array)
    (h : d.finish_and_leave print grow count = .ok (a, d1)) (hp : d.plain) :
    d1.plain ∧ (∀ n, a.type.has_field n = true ↔ n ∈ d.field_names)
      ∧ (∀ n, n ∈ d1.field_names → n ∈ d.field_names) := by
  obtain ⟨b, p, m⟩ := d
  simp only [dynamic_builder.finish_and_leave, except_bind_eq_ok, ensure_eq_ok,
    except_pure_eq_ok, Prod.mk.injEq] at h
  obtain ⟨_, _, ⟨result, b1⟩, hres, _, _, ha, hd⟩ := h
  subst ha
  have key : (dynamic_builder.mk b1 p m).plain
      ∧ (∀ n, result.type.has_field n = true ↔ n ∈ (dynamic_builder.mk b p m).field_names)
      ∧ (∀ n, n ∈ (dynamic_builder.mk b1 p m).field_names →
          n ∈ (dynamic_builder.mk b p m).field_names) := by
    split at hres
    · simp only [except_bind_eq_ok, except_pure_eq_ok, Prod.mk.injEq] at hres
      obtain ⟨b0, hb0, hr, hb⟩ := hres
      subst hr hb
      have h0 : (dynamic_builder.mk b0 p m).plain
          ∧ (dynamic_builder.mk b0 p m).field_names
            = (dynamic_builder.mk b p m).field_names := by
        split at hb0
        · exact builder_base_resize_root b b0 _ p m hb0 hp
        · simp only [except_pure_eq_ok] at hb0
          subst hb0
          exact ⟨hp, rfl⟩
      refine ⟨h0.1, fun n => ?_, fun n hn => by rw [← h0.2]; exact hn⟩
      simp only [has_field_assign_metadata]
      exact has_field_builder_type b p m n
    · exact builder_base_finish_root print b b1 p m grow count result hres hp
  refine ⟨?_, fun n => ?_, ?_⟩
  · subst hd
    split
    · exact plain_of_kind _ _ _ rfl
    · exact key.1
  · simp only [has_field_assign_metadata]
    exact key.2.1 n
  · subst hd
    intro n hn
    split at hn
    · simp [dynamic_builder.field_names, dynamic_builder.builder_] at hn
    · exact key.2.2 n hn
theorem set_child_field_names (t : builder_base) (step : path_step) (c c1 : dynamic_builder)
    (p : Bool) (m : tenzir.type) (hc : t.child step = some c) :
    (dynamic_builder.mk (t.set_child step c1) p m).field_names
      = (dynamic_builder.mk t p m).field_names
    ∧ ((dynamic_builder.mk t p m).plain → (dynamic_builder.mk (t.set_child step c1) p m).plain)
        := by
  cases t with
  | null len => cases step <;> simp [builder_base.child] at hc
  | atom a inner => cases step <;> simp [builder_base.child] at hc
  | conflict ds vs => cases step <;> simp [builder_base.child] at hc
  | list offsets elements =>
    cases step with
    | field v name => simp [builder_base.child] at hc
    | elements v => exact ⟨rfl, fun _ => plain_of_kind _ _ _ rfl⟩
  | record fields valid len ka =>
    cases step with
    | elements v => simp [builder_base.child] at hc
    | field v name =>
      refine ⟨?_, fun _ => plain_of_kind _ _ _ rfl⟩
      simp only [builder_base.set_child, dynamic_builder.field_names, dynamic_builder.builder_,
        fields_set_names]

/-- A store through a pointer below the root of a dynamic builder without a
conflict builder keeps the kind, the field names and the length of the
builder. -/
theorem dynamic_set_nested_root (d d1 x : dynamic_builder) (step : path_step)
    (rest : builder_path) (h : d.set (step :: rest) x = .ok d1) (hp : d.plain) :
    d1.plain ∧ d1.field_names = d.field_names ∧ d1.length = d.length := by
  have hlen := dynamic_builder_set_length d d1 x (step :: rest) (by simp) h
  refine ⟨?_, ?_, hlen⟩
  all_goals
    obtain ⟨b, p, m⟩ := d
    simp only [dynamic_builder.set] at h
    split at h
    · simp at h
    · rename_i t ht
      split at h
      · simp at h
      · rename_i c hc
        simp only [except_bind_eq_ok, except_pure_eq_ok] at h
        obtain ⟨c1, _, h⟩ := h
        subst h
        cases hv : step.variant with
        | some i =>
          rw [hv] at ht
          cases b with
          | conflict ds vs => exact absurd rfl (hp ds vs)
          | null n => simp [dynamic_builder.typed, dynamic_builder.builder_] at ht
          | atom a i => simp [dynamic_builder.typed, dynamic_builder.builder_] at ht
          | list o e => simp [dynamic_builder.typed, dynamic_builder.builder_] at ht
          | record f v n k => simp [dynamic_builder.typed, dynamic_builder.builder_] at ht
        | none =>
          rw [hv] at ht
          have hb : t = b := by
            cases b with
            | conflict ds vs => exact absurd rfl (hp ds vs)
            | null n =>
              simp only [dynamic_builder.typed, dynamic_builder.builder_,
                Option.some.injEq] at ht
              exact ht.symm
            | atom a i =>
              simp only [dynamic_builder.typed, dynamic_builder.builder_,
                Option.some.injEq] at ht
              exact ht.symm
            | list o e =>
              simp only [dynamic_builder.typed, dynamic_builder.builder_,
                Option.some.injEq] at ht
              exact ht.symm
            | record f v n k =>
              simp only [dynamic_builder.typed, dynamic_builder.builder_,
                Option.some.injEq] at ht
              exact ht.symm
          subst hb
          have hset : (dynamic_builder.mk t p m).set_typed none (t.set_child step c1)
              = .mk (t.set_child step c1) p m := by
            cases t with
            | conflict ds vs => exact absurd rfl (hp ds vs)
            | null n => rfl
            | atom a i => rfl
            | list o e => rfl
            | record f v n k => rfl
          rw [hset]
          first
            | exact (set_child_field_names t step c c1 p m hc).2 hp
            | exact (set_child_field_names t step c c1 p m hc).1

/-- A store through a pointer of the series: below the root it changes nothing
the root step looks at; at the root the new builder decides. -/
theorem series_set_root_step (W : List String) (s s1 : series_builder_impl)
    (path : builder_path) (x : dynamic_builder) (hp : s.builder_.plain)
    (h : s.set path x = .ok s1)
    (hroot : path = [] → x.plain ∧ (∀ n, n ∈ s.root_fields → n ∈ x.field_names)
      ∧ (∀ n, n ∈ x.field_names → n ∈ s.root_fields ∨ n ∈ W)
      ∧ s.builder_.length ≤ x.length) :
    s.root_step W s1 := by
  have hfin := (series_set_finished s s1 path x h).1
  have hb := series_set_builder s s1 path x h
  cases path with
  | nil =>
    simp only [dynamic_builder.set, except_pure_eq_ok] at hb
    obtain ⟨h1, h2, h3, h4⟩ := hroot rfl
    refine ⟨by rw [← hb]; exact h1, [], by rw [hfin, List.append_nil],
      fun _ _ hne => absurd rfl hne, fun _ ha => absurd ha (List.not_mem_nil _), ?_, ?_⟩
    · intro n hn
      simp only [series_builder_impl.root_fields, ← hb] at hn
      exact h3 n hn
    · intro _
      refine ⟨fun n hn => ?_, by rw [← hb]; exact h4⟩
      simp only [series_builder_impl.root_fields, ← hb]
      exact h2 n hn
  | cons step rest =>
    obtain ⟨h1, h2, h3⟩ := dynamic_set_nested_root s.builder_ s1.builder_ x step rest hb hp
    refine ⟨h1, [], by rw [hfin, List.append_nil],
      fun _ _ hne => absurd rfl hne, fun _ ha => absurd ha (List.not_mem_nil _), ?_, ?_⟩
    · intro n hn
      simp only [series_builder_impl.root_fields, h2] at hn
      exact Or.inl hn
    · intro _
      refine ⟨fun n hn => ?_, by rw [h3]⟩
      simp only [series_builder_impl.root_fields, h2]
      exact hn

theorem cut_root_step (print : data_view2 → Option String) (s : series_builder_impl)
    (count : Nat) (slice : typed_array) (b1 : dynamic_builder) (c : Bool)
    (hp : s.builder_.plain)
    (hf : s.builder_.finish_and_leave print 0 count = .ok (slice, b1)) :
    s.root_step [] ⟨b1, s.finished_ ++ [slice], c⟩ := by
  obtain ⟨h1, h2, h3⟩ := dynamic_builder_finish_root print _ _ _ _ _ hf hp
  refine ⟨h1, [slice], rfl, ?_, ?_, ?_, ?_⟩
  · intro n hn _
    exact ⟨slice, List.mem_singleton.mpr rfl, (h2 n).mpr hn⟩
  · intro a ha n hn
    rw [List.mem_singleton.mp ha] at hn
    exact Or.inl ((h2 n).mp hn)
  · intro n hn
    exact Or.inl (h3 n hn)
  · intro hnil
    cases hnil

theorem finish_previous_events_root_step (print : data_view2 → Option String)
    (s s1 : series_builder_impl) (root : Bool) (hp : s.builder_.plain)
    (h : s.finish_previous_events print root = .ok s1) : s.root_step [] s1 := by
  simp only [series_builder_impl.finish_previous_events] at h
  split at h
  · simp only [except_pure_eq_ok] at h
    subst h; exact root_step_refl s hp
  · split at h
    · simp only [except_pure_eq_ok] at h
      subst h; exact root_step_refl s hp
    · simp only [except_bind_eq_ok, ensure_eq_ok, except_pure_eq_ok] at h
      obtain ⟨⟨slice, b1⟩, hf, _, _, _, _, h⟩ := h
      subst h
      exact cut_root_step print s _ slice b1 _ hp hf

/-- With the root as requester `finish_previous_events` leaves no row in the root
builder. -/
theorem finish_previous_events_root_empty (print : data_view2 → Option String)
    (s s1 : series_builder_impl)
    (h : s.finish_previous_events print true = .ok s1) : s1.builder_.length = 0 := by
  simp only [series_builder_impl.finish_previous_events] at h
  split at h
  · rename_i h0
    simp only [except_pure_eq_ok] at h
    subst h; exact h0
  · split at h
    · rename_i h1
      simp at h1
    · simp only [except_bind_eq_ok, ensure_eq_ok, except_pure_eq_ok] at h
      obtain ⟨⟨slice, b1⟩, _, _, hl, _, _, h⟩ := h
      subst h
      simpa using hl

theorem finish_if_conflict_root_step (print : data_view2 → Option String)
    (s s1 : series_builder_impl) (hp : s.builder_.plain)
    (h : s.finish_if_conflict print = .ok s1) : s.root_step [] s1 := by
  simp only [series_builder_impl.finish_if_conflict] at h
  split at h
  · simp only [except_bind_eq_ok, except_pure_eq_ok] at h
    obtain ⟨⟨array, b1⟩, hf, h⟩ := h
    subst h
    exact cut_root_step print s _ array b1 _ hp hf
  · simp only [except_pure_eq_ok] at h
    subst h; exact root_step_refl s hp

/-- The first cases of `prepare<Type>` on a dynamic builder without a conflict
builder keep its field names and its rows. -/
theorem prepare_cast_root (T : target) (d d1 : dynamic_builder) (variant : Option Nat)
    (h : d.prepare_cast T = .ok (some (d1, variant))) (hp : d.plain) :
    d1.plain ∧ d1.field_names = d.field_names ∧ d.length ≤ d1.length := by
  have hlen := prepare_cast_length_ge T d d1 variant h
  refine ⟨?_, ?_, hlen⟩
  all_goals
    obtain ⟨b, p, m⟩ := d
    simp only [dynamic_builder.prepare_cast] at h
    split at h
    · simp only [except_pure_eq_ok, Option.some.injEq, Prod.mk.injEq] at h
      obtain ⟨h, _⟩ := h
      subst h
      first
        | exact hp
        | rfl
    · cases b with
      | conflict ds vs => exact absurd rfl (hp ds vs)
      | null len =>
        simp only [except_bind_eq_ok, except_pure_eq_ok, Option.some.injEq,
          Prod.mk.injEq] at h
        obtain ⟨fresh, hr, h, _⟩ := h
        subst h
        have hk : (dynamic_builder.mk T.make p m).plain := by
          cases T <;> exact plain_of_kind _ _ _ rfl
        have hn : (dynamic_builder.mk T.make p m).field_names = [] := by
          cases T <;> rfl
        obtain ⟨h1, h2⟩ := builder_base_resize_root T.make fresh _ p m hr hk
        first
          | exact h1
          | (rw [h2, hn]; rfl)
      | atom a i => simp [pure, Except.pure] at h
      | list o e => simp [pure, Except.pure] at h
      | record f v n k => simp [pure, Except.pure] at h

theorem prepare_cast_set_root_step (s s1 : series_builder_impl) (path : builder_path)
    (T : target) (d d1 : dynamic_builder) (variant : Option Nat) (hp : s.builder_.plain)
    (hg : s.get path = .ok d) (hc : d.prepare_cast T = .ok (some (d1, variant)))
    (h : s.set path d1 = .ok s1) : s.root_step [] s1 := by
  apply series_set_root_step [] s s1 path d1 hp h
  intro hnil
  subst hnil
  simp only [series_builder_impl_get_root, Except.ok.injEq] at hg
  subst hg
  obtain ⟨h1, h2, h3⟩ := prepare_cast_root T _ d1 variant hc hp
  exact ⟨h1, fun n hn => by rw [h2]; exact hn,
    fun n hn => Or.inl (by rw [h2] at hn; exact hn), h3⟩

theorem set_conflict_flag_root_step (s : series_builder_impl) (hp : s.builder_.plain) :
    s.root_step [] s.set_conflict_flag :=
  ⟨hp, [], (List.append_nil _).symm, fun _ _ hne => absurd rfl hne,
    fun _ ha => absurd ha (List.not_mem_nil _), fun _ hn => Or.inl hn,
    fun _ => ⟨fun _ hn => hn, Nat.le_refl _⟩⟩

/-- The method `dynamic_builder::prepare<Type>` through any pointer: a root step
that writes into no field of the top-level record. -/
theorem prepare_root_step (print : data_view2 → Option String) (s s1 : series_builder_impl)
    (path : builder_path) (T : target) (variant : Option Nat) (hp : s.builder_.plain)
    (h : dynamic_builder.prepare print s path T = .ok (s1, variant)) : s.root_step [] s1 := by
  simp only [dynamic_builder.prepare, except_bind_eq_ok] at h
  obtain ⟨d, hg, r, hc, h⟩ := h
  cases r with
  | some dv =>
    obtain ⟨d1, v1⟩ := dv
    simp only [except_bind_eq_ok, except_pure_eq_ok, Prod.mk.injEq] at h
    obtain ⟨s2, hset, h, _⟩ := h
    subst h
    exact prepare_cast_set_root_step s s2 path T d d1 v1 hp hg hc hset
  | none =>
    simp only [except_bind_eq_ok, ensure_eq_ok, except_pure_eq_ok] at h
    obtain ⟨_, _, _, _, s2, hfpe, d1, hg1, s3, hs3, d2, hg2, r2, hc2, h⟩ := h
    have h2 := finish_previous_events_root_step print s s2 _ hp hfpe
    have h3 : s2.root_step [] s3 := by
      split at hs3
      · rename_i hpos
        simp only [except_bind_eq_ok, except_pure_eq_ok] at hs3
        obtain ⟨s2a, hset, hs3⟩ := hs3
        subst hs3
        have hstep : s2.root_step [] s2a := by
          apply series_set_root_step [] s2 s2a path _ h2.1 hset
          intro hnil
          subst hnil
          have h0 := finish_previous_events_root_empty print s s2 hfpe
          simp only [series_builder_impl_get_root, Except.ok.injEq] at hg1
          subst hg1
          simp only [dynamic_builder.length] at hpos h0
          omega
        exact root_step_trans_nil [] s2 s2a _ hstep (set_conflict_flag_root_step s2a hstep.1)
      · split at hs3
        · simp at hs3
        · simp only [except_pure_eq_ok] at hs3
          subst hs3
          exact root_step_refl s2 h2.1
    have h23 := root_step_trans_nil [] s s2 s3 h2 h3
    cases r2 with
    | none => simp at h
    | some dv =>
      obtain ⟨d3, v3⟩ := dv
      simp only [except_bind_eq_ok, except_pure_eq_ok, Prod.mk.injEq] at h
      obtain ⟨s4, hset, h, _⟩ := h
      subst h
      exact root_step_trans_nil [] s s3 s4 h23
        (prepare_cast_set_root_step s3 s4 path T d2 d3 v3 h23.1 hg2 hc2 hset)

/-- What the typed builder at the root is when the root holds no conflict
builder: the inner builder itself, and a store replaces it. -/
theorem typed_root (d : dynamic_builder) (variant : Option Nat) (t t1 : builder_base)
    (hp : d.plain) (ht : d.typed variant = some t) :
    d.builder_ = t ∧ (d.set_typed variant t1).builder_ = t1 := by
  obtain ⟨b, p, m⟩ := d
  cases variant with
  | some i =>
    cases b with
    | conflict ds vs => exact absurd rfl (hp ds vs)
    | null n => simp [dynamic_builder.typed, dynamic_builder.builder_] at ht
    | atom a i => simp [dynamic_builder.typed, dynamic_builder.builder_] at ht
    | list o e => simp [dynamic_builder.typed, dynamic_builder.builder_] at ht
    | record f v n k => simp [dynamic_builder.typed, dynamic_builder.builder_] at ht
  | none =>
    cases b with
    | conflict ds vs => exact absurd rfl (hp ds vs)
    | null n =>
      simp only [dynamic_builder.typed, dynamic_builder.builder_, Option.some.injEq] at ht
      exact ⟨ht, rfl⟩
    | atom a i =>
      simp only [dynamic_builder.typed, dynamic_builder.builder_, Option.some.injEq] at ht
      exact ⟨ht, rfl⟩
    | list o e =>
      simp only [dynamic_builder.typed, dynamic_builder.builder_, Option.some.injEq] at ht
      exact ⟨ht, rfl⟩
    | record f v n k =>
      simp only [dynamic_builder.typed, dynamic_builder.builder_, Option.some.injEq] at ht
      exact ⟨ht, rfl⟩

/-- A store of a typed builder through a pointer of the series, when the new
typed builder is no conflict builder, has the field names of the old one but
for `W`, and has no fewer rows. -/
theorem set_typed_root_step (W : List String) (s s1 : series_builder_impl)
    (path : builder_path) (variant : Option Nat) (d : dynamic_builder) (t t1 : builder_base)
    (hp : s.builder_.plain) (hg : s.get path = .ok d) (ht : d.typed variant = some t)
    (h : s.set path (d.set_typed variant t1) = .ok s1)
    (hk : (match t1 with | .conflict _ _ => false | _ => true) = true)
    (hroot : path = [] →
      (∀ n, n ∈ (dynamic_builder.mk t false .null).field_names →
        n ∈ (dynamic_builder.mk t1 false .null).field_names)
      ∧ (∀ n, n ∈ (dynamic_builder.mk t1 false .null).field_names →
        n ∈ (dynamic_builder.mk t false .null).field_names ∨ n ∈ W)
      ∧ t.length ≤ t1.length) : s.root_step W s1 := by
  apply series_set_root_step W s s1 path _ hp h
  intro hnil
  obtain ⟨hn1, hn2, hl⟩ := hroot hnil
  subst hnil
  simp only [series_builder_impl_get_root, Except.ok.injEq] at hg
  subst hg
  obtain ⟨h1, h2⟩ := typed_root s.builder_ variant t t1 hp ht
  refine ⟨?_, ?_, ?_, ?_⟩
  · intro ds vs hc
    rw [h2] at hc
    subst hc
    simp at hk
  · intro n hn
    simp only [series_builder_impl.root_fields, dynamic_builder.field_names, h1] at hn
    simp only [dynamic_builder.field_names, h2]
    exact hn1 n hn
  · intro n hn
    simp only [dynamic_builder.field_names, h2] at hn
    simp only [series_builder_impl.root_fields, dynamic_builder.field_names, h1]
    exact hn2 n hn
  · simp only [dynamic_builder.length, h1, h2]
    exact hl

theorem append_atom_root_step (s s1 : series_builder_impl) (path : builder_path)
    (variant : Option Nat) (value : atom_view) (hp : s.builder_.plain)
    (h : typed_builder.append_atom s path variant value = .ok s1) : s.root_step [] s1 := by
  simp only [typed_builder.append_atom, except_bind_eq_ok] at h
  obtain ⟨d, hg, h⟩ := h
  split at h
  · rename_i t inner ht
    exact set_typed_root_step [] s s1 path variant d _ _ hp hg ht h rfl
      (fun _ => ⟨fun n hn => hn, fun n hn => Or.inl hn, by simp [builder_base.length]⟩)
  · simp at h

theorem append_record_root_step (s s1 : series_builder_impl) (path : builder_path)
    (variant : Option Nat) (r : record_ref) (hp : s.builder_.plain)
    (h : typed_builder.append_record s path variant = .ok (s1, r)) : s.root_step [] s1 := by
  simp only [typed_builder.append_record, except_bind_eq_ok] at h
  obtain ⟨d, hg, h⟩ := h
  split at h
  · rename_i fields valid len ka ht
    simp only [except_bind_eq_ok, except_pure_eq_ok, Prod.mk.injEq] at h
    obtain ⟨s2, hset, h, _⟩ := h
    subst h
    exact set_typed_root_step [] s s2 path variant d _ _ hp hg ht hset rfl
      (fun _ => ⟨fun n hn => hn, fun n hn => Or.inl hn, by simp [builder_base.length]⟩)
  · simp at h

theorem append_list_root_step (s s1 : series_builder_impl) (path : builder_path)
    (variant : Option Nat) (r : builder_ref) (hp : s.builder_.plain)
    (h : typed_builder.append_list s path variant = .ok (s1, r)) : s.root_step [] s1 := by
  simp only [typed_builder.append_list, except_bind_eq_ok] at h
  obtain ⟨d, hg, h⟩ := h
  split at h
  · rename_i offsets elements ht
    simp only [except_bind_eq_ok, except_pure_eq_ok, Prod.mk.injEq, ensure_eq_ok] at h
    obtain ⟨_, _, s2, hset, h, _⟩ := h
    subst h
    exact set_typed_root_step [] s s2 path variant d _ _ hp hg ht hset rfl
      (fun _ => ⟨fun n hn => hn, fun n hn => Or.inl hn, by simp [builder_base.length]⟩)
  · simp at h

theorem dynamic_atom_root_step (print : data_view2 → Option String)
    (s s1 : series_builder_impl) (path : builder_path) (value : atom_view)
    (hp : s.builder_.plain)
    (h : dynamic_builder.atom print s path value = .ok s1) : s.root_step [] s1 := by
  simp only [dynamic_builder.atom] at h
  split at h
  · simp only [except_bind_eq_ok] at h
    obtain ⟨d, hg, d1, hr, hset⟩ := h
    apply series_set_root_step [] s s1 path d1 hp hset
    intro hnil
    subst hnil
    simp only [series_builder_impl_get_root, Except.ok.injEq] at hg
    subst hg
    obtain ⟨h1, h2⟩ := dynamic_builder_resize_root _ d1 _ hr hp
    have hl := dynamic_builder_resize_length _ _ _ hr
    exact ⟨h1, fun n hn => by rw [h2]; exact hn,
      fun n hn => Or.inl (by rw [h2] at hn; exact hn), by omega⟩
  · simp only [except_bind_eq_ok] at h
    obtain ⟨d, hg, h⟩ := h
    split at h
    · rename_i labels inner p m
      apply series_set_root_step [] s s1 path _ hp h
      intro hnil
      subst hnil
      simp only [series_builder_impl_get_root, Except.ok.injEq] at hg
      refine ⟨plain_of_kind _ _ _ rfl, ?_, ?_, ?_⟩
      · intro n hn
        simp [series_builder_impl.root_fields, dynamic_builder.field_names, hg,
          dynamic_builder.builder_] at hn
      · intro n hn
        simp [dynamic_builder.field_names, dynamic_builder.builder_] at hn
      · simp [hg, dynamic_builder.length, dynamic_builder.builder_, builder_base.length]
    · simp at h
  · simp only [except_bind_eq_ok] at h
    obtain ⟨⟨s2, variant⟩, hprep, h⟩ := h
    have h2 := prepare_root_step print s s2 path _ variant hp hprep
    exact root_step_trans_nil [] s s2 s1 h2 (append_atom_root_step s2 s1 path variant value h2.1 h)

theorem dynamic_record_root_step (print : data_view2 → Option String)
    (s s1 : series_builder_impl) (path : builder_path) (r : record_ref)
    (hp : s.builder_.plain)
    (h : dynamic_builder.record print s path = .ok (s1, r)) : s.root_step [] s1 := by
  simp only [dynamic_builder.record, except_bind_eq_ok] at h
  obtain ⟨⟨s2, variant⟩, hprep, h⟩ := h
  have h2 := prepare_root_step print s s2 path _ variant hp hprep
  exact root_step_trans_nil [] s s2 s1 h2 (append_record_root_step s2 s1 path variant r h2.1 h)

theorem dynamic_list_root_step (print : data_view2 → Option String)
    (s s1 : series_builder_impl) (path : builder_path) (r : builder_ref)
    (hp : s.builder_.plain)
    (h : dynamic_builder.list print s path = .ok (s1, r)) : s.root_step [] s1 := by
  simp only [dynamic_builder.list, except_bind_eq_ok] at h
  obtain ⟨⟨s2, variant⟩, hprep, h⟩ := h
  have h2 := prepare_root_step print s s2 path _ variant hp hprep
  exact root_step_trans_nil [] s s2 s1 h2 (append_list_root_step s2 s1 path variant r h2.1 h)

theorem series_atom_root_step (print : data_view2 → Option String)
    (s s1 : series_builder_impl) (value : atom_view) (hp : s.builder_.plain)
    (h : series_builder.atom print s value = .ok s1) : s.root_step [] s1 := by
  simp only [series_builder.atom, series_builder_impl.atom, except_bind_eq_ok] at h
  obtain ⟨s2, hc, h⟩ := h
  have h2 := finish_if_conflict_root_step print s s2 hp hc
  exact root_step_trans_nil [] s s2 s1 h2 (dynamic_atom_root_step print s2 s1 [] value h2.1 h)

theorem series_record_root_step (print : data_view2 → Option String)
    (s s1 : series_builder_impl) (r : record_ref) (hp : s.builder_.plain)
    (h : series_builder.record print s = .ok (s1, r)) : s.root_step [] s1 := by
  simp only [series_builder.record, series_builder_impl.record, except_bind_eq_ok] at h
  obtain ⟨s2, hc, h⟩ := h
  have h2 := finish_if_conflict_root_step print s s2 hp hc
  exact root_step_trans_nil [] s s2 s1 h2 (dynamic_record_root_step print s2 s1 [] r h2.1 h)

theorem series_list_root_step (print : data_view2 → Option String)
    (s s1 : series_builder_impl) (r : builder_ref) (hp : s.builder_.plain)
    (h : series_builder.list print s = .ok (s1, r)) : s.root_step [] s1 := by
  simp only [series_builder.list, series_builder_impl.list, except_bind_eq_ok] at h
  obtain ⟨s2, hc, h⟩ := h
  have h2 := finish_if_conflict_root_step print s s2 hp hc
  exact root_step_trans_nil [] s s2 s1 h2 (dynamic_list_root_step print s2 s1 [] r h2.1 h)
theorem record_get_root (s : series_builder_impl) (variant : Option Nat)
    (d : dynamic_builder) (fields : List (String × dynamic_builder)) (valid : List Bool)
    (len : Nat) (ka : Option String) (hp : s.builder_.plain)
    (hg : record_ref.get s ⟨[], variant⟩ = .ok (d, fields, valid, len, ka)) :
    d = s.builder_ ∧ s.root_fields = fields.map Prod.fst ∧ s.builder_.length = len := by
  obtain ⟨hown, htyp⟩ := record_ref_get_ok s _ d fields valid len ka hg
  simp only [series_builder_impl_get_root, Except.ok.injEq] at hown
  subst hown
  obtain ⟨h1, _⟩ := typed_root s.builder_ variant _ (.null 0) hp htyp
  exact ⟨rfl, by simp only [series_builder_impl.root_fields, dynamic_builder.field_names, h1],
    by simp only [dynamic_builder.length, h1, builder_base.length]⟩

/-- Writing back the members of a record builder: a root step; at the root the
field names of the record builder are the names written back. -/
theorem record_set_root_step (W : List String) (s s1 : series_builder_impl) (r : record_ref)
    (d : dynamic_builder) (fields fields1 : List (String × dynamic_builder))
    (valid valid1 : List Bool) (len : Nat) (ka ka1 : Option String) (hp : s.builder_.plain)
    (hg : record_ref.get s r = .ok (d, fields, valid, len, ka))
    (h : record_ref.set s r d fields1 valid1 len ka1 = .ok s1)
    (hn1 : ∀ n, n ∈ fields.map Prod.fst → n ∈ fields1.map Prod.fst)
    (hn2 : r.owner = [] → ∀ n, n ∈ fields1.map Prod.fst → n ∈ fields.map Prod.fst ∨ n ∈ W) :
    s.root_step W s1 ∧ (r.owner = [] →
      s1.root_fields = fields1.map Prod.fst ∧ s1.builder_.length = len) := by
  obtain ⟨hown, htyp⟩ := record_ref_get_ok s r d fields valid len ka hg
  simp only [record_ref.set] at h
  refine ⟨set_typed_root_step W s s1 r.owner r.variant d _ _ hp hown htyp h rfl
    (fun hnil => ⟨hn1, hn2 hnil, Nat.le_refl _⟩), ?_⟩
  intro hnil
  rw [hnil] at h hown
  simp only [series_builder_impl_get_root, Except.ok.injEq] at hown
  subst hown
  simp only [series_builder_impl_set_root, Except.ok.injEq] at h
  subst h
  obtain ⟨_, h2⟩ := typed_root s.builder_ r.variant _
    (.record fields1 valid1 len ka1) hp htyp
  exact ⟨by simp only [series_builder_impl.root_fields, dynamic_builder.field_names, h2],
    by simp only [dynamic_builder.length, h2, builder_base.length]⟩

theorem lacks_field_step (name : String) (W : List String) (s s1 : series_builder_impl)
    (hs : s.lacks_field name) (h : s.root_step W s1) (hW : name ∉ W) :
    s1.lacks_field name := by
  obtain ⟨_, hroot, hfin⟩ := hs
  obtain ⟨hp1, news, hnews, _, h2, h3, _⟩ := h
  refine ⟨hp1, ?_, ?_⟩
  · intro hn
    rcases h3 name hn with h | h
    · exact hroot h
    · exact hW h
  · intro a ha
    rw [hnews] at ha
    rcases List.mem_append.mp ha with ha | ha
    · exact hfin a ha
    · cases hf : a.type.has_field name with
      | false => rfl
      | true =>
        rcases h2 a ha name hf with h | h
        · exact absurd h hroot
        · exact absurd h hW

theorem holds_field_step (name : String) (W : List String) (s s1 : series_builder_impl)
    (hs : s.holds_field name) (h : s.root_step W s1) : s1.holds_field name := by
  obtain ⟨_, hs⟩ := hs
  obtain ⟨hp1, news, hnews, h1, _, _, h4⟩ := h
  refine ⟨hp1, ?_⟩
  rcases hs with ⟨hn, hl⟩ | ⟨a, ha, hf⟩
  · by_cases hnil : news = []
    · exact Or.inl ⟨(h4 hnil).1 name hn, Nat.le_trans hl (h4 hnil).2⟩
    · obtain ⟨a, ha, hf⟩ := h1 name hn hnil
      exact Or.inr ⟨a, by rw [hnews]; exact List.mem_append_right _ ha, hf⟩
  · exact Or.inr ⟨a, by rw [hnews]; exact List.mem_append_left _ ha, hf⟩

theorem fields_find_names (fields : List (String × dynamic_builder)) (name : String)
    (f : dynamic_builder) (h : fields_find fields name = some f) :
    name ∈ fields.map Prod.fst :=
  List.mem_map.mpr ⟨(name, f), fields_mem_of_find fields name f h, rfl⟩

/-- The method `typed_builder<record_type>::prepare<Type>(name)`: a root step that
writes into field `name` when the record builder is the root; the root then
holds the field and a row, or a batch with the field has been cut off. -/
theorem prepare_field_root_step (print : data_view2 → Option String) (W : List String)
    (s s1 : series_builder_impl) (self : record_ref) (name : String) (T : target)
    (path : builder_path) (variant : Option Nat) (hp : s.builder_.plain)
    (hW : self.owner = [] → name ∈ W)
    (h : typed_builder.prepare_field print s self name T = .ok (s1, path, variant)) :
    s.root_step W s1 ∧ (self.owner = [] → s1.holds_field name) := by
  simp only [typed_builder.prepare_field, except_bind_eq_ok] at h
  obtain ⟨⟨d, fields, valid, len, ka⟩, hg, h⟩ := h
  cases hfind : fields_find fields name with
  | none =>
    simp only [hfind, except_bind_eq_ok, except_pure_eq_ok, Prod.mk.injEq, ensure_eq_ok] at h
    obtain ⟨_, hlen, builder, _, s2, hset, ⟨s3, v3⟩, hprep, h1, _, _⟩ := h
    subst h1
    obtain ⟨h2, h2root⟩ := record_set_root_step W s s2 self d fields _ valid valid len ka ka hp
      hg hset (fun n hn => by simp only [List.map_append, List.mem_append]; exact Or.inl hn)
      (fun hnil n hn => by
        simp only [List.map_append, List.mem_append, List.map_cons, List.map_nil,
          List.mem_singleton] at hn
        rcases hn with hn | hn
        · exact Or.inl hn
        · exact Or.inr (hn ▸ hW hnil))
    have h3 := prepare_root_step print s2 s3 _ T v3 h2.1 hprep
    refine ⟨root_step_trans_nil W s s2 s3 h2 h3, fun hnil => ?_⟩
    obtain ⟨hf2, hl2⟩ := h2root hnil
    apply holds_field_step name [] s2 s3 ⟨h2.1, Or.inl ⟨?_, ?_⟩⟩ h3
    · rw [hf2]
      simp
    · rw [hl2]; exact hlen
  | some b =>
    simp only [hfind, except_bind_eq_ok, ensure_eq_ok, except_pure_eq_ok, Prod.mk.injEq] at h
    obtain ⟨_, hlen, builder, _, _, _, s2, hset, ⟨s3, v3⟩, hprep, ⟨d4, fields4, valid4, len4,
      ka4⟩, hg4, s5, hset5, h1, _, _⟩ := h
    subst h1
    obtain ⟨h2, h2root⟩ := record_set_root_step [] s s2 self d fields _ valid valid len ka
      (some name) hp hg hset (fun n hn => by rw [fields_set_names]; exact hn)
      (fun _ n hn => Or.inl (by rw [fields_set_names] at hn; exact hn))
    have h3 := prepare_root_step print s2 s3 _ T v3 h2.1 hprep
    obtain ⟨h5, _⟩ := record_set_root_step [] s3 s5 self d4 fields4 fields4 valid4 valid4 len4
      ka4 none h3.1 hg4 hset5 (fun n hn => hn) (fun _ n hn => Or.inl hn)
    have h25 := root_step_trans_nil [] s2 s3 s5 h3 h5
    refine ⟨root_step_mono [] W s s5 (fun n hn => absurd hn (List.not_mem_nil _))
      (root_step_trans_nil [] s s2 s5 h2 h25), fun hnil => ?_⟩
    obtain ⟨hf2, hl2⟩ := h2root hnil
    apply holds_field_step name [] s2 s5 ⟨h2.1, Or.inl ⟨?_, ?_⟩⟩ h25
    · rw [hf2, fields_set_names]
      exact fields_find_names fields name b hfind
    · rw [hl2]; exact hlen

/-- The method `field_ref::atom`: a root step that writes into the field when the
value is not null and the record builder is the root. -/
theorem field_atom_root_step (print : data_view2 → Option String) (W : List String)
    (s s1 : series_builder_impl) (self : field_ref) (value : atom_view)
    (hp : s.builder_.plain)
    (hW : self.origin_.owner = [] → atom_view_to_type_t value ≠ .null → self.name_ ∈ W)
    (h : field_ref.atom print s self value = .ok s1) :
    s.root_step W s1 ∧ (self.origin_.owner = [] → atom_view_to_type_t value ≠ .null →
      s1.holds_field self.name_) := by
  simp only [field_ref.atom] at h
  split at h
  · rename_i hnull
    refine ⟨root_step_mono [] W s s1 (fun n hn => absurd hn (List.not_mem_nil _)) ?_,
      fun _ hv => absurd hnull hv⟩
    simp only [except_bind_eq_ok] at h
    obtain ⟨⟨d, fields, valid, len, ka⟩, hg, h⟩ := h
    cases hfind : fields_find fields self.name_ with
    | none =>
      simp only [hfind, except_pure_eq_ok] at h
      subst h; exact root_step_refl s hp
    | some field =>
      simp only [hfind, except_bind_eq_ok, ensure_eq_ok] at h
      obtain ⟨_, _, h⟩ := h
      split at h
      · simp only [except_bind_eq_ok, ensure_eq_ok] at h
        obtain ⟨_, _, field1, _, hset⟩ := h
        exact (record_set_root_step [] s s1 self.origin_ d fields _ valid valid len ka ka hp hg
          hset (fun n hn => by rw [fields_set_names]; exact hn)
          (fun _ n hn => Or.inl (by rw [fields_set_names] at hn; exact hn))).1
      · simp only [except_pure_eq_ok] at h
        subst h; exact root_step_refl s hp
  · refine ⟨root_step_mono [] W s s1 (fun n hn => absurd hn (List.not_mem_nil _)) ?_, ?_⟩
    all_goals
      simp only [except_bind_eq_ok] at h
      obtain ⟨⟨d, fields, valid, len, ka⟩, hg, h⟩ := h
      cases hfind : fields_find fields self.name_ with
      | none => simp [hfind] at h
      | some b =>
        simp only [hfind, except_bind_eq_ok, ensure_eq_ok] at h
        obtain ⟨_, hlen, builder, _, s2, hset, h⟩ := h
        obtain ⟨h2, h2root⟩ := record_set_root_step [] s s2 self.origin_ d fields _ valid valid
          len ka ka hp hg hset (fun n hn => by rw [fields_set_names]; exact hn)
          (fun _ n hn => Or.inl (by rw [fields_set_names] at hn; exact hn))
        have h3 := dynamic_atom_root_step print s2 s1 _ value h2.1 h
        first
          | exact root_step_trans_nil [] s s2 s1 h2 h3
          | (intro hnil _
             obtain ⟨hf2, hl2⟩ := h2root hnil
             apply holds_field_step self.name_ [] s2 s1 ⟨h2.1, Or.inl ⟨?_, ?_⟩⟩ h3
             · rw [hf2, fields_set_names]
               exact fields_find_names fields self.name_ b hfind
             · rw [hl2]; exact hlen)
  · rename_i k hk
    simp only [except_bind_eq_ok] at h
    obtain ⟨⟨s2, path, variant⟩, hprep, h⟩ := h
    have hne : atom_view_to_type_t value ≠ .null := by
      rw [hk]; intro hc; cases hc
    obtain ⟨h2, h2h⟩ := prepare_field_root_step print W s s2 self.origin_ self.name_ _ path
      variant hp (fun hnil => hW hnil hne) hprep
    have h3 := append_atom_root_step s2 s1 path variant value h2.1 h
    exact ⟨root_step_trans_nil W s s2 s1 h2 h3,
      fun hnil _ => holds_field_step self.name_ [] s2 s1 (h2h hnil) h3⟩

theorem field_record_root_step (print : data_view2 → Option String) (W : List String)
    (s s1 : series_builder_impl) (self : field_ref) (r : record_ref)
    (hp : s.builder_.plain) (hW : self.origin_.owner = [] → self.name_ ∈ W)
    (h : field_ref.record print s self = .ok (s1, r)) :
    s.root_step W s1 ∧ (self.origin_.owner = [] → s1.holds_field self.name_) := by
  simp only [field_ref.record, except_bind_eq_ok] at h
  obtain ⟨⟨s2, path, variant⟩, hprep, h⟩ := h
  obtain ⟨h2, h2h⟩ := prepare_field_root_step print W s s2 self.origin_ self.name_ _ path
    variant hp hW hprep
  have h3 := append_record_root_step s2 s1 path variant r h2.1 h
  exact ⟨root_step_trans_nil W s s2 s1 h2 h3,
    fun hnil => holds_field_step self.name_ [] s2 s1 (h2h hnil) h3⟩

theorem field_list_root_step (print : data_view2 → Option String) (W : List String)
    (s s1 : series_builder_impl) (self : field_ref) (r : builder_ref)
    (hp : s.builder_.plain) (hW : self.origin_.owner = [] → self.name_ ∈ W)
    (h : field_ref.list print s self = .ok (s1, r)) :
    s.root_step W s1 ∧ (self.origin_.owner = [] → s1.holds_field self.name_) := by
  simp only [field_ref.list, except_bind_eq_ok] at h
  obtain ⟨⟨s2, path, variant⟩, hprep, h⟩ := h
  obtain ⟨h2, h2h⟩ := prepare_field_root_step print W s s2 self.origin_ self.name_ _ path
    variant hp hW hprep
  have h3 := append_list_root_step s2 s1 path variant r h2.1 h
  exact ⟨root_step_trans_nil W s s2 s1 h2 h3,
    fun hnil => holds_field_step self.name_ [] s2 s1 (h2h hnil) h3⟩

theorem written_fields_atom_field (f : field_ref) (value : atom_view) :
    (call.atom (.field f) value).written_fields
      = if f.origin_.owner = [] ∧ atom_view_to_type_t value ≠ .null then [f.name_] else [] := by
  obtain ⟨⟨owner, v⟩, name⟩ := f
  cases owner with
  | nil =>
    simp only [call.written_fields, true_and]
    by_cases hv : atom_view_to_type_t value = .null <;> simp [hv]
  | cons step rest => simp [call.written_fields]

theorem written_fields_record_field (f : field_ref) :
    (call.record (.field f)).written_fields = if f.origin_.owner = [] then [f.name_] else [] := by
  obtain ⟨⟨owner, v⟩, name⟩ := f
  cases owner <;> simp [call.written_fields]

theorem written_fields_list_field (f : field_ref) :
    (call.list (.field f)).written_fields = if f.origin_.owner = [] then [f.name_] else [] := by
  obtain ⟨⟨owner, v⟩, name⟩ := f
  cases owner <;> simp [call.written_fields]

/-- A write call `atom`, `record` or `list` through any handle: a root step that
writes into the fields the call names, and afterwards each of them is held
by the root builder or is in a batch of the queue. -/
theorem call_run_root_step (print : data_view2 → Option String)
    (s s1 : series_builder_impl) (c : call) (hp : s.builder_.plain)
    (hr : c ≠ .remove_last) (hf : c ≠ .finish)
    (h : c.run print s = .ok s1) :
    s.root_step c.written_fields s1 ∧ ∀ n, n ∈ c.written_fields → s1.holds_field n := by
  cases c with
  | remove_last => exact absurd rfl hr
  | finish => exact absurd rfl hf
  | atom ref value =>
    cases ref with
    | series =>
      exact ⟨series_atom_root_step print s s1 value hp h,
        fun n hn => absurd hn (List.not_mem_nil _)⟩
    | dynamic path =>
      exact ⟨dynamic_atom_root_step print s s1 path value hp h,
        fun n hn => absurd hn (List.not_mem_nil _)⟩
    | field f =>
      rw [written_fields_atom_field]
      simp only [call.run, builder_ref.atom] at h
      obtain ⟨h1, h2⟩ := field_atom_root_step print
        (if f.origin_.owner = [] ∧ atom_view_to_type_t value ≠ .null then [f.name_] else [])
        s s1 f value hp (fun h1 h2 => by simp [h1, h2]) h
      refine ⟨h1, fun n hn => ?_⟩
      split at hn
      · rename_i hc
        rw [List.mem_singleton.mp hn]
        exact h2 hc.1 hc.2
      · exact absurd hn (List.not_mem_nil _)
  | record ref =>
    simp only [call.run, except_map_eq_ok] at h
    obtain ⟨⟨s2, r⟩, h, h1⟩ := h
    subst h1
    cases ref with
    | series =>
      exact ⟨series_record_root_step print s s2 r hp h,
        fun n hn => absurd hn (List.not_mem_nil _)⟩
    | dynamic path =>
      exact ⟨dynamic_record_root_step print s s2 path r hp h,
        fun n hn => absurd hn (List.not_mem_nil _)⟩
    | field f =>
      rw [written_fields_record_field]
      simp only [builder_ref.record] at h
      obtain ⟨h1, h2⟩ := field_record_root_step print
        (if f.origin_.owner = [] then [f.name_] else [])
        s s2 f r hp (fun h1 => by simp [h1]) h
      refine ⟨h1, fun n hn => ?_⟩
      split at hn
      · rename_i hc
        rw [List.mem_singleton.mp hn]
        exact h2 hc
      · exact absurd hn (List.not_mem_nil _)
  | list ref =>
    simp only [call.run, except_map_eq_ok] at h
    obtain ⟨⟨s2, r⟩, h, h1⟩ := h
    subst h1
    cases ref with
    | series =>
      exact ⟨series_list_root_step print s s2 r hp h,
        fun n hn => absurd hn (List.not_mem_nil _)⟩
    | dynamic path =>
      exact ⟨dynamic_list_root_step print s s2 path r hp h,
        fun n hn => absurd hn (List.not_mem_nil _)⟩
    | field f =>
      rw [written_fields_list_field]
      simp only [builder_ref.list] at h
      obtain ⟨h1, h2⟩ := field_list_root_step print
        (if f.origin_.owner = [] then [f.name_] else [])
        s s2 f r hp (fun h1 => by simp [h1]) h
      refine ⟨h1, fun n hn => ?_⟩
      split at hn
      · rename_i hc
        rw [List.mem_singleton.mp hn]
        exact h2 hc
      · exact absurd hn (List.not_mem_nil _)

/-- The method `series_builder::finish` on a series without field `name`: no
array it returns has the field, and the series afterwards is without it. -/
theorem finish_lacks_field (print : data_view2 → Option String) (name : String)
    (s s1 : series_builder_impl) (arrays : List typed_array) (hs : s.lacks_field name)
    (h : series_builder.finish print s = .ok (arrays, s1)) :
    (∀ a ∈ arrays, a.type.has_field name = false) ∧ s1.lacks_field name := by
  obtain ⟨hp, hroot, hfin⟩ := hs
  simp only [series_builder.finish, series_builder_impl.finish] at h
  split at h
  · simp only [except_bind_eq_ok, ensure_eq_ok, except_pure_eq_ok, Prod.mk.injEq] at h
    obtain ⟨⟨array, b1⟩, hf, _, _, h1, h2⟩ := h
    subst h1 h2
    obtain ⟨hp1, ht, hn⟩ := dynamic_builder_finish_root print _ _ _ _ _ hf hp
    refine ⟨fun a ha => ?_, hp1, fun hc => hroot (hn name hc),
      fun a ha => absurd ha (List.not_mem_nil _)⟩
    rcases List.mem_append.mp ha with ha | ha
    · exact hfin a ha
    · rw [List.mem_singleton.mp ha]
      cases hh : array.type.has_field name with
      | false => rfl
      | true => exact absurd ((ht name).mp hh) hroot
  · simp only [except_pure_eq_ok, Prod.mk.injEq] at h
    obtain ⟨h1, h2⟩ := h
    subst h1 h2
    exact ⟨hfin, hp, hroot, fun a ha => absurd ha (List.not_mem_nil _)⟩

theorem remove_last_lacks_field (name : String) (s s1 : series_builder_impl)
    (hs : s.lacks_field name) (h : series_builder.remove_last s = .ok s1) :
    s1.lacks_field name := by
  obtain ⟨hp, hroot, hfin⟩ := hs
  simp only [series_builder.remove_last, series_builder_impl.remove_last] at h
  split at h
  · simp only [except_bind_eq_ok, except_pure_eq_ok] at h
    obtain ⟨b1, hr, h⟩ := h
    subst h
    obtain ⟨h1, h2⟩ := dynamic_builder_resize_root _ b1 _ hr hp
    exact ⟨h1, by simp only [series_builder_impl.root_fields, h2]; exact hroot, hfin⟩
  · simp only [except_pure_eq_ok] at h
    subst h
    exact ⟨hp, hroot, hfin⟩

theorem call_run_lacks_field (print : data_view2 → Option String) (name : String)
    (s s1 : series_builder_impl) (c : call) (hs : s.lacks_field name)
    (hc : name ∉ c.written_fields) (h : c.run print s = .ok s1) : s1.lacks_field name := by
  by_cases hr : c = .remove_last
  · subst hr
    exact remove_last_lacks_field name s s1 hs h
  · by_cases hf : c = .finish
    · subst hf
      simp only [call.run, except_map_eq_ok] at h
      obtain ⟨⟨arrays, s2⟩, h, h1⟩ := h
      subst h1
      exact (finish_lacks_field print name s s2 arrays hs h).2
    · exact lacks_field_step name _ s s1 hs (call_run_root_step print s s1 c hs.1 hr hf h).1 hc

theorem run_all_lacks_field (print : data_view2 → Option String) (name : String)
    (calls : List call) :
    ∀ (s s1 : series_builder_impl), s.lacks_field name →
      (∀ c ∈ calls, name ∉ c.written_fields) → run_all print s calls = .ok s1 →
      s1.lacks_field name := by
  induction calls with
  | nil =>
    intro s s1 hs _ h
    simp only [run_all, List.foldlM_nil, except_pure_eq_ok] at h
    subst h; exact hs
  | cons c rest ih =>
    intro s s1 hs hc h
    simp only [run_all, List.foldlM_cons, except_bind_eq_ok] at h
    obtain ⟨s2, h2, h⟩ := h
    exact ih s2 s1
      (call_run_lacks_field print name s s2 c hs (hc c (List.mem_cons_self _ _)) h2)
      (fun c1 h1 => hc c1 (List.mem_cons_of_mem _ h1)) h

theorem call_run_plain (print : data_view2 → Option String) (s s1 : series_builder_impl)
    (c : call) (hp : s.builder_.plain) (h : c.run print s = .ok s1) : s1.builder_.plain := by
  by_cases hr : c = .remove_last
  · subst hr
    simp only [call.run, series_builder.remove_last, series_builder_impl.remove_last] at h
    split at h
    · simp only [except_bind_eq_ok, except_pure_eq_ok] at h
      obtain ⟨b1, hr, h⟩ := h
      subst h
      exact (dynamic_builder_resize_root _ b1 _ hr hp).1
    · simp only [except_pure_eq_ok] at h
      subst h
      exact hp
  · by_cases hf : c = .finish
    · subst hf
      simp only [call.run, except_map_eq_ok, series_builder.finish,
        series_builder_impl.finish] at h
      obtain ⟨⟨arrays, s2⟩, h, h1⟩ := h
      subst h1
      split at h
      · simp only [except_bind_eq_ok, ensure_eq_ok, except_pure_eq_ok, Prod.mk.injEq] at h
        obtain ⟨⟨array, b1⟩, hfl, _, _, _, h2⟩ := h
        subst h2
        exact (dynamic_builder_finish_root print _ _ _ _ _ hfl hp).1
      · simp only [except_pure_eq_ok, Prod.mk.injEq] at h
        obtain ⟨_, h2⟩ := h
        subst h2
        exact hp
    · exact (call_run_root_step print s s1 c hp hr hf h).1.1

theorem run_all_plain (print : data_view2 → Option String) (calls : List call) :
    ∀ (s s1 : series_builder_impl), s.builder_.plain → run_all print s calls = .ok s1 →
      s1.builder_.plain := by
  induction calls with
  | nil =>
    intro s s1 hs h
    simp only [run_all, List.foldlM_nil, except_pure_eq_ok] at h
    subst h; exact hs
  | cons c rest ih =>
    intro s s1 hs h
    simp only [run_all, List.foldlM_cons, except_bind_eq_ok] at h
    obtain ⟨s2, h2, h⟩ := h
    exact ih s2 s1 (call_run_plain print s s2 c hs h2) h

theorem run_all_holds_field (print : data_view2 → Option String) (name : String)
    (calls : List call) :
    ∀ (s s1 : series_builder_impl), s.holds_field name →
      (∀ c ∈ calls, c ≠ .remove_last ∧ c ≠ .finish) → run_all print s calls = .ok s1 →
      s1.holds_field name := by
  induction calls with
  | nil =>
    intro s s1 hs _ h
    simp only [run_all, List.foldlM_nil, except_pure_eq_ok] at h
    subst h; exact hs
  | cons c rest ih =>
    intro s s1 hs hc h
    simp only [run_all, List.foldlM_cons, except_bind_eq_ok] at h
    obtain ⟨s2, h2, h⟩ := h
    obtain ⟨hr, hf⟩ := hc c (List.mem_cons_self _ _)
    exact ih s2 s1
      (holds_field_step name _ s s2 hs (call_run_root_step print s s2 c hs.1 hr hf h2).1)
      (fun c1 h1 => hc c1 (List.mem_cons_of_mem _ h1)) h

/-- The method `series_builder::finish` on a series that holds field `name`: an
array it returns has the field. -/
theorem finish_holds_field (print : data_view2 → Option String) (name : String)
    (s s1 : series_builder_impl) (arrays : List typed_array) (hs : s.holds_field name)
    (h : series_builder.finish print s = .ok (arrays, s1)) :
    ∃ a ∈ arrays, a.type.has_field name = true := by
  obtain ⟨hp, hs⟩ := hs
  simp only [series_builder.finish, series_builder_impl.finish] at h
  split at h
  · simp only [except_bind_eq_ok, ensure_eq_ok, except_pure_eq_ok, Prod.mk.injEq] at h
    obtain ⟨⟨array, b1⟩, hf, _, _, h1, _⟩ := h
    subst h1
    obtain ⟨_, ht, _⟩ := dynamic_builder_finish_root print _ _ _ _ _ hf hp
    rcases hs with ⟨hn, _⟩ | ⟨a, ha, hh⟩
    · exact ⟨array, List.mem_append_right _ (List.mem_singleton.mpr rfl), (ht name).mpr hn⟩
    · exact ⟨a, List.mem_append_left _ ha, hh⟩
  · rename_i hlen
    simp only [except_pure_eq_ok, Prod.mk.injEq] at h
    obtain ⟨h1, _⟩ := h
    subst h1
    rcases hs with ⟨_, hl⟩ | ⟨a, ha, hh⟩
    · omega
    · exact ⟨a, ha, hh⟩

theorem run_all_append (print : data_view2 → Option String) (s : series_builder_impl)
    (pre post : List call) :
    run_all print s (pre ++ post) = run_all print s pre >>= fun s1 => run_all print s1 post := by
  simp only [run_all, List.foldlM_append]

theorem series_new_lacks_field (name : String) : series_builder_impl.new.lacks_field name :=
  ⟨plain_of_kind _ _ _ rfl, fun h => absurd h (List.not_mem_nil _),
    fun _ ha => absurd ha (List.not_mem_nil _)⟩

/-- C17, amended: calls on a fresh series, up to a call of `finish()`. When no
call writes a value (a record, a list, or an atom other than null) through a
handle to field `b` of the top-level record, so that `b` is only ever written
with `atom(null)`, no batch that `finish()` returns has a top-level field `b`.
And every field of the top-level record that a call writes a value into is a
top-level field of a batch that `finish()` returns, when no `remove_last()`
and no earlier `finish()` follows the write. -/
theorem always_null_field_is_in_no_batch (print : data_view2 → Option String) (b : String)
    (calls : List call) (s s1 : series_builder_impl) (arrays : List typed_array)
    (hb : ∀ c ∈ calls, b ∉ c.written_fields)
    (hrun : run_all print series_builder_impl.new calls = .ok s)
    (hfin : series_builder.finish print s = .ok (arrays, s1)) :
    (∀ a ∈ arrays, a.type.has_field b = false)
    ∧ (∀ pre w post n, calls = pre ++ w :: post → n ∈ w.written_fields →
        (∀ c ∈ post, c ≠ .remove_last ∧ c ≠ .finish) →
        ∃ a ∈ arrays, a.type.has_field n = true) := by
  refine ⟨(finish_lacks_field print b s s1 arrays
    (run_all_lacks_field print b calls _ s (series_new_lacks_field b) hb hrun) hfin).1, ?_⟩
  intro pre w post n hcalls hn hpost
  subst hcalls
  rw [run_all_append] at hrun
  simp only [except_bind_eq_ok] at hrun
  obtain ⟨s2, hpre, hrest⟩ := hrun
  simp only [run_all, List.foldlM_cons, except_bind_eq_ok] at hrest
  obtain ⟨s3, hw, hrest⟩ := hrest
  have hp2 := run_all_plain print pre _ s2 (series_new_lacks_field b).1 hpre
  have hr : w ≠ .remove_last := by
    intro hc; subst hc; exact absurd hn (List.not_mem_nil _)
  have hf : w ≠ .finish := by
    intro hc; subst hc; exact absurd hn (List.not_mem_nil _)
  have h3 := (call_run_root_step print s2 s3 w hp2 hr hf hw).2 n hn
  exact finish_holds_field print n s s1 arrays
    (run_all_holds_field print n post s3 s h3 hpost hrest) hfin
/-- The event `{a: 1, b: null}` is opened on a fresh series. -/
theorem null_field_events_step1 (print : data_view2 → Option String) :
    call.run print
      series_builder_impl.new
      (.record .series)
      = .ok ⟨(.mk (.record [] [] 1 none) false .null), [], false⟩ := rfl

/-- The field `a` of the first event gets 1. -/
theorem null_field_events_step2 (print : data_view2 → Option String) :
    call.run print
      ⟨(.mk (.record [] [] 1 none) false .null), [], false⟩
      (.atom (.field ⟨⟨[], none⟩, "a"⟩) (.int64 1))
      = .ok ⟨(.mk (.record [("a", (.mk (.atom (.basic (.int64)) [some (.int64 1)]) false .null))]
      [] 1 none) false .null), [], false⟩ := rfl

/-- The field `b` of the first event gets null: no field is added. -/
theorem null_field_events_step3 (print : data_view2 → Option String) :
    call.run print
      ⟨(.mk (.record [("a", (.mk (.atom (.basic (.int64)) [some (.int64 1)]) false .null))]
      [] 1 none) false .null), [], false⟩
      (.atom (.field ⟨⟨[], none⟩, "b"⟩) .null)
      = .ok ⟨(.mk (.record [("a", (.mk (.atom (.basic (.int64)) [some (.int64 1)]) false .null))]
      [] 1 none) false .null), [], false⟩ := rfl

/-- The event `{a: 2, b: null}` is opened. -/
theorem null_field_events_step4 (print : data_view2 → Option String) :
    call.run print
      ⟨(.mk (.record [("a", (.mk (.atom (.basic (.int64)) [some (.int64 1)]) false .null))]
      [] 1 none) false .null), [], false⟩
      (.record .series)
      = .ok ⟨(.mk (.record [("a", (.mk (.atom (.basic (.int64)) [some (.int64 1)]) false .null))]
      [] 2 none) false .null), [], false⟩ := rfl

/-- The field `a` of the second event gets 2. -/
theorem null_field_events_step5 (print : data_view2 → Option String) :
    call.run print
      ⟨(.mk (.record [("a", (.mk (.atom (.basic (.int64)) [some (.int64 1)]) false .null))]
      [] 2 none) false .null), [], false⟩
      (.atom (.field ⟨⟨[], none⟩, "a"⟩) (.int64 2))
      = .ok ⟨(.mk (.record [("a", (.mk (.atom (.basic (.int64)) [some (.int64 1), some
      (.int64 2)]) false .null))] [] 2 none) false .null), [], false⟩ := rfl

/-- The field `b` of the second event gets null: no field is added. -/
theorem null_field_events_step6 (print : data_view2 → Option String) :
    call.run print
      ⟨(.mk (.record [("a", (.mk (.atom (.basic (.int64)) [some (.int64 1), some
      (.int64 2)]) false .null))] [] 2 none) false .null), [], false⟩
      (.atom (.field ⟨⟨[], none⟩, "b"⟩) .null)
      = .ok ⟨(.mk (.record [("a", (.mk (.atom (.basic (.int64)) [some (.int64 1), some
      (.int64 2)]) false .null))] [] 2 none) false .null), [], false⟩ := rfl

/-- The two events `{a: 1, b: null}` and `{a: 2, b: null}` finish as one batch. -/
theorem null_field_events_finish (print : data_view2 → Option String) :
    series_builder.finish print
      ⟨(.mk (.record [("a", (.mk (.atom (.basic (.int64)) [some (.int64 1), some
      (.int64 2)]) false .null))] [] 2 none) false .null), [], false⟩
      = .ok ([⟨(tenzir.type.record [("a", (.basic .int64))]), (.struct 2 [(.primitive [some
      (.int64 1), some (.int64 2)])] none)⟩],
        ⟨(.mk (.null 0) false .null), [], false⟩) := rfl

theorem always_null_field_is_in_no_batch_witness :
    ((⟨(tenzir.type.record [("a", (.basic .int64))]), (.struct 2 [(.primitive [some
      (.int64 1), some (.int64 2)])] none)⟩ : typed_array)).type.has_field "b" = false
    ∧ ∃ a ∈ [(⟨(tenzir.type.record [("a", (.basic .int64))]), (.struct 2 [(.primitive [some
      (.int64 1), some (.int64 2)])] none)⟩ : typed_array)], a.type.has_field "a" = true :=
  (fun h => ⟨h.1 _ (List.mem_cons_self _ _),
      h.2 [.record .series] (.atom (.field ⟨⟨[], none⟩, "a"⟩) (.int64 1))
        [.atom (.field ⟨⟨[], none⟩, "b"⟩) .null,
         .record .series,
         .atom (.field ⟨⟨[], none⟩, "a"⟩) (.int64 2),
         .atom (.field ⟨⟨[], none⟩, "b"⟩) .null]
        "a" rfl (by decide) (by decide)⟩)
  (always_null_field_is_in_no_batch (fun _ => none) "b"
    [.record .series,
     .atom (.field ⟨⟨[], none⟩, "a"⟩) (.int64 1),
     .atom (.field ⟨⟨[], none⟩, "b"⟩) .null,
     .record .series,
     .atom (.field ⟨⟨[], none⟩, "a"⟩) (.int64 2),
     .atom (.field ⟨⟨[], none⟩, "b"⟩) .null]
    ⟨(.mk (.record [("a", (.mk (.atom (.basic (.int64)) [some (.int64 1), some
    (.int64 2)]) false .null))] [] 2 none) false .null), [], false⟩
    ⟨(.mk (.null 0) false .null), [], false⟩
    [⟨(tenzir.type.record [("a", (.basic .int64))]), (.struct 2 [(.primitive [some
    (.int64 1), some (.int64 2)])] none)⟩]
    (by decide)
    (by
      simp only [run_all, List.foldlM_cons, List.foldlM_nil, except_bind_ok,
        null_field_events_step1 _,
        null_field_events_step2 _,
        null_field_events_step3 _,
        null_field_events_step4 _,
        null_field_events_step5 _,
        null_field_events_step6 _]
      rfl)
    (null_field_events_finish _))

/-- The event `{a: 1, b: null}` is opened on a fresh series, before a cut. -/
theorem late_field_step1 (print : data_view2 → Option String) :
    call.run print
      series_builder_impl.new
      (.record .series)
      = .ok ⟨(.mk (.record [] [] 1 none) false .null), [], false⟩ := rfl

/-- The field `a` of the first event gets 1, before a cut. -/
theorem late_field_step2 (print : data_view2 → Option String) :
    call.run print
      ⟨(.mk (.record [] [] 1 none) false .null), [], false⟩
      (.atom (.field ⟨⟨[], none⟩, "a"⟩) (.int64 1))
      = .ok ⟨(.mk (.record [("a", (.mk (.atom (.basic (.int64)) [some (.int64 1)]) false .null))]
      [] 1 none) false .null), [], false⟩ := rfl

/-- The field `b` of the first event gets null, before a cut. -/
theorem late_field_step3 (print : data_view2 → Option String) :
    call.run print
      ⟨(.mk (.record [("a", (.mk (.atom (.basic (.int64)) [some (.int64 1)]) false .null))]
      [] 1 none) false .null), [], false⟩
      (.atom (.field ⟨⟨[], none⟩, "b"⟩) .null)
      = .ok ⟨(.mk (.record [("a", (.mk (.atom (.basic (.int64)) [some (.int64 1)]) false .null))]
      [] 1 none) false .null), [], false⟩ := rfl

/-- The event `{a: "s", c: 2, b: null}` is opened. -/
theorem late_field_step4 (print : data_view2 → Option String) :
    call.run print
      ⟨(.mk (.record [("a", (.mk (.atom (.basic (.int64)) [some (.int64 1)]) false .null))]
      [] 1 none) false .null), [], false⟩
      (.record .series)
      = .ok ⟨(.mk (.record [("a", (.mk (.atom (.basic (.int64)) [some (.int64 1)]) false .null))]
      [] 2 none) false .null), [], false⟩ := rfl

/-- The field `a` of the second event gets a string: the first event is cut off as a
batch of the type `{a: int64}`. -/
theorem late_field_step5 (print : data_view2 → Option String) :
    call.run print
      ⟨(.mk (.record [("a", (.mk (.atom (.basic (.int64)) [some (.int64 1)]) false .null))]
      [] 2 none) false .null), [], false⟩
      (.atom (.field ⟨⟨[], none⟩, "a"⟩) (.string "s"))
      = .ok ⟨(.mk (.record [("a", (.mk (.atom (.basic (.string)) [some
      (.string "s")]) false .null))] [] 1 none) false .null), [⟨(tenzir.type.record [("a",
      (.basic .int64))]), (.struct 1 [(.primitive [some (.int64 1)])] none)⟩], false⟩ := rfl

/-- The field `c` of the second event gets 2: the field is new in the builder. -/
theorem late_field_step6 (print : data_view2 → Option String) :
    call.run print
      ⟨(.mk (.record [("a", (.mk (.atom (.basic (.string)) [some (.string "s")]) false .null))]
      [] 1 none) false .null), [⟨(tenzir.type.record [("a", (.basic .int64))]), (.struct 1
      [(.primitive [some (.int64 1)])] none)⟩], false⟩
      (.atom (.field ⟨⟨[], none⟩, "c"⟩) (.int64 2))
      = .ok ⟨(.mk (.record [("a", (.mk (.atom (.basic (.string)) [some
      (.string "s")]) false .null)), ("c", (.mk (.atom (.basic (.int64)) [some
      (.int64 2)]) false .null))] [] 1 none) false .null), [⟨(tenzir.type.record [("a",
      (.basic .int64))]), (.struct 1 [(.primitive [some (.int64 1)])] none)⟩], false⟩ := rfl

/-- The field `b` of the second event gets null: no field is added. -/
theorem late_field_step7 (print : data_view2 → Option String) :
    call.run print
      ⟨(.mk (.record [("a", (.mk (.atom (.basic (.string)) [some (.string "s")]) false .null)),
      ("c", (.mk (.atom (.basic (.int64)) [some (.int64 2)]) false .null))]
      [] 1 none) false .null), [⟨(tenzir.type.record [("a", (.basic .int64))]), (.struct 1
      [(.primitive [some (.int64 1)])] none)⟩], false⟩
      (.atom (.field ⟨⟨[], none⟩, "b"⟩) .null)
      = .ok ⟨(.mk (.record [("a", (.mk (.atom (.basic (.string)) [some
      (.string "s")]) false .null)), ("c", (.mk (.atom (.basic (.int64)) [some
      (.int64 2)]) false .null))] [] 1 none) false .null), [⟨(tenzir.type.record [("a",
      (.basic .int64))]), (.struct 1 [(.primitive [some (.int64 1)])] none)⟩], false⟩ := rfl

/-- C17, as stated, fails: in the events `{a: 1, b: null}` and
`{a: "s", c: 2, b: null}` field `b` is only written with null, field `c` is
written with the value 2, and `finish()` returns two batches. The first
batch, cut off when `a` changed its kind, does not have the field `c`: a
written field other than `b` is not in the type of every batch. -/
theorem written_field_is_not_in_every_batch :
    run_all (fun _ => none) series_builder_impl.new
      [.record .series,
       .atom (.field ⟨⟨[], none⟩, "a"⟩) (.int64 1),
       .atom (.field ⟨⟨[], none⟩, "b"⟩) .null,
       .record .series,
       .atom (.field ⟨⟨[], none⟩, "a"⟩) (.string "s"),
       .atom (.field ⟨⟨[], none⟩, "c"⟩) (.int64 2),
       .atom (.field ⟨⟨[], none⟩, "b"⟩) .null]
      = .ok ⟨(.mk (.record [("a", (.mk (.atom (.basic (.string)) [some (.string "s")]) false .null)),
      ("c", (.mk (.atom (.basic (.int64)) [some (.int64 2)]) false .null))]
      [] 1 none) false .null), [⟨(tenzir.type.record [("a", (.basic .int64))]), (.struct 1
      [(.primitive [some (.int64 1)])] none)⟩], false⟩
    ∧ series_builder.finish (fun _ => none)
      ⟨(.mk (.record [("a", (.mk (.atom (.basic (.string)) [some (.string "s")]) false .null)),
      ("c", (.mk (.atom (.basic (.int64)) [some (.int64 2)]) false .null))]
      [] 1 none) false .null), [⟨(tenzir.type.record [("a", (.basic .int64))]), (.struct 1
      [(.primitive [some (.int64 1)])] none)⟩], false⟩
      = .ok ([⟨(tenzir.type.record [("a", (.basic .int64))]), (.struct 1 [(.primitive [some
      (.int64 1)])] none)⟩, ⟨(tenzir.type.record [("a", (.basic .string)), ("c",
      (.basic .int64))]), (.struct 1 [(.primitive [some (.string "s")]), (.primitive [some
      (.int64 2)])] none)⟩],
        ⟨(.mk (.null 0) false .null), [], false⟩)
    ∧ ((⟨(tenzir.type.record [("a", (.basic .int64))]), (.struct 1 [(.primitive [some
      (.int64 1)])] none)⟩ : typed_array)).type.has_field "c" = false
    ∧ ((⟨(tenzir.type.record [("a", (.basic .string)), ("c", (.basic .int64))]), (.struct 1
      [(.primitive [some (.string "s")]), (.primitive [some (.int64 2)])] none)⟩ : typed_array)).type.has_field "c" = true := by
  refine ⟨?_, rfl, rfl, rfl⟩
  simp only [run_all, List.foldlM_cons, List.foldlM_nil, except_bind_ok,
    late_field_step1 _,
    late_field_step2 _,
    late_field_step3 _,
    late_field_step4 _,
    late_field_step5 _,
    late_field_step6 _,
    late_field_step7 _]
  rfl

end tenzir
